import Mathlib

/-!
# Jansson decoder (`src/load.c`): stream, lexer, number classifier and parser

A shallow embedding of the decoding pipeline of `load.c` together with the
properties of it that the specification states.

Conventions of the embedding.

* A `char` is a signed 8 bit quantity: values read back from `stream->buffer`
  are integers in `[-128, 127]`.  Bytes of the input and of the saved token
  text are kept as naturals in `[0, 255]`.
* The byte source (`get_func` plus its `data`) is the list of bytes that has
  not been handed out yet.
* A pointer that may be `NULL` is an `Option`; big number handles are opaque
  naturals with `0` standing for the null handle.
* Loops are recursive functions that take the number of iterations they may
  still run; every caller passes a bound computed from the unread input that
  the loop cannot exceed.
* Allocation failure is not modelled.
-/

namespace Jansson

/-! ## Constants -/

abbrev STREAM_STATE_OK : Int := 0
abbrev STREAM_STATE_EOF : Int := -1
abbrev STREAM_STATE_ERROR : Int := -2

abbrev TOKEN_INVALID : Int := -1
abbrev TOKEN_EOF : Int := 0
abbrev TOKEN_STRING : Int := 256
abbrev TOKEN_INTEGER : Int := 257
abbrev TOKEN_REAL : Int := 258
abbrev TOKEN_TRUE : Int := 259
abbrev TOKEN_FALSE : Int := 260
abbrev TOKEN_NULL : Int := 261
abbrev TOKEN_BIGINTEGER : Int := 262
abbrev TOKEN_BIGREAL : Int := 263

/-- The value `EOF` of `<stdio.h>`. -/
abbrev EOF : Int := -1

/-- The value `DBL_DIG` of `<float.h>` for an IEEE-754 double. -/
abbrev DBL_DIG : Int := 15

/-- Modelled from the spec: `JSON_ERROR_TEXT_LENGTH` is declared in `jansson.h`,
which is not among the sources; the error object holds a "human-readable
message" in a fixed buffer, taken here with the size the library uses. -/
abbrev JSON_ERROR_TEXT_LENGTH : Nat := 160

/-- Bytes of a string literal. -/
def str (s : String) : List Nat := s.toList.map Char.toNat

/-! ## Locale independent character classes -/

def l_isupper (c : Int) : Bool := decide (65 ≤ c) && decide (c ≤ 90)
def l_islower (c : Int) : Bool := decide (97 ≤ c) && decide (c ≤ 122)
def l_isalpha (c : Int) : Bool := l_isupper c || l_islower c
def l_isdigit (c : Int) : Bool := decide (48 ≤ c) && decide (c ≤ 57)
def l_isxdigit (c : Int) : Bool :=
  l_isdigit c || (decide (65 ≤ c) && decide (c ≤ 70)) || (decide (97 ≤ c) && decide (c ≤ 102))

/-! ## C conversions -/

/-- Conversion of an `int` to (signed) `char`. -/
def to_char (c : Int) : Int := (c + 128) % 256 - 128

/-- Conversion of an `int` or `char` to `unsigned char`. -/
def to_uchar (c : Int) : Nat := (c % 256).toNat

/-- The bytes of a C string: everything before the first NUL. -/
def c_str (s : List Nat) : List Nat := s.takeWhile (fun b => b != 0)

/-! ## UTF-8 helpers (`utf.c`) -/

/-- Modelled from the spec: `utf8_check_first` lives in `utf.c`, which is not
among the sources.  A lead byte that is single-byte ASCII counts 1; a byte that
opens a multi-byte sequence counts the length of that sequence; a byte that
cannot start a well-formed sequence (a continuation byte, the lead byte of an
encoding that is not of minimal length, a lead byte beyond the code point
range) counts 0. -/
def utf8_check_first (byte : Int) : Nat :=
  let u := to_uchar byte
  if u < 0x80 then 1
  else if u ≤ 0xBF then 0
  else if u = 0xC0 ∨ u = 0xC1 then 0
  else if u ≤ 0xDF then 2
  else if u ≤ 0xEF then 3
  else if u ≤ 0xF4 then 4
  else 0

/-- The `for` loop of `utf8_check_full` over the continuation bytes: `none`
when a byte is not of the continuation pattern. -/
def utf8_check_cont : List Int → Nat → Option Nat
  | [], value => some value
  | b :: rest, value =>
    let u := to_uchar b
    if u < 0x80 ∨ u > 0xBF then none
    else utf8_check_cont rest (value * 64 + u % 64)

/-- Modelled from the spec: `utf8_check_full` lives in `utf.c`, which is not
among the sources.  The full sequence is validated for "correct
continuation-byte pattern, minimal-length encoding, code point range"; the
surrogate halves are not code points. -/
def utf8_check_full (buffer : List Int) (size : Nat) : Bool :=
  let u := to_uchar (buffer.getD 0 0)
  let lead : Option Nat :=
    if size = 2 then some (u % 32)
    else if size = 3 then some (u % 16)
    else if size = 4 then some (u % 8)
    else none
  match lead with
  | none => false
  | some v =>
    match utf8_check_cont ((buffer.drop 1).take (size - 1)) v with
    | none => false
    | some value =>
      if value > 0x10FFFF then false
      else if 0xD800 ≤ value ∧ value ≤ 0xDFFF then false
      else if (size = 2 ∧ value < 0x80) ∨ (size = 3 ∧ value < 0x800)
          ∨ (size = 4 ∧ value < 0x10000) then false
      else true

/-- Modelled from the spec: `utf8_encode` lives in `utf.c`, which is not among
the sources.  The UTF-8 encoding of a code point, `none` for a value outside
`0 .. 0x10FFFF` (the C function then returns non-zero). -/
def utf8_encode (codepoint : Int) : Option (List Nat) :=
  if codepoint < 0 then none
  else
    let v := codepoint.toNat
    if v < 0x80 then some [v]
    else if v < 0x800 then some [0xC0 + v / 64, 0x80 + v % 64]
    else if v < 0x10000 then some [0xE0 + v / 4096, 0x80 + v / 64 % 64, 0x80 + v % 64]
    else if v ≤ 0x10FFFF then
      some [0xF0 + v / 262144, 0x80 + v / 4096 % 64, 0x80 + v / 64 % 64, 0x80 + v % 64]
    else none

/-! ## Byte sources -/

/-- The two byte sources of `json_loads` and `json_loadb`. -/
inductive get_func where
  | string_get
  | buffer_get
  deriving DecidableEq, Repr

/-- The source `string_get`: the unread part of a NUL-terminated string.  The
terminating NUL is not consumed. -/
def string_get : List Nat → Int × List Nat
  | [] => (EOF, [])
  | b :: rest => if b % 256 = 0 then (EOF, b :: rest) else (((b % 256 : Nat) : Int), rest)

/-- The source `buffer_get`: the unread part of a buffer of known length. -/
def buffer_get : List Nat → Int × List Nat
  | [] => (EOF, [])
  | b :: rest => (((b % 256 : Nat) : Int), rest)

/-- Call through the function pointer `stream->get`. -/
def get_func.call : get_func → List Nat → Int × List Nat
  | .string_get => Jansson.string_get
  | .buffer_get => Jansson.buffer_get

/-! ## Stream and lexer state -/

structure stream_t where
  get : get_func
  data : List Nat
  buffer : List Int
  buffer_pos : Nat
  state : Int
  line : Int
  column : Int
  last_column : Int
  position : Nat
  deriving DecidableEq, Repr

/-- An IEEE-754 double, kept as its bit pattern; no arithmetic on it is
modelled. -/
structure double where
  bits : Nat
  deriving DecidableEq, Repr

abbrev json_bigz_t := Nat
abbrev json_bigr_t := Nat

/-- The union `lex->value`. -/
inductive lex_value where
  | string (val : Option (List Nat))
  | integer (v : Int)
  | real (v : double)
  | bigz (h : json_bigz_t)
  | bigr (h : json_bigr_t)
  deriving DecidableEq, Repr

structure lex_t where
  stream : stream_t
  saved_text : List Nat
  token : Int
  value : lex_value
  deriving DecidableEq, Repr

/-! ## Error reporting -/

/-- One call of `jsonp_error_set`. -/
structure error_report where
  line : Int
  column : Int
  position : Nat
  text : List Nat
  deriving DecidableEq, Repr

/-- Modelled from the spec: `json_error_t` and `jsonp_error_set` are declared
in `jansson.h` and defined in `error.c`, which are not among the sources.  The
error object carries "line ... column ... and absolute byte position of the
failure, plus a human-readable message"; the embedding keeps every report in
the order of the calls, so nothing is assumed about which report the caller
sees when several are made.  `position` is the field that `parse_json`
writes on success. -/
structure json_error_t where
  reports : List error_report
  position : Nat
  deriving DecidableEq, Repr

def jsonp_error_set (error : json_error_t) (line column : Int) (position : Nat)
    (text : List Nat) : json_error_t :=
  { error with reports := error.reports ++
      [{ line := line, column := column, position := position,
         text := text.take (JSON_ERROR_TEXT_LENGTH - 1) }] }

/-- The function `error_set`; `msg` is the already formatted message. -/
def error_set (error : json_error_t) (lex : Option lex_t) (msg : List Nat) : json_error_t :=
  let msg_text := msg.take (JSON_ERROR_TEXT_LENGTH - 1)
  match lex with
  | none => jsonp_error_set error (-1) (-1) 0 msg_text
  | some lex =>
    let saved_text := c_str lex.saved_text
    let result :=
      if saved_text ≠ [] then
        if lex.saved_text.length ≤ 20 then
          (msg_text ++ str " near '" ++ saved_text ++ str "'").take (JSON_ERROR_TEXT_LENGTH - 1)
        else msg_text
      else
        if lex.stream.state = STREAM_STATE_ERROR then msg_text
        else (msg_text ++ str " near end of file").take (JSON_ERROR_TEXT_LENGTH - 1)
    jsonp_error_set error lex.stream.line lex.stream.column lex.stream.position result

/-! ## Formatting helpers for the `printf` conversions used in messages -/

/-- One hexadecimal digit, lower case (`upper = false`) or upper case. -/
def hex_digit (upper : Bool) (d : Nat) : Nat :=
  if d < 10 then 48 + d else (if upper then 55 else 87) + d

/-- The hexadecimal digits of `n`, most significant first, at most `fuel` of
them; called with enough digits for the values that occur. -/
def hex_digits (upper : Bool) : Nat → Nat → List Nat
  | 0, _ => []
  | fuel + 1, n =>
    if n < 16 then [hex_digit upper n]
    else hex_digits upper fuel (n / 16) ++ [hex_digit upper (n % 16)]

/-- The conversion `%x` of a non-negative `int`. -/
def fmt_x (c : Int) : List Nat := hex_digits false 8 c.toNat

/-- The conversion `%04X` of a non-negative `int`. -/
def fmt_04X (c : Int) : List Nat :=
  let ds := hex_digits true 8 c.toNat
  List.replicate (4 - ds.length) 48 ++ ds

/-! ## The stream -/

def stream_init (get : get_func) (data : List Nat) : stream_t :=
  { get := get, data := data, buffer := [0, 0, 0, 0, 0], buffer_pos := 0,
    state := STREAM_STATE_OK, line := 1, column := 0, last_column := 0, position := 0 }

/-- The loop `for(i = 1; i < count; i++) stream->buffer[i] = stream->get(stream->data);`
with `n = count - i` iterations left. -/
def stream_get_rest : Nat → Nat → get_func → List Nat → List Int → List Int × List Nat
  | 0, _, _, data, buffer => (buffer, data)
  | n + 1, i, get, data, buffer =>
    let r := get.call data
    stream_get_rest n (i + 1) get r.2 (buffer.set i (to_char r.1))

/-- The label `out:` of `stream_get`. -/
def stream_get_out (lex : lex_t) (c : Int) (error : json_error_t) :
    Int × lex_t × json_error_t :=
  let lex := { lex with stream := { lex.stream with state := STREAM_STATE_ERROR } }
  (STREAM_STATE_ERROR, lex,
    error_set error (some lex) (str "unable to decode byte 0x" ++ fmt_x c))

/-- The tail of `stream_get` from `c = stream->buffer[stream->buffer_pos++]` on. -/
def stream_get_next (lex : lex_t) (error : json_error_t) : Int × lex_t × json_error_t :=
  let stream := lex.stream
  let c := stream.buffer.getD stream.buffer_pos 0
  let stream := { stream with buffer_pos := stream.buffer_pos + 1,
                              position := stream.position + 1 }
  let stream :=
    if c = 10 then
      { stream with line := stream.line + 1, last_column := stream.column, column := 0 }
    else if utf8_check_first c ≠ 0 then
      { stream with column := stream.column + 1 }
    else stream
  (c, { lex with stream := stream }, error)

/-- The function `stream_get`.  It takes the lexer that contains the stream,
since its error path reaches it through `stream_to_lex`. -/
def stream_get (lex : lex_t) (error : json_error_t) : Int × lex_t × json_error_t :=
  let stream := lex.stream
  if stream.state ≠ STREAM_STATE_OK then (stream.state, lex, error)
  else if stream.buffer.getD stream.buffer_pos 0 = 0 then
    let r := stream.get.call stream.data
    let c := r.1
    if c = EOF then
      (STREAM_STATE_EOF,
        { lex with stream := { stream with data := r.2, state := STREAM_STATE_EOF } }, error)
    else
      let stream := { stream with data := r.2, buffer := stream.buffer.set 0 (to_char c),
                                  buffer_pos := 0 }
      if 0x80 ≤ c ∧ c ≤ 0xFF then
        let count := utf8_check_first c
        if count = 0 then stream_get_out { lex with stream := stream } c error
        else
          let q := stream_get_rest (count - 1) 1 stream.get stream.data stream.buffer
          let stream := { stream with data := q.2, buffer := q.1 }
          if utf8_check_full stream.buffer count = false then
            stream_get_out { lex with stream := stream } c error
          else
            stream_get_next
              { lex with stream := { stream with buffer := stream.buffer.set count 0 } } error
      else
        stream_get_next
          { lex with stream := { stream with buffer := stream.buffer.set 1 0 } } error
  else stream_get_next lex error

def stream_unget (stream : stream_t) (c : Int) : stream_t :=
  if c = STREAM_STATE_EOF ∨ c = STREAM_STATE_ERROR then stream
  else
    let stream := { stream with position := stream.position - 1 }
    let stream :=
      if c = 10 then { stream with line := stream.line - 1, column := stream.last_column }
      else if utf8_check_first c ≠ 0 then { stream with column := stream.column - 1 }
      else stream
    { stream with buffer_pos := stream.buffer_pos - 1 }

/-! ## The lexer -/

def lex_get (lex : lex_t) (error : json_error_t) : Int × lex_t × json_error_t :=
  stream_get lex error

/-- Modelled from the spec: `strbuffer_append_byte` lives in `strbuffer.c`, which
is not among the sources; the saved text is "the verbatim source text of the
token", one byte appended per call. -/
def lex_save (lex : lex_t) (c : Int) : lex_t :=
  { lex with saved_text := lex.saved_text ++ [to_uchar c] }

def lex_get_save (lex : lex_t) (error : json_error_t) : Int × lex_t × json_error_t :=
  let r := stream_get lex error
  let c := r.1
  if c ≠ STREAM_STATE_EOF ∧ c ≠ STREAM_STATE_ERROR then (c, lex_save r.2.1 c, r.2.2)
  else r

def lex_unget (lex : lex_t) (c : Int) : lex_t :=
  { lex with stream := stream_unget lex.stream c }

/-- The function `lex_unget_unsave`; `strbuffer_pop` removes the last byte of
the saved text. -/
def lex_unget_unsave (lex : lex_t) (c : Int) : lex_t :=
  if c ≠ STREAM_STATE_EOF ∧ c ≠ STREAM_STATE_ERROR then
    { lex with stream := stream_unget lex.stream c, saved_text := lex.saved_text.dropLast }
  else lex

/-- The loop of `lex_save_cached`; the buffer has five bytes, so five
iterations are enough. -/
def lex_save_cached_loop : Nat → lex_t → lex_t
  | 0, lex => lex
  | n + 1, lex =>
    let c := lex.stream.buffer.getD lex.stream.buffer_pos 0
    if c ≠ 0 then
      let lex := lex_save lex c
      lex_save_cached_loop n
        { lex with stream := { lex.stream with buffer_pos := lex.stream.buffer_pos + 1,
                                               position := lex.stream.position + 1 } }
    else lex

def lex_save_cached (lex : lex_t) : lex_t := lex_save_cached_loop 5 lex

def lex_free_string (lex : lex_t) : lex_t :=
  { lex with value := lex_value.string none }

/-! ## Flags and context -/

/-- Modelled from the spec: the flag constants are declared in `jansson.h`,
which is not among the sources.  `flags` is a bit mask of the "recognized
options", every option one bit of its own, so a mask is the record of its
bits. -/
structure load_flags where
  JSON_REJECT_DUPLICATES : Bool
  JSON_DISABLE_EOF_CHECK : Bool
  JSON_DECODE_ANY : Bool
  JSON_DECODE_INT_AS_REAL : Bool
  JSON_ALLOW_NUL : Bool
  JSON_USE_BIGINT : Bool
  JSON_USE_BIGINT_ALWAYS : Bool
  JSON_USE_BIGREAL : Bool
  JSON_USE_BIGREAL_ALWAYS : Bool
  deriving DecidableEq, Repr

/-- The mask `0`. -/
def no_flags : load_flags :=
  { JSON_REJECT_DUPLICATES := false, JSON_DISABLE_EOF_CHECK := false, JSON_DECODE_ANY := false,
    JSON_DECODE_INT_AS_REAL := false, JSON_ALLOW_NUL := false, JSON_USE_BIGINT := false,
    JSON_USE_BIGINT_ALWAYS := false, JSON_USE_BIGREAL := false,
    JSON_USE_BIGREAL_ALWAYS := false }

/-- What `jsonp_strtod` hands back: its return code, whether `errno` is
`ERANGE` after the call, and the value stored through `out`. -/
structure strtod_result where
  rc : Int
  erange : Bool
  value : double
  deriving DecidableEq, Repr

/-- The process-wide context `jsonp_context()` with the parts of the installed
backends that the decoder calls (`from_string_fn` returns the null handle `0`
on failure), and the conversion `jsonp_strtod` of `strconv.c`, which is not
among the sources and whose floating point arithmetic is not modelled: it is
an arbitrary function of the token text. -/
structure json_context_t where
  have_bigint : Bool
  have_bigreal : Bool
  bigint_from_string_fn : List Nat → json_bigz_t
  bigreal_from_string_fn : List Nat → json_bigr_t
  jsonp_strtod : List Nat → strtod_result

/-! ## Conversions of `<stdlib.h>` and `strconv.c` -/

def l_isspace (b : Nat) : Bool := b == 32 || (decide (9 ≤ b) && decide (b ≤ 13))

/-- The digits loop of `strtoll`: the value of the longest prefix of decimal
digits. -/
def strtoint_digits : List Nat → Nat → Nat
  | [], acc => acc
  | b :: rest, acc =>
    if 48 ≤ b ∧ b ≤ 57 then strtoint_digits rest (acc * 10 + (b - 48)) else acc

/-- The optional sign of `strtoll`: whether it is `-`, and the text after it. -/
def strtoint_sign : List Nat → Bool × List Nat
  | 45 :: r => (true, r)
  | 43 :: r => (false, r)
  | t => (false, t)

/-- The call `json_strtoint(saved_text, &end, 10)`, which is `strtoll` with a 64
bit `json_int_t`: the converted value and whether `errno` is `ERANGE`
afterwards.  Out of range values are clamped to the nearest bound. -/
def json_strtoint (text : List Nat) : Int × Bool :=
  let sd := strtoint_sign ((c_str text).dropWhile l_isspace)
  let n : Int := (strtoint_digits sd.2 0 : Nat)
  let v : Int := if sd.1 then -n else n
  if v < -(2 : Int) ^ 63 then (-(2 : Int) ^ 63, true)
  else if v > (2 : Int) ^ 63 - 1 then ((2 : Int) ^ 63 - 1, true)
  else (v, false)

/-- Whether a byte is a decimal digit. -/
def is_digit_byte (b : Nat) : Bool := decide (48 ≤ b) && decide (b ≤ 57)

/-- Modelled from the spec: `jsonp_count_significand_digits` lives in
`strconv.c`, which is not among the sources.  It counts "the number of
significant decimal digits in the mantissa so far (leading zeros and the sign
do not count ...)", "excluding sign and non-significant leading/trailing
zeros", and the same "whether or not an exponent follows": the digits before
any exponent marker, without the zeros at either end. -/
def jsonp_count_significand_digits (text : List Nat) : Int :=
  let mantissa := (c_str text).takeWhile (fun b => b != 69 && b != 101)
  let digits := mantissa.filter is_digit_byte
  let digits := digits.dropWhile (fun b => b == 48)
  let digits := (digits.reverse.dropWhile (fun b => b == 48)).reverse
  (digits.length : Int)

/-! ## String tokens -/

/-- The loop of `decode_unicode_escape` with `n` hexadecimal digits left to
read from `s`. -/
def decode_unicode_escape_loop : Nat → List Nat → Int → Int
  | 0, _, value => value
  | n + 1, s, value =>
    let c := to_char (s.headD 0)
    let value := value * 16
    if l_isdigit c then decode_unicode_escape_loop n s.tail (value + (c - 48))
    else if l_islower c then decode_unicode_escape_loop n s.tail (value + (c - 97 + 10))
    else if l_isupper c then decode_unicode_escape_loop n s.tail (value + (c - 65 + 10))
    else -1

/-- The function `decode_unicode_escape`; `s` starts at the `u`. -/
def decode_unicode_escape (s : List Nat) : Int :=
  decode_unicode_escape_loop 4 (s.drop 1) 0

/-- The loop `for(i = 0; i < 4; i++)` of the first pass of `lex_scan_string`;
the first component is `none` after `goto out`. -/
def lex_scan_string_hex : Nat → lex_t → Int → json_error_t → Option Int × lex_t × json_error_t
  | 0, lex, c, error => (some c, lex, error)
  | n + 1, lex, c, error =>
    if l_isxdigit c = false then
      (none, lex, error_set error (some lex) (str "invalid escape"))
    else
      let r := lex_get_save lex error
      lex_scan_string_hex n r.2.1 r.1 r.2.2

/-- The body of the first loop of `lex_scan_string` (`while(c != '"')`), for a
`c` that is not the quote: the next `c`, or `none` after `goto out`. -/
def lex_scan_string_body (lex : lex_t) (c : Int) (error : json_error_t) :
    Option Int × lex_t × json_error_t :=
  if c = STREAM_STATE_ERROR then (none, lex, error)
  else if c = STREAM_STATE_EOF then
    (none, lex, error_set error (some lex) (str "premature end of input"))
  else if 0 ≤ c ∧ c ≤ 0x1F then
    let lex := lex_unget_unsave lex c
    if c = 10 then (none, lex, error_set error (some lex) (str "unexpected newline"))
    else (none, lex, error_set error (some lex) (str "control character 0x" ++ fmt_x c))
  else if c = 92 then
    let r := lex_get_save lex error
    let c := r.1
    if c = 117 then
      let r := lex_get_save r.2.1 r.2.2
      lex_scan_string_hex 4 r.2.1 r.1 r.2.2
    else if c = 34 ∨ c = 92 ∨ c = 47 ∨ c = 98 ∨ c = 102 ∨ c = 110 ∨ c = 114 ∨ c = 116 then
      let r := lex_get_save r.2.1 r.2.2
      (some r.1, r.2.1, r.2.2)
    else (none, r.2.1, error_set r.2.2 (some r.2.1) (str "invalid escape"))
  else
    let r := lex_get_save lex error
    (some r.1, r.2.1, r.2.2)

/-- The first loop of `lex_scan_string` (`while(c != '"')`).  The flag of the
result is `false` after `goto out`.  `none`: the iteration bound was used up. -/
def lex_scan_string_loop : Nat → lex_t → Int → json_error_t → Option (Bool × lex_t × json_error_t)
  | 0, _, _, _ => none
  | n + 1, lex, c, error =>
    if c = 34 then some (true, lex, error)
    else
      match lex_scan_string_body lex c error with
      | (none, lex, error) => some (false, lex, error)
      | (some c, lex, error) => lex_scan_string_loop n lex c error

/-- The byte a shortcut escape stands for (the `switch` of the second pass);
`none` is its `default: assert(0)`. -/
def lex_scan_string_shortcut (c : Nat) : Option Nat :=
  if c = 34 ∨ c = 92 ∨ c = 47 then some c
  else if c = 98 then some 8
  else if c = 102 then some 12
  else if c = 110 then some 10
  else if c = 114 then some 13
  else if c = 116 then some 9
  else none

/-- The body of the second loop of `lex_scan_string` (`while(*p != '"')`), for
`p = c :: p1` with `c` not the quote; `t` holds the bytes written so far.  The
result is the new `p` and `t`, or `some (none, _)` after `goto out`; `none`: an
`assert(0)` was met. -/
def lex_scan_string_decode_body (lex : lex_t) (c : Nat) (p1 t : List Nat)
    (error : json_error_t) : Option (Option (List Nat × List Nat) × json_error_t) :=
  let p := c :: p1
  if c = 92 then
    if p1.headD 0 = 117 then
      let value := decode_unicode_escape p1
      if value < 0 then
        some (none, error_set error (some lex)
          (str "invalid Unicode escape '" ++ (c_str p).take 6 ++ str "'"))
      else
        let p2 := p1.drop 5
        if 0xD800 ≤ value ∧ value ≤ 0xDBFF then
          if p2.headD 0 = 92 ∧ p2.tail.headD 0 = 117 then
            let value2 := decode_unicode_escape p2.tail
            if value2 < 0 then
              some (none, error_set error (some lex)
                (str "invalid Unicode escape '" ++ (c_str p2).take 6 ++ str "'"))
            else if 0xDC00 ≤ value2 ∧ value2 ≤ 0xDFFF then
              match utf8_encode ((value - 0xD800) * 1024 + (value2 - 0xDC00) + 0x10000) with
              | none => none
              | some bytes => some (some (p2.tail.drop 5, t ++ bytes), error)
            else
              some (none, error_set error (some lex)
                (str "invalid Unicode '\\u" ++ fmt_04X value ++ str "\\u" ++ fmt_04X value2
                  ++ str "'"))
          else
            some (none, error_set error (some lex)
              (str "invalid Unicode '\\u" ++ fmt_04X value ++ str "'"))
        else if 0xDC00 ≤ value ∧ value ≤ 0xDFFF then
          some (none, error_set error (some lex)
            (str "invalid Unicode '\\u" ++ fmt_04X value ++ str "'"))
        else
          match utf8_encode value with
          | none => none
          | some bytes => some (some (p2, t ++ bytes), error)
    else
      match lex_scan_string_shortcut (p1.headD 0) with
      | none => none
      | some b => some (some (p1.tail, t ++ [b]), error)
  else some (some (p1, t ++ [c]), error)

/-- The second loop of `lex_scan_string` (`while(*p != '"')`): `p` is the rest
of the saved text, `t` the bytes written so far.  The result is `some (none, _)`
after `goto out`.  `none`: the loop left the saved text, met an `assert(0)` or
used up the iteration bound. -/
def lex_scan_string_decode (lex : lex_t) :
    Nat → List Nat → List Nat → json_error_t → Option (Option (List Nat) × json_error_t)
  | 0, _, _, _ => none
  | _ + 1, [], _, _ => none
  | n + 1, c :: p1, t, error =>
    if c = 34 then some (some t, error)
    else
      match lex_scan_string_decode_body lex c p1 t error with
      | none => none
      | some (none, error) => some (none, error)
      | some (some (p, t), error) => lex_scan_string_decode lex n p t error

/-- The function `lex_scan_string`.  `none`: an iteration bound was used up. -/
def lex_scan_string (lex : lex_t) (error : json_error_t) : Option (lex_t × json_error_t) :=
  let lex := { lex with value := lex_value.string none, token := TOKEN_INVALID }
  let r := lex_get_save lex error
  match lex_scan_string_loop (lex.stream.data.length + 6) r.2.1 r.1 r.2.2 with
  | none => none
  | some (false, lex, error) => some (lex_free_string lex, error)
  | some (true, lex, error) =>
    match lex_scan_string_decode lex (lex.saved_text.length + 1) (lex.saved_text.drop 1) [] error with
    | none => none
    | some (none, error) => some (lex_free_string lex, error)
    | some (some t, error) =>
      some ({ lex with value := lex_value.string (some t), token := TOKEN_STRING }, error)

/-! ## Number tokens -/

/-- The loop `while(l_isdigit(c)) c = lex_get_save(lex, error);`.  `none`: the
iteration bound was used up. -/
def lex_scan_digits : Nat → lex_t → Int → json_error_t → Option (Int × lex_t × json_error_t)
  | 0, _, _, _ => none
  | n + 1, lex, c, error =>
    if l_isdigit c then
      let r := lex_get_save lex error
      lex_scan_digits n r.2.1 r.1 r.2.2
    else some (c, lex, error)

/-- The integer branch of `lex_scan_number` after its `lex_unget_unsave`
(source lines 531-567). -/
def lex_scan_number_integer (ctx : json_context_t) (lex : lex_t) (flags : load_flags)
    (error : json_error_t) : Int × lex_t × json_error_t :=
  let saved_text := lex.saved_text
  if flags.JSON_USE_BIGINT_ALWAYS then
    let bigvalue := ctx.bigint_from_string_fn (c_str saved_text)
    (0, { lex with token := TOKEN_BIGINTEGER, value := lex_value.bigz bigvalue }, error)
  else
    let r := json_strtoint saved_text
    let value := r.1
    if r.2 then
      if flags.JSON_USE_BIGINT then
        let bigvalue := ctx.bigint_from_string_fn (c_str saved_text)
        (0, { lex with token := TOKEN_BIGINTEGER, value := lex_value.bigz bigvalue }, error)
      else if value < 0 then
        (-1, lex, error_set error (some lex) (str "too big negative integer"))
      else (-1, lex, error_set error (some lex) (str "too big integer"))
    else (0, { lex with token := TOKEN_INTEGER, value := lex_value.integer value }, error)

/-- The end of the real branch of `lex_scan_number` after its last
`lex_unget_unsave` (source lines 607-638), with the digit count taken before
the exponent. -/
def lex_scan_number_real (ctx : json_context_t) (lex : lex_t) (flags : load_flags)
    (significand_digits : Int) (error : json_error_t) : Int × lex_t × json_error_t :=
  if flags.JSON_USE_BIGREAL_ALWAYS ∨
      (flags.JSON_USE_BIGREAL ∧ significand_digits + 1 ≥ DBL_DIG) then
    let bigvalue := ctx.bigreal_from_string_fn (c_str lex.saved_text)
    (0, { lex with token := TOKEN_BIGREAL, value := lex_value.bigr bigvalue }, error)
  else
    let r := ctx.jsonp_strtod lex.saved_text
    if r.erange ∧ flags.JSON_USE_BIGREAL then
      let bigvalue := ctx.bigreal_from_string_fn (c_str lex.saved_text)
      (0, { lex with token := TOKEN_BIGREAL, value := lex_value.bigr bigvalue }, error)
    else if r.rc ≠ 0 then
      (-1, lex, error_set error (some lex) (str "real number overflow"))
    else (0, { lex with token := TOKEN_REAL, value := lex_value.real r.value }, error)

/-- The exponent part of `lex_scan_number` (source lines 590-603), entered with
`c` being `E` or `e`; the first component is `none` after `goto out`. -/
def lex_scan_number_exponent (fuel : Nat) (lex : lex_t) (error : json_error_t) :
    Option (Option Int × lex_t × json_error_t) :=
  let r := lex_get_save lex error
  let r := if r.1 = 43 ∨ r.1 = 45 then lex_get_save r.2.1 r.2.2 else r
  if l_isdigit r.1 = false then some (none, lex_unget_unsave r.2.1 r.1, r.2.2)
  else
    let r := lex_get_save r.2.1 r.2.2
    match lex_scan_digits fuel r.2.1 r.1 r.2.2 with
    | none => none
    | some (c, lex, error) => some (some c, lex, error)

/-- The fraction part of `lex_scan_number` (source lines 570-581), entered with
`c` being `.`; the first component is `none` after `goto out`. -/
def lex_scan_number_fraction (fuel : Nat) (lex : lex_t) (error : json_error_t) :
    Option (Option Int × lex_t × json_error_t) :=
  let r := lex_get lex error
  if l_isdigit r.1 = false then some (none, lex_unget r.2.1 r.1, r.2.2)
  else
    let lex := lex_save r.2.1 r.1
    let r := lex_get_save lex r.2.2
    match lex_scan_digits fuel r.2.1 r.1 r.2.2 with
    | none => none
    | some (c, lex, error) => some (some c, lex, error)

/-- The function `lex_scan_number` from the test `if(c != '.' && ...)` on
(source lines 528-638). -/
def lex_scan_number_tail (ctx : json_context_t) (fuel : Nat) (lex : lex_t) (c : Int)
    (flags : load_flags) (error : json_error_t) : Option (Int × lex_t × json_error_t) :=
  if c ≠ 46 ∧ c ≠ 69 ∧ c ≠ 101 then
    some (lex_scan_number_integer ctx (lex_unget_unsave lex c) flags error)
  else
    let frac : Option (Option Int × lex_t × json_error_t) :=
      if c = 46 then lex_scan_number_fraction fuel lex error
      else some (some c, lex, error)
    match frac with
    | none => none
    | some (none, lex, error) => some (-1, lex, error)
    | some (some c, lex, error) =>
      let significand_digits : Int :=
        if flags.JSON_USE_BIGREAL ∧ ¬ flags.JSON_USE_BIGREAL_ALWAYS then
          jsonp_count_significand_digits lex.saved_text
        else 0
      if c = 69 ∨ c = 101 then
        match lex_scan_number_exponent fuel lex error with
        | none => none
        | some (none, lex, error) => some (-1, lex, error)
        | some (some c, lex, error) =>
          some (lex_scan_number_real ctx (lex_unget_unsave lex c) flags significand_digits error)
      else some (lex_scan_number_real ctx (lex_unget_unsave lex c) flags significand_digits error)

/-- The function `lex_scan_number`: its return value, the lexer and the error
object.  `significand_digits` is read only where it has been assigned; the
embedding gives it the value 0 before.  `none`: an iteration bound was used
up. -/
def lex_scan_number (ctx : json_context_t) (lex : lex_t) (c : Int) (flags : load_flags)
    (error : json_error_t) : Option (Int × lex_t × json_error_t) :=
  let fuel := lex.stream.data.length + 6
  let lex := { lex with token := TOKEN_INVALID }
  let r : Int × lex_t × json_error_t := if c = 45 then lex_get_save lex error else (c, lex, error)
  let c := r.1
  let lex := r.2.1
  let error := r.2.2
  if c = 48 then
    let r := lex_get_save lex error
    if l_isdigit r.1 then
      let lex := lex_unget_unsave r.2.1 r.1
      some (-1, lex, error_set r.2.2 (some lex)
        (str "numbers may not have unnecessary leading zeros"))
    else lex_scan_number_tail ctx fuel r.2.1 r.1 flags r.2.2
  else if l_isdigit c then
    let r := lex_get_save lex error
    match lex_scan_digits fuel r.2.1 r.1 r.2.2 with
    | none => none
    | some (c, lex, error) => lex_scan_number_tail ctx fuel lex c flags error
  else some (-1, lex_unget_unsave lex c, error)

/-! ## `lex_scan` -/

/-- The function `lex_clear`: the payload of the previous token is released
and the saved text emptied. -/
def lex_clear (lex : lex_t) : lex_t :=
  let lex :=
    if lex.token = TOKEN_STRING then lex_free_string lex
    else if lex.token = TOKEN_BIGINTEGER then { lex with value := lex_value.bigz 0 }
    else if lex.token = TOKEN_BIGREAL then { lex with value := lex_value.bigr 0 }
    else lex
  { lex with saved_text := [] }

/-- The loop `while(c == ' ' || c == '\t' || c == '\n' || c == '\r') c = lex_get(lex, error);`. -/
def lex_scan_space : Nat → lex_t → Int → json_error_t → Option (Int × lex_t × json_error_t)
  | 0, _, _, _ => none
  | n + 1, lex, c, error =>
    if c = 32 ∨ c = 9 ∨ c = 10 ∨ c = 13 then
      let r := lex_get lex error
      lex_scan_space n r.2.1 r.1 r.2.2
    else some (c, lex, error)

/-- The loop `while(l_isalpha(c)) c = lex_get_save(lex, error);`. -/
def lex_scan_alpha : Nat → lex_t → Int → json_error_t → Option (Int × lex_t × json_error_t)
  | 0, _, _, _ => none
  | n + 1, lex, c, error =>
    if l_isalpha c then
      let r := lex_get_save lex error
      lex_scan_alpha n r.2.1 r.1 r.2.2
    else some (c, lex, error)

/-- The branches of `lex_scan` after `lex_save(lex, c)` (source lines 666-703). -/
def lex_scan_token (ctx : json_context_t) (fuel : Nat) (lex : lex_t) (c : Int)
    (flags : load_flags) (error : json_error_t) : Option (lex_t × json_error_t) :=
  if c = 123 ∨ c = 125 ∨ c = 91 ∨ c = 93 ∨ c = 58 ∨ c = 44 then
    some ({ lex with token := c }, error)
  else if c = 34 then lex_scan_string lex error
  else if l_isdigit c ∨ c = 45 then
    match lex_scan_number ctx lex c flags error with
    | none => none
    | some r => some (r.2.1, r.2.2)
  else if l_isalpha c then
    let r := lex_get_save lex error
    match lex_scan_alpha fuel r.2.1 r.1 r.2.2 with
    | none => none
    | some (c, lex, error) =>
      let lex := lex_unget_unsave lex c
      let saved_text := c_str lex.saved_text
      if saved_text = str "true" then some ({ lex with token := TOKEN_TRUE }, error)
      else if saved_text = str "false" then some ({ lex with token := TOKEN_FALSE }, error)
      else if saved_text = str "null" then some ({ lex with token := TOKEN_NULL }, error)
      else some ({ lex with token := TOKEN_INVALID }, error)
  else some ({ lex_save_cached lex with token := TOKEN_INVALID }, error)

/-- The function `lex_scan`; the token it returns is `token` of the lexer.
`none`: an iteration bound was used up. -/
def lex_scan (ctx : json_context_t) (lex : lex_t) (flags : load_flags) (error : json_error_t) :
    Option (lex_t × json_error_t) :=
  let lex := lex_clear lex
  let fuel := lex.stream.data.length + 6
  let r := lex_get lex error
  match lex_scan_space fuel r.2.1 r.1 r.2.2 with
  | none => none
  | some (c, lex, error) =>
    if c = STREAM_STATE_EOF then some ({ lex with token := TOKEN_EOF }, error)
    else if c = STREAM_STATE_ERROR then some ({ lex with token := TOKEN_INVALID }, error)
    else lex_scan_token ctx fuel (lex_save lex c) c flags error

def lex_init (get : get_func) (data : List Nat) : lex_t :=
  { stream := stream_init get data, saved_text := [], token := TOKEN_INVALID,
    value := lex_value.string none }

/-! ## The value model (`value.c`) -/

/-- Modelled from the spec: `json_t` and its constructors live in `jansson.h`
and `value.c`, which are not among the sources.  "A tagged variant over: Null,
True, False, Integer, Real, BigInteger, BigReal, String (owned byte sequence +
explicit length), Array (ordered sequence of Value), Object (mapping from
String to Value, unique keys, insertion order preserved)". -/
inductive json_t where
  | JSON_OBJECT (members : List (List Nat × json_t))
  | JSON_ARRAY (elems : List json_t)
  | JSON_STRING (value : List Nat)
  | JSON_INTEGER (value : Int)
  | JSON_REAL (value : double)
  | JSON_BIGINTEGER (value : json_bigz_t)
  | JSON_BIGREAL (value : json_bigr_t)
  | JSON_TRUE
  | JSON_FALSE
  | JSON_NULL

/-- Modelled from the spec: the lookup of the "unique-key string-to-Value
mapping" behind `json_object_get` (`value.c`, `hashtable.c`, not among the
sources). -/
def json_object_get : List (List Nat × json_t) → List Nat → Option json_t
  | [], _ => none
  | (k, v) :: rest, key => if k = key then some v else json_object_get rest key

/-- Modelled from the spec: the insertion behind `json_object_set_nocheck`
(`value.c`, `hashtable.c`, not among the sources): the "last write for a given
key silently overwrites any earlier value already inserted", a new key goes to
the end of the insertion order. -/
def json_object_set_nocheck : List (List Nat × json_t) → List Nat → json_t →
    List (List Nat × json_t)
  | [], key, value => [(key, value)]
  | (k, v) :: rest, key, value =>
    if k = key then (k, value) :: rest else (k, v) :: json_object_set_nocheck rest key value

/-- Modelled from the spec: `json_biginteger` (`value.c`, not among the
sources) wraps a copy of the handle; "callers must treat a null return as a
decode failure", so the null handle gives no value. -/
def json_biginteger (value : json_bigz_t) : Option json_t :=
  if value = 0 then none else some (json_t.JSON_BIGINTEGER value)

/-- Modelled from the spec: `json_bigreal` (`value.c`, not among the sources),
as `json_biginteger`. -/
def json_bigreal (value : json_bigr_t) : Option json_t :=
  if value = 0 then none else some (json_t.JSON_BIGREAL value)

/-! ### Comparison of values -/

mutual

/-- Two values are the same tree: a computable test, used to evaluate the
decoder on concrete inputs. -/
def json_identical : json_t → json_t → Bool
  | .JSON_OBJECT a, .JSON_OBJECT b => json_identical_members a b
  | .JSON_ARRAY a, .JSON_ARRAY b => json_identical_elems a b
  | .JSON_STRING a, .JSON_STRING b => decide (a = b)
  | .JSON_INTEGER a, .JSON_INTEGER b => decide (a = b)
  | .JSON_REAL a, .JSON_REAL b => decide (a = b)
  | .JSON_BIGINTEGER a, .JSON_BIGINTEGER b => decide (a = b)
  | .JSON_BIGREAL a, .JSON_BIGREAL b => decide (a = b)
  | .JSON_TRUE, .JSON_TRUE => true
  | .JSON_FALSE, .JSON_FALSE => true
  | .JSON_NULL, .JSON_NULL => true
  | _, _ => false

/-- Structural equality of two element lists. -/
def json_identical_elems : List json_t → List json_t → Bool
  | [], [] => true
  | a :: as, b :: bs => json_identical a b && json_identical_elems as bs
  | _, _ => false

/-- Structural equality of two member lists. -/
def json_identical_members : List (List Nat × json_t) → List (List Nat × json_t) → Bool
  | [], [] => true
  | (k, a) :: as, (l, b) :: bs => decide (k = l) && json_identical a b && json_identical_members as bs
  | _, _ => false

end

/-- Two results of a decoding entry point are the same. -/
def json_result_identical :
    Option (Option json_t × json_error_t) → Option (Option json_t × json_error_t) → Bool
  | some (some a, e), some (some b, f) => json_identical a b && decide (e = f)
  | some (none, e), some (none, f) => decide (e = f)
  | none, none => true
  | _, _ => false

/-! ## The parser -/

mutual

/-- The function `parse_object` up to its loop. -/
def parse_object (ctx : json_context_t) (flags : load_flags) :
    Nat → lex_t → json_error_t → Option (Option json_t × lex_t × json_error_t)
  | 0, _, _ => none
  | n + 1, lex, error =>
    match lex_scan ctx lex flags error with
    | none => none
    | some (lex, error) =>
      if lex.token = 125 then some (some (json_t.JSON_OBJECT []), lex, error)
      else parse_object_loop ctx flags n [] lex error

/-- One iteration of the loop `while(1)` of `parse_object` and, when the loop
is left, the rest of the function; `object` holds the members set so far. -/
def parse_object_loop (ctx : json_context_t) (flags : load_flags) :
    Nat → List (List Nat × json_t) → lex_t → json_error_t →
    Option (Option json_t × lex_t × json_error_t)
  | 0, _, _, _ => none
  | n + 1, object, lex, error =>
    if lex.token ≠ TOKEN_STRING then
      some (none, lex, error_set error (some lex) (str "string or '\x7d' expected"))
    else
      match lex.value with
      | lex_value.string (some key) =>
        let lex := { lex with value := lex_value.string none }
        if 0 ∈ key then
          some (none, lex, error_set error (some lex) (str "NUL byte in object key not supported"))
        else if flags.JSON_REJECT_DUPLICATES ∧ (json_object_get object key).isSome then
          some (none, lex, error_set error (some lex) (str "duplicate object key"))
        else
          match lex_scan ctx lex flags error with
          | none => none
          | some (lex, error) =>
            if lex.token ≠ 58 then
              some (none, lex, error_set error (some lex) (str "':' expected"))
            else
              match lex_scan ctx lex flags error with
              | none => none
              | some (lex, error) =>
                match parse_value ctx flags n lex error with
                | none => none
                | some (none, lex, error) => some (none, lex, error)
                | some (some value, lex, error) =>
                  let object := json_object_set_nocheck object key value
                  match lex_scan ctx lex flags error with
                  | none => none
                  | some (lex, error) =>
                    if lex.token ≠ 44 then
                      if lex.token ≠ 125 then
                        some (none, lex, error_set error (some lex) (str "'\x7d' expected"))
                      else some (some (json_t.JSON_OBJECT object), lex, error)
                    else
                      match lex_scan ctx lex flags error with
                      | none => none
                      | some (lex, error) => parse_object_loop ctx flags n object lex error
      | _ => some (none, lex, error)

/-- The function `parse_array` up to its loop. -/
def parse_array (ctx : json_context_t) (flags : load_flags) :
    Nat → lex_t → json_error_t → Option (Option json_t × lex_t × json_error_t)
  | 0, _, _ => none
  | n + 1, lex, error =>
    match lex_scan ctx lex flags error with
    | none => none
    | some (lex, error) =>
      if lex.token = 93 then some (some (json_t.JSON_ARRAY []), lex, error)
      else parse_array_loop ctx flags n [] lex error

/-- One iteration of the loop `while(lex->token)` of `parse_array` and, when
the loop is left, the rest of the function; `array` holds the elements
appended so far. -/
def parse_array_loop (ctx : json_context_t) (flags : load_flags) :
    Nat → List json_t → lex_t → json_error_t → Option (Option json_t × lex_t × json_error_t)
  | 0, _, _, _ => none
  | n + 1, array, lex, error =>
    if lex.token = 0 then
      some (none, lex, error_set error (some lex) (str "']' expected"))
    else
      match parse_value ctx flags n lex error with
      | none => none
      | some (none, lex, error) => some (none, lex, error)
      | some (some elem, lex, error) =>
        let array := array ++ [elem]
        match lex_scan ctx lex flags error with
        | none => none
        | some (lex, error) =>
          if lex.token ≠ 44 then
            if lex.token ≠ 93 then
              some (none, lex, error_set error (some lex) (str "']' expected"))
            else some (some (json_t.JSON_ARRAY array), lex, error)
          else
            match lex_scan ctx lex flags error with
            | none => none
            | some (lex, error) => parse_array_loop ctx flags n array lex error

/-- The function `parse_value`. -/
def parse_value (ctx : json_context_t) (flags : load_flags) :
    Nat → lex_t → json_error_t → Option (Option json_t × lex_t × json_error_t)
  | 0, _, _ => none
  | n + 1, lex, error =>
    if lex.token = TOKEN_STRING then
      match lex.value with
      | lex_value.string (some value) =>
        if flags.JSON_ALLOW_NUL = false ∧ 0 ∈ value then
          some (none, lex, error_set error (some lex)
            (str "\\u0000 is not allowed without JSON_ALLOW_NUL"))
        else
          some (some (json_t.JSON_STRING value),
            { lex with value := lex_value.string none }, error)
      | _ => some (none, lex, error)
    else if lex.token = TOKEN_INTEGER then
      if flags.JSON_DECODE_INT_AS_REAL then
        let r := ctx.jsonp_strtod lex.saved_text
        if r.rc ≠ 0 then
          some (none, lex, error_set error (some lex) (str "real number overflow"))
        else some (some (json_t.JSON_REAL r.value), lex, error)
      else
        match lex.value with
        | lex_value.integer v => some (some (json_t.JSON_INTEGER v), lex, error)
        | _ => some (none, lex, error)
    else if lex.token = TOKEN_BIGINTEGER then
      match lex.value with
      | lex_value.bigz h => some (json_biginteger h, lex, error)
      | _ => some (none, lex, error)
    else if lex.token = TOKEN_BIGREAL then
      match lex.value with
      | lex_value.bigr h => some (json_bigreal h, lex, error)
      | _ => some (none, lex, error)
    else if lex.token = TOKEN_REAL then
      match lex.value with
      | lex_value.real v => some (some (json_t.JSON_REAL v), lex, error)
      | _ => some (none, lex, error)
    else if lex.token = TOKEN_TRUE then some (some json_t.JSON_TRUE, lex, error)
    else if lex.token = TOKEN_FALSE then some (some json_t.JSON_FALSE, lex, error)
    else if lex.token = TOKEN_NULL then some (some json_t.JSON_NULL, lex, error)
    else if lex.token = 123 then parse_object ctx flags n lex error
    else if lex.token = 91 then parse_array ctx flags n lex error
    else if lex.token = TOKEN_INVALID then
      some (none, lex, error_set error (some lex) (str "invalid token"))
    else some (none, lex, error_set error (some lex) (str "unexpected token"))

end

/-- The function `parse_json`.  The recursion of `parse_value` is bounded by
three times the length of the unread input plus four.  `none`: a bound was used
up. -/
def parse_json (ctx : json_context_t) (lex : lex_t) (flags : load_flags) (error : json_error_t) :
    Option (Option json_t × lex_t × json_error_t) :=
  let flags := if flags.JSON_USE_BIGINT_ALWAYS then { flags with JSON_USE_BIGINT := true } else flags
  let flags := if flags.JSON_USE_BIGREAL_ALWAYS then { flags with JSON_USE_BIGREAL := true } else flags
  if flags.JSON_USE_BIGINT ∧ ctx.have_bigint = false then
    some (none, lex, error_set error (some lex)
      (str "Programming error: Not prepared to decode big integers"))
  else if flags.JSON_USE_BIGREAL ∧ ctx.have_bigreal = false then
    some (none, lex, error_set error (some lex)
      (str "Programming error: Not prepared to decode big reals"))
  else
    match lex_scan ctx lex flags error with
    | none => none
    | some (lex1, error) =>
      if flags.JSON_DECODE_ANY = false ∧ lex1.token ≠ 91 ∧ lex1.token ≠ 123 then
        some (none, lex1, error_set error (some lex1) (str "'[' or '\x7b' expected"))
      else
        match parse_value ctx flags (3 * lex.stream.data.length + 4) lex1 error with
        | none => none
        | some (none, lex2, error) => some (none, lex2, error)
        | some (some result, lex2, error) =>
          if flags.JSON_DISABLE_EOF_CHECK = false then
            match lex_scan ctx lex2 flags error with
            | none => none
            | some (lex3, error) =>
              if lex3.token ≠ TOKEN_EOF then
                some (none, lex3, error_set error (some lex3) (str "end of file expected"))
              else some (some result, lex3, { error with position := lex3.stream.position })
          else some (some result, lex2, { error with position := lex2.stream.position })

/-- The error object after `jsonp_error_init`. -/
def jsonp_error_init : json_error_t := { reports := [], position := 0 }

/-- The function `json_loads` on a string given by its bytes (the bytes after
the first NUL, if any, are not part of the C string): the value or `NULL`, and
the error object. -/
def json_loads (ctx : json_context_t) (string : List Nat) (flags : load_flags) :
    Option (Option json_t × json_error_t) :=
  match parse_json ctx (lex_init get_func.string_get string) flags jsonp_error_init with
  | none => none
  | some r => some (r.1, r.2.2)

/-- The function `json_loadb` on the `buflen` bytes of `buffer`. -/
def json_loadb (ctx : json_context_t) (buffer : List Nat) (flags : load_flags) :
    Option (Option json_t × json_error_t) :=
  match parse_json ctx (lex_init get_func.buffer_get buffer) flags jsonp_error_init with
  | none => none
  | some r => some (r.1, r.2.2)

/-- A context with no backend installed; its `jsonp_strtod` stands for a
conversion that never signals a range error. -/
def plain_context : json_context_t :=
  { have_bigint := false, have_bigreal := false,
    bigint_from_string_fn := fun _ => 0, bigreal_from_string_fn := fun _ => 0,
    jsonp_strtod := fun _ => { rc := 0, erange := false, value := { bits := 0 } } }

/-! ## Notions of the specification and of the proofs

The grammar of numbers and strings as the specification words it, and the
invariants of the stream and the lexer that the proofs carry along. -/

/-- The bytes already decoded into `stream->buffer` and not handed out yet. -/
def buffer_pending (buffer : List Int) (pos : Nat) : List Int :=
  (buffer.drop pos).takeWhile (fun c => decide (c ≠ 0))

/-- The bytes pending in the buffer of a stream. -/
def stream_pending (s : stream_t) : List Int := buffer_pending s.buffer s.buffer_pos

/-- The bytes a source will still hand out before it reports `EOF`. -/
def get_func.bytes : get_func → List Nat → List Nat
  | .buffer_get, d => d.map (fun b => b % 256)
  | .string_get, d => (d.map (fun b => b % 256)).takeWhile (fun b => decide (b ≠ 0))

/-- The position, line and column of a stream. -/
structure cursor where
  position : Nat
  line : Int
  column : Int

/-- The bookkeeping of `stream_get` for one byte. -/
def cursor.step (k : cursor) (b : Nat) : cursor :=
  if b = 10 then { position := k.position + 1, line := k.line + 1, column := 0 }
  else if utf8_check_first b ≠ 0 then
    { position := k.position + 1, line := k.line, column := k.column + 1 }
  else { position := k.position + 1, line := k.line, column := k.column }

def stream_t.cursor (s : stream_t) : cursor :=
  { position := s.position, line := s.line, column := s.column }

/-- A stream from which `d` is still to be read, standing at `k`: the state is
OK (or end of file, with nothing left), the buffer has its five `char`s, and
what is pending in it is one pushed back ASCII byte or the continuation bytes
of the sequence being handed out. -/
structure Ready (s : stream_t) (d : List Nat) (k : cursor) : Prop where
  state : s.state = STREAM_STATE_OK ∨ (s.state = STREAM_STATE_EOF ∧ d = [])
  len : s.buffer.length = 5
  pend : stream_pending s = [] ∨ (∃ c, 0 < c ∧ c < 128 ∧ stream_pending s = [c]) ∨
    (∀ c ∈ stream_pending s, -128 ≤ c ∧ c < -64)
  rest : (stream_pending s).map to_uchar ++ s.get.bytes s.data = d
  cur : s.cursor = k

/-- The stream right after `stream_get` handed out `c` standing at `k`, with
`r` left to read. -/
structure JustRead (s : stream_t) (c : Int) (r : List Nat) (k : cursor) : Prop where
  ready : Ready s r (k.step (to_uchar c))
  ok : s.state = STREAM_STATE_OK
  pos : 1 ≤ s.buffer_pos
  back : s.buffer.getD (s.buffer_pos - 1) 0 = c
  last : c = 10 → s.last_column = k.column

/-- A lexer that differs from another in its stream only. -/
structure SameToken (lex lex1 : lex_t) : Prop where
  saved : lex1.saved_text = lex.saved_text
  token : lex1.token = lex.token
  value : lex1.value = lex.value

/-- The bookkeeping of `stream_get` for a run of bytes. -/
def cursor.steps (k : cursor) (bs : List Nat) : cursor := bs.foldl cursor.step k

/-- What `stream_get` hands out next when `rest` is left to read and `rest` is
empty or starts with an ASCII byte. -/
def next_char : List Nat → Int
  | [] => STREAM_STATE_EOF
  | b :: _ => (b : Int)

/-- The text left to read is at its end or goes on with an ASCII byte other
than NUL. -/
def Delim (rest : List Nat) : Prop :=
  rest = [] ∨ ∃ b r, rest = b :: r ∧ 0 < b ∧ b < 128

/-- The stream has just handed out `c`, the next thing of `rest` as it stood at
`k`: end of file, or an ASCII byte. -/
def Got (s : stream_t) (c : Int) (rest : List Nat) (k : cursor) : Prop :=
  (c = STREAM_STATE_EOF ∧ rest = [] ∧ Ready s [] k) ∨
  (∃ b r, rest = b :: r ∧ c = (b : Int) ∧ 0 < b ∧ b < 128 ∧
    JustRead s (b : Int) r k ∧ stream_pending s = [])

/-- The lexer holds the lookahead `c`, read from `rest` at `k` when the saved
text was `t`, and has saved it unless it is end of file. -/
def Peeked (lex : lex_t) (c : Int) (t : List Nat) (rest : List Nat) (k : cursor) : Prop :=
  Got lex.stream c rest k ∧ lex.saved_text = t ++ rest.take 1

/-- Every byte of the list is a decimal digit. -/
def all_digits (ds : List Nat) : Prop := ∀ d ∈ ds, 48 ≤ d ∧ d ≤ 57

/-- One or more decimal digits. -/
def digits1 (ds : List Nat) : Prop := ds ≠ [] ∧ all_digits ds

/-- The optional sign: nothing or `-`. -/
def sign_part (sg : List Nat) : Prop := sg = [] ∨ sg = [45]

/-- The integer part `0|[1-9][0-9]*`. -/
def int_part (ip : List Nat) : Prop :=
  ip = [48] ∨ ∃ d ds, ip = d :: ds ∧ 49 ≤ d ∧ d ≤ 57 ∧ all_digits ds

/-- The optional fraction `(\.[0-9]+)?`. -/
def frac_part (fr : List Nat) : Prop := fr = [] ∨ ∃ ds, fr = 46 :: ds ∧ digits1 ds

/-- The optional exponent `([eE][+-]?[0-9]+)?`. -/
def exp_part (ex : List Nat) : Prop :=
  ex = [] ∨ ∃ m sg ds, ex = m :: (sg ++ ds) ∧ (m = 69 ∨ m = 101) ∧
    (sg = [] ∨ sg = [43] ∨ sg = [45]) ∧ digits1 ds

/-- The JSON number grammar `-?(0|[1-9][0-9]*)(\.[0-9]+)?([eE][+-]?[0-9]+)?`. -/
def json_number (t : List Nat) : Prop :=
  ∃ sg ip fr ex, t = sg ++ ip ++ fr ++ ex ∧ sign_part sg ∧ int_part ip ∧ frac_part fr ∧ exp_part ex

/-- Every byte of the list is JSON whitespace. -/
def all_space (ws : List Nat) : Prop := ∀ b ∈ ws, b = 32 ∨ b = 9 ∨ b = 10 ∨ b = 13

/-- The value is not one of the four whitespace characters. -/
def not_space (c : Int) : Prop := c ≠ 32 ∧ c ≠ 9 ∧ c ≠ 10 ∧ c ≠ 13

/-- The value of a run of decimal digits. -/
def dec_value (ds : List Nat) : Nat := ds.foldl (fun a d => a * 10 + (d - 48)) 0

/-- The mathematical value of an integer numeral with sign `sg` and digits
`ip`. -/
def int_value (sg ip : List Nat) : Int :=
  if sg = [45] then -(dec_value ip : Int) else (dec_value ip : Int)

/-- What may follow a numeral for it to be scanned as it stands: the end of the input,
or an ASCII byte other than NUL that is no digit and none of `.`, `E`, `e`. -/
def number_follow (rest : List Nat) : Prop :=
  Delim rest ∧ l_isdigit (next_char rest) = false ∧
    next_char rest ≠ 46 ∧ next_char rest ≠ 69 ∧ next_char rest ≠ 101

/-- The text of a report: the message, and the saved text of the token after it
when that has at most 20 bytes. -/
def with_context (msg saved_text : List Nat) : List Nat :=
  if saved_text.length ≤ 20 then msg ++ str " near '" ++ saved_text ++ str "'" else msg

/-- The error object after one more report, made at `k`. -/
def report_at (error : json_error_t) (k : cursor) (text : List Nat) : json_error_t :=
  { error with reports := error.reports ++
      [{ line := k.line, column := k.column, position := k.position, text := text }] }

/-- A byte of a mantissa: the sign, the point or a digit. -/
def mantissa_byte (b : Nat) : Prop := b = 45 ∨ b = 46 ∨ (48 ≤ b ∧ b ≤ 57)

/-- The cursor of a stream that has not been read. -/
def cursor_init : cursor := { position := 0, line := 1, column := 0 }

/-- The bytes `lex_get_save` appends to the saved text when `stream_get` hands
out `c`. -/
def saved_of (c : Int) : List Nat :=
  if c = STREAM_STATE_EOF ∨ c = STREAM_STATE_ERROR then [] else [to_uchar c]

/-- What the claim lets follow a numeral: the end of the input, whitespace,
`,`, `]` or the closing brace. -/
def number_end (rest : List Nat) : Prop :=
  rest = [] ∨ ∃ b r, rest = b :: r ∧
    (b = 32 ∨ b = 9 ∨ b = 10 ∨ b = 13 ∨ b = 44 ∨ b = 93 ∨ b = 125)

/-- The flags of the counterexample: decode any value, trailing content not
checked. -/
def any_value_no_eof_check : load_flags :=
  { no_flags with JSON_DECODE_ANY := true, JSON_DISABLE_EOF_CHECK := true }

/-- The flags with big-real-on-precision-loss mode alone. -/
def use_bigreal : load_flags := { no_flags with JSON_USE_BIGREAL := true }

/-- A hexadecimal digit, in either case. -/
def is_hex (b : Nat) : Prop := (48 ≤ b ∧ b ≤ 57) ∨ (65 ≤ b ∧ b ≤ 70) ∨ (97 ≤ b ∧ b ≤ 102)

/-- The value of a hexadecimal digit. -/
def hex_value (b : Nat) : Nat :=
  if b ≤ 57 then b - 48 else if b ≤ 70 then b - 55 else b - 87

/-- The code unit that the four hexadecimal digits of a `\uXXXX` escape
denote. -/
def code_unit (h1 h2 h3 h4 : Nat) : Int :=
  ((((hex_value h1 * 16 + hex_value h2) * 16 + hex_value h3) * 16 + hex_value h4 : Nat) : Int)

/-- The characters one of which follows the backslash of a shortcut escape:
`"`, `\`, `/`, `b`, `f`, `n`, `r`, `t`. -/
def is_shortcut (c : Nat) : Prop :=
  c = 34 ∨ c = 92 ∨ c = 47 ∨ c = 98 ∨ c = 102 ∨ c = 110 ∨ c = 114 ∨ c = 116

/-- The byte a shortcut escape stands for: `\" \\ \/ \b \f \n \r \t` are the
bytes 0x22 0x5C 0x2F 0x08 0x0C 0x0A 0x0D 0x09. -/
def shortcut_byte (c : Nat) : Nat :=
  if c = 98 then 0x08 else if c = 102 then 0x0C else if c = 110 then 0x0A
  else if c = 114 then 0x0D else if c = 116 then 0x09 else c

/-- The elements of the raw text between the quotes of a string literal:
literal bytes, a shortcut escape, a `\uXXXX` escape. -/
inductive string_item where
  | lit (bs : List Nat)
  | shortcut (c : Nat)
  | unicode (h1 h2 h3 h4 : Nat)

/-- The bytes of an element as they stand in the text. -/
def string_item.text : string_item → List Nat
  | .lit bs => bs
  | .shortcut c => [92, c]
  | .unicode h1 h2 h3 h4 => [92, 117, h1, h2, h3, h4]

/-- The raw text made of the elements. -/
def string_text : List string_item → List Nat
  | [] => []
  | i :: rest => i.text ++ string_text rest

/-- An element is well formed: literal bytes are neither the quote nor the
backslash, a shortcut escape has one of the eight characters, a `\u` escape has
four hexadecimal digits. -/
def string_item.ok : string_item → Prop
  | .lit bs => bs ≠ [] ∧ ∀ b ∈ bs, b ≠ 34 ∧ b ≠ 92
  | .shortcut c => is_shortcut c
  | .unicode h1 h2 h3 h4 => is_hex h1 ∧ is_hex h2 ∧ is_hex h3 ∧ is_hex h4

/-- The UTF-8 encoding of a code point (empty outside the code point range). -/
def utf8_bytes (codepoint : Int) : List Nat := (utf8_encode codepoint).getD []

/-- The bytes `bs` before a result. -/
def prepend (bs : List Nat) : Except (List Nat) (List Nat) → Except (List Nat) (List Nat)
  | .ok u => .ok (bs ++ u)
  | .error msg => .error msg

/-- The reference unescaping of the raw text of a string literal, element by
element: literal bytes are copied unchanged; a shortcut escape becomes its
byte; a `\uXXXX` escape that is no surrogate becomes the UTF-8 encoding of its
code point; a high surrogate escape `h` followed by a low surrogate escape `l`
becomes the UTF-8 encoding of `0x10000 + (h - 0xD800) * 1024 + (l - 0xDC00)`.
A surrogate escape that is not part of such a pair has no unescaping: the
result is the message that names the code unit or units. -/
def unescape : List string_item → Except (List Nat) (List Nat)
  | [] => .ok []
  | .lit bs :: rest => prepend bs (unescape rest)
  | .shortcut c :: rest => prepend [shortcut_byte c] (unescape rest)
  | .unicode h1 h2 h3 h4 :: rest =>
    let h := code_unit h1 h2 h3 h4
    if 0xD800 ≤ h ∧ h ≤ 0xDBFF then
      match rest with
      | .unicode l1 l2 l3 l4 :: rest1 =>
        let l := code_unit l1 l2 l3 l4
        if 0xDC00 ≤ l ∧ l ≤ 0xDFFF then
          prepend (utf8_bytes (0x10000 + (h - 0xD800) * 1024 + (l - 0xDC00))) (unescape rest1)
        else
          .error (str "invalid Unicode '\\u" ++ fmt_04X h ++ str "\\u" ++ fmt_04X l ++ str "'")
      | _ => .error (str "invalid Unicode '\\u" ++ fmt_04X h ++ str "'")
    else if 0xDC00 ≤ h ∧ h ≤ 0xDFFF then
      .error (str "invalid Unicode '\\u" ++ fmt_04X h ++ str "'")
    else prepend (utf8_bytes h) (unescape rest)

/-- What the second pass of `lex_scan_string` is to produce for the elements:
the payload `t ++ u`, or the report of the message. -/
def decode_result (lex : lex_t) (t : List Nat) (e : json_error_t) :
    Except (List Nat) (List Nat) → Option (Option (List Nat) × json_error_t)
  | .ok u => some (some (t ++ u), e)
  | .error msg => some (none, error_set e (some lex) msg)

/-- A value of type `char`. -/
def is_char (c : Int) : Prop := -128 ≤ c ∧ c ≤ 127

/-- The buffer of the stream holds `char`s and the state is one of the three
states. -/
def stream_t.wf (s : stream_t) : Prop :=
  (∀ c ∈ s.buffer, is_char c) ∧
    (s.state = STREAM_STATE_OK ∨ s.state = STREAM_STATE_EOF ∨ s.state = STREAM_STATE_ERROR)

/-- The lexer of the witness of C7: the opening quote of `"\ud800\udc00"` has
been read and saved. -/
def surrogate_pair_lexer : lex_t :=
  lex_save (lex_get (lex_init get_func.buffer_get (str "\"\\ud800\\udc00\""))
    jsonp_error_init).2.1 34

/-- The lexer after the scan of `"\ud800\udc00"`: the payload is the four bytes
F0 90 80 80. -/
def surrogate_pair_scanned : lex_t :=
  { stream := { get := get_func.buffer_get, data := [], buffer := [34, 0, 0, 0, 0],
                buffer_pos := 1, state := 0, line := 1, column := 14, last_column := 0,
                position := 14 },
    saved_text := str "\"\\ud800\\udc00\"", token := TOKEN_STRING,
    value := lex_value.string (some [0xF0, 0x90, 0x80, 0x80]) }

/-- A multi-byte UTF-8 sequence as `stream_get` accepts it: the count that
`utf8_check_first` gives for the first byte is the length, and
`utf8_check_full` accepts the bytes. -/
def utf8_sequence (seq : List Nat) : Prop :=
  2 ≤ seq.length ∧ (∀ b ∈ seq, b < 256) ∧
    utf8_check_first ((seq.headD 0 : Nat) : Int) = seq.length ∧
    utf8_check_full (seq.map (fun (b : Nat) => to_char (b : Int))) seq.length = true

/-- A continuation `char`. -/
def is_cont (c : Int) : Prop := -128 ≤ c ∧ c < -64

/-- The text left to read is at its end, or goes on with an ASCII byte, with a
multi-byte UTF-8 sequence, or with a NUL byte. -/
def Readable (rest : List Nat) : Prop :=
  Delim rest ∨ (∃ b0 bs r, rest = b0 :: bs ++ r ∧ utf8_sequence (b0 :: bs)) ∨
    ∃ r, rest = 0 :: r

/-- The lexer holds the lookahead `c`, read from `rest` at `k` when the saved
text was `t`, and has saved it unless it is end of file: `c` is the end of
file, an ASCII byte, the first byte of a multi-byte sequence, the rest of
which is pending in the buffer, or a NUL byte. -/
def Held (lex : lex_t) (c : Int) (t : List Nat) (rest : List Nat) (k : cursor) : Prop :=
  Peeked lex c t rest k ∨
  (∃ b0 bs r, rest = b0 :: bs ++ r ∧ utf8_sequence (b0 :: bs) ∧ c = to_char (b0 : Int) ∧
    Ready lex.stream (bs ++ r) (k.step b0) ∧
    stream_pending lex.stream = bs.map (fun (b : Nat) => to_char (b : Int)) ∧
    lex.saved_text = t ++ [b0]) ∨
  (∃ r, rest = 0 :: r ∧ c = 0 ∧ lex.stream.cursor = k.step 0 ∧ lex.saved_text = t ++ [0])

/-- An element of the raw text of a string literal as the grammar has it: a
literal character is an ASCII character from the space on other than the quote
and the backslash, or a multi-byte UTF-8 sequence; a shortcut escape has one of
the eight characters; a `\u` escape has four hexadecimal digits. -/
def string_item.valid : string_item → Prop
  | .lit bs => (∃ b, bs = [b] ∧ 32 ≤ b ∧ b < 128 ∧ b ≠ 34 ∧ b ≠ 92) ∨ utf8_sequence bs
  | .shortcut c => is_shortcut c
  | .unicode h1 h2 h3 h4 => is_hex h1 ∧ is_hex h2 ∧ is_hex h3 ∧ is_hex h4

/-- What `lex_scan_string` leaves for a literal whose elements are `items`:
the string token with the unescaped payload, or the invalid token and the
report of the message. -/
def scanned_string (items : List string_item) (lex1 : lex_t) (e e1 : json_error_t)
    (k : cursor) : Prop :=
  match unescape items with
  | .ok u => lex1.token = TOKEN_STRING ∧ lex1.value = lex_value.string (some u) ∧ e1 = e
  | .error msg => lex1.token = TOKEN_INVALID ∧ lex1.value = lex_value.string none ∧
      e1 = report_at e k (with_context msg (34 :: string_text items ++ [34]))

/-- The message for elements that start with a surrogate escape which is not
part of a pair: a low surrogate, and a high surrogate that no `\u` escape
follows, are named alone, `invalid Unicode '\uXXXX'`; a high surrogate followed
by a `\u` escape that is no low surrogate is named with that escape, `invalid
Unicode '\uXXXX\uYYYY'`.  `none`: the elements do not start with such an
escape. -/
def lone_surrogate : List string_item → Option (List Nat)
  | .unicode h1 h2 h3 h4 :: rest =>
    let h := code_unit h1 h2 h3 h4
    if 0xD800 ≤ h ∧ h ≤ 0xDBFF then
      match rest with
      | .unicode l1 l2 l3 l4 :: _ =>
        let l := code_unit l1 l2 l3 l4
        if 0xDC00 ≤ l ∧ l ≤ 0xDFFF then none
        else some (str "invalid Unicode '\\u" ++ fmt_04X h ++ str "\\u" ++ fmt_04X l ++ str "'")
      | _ => some (str "invalid Unicode '\\u" ++ fmt_04X h ++ str "'")
    else if 0xDC00 ≤ h ∧ h ≤ 0xDFFF then
      some (str "invalid Unicode '\\u" ++ fmt_04X h ++ str "'")
    else none
  | _ => none

/-- The end of `lex_scan_string` after its first loop. -/
def lex_scan_string_finish :
    Option (Bool × lex_t × json_error_t) → Option (lex_t × json_error_t)
  | none => none
  | some (false, lex, error) => some (lex_free_string lex, error)
  | some (true, lex, error) =>
    match lex_scan_string_decode lex (lex.saved_text.length + 1) (lex.saved_text.drop 1) []
        error with
    | none => none
    | some (none, error) => some (lex_free_string lex, error)
    | some (some t, error) =>
      some ({ lex with value := lex_value.string (some t), token := TOKEN_STRING }, error)

/-- One of the six punctuation characters of JSON. -/
def is_punct (c : Nat) : Prop := c = 123 ∨ c = 125 ∨ c = 91 ∨ c = 93 ∨ c = 58 ∨ c = 44

/-- Every byte of the list is an ASCII letter. -/
def all_alpha (as : List Nat) : Prop := ∀ a ∈ as, (65 ≤ a ∧ a ≤ 90) ∨ (97 ≤ a ∧ a ≤ 122)

/-- The text and the token of the three literals. -/
def is_literal (word : List Nat) (token : Int) : Prop :=
  (word = str "true" ∧ token = TOKEN_TRUE) ∨ (word = str "false" ∧ token = TOKEN_FALSE) ∨
    (word = str "null" ∧ token = TOKEN_NULL)

/-- A scalar as it is written: a numeral by its sign, integer part, fraction
and exponent, a string literal by its elements, or one of the three
literals. -/
inductive jscalar where
  | number (sg ip fr ex : List Nat)
  | string (items : List string_item)
  | jtrue
  | jfalse
  | jnull

/-- The bytes of a scalar. -/
def jscalar.text : jscalar → List Nat
  | .number sg ip fr ex => sg ++ ip ++ fr ++ ex
  | .string items => 34 :: string_text items ++ [34]
  | .jtrue => str "true"
  | .jfalse => str "false"
  | .jnull => str "null"

/-- A scalar is well formed: a numeral follows the number grammar, a string
literal is made of valid elements. -/
def jscalar.wf : jscalar → Prop
  | .number sg ip fr ex => sign_part sg ∧ int_part ip ∧ frac_part fr ∧ exp_part ex
  | .string items => ∀ i ∈ items, i.valid
  | .jtrue => True
  | .jfalse => True
  | .jnull => True

/-- The value of a scalar under the flags, `none` when it has none: an integer
numeral is converted by `json_strtoint`, or handed to the big integer backend
when that is always wanted or wanted for a value out of range, or converted by
`jsonp_strtod` when integers are decoded as reals; a numeral with a fraction or
an exponent is converted by `jsonp_strtod`, or handed to the big real backend
when that is always wanted, or wanted for a numeral of many digits or out of
range; a string has the unescaping of its elements, which holds no NUL unless
the flags allow it. -/
def jscalar.value (ctx : json_context_t) (flags : load_flags) : jscalar → Option json_t
  | .number sg ip fr ex =>
    let t := sg ++ ip ++ fr ++ ex
    if fr = [] ∧ ex = [] then
      if flags.JSON_USE_BIGINT_ALWAYS then json_biginteger (ctx.bigint_from_string_fn (c_str t))
      else if (json_strtoint t).2 then
        if flags.JSON_USE_BIGINT then json_biginteger (ctx.bigint_from_string_fn (c_str t))
        else none
      else if flags.JSON_DECODE_INT_AS_REAL then
        if (ctx.jsonp_strtod t).rc ≠ 0 then none
        else some (json_t.JSON_REAL (ctx.jsonp_strtod t).value)
      else some (json_t.JSON_INTEGER (json_strtoint t).1)
    else
      if flags.JSON_USE_BIGREAL_ALWAYS ∨ (flags.JSON_USE_BIGREAL ∧
          jsonp_count_significand_digits (sg ++ ip ++ fr) + 1 ≥ DBL_DIG) then
        json_bigreal (ctx.bigreal_from_string_fn (c_str t))
      else if (ctx.jsonp_strtod t).erange ∧ flags.JSON_USE_BIGREAL then
        json_bigreal (ctx.bigreal_from_string_fn (c_str t))
      else if (ctx.jsonp_strtod t).rc ≠ 0 then none
      else some (json_t.JSON_REAL (ctx.jsonp_strtod t).value)
  | .string items =>
    match unescape items with
    | .ok u => if flags.JSON_ALLOW_NUL = false ∧ 0 ∈ u then none else some (json_t.JSON_STRING u)
    | .error _ => none
  | .jtrue => some json_t.JSON_TRUE
  | .jfalse => some json_t.JSON_FALSE
  | .jnull => some json_t.JSON_NULL

/-- The decoded key of a member: the unescaping of the elements of its string
literal, `none` when there is none or it holds a NUL. -/
def decoded_key (key : List string_item) : Option (List Nat) :=
  match unescape key with
  | .ok u => if 0 ∈ u then none else some u
  | .error _ => none

mutual

/-- A JSON value as it is written, with the whitespace between its tokens: a
scalar; `[ w ]`; `[ w` and elements; the empty object; the opening brace, `w`
and members. -/
inductive jval where
  | scalar (s : jscalar)
  | array_empty (w : List Nat)
  | array (w : List Nat) (a : jelems)
  | object_empty (w : List Nat)
  | object (w : List Nat) (o : jmembers)

/-- The elements of an array up to its end: `v w1 ]`, or `v w1 , w2` and more
elements. -/
inductive jelems where
  | last (v : jval) (w1 : List Nat)
  | more (v : jval) (w1 w2 : List Nat) (rest : jelems)

/-- The members of an object up to its end: `key w1 : w2 v w3` and the closing
brace, or `key w1 : w2 v w3 , w4` and more members. -/
inductive jmembers where
  | last (key : List string_item) (w1 w2 : List Nat) (v : jval) (w3 : List Nat)
  | more (key : List string_item) (w1 w2 : List Nat) (v : jval) (w3 w4 : List Nat)
      (rest : jmembers)

end

mutual

/-- The bytes of a value. -/
def jval.text : jval → List Nat
  | .scalar s => s.text
  | .array_empty w => 91 :: (w ++ [93])
  | .array w a => 91 :: (w ++ a.text)
  | .object_empty w => 123 :: (w ++ [125])
  | .object w o => 123 :: (w ++ o.text)

/-- The bytes of the elements and the closing bracket. -/
def jelems.text : jelems → List Nat
  | .last v w1 => v.text ++ (w1 ++ [93])
  | .more v w1 w2 rest => v.text ++ (w1 ++ 44 :: (w2 ++ rest.text))

/-- The bytes of the members and the closing brace. -/
def jmembers.text : jmembers → List Nat
  | .last key w1 w2 v w3 =>
    (34 :: string_text key ++ [34]) ++ (w1 ++ 58 :: (w2 ++ (v.text ++ (w3 ++ [125]))))
  | .more key w1 w2 v w3 w4 rest =>
    (34 :: string_text key ++ [34]) ++
      (w1 ++ 58 :: (w2 ++ (v.text ++ (w3 ++ 44 :: (w4 ++ rest.text)))))

end

mutual

/-- A value is well formed: its scalars are, and what stands between its
tokens is whitespace. -/
def jval.wf : jval → Prop
  | .scalar s => s.wf
  | .array_empty w => all_space w
  | .array w a => all_space w ∧ a.wf
  | .object_empty w => all_space w
  | .object w o => all_space w ∧ o.wf

/-- The elements are well formed. -/
def jelems.wf : jelems → Prop
  | .last v w1 => v.wf ∧ all_space w1
  | .more v w1 w2 rest => v.wf ∧ all_space w1 ∧ all_space w2 ∧ rest.wf

/-- The members are well formed. -/
def jmembers.wf : jmembers → Prop
  | .last key w1 w2 v w3 =>
    (∀ i ∈ key, i.valid) ∧ all_space w1 ∧ all_space w2 ∧ v.wf ∧ all_space w3
  | .more key w1 w2 v w3 w4 rest =>
    (∀ i ∈ key, i.valid) ∧ all_space w1 ∧ all_space w2 ∧ v.wf ∧ all_space w3 ∧
      all_space w4 ∧ rest.wf

end

mutual

/-- The value a text stands for under the flags, `none` when a scalar or a key
of it has none: an array has the values of its elements in their order; an
object is made by setting its members one after the other in their order. -/
def jval.value (ctx : json_context_t) (flags : load_flags) : jval → Option json_t
  | .scalar s => s.value ctx flags
  | .array_empty _ => some (json_t.JSON_ARRAY [])
  | .array _ a =>
    match a.value ctx flags [] with
    | some elems => some (json_t.JSON_ARRAY elems)
    | none => none
  | .object_empty _ => some (json_t.JSON_OBJECT [])
  | .object _ o =>
    match o.value ctx flags [] with
    | some members => some (json_t.JSON_OBJECT members)
    | none => none

/-- The elements after `array`. -/
def jelems.value (ctx : json_context_t) (flags : load_flags) :
    jelems → List json_t → Option (List json_t)
  | .last v _, array =>
    match v.value ctx flags with
    | some x => some (array ++ [x])
    | none => none
  | .more v _ _ rest, array =>
    match v.value ctx flags with
    | some x => rest.value ctx flags (array ++ [x])
    | none => none

/-- The members set into `object`. -/
def jmembers.value (ctx : json_context_t) (flags : load_flags) :
    jmembers → List (List Nat × json_t) → Option (List (List Nat × json_t))
  | .last key _ _ v _, object =>
    match decoded_key key, v.value ctx flags with
    | some u, some x => some (json_object_set_nocheck object u x)
    | _, _ => none
  | .more key _ _ v _ _ rest, object =>
    match decoded_key key, v.value ctx flags with
    | some u, some x => rest.value ctx flags (json_object_set_nocheck object u x)
    | _, _ => none

end

/-- The decoded keys of the members, in their order (a key that has no
decoding counts as the empty key). -/
def jmembers.keys : jmembers → List (List Nat)
  | .last key _ _ _ _ => [(decoded_key key).getD []]
  | .more key _ _ _ _ _ rest => (decoded_key key).getD [] :: rest.keys

/-- The value of the last member whose decoded key is `u`, if there is such a
member. -/
def jmembers.last_value (ctx : json_context_t) (flags : load_flags) (u : List Nat) :
    jmembers → Option json_t
  | .last key _ _ v _ => if decoded_key key = some u then v.value ctx flags else none
  | .more key _ _ v _ _ rest =>
    match rest.last_value ctx flags u with
    | some x => some x
    | none => if decoded_key key = some u then v.value ctx flags else none

mutual

/-- No object of the value has two members of the same decoded key. -/
def jval.no_duplicate : jval → Prop
  | .scalar _ => True
  | .array_empty _ => True
  | .array _ a => a.no_duplicate
  | .object_empty _ => True
  | .object _ o => o.no_duplicate []

/-- No object among the elements has two members of the same decoded key. -/
def jelems.no_duplicate : jelems → Prop
  | .last v _ => v.no_duplicate
  | .more v _ _ rest => v.no_duplicate ∧ rest.no_duplicate

/-- No decoded key of the members is in `seen` or occurs twice, and no object
among the values has two members of the same decoded key. -/
def jmembers.no_duplicate : jmembers → List (List Nat) → Prop
  | .last key _ _ v _, seen => (decoded_key key).getD [] ∉ seen ∧ v.no_duplicate
  | .more key _ _ v _ _ rest, seen =>
    (decoded_key key).getD [] ∉ seen ∧ v.no_duplicate ∧
      rest.no_duplicate ((decoded_key key).getD [] :: seen)

end

/-- What the lexer and `parse_value` make of a text that stands for `x`, read
after whitespace and before `rest`: the first token is read without a report
and is neither `]` nor the end of the input, and `parse_value` returns `x`
having read the text. -/
def reads_value (ctx : json_context_t) (flags : load_flags) (t : List Nat) (x : json_t) : Prop :=
  ∀ (ws rest : List Nat) (lex : lex_t) (k : cursor) (e : json_error_t),
    all_space ws → number_end rest → Ready lex.stream (ws ++ (t ++ rest)) k →
    ∃ lex1, lex_scan ctx lex flags e = some (lex1, e) ∧ lex1.token ≠ 93 ∧ lex1.token ≠ 0 ∧
      ∀ n, 2 * t.length < n →
        ∃ lex2, parse_value ctx flags n lex1 e = some (some x, lex2, e) ∧
          Ready lex2.stream rest (k.steps (ws ++ t))

/-- The lexer after `lex_steal_string`. -/
def lex_stolen (lex : lex_t) : lex_t := { lex with value := lex_value.string none }

/-- The rest of an iteration of the loop of `parse_object` from the call of
`parse_value` on. -/
def parse_object_loop_value (ctx : json_context_t) (flags : load_flags) (n : Nat)
    (object : List (List Nat × json_t)) (key : List Nat) (lex : lex_t) (error : json_error_t) :
    Option (Option json_t × lex_t × json_error_t) :=
  match parse_value ctx flags n lex error with
  | none => none
  | some (none, lex, error) => some (none, lex, error)
  | some (some value, lex, error) =>
    match lex_scan ctx lex flags error with
    | none => none
    | some (lex, error) =>
      if lex.token ≠ 44 then
        if lex.token ≠ 125 then
          some (none, lex, error_set error (some lex) (str "'\x7d' expected"))
        else some (some (json_t.JSON_OBJECT (json_object_set_nocheck object key value)), lex, error)
      else
        match lex_scan ctx lex flags error with
        | none => none
        | some (lex, error) =>
          parse_object_loop ctx flags n (json_object_set_nocheck object key value) lex error

/-- What the parser is to return for a text that stands for `x`: when
duplicate keys are not rejected or there is none, `x`, no report, and the text
read up to `rest`; else no value and one more report, of a duplicate object
key. -/
def parse_outcome (reject : Bool) (nodup : Prop) (x : json_t) (e : json_error_t)
    (rest : List Nat) (k : cursor) (r : Option (Option json_t × lex_t × json_error_t)) : Prop :=
  ((reject = false ∨ nodup) → ∃ lex2, r = some (some x, lex2, e) ∧ Ready lex2.stream rest k) ∧
  (¬ (reject = false ∨ nodup) → ∃ lexd kd tok, r = some (none, lexd,
    report_at e kd (with_context (str "duplicate object key") tok)))

/-- The text `t` read as a value: the first token is read without a report and
is neither `]` nor the end of the input, and `parse_value` has the outcome for
`x`. -/
def reads_text (ctx : json_context_t) (flags : load_flags) (t : List Nat) (nodup : Prop)
    (x : json_t) : Prop :=
  ∀ (ws rest : List Nat) (lex : lex_t) (k : cursor) (e : json_error_t),
    all_space ws → number_end rest → Ready lex.stream (ws ++ (t ++ rest)) k →
    ∃ lex1, lex_scan ctx lex flags e = some (lex1, e) ∧ lex1.token ≠ 93 ∧ lex1.token ≠ 0 ∧
      ∀ n, 2 * t.length < n →
        parse_outcome flags.JSON_REJECT_DUPLICATES nodup x e rest (k.steps (ws ++ t))
          (parse_value ctx flags n lex1 e)

/-- The text `t` read as the elements of an array after those of `array`: the
first token is read without a report and is not `]`, and the loop of
`parse_array` has the outcome for the array of `elems`. -/
def reads_elems (ctx : json_context_t) (flags : load_flags) (t : List Nat) (nodup : Prop)
    (array elems : List json_t) : Prop :=
  ∀ (ws rest : List Nat) (lex : lex_t) (k : cursor) (e : json_error_t),
    all_space ws → Ready lex.stream (ws ++ (t ++ rest)) k →
    ∃ lex1, lex_scan ctx lex flags e = some (lex1, e) ∧ lex1.token ≠ 93 ∧
      ∀ n, 2 * t.length < n →
        parse_outcome flags.JSON_REJECT_DUPLICATES nodup (json_t.JSON_ARRAY elems) e rest
          (k.steps (ws ++ t)) (parse_array_loop ctx flags n array lex1 e)

/-- The text `t` read as the members of an object after those set in `object`:
the first token is read without a report and is not the closing brace, and the
loop of `parse_object` has the outcome for the object of `members`. -/
def reads_members (ctx : json_context_t) (flags : load_flags) (t : List Nat) (nodup : Prop)
    (object members : List (List Nat × json_t)) : Prop :=
  ∀ (ws rest : List Nat) (lex : lex_t) (k : cursor) (e : json_error_t),
    all_space ws → Ready lex.stream (ws ++ (t ++ rest)) k →
    ∃ lex1, lex_scan ctx lex flags e = some (lex1, e) ∧ lex1.token ≠ 125 ∧
      ∀ n, 2 * t.length < n →
        parse_outcome flags.JSON_REJECT_DUPLICATES nodup (json_t.JSON_OBJECT members) e rest
          (k.steps (ws ++ t)) (parse_object_loop ctx flags n object lex1 e)

/-- The flags as `parse_json` completes them: a big-number mode that is always
wanted is wanted. -/
def parse_flags (flags : load_flags) : load_flags :=
  if (if flags.JSON_USE_BIGINT_ALWAYS = true then
      { flags with JSON_USE_BIGINT := true } else flags).JSON_USE_BIGREAL_ALWAYS = true then
      { (if flags.JSON_USE_BIGINT_ALWAYS = true then
          { flags with JSON_USE_BIGINT := true } else flags) with JSON_USE_BIGREAL := true }
      else (if flags.JSON_USE_BIGINT_ALWAYS = true then
        { flags with JSON_USE_BIGINT := true } else flags)

/-- The big-number backends that the flags ask for are installed. -/
def prepared (ctx : json_context_t) (flags : load_flags) : Prop :=
  ((flags.JSON_USE_BIGINT = true ∨ flags.JSON_USE_BIGINT_ALWAYS = true) →
    ctx.have_bigint = true) ∧
  ((flags.JSON_USE_BIGREAL = true ∨ flags.JSON_USE_BIGREAL_ALWAYS = true) →
    ctx.have_bigreal = true)

/-- The text opens an array or an object. -/
def jval.container : jval → Prop
  | .scalar _ => False
  | _ => True

/-- The members `"a":1,"a":2` and the closing brace. -/
def duplicate_members : jmembers :=
  .more [.lit [97]] [] [] (.scalar (.number [] [49] [] [])) [] []
    (.last [.lit [97]] [] [] (.scalar (.number [] [50] [] [])) [])

/-- The flags with `JSON_REJECT_DUPLICATES` only. -/
def reject_duplicates : load_flags := { no_flags with JSON_REJECT_DUPLICATES := true }

/-- An element of an array with the whitespace around it and the comma after
it: `w0 v w1 ,`. -/
structure jelem where
  w0 : List Nat
  v : jval
  w1 : List Nat

/-- The bytes of the element and its comma. -/
def jelem.text (el : jelem) : List Nat := el.w0 ++ (el.v.text ++ (el.w1 ++ [44]))

/-- The bytes of the elements and their commas. -/
def elems_text : List jelem → List Nat
  | [] => []
  | el :: rest => el.text ++ elems_text rest

/-- The element is well formed. -/
def jelem.wf (el : jelem) : Prop := all_space el.w0 ∧ el.v.wf ∧ all_space el.w1

/-- A member of an object with the whitespace around its tokens and the comma
after it: `w0 key w1 : w2 v w3 ,`. -/
structure jmember where
  w0 : List Nat
  key : List string_item
  w1 : List Nat
  w2 : List Nat
  v : jval
  w3 : List Nat

/-- The bytes of the member and its comma. -/
def jmember.text (m : jmember) : List Nat :=
  m.w0 ++ ((34 :: string_text m.key ++ [34]) ++
    (m.w1 ++ 58 :: (m.w2 ++ (m.v.text ++ (m.w3 ++ [44])))))

/-- The bytes of the members and their commas. -/
def members_text : List jmember → List Nat
  | [] => []
  | m :: rest => m.text ++ members_text rest

/-- The member is well formed. -/
def jmember.wf (m : jmember) : Prop :=
  all_space m.w0 ∧ (∀ i ∈ m.key, i.valid) ∧ all_space m.w1 ∧ all_space m.w2 ∧ m.v.wf ∧
    all_space m.w3

/-- The members have decoded keys, none of which is in `seen` or occurs twice,
and no object among the values has two members of the same decoded key. -/
def members_no_duplicate : List jmember → List (List Nat) → Prop
  | [], _ => True
  | m :: rest, seen =>
    (decoded_key m.key).getD [] ∉ seen ∧ m.v.no_duplicate ∧
      members_no_duplicate rest ((decoded_key m.key).getD [] :: seen)

/-- The call of `lex_scan` and the loop of `parse_array` after it. -/
def scan_array_loop (ctx : json_context_t) (flags : load_flags) (n : Nat) (array : List json_t)
    (lex : lex_t) (error : json_error_t) : Option (Option json_t × lex_t × json_error_t) :=
  match lex_scan ctx lex flags error with
  | none => none
  | some (lex, error) => parse_array_loop ctx flags n array lex error

/-- The call of `lex_scan` and the loop of `parse_object` after it. -/
def scan_object_loop (ctx : json_context_t) (flags : load_flags) (n : Nat)
    (object : List (List Nat × json_t)) (lex : lex_t) (error : json_error_t) :
    Option (Option json_t × lex_t × json_error_t) :=
  match lex_scan ctx lex flags error with
  | none => none
  | some (lex, error) => parse_object_loop ctx flags n object lex error

/-- The loop of `parse_array` accepts the elements: each is well formed and has
a value under the flags, and duplicate keys are not rejected or there is
none. -/
def elems_accepted (ctx : json_context_t) (flags : load_flags) (els : List jelem) : Prop :=
  ∀ el ∈ els, el.wf ∧ (∃ x, el.v.value ctx flags = some x) ∧
    (flags.JSON_REJECT_DUPLICATES = false ∨ el.v.no_duplicate)

/-- The values of the members of well-formed members have, set one after the
other into `object`; `none` when a key or a value has none. -/
def members_set (ctx : json_context_t) (flags : load_flags) :
    List jmember → List (List Nat × json_t) → Option (List (List Nat × json_t))
  | [], object => some object
  | m :: rest, object =>
    match decoded_key m.key, m.v.value ctx flags with
    | some u, some x => members_set ctx flags rest (json_object_set_nocheck object u x)
    | _, _ => none

/-- The loop of `parse_object` accepts the members: each is well formed, the
keys and the values have values under the flags, and duplicate keys are not
rejected or there is none. -/
def members_accepted (ctx : json_context_t) (flags : load_flags) (ms : List jmember) : Prop :=
  (∀ m ∈ ms, m.wf) ∧ (∃ object, members_set ctx flags ms [] = some object) ∧
    (flags.JSON_REJECT_DUPLICATES = false ∨ members_no_duplicate ms [])

/-- The elements `1,` and ` 2,`. -/
def one_two : List jelem :=
  [{ w0 := [], v := .scalar (.number [] [49] [] []), w1 := [] },
   { w0 := [32], v := .scalar (.number [] [50] [] []), w1 := [] }]

/-- The key `"a\u0000b"`. -/
def nul_key : List string_item := [.lit [97], .unicode 48 48 48 48, .lit [98]]

/-- Every flag set, with both backends asked for always. -/
def all_flags : load_flags :=
  { JSON_REJECT_DUPLICATES := true, JSON_DISABLE_EOF_CHECK := true, JSON_DECODE_ANY := true,
    JSON_DECODE_INT_AS_REAL := true, JSON_ALLOW_NUL := true, JSON_USE_BIGINT := true,
    JSON_USE_BIGINT_ALWAYS := true, JSON_USE_BIGREAL := true,
    JSON_USE_BIGREAL_ALWAYS := true }

/-- A context with both backends installed, whose conversions give the
handle 1. -/
def backend_context : json_context_t :=
  { have_bigint := true, have_bigreal := true,
    bigint_from_string_fn := fun _ => 1, bigreal_from_string_fn := fun _ => 1,
    jsonp_strtod := fun _ => { rc := 0, erange := false, value := { bits := 0 } } }

/-- A context with both backends installed whose conversions from a string
fail: they give the null handle. -/
def null_backend_context : json_context_t :=
  { have_bigint := true, have_bigreal := true,
    bigint_from_string_fn := fun _ => 0, bigreal_from_string_fn := fun _ => 0,
    jsonp_strtod := fun _ => { rc := 0, erange := false, value := { bits := 0 } } }

/-- While the state is OK no `char` of the buffer has the value of a terminal
state (the bytes 0xFF and 0xFE are in no UTF-8 sequence). -/
def stream_t.sane (s : stream_t) : Prop :=
  s.state = STREAM_STATE_OK →
    ∀ c ∈ s.buffer, c ≠ STREAM_STATE_EOF ∧ c ≠ STREAM_STATE_ERROR

/-- The values that `n` calls of `stream_get` return one after the other, and
the lexer and the error object after them. -/
def stream_gets : Nat → lex_t → json_error_t → List Int × lex_t × json_error_t
  | 0, lex, error => ([], lex, error)
  | n + 1, lex, error =>
    let r := stream_get lex error
    let q := stream_gets n r.2.1 r.2.2
    (r.1 :: q.1, q.2.1, q.2.2)

/-- The decimal digits of `n`, most significant first, at most `fuel` of them;
called with enough digits for the value. -/
def decimal_digits : Nat → Nat → List Nat
  | 0, _ => []
  | fuel + 1, n =>
    if n < 10 then [48 + n] else decimal_digits fuel (n / 10) ++ [48 + n % 10]

/-- The OpenSSL call `BN_bn2dec(z)`, which is no part of the repository: the
string with the decimal digits of the number behind the handle, after a `-` if
it is negative.  A `BIGNUM` is kept as the integer it holds. -/
def BN_bn2dec (z : Int) : List Nat :=
  (if z < 0 then [45] else []) ++ decimal_digits (z.natAbs + 1) z.natAbs

/-- The call `memcpy(dest, src, n)` on the memory that starts at `dest`. -/
def memcpy : List Nat → List Nat → Nat → List Nat
  | memory, _, 0 => memory
  | [], _, _ + 1 => []
  | _ :: memory, src, n + 1 => src.headD 0 :: memcpy memory src.tail n

/-- The function `json_bigint_openssl_to_str` of `json_bignum_openssl.c`.
`memory` is the memory that starts at `buffer`: its first `size` bytes are the
buffer of the caller, the bytes after them belong to something else.  The
result is the memory afterwards and the value returned.  `size_t` has 64
bits. -/
def json_bigint_openssl_to_str (i : Int) (memory : List Nat) (size : Nat) : List Nat × Int :=
  let buf := BN_bn2dec i
  let outsize := buf.length
  let copysize := if outsize ≤ size then outsize else (size + 2 ^ 64 - 1) % 2 ^ 64
  let memory := memcpy memory buf copysize
  let memory := memory.set copysize 0
  (memory, (outsize : Int))

/-- What the backends need of `memfuncs`: whether `memfuncs->malloc_fn` returns
storage (`true`) or `NULL`. -/
structure json_memory_funcs_t where
  malloc_fn : Bool
  deriving DecidableEq, Repr

/-- A `long double`, kept as its bit pattern; no arithmetic on it is
modelled. -/
structure long_double where
  bits : Nat
  deriving DecidableEq, Repr

/-- A `__float128`, kept as its bit pattern. -/
structure float128 where
  bits : Nat
  deriving DecidableEq, Repr

/-- An `mpf_t` of GMP, kept as a bit pattern. -/
structure mpf_t where
  bits : Nat
  deriving DecidableEq, Repr

/-- The function `json_bigreal_ldbl_copy` of `json_bignum_ldbl.c`; `none` is
`NULL`. -/
def json_bigreal_ldbl_copy (r : long_double) (memfuncs : json_memory_funcs_t) :
    Option long_double :=
  if memfuncs.malloc_fn = false then none else some r

/-- The function `json_bigreal_ldbl_from_str` of `json_bignum_ldbl.c`.  The C
library's `strtold` is a parameter: it gives the number converted and `end`,
as the count of bytes of `value` before it. -/
def json_bigreal_ldbl_from_str (strtold : List Nat → long_double × Nat) (value : List Nat)
    (memfuncs : json_memory_funcs_t) : Option long_double :=
  let f0 := (strtold value).1
  let f1 := json_bigreal_ldbl_copy f0 memfuncs
  f1

/-- The function `json_bigreal_quad_copy` of `json_bignum_quad.c`. -/
def json_bigreal_quad_copy (r : float128) (memfuncs : json_memory_funcs_t) : Option float128 :=
  if memfuncs.malloc_fn = false then none else some r

/-- The function `json_bigreal_quad_from_str` of `json_bignum_quad.c`, with
`strtoflt128` of libquadmath as a parameter. -/
def json_bigreal_quad_from_str (strtoflt128 : List Nat → float128 × Nat) (value : List Nat)
    (memfuncs : json_memory_funcs_t) : Option float128 :=
  let f0 := (strtoflt128 value).1
  let f1 := json_bigreal_quad_copy f0 memfuncs
  f1

/-- The function `json_bigint_gmp_copy` of `json_bignum_gmp.c`; an `mpz_t` is
kept as the integer it holds. -/
def json_bigint_gmp_copy (i : Int) (memfuncs : json_memory_funcs_t) : Option Int :=
  if memfuncs.malloc_fn = false then none else some i

/-- The function `json_bigint_gmp_from_str` of `json_bignum_gmp.c`.  The call
`mpz_init_set_str(z0, value, 10)` of GMP is a parameter: it gives its return
value and what it leaves in `z0`. -/
def json_bigint_gmp_from_str (mpz_init_set_str : List Nat → Int × Int) (value : List Nat)
    (memfuncs : json_memory_funcs_t) : Option Int :=
  let r := mpz_init_set_str value
  let rc := r.1
  if rc ≠ 0 then none
  else json_bigint_gmp_copy r.2 memfuncs

/-- The function `json_bigreal_gmp_copy` of `json_bignum_gmp.c`. -/
def json_bigreal_gmp_copy (r : mpf_t) (memfuncs : json_memory_funcs_t) : Option mpf_t :=
  if memfuncs.malloc_fn = false then none else some r

/-- The function `json_bigreal_gmp_from_str` of `json_bignum_gmp.c`, with the
call `mpf_init_set_str(f0, value, 10)` of GMP as a parameter. -/
def json_bigreal_gmp_from_str (mpf_init_set_str : List Nat → Int × mpf_t) (value : List Nat)
    (memfuncs : json_memory_funcs_t) : Option mpf_t :=
  let r := mpf_init_set_str value
  let rc := r.1
  if rc ≠ 0 then none
  else json_bigreal_gmp_copy r.2 memfuncs

/-- The function `json_bigint_openssl_from_str` of `json_bignum_openssl.c`.
The call `BN_dec2bn(&z, value)` of OpenSSL is a parameter: it gives its return
value and the number it leaves behind `z`. -/
def json_bigint_openssl_from_str (BN_dec2bn : List Nat → Int × Int) (value : List Nat) :
    Option Int :=
  let r := BN_dec2bn value
  if r.1 = 0 then none
  else some r.2

/-- The part of `lex_scan_number` between the test
`if(c != '.' && c != 'E' && c != 'e')` and the call of
`jsonp_count_significand_digits` (source lines 569-587), entered with `c`
being `.`, `E` or `e`: the fraction, if there is one.  The saved text of the
lexer it gives is the text handed to the counter. -/
def lex_scan_number_counted (fuel : Nat) (lex : lex_t) (c : Int) (error : json_error_t) :
    Option (Option Int × lex_t × json_error_t) :=
  if c = 46 then lex_scan_number_fraction fuel lex error else some (some c, lex, error)

/-- The bookkeeping of `stream_get` for one `char` handed out. -/
def cursor.advance (k : cursor) (c : Int) : cursor :=
  { position := k.position + 1,
    line := if c = 10 then k.line + 1 else k.line,
    column := if c = 10 then 0 else if utf8_check_first c ≠ 0 then k.column + 1 else k.column }

/-- The `char` begins a UTF-8 code point: it is an ASCII byte or the first
byte of a multi-byte sequence (0xC2 to 0xF4). -/
def begins_code_point (c : Int) : Bool :=
  decide (to_uchar c < 0x80) || (decide (0xC2 ≤ to_uchar c) && decide (to_uchar c ≤ 0xF4))

/-- The part of the values after the last LF, all of them if there is none. -/
def since_last_lf : List Int → List Int
  | [] => []
  | c :: rest => if 10 ∈ rest then since_last_lf rest else if c = 10 then rest else c :: rest

/-- The bytes of one code point that is not the LF: an ASCII byte, or a
multi-byte sequence as `stream_get` accepts it. -/
def code_point_bytes (bytes : List Nat) : Prop :=
  (∃ b, bytes = [b] ∧ b < 128 ∧ b ≠ 10) ∨ utf8_sequence bytes

/-- A stream as the decoder keeps it: the buffer holds five `char`s and the
state is one of the three states. -/
def stream_t.good (s : stream_t) : Prop := s.wf ∧ s.buffer.length = 5

/-- The number of calls of `stream_get` that can still hand out data: the
bytes pending in the buffer and the bytes of the source; none in a terminal
state. -/
def stream_t.left (s : stream_t) : Nat :=
  if s.state = STREAM_STATE_OK then s.data.length + (stream_pending s).length else 0

/-- The same count right after `stream_get` has handed out `c`: `c` is one
more, unless it is the value of a terminal state. -/
def left_with (c : Int) (s : stream_t) : Nat :=
  s.left + (if c = STREAM_STATE_EOF ∨ c = STREAM_STATE_ERROR then 0 else 1)

/-- What the functions of the parser give when they have enough iterations
left for the bytes that the stream can still hand out. -/
def parser_total (ctx : json_context_t) (flags : load_flags) (n : Nat) : Prop :=
  (∀ (lex : lex_t) (e : json_error_t), lex.stream.good → 1 ≤ n →
    (lex.token = 91 ∨ lex.token = 123 → 3 * lex.stream.left + 6 ≤ n) →
    ∃ r lex1 e1, parse_value ctx flags n lex e = some (r, lex1, e1) ∧ lex1.stream.good ∧
      lex1.stream.left ≤ lex.stream.left) ∧
  (∀ (lex : lex_t) (e : json_error_t), lex.stream.good → 3 * lex.stream.left + 5 ≤ n →
    ∃ r lex1 e1, parse_array ctx flags n lex e = some (r, lex1, e1) ∧ lex1.stream.good ∧
      lex1.stream.left ≤ lex.stream.left) ∧
  (∀ (array : List json_t) (lex : lex_t) (e : json_error_t), lex.stream.good →
    3 * lex.stream.left + 2 ≤ n →
    (lex.token = 91 ∨ lex.token = 123 → 3 * lex.stream.left + 7 ≤ n) →
    ∃ r lex1 e1, parse_array_loop ctx flags n array lex e = some (r, lex1, e1) ∧
      lex1.stream.good ∧ lex1.stream.left ≤ lex.stream.left) ∧
  (∀ (lex : lex_t) (e : json_error_t), lex.stream.good → 3 * lex.stream.left + 5 ≤ n →
    ∃ r lex1 e1, parse_object ctx flags n lex e = some (r, lex1, e1) ∧ lex1.stream.good ∧
      lex1.stream.left ≤ lex.stream.left) ∧
  (∀ (object : List (List Nat × json_t)) (lex : lex_t) (e : json_error_t), lex.stream.good →
    3 * lex.stream.left + 2 ≤ n →
    ∃ r lex1 e1, parse_object_loop ctx flags n object lex e = some (r, lex1, e1) ∧
      lex1.stream.good ∧ lex1.stream.left ≤ lex.stream.left)

/-- The bookkeeping of a stream agrees with the input `inp` it reads: the
position is an offset into it; in the OK state what is pending in the buffer
and what the source still holds is the input from the position on; at end of
file the position is the length of the input. -/
def Consumed (s : stream_t) (inp : List Nat) : Prop :=
  s.position ≤ inp.length ∧
    (s.state = STREAM_STATE_OK →
      (stream_pending s).map to_uchar ++ s.data = inp.drop s.position) ∧
    (s.state = STREAM_STATE_EOF → s.position = inp.length)

/-- A stream of the decoder that reads `inp`. -/
structure Follows (s : stream_t) (inp : List Nat) : Prop where
  good : s.good
  sane : s.sane
  consumed : Consumed s inp

/-- The stream has just handed out the `char` `c`, the byte of `inp` before its
position; the byte is still in the buffer, before the place the stream reads
next. -/
structure JustGot (s : stream_t) (c : Int) (inp : List Nat) : Prop where
  ok : s.state = STREAM_STATE_OK
  bpos : 1 ≤ s.buffer_pos
  back : s.buffer.getD (s.buffer_pos - 1) 0 = c
  nz : c ≠ 0
  pos : 1 ≤ s.position
  byte : inp[s.position - 1]? = some (to_uchar c)

/-- The saved text of the lexer is the slice of the input from `start` to the
position of the stream, at least `lo` bytes long. -/
structure Slice (lex : lex_t) (inp : List Nat) (start lo : Nat) : Prop where
  follows : Follows lex.stream inp
  le : start + lo ≤ lex.stream.position
  text : lex.saved_text = (inp.drop start).take (lex.stream.position - start)

/-- The state after `c = lex_get(lex, error)`: at a terminal value the saved
text is the slice up to the position, at a byte it is the slice up to the byte. -/
def SlicePeeked (lex : lex_t) (c : Int) (inp : List Nat) (start lo : Nat) : Prop :=
  ((c = STREAM_STATE_EOF ∨ c = STREAM_STATE_ERROR) ∧ Slice lex inp start lo) ∨
    (Follows lex.stream inp ∧ JustGot lex.stream c inp ∧ start + lo < lex.stream.position ∧
      lex.saved_text = (inp.drop start).take (lex.stream.position - 1 - start))

/-- The state after `c = lex_get_save(lex, error)`: the saved text is the slice
up to the position, and `c` is a terminal value or the last byte of it. -/
def SliceGot (lex : lex_t) (c : Int) (inp : List Nat) (start lo : Nat) : Prop :=
  Slice lex inp start lo ∧
    ((c = STREAM_STATE_EOF ∨ c = STREAM_STATE_ERROR) ∨
      (JustGot lex.stream c inp ∧ start + lo < lex.stream.position))

/-- The offset in the input of the value `c` that the stream has just handed
out: the position itself at a terminal value, the byte before it otherwise. -/
def offset_of (c : Int) (s : stream_t) : Nat :=
  if c = STREAM_STATE_EOF ∨ c = STREAM_STATE_ERROR then s.position else s.position - 1

/-- The first byte of a well-formed UTF-8 byte sequence (Unicode Standard,
table 3-7, "Well-Formed UTF-8 Byte Sequences"): the ranges in which the bytes
that follow it have to lie, `none` for a byte that begins no sequence.  The
second byte is restricted after 0xE0 and 0xF0 (no encoding longer than
needed), after 0xED (no surrogate code point, U+D800 to U+DFFF) and after 0xF4
(no code point above U+10FFFF). -/
def utf8_lead (b : Nat) : Option (List (Nat × Nat)) :=
  if b ≤ 0x7F then some []
  else if 0xC2 ≤ b ∧ b ≤ 0xDF then some [(0x80, 0xBF)]
  else if b = 0xE0 then some [(0xA0, 0xBF), (0x80, 0xBF)]
  else if (0xE1 ≤ b ∧ b ≤ 0xEC) ∨ b = 0xEE ∨ b = 0xEF then some [(0x80, 0xBF), (0x80, 0xBF)]
  else if b = 0xED then some [(0x80, 0x9F), (0x80, 0xBF)]
  else if b = 0xF0 then some [(0x90, 0xBF), (0x80, 0xBF), (0x80, 0xBF)]
  else if 0xF1 ≤ b ∧ b ≤ 0xF3 then some [(0x80, 0xBF), (0x80, 0xBF), (0x80, 0xBF)]
  else if b = 0xF4 then some [(0x80, 0x8F), (0x80, 0xBF), (0x80, 0xBF)]
  else none

/-- One byte read in the state `st`, the ranges of the bytes that the sequence
begun still needs: a byte of the first range when there is one, the first byte
of a sequence otherwise. -/
def utf8_step (st : List (Nat × Nat)) (b : Nat) : Option (List (Nat × Nat)) :=
  match st with
  | [] => utf8_lead b
  | r :: st1 => if r.1 ≤ b ∧ b ≤ r.2 then some st1 else none

/-- The bytes read one after the other from the state `st`; `none` when a byte
does not fit. -/
def utf8_scan (st : List (Nat × Nat)) : List Nat → Option (List (Nat × Nat))
  | [] => some st
  | b :: rest =>
    match utf8_step st b with
    | none => none
    | some st1 => utf8_scan st1 rest

/-- The bytes are well-formed UTF-8: a concatenation of well-formed byte
sequences of table 3-7, so of encodings of code points U+0000 to U+10FFFF
other than the surrogate code points, each of minimal length. -/
def utf8_well_formed (bs : List Nat) : Prop := utf8_scan [] bs = some []

instance (bs : List Nat) : Decidable (utf8_well_formed bs) :=
  inferInstanceAs (Decidable (utf8_scan [] bs = some []))

/-- The state is one in which a sequence has begun, or the empty one: every
byte still needed is a continuation byte. -/
def cont_state (st : List (Nat × Nat)) : Prop := ∀ r ∈ st, 0x80 ≤ r.1

/-- While the state is OK, the `char`s in the buffer from its start to the
first NUL are well-formed UTF-8 (one code point that `stream_get` has
validated, or nothing), and `buffer_pos` lies within them or on the NUL, or at
most one after a NUL that was read as data, where the buffer then has a NUL
as well. -/
def stream_t.decoded (s : stream_t) : Prop :=
  s.state = STREAM_STATE_OK →
    utf8_well_formed ((buffer_pending s.buffer 0).map to_uchar) ∧
      s.buffer_pos ≤ (buffer_pending s.buffer 0).length + 1 ∧
      (s.buffer_pos = (buffer_pending s.buffer 0).length + 1 →
        s.buffer.getD s.buffer_pos 0 = 0)

/-- A property of the stream that is kept by the three functions through which
the lexer changes a stream: `stream_get`, `stream_unget` and the step of the
loop of `lex_save_cached`. -/
structure StreamInv (P : stream_t → Prop) : Prop where
  get : ∀ (lex : lex_t) (e : json_error_t), P lex.stream → P (stream_get lex e).2.1.stream
  unget : ∀ (s : stream_t) (c : Int), P s → P (stream_unget s c)
  cached : ∀ (s : stream_t), P s → s.buffer.getD s.buffer_pos 0 ≠ 0 →
    P { s with buffer_pos := s.buffer_pos + 1, position := s.position + 1 }

/-- The buffer of the stream holds `char`s, five of them, none of the value of
a terminal state while the state is OK, and well-formed UTF-8 up to its first
NUL: what `lex_init` gives and every function of the lexer keeps. -/
def stream_t.valid (s : stream_t) : Prop := s.good ∧ s.sane ∧ s.decoded

/-- The saved text followed by the bytes still pending in the buffer of the
stream is well-formed UTF-8. -/
def lex_t.whole (lex : lex_t) : Prop :=
  utf8_well_formed (lex.saved_text ++ (stream_pending lex.stream).map to_uchar)

/-- The value `c` is the one that `stream_get` has just handed out of the
buffer. -/
def Back (s : stream_t) (c : Int) : Prop :=
  s.state = STREAM_STATE_OK ∧ 1 ≤ s.buffer_pos ∧ s.buffer.getD (s.buffer_pos - 1) 0 = c

/-! ## Theorems -/

mutual

theorem json_identical_sound : ∀ a b, json_identical a b = true → a = b
  | .JSON_OBJECT a, .JSON_OBJECT b, h => by
    simp only [json_identical] at h; rw [json_identical_members_sound a b h]
  | .JSON_ARRAY a, .JSON_ARRAY b, h => by
    simp only [json_identical] at h; rw [json_identical_elems_sound a b h]
  | .JSON_STRING a, .JSON_STRING b, h => by
    simp only [json_identical, decide_eq_true_eq] at h; rw [h]
  | .JSON_INTEGER a, .JSON_INTEGER b, h => by
    simp only [json_identical, decide_eq_true_eq] at h; rw [h]
  | .JSON_REAL a, .JSON_REAL b, h => by
    simp only [json_identical, decide_eq_true_eq] at h; rw [h]
  | .JSON_BIGINTEGER a, .JSON_BIGINTEGER b, h => by
    simp only [json_identical, decide_eq_true_eq] at h; rw [h]
  | .JSON_BIGREAL a, .JSON_BIGREAL b, h => by
    simp only [json_identical, decide_eq_true_eq] at h; rw [h]
  | .JSON_TRUE, .JSON_TRUE, _ => rfl
  | .JSON_FALSE, .JSON_FALSE, _ => rfl
  | .JSON_NULL, .JSON_NULL, _ => rfl

theorem json_identical_elems_sound : ∀ a b, json_identical_elems a b = true → a = b
  | [], [], _ => rfl
  | a :: as, b :: bs, h => by
    simp only [json_identical_elems, Bool.and_eq_true] at h
    rw [json_identical_sound a b h.1, json_identical_elems_sound as bs h.2]

theorem json_identical_members_sound : ∀ a b, json_identical_members a b = true → a = b
  | [], [], _ => rfl
  | (k, a) :: as, (l, b) :: bs, h => by
    simp only [json_identical_members, Bool.and_eq_true, decide_eq_true_eq] at h
    rw [h.1.1, json_identical_sound a b h.1.2, json_identical_members_sound as bs h.2]

end

theorem json_result_identical_sound :
    ∀ a b : Option (Option json_t × json_error_t), json_result_identical a b = true → a = b
  | some (some a, e), some (some b, f), h => by
    simp only [json_result_identical, Bool.and_eq_true, decide_eq_true_eq] at h
    rw [json_identical_sound a b h.1, h.2]
  | some (none, e), some (none, f), h => by
    simp only [json_result_identical, decide_eq_true_eq] at h
    rw [h]
  | none, none, _ => rfl

theorem getD_eq_headD_drop (l : List Int) (n : Nat) : l.getD n 0 = (l.drop n).headD 0 := by
  induction l generalizing n with
  | nil => simp
  | cons a l ih =>
    cases n with
    | zero => simp
    | succ n => simp

theorem drop_succ_eq_tail_drop (l : List Int) (n : Nat) : l.drop (n + 1) = (l.drop n).tail := by
  induction l generalizing n with
  | nil => simp
  | cons a l ih =>
    cases n with
    | zero => simp
    | succ n => simp

theorem stream_pending_nil (s : stream_t) (h : stream_pending s = []) :
    s.buffer.getD s.buffer_pos 0 = 0 := by
  rw [getD_eq_headD_drop]
  unfold stream_pending buffer_pending at h
  cases hd : s.buffer.drop s.buffer_pos with
  | nil => simp
  | cons x xs =>
    rw [hd] at h
    simp only [List.takeWhile_cons] at h
    by_cases hx : x = 0
    · simp [hx]
    · simp [hx] at h

theorem stream_pending_cons (s : stream_t) (c : Int) (p : List Int)
    (h : stream_pending s = c :: p) :
    s.buffer.getD s.buffer_pos 0 = c ∧ c ≠ 0 ∧
      buffer_pending s.buffer (s.buffer_pos + 1) = p := by
  unfold stream_pending buffer_pending at h
  unfold buffer_pending
  rw [getD_eq_headD_drop]
  simp only [drop_succ_eq_tail_drop]
  cases hd : s.buffer.drop s.buffer_pos with
  | nil => rw [hd] at h; simp at h
  | cons x xs =>
    rw [hd] at h
    simp only [List.takeWhile_cons] at h
    by_cases hx : x = 0
    · simp [hx] at h
    · simp only [hx, ne_eq, not_false_eq_true, decide_True, ite_true, List.cons.injEq] at h
      obtain ⟨h1, h2⟩ := h
      subst h1
      exact ⟨by simp, hx, by simpa using h2⟩

theorem get_call_cons (g : get_func) (d : List Nat) (b : Nat) (r : List Nat)
    (h : g.bytes d = b :: r) (hb : 0 < b) :
    ∃ d', g.call d = ((b : Int), d') ∧ g.bytes d' = r := by
  cases g with
  | buffer_get =>
    cases d with
    | nil => simp [get_func.bytes] at h
    | cons x xs =>
      simp only [get_func.bytes, List.map_cons, List.cons.injEq] at h
      exact ⟨xs, by simp [get_func.call, Jansson.buffer_get, h.1], by simp [get_func.bytes, h.2]⟩
  | string_get =>
    cases d with
    | nil => simp [get_func.bytes] at h
    | cons x xs =>
      simp only [get_func.bytes, List.map_cons, List.takeWhile_cons] at h
      by_cases hx : x % 256 = 0
      · simp [hx] at h
      · simp only [hx, ne_eq, not_false_eq_true, decide_True, ite_true, List.cons.injEq] at h
        exact ⟨xs, by simp [get_func.call, Jansson.string_get, h.1]; omega, by
          simp only [get_func.bytes]; exact h.2⟩

theorem get_call_nil (g : get_func) (d : List Nat) (h : g.bytes d = []) :
    ∃ d', g.call d = (EOF, d') ∧ g.bytes d' = [] := by
  cases g with
  | buffer_get =>
    cases d with
    | nil => exact ⟨[], rfl, rfl⟩
    | cons x xs => simp [get_func.bytes] at h
  | string_get =>
    cases d with
    | nil => exact ⟨[], rfl, rfl⟩
    | cons x xs =>
      simp only [get_func.bytes, List.map_cons, List.takeWhile_cons] at h
      by_cases hx : x % 256 = 0
      · exact ⟨x :: xs, by simp [get_func.call, Jansson.string_get, hx], by
          simp [get_func.bytes, hx]⟩
      · simp [hx] at h

theorem to_uchar_ascii (b : Nat) (h : b < 128) : to_uchar (b : Int) = b := by
  unfold to_uchar; omega

theorem to_char_ascii (b : Nat) (h : b < 128) : to_char (b : Int) = b := by
  unfold to_char; omega

theorem utf8_check_first_ascii (b : Nat) (h : b < 128) : utf8_check_first (b : Int) = 1 := by
  unfold utf8_check_first; simp [to_uchar_ascii b h, h]

theorem length_five (l : List Int) (h : l.length = 5) :
    ∃ a0 a1 a2 a3 a4, l = [a0, a1, a2, a3, a4] := by
  match l, h with
  | [a0, a1, a2, a3, a4], _ => exact ⟨a0, a1, a2, a3, a4, rfl⟩

theorem stream_get_next_eq (lex : lex_t) (e : json_error_t) :
    stream_get_next lex e =
      (lex.stream.buffer.getD lex.stream.buffer_pos 0,
        { lex with stream :=
          { lex.stream with
            buffer_pos := lex.stream.buffer_pos + 1
            position := lex.stream.position + 1
            line := if lex.stream.buffer.getD lex.stream.buffer_pos 0 = 10
              then lex.stream.line + 1 else lex.stream.line
            column := if lex.stream.buffer.getD lex.stream.buffer_pos 0 = 10 then 0
              else if utf8_check_first (lex.stream.buffer.getD lex.stream.buffer_pos 0) ≠ 0
              then lex.stream.column + 1 else lex.stream.column
            last_column := if lex.stream.buffer.getD lex.stream.buffer_pos 0 = 10
              then lex.stream.column else lex.stream.last_column } }, e) := by
  simp only [stream_get_next]
  generalize lex.stream.buffer.getD lex.stream.buffer_pos 0 = c
  by_cases h10 : c = 10
  · simp [h10]
  · by_cases hf : utf8_check_first c = 0
    · simp [h10, hf]
    · simp [h10, hf]

theorem stream_get_ascii (lex : lex_t) (e : json_error_t) (b : Nat) (r : List Nat) (k : cursor)
    (h : Ready lex.stream (b :: r) k) (hb0 : 0 < b) (hb : b < 128) :
    (stream_get lex e).1 = (b : Int) ∧ (stream_get lex e).2.2 = e ∧
      SameToken lex (stream_get lex e).2.1 ∧
      JustRead (stream_get lex e).2.1.stream b r k ∧
      stream_pending (stream_get lex e).2.1.stream = [] := by
  obtain ⟨hstate, hlen, hpend, hrest, hcur⟩ := h
  have hok : lex.stream.state = STREAM_STATE_OK := by
    rcases hstate with h1 | ⟨_, h2⟩
    · exact h1
    · cases h2
  have hu := to_uchar_ascii b hb
  have hf := utf8_check_first_ascii b hb
  have h10 : ((b : Int) = 10) ↔ b = 10 := by omega
  cases hp : stream_pending lex.stream with
  | nil =>
    -- nothing pending: the byte comes from the source
    rw [hp] at hrest
    simp only [List.map_nil, List.nil_append] at hrest
    obtain ⟨d1, hcall, hd1⟩ := get_call_cons _ _ _ _ hrest hb0
    have hz := stream_pending_nil _ hp
    obtain ⟨a0, a1, a2, a3, a4, hbuf⟩ := length_five _ hlen
    have h1 : ¬ ((b : Int) = EOF) := by simp only [EOF]; omega
    have h2 : ¬ ((128 : Int) ≤ (b : Int) ∧ (b : Int) ≤ 255) := by omega
    have key : stream_get lex e = stream_get_next { lex with stream :=
        { lex.stream with data := d1, buffer := [(b : Int), 0, a2, a3, a4],
                          buffer_pos := 0 } } e := by
      unfold stream_get
      simp only [hok, hz, hcall, ne_eq, not_true_eq_false, ite_false, ite_true]
      simp only [h1, h2, ite_false, hbuf, to_char_ascii b hb]
      simp only [List.set_cons_zero, List.set_cons_succ]
    rw [key, stream_get_next_eq]
    simp only [List.getD_cons_zero, hf, h10]
    refine ⟨trivial, trivial, ⟨rfl, rfl, rfl⟩, ⟨⟨Or.inl hok, rfl, Or.inl ?_, ?_, ?_⟩, hok, ?_, ?_, ?_⟩, ?_⟩
    · simp [stream_pending, buffer_pending]
    · simp [stream_pending, buffer_pending, hd1]
    · simp only [stream_t.cursor, cursor.step, hu, hf, ← hcur]
      by_cases h : b = 10 <;> simp [h]
    · simp
    · simp
    · intro h; simp [h10.mp h, ← hcur, stream_t.cursor]
    · simp [stream_pending, buffer_pending]
  | cons c p =>
    -- the byte was pushed back
    rw [hp] at hrest hpend
    simp only [List.map_cons, List.cons_append, List.cons.injEq] at hrest
    obtain ⟨hcb, hrest⟩ := hrest
    have hcp : c = (b : Int) ∧ p = [] := by
      rcases hpend with h | ⟨c1, h0, h1, h⟩ | h
      · cases h
      · simp only [List.cons.injEq] at h
        obtain ⟨h2, h3⟩ := h
        subst h2
        refine ⟨?_, h3⟩
        unfold to_uchar at hcb; omega
      · have := h c (List.mem_cons_self _ _)
        unfold to_uchar at hcb; omega
    obtain ⟨hc, hpnil⟩ := hcp
    subst hpnil
    obtain ⟨hg, hne, hnext⟩ := stream_pending_cons _ _ _ hp
    have key : stream_get lex e = stream_get_next lex e := by
      unfold stream_get
      simp only [hok, hg, hne, ne_eq, not_true_eq_false, ite_false]
    rw [key, stream_get_next_eq]
    simp only [hg, hc, hf, h10]
    simp only [List.map_nil, List.nil_append] at hrest
    refine ⟨trivial, trivial, ⟨rfl, rfl, rfl⟩, ⟨⟨Or.inl hok, hlen, Or.inl ?_, ?_, ?_⟩, hok, ?_, ?_, ?_⟩, ?_⟩
    · exact hnext
    · show (buffer_pending lex.stream.buffer (lex.stream.buffer_pos + 1)).map to_uchar ++ _ = r
      rw [hnext]; exact hrest
    · simp only [stream_t.cursor, cursor.step, hu, hf, ← hcur]
      by_cases h : b = 10 <;> simp [h]
    · simp
    · simp only [Nat.add_sub_cancel]; rw [hg, hc]
    · intro h; simp [h10.mp h, ← hcur, stream_t.cursor]
    · exact hnext

theorem stream_get_eof (lex : lex_t) (e : json_error_t) (k : cursor)
    (h : Ready lex.stream [] k) :
    (stream_get lex e).1 = STREAM_STATE_EOF ∧ (stream_get lex e).2.2 = e ∧
      SameToken lex (stream_get lex e).2.1 ∧
      Ready (stream_get lex e).2.1.stream [] k ∧
      (stream_get lex e).2.1.stream.state = STREAM_STATE_EOF := by
  obtain ⟨hstate, hlen, hpend, hrest, hcur⟩ := h
  simp only [List.append_eq_nil, List.map_eq_nil_iff] at hrest
  obtain ⟨hp, hbytes⟩ := hrest
  rcases hstate with hok | ⟨heof, _⟩
  · obtain ⟨d1, hcall, hd1⟩ := get_call_nil _ _ hbytes
    have hz := stream_pending_nil _ hp
    have key : stream_get lex e = (STREAM_STATE_EOF,
        { lex with stream := { lex.stream with data := d1, state := STREAM_STATE_EOF } }, e) := by
      unfold stream_get
      simp only [hok, hz, hcall, ne_eq, not_true_eq_false, ite_false, ite_true]
    rw [key]
    refine ⟨rfl, rfl, ⟨rfl, rfl, rfl⟩, ⟨Or.inr ⟨rfl, rfl⟩, hlen, Or.inl hp, ?_, hcur⟩, rfl⟩
    show (stream_pending lex.stream).map to_uchar ++ lex.stream.get.bytes d1 = []
    rw [hp, hd1]; rfl
  · have key : stream_get lex e = (STREAM_STATE_EOF, lex, e) := by
      unfold stream_get
      simp [heof]
    rw [key]
    exact ⟨rfl, rfl, ⟨rfl, rfl, rfl⟩, ⟨Or.inr ⟨heof, rfl⟩, hlen, Or.inl hp, by simp [hp, hbytes], hcur⟩,
      heof⟩

theorem stream_unget_ascii (s : stream_t) (b : Nat) (r : List Nat) (k : cursor)
    (h : JustRead s (b : Int) r k) (hpnil : stream_pending s = []) (hb0 : 0 < b) (hb : b < 128) :
    Ready (stream_unget s (b : Int)) (b :: r) k := by
  obtain ⟨⟨_, hlen, hpend, hrest, hcur⟩, hok, hpos, hback, hlast⟩ := h
  have hu := to_uchar_ascii b hb
  have hf := utf8_check_first_ascii b hb
  have h10 : ((b : Int) = 10) ↔ b = 10 := by omega
  have h1 : ¬ ((b : Int) = STREAM_STATE_EOF ∨ (b : Int) = STREAM_STATE_ERROR) := by
    simp only [STREAM_STATE_EOF, STREAM_STATE_ERROR]; omega
  have hpd : buffer_pending s.buffer (s.buffer_pos - 1) = [(b : Int)] := by
    have hd : s.buffer.drop (s.buffer_pos - 1) = (b : Int) :: s.buffer.drop s.buffer_pos := by
      have h2 := getD_eq_headD_drop s.buffer (s.buffer_pos - 1)
      rw [hback] at h2
      have h3 := drop_succ_eq_tail_drop s.buffer (s.buffer_pos - 1)
      rw [Nat.sub_add_cancel hpos] at h3
      cases hdr : s.buffer.drop (s.buffer_pos - 1) with
      | nil => rw [hdr] at h2; simp at h2; omega
      | cons x xs =>
        rw [hdr] at h2 h3
        simp only [List.headD_cons] at h2
        simp only [List.tail_cons] at h3
        rw [h3, h2]
    have hne : ¬ ((b : Int) = 0) := by omega
    unfold stream_pending buffer_pending at hpnil
    unfold buffer_pending
    rw [hd, List.takeWhile_cons, hpnil]
    simp [hne]
  rw [hpnil] at hrest
  simp only [List.map_nil, List.nil_append] at hrest
  simp only [hu, hf, cursor.step, stream_t.cursor] at hcur
  obtain ⟨kp, kl, kc⟩ := k
  unfold stream_unget
  simp only [h1, ite_false, h10, hf]
  by_cases hb10 : b = 10
  · simp only [hb10, ite_true, cursor.mk.injEq] at hcur ⊢
    have hl := hlast (by omega)
    simp only at hl
    refine ⟨Or.inl hok, hlen, Or.inr (Or.inl ⟨(b : Int), by omega, by omega, hpd⟩), ?_, ?_⟩
    · show (buffer_pending s.buffer (s.buffer_pos - 1)).map to_uchar ++ _ = _
      rw [hpd]; subst hb10; simp [hrest]; exact hu
    · simp only [stream_t.cursor, cursor.mk.injEq]
      omega
  · simp only [hb10, ite_false, ne_eq, one_ne_zero, not_false_eq_true, ite_true,
      cursor.mk.injEq] at hcur ⊢
    refine ⟨Or.inl hok, hlen, Or.inr (Or.inl ⟨(b : Int), by omega, by omega, hpd⟩), ?_, ?_⟩
    · show (buffer_pending s.buffer (s.buffer_pos - 1)).map to_uchar ++ _ = _
      rw [hpd]; simp [hrest, hu]
    · simp only [stream_t.cursor, cursor.mk.injEq]
      omega

theorem get_bytes_length_le (g : get_func) (d : List Nat) : (g.bytes d).length ≤ d.length := by
  cases g with
  | buffer_get => simp [get_func.bytes]
  | string_get =>
    simp only [get_func.bytes]
    exact le_trans (List.takeWhile_sublist _).length_le (by simp)

theorem buffer_pending_length_le (buffer : List Int) (pos : Nat) :
    (buffer_pending buffer pos).length ≤ buffer.length := by
  unfold buffer_pending
  exact le_trans (List.takeWhile_sublist _).length_le (by simp)

theorem Ready.length_le {s : stream_t} {d : List Nat} {k : cursor} (h : Ready s d k) :
    d.length ≤ s.data.length + 5 := by
  have h1 := get_bytes_length_le s.get s.data
  have h2 := buffer_pending_length_le s.buffer s.buffer_pos
  have h3 := congrArg List.length h.rest
  simp only [List.length_append, List.length_map] at h3
  have h4 := h.len
  unfold stream_pending at h3
  omega

theorem cursor.steps_cons (k : cursor) (b : Nat) (bs : List Nat) :
    k.steps (b :: bs) = (k.step b).steps bs := rfl

theorem cursor.steps_append (k : cursor) (as bs : List Nat) :
    k.steps (as ++ bs) = (k.steps as).steps bs := by
  simp [cursor.steps]

theorem Got.next {s : stream_t} {c : Int} {rest : List Nat} {k : cursor}
    (h : Got s c rest k) : c = next_char rest := by
  rcases h with ⟨h1, h2, _⟩ | ⟨b, r, h1, h2, _⟩
  · rw [h1, h2]; rfl
  · rw [h1, h2]; rfl

theorem Got.delim {s : stream_t} {c : Int} {rest : List Nat} {k : cursor}
    (h : Got s c rest k) : Delim rest := by
  rcases h with ⟨_, h2, _⟩ | ⟨b, r, h1, _, h3, h4, _⟩
  · exact Or.inl h2
  · exact Or.inr ⟨b, r, h1, h3, h4⟩

theorem Got.consume {s : stream_t} {b : Nat} {r : List Nat} {k : cursor} {c : Int}
    (h : Got s c (b :: r) k) :
    c = (b : Int) ∧ 0 < b ∧ b < 128 ∧ Ready s r (k.step b) := by
  rcases h with ⟨_, h2, _⟩ | ⟨b1, r1, h1, h2, h3, h4, h6, h7⟩
  · cases h2
  · simp only [List.cons.injEq] at h1
    obtain ⟨hb, hr⟩ := h1
    subst hb; subst hr
    have := h6.ready
    rw [to_uchar_ascii b h4] at this
    exact ⟨h2, h3, h4, this⟩

theorem Got.input_length_le {s : stream_t} {c : Int} {rest : List Nat} {k : cursor}
    (h : Got s c rest k) : rest.length ≤ s.data.length + 1 := by
  rcases h with ⟨_, h2, _⟩ | ⟨b, r, h1, _, _, _, h6, h7⟩
  · subst h2; simp
  · subst h1
    have h3 := congrArg List.length h6.ready.rest
    rw [h7] at h3
    have h4 := get_bytes_length_le s.get s.data
    simp only [List.map_nil, List.nil_append] at h3
    simp only [List.length_cons]
    omega

theorem stream_get_got (lex : lex_t) (e : json_error_t) (rest : List Nat) (k : cursor)
    (h : Ready lex.stream rest k) (hd : Delim rest) :
    Got (stream_get lex e).2.1.stream (stream_get lex e).1 rest k ∧
      (stream_get lex e).2.2 = e ∧ SameToken lex (stream_get lex e).2.1 := by
  rcases hd with hnil | ⟨b, r, hr, hb0, hb⟩
  · subst hnil
    obtain ⟨h1, h2, h3, h6, _⟩ := stream_get_eof lex e k h
    exact ⟨Or.inl ⟨h1, rfl, h6⟩, h2, h3⟩
  · subst hr
    obtain ⟨h1, h2, h3, h6, h7⟩ := stream_get_ascii lex e b r k h hb0 hb
    exact ⟨Or.inr ⟨b, r, rfl, h1, hb0, hb, h6, h7⟩, h2, h3⟩

theorem stream_unget_got (s : stream_t) (c : Int) (rest : List Nat) (k : cursor)
    (h : Got s c rest k) : Ready (stream_unget s c) rest k := by
  rcases h with ⟨h1, h2, h3⟩ | ⟨b, r, h1, h2, h3, h4, h6, h7⟩
  · subst h1; subst h2
    have : stream_unget s STREAM_STATE_EOF = s := by simp [stream_unget]
    rw [this]; exact h3
  · subst h1; subst h2
    exact stream_unget_ascii _ b r k h6 h7 h3 h4

theorem lex_save_saved (lex : lex_t) (c : Int) (rest : List Nat) (s : stream_t) (k : cursor)
    (h : Got s c rest k) (hne : rest ≠ []) :
    (lex_save lex c).saved_text = lex.saved_text ++ rest.take 1 := by
  rcases h with ⟨_, h2, _⟩ | ⟨b, r, h1, h2, h3, h4, h6, h7⟩
  · exact absurd h2 hne
  · subst h1; subst h2
    simp [lex_save, to_uchar_ascii b h4]

theorem lex_get_save_peek (lex : lex_t) (e : json_error_t) (rest : List Nat) (k : cursor)
    (h : Ready lex.stream rest k) (hd : Delim rest) :
    Peeked (lex_get_save lex e).2.1 (lex_get_save lex e).1 lex.saved_text rest k ∧
      (lex_get_save lex e).2.2 = e ∧
      (lex_get_save lex e).2.1.token = lex.token ∧
      (lex_get_save lex e).2.1.value = lex.value := by
  have hs := stream_get_got lex e rest k h hd
  unfold lex_get_save
  generalize stream_get lex e = q at hs ⊢
  obtain ⟨c, lex1, e1⟩ := q
  obtain ⟨hg, he, ⟨h3, h4, h5⟩⟩ := hs
  simp only at hg he h3 h4 h5
  subst he
  rcases hg with ⟨h1, h2, hr⟩ | ⟨b, r, h1, h2, hb0, hb, h6, h7⟩
  · subst h1; subst h2
    simp only [ne_eq, not_true_eq_false, false_and, ite_false]
    exact ⟨⟨Or.inl ⟨rfl, rfl, hr⟩, by simp [h3]⟩, trivial, h4, h5⟩
  · subst h1; subst h2
    have hne : (b : Int) ≠ STREAM_STATE_EOF ∧ (b : Int) ≠ STREAM_STATE_ERROR := by
      simp only [STREAM_STATE_EOF, STREAM_STATE_ERROR]; omega
    simp only [hne, ne_eq, not_false_eq_true, and_self, ite_true, lex_save]
    refine ⟨⟨Or.inr ⟨b, r, rfl, rfl, hb0, hb, h6, h7⟩, ?_⟩, trivial, h4, h5⟩
    simp [h3, to_uchar_ascii b hb]

theorem lex_unget_unsave_peeked (lex : lex_t) (c : Int) (t rest : List Nat) (k : cursor)
    (h : Peeked lex c t rest k) :
    (lex_unget_unsave lex c).saved_text = t ∧ Ready (lex_unget_unsave lex c).stream rest k ∧
      (lex_unget_unsave lex c).token = lex.token ∧ (lex_unget_unsave lex c).value = lex.value := by
  obtain ⟨hg, hs⟩ := h
  have hrd := stream_unget_got _ _ _ _ hg
  rcases hg with ⟨h1, h2, h3⟩ | ⟨b, r, h1, h2, h3, h4, h6, h7⟩
  · subst h1; subst h2
    have hu : lex_unget_unsave lex STREAM_STATE_EOF = lex := by
      unfold lex_unget_unsave
      simp only [ne_eq, not_true_eq_false, false_and, ite_false]
    rw [hu]
    exact ⟨by simpa using hs, h3, rfl, rfl⟩
  · subst h1; subst h2
    have hne : (b : Int) ≠ STREAM_STATE_EOF ∧ (b : Int) ≠ STREAM_STATE_ERROR := by
      simp only [STREAM_STATE_EOF, STREAM_STATE_ERROR]; omega
    have hu : lex_unget_unsave lex (b : Int) =
        { lex with stream := stream_unget lex.stream (b : Int)
                   saved_text := lex.saved_text.dropLast } := by
      unfold lex_unget_unsave
      simp only [hne, ne_eq, not_false_eq_true, and_self, ite_true]
    rw [hu]
    refine ⟨?_, hrd, rfl, rfl⟩
    show lex.saved_text.dropLast = t
    rw [hs]; simp

/-- After the lookahead has been accepted as part of the token, the rest is
ready to be read. -/
theorem Peeked.consume_saved {lex : lex_t} {b : Nat} {t r : List Nat} {k : cursor} {c : Int}
    (h : Peeked lex c t (b :: r) k) :
    c = (b : Int) ∧ 0 < b ∧ b < 128 ∧ lex.saved_text = t ++ [b] ∧ Ready lex.stream r (k.step b) := by
  obtain ⟨h1, h2, h3, h4⟩ := h.1.consume
  exact ⟨h1, h2, h3, by simpa using h.2, h4⟩

theorem l_isdigit_nat (d : Nat) : l_isdigit (d : Int) = true ↔ (48 ≤ d ∧ d ≤ 57) := by
  unfold l_isdigit
  simp only [Bool.and_eq_true, decide_eq_true_eq]
  omega

theorem delim_digits_append (ds rest : List Nat) (hds : all_digits ds) (hr : Delim rest) :
    Delim (ds ++ rest) := by
  cases ds with
  | nil => exact hr
  | cons d ds =>
    have := hds d (List.mem_cons_self _ _)
    exact Or.inr ⟨d, ds ++ rest, rfl, by omega, by omega⟩

theorem lex_scan_digits_run (ds rest : List Nat) (hds : all_digits ds) (hr : Delim rest)
    (hnd : l_isdigit (next_char rest) = false) :
    ∀ (fuel : Nat) (lex : lex_t) (c : Int) (t : List Nat) (k : cursor) (e : json_error_t),
      Peeked lex c t (ds ++ rest) k → ds.length < fuel →
      ∃ lex1, lex_scan_digits fuel lex c e = some (next_char rest, lex1, e) ∧
        Peeked lex1 (next_char rest) (t ++ ds) rest (k.steps ds) ∧
        lex1.token = lex.token ∧ lex1.value = lex.value := by
  induction ds with
  | nil =>
    intro fuel lex c t k e hp hf
    obtain ⟨n, rfl⟩ : ∃ n, fuel = n + 1 := ⟨fuel - 1, by simp at hf; omega⟩
    simp only [List.nil_append] at hp
    have hc := hp.1.next
    subst hc
    refine ⟨lex, ?_, by simpa [cursor.steps] using hp, rfl, rfl⟩
    simp [lex_scan_digits, hnd]
  | cons d ds ih =>
    intro fuel lex c t k e hp hf
    obtain ⟨n, rfl⟩ : ∃ n, fuel = n + 1 := ⟨fuel - 1, by simp at hf; omega⟩
    have hd := hds d (List.mem_cons_self _ _)
    have hds1 : all_digits ds := fun x hx => hds x (List.mem_cons_of_mem _ hx)
    simp only [List.cons_append] at hp
    obtain ⟨hc, hb0, hb, hsv, hrd⟩ := hp.consume_saved
    subst hc
    have hpk := lex_get_save_peek lex e (ds ++ rest) (k.step d) hrd
      (delim_digits_append ds rest hds1 hr)
    have hunf : lex_scan_digits (n + 1) lex (d : Int) e =
        lex_scan_digits n (lex_get_save lex e).2.1 (lex_get_save lex e).1
          (lex_get_save lex e).2.2 := by
      simp [lex_scan_digits, (l_isdigit_nat d).mpr hd]
    rw [hunf]
    generalize lex_get_save lex e = q at hpk ⊢
    obtain ⟨c1, lex1, e1⟩ := q
    obtain ⟨hp1, he1, ht1, hv1⟩ := hpk
    simp only at hp1 he1 ht1 hv1
    subst he1
    rw [hsv] at hp1
    obtain ⟨lex2, h1, h2, h3, h4⟩ := ih hds1 n lex1 c1 (t ++ [d]) (k.step d) e1 hp1
      (by simp at hf; omega)
    refine ⟨lex2, h1, ?_, by rw [h3, ht1], by rw [h4, hv1]⟩
    simpa [cursor.steps_cons] using h2

theorem int_part_digits {ip : List Nat} (h : int_part ip) : all_digits ip ∧ ip ≠ [] := by
  rcases h with h | ⟨d, ds, h, h1, h2, h3⟩
  · subst h
    exact ⟨fun x hx => by simp at hx; omega, by simp⟩
  · subst h
    refine ⟨fun x hx => ?_, by simp⟩
    rcases List.mem_cons.mp hx with hx | hx
    · omega
    · exact h3 x hx

theorem Peeked.with_token {lex : lex_t} {c : Int} {t rest : List Nat} {k : cursor}
    (h : Peeked lex c t rest k) (tok : Int) : Peeked { lex with token := tok } c t rest k := h

theorem lex_scan_number_head (ctx : json_context_t) (flags : load_flags)
    (sg ip rest : List Nat) (hsg : sign_part sg) (hip : int_part ip) (hr : Delim rest)
    (hnd : l_isdigit (next_char rest) = false)
    (lex : lex_t) (c : Int) (k : cursor) (e : json_error_t)
    (hp : Peeked lex c [] (sg ++ ip ++ rest) k) :
    ∃ lex1, lex_scan_number ctx lex c flags e =
        lex_scan_number_tail ctx (lex.stream.data.length + 6) lex1 (next_char rest) flags e ∧
      Peeked lex1 (next_char rest) (sg ++ ip) rest (k.steps (sg ++ ip)) ∧
      lex1.token = TOKEN_INVALID ∧ lex1.value = lex.value := by
  have hlen := hp.1.input_length_le
  obtain ⟨hipd, hipne⟩ := int_part_digits hip
  -- the sign
  have hsign : ∃ lex0, (if c = 45 then lex_get_save { lex with token := TOKEN_INVALID } e
        else (c, { lex with token := TOKEN_INVALID }, e)) = (next_char (ip ++ rest), lex0, e) ∧
      Peeked lex0 (next_char (ip ++ rest)) sg (ip ++ rest) (k.steps sg) ∧
      lex0.token = TOKEN_INVALID ∧ lex0.value = lex.value := by
    rcases hsg with h | h
    · subst h
      simp only [List.nil_append] at hp
      have hc := hp.1.next
      have hne : c ≠ 45 := by
        cases ip with
        | nil => exact absurd rfl hipne
        | cons d ds =>
          have := hipd d (List.mem_cons_self _ _)
          simp only [List.cons_append, next_char] at hc
          omega
      simp only [hne, ite_false]
      rw [← hc]
      exact ⟨_, rfl, hp.with_token _, rfl, rfl⟩
    · subst h
      simp only [List.cons_append, List.nil_append, List.append_assoc] at hp
      obtain ⟨hc, _, _, hsv, hrd⟩ := hp.consume_saved
      subst hc
      have hpk := lex_get_save_peek { lex with token := TOKEN_INVALID } e (ip ++ rest)
        (k.step 45) hrd (delim_digits_append ip rest hipd hr)
      simp only [Nat.cast_ofNat, ite_true]
      generalize lex_get_save { lex with token := TOKEN_INVALID } e = q at hpk ⊢
      obtain ⟨c1, lex1, e1⟩ := q
      obtain ⟨hp1, he1, ht1, hv1⟩ := hpk
      simp only at hp1 he1 ht1 hv1
      subst he1
      have hc1 := hp1.1.next
      subst hc1
      refine ⟨lex1, rfl, ?_, ht1, hv1⟩
      rw [hsv] at hp1
      simpa [cursor.steps] using hp1
  obtain ⟨lex0, heq, hp0, ht0, hv0⟩ := hsign
  unfold lex_scan_number
  simp only [heq]
  rcases hip with h | ⟨d, ds, h, hd1, hd2, hds⟩
  · -- a single zero
    subst h
    simp only [List.cons_append, List.nil_append] at hp0
    obtain ⟨_, _, _, hsv, hrd⟩ := hp0.consume_saved
    have hpk := lex_get_save_peek lex0 e rest ((k.steps sg).step 48) hrd hr
    simp only [List.cons_append, List.nil_append, next_char, Nat.cast_ofNat, ite_true]
    generalize lex_get_save lex0 e = q at hpk ⊢
    obtain ⟨c1, lex1, e1⟩ := q
    obtain ⟨hp1, he1, ht1, hv1⟩ := hpk
    simp only at hp1 he1 ht1 hv1
    subst he1
    have hc1 := hp1.1.next
    subst hc1
    simp only [hnd, Bool.false_eq_true, ite_false]
    refine ⟨lex1, rfl, ?_, by rw [ht1, ht0], by rw [hv1, hv0]⟩
    rw [hsv] at hp1
    simpa [cursor.steps] using hp1
  · -- a non-zero digit and more digits
    subst h
    simp only [List.cons_append] at hp0
    obtain ⟨_, _, _, hsv, hrd⟩ := hp0.consume_saved
    have hpk := lex_get_save_peek lex0 e (ds ++ rest) ((k.steps sg).step d) hrd
      (delim_digits_append ds rest hds hr)
    have hd48 : ¬ ((d : Int) = 48) := by omega
    have hdd : l_isdigit (d : Int) = true := (l_isdigit_nat d).mpr ⟨by omega, hd2⟩
    simp only [List.cons_append, next_char, hd48, ite_false, hdd, ite_true]
    generalize lex_get_save lex0 e = q at hpk ⊢
    obtain ⟨c1, lex1, e1⟩ := q
    obtain ⟨hp1, he1, ht1, hv1⟩ := hpk
    simp only at hp1 he1 ht1 hv1
    subst he1
    rw [hsv] at hp1
    have hfuel : ds.length < lex.stream.data.length + 6 := by
      simp only [List.length_append, List.length_cons] at hlen
      omega
    obtain ⟨lex2, h1, h2, h3, h4⟩ := lex_scan_digits_run ds rest hds hr hnd _ lex1 c1 _ _ e1 hp1 hfuel
    simp only [h1]
    refine ⟨lex2, rfl, ?_, by rw [h3, ht1, ht0], by rw [h4, hv1, hv0]⟩
    simpa [cursor.steps] using h2

theorem delim_space_append (ws rest : List Nat) (hws : all_space ws) (hr : Delim rest) :
    Delim (ws ++ rest) := by
  cases ws with
  | nil => exact hr
  | cons d ds =>
    have := hws d (List.mem_cons_self _ _)
    exact Or.inr ⟨d, ds ++ rest, rfl, by omega, by omega⟩

theorem lex_scan_space_run (ws rest : List Nat) (hws : all_space ws) (hr : Delim rest)
    (hns : not_space (next_char rest)) :
    ∀ (fuel : Nat) (lex : lex_t) (c : Int) (k : cursor) (e : json_error_t),
      Got lex.stream c (ws ++ rest) k → ws.length < fuel →
      ∃ lex1, lex_scan_space fuel lex c e = some (next_char rest, lex1, e) ∧
        Got lex1.stream (next_char rest) rest (k.steps ws) ∧ SameToken lex lex1 := by
  induction ws with
  | nil =>
    intro fuel lex c k e hp hf
    obtain ⟨n, rfl⟩ : ∃ n, fuel = n + 1 := ⟨fuel - 1, by simp at hf; omega⟩
    simp only [List.nil_append] at hp
    have hc := hp.next
    subst hc
    obtain ⟨h1, h2, h3, h4⟩ := hns
    refine ⟨lex, ?_, by simpa [cursor.steps] using hp, ⟨rfl, rfl, rfl⟩⟩
    simp [lex_scan_space, h1, h2, h3, h4]
  | cons d ds ih =>
    intro fuel lex c k e hp hf
    obtain ⟨n, rfl⟩ : ∃ n, fuel = n + 1 := ⟨fuel - 1, by simp at hf; omega⟩
    have hd := hws d (List.mem_cons_self _ _)
    have hds1 : all_space ds := fun x hx => hws x (List.mem_cons_of_mem _ hx)
    simp only [List.cons_append] at hp
    obtain ⟨hc, hb0, hb, hrd⟩ := hp.consume
    subst hc
    have hpk := stream_get_got lex e (ds ++ rest) (k.step d) hrd
      (delim_space_append ds rest hds1 hr)
    have hunf : lex_scan_space (n + 1) lex (d : Int) e =
        lex_scan_space n (stream_get lex e).2.1 (stream_get lex e).1 (stream_get lex e).2.2 := by
      have : (d : Int) = 32 ∨ (d : Int) = 9 ∨ (d : Int) = 10 ∨ (d : Int) = 13 := by omega
      simp [lex_scan_space, this, lex_get]
    rw [hunf]
    generalize stream_get lex e = q at hpk ⊢
    obtain ⟨c1, lex1, e1⟩ := q
    obtain ⟨hp1, he1, ht1, hv1, hw1⟩ := hpk
    simp only at hp1 he1 ht1 hv1 hw1
    subst he1
    obtain ⟨lex2, h1, h2, h3, h4, h5⟩ := ih hds1 n lex1 c1 (k.step d) e1 hp1 (by simp at hf; omega)
    exact ⟨lex2, h1, by simpa [cursor.steps_cons] using h2,
      ⟨by rw [h3, ht1], by rw [h4, hv1], by rw [h5, hw1]⟩⟩

theorem lex_scan_front (ctx : json_context_t) (flags : load_flags) (ws rest : List Nat)
    (hws : all_space ws) (hr : Delim rest) (hns : not_space (next_char rest))
    (lex : lex_t) (k : cursor) (e : json_error_t) (h : Ready lex.stream (ws ++ rest) k) :
    ∃ lex1, Got lex1.stream (next_char rest) rest (k.steps ws) ∧ lex1.saved_text = [] ∧
      lex1.token = lex.token ∧ lex1.value = (lex_clear lex).value ∧
      lex_scan ctx lex flags e =
        (if next_char rest = STREAM_STATE_EOF then some ({ lex1 with token := TOKEN_EOF }, e)
         else lex_scan_token ctx (lex.stream.data.length + 6) (lex_save lex1 (next_char rest))
           (next_char rest) flags e) := by
  have hst : (lex_clear lex).stream = lex.stream := by
    unfold lex_clear lex_free_string; split_ifs <;> rfl
  have hsv : (lex_clear lex).saved_text = [] := rfl
  have htk : (lex_clear lex).token = lex.token := by
    unfold lex_clear lex_free_string; split_ifs <;> rfl
  have h' : Ready (lex_clear lex).stream (ws ++ rest) k := by rw [hst]; exact h
  have hlen := h.length_le
  have hpk := stream_get_got (lex_clear lex) e (ws ++ rest) k h' (delim_space_append ws rest hws hr)
  unfold lex_scan
  simp only [lex_get, hst]
  generalize stream_get (lex_clear lex) e = q at hpk ⊢
  obtain ⟨c1, lex1, e1⟩ := q
  obtain ⟨hp1, he1, ht1, hv1, hw1⟩ := hpk
  simp only at hp1 he1 ht1 hv1 hw1
  subst he1
  obtain ⟨lex2, h1, h2, h3, h4, h5⟩ := lex_scan_space_run ws rest hws hr hns
    (lex.stream.data.length + 6) lex1 c1 k e1 hp1
    (by simp only [List.length_append] at hlen; omega)
  simp only [h1]
  refine ⟨lex2, h2, by rw [h3, ht1, hsv], by rw [h4, hv1, htk], by rw [h5, hw1], ?_⟩
  have hnerr : next_char rest ≠ STREAM_STATE_ERROR := by
    rcases hr with hr | ⟨b, r, hr, hb0, hb⟩
    · subst hr; simp [next_char]
    · subst hr; simp only [next_char, STREAM_STATE_ERROR]; omega
  simp only [hnerr, ite_false]

theorem c_str_eq_self (t : List Nat) (h : ∀ b ∈ t, b ≠ 0) : c_str t = t := by
  unfold c_str
  rw [List.takeWhile_eq_self_iff]
  intro b hb
  simpa using h b hb

theorem error_set_some (error : json_error_t) (lex : lex_t) (msg : List Nat)
    (hmsg : msg.length ≤ 100) (hne : lex.saved_text ≠ []) (hnz : ∀ b ∈ lex.saved_text, b ≠ 0) :
    error_set error (some lex) msg =
      { error with reports := error.reports ++
          [{ line := lex.stream.line, column := lex.stream.column,
             position := lex.stream.position,
             text := if lex.saved_text.length ≤ 20 then
                 msg ++ str " near '" ++ lex.saved_text ++ str "'"
               else msg }] } := by
  have h1 : msg.take (JSON_ERROR_TEXT_LENGTH - 1) = msg :=
    List.take_of_length_le (by simp only [JSON_ERROR_TEXT_LENGTH]; omega)
  have hs1 : (str " near '").length = 7 := by decide
  have hs2 : (str "'").length = 1 := by decide
  unfold error_set jsonp_error_set
  simp only [h1, c_str_eq_self _ hnz, hne, ne_eq, not_false_eq_true, ite_true]
  by_cases hl : lex.saved_text.length ≤ 20
  · have h2 : (msg ++ str " near '" ++ lex.saved_text ++ str "'").take (JSON_ERROR_TEXT_LENGTH - 1)
        = msg ++ str " near '" ++ lex.saved_text ++ str "'" :=
      List.take_of_length_le (by
        simp only [JSON_ERROR_TEXT_LENGTH, List.length_append, hs1, hs2]; omega)
    simp only [hl, ite_true, h2]
  · simp only [hl, ite_false, h1]

theorem strtoint_digits_eq (ds : List Nat) (hds : all_digits ds) (acc : Nat) :
    strtoint_digits ds acc = ds.foldl (fun a d => a * 10 + (d - 48)) acc := by
  induction ds generalizing acc with
  | nil => rfl
  | cons d ds ih =>
    have hd := hds d (List.mem_cons_self _ _)
    simp only [strtoint_digits, hd, and_self, ite_true, List.foldl_cons]
    exact ih (fun x hx => hds x (List.mem_cons_of_mem _ hx)) _

theorem numeral_nonzero (sg ip : List Nat) (hsg : sign_part sg) (hip : all_digits ip) :
    ∀ b ∈ sg ++ ip, b ≠ 0 := by
  intro b hb
  rcases List.mem_append.mp hb with h | h
  · rcases hsg with hs | hs
    · subst hs; cases h
    · subst hs; simp at h; omega
  · have := hip b h; omega

theorem json_strtoint_numeral (sg ip : List Nat) (hsg : sign_part sg) (hip : int_part ip) :
    json_strtoint (sg ++ ip) =
      (if int_value sg ip < -(2 : Int) ^ 63 then (-(2 : Int) ^ 63, true)
       else if int_value sg ip > (2 : Int) ^ 63 - 1 then ((2 : Int) ^ 63 - 1, true)
       else (int_value sg ip, false)) := by
  obtain ⟨hd, hne⟩ := int_part_digits hip
  unfold json_strtoint
  rw [c_str_eq_self _ (numeral_nonzero sg ip hsg hd)]
  obtain ⟨d, ds, rfl⟩ : ∃ d ds, ip = d :: ds := by
    cases ip with
    | nil => exact absurd rfl hne
    | cons d ds => exact ⟨d, ds, rfl⟩
  have hd0 := hd d (List.mem_cons_self _ _)
  have hsp : l_isspace d = false := by
    unfold l_isspace
    simp only [Bool.or_eq_false_iff, Bool.and_eq_false_iff, beq_eq_false_iff_ne,
      decide_eq_false_iff_not]
    omega
  rcases hsg with hs | hs
  · subst hs
    simp only [List.nil_append, List.dropWhile_cons, hsp]
    have h45 : d ≠ 45 := by omega
    have h43 : d ≠ 43 := by omega
    have hm : strtoint_sign (d :: ds) = (false, d :: ds) := by
      unfold strtoint_sign
      split
      · rename_i h; simp only [List.cons.injEq] at h; omega
      · rename_i h; simp only [List.cons.injEq] at h; omega
      · rfl
    simp only [Bool.false_eq_true, ite_false, hm, strtoint_digits_eq _ hd, int_value, dec_value]
    simp
  · subst hs
    have hsp2 : l_isspace 45 = false := by decide
    simp only [List.cons_append, List.nil_append, List.dropWhile_cons, hsp2]
    simp only [strtoint_sign, Bool.false_eq_true, ite_false, ite_true, strtoint_digits_eq _ hd,
      int_value, dec_value]

theorem first_char_numeral (sg ip rest : List Nat) (hsg : sign_part sg) (hip : int_part ip) :
    ∃ b r, sg ++ ip ++ rest = b :: r ∧ (b = 45 ∨ (48 ≤ b ∧ b ≤ 57)) := by
  obtain ⟨hd, hne⟩ := int_part_digits hip
  rcases hsg with hs | hs
  · subst hs
    cases ip with
    | nil => exact absurd rfl hne
    | cons d ds => exact ⟨d, ds ++ rest, rfl, Or.inr (hd d (List.mem_cons_self _ _))⟩
  · subst hs
    exact ⟨45, ip ++ rest, rfl, Or.inl rfl⟩

theorem lex_save_stream (lex : lex_t) (c : Int) : (lex_save lex c).stream = lex.stream := rfl

theorem lex_save_token (lex : lex_t) (c : Int) : (lex_save lex c).token = lex.token := rfl

theorem lex_save_value (lex : lex_t) (c : Int) : (lex_save lex c).value = lex.value := rfl

/-- The state in which `lex_scan` enters the branch of the token that starts
with the ASCII byte `b`. -/
theorem lex_scan_enter (ctx : json_context_t) (flags : load_flags) (ws : List Nat) (b : Nat)
    (r : List Nat) (hws : all_space ws) (hb0 : 0 < b) (hb : b < 128) (hns : not_space (b : Int))
    (lex : lex_t) (k : cursor) (e : json_error_t) (h : Ready lex.stream (ws ++ b :: r) k) :
    ∃ lex1, Peeked lex1 (b : Int) [] (b :: r) (k.steps ws) ∧
      lex1.token = lex.token ∧ lex1.value = (lex_clear lex).value ∧
      lex_scan ctx lex flags e =
        lex_scan_token ctx (lex.stream.data.length + 6) lex1 (b : Int) flags e := by
  obtain ⟨lex1, h1, h2, h3, h4, h5⟩ := lex_scan_front ctx flags ws (b :: r) hws
    (Or.inr ⟨b, r, rfl, hb0, hb⟩) hns lex k e h
  have hne : ¬ ((b : Int) = STREAM_STATE_EOF) := by simp only [STREAM_STATE_EOF]; omega
  simp only [next_char, hne, ite_false] at h5 h1
  refine ⟨lex_save lex1 (b : Int), ⟨h1, ?_⟩, h3, h4, h5⟩
  rw [lex_save_saved lex1 _ _ _ _ h1 (by simp), h2]

theorem lex_scan_integer_token (ctx : json_context_t) (flags : load_flags)
    (ws sg ip rest : List Nat) (hws : all_space ws) (hsg : sign_part sg) (hip : int_part ip)
    (hr : Delim rest) (hnd : l_isdigit (next_char rest) = false)
    (hnf : next_char rest ≠ 46 ∧ next_char rest ≠ 69 ∧ next_char rest ≠ 101)
    (lex : lex_t) (k : cursor) (e : json_error_t)
    (h : Ready lex.stream (ws ++ (sg ++ ip ++ rest)) k) :
    ∃ lexU, lexU.saved_text = sg ++ ip ∧ Ready lexU.stream rest (k.steps (ws ++ (sg ++ ip))) ∧
      lexU.token = TOKEN_INVALID ∧
      lex_scan ctx lex flags e = some ((lex_scan_number_integer ctx lexU flags e).2.1,
        (lex_scan_number_integer ctx lexU flags e).2.2) := by
  obtain ⟨b, r, hbr, hb⟩ := first_char_numeral sg ip rest hsg hip
  rw [hbr] at h
  have hb0 : 0 < b := by omega
  have hb1 : b < 128 := by omega
  have hns : not_space (b : Int) := by unfold not_space; omega
  obtain ⟨lex1, hp, ht, hv, heq⟩ := lex_scan_enter ctx flags ws b r hws hb0 hb1 hns lex k e h
  rw [← hbr] at hp
  obtain ⟨lex2, h1, h2, h3, h4⟩ := lex_scan_number_head ctx flags sg ip rest hsg hip hr hnd
    lex1 b (k.steps ws) e hp
  obtain ⟨hu1, hu2, hu3, hu4⟩ := lex_unget_unsave_peeked _ _ _ _ _ h2
  refine ⟨lex_unget_unsave lex2 (next_char rest), hu1, ?_, by rw [hu3, h3], ?_⟩
  · simpa [cursor.steps_append] using hu2
  · rw [heq]
    unfold lex_scan_token
    have hp1 : ¬ ((b : Int) = 123 ∨ (b : Int) = 125 ∨ (b : Int) = 91 ∨ (b : Int) = 93 ∨
        (b : Int) = 58 ∨ (b : Int) = 44) := by omega
    have hp2 : ¬ ((b : Int) = 34) := by omega
    have hp3 : l_isdigit (b : Int) = true ∨ (b : Int) = 45 := by
      rcases hb with hb | hb
      · exact Or.inr (by omega)
      · exact Or.inl ((l_isdigit_nat b).mpr hb)
    simp only [hp1, hp2, hp3, ite_false, ite_true, h1]
    unfold lex_scan_number_tail
    simp only [hnf, ne_eq, not_false_eq_true, and_self, ite_true]

theorem error_set_at (error : json_error_t) (lex : lex_t) (msg t rest : List Nat) (k : cursor)
    (hmsg : msg.length ≤ 100) (hsv : lex.saved_text = t) (hne : t ≠ [])
    (hnz : ∀ b ∈ t, b ≠ 0) (hrd : Ready lex.stream rest k) :
    error_set error (some lex) msg = report_at error k (with_context msg t) := by
  subst hsv
  rw [error_set_some error lex msg hmsg hne hnz]
  have hc := hrd.cur
  simp only [stream_t.cursor] at hc
  subst hc
  rfl

/-- C3: an integer numeral `sg ++ ip` (sign and integer part, no fraction, no
exponent) with value `int_value sg ip`, scanned by `lex_scan` after whitespace
and followed by the end of the input or an ASCII byte that does not go on with
a number, with `JSON_USE_BIGINT_ALWAYS` clear: if the value lies in
`[-2^63, 2^63 - 1]` the token is the integer token holding exactly that value;
otherwise, with `JSON_USE_BIGINT`, it is the big integer token holding what the
backend makes of the numeral's text, and without it the token is invalid and
the report reads "too big negative integer" for a numeral with a sign and "too
big integer" for one without. -/
theorem lex_scan_integer_numeral (ctx : json_context_t) (flags : load_flags)
    (ws sg ip rest : List Nat) (lex : lex_t) (k : cursor) (e : json_error_t)
    (hws : all_space ws) (hsg : sign_part sg) (hip : int_part ip) (hfollow : number_follow rest)
    (h : Ready lex.stream (ws ++ (sg ++ ip ++ rest)) k)
    (hflag : flags.JSON_USE_BIGINT_ALWAYS = false) :
    ∃ lex1 e1, lex_scan ctx lex flags e = some (lex1, e1) ∧ lex1.saved_text = sg ++ ip ∧
      Ready lex1.stream rest (k.steps (ws ++ (sg ++ ip))) ∧
      (if -(2 : Int) ^ 63 ≤ int_value sg ip ∧ int_value sg ip ≤ (2 : Int) ^ 63 - 1 then
        lex1.token = TOKEN_INTEGER ∧ lex1.value = lex_value.integer (int_value sg ip) ∧ e1 = e
      else if flags.JSON_USE_BIGINT = true then
        lex1.token = TOKEN_BIGINTEGER ∧
          lex1.value = lex_value.bigz (ctx.bigint_from_string_fn (sg ++ ip)) ∧ e1 = e
      else
        lex1.token = TOKEN_INVALID ∧
          e1 = report_at e (k.steps (ws ++ (sg ++ ip)))
            (with_context
              (if sg = [45] then str "too big negative integer" else str "too big integer")
              (sg ++ ip))) := by
  obtain ⟨hr, hnd, hnf⟩ := hfollow
  obtain ⟨lexU, hsv, hrd, htk, heq⟩ := lex_scan_integer_token ctx flags ws sg ip rest hws hsg hip
    hr hnd hnf lex k e h
  obtain ⟨hd, hne⟩ := int_part_digits hip
  have hnz := numeral_nonzero sg ip hsg hd
  have hne2 : sg ++ ip ≠ [] := by simp [hne]
  have hst := json_strtoint_numeral sg ip hsg hip
  rw [heq]
  unfold lex_scan_number_integer
  simp only [hflag, Bool.false_eq_true, ite_false, hsv, hst, c_str_eq_self _ hnz]
  by_cases hlo : int_value sg ip < -(2 : Int) ^ 63
  · -- below the range: the numeral has a sign
    have hneg : sg = [45] := by
      unfold int_value at hlo
      by_contra hc
      simp only [hc, ite_false] at hlo
      have : (0 : Int) ≤ (dec_value ip : Int) := Int.ofNat_nonneg _
      omega
    have hin : ¬ (-(2 : Int) ^ 63 ≤ int_value sg ip ∧ int_value sg ip ≤ (2 : Int) ^ 63 - 1) := by
      omega
    subst hneg
    simp only [hlo, ite_true, hin, ite_false]
    by_cases hb : flags.JSON_USE_BIGINT = true
    · simp only [hb, ite_true]
      exact ⟨_, _, rfl, rfl, hrd, rfl, rfl, rfl⟩
    · simp only [hb, ite_false, Bool.false_eq_true]
      have hlt : (-(2 : Int) ^ 63 < 0) := by norm_num
      simp only [hlt, ite_true]
      refine ⟨_, _, rfl, hsv, hrd, htk, ?_⟩
      exact error_set_at e lexU _ _ rest _ (by decide) hsv hne2 hnz hrd
  · by_cases hhi : int_value sg ip > (2 : Int) ^ 63 - 1
    · have hpos : sg ≠ [45] := by
        intro hc
        unfold int_value at hhi
        simp only [hc, ite_true] at hhi
        have : (0 : Int) ≤ (dec_value ip : Int) := Int.ofNat_nonneg _
        omega
      have hin : ¬ (-(2 : Int) ^ 63 ≤ int_value sg ip ∧ int_value sg ip ≤ (2 : Int) ^ 63 - 1) := by
        omega
      simp only [hlo, ite_false, hhi, ite_true, hin]
      by_cases hb : flags.JSON_USE_BIGINT = true
      · simp only [hb, ite_true]
        exact ⟨_, _, rfl, rfl, hrd, rfl, rfl, rfl⟩
      · simp only [hb, ite_false, Bool.false_eq_true]
        have hlt : ¬ ((2 : Int) ^ 63 - 1 < 0) := by norm_num
        simp only [hlt, ite_false, hpos]
        refine ⟨_, _, rfl, hsv, hrd, htk, ?_⟩
        exact error_set_at e lexU _ _ rest _ (by decide) hsv hne2 hnz hrd
    · have hin : (-(2 : Int) ^ 63 ≤ int_value sg ip ∧ int_value sg ip ≤ (2 : Int) ^ 63 - 1) := by
        omega
      simp only [hlo, ite_false, hhi, hin, and_self, ite_true, Bool.false_eq_true]
      exact ⟨_, _, rfl, rfl, hrd, rfl, rfl, rfl⟩

theorem digits1_cons {ds : List Nat} (h : digits1 ds) :
    ∃ d r, ds = d :: r ∧ 48 ≤ d ∧ d ≤ 57 ∧ all_digits r := by
  obtain ⟨hne, hd⟩ := h
  cases ds with
  | nil => exact absurd rfl hne
  | cons d r =>
    exact ⟨d, r, rfl, (hd d (List.mem_cons_self _ _)).1, (hd d (List.mem_cons_self _ _)).2,
      fun x hx => hd x (List.mem_cons_of_mem _ hx)⟩

/-- One or more digits are scanned by a `lex_get_save` followed by the digit
loop, when the first of them is the lookahead. -/
theorem lex_scan_digits1_run (ds rest : List Nat) (hds : digits1 ds) (hr : Delim rest)
    (hnd : l_isdigit (next_char rest) = false)
    (fuel : Nat) (lex : lex_t) (c : Int) (t : List Nat) (k : cursor) (e : json_error_t)
    (hp : Peeked lex c t (ds ++ rest) k) (hf : ds.length ≤ fuel) :
    c = next_char (ds ++ rest) ∧ l_isdigit c = true ∧
    ∃ lex1, lex_scan_digits fuel (lex_get_save lex e).2.1 (lex_get_save lex e).1
          (lex_get_save lex e).2.2 = some (next_char rest, lex1, e) ∧
        Peeked lex1 (next_char rest) (t ++ ds) rest (k.steps ds) ∧
        lex1.token = lex.token ∧ lex1.value = lex.value := by
  obtain ⟨d, r, hdr, hd1, hd2, hr1⟩ := digits1_cons hds
  subst hdr
  simp only [List.cons_append] at hp
  obtain ⟨hc, _, _, hsv, hrd⟩ := hp.consume_saved
  subst hc
  refine ⟨rfl, (l_isdigit_nat d).mpr ⟨hd1, hd2⟩, ?_⟩
  have hpk := lex_get_save_peek lex e (r ++ rest) (k.step d) hrd (delim_digits_append r rest hr1 hr)
  generalize lex_get_save lex e = q at hpk ⊢
  obtain ⟨c1, lex1, e1⟩ := q
  obtain ⟨hp1, he1, ht1, hv1⟩ := hpk
  simp only at hp1 he1 ht1 hv1
  subst he1
  rw [hsv] at hp1
  obtain ⟨lex2, h1, h2, h3, h4⟩ := lex_scan_digits_run r rest hr1 hr hnd fuel lex1 c1 _ _ e1 hp1
    (by simp only [List.length_cons] at hf; omega)
  exact ⟨lex2, h1, by simpa [cursor.steps] using h2, by rw [h3, ht1], by rw [h4, hv1]⟩

/-- The digits counted by `jsonp_count_significand_digits` are those of the
mantissa, whatever single byte that is no digit has been saved after it. -/
theorem count_significand_lookahead (m x : List Nat) (hm : ∀ b ∈ m, mantissa_byte b)
    (hxd : ∀ b ∈ x, b ≠ 0 ∧ ¬ (48 ≤ b ∧ b ≤ 57)) :
    jsonp_count_significand_digits (m ++ x) = jsonp_count_significand_digits m := by
  have hnz : ∀ b ∈ m ++ x, b ≠ 0 := by
    intro b hb
    rcases List.mem_append.mp hb with h | h
    · have := hm b h; unfold mantissa_byte at this; omega
    · exact (hxd b h).1
  have hnz2 : ∀ b ∈ m, b ≠ 0 := fun b hb => hnz b (List.mem_append_left _ hb)
  have hp : ∀ b ∈ m, (b != 69 && b != 101) = true := by
    intro b hb
    have := hm b hb
    unfold mantissa_byte at this
    simp only [Bool.and_eq_true, bne_iff_ne, ne_eq]
    omega
  have key : ((c_str (m ++ x)).takeWhile (fun b => b != 69 && b != 101)).filter is_digit_byte
      = ((c_str m).takeWhile (fun b => b != 69 && b != 101)).filter is_digit_byte := by
    rw [c_str_eq_self _ hnz, c_str_eq_self _ hnz2, List.takeWhile_append_of_pos hp,
      List.takeWhile_eq_self_iff.mpr hp, List.filter_append]
    have : (x.takeWhile (fun b => b != 69 && b != 101)).filter is_digit_byte = [] := by
      rw [List.filter_eq_nil_iff]
      intro b hb
      have hbx : b ∈ x := (List.takeWhile_sublist _).subset hb
      have := (hxd b hbx).2
      unfold is_digit_byte
      simp only [Bool.and_eq_true, decide_eq_true_eq]
      exact this
    rw [this, List.append_nil]
  unfold jsonp_count_significand_digits
  simp only [key]

theorem lex_get_then_save_peek (lex : lex_t) (e : json_error_t) (b : Nat) (r : List Nat)
    (k : cursor) (h : Ready lex.stream (b :: r) k) (hb0 : 0 < b) (hb : b < 128) :
    Peeked (lex_save (lex_get lex e).2.1 (lex_get lex e).1) (lex_get lex e).1 lex.saved_text
        (b :: r) k ∧
      (lex_get lex e).2.2 = e ∧
      (lex_save (lex_get lex e).2.1 (lex_get lex e).1).token = lex.token ∧
      (lex_save (lex_get lex e).2.1 (lex_get lex e).1).value = lex.value := by
  obtain ⟨h1, h2, ⟨h3, h4, h5⟩⟩ := stream_get_got lex e (b :: r) k h (Or.inr ⟨b, r, rfl, hb0, hb⟩)
  unfold lex_get
  refine ⟨⟨h1, ?_⟩, h2, h4, h5⟩
  rw [lex_save_saved _ _ _ _ _ h1 (by simp), h3]

theorem lex_scan_number_fraction_run (fd rest : List Nat) (hfd : digits1 fd) (hr : Delim rest)
    (hnd : l_isdigit (next_char rest) = false)
    (fuel : Nat) (lex : lex_t) (c : Int) (t : List Nat) (k : cursor) (e : json_error_t)
    (hp : Peeked lex c t (46 :: fd ++ rest) k) (hf : fd.length ≤ fuel) :
    ∃ lexF, lex_scan_number_fraction fuel lex e = some (some (next_char rest), lexF, e) ∧
      Peeked lexF (next_char rest) (t ++ 46 :: fd) rest (k.steps (46 :: fd)) ∧
      lexF.token = lex.token ∧ lexF.value = lex.value := by
  simp only [List.cons_append] at hp
  obtain ⟨_, _, _, hsv, hrd⟩ := hp.consume_saved
  obtain ⟨d, r, hdr, hd1, hd2, hr1⟩ := digits1_cons hfd
  have hrd' : Ready lex.stream (d :: (r ++ rest)) (k.step 46) := by
    rw [hdr] at hrd; exact hrd
  obtain ⟨hp1, he1, ht1, hv1⟩ := lex_get_then_save_peek lex e d (r ++ rest) (k.step 46) hrd'
    (by omega) (by omega)
  have hc1 := hp1.1.next
  simp only [next_char] at hc1
  unfold lex_scan_number_fraction
  have hdig : l_isdigit (lex_get lex e).1 = true := by
    rw [hc1]; exact (l_isdigit_nat d).mpr ⟨hd1, hd2⟩
  simp only [hdig, Bool.true_eq_false, ite_false, he1]
  rw [hsv] at hp1
  have hp2 : Peeked (lex_save (lex_get lex e).2.1 (lex_get lex e).1) (lex_get lex e).1
      (t ++ [46]) (fd ++ rest) (k.step 46) := by
    rw [hdr]; exact hp1
  obtain ⟨_, _, lex2, h1, h2, h3, h4⟩ := lex_scan_digits1_run fd rest hfd hr hnd fuel _ _ _ _ e hp2 hf
  simp only [h1]
  exact ⟨lex2, rfl, by simpa [cursor.steps] using h2, by rw [h3, ht1], by rw [h4, hv1]⟩

theorem lex_scan_number_exponent_run (m : Nat) (sg ed rest : List Nat)
    (hsg : sg = [] ∨ sg = [43] ∨ sg = [45]) (hed : digits1 ed) (hr : Delim rest)
    (hnd : l_isdigit (next_char rest) = false)
    (fuel : Nat) (lex : lex_t) (c : Int) (t : List Nat) (k : cursor) (e : json_error_t)
    (hp : Peeked lex c t (m :: (sg ++ ed) ++ rest) k) (hf : ed.length ≤ fuel) :
    ∃ lexE, lex_scan_number_exponent fuel lex e = some (some (next_char rest), lexE, e) ∧
      Peeked lexE (next_char rest) (t ++ m :: (sg ++ ed)) rest (k.steps (m :: (sg ++ ed))) ∧
      lexE.token = lex.token ∧ lexE.value = lex.value := by
  simp only [List.cons_append, List.append_assoc] at hp
  obtain ⟨_, _, _, hsv, hrd⟩ := hp.consume_saved
  obtain ⟨d, r, hdr, hd1, hd2, hr1⟩ := digits1_cons hed
  have hdl : Delim (ed ++ rest) := delim_digits_append ed rest hed.2 hr
  have hdl2 : Delim (sg ++ (ed ++ rest)) := by
    rcases hsg with h | h | h
    · subst h; exact hdl
    · subst h; exact Or.inr ⟨43, _, rfl, by omega, by omega⟩
    · subst h; exact Or.inr ⟨45, _, rfl, by omega, by omega⟩
  have hpk := lex_get_save_peek lex e (sg ++ (ed ++ rest)) (k.step m) hrd hdl2
  unfold lex_scan_number_exponent
  generalize lex_get_save lex e = q at hpk ⊢
  obtain ⟨c1, lex1, e1⟩ := q
  obtain ⟨hp1, he1, ht1, hv1⟩ := hpk
  simp only at hp1 he1 ht1 hv1
  subst he1
  rw [hsv] at hp1
  -- the optional sign
  have hsign : ∃ lex2, (if c1 = 43 ∨ c1 = 45 then lex_get_save lex1 e1 else (c1, lex1, e1)) =
        (next_char (ed ++ rest), lex2, e1) ∧
      Peeked lex2 (next_char (ed ++ rest)) (t ++ [m] ++ sg) (ed ++ rest) ((k.step m).steps sg) ∧
      lex2.token = lex1.token ∧ lex2.value = lex1.value := by
    rcases hsg with h | h | h
    · subst h
      simp only [List.nil_append] at hp1
      have hc := hp1.1.next
      have hne : ¬ (c1 = 43 ∨ c1 = 45) := by
        rw [hc, hdr]; simp only [List.cons_append, next_char]; omega
      simp only [hne, ite_false]
      rw [← hc]
      exact ⟨lex1, rfl, by simpa [cursor.steps] using hp1, rfl, rfl⟩
    · subst h
      simp only [List.cons_append, List.nil_append] at hp1
      obtain ⟨hc, _, _, hsv1, hrd1⟩ := hp1.consume_saved
      subst hc
      have hpk := lex_get_save_peek lex1 e1 (ed ++ rest) _ hrd1 hdl
      simp only [Nat.cast_ofNat, true_or, ite_true]
      generalize lex_get_save lex1 e1 = q at hpk ⊢
      obtain ⟨c2, lex2, e2⟩ := q
      obtain ⟨hp2, he2, ht2, hv2⟩ := hpk
      simp only at hp2 he2 ht2 hv2
      subst he2
      have hc2 := hp2.1.next
      subst hc2
      rw [hsv1] at hp2
      exact ⟨lex2, rfl, by simpa [cursor.steps] using hp2, ht2, hv2⟩
    · subst h
      simp only [List.cons_append, List.nil_append] at hp1
      obtain ⟨hc, _, _, hsv1, hrd1⟩ := hp1.consume_saved
      subst hc
      have hpk := lex_get_save_peek lex1 e1 (ed ++ rest) _ hrd1 hdl
      simp only [Nat.cast_ofNat, or_true, ite_true]
      generalize lex_get_save lex1 e1 = q at hpk ⊢
      obtain ⟨c2, lex2, e2⟩ := q
      obtain ⟨hp2, he2, ht2, hv2⟩ := hpk
      simp only at hp2 he2 ht2 hv2
      subst he2
      have hc2 := hp2.1.next
      subst hc2
      rw [hsv1] at hp2
      exact ⟨lex2, rfl, by simpa [cursor.steps] using hp2, ht2, hv2⟩
  obtain ⟨lex2, heq, hp2, ht2, hv2⟩ := hsign
  simp only [heq]
  obtain ⟨hc3, hdig, lex3, h1, h2, h3, h4⟩ := lex_scan_digits1_run ed rest hed hr hnd fuel lex2 _ _ _
    e1 hp2 hf
  simp only [hdig, Bool.true_eq_false, ite_false, h1]
  refine ⟨lex3, rfl, ?_, by rw [h3, ht2, ht1], by rw [h4, hv2, hv1]⟩
  simpa [cursor.steps] using h2

theorem frac_part_bytes {fr : List Nat} (h : frac_part fr) : ∀ b ∈ fr, mantissa_byte b := by
  intro b hb
  rcases h with h | ⟨ds, h, h1⟩
  · subst h; cases hb
  · subst h
    rcases List.mem_cons.mp hb with hb | hb
    · exact Or.inr (Or.inl hb)
    · exact Or.inr (Or.inr (h1.2 b hb))

theorem number_follow_take (rest : List Nat) (h : number_follow rest) :
    ∀ b ∈ rest.take 1, b ≠ 0 ∧ ¬ (48 ≤ b ∧ b ≤ 57) := by
  obtain ⟨hd, hnd, _⟩ := h
  intro b hb
  rcases hd with h | ⟨x, r, h, h0, h1⟩
  · subst h; cases hb
  · subst h
    simp only [List.take_succ_cons, List.take_zero, List.mem_singleton] at hb
    subst hb
    simp only [next_char] at hnd
    have := (l_isdigit_nat b).not.mp (by simp [hnd])
    exact ⟨by omega, this⟩

theorem lex_scan_number_tail_real (ctx : json_context_t) (flags : load_flags)
    (t0 fr ex rest : List Nat) (ht0 : ∀ b ∈ t0, mantissa_byte b)
    (hfr : frac_part fr) (hex : exp_part ex) (hreal : fr ≠ [] ∨ ex ≠ [])
    (hfollow : number_follow rest)
    (fuel : Nat) (lex : lex_t) (c : Int) (k : cursor) (e : json_error_t)
    (hp : Peeked lex c t0 (fr ++ ex ++ rest) k) (hfuel : (fr ++ ex).length ≤ fuel) :
    ∃ lexU, lexU.saved_text = t0 ++ fr ++ ex ∧ Ready lexU.stream rest (k.steps (fr ++ ex)) ∧
      lexU.token = lex.token ∧
      lex_scan_number_tail ctx fuel lex c flags e =
        some (lex_scan_number_real ctx lexU flags
          (if flags.JSON_USE_BIGREAL = true ∧ ¬ flags.JSON_USE_BIGREAL_ALWAYS = true then
            jsonp_count_significand_digits (t0 ++ fr) else 0) e) := by
  obtain ⟨hr, hnd, h46, h69, h101⟩ := hfollow
  have hc := hp.1.next
  -- what follows the fraction
  have hdl : Delim (ex ++ rest) := by
    rcases hex with h | ⟨m, sg, ds, h, hm, _⟩
    · subst h; exact hr
    · subst h; exact Or.inr ⟨m, _, rfl, by omega, by omega⟩
  have hnd2 : l_isdigit (next_char (ex ++ rest)) = false := by
    rcases hex with h | ⟨m, sg, ds, h, hm, _⟩
    · subst h; exact hnd
    · subst h
      simp only [List.cons_append, next_char]
      have := (l_isdigit_nat m).not.mpr (by omega)
      simpa using this
  have hcne : ¬ (c ≠ 46 ∧ c ≠ 69 ∧ c ≠ 101) := by
    rcases hfr with h | ⟨ds, h, _⟩
    · subst h
      rcases hex with h | ⟨m, sg, ds, h, hm, _⟩
      · subst h; simp at hreal
      · subst h
        simp only [List.nil_append, List.cons_append, next_char] at hc
        omega
    · subst h
      simp only [List.cons_append, next_char] at hc
      omega
  -- the fraction
  have hfrac : ∃ lexF, (if c = 46 then lex_scan_number_fraction fuel lex e
        else some (some c, lex, e)) = some (some (next_char (ex ++ rest)), lexF, e) ∧
      Peeked lexF (next_char (ex ++ rest)) (t0 ++ fr) (ex ++ rest) (k.steps fr) ∧
      lexF.token = lex.token := by
    rcases hfr with h | ⟨ds, h, hds⟩
    · subst h
      simp only [List.nil_append] at hp hc
      have hne : ¬ (c = 46) := by
        rcases hex with h | ⟨m, sg, ds, h, hm, _⟩
        · subst h; simp at hreal
        · subst h
          simp only [List.cons_append, next_char] at hc
          omega
      simp only [hne, ite_false]
      rw [← hc]
      exact ⟨lex, rfl, by simpa [cursor.steps] using hp, rfl⟩
    · subst h
      simp only [List.cons_append, next_char] at hc
      have hp' : Peeked lex c t0 (46 :: ds ++ (ex ++ rest)) k := by
        simpa [List.append_assoc] using hp
      obtain ⟨lexF, h1, h2, h3, _⟩ := lex_scan_number_fraction_run ds (ex ++ rest) hds hdl hnd2
        fuel lex c t0 k e hp' (by simp only [List.length_append, List.length_cons] at hfuel; omega)
      simp only [hc, Nat.cast_ofNat, ite_true, h1]
      exact ⟨lexF, rfl, h2, h3⟩
  obtain ⟨lexF, hfeq, hpF, htF⟩ := hfrac
  unfold lex_scan_number_tail
  simp only [hcne, ite_false, hfeq]
  -- the digit count
  have hcount : jsonp_count_significand_digits lexF.saved_text =
      jsonp_count_significand_digits (t0 ++ fr) := by
    rw [hpF.2]
    apply count_significand_lookahead
    · intro b hb
      rcases List.mem_append.mp hb with h | h
      · exact ht0 b h
      · exact frac_part_bytes hfr b h
    · rcases hex with h | ⟨m, sg, ds, h, hm, _⟩
      · subst h
        simpa using number_follow_take rest ⟨hr, hnd, h46, h69, h101⟩
      · subst h
        intro b hb
        simp only [List.cons_append, List.take_succ_cons, List.take_zero,
          List.mem_singleton] at hb
        omega
  simp only [hcount]
  rcases hex with h | ⟨m, sg, ds, h, hm, hsg, hds⟩
  · -- no exponent
    subst h
    simp only [List.nil_append, List.append_nil] at hpF ⊢
    have hne : ¬ (next_char rest = 69 ∨ next_char rest = 101) := by
      intro h; rcases h with h | h
      · exact h69 h
      · exact h101 h
    simp only [hne, ite_false]
    obtain ⟨hu1, hu2, hu3, _⟩ := lex_unget_unsave_peeked _ _ _ _ _ hpF
    exact ⟨_, hu1, hu2, by rw [hu3, htF], rfl⟩
  · subst h
    have hce : (next_char (m :: (sg ++ ds) ++ rest) = 69 ∨
        next_char (m :: (sg ++ ds) ++ rest) = 101) := by
      simp only [List.cons_append, next_char]; omega
    simp only [hce, ite_true]
    obtain ⟨lexE, h1, h2, h3, _⟩ := lex_scan_number_exponent_run m sg ds rest hsg hds hr hnd
      fuel lexF _ (t0 ++ fr) _ e hpF
      (by simp only [List.length_append, List.length_cons] at hfuel; omega)
    simp only [h1]
    obtain ⟨hu1, hu2, hu3, _⟩ := lex_unget_unsave_peeked _ _ _ _ _ h2
    refine ⟨_, by simpa [List.append_assoc] using hu1, ?_, by rw [hu3, h3, htF], rfl⟩
    simpa [cursor.steps_append] using hu2

theorem sign_int_bytes (sg ip : List Nat) (hsg : sign_part sg) (hip : int_part ip) :
    ∀ b ∈ sg ++ ip, mantissa_byte b := by
  obtain ⟨hd, _⟩ := int_part_digits hip
  intro b hb
  rcases List.mem_append.mp hb with h | h
  · rcases hsg with hs | hs
    · subst hs; cases h
    · subst hs; simp at h; exact Or.inl h
  · exact Or.inr (Or.inr (hd b h))

theorem exp_part_nonzero {ex : List Nat} (h : exp_part ex) : ∀ b ∈ ex, b ≠ 0 := by
  intro b hb
  rcases h with h | ⟨m, sg, ds, h, hm, hsg, hds⟩
  · subst h; cases hb
  · subst h
    rcases List.mem_cons.mp hb with hb | hb
    · omega
    · rcases List.mem_append.mp hb with hb | hb
      · rcases hsg with h | h | h
        · subst h; cases hb
        · subst h; simp at hb; omega
        · subst h; simp at hb; omega
      · have := hds.2 b hb; omega

theorem real_first_follow (fr ex rest : List Nat) (hfr : frac_part fr) (hex : exp_part ex)
    (hreal : fr ≠ [] ∨ ex ≠ []) :
    Delim (fr ++ ex ++ rest) ∧ l_isdigit (next_char (fr ++ ex ++ rest)) = false := by
  rcases hfr with h | ⟨ds, h, _⟩
  · subst h
    rcases hex with h | ⟨m, sg, ds, h, hm, _⟩
    · subst h; simp at hreal
    · subst h
      refine ⟨Or.inr ⟨m, _, rfl, by omega, by omega⟩, ?_⟩
      simp only [List.nil_append, List.cons_append, next_char]
      have := (l_isdigit_nat m).not.mpr (by omega)
      simpa using this
  · subst h
    refine ⟨Or.inr ⟨46, _, rfl, by omega, by omega⟩, ?_⟩
    simp only [List.cons_append, next_char]
    rfl

theorem lex_scan_real_token (ctx : json_context_t) (flags : load_flags)
    (ws sg ip fr ex rest : List Nat) (hws : all_space ws) (hsg : sign_part sg)
    (hip : int_part ip) (hfr : frac_part fr) (hex : exp_part ex) (hreal : fr ≠ [] ∨ ex ≠ [])
    (hfollow : number_follow rest)
    (lex : lex_t) (k : cursor) (e : json_error_t)
    (h : Ready lex.stream (ws ++ (sg ++ ip ++ fr ++ ex ++ rest)) k) :
    ∃ lexU, lexU.saved_text = sg ++ ip ++ fr ++ ex ∧
      Ready lexU.stream rest (k.steps (ws ++ (sg ++ ip ++ fr ++ ex))) ∧
      lexU.token = TOKEN_INVALID ∧
      lex_scan ctx lex flags e = some
        ((lex_scan_number_real ctx lexU flags
          (if flags.JSON_USE_BIGREAL = true ∧ ¬ flags.JSON_USE_BIGREAL_ALWAYS = true then
            jsonp_count_significand_digits (sg ++ ip ++ fr) else 0) e).2.1,
         (lex_scan_number_real ctx lexU flags
          (if flags.JSON_USE_BIGREAL = true ∧ ¬ flags.JSON_USE_BIGREAL_ALWAYS = true then
            jsonp_count_significand_digits (sg ++ ip ++ fr) else 0) e).2.2) := by
  have hassoc : sg ++ ip ++ fr ++ ex ++ rest = sg ++ ip ++ (fr ++ ex ++ rest) := by
    simp [List.append_assoc]
  rw [hassoc] at h
  obtain ⟨b, r, hbr, hb⟩ := first_char_numeral sg ip (fr ++ ex ++ rest) hsg hip
  rw [hbr] at h
  have hb0 : 0 < b := by omega
  have hb1 : b < 128 := by omega
  have hns : not_space (b : Int) := by unfold not_space; omega
  obtain ⟨lex1, hp, ht, hv, heq⟩ := lex_scan_enter ctx flags ws b r hws hb0 hb1 hns lex k e h
  rw [← hbr] at hp
  obtain ⟨hdl, hnd⟩ := real_first_follow fr ex rest hfr hex hreal
  obtain ⟨lex2, h1, h2, h3, h4⟩ := lex_scan_number_head ctx flags sg ip (fr ++ ex ++ rest)
    hsg hip hdl hnd lex1 b (k.steps ws) e hp
  have hlen := hp.1.input_length_le
  obtain ⟨lexU, hu1, hu2, hu3, hu4⟩ := lex_scan_number_tail_real ctx flags (sg ++ ip) fr ex rest
    (sign_int_bytes sg ip hsg hip) hfr hex hreal hfollow (lex1.stream.data.length + 6) lex2 _ _ e h2
    (by simp only [List.length_append] at hlen ⊢; omega)
  refine ⟨lexU, by simpa [List.append_assoc] using hu1, ?_, by rw [hu3, h3], ?_⟩
  · simpa [cursor.steps_append, List.append_assoc] using hu2
  · rw [heq]
    unfold lex_scan_token
    have hp1 : ¬ ((b : Int) = 123 ∨ (b : Int) = 125 ∨ (b : Int) = 91 ∨ (b : Int) = 93 ∨
        (b : Int) = 58 ∨ (b : Int) = 44) := by omega
    have hp2 : ¬ ((b : Int) = 34) := by omega
    have hp3 : l_isdigit (b : Int) = true ∨ (b : Int) = 45 := by
      rcases hb with hb | hb
      · exact Or.inr (by omega)
      · exact Or.inl ((l_isdigit_nat b).mpr hb)
    simp only [hp1, hp2, hp3, ite_false, ite_true, h1, hu4]

/-- The text of the numeral. -/
theorem real_numeral_nonzero (sg ip fr ex : List Nat) (hsg : sign_part sg) (hip : int_part ip)
    (hfr : frac_part fr) (hex : exp_part ex) : ∀ b ∈ sg ++ ip ++ fr ++ ex, b ≠ 0 := by
  intro b hb
  simp only [List.mem_append] at hb
  rcases hb with ((hb | hb) | hb) | hb
  · have := sign_int_bytes sg ip hsg hip b (List.mem_append_left _ hb)
    unfold mantissa_byte at this; omega
  · have := sign_int_bytes sg ip hsg hip b (List.mem_append_right _ hb)
    unfold mantissa_byte at this; omega
  · have := frac_part_bytes hfr b hb
    unfold mantissa_byte at this; omega
  · exact exp_part_nonzero hex b hb

/-- C4: a numeral with a fraction or an exponent, scanned by `lex_scan` after
whitespace and followed by the end of the input or an ASCII byte that does not
go on with a number, with `n` the count of significant digits of its mantissa
`sg ++ ip ++ fr`: the token is the big real token, holding what the backend
makes of the token text, if `JSON_USE_BIGREAL_ALWAYS` is set, or
`JSON_USE_BIGREAL` is set and `n + 1 ≥ DBL_DIG`, or `JSON_USE_BIGREAL` is set
and the native conversion signals a range error; in every other case the scan
fails with "real number overflow" when the native conversion fails, and gives
the real token with the converted value when it does not. -/
theorem lex_scan_real_numeral (ctx : json_context_t) (flags : load_flags)
    (ws sg ip fr ex rest : List Nat) (lex : lex_t) (k : cursor) (e : json_error_t)
    (hws : all_space ws) (hsg : sign_part sg) (hip : int_part ip) (hfr : frac_part fr)
    (hex : exp_part ex) (hreal : fr ≠ [] ∨ ex ≠ []) (hfollow : number_follow rest)
    (h : Ready lex.stream (ws ++ (sg ++ ip ++ fr ++ ex ++ rest)) k) :
    ∃ lex1 e1, lex_scan ctx lex flags e = some (lex1, e1) ∧
      lex1.saved_text = sg ++ ip ++ fr ++ ex ∧
      Ready lex1.stream rest (k.steps (ws ++ (sg ++ ip ++ fr ++ ex))) ∧
      (if flags.JSON_USE_BIGREAL_ALWAYS = true ∨
          (flags.JSON_USE_BIGREAL = true ∧
            jsonp_count_significand_digits (sg ++ ip ++ fr) + 1 ≥ DBL_DIG) ∨
          (flags.JSON_USE_BIGREAL = true ∧
            (ctx.jsonp_strtod (sg ++ ip ++ fr ++ ex)).erange = true) then
        lex1.token = TOKEN_BIGREAL ∧
          lex1.value = lex_value.bigr (ctx.bigreal_from_string_fn (sg ++ ip ++ fr ++ ex)) ∧
          e1 = e
      else if (ctx.jsonp_strtod (sg ++ ip ++ fr ++ ex)).rc ≠ 0 then
        lex1.token = TOKEN_INVALID ∧
          e1 = report_at e (k.steps (ws ++ (sg ++ ip ++ fr ++ ex)))
            (with_context (str "real number overflow") (sg ++ ip ++ fr ++ ex))
      else
        lex1.token = TOKEN_REAL ∧
          lex1.value = lex_value.real (ctx.jsonp_strtod (sg ++ ip ++ fr ++ ex)).value ∧
          e1 = e) := by
  obtain ⟨lexU, hsv, hrd, htk, heq⟩ := lex_scan_real_token ctx flags ws sg ip fr ex rest hws hsg
    hip hfr hex hreal hfollow lex k e h
  have hnz := real_numeral_nonzero sg ip fr ex hsg hip hfr hex
  have hne : sg ++ ip ++ fr ++ ex ≠ [] := by
    have := (int_part_digits hip).2
    simp [this]
  have herr := error_set_at e lexU (str "real number overflow") _ rest _ (by decide) hsv hne hnz hrd
  rw [heq]
  unfold lex_scan_number_real
  simp only [hsv, c_str_eq_self _ hnz]
  generalize jsonp_count_significand_digits (sg ++ ip ++ fr) = n
  generalize hR : ctx.jsonp_strtod (sg ++ ip ++ fr ++ ex) = R
  by_cases hrc : R.rc = 0 <;> by_cases hn : n + 1 ≥ DBL_DIG <;>
    cases ha : flags.JSON_USE_BIGREAL_ALWAYS <;> cases hb : flags.JSON_USE_BIGREAL <;>
    cases hr : R.erange <;>
    simp only [hrc, hn, Bool.false_eq_true, false_or, true_or, or_true, or_false, false_and,
      and_false, true_and, and_true, and_self, ite_true, ite_false, not_false_eq_true,
      not_true_eq_false, ne_eq, or_self] <;>
    first
      | exact ⟨_, _, rfl, rfl, hrd, rfl, rfl, rfl⟩
      | exact ⟨_, _, rfl, hsv, hrd, htk, herr⟩

theorem lex_scan_number_sign (sg : List Nat) (x : Nat) (r : List Nat) (hsg : sign_part sg)
    (hx : 48 ≤ x ∧ x ≤ 57) (lex : lex_t) (c : Int) (k : cursor) (e : json_error_t)
    (hp : Peeked lex c [] (sg ++ x :: r) k) :
    ∃ lex0, (if c = 45 then lex_get_save { lex with token := TOKEN_INVALID } e
        else (c, { lex with token := TOKEN_INVALID }, e)) = ((x : Int), lex0, e) ∧
      Peeked lex0 (x : Int) sg (x :: r) (k.steps sg) ∧
      lex0.token = TOKEN_INVALID ∧ lex0.value = lex.value := by
  rcases hsg with h | h
  · subst h
    simp only [List.nil_append] at hp
    have hc := hp.1.next
    simp only [next_char] at hc
    have hne : c ≠ 45 := by omega
    simp only [hne, ite_false]
    rw [hc]
    rw [hc] at hp
    exact ⟨_, rfl, hp.with_token _, rfl, rfl⟩
  · subst h
    simp only [List.cons_append, List.nil_append] at hp
    obtain ⟨hc, _, _, hsv, hrd⟩ := hp.consume_saved
    subst hc
    have hpk := lex_get_save_peek { lex with token := TOKEN_INVALID } e (x :: r)
      (k.step 45) hrd (Or.inr ⟨x, r, rfl, by omega, by omega⟩)
    simp only [Nat.cast_ofNat, ite_true]
    generalize lex_get_save { lex with token := TOKEN_INVALID } e = q at hpk ⊢
    obtain ⟨c1, lex1, e1⟩ := q
    obtain ⟨hp1, he1, ht1, hv1⟩ := hpk
    simp only at hp1 he1 ht1 hv1
    subst he1
    have hc1 := hp1.1.next
    simp only [next_char] at hc1
    subst hc1
    refine ⟨lex1, rfl, ?_, ht1, hv1⟩
    rw [hsv] at hp1
    simpa [cursor.steps] using hp1

theorem lex_scan_leading_zero (ctx : json_context_t) (flags : load_flags)
    (ws sg : List Nat) (d : Nat) (rest : List Nat) (lex : lex_t) (k : cursor) (e : json_error_t)
    (hws : all_space ws) (hsg : sign_part sg) (hd : 48 ≤ d ∧ d ≤ 57)
    (h : Ready lex.stream (ws ++ (sg ++ 48 :: d :: rest)) k) :
    ∃ lex1, lex_scan ctx lex flags e = some (lex1,
        report_at e (k.steps (ws ++ (sg ++ [48])))
          (with_context (str "numbers may not have unnecessary leading zeros") (sg ++ [48]))) ∧
      lex1.token = TOKEN_INVALID ∧ lex1.saved_text = sg ++ [48] ∧
      Ready lex1.stream (d :: rest) (k.steps (ws ++ (sg ++ [48]))) := by
  have hfirst : ∃ b r, sg ++ 48 :: d :: rest = b :: r ∧ (b = 45 ∨ (48 ≤ b ∧ b ≤ 57)) := by
    rcases hsg with hs | hs
    · subst hs; exact ⟨48, _, rfl, Or.inr (by omega)⟩
    · subst hs; exact ⟨45, _, rfl, Or.inl rfl⟩
  obtain ⟨b, r, hbr, hb⟩ := hfirst
  rw [hbr] at h
  have hb0 : 0 < b := by omega
  have hb1 : b < 128 := by omega
  have hns : not_space (b : Int) := by unfold not_space; omega
  obtain ⟨lex1, hp, ht, hv, heq⟩ := lex_scan_enter ctx flags ws b r hws hb0 hb1 hns lex k e h
  rw [← hbr] at hp
  obtain ⟨lex0, hseq, hp0, ht0, _⟩ := lex_scan_number_sign sg 48 (d :: rest) hsg (by omega)
    lex1 b (k.steps ws) e hp
  obtain ⟨_, _, _, hsv, hrd⟩ := hp0.consume_saved
  have hpk := lex_get_save_peek lex0 e (d :: rest) _ hrd (Or.inr ⟨d, rest, rfl, by omega, by omega⟩)
  rw [heq]
  unfold lex_scan_token
  have hp1 : ¬ ((b : Int) = 123 ∨ (b : Int) = 125 ∨ (b : Int) = 91 ∨ (b : Int) = 93 ∨
      (b : Int) = 58 ∨ (b : Int) = 44) := by omega
  have hp2 : ¬ ((b : Int) = 34) := by omega
  have hp3 : l_isdigit (b : Int) = true ∨ (b : Int) = 45 := by
    rcases hb with hb | hb
    · exact Or.inr (by omega)
    · exact Or.inl ((l_isdigit_nat b).mpr hb)
  simp only [hp1, hp2, hp3, ite_false, ite_true]
  unfold lex_scan_number
  simp only [hseq, Nat.cast_ofNat, ite_true]
  generalize lex_get_save lex0 e = q at hpk ⊢
  obtain ⟨c1, lex2, e1⟩ := q
  obtain ⟨hp2', he1, ht1, hv1⟩ := hpk
  simp only at hp2' he1 ht1 hv1
  subst he1
  have hc1 := hp2'.1.next
  simp only [next_char] at hc1
  subst hc1
  have hdig : l_isdigit (d : Int) = true := (l_isdigit_nat d).mpr hd
  simp only [hdig, ite_true]
  obtain ⟨hu1, hu2, hu3, _⟩ := lex_unget_unsave_peeked _ _ _ _ _ hp2'
  rw [hsv] at hu1
  have hnz : ∀ x ∈ sg ++ [48], x ≠ 0 := by
    intro x hx
    rcases List.mem_append.mp hx with hx | hx
    · rcases hsg with hs | hs
      · subst hs; cases hx
      · subst hs; simp at hx; omega
    · simp at hx; omega
  have hk : ((k.steps ws).steps sg).step 48 = k.steps (ws ++ (sg ++ [48])) := by
    simp [cursor.steps]
  rw [hk] at hu2
  refine ⟨_, ?_, by rw [hu3, ht1, ht0], hu1, hu2⟩
  rw [error_set_at e1 _ _ _ _ _ (by decide) hu1 (by simp) hnz hu2]

/-- No value comes out of `parse_value` for an invalid token. -/
theorem parse_value_invalid (ctx : json_context_t) (flags : load_flags) (n : Nat) (lex : lex_t)
    (e : json_error_t) (h : lex.token = TOKEN_INVALID) :
    parse_value ctx flags (n + 1) lex e =
      some (none, lex, error_set e (some lex) (str "invalid token")) := by
  unfold parse_value
  simp [h, TOKEN_INVALID, TOKEN_STRING, TOKEN_INTEGER, TOKEN_BIGINTEGER, TOKEN_BIGREAL,
    TOKEN_REAL, TOKEN_TRUE, TOKEN_FALSE, TOKEN_NULL]

theorem ready_init (g : get_func) (d : List Nat) :
    Ready (lex_init g d).stream (g.bytes d) cursor_init :=
  ⟨Or.inl rfl, rfl, Or.inl rfl, rfl, rfl⟩

theorem ready_init_buffer (d : List Nat) (h : ∀ b ∈ d, b < 256) :
    Ready (lex_init get_func.buffer_get d).stream d cursor_init := by
  have := ready_init get_func.buffer_get d
  have hb : get_func.buffer_get.bytes d = d := by
    simp only [get_func.bytes]
    conv => rhs; rw [← List.map_id d]
    apply List.map_congr_left
    intro b hb
    exact Nat.mod_eq_of_lt (h b hb)
  rwa [hb] at this

theorem stream_get_same (lex : lex_t) (e : json_error_t) :
    SameToken lex (stream_get lex e).2.1 := by
  unfold stream_get stream_get_out stream_get_next
  simp only
  split_ifs <;> exact ⟨rfl, rfl, rfl⟩

theorem lex_get_save_saved (lex : lex_t) (e : json_error_t) :
    (lex_get_save lex e).2.1.saved_text = lex.saved_text ++ saved_of (lex_get_save lex e).1 := by
  have h := (stream_get_same lex e).saved
  unfold lex_get_save saved_of
  generalize stream_get lex e = q at h ⊢
  obtain ⟨c, lex1, e1⟩ := q
  simp only at h
  by_cases hc : c ≠ STREAM_STATE_EOF ∧ c ≠ STREAM_STATE_ERROR
  · have hc' : ¬ (c = STREAM_STATE_EOF ∨ c = STREAM_STATE_ERROR) := by
      intro h'; rcases h' with h' | h'
      · exact hc.1 h'
      · exact hc.2 h'
    simp [hc.1, hc.2, lex_save, h]
  · have hc' : (c = STREAM_STATE_EOF ∨ c = STREAM_STATE_ERROR) := by
      by_contra h'
      exact hc ⟨fun h1 => h' (Or.inl h1), fun h1 => h' (Or.inr h1)⟩
    rcases hc' with h' | h' <;> simp [h', h, STREAM_STATE_EOF, STREAM_STATE_ERROR]

theorem lex_unget_unsave_saved (lex : lex_t) (c : Int) (t : List Nat)
    (h : lex.saved_text = t ++ saved_of c) : (lex_unget_unsave lex c).saved_text = t := by
  unfold lex_unget_unsave
  unfold saved_of at h
  by_cases hc : c ≠ STREAM_STATE_EOF ∧ c ≠ STREAM_STATE_ERROR
  · have hc' : ¬ (c = STREAM_STATE_EOF ∨ c = STREAM_STATE_ERROR) := by
      intro h'; rcases h' with h' | h'
      · exact hc.1 h'
      · exact hc.2 h'
    simp only [hc', ite_false] at h
    simp only [hc, ne_eq, not_false_eq_true, and_self, ite_true, h]
    simp
  · have hc' : (c = STREAM_STATE_EOF ∨ c = STREAM_STATE_ERROR) := by
      by_contra h'
      exact hc ⟨fun h1 => h' (Or.inl h1), fun h1 => h' (Or.inr h1)⟩
    simp only [hc', ite_true, List.append_nil] at h
    simp only [hc, ite_false, h]

theorem saved_of_digit (c : Int) (h : l_isdigit c = true) :
    ∃ b, saved_of c = [b] ∧ 48 ≤ b ∧ b ≤ 57 ∧ (c = 48 ↔ b = 48) := by
  unfold l_isdigit at h
  simp only [Bool.and_eq_true, decide_eq_true_eq] at h
  refine ⟨to_uchar c, ?_, ?_, ?_, ?_⟩
  · unfold saved_of
    have : ¬ (c = STREAM_STATE_EOF ∨ c = STREAM_STATE_ERROR) := by
      simp only [STREAM_STATE_EOF, STREAM_STATE_ERROR]; omega
    simp only [this, ite_false]
  all_goals (unfold to_uchar; omega)

theorem saved_of_ascii (c : Int) (b : Nat) (h : c = (b : Int)) (hb : b < 128) :
    saved_of c = [b] := by
  subst h
  unfold saved_of
  have : ¬ ((b : Int) = STREAM_STATE_EOF ∨ (b : Int) = STREAM_STATE_ERROR) := by
    simp only [STREAM_STATE_EOF, STREAM_STATE_ERROR]; omega
  simp only [this, ite_false, to_uchar_ascii b hb]

theorem lex_scan_digits_sound :
    ∀ (fuel : Nat) (lex : lex_t) (c : Int) (e : json_error_t) (t : List Nat)
      (c1 : Int) (lex1 : lex_t) (e1 : json_error_t),
      lex_scan_digits fuel lex c e = some (c1, lex1, e1) → lex.saved_text = t ++ saved_of c →
      l_isdigit c1 = false ∧
      ((l_isdigit c = false ∧ lex1.saved_text = t ++ saved_of c1) ∨
       (l_isdigit c = true ∧ ∃ ds, digits1 ds ∧ lex1.saved_text = t ++ ds ++ saved_of c1)) := by
  intro fuel
  induction fuel with
  | zero => intro lex c e t c1 lex1 e1 h; simp [lex_scan_digits] at h
  | succ n ih =>
    intro lex c e t c1 lex1 e1 h hsv
    unfold lex_scan_digits at h
    by_cases hd : l_isdigit c = true
    · simp only [hd, ite_true] at h
      obtain ⟨b, hb, hb1, hb2, _⟩ := saved_of_digit c hd
      have hs := lex_get_save_saved lex e
      rw [hsv, hb] at hs
      obtain ⟨h1, h2⟩ := ih _ _ _ (t ++ [b]) _ _ _ h hs
      refine ⟨h1, Or.inr ⟨hd, ?_⟩⟩
      rcases h2 with ⟨_, h3⟩ | ⟨_, ds, hds, h3⟩
      · exact ⟨[b], ⟨by simp, fun x hx => by simp at hx; omega⟩, h3⟩
      · refine ⟨b :: ds, ⟨by simp, ?_⟩, by simpa using h3⟩
        intro x hx
        rcases List.mem_cons.mp hx with hx | hx
        · omega
        · exact hds.2 x hx
    · have hd' : l_isdigit c = false := by simpa using hd
      simp only [hd', Bool.false_eq_true, ite_false, Option.some.injEq, Prod.mk.injEq] at h
      obtain ⟨h1, h2, _⟩ := h
      subst h1; subst h2
      exact ⟨hd', Or.inl ⟨hd', hsv⟩⟩

theorem lex_scan_number_integer_saved (ctx : json_context_t) (lex : lex_t) (flags : load_flags)
    (e : json_error_t) :
    (lex_scan_number_integer ctx lex flags e).2.1.saved_text = lex.saved_text := by
  unfold lex_scan_number_integer
  simp only
  split_ifs <;> rfl

theorem lex_scan_number_real_saved (ctx : json_context_t) (lex : lex_t) (flags : load_flags)
    (n : Int) (e : json_error_t) :
    (lex_scan_number_real ctx lex flags n e).2.1.saved_text = lex.saved_text := by
  unfold lex_scan_number_real
  simp only
  split_ifs <;> rfl

theorem lex_get_save_digits_sound (fuel : Nat) (lex : lex_t) (e : json_error_t) (t : List Nat)
    (b : Nat) (hb : 48 ≤ b ∧ b ≤ 57) (c1 : Int) (lex1 : lex_t) (e1 : json_error_t)
    (hsv : lex.saved_text = t ++ [b])
    (h : lex_scan_digits fuel (lex_get_save lex e).2.1 (lex_get_save lex e).1
      (lex_get_save lex e).2.2 = some (c1, lex1, e1)) :
    ∃ ds, digits1 ds ∧ lex1.saved_text = t ++ ds ++ saved_of c1 ∧ l_isdigit c1 = false := by
  have hs := lex_get_save_saved lex e
  rw [hsv] at hs
  obtain ⟨h1, h2⟩ := lex_scan_digits_sound fuel _ _ _ (t ++ [b]) _ _ _ h hs
  rcases h2 with ⟨_, h3⟩ | ⟨_, ds, hds, h3⟩
  · exact ⟨[b], ⟨by simp, fun x hx => by simp at hx; omega⟩, h3, h1⟩
  · refine ⟨b :: ds, ⟨by simp, ?_⟩, by simpa using h3, h1⟩
    intro x hx
    rcases List.mem_cons.mp hx with hx | hx
    · omega
    · exact hds.2 x hx

theorem lex_scan_number_fraction_sound (fuel : Nat) (lex : lex_t) (e : json_error_t)
    (t : List Nat) (c1 : Int) (lex1 : lex_t) (e1 : json_error_t)
    (h : lex_scan_number_fraction fuel lex e = some (some c1, lex1, e1))
    (hsv : lex.saved_text = t) :
    ∃ fd, digits1 fd ∧ lex1.saved_text = t ++ fd ++ saved_of c1 ∧ l_isdigit c1 = false := by
  unfold lex_scan_number_fraction at h
  have hs := (stream_get_same lex e).saved
  simp only [lex_get] at h
  by_cases hd : l_isdigit (stream_get lex e).1 = true
  · simp only [hd, Bool.true_eq_false, ite_false] at h
    obtain ⟨b, hb, hb1, hb2, _⟩ := saved_of_digit _ hd
    have hb' : to_uchar (stream_get lex e).1 = b := by
      unfold saved_of at hb
      split_ifs at hb
      simpa using hb
    have hsv2 : (lex_save (stream_get lex e).2.1 (stream_get lex e).1).saved_text = t ++ [b] := by
      simp only [lex_save, hs, hsv, hb']
    generalize hq : lex_scan_digits fuel _ _ _ = q at h
    cases q with
    | none => simp at h
    | some r =>
      obtain ⟨c2, lex2, e2⟩ := r
      simp only [Option.some.injEq, Prod.mk.injEq] at h
      obtain ⟨h1, h2, h3⟩ := h
      subst h1; subst h2; subst h3
      exact lex_get_save_digits_sound fuel _ _ t b ⟨hb1, hb2⟩ _ _ _ hsv2 hq
  · have hd' : l_isdigit (stream_get lex e).1 = false := by simpa using hd
    simp [hd'] at h

theorem lex_scan_number_exponent_sound (fuel : Nat) (lex : lex_t) (e : json_error_t)
    (t : List Nat) (c1 : Int) (lex1 : lex_t) (e1 : json_error_t)
    (h : lex_scan_number_exponent fuel lex e = some (some c1, lex1, e1))
    (hsv : lex.saved_text = t) :
    ∃ sg ed, (sg = [] ∨ sg = [43] ∨ sg = [45]) ∧ digits1 ed ∧
      lex1.saved_text = t ++ sg ++ ed ++ saved_of c1 ∧ l_isdigit c1 = false := by
  unfold lex_scan_number_exponent at h
  have hs := lex_get_save_saved lex e
  rw [hsv] at hs
  generalize lex_get_save lex e = q at h hs
  obtain ⟨c2, lex2, e2⟩ := q
  simp only at h hs
  -- the optional sign
  have hsign : ∃ sg, (sg = [] ∨ sg = [43] ∨ sg = [45]) ∧
      (if c2 = 43 ∨ c2 = 45 then lex_get_save lex2 e2 else (c2, lex2, e2)).2.1.saved_text =
        t ++ sg ++ saved_of (if c2 = 43 ∨ c2 = 45 then lex_get_save lex2 e2 else (c2, lex2, e2)).1 := by
    by_cases hc : c2 = 43 ∨ c2 = 45
    · simp only [hc, ite_true]
      have hs2 := lex_get_save_saved lex2 e2
      rw [hs] at hs2
      rcases hc with hc | hc
      · refine ⟨[43], Or.inr (Or.inl rfl), ?_⟩
        rw [hs2, saved_of_ascii c2 43 hc (by omega)]
      · refine ⟨[45], Or.inr (Or.inr rfl), ?_⟩
        rw [hs2, saved_of_ascii c2 45 hc (by omega)]
    · simp only [hc, ite_false]
      exact ⟨[], Or.inl rfl, by simpa using hs⟩
  obtain ⟨sg, hsg, hsv2⟩ := hsign
  generalize (if c2 = 43 ∨ c2 = 45 then lex_get_save lex2 e2 else (c2, lex2, e2)) = q at h hsv2
  obtain ⟨c3, lex3, e3⟩ := q
  simp only at h hsv2
  by_cases hd : l_isdigit c3 = true
  · simp only [hd, Bool.true_eq_false, ite_false] at h
    obtain ⟨b, hb, hb1, hb2, _⟩ := saved_of_digit _ hd
    rw [hb] at hsv2
    generalize hq : lex_scan_digits fuel _ _ _ = q at h
    cases q with
    | none => simp at h
    | some r =>
      obtain ⟨c4, lex4, e4⟩ := r
      simp only [Option.some.injEq, Prod.mk.injEq] at h
      obtain ⟨h1, h2, h3⟩ := h
      subst h1; subst h2; subst h3
      obtain ⟨ds, hds, h5, h6⟩ := lex_get_save_digits_sound fuel _ _ (t ++ sg) b ⟨hb1, hb2⟩ _ _ _
        hsv2 hq
      exact ⟨sg, ds, hsg, hds, h5, h6⟩
  · have hd' : l_isdigit c3 = false := by simpa using hd
    simp [hd'] at h

theorem lex_scan_number_exponent_tail_sound (ctx : json_context_t) (fuel : Nat) (lex : lex_t)
    (c : Int) (flags : load_flags) (n : Int) (e : json_error_t) (t : List Nat)
    (lex1 : lex_t) (e1 : json_error_t) (rc : Int)
    (h : (if c = 69 ∨ c = 101 then
        match lex_scan_number_exponent fuel lex e with
        | none => none
        | some (none, lex, error) => some (-1, lex, error)
        | some (some c, lex, error) =>
          some (lex_scan_number_real ctx (lex_unget_unsave lex c) flags n error)
      else some (lex_scan_number_real ctx (lex_unget_unsave lex c) flags n e)) =
        some (rc, lex1, e1))
    (hrc : rc = 0)
    (hsv : lex.saved_text = t ++ saved_of c) :
    ∃ ex, exp_part ex ∧ lex1.saved_text = t ++ ex := by
  by_cases hc : c = 69 ∨ c = 101
  · simp only [hc, ite_true] at h
    have hsc : ∃ m, saved_of c = [m] ∧ (m = 69 ∨ m = 101) := by
      rcases hc with hc | hc
      · exact ⟨69, saved_of_ascii c 69 hc (by omega), Or.inl rfl⟩
      · exact ⟨101, saved_of_ascii c 101 hc (by omega), Or.inr rfl⟩
    obtain ⟨m, hm, hm2⟩ := hsc
    rw [hm] at hsv
    generalize hq : lex_scan_number_exponent fuel lex e = q at h
    cases q with
    | none => simp at h
    | some r =>
      obtain ⟨oc, lex2, e2⟩ := r
      cases oc with
      | none =>
        simp only [Option.some.injEq, Prod.mk.injEq] at h
        omega
      | some c2 =>
        simp only [Option.some.injEq] at h
        obtain ⟨sg, ed, hsg, hed, hs2, _⟩ := lex_scan_number_exponent_sound fuel lex e _ _ _ _ hq hsv
        have hu := lex_unget_unsave_saved lex2 c2 _ hs2
        have hr := lex_scan_number_real_saved ctx (lex_unget_unsave lex2 c2) flags n e2
        rw [h] at hr
        simp only at hr
        refine ⟨m :: (sg ++ ed), Or.inr ⟨m, sg, ed, rfl, hm2, hsg, hed⟩, ?_⟩
        rw [hr, hu]
        simp
  · simp only [hc, ite_false, Option.some.injEq] at h
    have hu := lex_unget_unsave_saved lex c _ hsv
    have hr := lex_scan_number_real_saved ctx (lex_unget_unsave lex c) flags n e
    rw [h] at hr
    simp only at hr
    exact ⟨[], Or.inl rfl, by rw [hr, hu]; simp⟩

theorem lex_scan_number_tail_sound (ctx : json_context_t) (fuel : Nat) (lex : lex_t) (c : Int)
    (flags : load_flags) (e : json_error_t) (t : List Nat) (lex1 : lex_t) (e1 : json_error_t)
    (h : lex_scan_number_tail ctx fuel lex c flags e = some (0, lex1, e1))
    (hsv : lex.saved_text = t ++ saved_of c) :
    ∃ fr ex, frac_part fr ∧ exp_part ex ∧ lex1.saved_text = t ++ fr ++ ex := by
  unfold lex_scan_number_tail at h
  by_cases hc : c ≠ 46 ∧ c ≠ 69 ∧ c ≠ 101
  · simp only [hc, ne_eq, not_false_eq_true, and_self, ite_true, Option.some.injEq] at h
    have hu := lex_unget_unsave_saved lex c _ hsv
    have hr := lex_scan_number_integer_saved ctx (lex_unget_unsave lex c) flags e
    rw [h] at hr
    simp only at hr
    exact ⟨[], [], Or.inl rfl, Or.inl rfl, by rw [hr, hu]; simp⟩
  · simp only [hc, ite_false] at h
    by_cases h46 : c = 46
    · simp only [h46, ite_true] at h
      rw [saved_of_ascii c 46 h46 (by omega)] at hsv
      generalize hq : lex_scan_number_fraction fuel lex e = q at h
      cases q with
      | none => simp at h
      | some r =>
        obtain ⟨oc, lex2, e2⟩ := r
        cases oc with
        | none =>
          simp only [Option.some.injEq, Prod.mk.injEq] at h
          omega
        | some c2 =>
          simp only at h
          obtain ⟨fd, hfd, hs2, _⟩ := lex_scan_number_fraction_sound fuel lex e _ _ _ _ hq hsv
          obtain ⟨ex, hex, hs3⟩ := lex_scan_number_exponent_tail_sound ctx fuel lex2 c2 flags _ e2
            _ lex1 e1 0 h rfl hs2
          refine ⟨46 :: fd, ex, Or.inr ⟨fd, rfl, hfd⟩, hex, ?_⟩
          rw [hs3]
          simp
    · simp only [h46, ite_false] at h
      obtain ⟨ex, hex, hs3⟩ := lex_scan_number_exponent_tail_sound ctx fuel lex c flags _ e
        _ lex1 e1 0 h rfl hsv
      exact ⟨[], ex, Or.inl rfl, hex, by rw [hs3]; simp⟩

/-- Soundness of `lex_scan_number` on any input: when it returns 0, the saved
text is a JSON number. -/
theorem lex_scan_number_sound (ctx : json_context_t) (lex : lex_t) (c : Int)
    (flags : load_flags) (e : json_error_t) (lex1 : lex_t) (e1 : json_error_t)
    (h : lex_scan_number ctx lex c flags e = some (0, lex1, e1))
    (hsv : lex.saved_text = saved_of c) :
    json_number lex1.saved_text := by
  unfold lex_scan_number at h
  simp only at h
  -- the sign
  have hsign : ∃ sg, sign_part sg ∧
      (if c = 45 then lex_get_save { lex with token := TOKEN_INVALID } e
        else (c, { lex with token := TOKEN_INVALID }, e)).2.1.saved_text =
        sg ++ saved_of (if c = 45 then lex_get_save { lex with token := TOKEN_INVALID } e
        else (c, { lex with token := TOKEN_INVALID }, e)).1 := by
    by_cases hc : c = 45
    · simp only [hc, ite_true]
      have hs2 : ∀ l : lex_t, l.saved_text = [45] →
          (lex_get_save l e).2.1.saved_text = [45] ++ saved_of (lex_get_save l e).1 :=
        fun l hl => by rw [lex_get_save_saved, hl]
      have hs0 : ({ lex with token := TOKEN_INVALID } : lex_t).saved_text = [45] := by
        simp only [hsv, saved_of_ascii c 45 hc (by omega)]
      exact ⟨[45], Or.inr rfl, hs2 _ hs0⟩
    · simp only [hc, ite_false]
      exact ⟨[], Or.inl rfl, by simpa using hsv⟩
  obtain ⟨sg, hsg, hsv2⟩ := hsign
  generalize (if c = 45 then lex_get_save { lex with token := TOKEN_INVALID } e
        else (c, { lex with token := TOKEN_INVALID }, e)) = q at h hsv2
  obtain ⟨c2, lex2, e2⟩ := q
  simp only at h hsv2
  by_cases h48 : c2 = 48
  · simp only [h48, ite_true] at h
    subst h48
    rw [saved_of_ascii 48 48 rfl (by omega)] at hsv2
    have hs3 := lex_get_save_saved lex2 e2
    rw [hsv2] at hs3
    by_cases hd : l_isdigit (lex_get_save lex2 e2).1 = true
    · simp only [hd, ite_true, Option.some.injEq, Prod.mk.injEq] at h
      omega
    · simp only [hd, Bool.false_eq_true, ite_false] at h
      obtain ⟨fr, ex, hfr, hex, hs4⟩ := lex_scan_number_tail_sound ctx _ _ _ flags _ _ lex1 e1 h hs3
      exact ⟨sg, [48], fr, ex, hs4, hsg, Or.inl rfl, hfr, hex⟩
  · simp only [h48, ite_false] at h
    by_cases hd : l_isdigit c2 = true
    · simp only [hd, ite_true] at h
      obtain ⟨b, hb, hb1, hb2, hb3⟩ := saved_of_digit c2 hd
      rw [hb] at hsv2
      generalize hq : lex_scan_digits _ _ _ _ = q at h
      cases q with
      | none => simp at h
      | some r =>
        obtain ⟨c3, lex3, e3⟩ := r
        simp only at h
        have hs3 := lex_get_save_saved lex2 e2
        rw [hsv2] at hs3
        obtain ⟨_, h2⟩ := lex_scan_digits_sound _ _ _ _ (sg ++ [b]) _ _ _ hq hs3
        have hb4 : b ≠ 48 := fun hb' => h48 (hb3.mpr hb')
        rcases h2 with ⟨_, h3⟩ | ⟨_, ds, hds, h3⟩
        · obtain ⟨fr, ex, hfr, hex, hs4⟩ := lex_scan_number_tail_sound ctx _ _ _ flags _ _ lex1 e1 h h3
          refine ⟨sg, [b], fr, ex, hs4, hsg, Or.inr ⟨b, [], rfl, by omega, hb2, ?_⟩, hfr, hex⟩
          intro x hx
          simp at hx
        · obtain ⟨fr, ex, hfr, hex, hs4⟩ := lex_scan_number_tail_sound ctx _ _ _ flags _ _ lex1 e1 h h3
          refine ⟨sg, b :: ds, fr, ex, ?_, hsg, Or.inr ⟨b, ds, rfl, by omega, hb2, hds.2⟩, hfr, hex⟩
          rw [hs4]
          simp
    · simp only [hd, Bool.false_eq_true, ite_false, Option.some.injEq, Prod.mk.injEq] at h
      omega

theorem number_end_follow (rest : List Nat) (h : number_end rest) : number_follow rest := by
  rcases h with h | ⟨b, r, h, hb⟩
  · subst h
    exact ⟨Or.inl rfl, rfl, by decide, by decide, by decide⟩
  · subst h
    refine ⟨Or.inr ⟨b, r, rfl, by omega, by omega⟩, ?_, ?_, ?_, ?_⟩
    · simp only [next_char]
      cases hd : l_isdigit (b : Int)
      · rfl
      · have := (l_isdigit_nat b).mp hd
        omega
    all_goals (simp only [next_char]; omega)

theorem lex_scan_number_not_char (ctx : json_context_t) (lex : lex_t) (c : Int)
    (flags : load_flags) (e : json_error_t) (lex1 : lex_t) (e1 : json_error_t)
    (hc : c = STREAM_STATE_EOF ∨ c = STREAM_STATE_ERROR) :
    lex_scan_number ctx lex c flags e ≠ some (0, lex1, e1) := by
  have h45 : c ≠ 45 := by
    rcases hc with hc | hc <;> rw [hc] <;> decide
  have h48 : c ≠ 48 := by
    rcases hc with hc | hc <;> rw [hc] <;> decide
  have hd : l_isdigit c = false := by
    rcases hc with hc | hc <;> rw [hc] <;> decide
  unfold lex_scan_number
  simp only [h45, h48, hd, ite_false, Bool.false_eq_true]
  intro h
  simp only [Option.some.injEq, Prod.mk.injEq] at h
  omega

/-- The scan of any numeral followed by an end of numeral: the token and the
report. -/
theorem lex_scan_number_complete (ctx : json_context_t) (flags : load_flags)
    (t rest : List Nat) (lex : lex_t) (k : cursor) (e : json_error_t)
    (ht : json_number t) (hrest : number_end rest) (h : Ready lex.stream (t ++ rest) k) :
    ∃ lex1 e1, lex_scan ctx lex flags e = some (lex1, e1) ∧ lex1.saved_text = t ∧
      Ready lex1.stream rest (k.steps t) ∧
      (((lex1.token = TOKEN_INTEGER ∨ lex1.token = TOKEN_REAL ∨
          lex1.token = TOKEN_BIGINTEGER ∨ lex1.token = TOKEN_BIGREAL) ∧ e1 = e) ∨
       (lex1.token = TOKEN_INVALID ∧ ∃ msg, (msg = str "too big integer" ∨
          msg = str "too big negative integer" ∨ msg = str "real number overflow") ∧
          e1 = report_at e (k.steps t) (with_context msg t))) := by
  obtain ⟨sg, ip, fr, ex, hteq, hsg, hip, hfr, hex⟩ := ht
  subst hteq
  have hfollow := number_end_follow rest hrest
  have hws : all_space [] := by intro b hb; cases hb
  by_cases hreal : fr ≠ [] ∨ ex ≠ []
  · obtain ⟨lexU, hsv, hrd, htk, heq⟩ := lex_scan_real_token ctx flags [] sg ip fr ex rest hws hsg
      hip hfr hex hreal hfollow lex k e (by simpa using h)
    simp only [List.nil_append] at hrd
    have hnz := real_numeral_nonzero sg ip fr ex hsg hip hfr hex
    have hne : sg ++ ip ++ fr ++ ex ≠ [] := by
      have := (int_part_digits hip).2
      simp [this]
    have herr := error_set_at e lexU (str "real number overflow") _ rest _ (by decide) hsv hne
      hnz hrd
    rw [heq]
    generalize (if flags.JSON_USE_BIGREAL = true ∧ ¬ flags.JSON_USE_BIGREAL_ALWAYS = true then
      jsonp_count_significand_digits (sg ++ ip ++ fr) else 0) = n
    unfold lex_scan_number_real
    simp only
    split_ifs
    · exact ⟨_, _, rfl, hsv, hrd, Or.inl ⟨Or.inr (Or.inr (Or.inr rfl)), rfl⟩⟩
    · exact ⟨_, _, rfl, hsv, hrd, Or.inl ⟨Or.inr (Or.inr (Or.inr rfl)), rfl⟩⟩
    · exact ⟨_, _, rfl, hsv, hrd, Or.inr ⟨htk, _, Or.inr (Or.inr rfl), herr⟩⟩
    · exact ⟨_, _, rfl, hsv, hrd, Or.inl ⟨Or.inr (Or.inl rfl), rfl⟩⟩
  · have hfr0 : fr = [] := by
      by_contra hc
      exact hreal (Or.inl hc)
    have hex0 : ex = [] := by
      by_contra hc
      exact hreal (Or.inr hc)
    subst hfr0; subst hex0
    simp only [List.append_nil] at h ⊢
    obtain ⟨hr, hnd, hnf⟩ := hfollow
    obtain ⟨lexU, hsv, hrd, htk, heq⟩ := lex_scan_integer_token ctx flags [] sg ip rest hws hsg hip
      hr hnd hnf lex k e (by simpa using h)
    simp only [List.nil_append] at hrd
    obtain ⟨hd, hne⟩ := int_part_digits hip
    have hnz := numeral_nonzero sg ip hsg hd
    have hne2 : sg ++ ip ≠ [] := by simp [hne]
    have herr1 := error_set_at e lexU (str "too big integer") _ rest _ (by decide) hsv hne2
      hnz hrd
    have herr2 := error_set_at e lexU (str "too big negative integer") _ rest _ (by decide) hsv
      hne2 hnz hrd
    rw [heq]
    unfold lex_scan_number_integer
    simp only
    split_ifs
    · exact ⟨_, _, rfl, hsv, hrd, Or.inl ⟨Or.inr (Or.inr (Or.inl rfl)), rfl⟩⟩
    · exact ⟨_, _, rfl, hsv, hrd, Or.inl ⟨Or.inr (Or.inr (Or.inl rfl)), rfl⟩⟩
    · exact ⟨_, _, rfl, hsv, hrd, Or.inr ⟨htk, _, Or.inr (Or.inl rfl), herr2⟩⟩
    · exact ⟨_, _, rfl, hsv, hrd, Or.inr ⟨htk, _, Or.inl rfl, herr1⟩⟩
    · exact ⟨_, _, rfl, hsv, hrd, Or.inl ⟨Or.inl rfl, rfl⟩⟩

/-- C2: `lex_scan_number` accepts exactly the JSON number grammar.  Called as
`lex_scan` calls it (the first character `c` just saved to an empty saved
text), whenever it returns 0 the saved text is a JSON number, for every input
and every flag set; and every JSON number followed by the end of the input,
whitespace, `,`, `]` or the closing brace is scanned by `lex_scan` as one token
whose saved text is the whole numeral, the stream standing right behind it:
a number token, or the invalid token with one of the three range errors. -/
theorem lex_scan_number_grammar (ctx : json_context_t) (flags : load_flags) :
    (∀ (lex : lex_t) (c : Int) (e : json_error_t) (lex1 : lex_t) (e1 : json_error_t),
      lex.saved_text = [] →
      lex_scan_number ctx (lex_save lex c) c flags e = some (0, lex1, e1) →
      json_number lex1.saved_text) ∧
    (∀ (t rest : List Nat) (lex : lex_t) (k : cursor) (e : json_error_t),
      json_number t → number_end rest → Ready lex.stream (t ++ rest) k →
      ∃ lex1 e1, lex_scan ctx lex flags e = some (lex1, e1) ∧ lex1.saved_text = t ∧
        Ready lex1.stream rest (k.steps t) ∧
        (((lex1.token = TOKEN_INTEGER ∨ lex1.token = TOKEN_REAL ∨
            lex1.token = TOKEN_BIGINTEGER ∨ lex1.token = TOKEN_BIGREAL) ∧ e1 = e) ∨
         (lex1.token = TOKEN_INVALID ∧ ∃ msg, (msg = str "too big integer" ∨
            msg = str "too big negative integer" ∨ msg = str "real number overflow") ∧
            e1 = report_at e (k.steps t) (with_context msg t)))) := by
  constructor
  · intro lex c e lex1 e1 hsv h
    by_cases hc : c = STREAM_STATE_EOF ∨ c = STREAM_STATE_ERROR
    · exact absurd h (lex_scan_number_not_char ctx _ c flags e lex1 e1 hc)
    · apply lex_scan_number_sound ctx (lex_save lex c) c flags e lex1 e1 h
      simp only [lex_save, hsv, saved_of, hc, ite_false, List.nil_append]
  · intro t rest lex k e ht hrest h
    exact lex_scan_number_complete ctx flags t rest lex k e ht hrest h

theorem lex_scan_number_integer_stream (ctx : json_context_t) (lex : lex_t) (flags : load_flags)
    (e : json_error_t) :
    (lex_scan_number_integer ctx lex flags e).2.1.stream = lex.stream := by
  unfold lex_scan_number_integer
  simp only
  split_ifs <;> rfl

/-- An integer numeral within the range of the native integer gives an integer
token or, with `JSON_USE_BIGINT_ALWAYS`, a big integer token, whatever the
flags. -/
theorem lex_scan_integer_in_range (ctx : json_context_t) (flags : load_flags)
    (ws sg ip rest : List Nat) (lex : lex_t) (k : cursor) (e : json_error_t)
    (hws : all_space ws) (hsg : sign_part sg) (hip : int_part ip) (hfollow : number_follow rest)
    (hv : -(2 : Int) ^ 63 ≤ int_value sg ip ∧ int_value sg ip ≤ (2 : Int) ^ 63 - 1)
    (h : Ready lex.stream (ws ++ (sg ++ ip ++ rest)) k) :
    ∃ lex1, lex_scan ctx lex flags e = some (lex1, e) ∧
      (lex1.token = TOKEN_INTEGER ∨ lex1.token = TOKEN_BIGINTEGER) ∧
      Ready lex1.stream rest (k.steps (ws ++ (sg ++ ip))) := by
  obtain ⟨hr, hnd, hnf⟩ := hfollow
  obtain ⟨lexU, hsv, hrd, htk, heq⟩ := lex_scan_integer_token ctx flags ws sg ip rest hws hsg hip
    hr hnd hnf lex k e h
  have hst := json_strtoint_numeral sg ip hsg hip
  have h1 : ¬ (int_value sg ip < -(2 : Int) ^ 63) := by omega
  have h2 : ¬ (int_value sg ip > (2 : Int) ^ 63 - 1) := by omega
  simp only [h1, h2, ite_false] at hst
  rw [heq]
  unfold lex_scan_number_integer
  simp only [hsv, hst, Bool.false_eq_true, ite_false]
  split_ifs
  · exact ⟨_, rfl, Or.inr rfl, hrd⟩
  · exact ⟨_, rfl, Or.inl rfl, hrd⟩

/-- On an integer or big integer token `parse_value` makes its value, or
fails, and leaves the lexer as it is. -/
theorem parse_value_integer (ctx : json_context_t) (flags : load_flags) (n : Nat) (lex : lex_t)
    (e : json_error_t) (h : lex.token = TOKEN_INTEGER ∨ lex.token = TOKEN_BIGINTEGER) :
    ∃ r e1, parse_value ctx flags (n + 1) lex e = some (r, lex, e1) := by
  unfold parse_value
  rcases h with h | h
  · simp only [h, TOKEN_INTEGER, TOKEN_STRING, show ¬ ((257 : Int) = 256) by decide, ite_false,
      ite_true]
    split_ifs
    · exact ⟨_, _, rfl⟩
    · exact ⟨_, _, rfl⟩
    · split <;> exact ⟨_, _, rfl⟩
  · simp only [h, TOKEN_INTEGER, TOKEN_STRING, TOKEN_BIGINTEGER,
      show ¬ ((262 : Int) = 256) by decide, show ¬ ((262 : Int) = 257) by decide, ite_false,
      ite_true]
    split <;> exact ⟨_, _, rfl⟩

theorem parse_json_minus_zero_one (ctx : json_context_t) (flags : load_flags) (lex : lex_t)
    (e : json_error_t) (k : cursor)
    (hf : ¬ (flags.JSON_DECODE_ANY = true ∧ flags.JSON_DISABLE_EOF_CHECK = true))
    (hrd : Ready lex.stream (str "-0 1") k) :
    ∃ lex1 e1, parse_json ctx lex flags e = some (none, lex1, e1) := by
  unfold parse_json
  simp only
  generalize hF : (if (if flags.JSON_USE_BIGINT_ALWAYS = true then
      { flags with JSON_USE_BIGINT := true } else flags).JSON_USE_BIGREAL_ALWAYS = true then
      { (if flags.JSON_USE_BIGINT_ALWAYS = true then
          { flags with JSON_USE_BIGINT := true } else flags) with JSON_USE_BIGREAL := true }
      else (if flags.JSON_USE_BIGINT_ALWAYS = true then
        { flags with JSON_USE_BIGINT := true } else flags)) = F
  have hany : F.JSON_DECODE_ANY = flags.JSON_DECODE_ANY := by
    rw [← hF]; split_ifs <;> rfl
  have hdis : F.JSON_DISABLE_EOF_CHECK = flags.JSON_DISABLE_EOF_CHECK := by
    rw [← hF]; split_ifs <;> rfl
  rw [← hany, ← hdis] at hf
  clear hany hdis hF
  by_cases h1 : F.JSON_USE_BIGINT = true ∧ ctx.have_bigint = false
  · simp only [h1, and_self, ite_true]
    exact ⟨_, _, rfl⟩
  simp only [h1, ite_false]
  by_cases h2 : F.JSON_USE_BIGREAL = true ∧ ctx.have_bigreal = false
  · simp only [h2, and_self, ite_true]
    exact ⟨_, _, rfl⟩
  simp only [h2, ite_false]
  -- the token `-0`
  obtain ⟨lex1, hs1, ht1, hr1⟩ := lex_scan_integer_in_range ctx F [] [45] [48] [32, 49] lex k e
    (by intro b hb; cases hb) (Or.inr rfl) (Or.inl rfl)
    ⟨Or.inr ⟨32, [49], rfl, by decide, by decide⟩, by decide, by decide, by decide, by decide⟩
    (by decide) hrd
  rw [hs1]
  simp only
  have ht91 : lex1.token ≠ 91 ∧ lex1.token ≠ 123 ∧ lex1.token ≠ TOKEN_EOF := by
    rcases ht1 with h | h <;> rw [h] <;> decide
  by_cases ha : F.JSON_DECODE_ANY = false
  · simp only [ha, ht91.1, ht91.2.1, ne_eq, not_false_eq_true, and_self, ite_true]
    exact ⟨_, _, rfl⟩
  have ha1 : F.JSON_DECODE_ANY = true := by simpa using ha
  have hd : F.JSON_DISABLE_EOF_CHECK = false := by
    cases h : F.JSON_DISABLE_EOF_CHECK
    · rfl
    · exact absurd ⟨ha1, h⟩ hf
  simp only [ha1, Bool.true_eq_false, false_and, ite_false]
  obtain ⟨r, e2, hp⟩ := parse_value_integer ctx F (3 * lex.stream.data.length + 3) lex1 e ht1
  rw [show 3 * lex.stream.data.length + 4 = 3 * lex.stream.data.length + 3 + 1 from rfl, hp]
  cases r with
  | none => exact ⟨_, _, rfl⟩
  | some v =>
    simp only [hd, ite_true]
    -- the token `1`
    obtain ⟨lex3, hs3, ht3, _⟩ := lex_scan_integer_in_range ctx F [32] [] [49] [] lex1 _ e2
      (by intro b hb; simp at hb; omega) (Or.inl rfl)
      (Or.inr ⟨49, [], rfl, by decide, by decide, by intro x hx; cases hx⟩)
      ⟨Or.inl rfl, by decide, by decide, by decide, by decide⟩
      (by decide) hr1
    rw [hs3]
    have ht0 : lex3.token ≠ TOKEN_EOF := by
      rcases ht3 with h | h <;> rw [h] <;> decide
    simp only [ht0, ne_eq, not_false_eq_true, ite_true]
    exact ⟨_, _, rfl⟩

/-- C6, as stated, fails: with decode-any-value together with the disabled
trailing-content check, decoding the text `-0 1` succeeds with the integer 0. -/
theorem json_loads_minus_zero_one_accepted :
    json_loads plain_context (str "-0 1") any_value_no_eof_check =
      some (some (json_t.JSON_INTEGER 0), { reports := [], position := 2 }) :=
  json_result_identical_sound _ _ (by decide!)

/-- C6, amended: for every combination of mode flags other than decode-any-value
together with the disabled trailing-content check (and every context), decoding
the text `-0 1` fails. -/
theorem json_loads_minus_zero_one_rejected (ctx : json_context_t) (flags : load_flags)
    (hf : ¬ (flags.JSON_DECODE_ANY = true ∧ flags.JSON_DISABLE_EOF_CHECK = true)) :
    ∃ e, json_loads ctx (str "-0 1") flags = some (none, e) := by
  obtain ⟨lex1, e1, h⟩ := parse_json_minus_zero_one ctx flags
    (lex_init get_func.string_get (str "-0 1")) jsonp_error_init cursor_init hf
    (ready_init get_func.string_get (str "-0 1"))
  unfold json_loads
  rw [h]
  exact ⟨_, rfl⟩

theorem json_loads_minus_zero_one_rejected_witness :
    ∃ e, json_loads plain_context (str "-0 1") { no_flags with JSON_DECODE_ANY := true } =
      some (none, e) :=
  json_loads_minus_zero_one_rejected plain_context { no_flags with JSON_DECODE_ANY := true }
    (by decide)

/-- C1: the decoder accepts the four bytes `[`, `1`, NUL, `]` given to
`json_loadb` with no flags set, as the array `[1]`; the text is not a JSON
text. -/
theorem json_loadb_accepts_nul_after_number :
    json_loadb plain_context [91, 49, 0, 93] no_flags =
      some (some (json_t.JSON_ARRAY [json_t.JSON_INTEGER 1]), { reports := [], position := 3 }) :=
  json_result_identical_sound _ _ (by decide!)

/-- C5: for every context and every combination of flags, a numeral whose
integer part is a `0` directly followed by another digit `d` (after whitespace
`ws` and an optional sign `sg`) is rejected: `lex_scan` gives the invalid token
and reports "numbers may not have unnecessary leading zeros" with the text read
so far, and `parse_value` makes no value of that token. -/
theorem lex_scan_number_leading_zero_rejected (ctx : json_context_t) (flags : load_flags)
    (ws sg : List Nat) (d : Nat) (rest : List Nat) (lex : lex_t) (k : cursor) (e : json_error_t)
    (hws : all_space ws) (hsg : sign_part sg) (hd : 48 ≤ d ∧ d ≤ 57)
    (h : Ready lex.stream (ws ++ (sg ++ 48 :: d :: rest)) k) :
    ∃ lex1 e1, lex_scan ctx lex flags e = some (lex1, e1) ∧
      e1 = report_at e (k.steps (ws ++ (sg ++ [48])))
        (with_context (str "numbers may not have unnecessary leading zeros") (sg ++ [48])) ∧
      lex1.token = TOKEN_INVALID ∧
      ∀ n, ∃ e2, parse_value ctx flags (n + 1) lex1 e1 = some (none, lex1, e2) := by
  obtain ⟨lex1, h1, h2, _, _⟩ := lex_scan_leading_zero ctx flags ws sg d rest lex k e hws hsg hd h
  exact ⟨lex1, _, h1, rfl, h2, fun n => ⟨_, parse_value_invalid ctx flags n lex1 _ h2⟩⟩

theorem lex_scan_number_leading_zero_rejected_witness :
    ∃ lex1 e1, lex_scan plain_context (lex_init get_func.buffer_get (str "-012")) no_flags
        jsonp_error_init = some (lex1, e1) ∧
      e1 = report_at jsonp_error_init (cursor_init.steps ([] ++ ([45] ++ [48])))
        (with_context (str "numbers may not have unnecessary leading zeros") ([45] ++ [48])) ∧
      lex1.token = TOKEN_INVALID ∧
      ∀ n, ∃ e2, parse_value plain_context no_flags (n + 1) lex1 e1 = some (none, lex1, e2) :=
  lex_scan_number_leading_zero_rejected plain_context no_flags [] [45] 49 [50]
    (lex_init get_func.buffer_get (str "-012")) cursor_init jsonp_error_init
    (by intro b hb; cases hb) (Or.inr rfl) (by decide) (ready_init_buffer _ (by decide))

theorem lex_scan_integer_numeral_witness :
    ∃ lex1 e1, lex_scan plain_context (lex_init get_func.buffer_get (str "9223372036854775808"))
        no_flags jsonp_error_init = some (lex1, e1) ∧ lex1.token = TOKEN_INVALID ∧
      e1 = report_at jsonp_error_init { position := 19, line := 1, column := 19 }
        (str "too big integer near '9223372036854775808'") := by
  obtain ⟨lex1, e1, h1, _, _, h4⟩ := lex_scan_integer_numeral plain_context no_flags [] []
    (str "9223372036854775808") [] (lex_init get_func.buffer_get (str "9223372036854775808"))
    cursor_init jsonp_error_init (by intro b hb; cases hb) (Or.inl rfl)
    (Or.inr ⟨57, str "223372036854775808", rfl, by decide, by decide, by unfold all_digits; decide⟩)
    ⟨Or.inl rfl, rfl, by decide, by decide, by decide⟩
    (ready_init_buffer _ (by decide)) rfl
  have hv : ¬ (-(2 : Int) ^ 63 ≤ int_value [] (str "9223372036854775808") ∧
      int_value [] (str "9223372036854775808") ≤ (2 : Int) ^ 63 - 1) := by decide
  have hf : ¬ (no_flags.JSON_USE_BIGINT = true) := by decide
  simp only [hv, hf, ite_false] at h4
  refine ⟨lex1, e1, h1, h4.1, ?_⟩
  rw [h4.2]
  decide

theorem lex_scan_real_numeral_witness :
    ∃ lex1 e1, lex_scan plain_context (lex_init get_func.buffer_get (str "1.234567890123456789"))
        use_bigreal jsonp_error_init = some (lex1, e1) ∧ lex1.token = TOKEN_BIGREAL ∧
      lex1.value = lex_value.bigr
        (plain_context.bigreal_from_string_fn (str "1.234567890123456789")) ∧
      e1 = jsonp_error_init := by
  obtain ⟨lex1, e1, h1, _, _, h4⟩ := lex_scan_real_numeral plain_context use_bigreal [] []
    (str "1") (str ".234567890123456789") [] []
    (lex_init get_func.buffer_get (str "1.234567890123456789"))
    cursor_init jsonp_error_init (by intro b hb; cases hb) (Or.inl rfl)
    (Or.inr ⟨49, [], rfl, by decide, by decide, by intro x hx; cases hx⟩)
    (Or.inr ⟨str "234567890123456789", rfl, by decide, by unfold all_digits; decide⟩)
    (Or.inl rfl) (Or.inl (by decide))
    ⟨Or.inl rfl, rfl, by decide, by decide, by decide⟩
    (ready_init_buffer _ (by decide))
  have hc : use_bigreal.JSON_USE_BIGREAL_ALWAYS = true ∨
      (use_bigreal.JSON_USE_BIGREAL = true ∧
        jsonp_count_significand_digits ([] ++ str "1" ++ str ".234567890123456789") + 1 ≥
          DBL_DIG) ∨
      (use_bigreal.JSON_USE_BIGREAL = true ∧ (plain_context.jsonp_strtod
        ([] ++ str "1" ++ str ".234567890123456789" ++ [])).erange = true) :=
    Or.inr (Or.inl (by decide))
  rw [if_pos hc] at h4
  exact ⟨lex1, e1, h1, h4.1, h4.2.1, h4.2.2⟩

theorem lex_scan_number_grammar_witness :
    json_number (str "10") ∧
    ∃ lex1 e1, lex_scan plain_context (lex_init get_func.buffer_get (str "-12.5e+3,")) no_flags
        jsonp_error_init = some (lex1, e1) ∧ lex1.saved_text = str "-12.5e+3" ∧
      Ready lex1.stream (str ",") (cursor_init.steps (str "-12.5e+3")) ∧
      (((lex1.token = TOKEN_INTEGER ∨ lex1.token = TOKEN_REAL ∨
          lex1.token = TOKEN_BIGINTEGER ∨ lex1.token = TOKEN_BIGREAL) ∧ e1 = jsonp_error_init) ∨
       (lex1.token = TOKEN_INVALID ∧ ∃ msg, (msg = str "too big integer" ∨
          msg = str "too big negative integer" ∨ msg = str "real number overflow") ∧
          e1 = report_at jsonp_error_init (cursor_init.steps (str "-12.5e+3"))
            (with_context msg (str "-12.5e+3")))) :=
  ⟨(lex_scan_number_grammar plain_context no_flags).1
      (lex_get (lex_init get_func.buffer_get (str "10]")) jsonp_error_init).2.1 49
      jsonp_error_init
      { stream := { get := get_func.buffer_get, data := [], buffer := [93, 0, 0, 0, 0],
                    buffer_pos := 0, state := 0, line := 1, column := 2, last_column := 0,
                    position := 2 },
        saved_text := str "10", token := TOKEN_INTEGER, value := lex_value.integer 10 }
      jsonp_error_init (by decide!) (by decide!),
   (lex_scan_number_grammar plain_context no_flags).2 (str "-12.5e+3") (str ",")
      (lex_init get_func.buffer_get (str "-12.5e+3,")) cursor_init jsonp_error_init
      ⟨[45], str "12", str ".5", str "e+3", by decide, Or.inr rfl,
        Or.inr ⟨49, [50], rfl, by decide, by decide, by unfold all_digits; decide⟩,
        Or.inr ⟨[53], rfl, by decide, by unfold all_digits; decide⟩,
        Or.inr ⟨101, [43], [51], rfl, Or.inr rfl, Or.inr (Or.inl rfl), by decide,
          by unfold all_digits; decide⟩⟩
      (Or.inr ⟨44, [], rfl, by decide⟩) (ready_init_buffer _ (by decide))⟩

theorem decode_result_prepend (lex : lex_t) (t bs : List Nat) (e : json_error_t)
    (r : Except (List Nat) (List Nat)) :
    decode_result lex t e (prepend bs r) = decode_result lex (t ++ bs) e r := by
  cases r with
  | ok u => simp [prepend, decode_result]
  | error msg => rfl

theorem is_hex_char (h : Nat) (hh : is_hex h) : to_char (h : Int) = (h : Int) ∧ h < 128 := by
  unfold is_hex at hh
  unfold to_char
  omega

theorem decode_unicode_escape_step (n : Nat) (h : Nat) (s : List Nat) (v : Int) (hh : is_hex h) :
    decode_unicode_escape_loop (n + 1) (h :: s) v =
      decode_unicode_escape_loop n s (v * 16 + (hex_value h : Nat)) := by
  have hc := (is_hex_char h hh).1
  unfold is_hex at hh
  simp only [decode_unicode_escape_loop, List.headD_cons, hc, List.tail_cons, l_isdigit,
    l_islower, l_isupper, hex_value]
  by_cases h1 : h ≤ 57
  · have a1 : (48 : Int) ≤ (h : Int) := by omega
    have a2 : (h : Int) ≤ 57 := by omega
    have a3 : (((h - 48 : Nat)) : Int) = (h : Int) - 48 := by omega
    simp [h1, a1, a2, a3]
  · by_cases h2 : h ≤ 70
    · have a1 : ¬ ((h : Int) ≤ 57) := by omega
      have a2 : ¬ ((97 : Int) ≤ (h : Int)) := by omega
      have a3 : (65 : Int) ≤ (h : Int) := by omega
      have a4 : (h : Int) ≤ 90 := by omega
      have a5 : (((h - 55 : Nat)) : Int) = (h : Int) - 65 + 10 := by omega
      simp [h1, h2, a1, a2, a3, a4, a5]
    · have a1 : ¬ ((h : Int) ≤ 57) := by omega
      have a2 : (97 : Int) ≤ (h : Int) := by omega
      have a3 : (h : Int) ≤ 122 := by omega
      have a5 : (((h - 87 : Nat)) : Int) = (h : Int) - 97 + 10 := by omega
      simp [h1, h2, a1, a2, a3, a5]

theorem decode_unicode_escape_hex (h1 h2 h3 h4 : Nat) (s : List Nat)
    (hh : is_hex h1 ∧ is_hex h2 ∧ is_hex h3 ∧ is_hex h4) :
    decode_unicode_escape (117 :: h1 :: h2 :: h3 :: h4 :: s) = code_unit h1 h2 h3 h4 := by
  unfold decode_unicode_escape
  simp only [List.drop_succ_cons, List.drop_zero]
  rw [decode_unicode_escape_step _ _ _ _ hh.1, decode_unicode_escape_step _ _ _ _ hh.2.1,
    decode_unicode_escape_step _ _ _ _ hh.2.2.1, decode_unicode_escape_step _ _ _ _ hh.2.2.2]
  simp only [decode_unicode_escape_loop, code_unit]
  push_cast
  ring

theorem hex_value_lt (h : Nat) (hh : is_hex h) : hex_value h < 16 := by
  unfold is_hex at hh
  unfold hex_value
  split_ifs <;> omega

theorem code_unit_range (h1 h2 h3 h4 : Nat)
    (hh : is_hex h1 ∧ is_hex h2 ∧ is_hex h3 ∧ is_hex h4) :
    0 ≤ code_unit h1 h2 h3 h4 ∧ code_unit h1 h2 h3 h4 < 0x10000 := by
  have a1 := hex_value_lt h1 hh.1
  have a2 := hex_value_lt h2 hh.2.1
  have a3 := hex_value_lt h3 hh.2.2.1
  have a4 := hex_value_lt h4 hh.2.2.2
  unfold code_unit
  omega

theorem utf8_encode_some (v : Int) (h0 : 0 ≤ v) (h1 : v ≤ 0x10FFFF) :
    utf8_encode v = some (utf8_bytes v) := by
  unfold utf8_bytes utf8_encode
  have hn : ¬ (v < 0) := by omega
  simp only [hn, ite_false]
  split_ifs
  · rfl
  · rfl
  · rfl
  · rfl
  · omega

theorem lex_scan_string_decode_quote (lex : lex_t) (n : Nat) (tail t : List Nat)
    (e : json_error_t) :
    lex_scan_string_decode lex (n + 1) (34 :: tail) t e = some (some t, e) := by
  simp [lex_scan_string_decode]

theorem lex_scan_string_decode_byte (lex : lex_t) (n : Nat) (b : Nat) (p t : List Nat)
    (e : json_error_t) (hb : b ≠ 34 ∧ b ≠ 92) :
    lex_scan_string_decode lex (n + 1) (b :: p) t e =
      lex_scan_string_decode lex n p (t ++ [b]) e := by
  simp [lex_scan_string_decode, lex_scan_string_decode_body, hb.1, hb.2]

theorem lex_scan_string_decode_lit (lex : lex_t) (e : json_error_t) :
    ∀ (bs : List Nat), (∀ b ∈ bs, b ≠ 34 ∧ b ≠ 92) → ∀ (n : Nat) (p t : List Nat),
      lex_scan_string_decode lex (n + bs.length) (bs ++ p) t e =
        lex_scan_string_decode lex n p (t ++ bs) e := by
  intro bs
  induction bs with
  | nil => intro _ n p t; simp
  | cons b bs ih =>
    intro hbs n p t
    have hb := hbs b (List.mem_cons_self _ _)
    have hbs1 : ∀ x ∈ bs, x ≠ 34 ∧ x ≠ 92 := fun x hx => hbs x (List.mem_cons_of_mem _ hx)
    rw [List.length_cons, ← Nat.add_assoc, List.cons_append,
      lex_scan_string_decode_byte lex _ b _ t e hb, ih hbs1 n p (t ++ [b])]
    simp

theorem lex_scan_string_shortcut_eq (c : Nat) (hc : is_shortcut c) :
    lex_scan_string_shortcut c = some (shortcut_byte c) ∧ c ≠ 117 := by
  unfold is_shortcut at hc
  rcases hc with h | h | h | h | h | h | h | h <;> subst h <;> decide

theorem lex_scan_string_decode_shortcut (lex : lex_t) (n : Nat) (c : Nat) (p t : List Nat)
    (e : json_error_t) (hc : is_shortcut c) :
    lex_scan_string_decode lex (n + 1) (92 :: c :: p) t e =
      lex_scan_string_decode lex n p (t ++ [shortcut_byte c]) e := by
  obtain ⟨h1, h2⟩ := lex_scan_string_shortcut_eq c hc
  simp [lex_scan_string_decode, lex_scan_string_decode_body, h1, h2]

theorem lex_scan_string_decode_unicode (lex : lex_t) (n : Nat) (h1 h2 h3 h4 : Nat)
    (p t : List Nat) (e : json_error_t)
    (hh : is_hex h1 ∧ is_hex h2 ∧ is_hex h3 ∧ is_hex h4)
    (hs : ¬ (0xD800 ≤ code_unit h1 h2 h3 h4 ∧ code_unit h1 h2 h3 h4 ≤ 0xDBFF))
    (hl : ¬ (0xDC00 ≤ code_unit h1 h2 h3 h4 ∧ code_unit h1 h2 h3 h4 ≤ 0xDFFF)) :
    lex_scan_string_decode lex (n + 1) (92 :: 117 :: h1 :: h2 :: h3 :: h4 :: p) t e =
      lex_scan_string_decode lex n p (t ++ utf8_bytes (code_unit h1 h2 h3 h4)) e := by
  obtain ⟨r0, r1⟩ := code_unit_range h1 h2 h3 h4 hh
  have hv := decode_unicode_escape_hex h1 h2 h3 h4 p hh
  have hu := utf8_encode_some (code_unit h1 h2 h3 h4) r0 (by omega)
  have hn : ¬ (code_unit h1 h2 h3 h4 < 0) := by omega
  simp only [lex_scan_string_decode, lex_scan_string_decode_body, List.headD_cons, hv, hn, hs, hl, hu, ite_false, ite_true,
    show ((92 : Nat) = 34) = False by decide, List.drop_succ_cons, List.drop_zero]

theorem lex_scan_string_decode_low (lex : lex_t) (n : Nat) (h1 h2 h3 h4 : Nat)
    (p t : List Nat) (e : json_error_t)
    (hh : is_hex h1 ∧ is_hex h2 ∧ is_hex h3 ∧ is_hex h4)
    (hl : 0xDC00 ≤ code_unit h1 h2 h3 h4 ∧ code_unit h1 h2 h3 h4 ≤ 0xDFFF) :
    lex_scan_string_decode lex (n + 1) (92 :: 117 :: h1 :: h2 :: h3 :: h4 :: p) t e =
      some (none, error_set e (some lex)
        (str "invalid Unicode '\\u" ++ fmt_04X (code_unit h1 h2 h3 h4) ++ str "'")) := by
  have hv := decode_unicode_escape_hex h1 h2 h3 h4 p hh
  have hn : ¬ (code_unit h1 h2 h3 h4 < 0) := by omega
  have hs : ¬ (0xD800 ≤ code_unit h1 h2 h3 h4 ∧ code_unit h1 h2 h3 h4 ≤ 0xDBFF) := by omega
  simp only [lex_scan_string_decode, lex_scan_string_decode_body, List.headD_cons, hv, hn, hs, hl, ite_false, ite_true,
    show ((92 : Nat) = 34) = False by decide, and_self]

theorem lex_scan_string_decode_high_alone (lex : lex_t) (n : Nat) (h1 h2 h3 h4 : Nat)
    (p t : List Nat) (e : json_error_t)
    (hh : is_hex h1 ∧ is_hex h2 ∧ is_hex h3 ∧ is_hex h4)
    (hs : 0xD800 ≤ code_unit h1 h2 h3 h4 ∧ code_unit h1 h2 h3 h4 ≤ 0xDBFF)
    (hp : ¬ (p.headD 0 = 92 ∧ p.tail.headD 0 = 117)) :
    lex_scan_string_decode lex (n + 1) (92 :: 117 :: h1 :: h2 :: h3 :: h4 :: p) t e =
      some (none, error_set e (some lex)
        (str "invalid Unicode '\\u" ++ fmt_04X (code_unit h1 h2 h3 h4) ++ str "'")) := by
  have hv := decode_unicode_escape_hex h1 h2 h3 h4 p hh
  have hn : ¬ (code_unit h1 h2 h3 h4 < 0) := by omega
  simp only [lex_scan_string_decode, lex_scan_string_decode_body, List.headD_cons, hv, hn, hs, hp, ite_false, ite_true,
    show ((92 : Nat) = 34) = False by decide, and_self, List.drop_succ_cons, List.drop_zero]

theorem lex_scan_string_decode_pair (lex : lex_t) (n : Nat) (h1 h2 h3 h4 l1 l2 l3 l4 : Nat)
    (p t : List Nat) (e : json_error_t)
    (hh : is_hex h1 ∧ is_hex h2 ∧ is_hex h3 ∧ is_hex h4)
    (hl : is_hex l1 ∧ is_hex l2 ∧ is_hex l3 ∧ is_hex l4)
    (hs : 0xD800 ≤ code_unit h1 h2 h3 h4 ∧ code_unit h1 h2 h3 h4 ≤ 0xDBFF) :
    lex_scan_string_decode lex (n + 1)
        (92 :: 117 :: h1 :: h2 :: h3 :: h4 :: 92 :: 117 :: l1 :: l2 :: l3 :: l4 :: p) t e =
      if 0xDC00 ≤ code_unit l1 l2 l3 l4 ∧ code_unit l1 l2 l3 l4 ≤ 0xDFFF then
        lex_scan_string_decode lex n p (t ++ utf8_bytes (0x10000 +
          (code_unit h1 h2 h3 h4 - 0xD800) * 1024 + (code_unit l1 l2 l3 l4 - 0xDC00))) e
      else
        some (none, error_set e (some lex)
          (str "invalid Unicode '\\u" ++ fmt_04X (code_unit h1 h2 h3 h4) ++ str "\\u" ++
            fmt_04X (code_unit l1 l2 l3 l4) ++ str "'")) := by
  obtain ⟨r0, r1⟩ := code_unit_range l1 l2 l3 l4 hl
  have hv := decode_unicode_escape_hex h1 h2 h3 h4
    (92 :: 117 :: l1 :: l2 :: l3 :: l4 :: p) hh
  have hv2 := decode_unicode_escape_hex l1 l2 l3 l4 p hl
  have hn : ¬ (code_unit h1 h2 h3 h4 < 0) := by omega
  have hn2 : ¬ (code_unit l1 l2 l3 l4 < 0) := by omega
  by_cases hlow : 0xDC00 ≤ code_unit l1 l2 l3 l4 ∧ code_unit l1 l2 l3 l4 ≤ 0xDFFF
  · have hu := utf8_encode_some (0x10000 +
      (code_unit h1 h2 h3 h4 - 0xD800) * 1024 + (code_unit l1 l2 l3 l4 - 0xDC00))
      (by omega) (by omega)
    have hu2 : (code_unit h1 h2 h3 h4 - 0xD800) * 1024 + (code_unit l1 l2 l3 l4 - 0xDC00) +
        0x10000 = 0x10000 + (code_unit h1 h2 h3 h4 - 0xD800) * 1024 +
          (code_unit l1 l2 l3 l4 - 0xDC00) := by ring
    simp only [lex_scan_string_decode, lex_scan_string_decode_body, List.headD_cons, hv, hn, hs, List.tail_cons, hv2, hn2,
      hlow, hu2, hu, ite_false, ite_true, show ((92 : Nat) = 34) = False by decide, and_self,
      List.drop_succ_cons, List.drop_zero]
  · simp only [lex_scan_string_decode, lex_scan_string_decode_body, List.headD_cons, hv, hn, hs, List.tail_cons, hv2, hn2,
      hlow, ite_false, ite_true, show ((92 : Nat) = 34) = False by decide, and_self,
      List.drop_succ_cons, List.drop_zero]

theorem string_item.ok_of_mem {items : List string_item} {i : string_item}
    {rest : List string_item} (h : ∀ j ∈ i :: rest, j.ok) (_ : items = i :: rest) :
    i.ok ∧ ∀ j ∈ rest, j.ok :=
  ⟨h i (List.mem_cons_self _ _), fun j hj => h j (List.mem_cons_of_mem _ hj)⟩

theorem unescape_unicode (h1 h2 h3 h4 : Nat) (rest : List string_item)
    (hs : ¬ (0xD800 ≤ code_unit h1 h2 h3 h4 ∧ code_unit h1 h2 h3 h4 ≤ 0xDBFF))
    (hl : ¬ (0xDC00 ≤ code_unit h1 h2 h3 h4 ∧ code_unit h1 h2 h3 h4 ≤ 0xDFFF)) :
    unescape (.unicode h1 h2 h3 h4 :: rest) =
      prepend (utf8_bytes (code_unit h1 h2 h3 h4)) (unescape rest) := by
  cases rest with
  | nil => simp only [unescape, hs, hl, ite_false]
  | cons j rest1 => cases j <;> simp only [unescape, hs, hl, ite_false]

theorem unescape_low (h1 h2 h3 h4 : Nat) (rest : List string_item)
    (hl : 0xDC00 ≤ code_unit h1 h2 h3 h4 ∧ code_unit h1 h2 h3 h4 ≤ 0xDFFF) :
    unescape (.unicode h1 h2 h3 h4 :: rest) =
      .error (str "invalid Unicode '\\u" ++ fmt_04X (code_unit h1 h2 h3 h4) ++ str "'") := by
  have hs : ¬ (0xD800 ≤ code_unit h1 h2 h3 h4 ∧ code_unit h1 h2 h3 h4 ≤ 0xDBFF) := by omega
  cases rest with
  | nil => simp only [unescape, hs, hl, and_self, ite_true, ite_false]
  | cons j rest1 => cases j <;> simp only [unescape, hs, hl, and_self, ite_true, ite_false]

/-- The second pass of `lex_scan_string` on the text of well-formed elements
followed by the closing quote computes the reference unescaping. -/
theorem lex_scan_string_decode_items (lex : lex_t) (e : json_error_t) (tail : List Nat) :
    ∀ (m : Nat) (items : List string_item), items.length ≤ m → (∀ i ∈ items, i.ok) →
      ∀ (fuel : Nat) (t : List Nat), (string_text items).length < fuel →
        lex_scan_string_decode lex fuel (string_text items ++ 34 :: tail) t e =
          decode_result lex t e (unescape items) := by
  intro m
  induction m with
  | zero =>
    intro items hlen _ fuel t hf
    have : items = [] := List.length_eq_zero.mp (Nat.le_zero.mp hlen)
    subst this
    obtain ⟨n, rfl⟩ : ∃ n, fuel = n + 1 := ⟨fuel - 1, by omega⟩
    simp [string_text, lex_scan_string_decode_quote, unescape, decode_result]
  | succ m ih =>
    intro items hlen hok fuel t hf
    cases items with
    | nil =>
      obtain ⟨n, rfl⟩ : ∃ n, fuel = n + 1 := ⟨fuel - 1, by omega⟩
      simp [string_text, lex_scan_string_decode_quote, unescape, decode_result]
    | cons i rest =>
      obtain ⟨hi, hrest⟩ := string_item.ok_of_mem hok rfl
      have hlen1 : rest.length ≤ m := by simp at hlen; omega
      cases i with
      | lit bs =>
        simp only [string_text, string_item.text, List.length_append] at hf ⊢
        obtain ⟨n, rfl⟩ : ∃ n, fuel = n + bs.length := ⟨fuel - bs.length, by omega⟩
        rw [List.append_assoc, lex_scan_string_decode_lit lex e bs hi.2 n _ t,
          ih rest hlen1 hrest n (t ++ bs) (by omega)]
        simp only [unescape, decode_result_prepend]
      | shortcut c =>
        simp only [string_text, string_item.text, List.length_append, List.length_cons,
          List.length_nil, List.cons_append, List.nil_append] at hf ⊢
        obtain ⟨n, rfl⟩ : ∃ n, fuel = n + 1 := ⟨fuel - 1, by omega⟩
        rw [lex_scan_string_decode_shortcut lex n c _ t e hi,
          ih rest hlen1 hrest n _ (by omega)]
        simp only [unescape, decode_result_prepend]
      | unicode h1 h2 h3 h4 =>
        simp only [string_text, string_item.text, List.length_append, List.length_cons,
          List.length_nil, List.cons_append, List.nil_append] at hf ⊢
        obtain ⟨n, rfl⟩ : ∃ n, fuel = n + 1 := ⟨fuel - 1, by omega⟩
        by_cases hs : 0xD800 ≤ code_unit h1 h2 h3 h4 ∧ code_unit h1 h2 h3 h4 ≤ 0xDBFF
        · -- a high surrogate
          cases rest with
          | nil =>
            rw [lex_scan_string_decode_high_alone lex n h1 h2 h3 h4 _ t e hi hs (by
              simp [string_text])]
            simp only [unescape, hs, and_self, ite_true, decode_result]
          | cons j rest1 =>
            obtain ⟨hj, hrest1⟩ := string_item.ok_of_mem hrest rfl
            cases j with
            | lit bs =>
              obtain ⟨hne, hb⟩ := hj
              cases bs with
              | nil => exact absurd rfl hne
              | cons b bs1 =>
                have hb1 := hb b (List.mem_cons_self _ _)
                rw [lex_scan_string_decode_high_alone lex n h1 h2 h3 h4 _ t e hi hs (by
                  simp [string_text, string_item.text, hb1.2])]
                simp only [unescape, hs, and_self, ite_true, decode_result]
            | shortcut c =>
              have hc := (lex_scan_string_shortcut_eq c hj).2
              rw [lex_scan_string_decode_high_alone lex n h1 h2 h3 h4 _ t e hi hs (by
                simp [string_text, string_item.text, hc])]
              simp only [unescape, hs, and_self, ite_true, decode_result]
            | unicode l1 l2 l3 l4 =>
              simp only [string_text, string_item.text, List.length_append, List.length_cons,
                List.length_nil, List.cons_append, List.nil_append] at hf ⊢
              rw [lex_scan_string_decode_pair lex n h1 h2 h3 h4 l1 l2 l3 l4 _ t e hi hj hs]
              by_cases hl : 0xDC00 ≤ code_unit l1 l2 l3 l4 ∧ code_unit l1 l2 l3 l4 ≤ 0xDFFF
              · rw [if_pos hl, ih rest1 (by simp at hlen; omega) hrest1 n _ (by omega)]
                simp only [unescape, hs, hl, and_self, ite_true, decode_result_prepend]
              · rw [if_neg hl]
                simp only [unescape, hs, hl, and_self, ite_true, ite_false, decode_result]
        · by_cases hl : 0xDC00 ≤ code_unit h1 h2 h3 h4 ∧ code_unit h1 h2 h3 h4 ≤ 0xDFFF
          · rw [lex_scan_string_decode_low lex n h1 h2 h3 h4 _ t e hi hl,
              unescape_low h1 h2 h3 h4 rest hl]
            rfl
          · rw [lex_scan_string_decode_unicode lex n h1 h2 h3 h4 _ t e hi hs hl,
              ih rest hlen1 hrest n _ (by omega), unescape_unicode h1 h2 h3 h4 rest hs hl,
              decode_result_prepend]

theorem to_char_is_char (c : Int) : is_char (to_char c) := by
  unfold is_char to_char; omega

theorem is_char_set (buffer : List Int) (i : Nat) (v : Int) (h : ∀ c ∈ buffer, is_char c)
    (hv : is_char v) : ∀ c ∈ buffer.set i v, is_char c := by
  intro c hc
  rcases List.mem_or_eq_of_mem_set hc with h1 | h1
  · exact h c h1
  · rw [h1]; exact hv

theorem is_char_getD (buffer : List Int) (i : Nat) (h : ∀ c ∈ buffer, is_char c) :
    is_char (buffer.getD i 0) := by
  rw [getD_eq_headD_drop]
  cases hd : buffer.drop i with
  | nil => simp [is_char]
  | cons x xs =>
    have : x ∈ buffer := List.mem_of_mem_drop (by rw [hd]; exact List.mem_cons_self _ _)
    simpa using h x this

theorem stream_get_rest_is_char :
    ∀ (n i : Nat) (g : get_func) (d : List Nat) (buffer : List Int),
      (∀ c ∈ buffer, is_char c) → ∀ c ∈ (stream_get_rest n i g d buffer).1, is_char c := by
  intro n
  induction n with
  | zero => intro i g d buffer h; simpa [stream_get_rest] using h
  | succ n ih =>
    intro i g d buffer h
    simp only [stream_get_rest]
    exact ih _ _ _ _ (is_char_set _ _ _ h (to_char_is_char _))

theorem stream_get_next_wf (lex : lex_t) (e : json_error_t) (h : lex.stream.wf) :
    (stream_get_next lex e).2.1.stream.wf ∧ is_char (stream_get_next lex e).1 := by
  rw [stream_get_next_eq]
  exact ⟨⟨h.1, h.2⟩, is_char_getD _ _ h.1⟩

theorem stream_get_wf (lex : lex_t) (e : json_error_t) (h : lex.stream.wf) :
    (stream_get lex e).2.1.stream.wf ∧ is_char (stream_get lex e).1 := by
  obtain ⟨hb, hs⟩ := h
  have h0 : is_char 0 := by simp [is_char]
  have hE : is_char STREAM_STATE_EOF := by simp [is_char, STREAM_STATE_EOF]
  have hR : is_char STREAM_STATE_ERROR := by simp [is_char, STREAM_STATE_ERROR]
  unfold stream_get stream_get_out
  simp only
  split_ifs with h1 h2 h3 h4 h5 h6
  · refine ⟨⟨hb, hs⟩, ?_⟩
    rcases hs with hs | hs | hs
    · exact absurd hs h1
    · rw [hs]; exact hE
    · rw [hs]; exact hR
  · exact ⟨⟨hb, Or.inr (Or.inl rfl)⟩, hE⟩
  · exact ⟨⟨is_char_set _ _ _ hb (to_char_is_char _), Or.inr (Or.inr rfl)⟩, hR⟩
  · exact ⟨⟨stream_get_rest_is_char _ _ _ _ _ (is_char_set _ _ _ hb (to_char_is_char _)),
      Or.inr (Or.inr rfl)⟩, hR⟩
  · apply stream_get_next_wf
    exact ⟨is_char_set _ _ _ (stream_get_rest_is_char _ _ _ _ _
      (is_char_set _ _ _ hb (to_char_is_char _))) h0, Or.inl (by simpa using h1)⟩
  · apply stream_get_next_wf
    exact ⟨is_char_set _ _ _ (is_char_set _ _ _ hb (to_char_is_char _)) h0,
      Or.inl (by simpa using h1)⟩
  · exact stream_get_next_wf lex e ⟨hb, hs⟩

theorem lex_get_save_wf (lex : lex_t) (e : json_error_t) (h : lex.stream.wf) :
    (lex_get_save lex e).2.1.stream.wf ∧ is_char (lex_get_save lex e).1 := by
  have := stream_get_wf lex e h
  unfold lex_get_save
  simp only
  split_ifs
  · exact this
  · exact this

theorem saved_of_char (c : Int) (hc : is_char c) (h1 : c ≠ STREAM_STATE_EOF)
    (h2 : c ≠ STREAM_STATE_ERROR) :
    saved_of c = [to_uchar c] ∧ to_uchar c < 254 ∧ (0 ≤ c → (to_uchar c : Int) = c) ∧
      (c < 0 → 128 ≤ to_uchar c) := by
  unfold is_char at hc
  simp only [STREAM_STATE_EOF, STREAM_STATE_ERROR] at h1 h2
  refine ⟨?_, ?_, ?_, ?_⟩
  · unfold saved_of
    simp [STREAM_STATE_EOF, STREAM_STATE_ERROR, h1, h2]
  all_goals (unfold to_uchar; omega)

theorem string_text_append (a b : List string_item) :
    string_text (a ++ b) = string_text a ++ string_text b := by
  induction a with
  | nil => rfl
  | cons i a ih => simp [string_text, ih]

theorem xdigit_saved (c : Int) (h : l_isxdigit c = true) : ∃ b, is_hex b ∧ saved_of c = [b] := by
  unfold l_isxdigit l_isdigit at h
  simp only [Bool.or_eq_true, Bool.and_eq_true, decide_eq_true_eq] at h
  refine ⟨to_uchar c, ?_, ?_⟩
  · unfold is_hex to_uchar; omega
  · unfold saved_of
    have : ¬ (c = STREAM_STATE_EOF ∨ c = STREAM_STATE_ERROR) := by
      simp only [STREAM_STATE_EOF, STREAM_STATE_ERROR]; omega
    simp only [this, ite_false]

theorem lex_scan_string_hex_sound :
    ∀ (n : Nat) (lex : lex_t) (c : Int) (e : json_error_t) (T : List Nat) (c1 : Int)
      (lex2 : lex_t) (e2 : json_error_t),
      lex.stream.wf → lex.saved_text = T ++ saved_of c →
      lex_scan_string_hex n lex c e = (some c1, lex2, e2) →
      ∃ hs, hs.length = n ∧ (∀ h ∈ hs, is_hex h) ∧ lex2.saved_text = T ++ hs ++ saved_of c1 ∧
        lex2.stream.wf ∧ (n = 0 ∨ is_char c1) := by
  intro n
  induction n with
  | zero =>
    intro lex c e T c1 lex2 e2 hwf hsv h
    simp only [lex_scan_string_hex, Prod.mk.injEq, Option.some.injEq] at h
    obtain ⟨h1, h2, _⟩ := h
    subst h1; subst h2
    exact ⟨[], rfl, fun h hh => (by cases hh), by simpa using hsv, hwf, Or.inl rfl⟩
  | succ n ih =>
    intro lex c e T c1 lex2 e2 hwf hsv h
    simp only [lex_scan_string_hex] at h
    by_cases hx : l_isxdigit c = true
    · simp only [hx, Bool.true_eq_false, ite_false] at h
      obtain ⟨b, hb, hsb⟩ := xdigit_saved c hx
      have hs := lex_get_save_saved lex e
      rw [hsv, hsb] at hs
      obtain ⟨hwf1, hc1⟩ := lex_get_save_wf lex e hwf
      obtain ⟨hs1, hl, hh, hsv2, hwf2, hc2⟩ := ih _ _ _ (T ++ [b]) c1 lex2 e2 hwf1 hs h
      refine ⟨b :: hs1, by simp [hl], ?_, by simpa using hsv2, hwf2, Or.inr ?_⟩
      · intro x hx'
        rcases List.mem_cons.mp hx' with h' | h'
        · rw [h']; exact hb
        · exact hh x h'
      · rcases hc2 with h0 | h0
        · subst h0
          simp only [lex_scan_string_hex, Prod.mk.injEq, Option.some.injEq] at h
          rw [← h.1]; exact hc1
        · exact h0
    · have hx' : l_isxdigit c = false := by simpa using hx
      simp [hx'] at h

theorem length_four (l : List Nat) (h : l.length = 4) : ∃ a b c d, l = [a, b, c, d] := by
  match l, h with
  | [a, b, c, d], _ => exact ⟨a, b, c, d, rfl⟩

theorem lex_scan_string_body_sound (lex : lex_t) (c : Int) (e : json_error_t) (T : List Nat)
    (c1 : Int) (lex2 : lex_t) (e2 : json_error_t)
    (hwf : lex.stream.wf) (hc : is_char c) (hq : c ≠ 34)
    (hsv : lex.saved_text = T ++ saved_of c)
    (h : lex_scan_string_body lex c e = (some c1, lex2, e2)) :
    ∃ i : string_item, i.ok ∧ lex2.saved_text = T ++ i.text ++ saved_of c1 ∧
      lex2.stream.wf ∧ is_char c1 := by
  unfold lex_scan_string_body at h
  by_cases h1 : c = STREAM_STATE_ERROR
  · simp [h1] at h
  by_cases h2 : c = STREAM_STATE_EOF
  · simp [h2, STREAM_STATE_EOF, STREAM_STATE_ERROR] at h
  by_cases h3 : 0 ≤ c ∧ c ≤ 0x1F
  · simp only [h1, h2, h3, and_self, ite_true, ite_false] at h
    split_ifs at h <;> simp at h
  simp only [h1, h2, h3, ite_false] at h
  obtain ⟨hsc, hlt, hpos, hneg⟩ := saved_of_char c hc h2 h1
  by_cases h4 : c = 92
  · simp only [h4, ite_true] at h
    have hs1 := lex_get_save_saved lex e
    obtain ⟨hwf1, hc1⟩ := lex_get_save_wf lex e hwf
    rw [hsv, saved_of_ascii c 92 h4 (by omega)] at hs1
    generalize lex_get_save lex e = q at h hs1 hwf1 hc1
    obtain ⟨c2, lexa, ea⟩ := q
    simp only at h hs1 hwf1 hc1
    by_cases h5 : c2 = 117
    · simp only [h5, ite_true] at h
      rw [saved_of_ascii c2 117 h5 (by omega)] at hs1
      have hs2 := lex_get_save_saved lexa ea
      obtain ⟨hwf2, hc2⟩ := lex_get_save_wf lexa ea hwf1
      rw [hs1] at hs2
      obtain ⟨hs, hl, hh, hsv3, hwf3, hc3⟩ := lex_scan_string_hex_sound 4 _ _ _
        (T ++ [92] ++ [117]) c1 lex2 e2 hwf2 hs2 h
      obtain ⟨a, b, c', d, rfl⟩ := length_four hs hl
      refine ⟨.unicode a b c' d, ⟨hh a (by simp), hh b (by simp), hh c' (by simp),
        hh d (by simp)⟩, by simpa [string_item.text] using hsv3, hwf3, ?_⟩
      rcases hc3 with h0 | h0
      · cases h0
      · exact h0
    · simp only [h5, ite_false] at h
      by_cases h6 : c2 = 34 ∨ c2 = 92 ∨ c2 = 47 ∨ c2 = 98 ∨ c2 = 102 ∨ c2 = 110 ∨ c2 = 114 ∨
          c2 = 116
      · simp only [h6, ite_true, Prod.mk.injEq, Option.some.injEq] at h
        obtain ⟨hb, hsb, hb2⟩ : ∃ b : Nat, c2 = (b : Int) ∧ is_shortcut b := by
          refine ⟨c2.toNat, ?_, ?_⟩
          · omega
          · unfold is_shortcut; omega
        have hs2 := lex_get_save_saved lexa ea
        obtain ⟨hwf2, hc2⟩ := lex_get_save_wf lexa ea hwf1
        rw [hs1, saved_of_ascii c2 hb hsb (by unfold is_shortcut at hb2; omega)] at hs2
        obtain ⟨e1, e2', _⟩ := h
        subst e1; subst e2'
        exact ⟨.shortcut hb, hb2, by simpa [string_item.text] using hs2, hwf2, hc2⟩
      · simp [h6] at h
  · simp only [h4, ite_false, Prod.mk.injEq, Option.some.injEq] at h
    have hs1 := lex_get_save_saved lex e
    obtain ⟨hwf1, hc1⟩ := lex_get_save_wf lex e hwf
    rw [hsv, hsc] at hs1
    obtain ⟨e1, e2', _⟩ := h
    subst e1; subst e2'
    refine ⟨.lit [to_uchar c], ⟨by simp, ?_⟩, by simpa [string_item.text] using hs1, hwf1, hc1⟩
    intro b hb
    simp only [List.mem_singleton] at hb
    subst hb
    by_cases hn : 0 ≤ c
    · have := hpos hn
      omega
    · have := hneg (by omega)
      omega

/-- The first pass of `lex_scan_string` on any input: when the loop ends at a
quote, the saved text is the opening quote, the text of well-formed elements
and the closing quote. -/
theorem lex_scan_string_loop_sound :
    ∀ (fuel : Nat) (lex : lex_t) (c : Int) (e : json_error_t) (items : List string_item)
      (lex1 : lex_t) (e1 : json_error_t),
      lex.stream.wf → is_char c → (∀ i ∈ items, i.ok) →
      lex.saved_text = 34 :: string_text items ++ saved_of c →
      lex_scan_string_loop fuel lex c e = some (true, lex1, e1) →
      ∃ items1, (∀ i ∈ items1, i.ok) ∧ lex1.saved_text = 34 :: string_text items1 ++ [34] := by
  intro fuel
  induction fuel with
  | zero => intro lex c e items lex1 e1 _ _ _ _ h; simp [lex_scan_string_loop] at h
  | succ n ih =>
    intro lex c e items lex1 e1 hwf hc hok hsv h
    simp only [lex_scan_string_loop] at h
    by_cases hq : c = 34
    · simp only [hq, ite_true, Option.some.injEq, Prod.mk.injEq, true_and] at h
      obtain ⟨h1, _⟩ := h
      subst h1
      refine ⟨items, hok, ?_⟩
      rw [hsv, saved_of_ascii c 34 hq (by omega)]
    · simp only [hq, ite_false] at h
      generalize hb : lex_scan_string_body lex c e = q at h
      obtain ⟨oc, lex2, e2⟩ := q
      cases oc with
      | none => simp at h
      | some c1 =>
        simp only at h
        obtain ⟨i, hi, hsv2, hwf2, hc2⟩ := lex_scan_string_body_sound lex c e
          (34 :: string_text items) c1 lex2 e2 hwf hc hq hsv hb
        apply ih lex2 c1 e2 (items ++ [i]) lex1 e1 hwf2 hc2 _ _ h
        · intro j hj
          rcases List.mem_append.mp hj with h' | h'
          · exact hok j h'
          · simp only [List.mem_singleton] at h'
            rw [h']; exact hi
        · rw [hsv2, string_text_append]
          simp [string_text]

theorem lex_get_save_token (lex : lex_t) (e : json_error_t) :
    (lex_get_save lex e).2.1.token = lex.token := by
  have h := (stream_get_same lex e).token
  unfold lex_get_save
  simp only
  split_ifs
  · exact h
  · exact h

theorem lex_unget_unsave_token (lex : lex_t) (c : Int) :
    (lex_unget_unsave lex c).token = lex.token := by
  unfold lex_unget_unsave
  split_ifs <;> rfl

theorem lex_scan_string_hex_token :
    ∀ (n : Nat) (lex : lex_t) (c : Int) (e : json_error_t),
      (lex_scan_string_hex n lex c e).2.1.token = lex.token := by
  intro n
  induction n with
  | zero => intro lex c e; rfl
  | succ n ih =>
    intro lex c e
    simp only [lex_scan_string_hex]
    split_ifs
    · rfl
    · rw [ih, lex_get_save_token]

theorem lex_scan_string_body_token (lex : lex_t) (c : Int) (e : json_error_t) :
    (lex_scan_string_body lex c e).2.1.token = lex.token := by
  unfold lex_scan_string_body
  simp only
  split_ifs <;>
    simp only [lex_scan_string_hex_token, lex_get_save_token, lex_unget_unsave_token]

theorem lex_scan_string_loop_token :
    ∀ (fuel : Nat) (lex : lex_t) (c : Int) (e : json_error_t) (b : Bool) (lex1 : lex_t)
      (e1 : json_error_t),
      lex_scan_string_loop fuel lex c e = some (b, lex1, e1) → lex1.token = lex.token := by
  intro fuel
  induction fuel with
  | zero => intro lex c e b lex1 e1 h; simp [lex_scan_string_loop] at h
  | succ n ih =>
    intro lex c e b lex1 e1 h
    simp only [lex_scan_string_loop] at h
    by_cases hq : c = 34
    · simp only [hq, ite_true, Option.some.injEq, Prod.mk.injEq] at h
      rw [← h.2.1]
    · simp only [hq, ite_false] at h
      have ht := lex_scan_string_body_token lex c e
      generalize lex_scan_string_body lex c e = q at h ht
      obtain ⟨oc, lex2, e2⟩ := q
      cases oc with
      | none =>
        simp only [Option.some.injEq, Prod.mk.injEq] at h
        rw [← h.2.1]; exact ht
      | some c1 =>
        simp only at h ht
        rw [ih lex2 c1 e2 b lex1 e1 h, ht]

/-- C7: for every string literal that `lex_scan_string` accepts (called as
`lex_scan` calls it, the opening quote just saved, and giving the string
token), the saved text is the opening quote, the text of well-formed elements
(literal bytes, shortcut escapes, `\uXXXX` escapes) and the closing quote, and
the payload of the token is the reference unescaping of these elements: literal
bytes copied unchanged, `\" \\ \/ \b \f \n \r \t` as the bytes 0x22 0x5C 0x2F
0x08 0x0C 0x0A 0x0D 0x09, a `\uXXXX` that is no surrogate as the UTF-8 encoding
of its code point, a high surrogate escape `h` followed by a low surrogate
escape `l` as the UTF-8 encoding of `0x10000 + (h - 0xD800) * 1024 +
(l - 0xDC00)`. -/
theorem lex_scan_string_unescapes (lex : lex_t) (e : json_error_t) (lex1 : lex_t)
    (e1 : json_error_t) (hwf : lex.stream.wf) (hsv : lex.saved_text = [34])
    (h : lex_scan_string lex e = some (lex1, e1)) (htok : lex1.token = TOKEN_STRING) :
    ∃ items payload, (∀ i ∈ items, i.ok) ∧
      lex1.saved_text = 34 :: string_text items ++ [34] ∧
      unescape items = .ok payload ∧ lex1.value = lex_value.string (some payload) := by
  unfold lex_scan_string at h
  simp only at h
  generalize hL : ({ lex with value := lex_value.string none, token := TOKEN_INVALID } : lex_t)
    = L at h
  have hLs : L.saved_text = [34] := by rw [← hL]; exact hsv
  have hLw : L.stream.wf := by rw [← hL]; exact hwf
  have hLt : L.token = TOKEN_INVALID := by rw [← hL]
  have hs0 := lex_get_save_saved L e
  have ht0 := lex_get_save_token L e
  obtain ⟨hwf0, hc0⟩ := lex_get_save_wf L e hLw
  generalize lex_get_save L e = q at h hs0 ht0 hwf0 hc0
  obtain ⟨c, lexa, ea⟩ := q
  simp only at h hs0 ht0 hwf0 hc0
  rw [hLs] at hs0
  rw [hLt] at ht0
  generalize hl : lex_scan_string_loop _ lexa c ea = r at h
  cases r with
  | none => simp at h
  | some r =>
    obtain ⟨b, lex2, e2⟩ := r
    have ht2 := lex_scan_string_loop_token _ _ _ _ _ _ _ hl
    rw [ht0] at ht2
    cases b with
    | false =>
      simp only [Option.some.injEq, Prod.mk.injEq] at h
      rw [← h.1] at htok
      simp only [lex_free_string, ht2] at htok
      exact absurd htok (by decide)
    | true =>
      simp only at h
      obtain ⟨items, hok, hsv2⟩ := lex_scan_string_loop_sound _ lexa c ea [] lex2 e2 hwf0 hc0
        (fun i hi => by cases hi) (by simpa [string_text] using hs0) hl
      have hd := lex_scan_string_decode_items lex2 e2 [] items.length items (Nat.le_refl _) hok
        (lex2.saved_text.length + 1) [] (by rw [hsv2]; simp; omega)
      have hp : lex2.saved_text.drop 1 = string_text items ++ [34] := by rw [hsv2]; rfl
      rw [hp, hd] at h
      cases hu : unescape items with
      | error msg =>
        rw [hu] at h
        simp only [decode_result, Option.some.injEq, Prod.mk.injEq] at h
        rw [← h.1] at htok
        simp only [lex_free_string, ht2] at htok
        exact absurd htok (by decide)
      | ok u =>
        rw [hu] at h
        simp only [decode_result, List.nil_append, Option.some.injEq, Prod.mk.injEq] at h
        refine ⟨items, u, hok, ?_, hu, ?_⟩
        · rw [← h.1]; exact hsv2
        · rw [← h.1]

theorem stream_init_wf (g : get_func) (d : List Nat) : (lex_init g d).stream.wf := by
  refine ⟨?_, Or.inl rfl⟩
  intro c hc
  simp only [lex_init, stream_init, List.mem_cons, List.mem_singleton, List.not_mem_nil,
    or_false, or_self] at hc
  rw [hc]
  simp [is_char]

theorem lex_scan_string_unescapes_witness :
    ∃ items payload, (∀ i ∈ items, i.ok) ∧
      surrogate_pair_scanned.saved_text = 34 :: string_text items ++ [34] ∧
      unescape items = .ok payload ∧
      surrogate_pair_scanned.value = lex_value.string (some payload) :=
  lex_scan_string_unescapes surrogate_pair_lexer jsonp_error_init surrogate_pair_scanned
    jsonp_error_init
    (stream_get_wf _ _ (stream_init_wf _ _)).1 (by decide!) (by decide!) (by decide)

theorem to_uchar_to_char (b : Nat) (h : b < 256) : to_uchar (to_char (b : Int)) = b := by
  unfold to_uchar to_char; omega

theorem utf8_check_cont_some :
    ∀ (cs : List Int) (v : Nat) (w : Nat), utf8_check_cont cs v = some w →
      ∀ c ∈ cs, is_char c → is_cont c := by
  intro cs
  induction cs with
  | nil => intro v w _ c hc; cases hc
  | cons x xs ih =>
    intro v w h c hc hch
    simp only [utf8_check_cont] at h
    by_cases hx : to_uchar x < 0x80 ∨ to_uchar x > 0xBF
    · simp [hx] at h
    · simp only [hx, ite_false] at h
      rcases List.mem_cons.mp hc with h1 | h1
      · subst h1
        unfold is_char at hch
        unfold to_uchar at hx
        unfold is_cont
        omega
      · exact ih _ _ h c h1 hch

theorem utf8_sequence_cases (seq : List Nat) (h : utf8_sequence seq) :
    ∃ b0 bs, seq = b0 :: bs ∧ 194 ≤ b0 ∧ b0 ≤ 244 ∧ 1 ≤ bs.length ∧ bs.length ≤ 3 ∧
      (∀ b ∈ bs, 128 ≤ b ∧ b ≤ 191) := by
  obtain ⟨hlen, hb, hf, hfull⟩ := h
  cases seq with
  | nil => simp at hlen
  | cons b0 bs =>
    have hb0 := hb b0 (List.mem_cons_self _ _)
    simp only [List.headD_cons, List.length_cons] at hf hlen
    have hu : to_uchar (b0 : Int) = b0 := by unfold to_uchar; omega
    have hcnt : 194 ≤ b0 ∧ b0 ≤ 244 ∧ bs.length ≤ 3 := by
      unfold utf8_check_first at hf
      simp only [hu] at hf
      split_ifs at hf <;> omega
    refine ⟨b0, bs, rfl, hcnt.1, hcnt.2.1, by omega, hcnt.2.2, ?_⟩
    intro b hbm
    have hbb := hb b (List.mem_cons_of_mem _ hbm)
    unfold utf8_check_full at hfull
    simp only [List.map_cons, List.getD_cons_zero, List.length_cons, List.drop_succ_cons,
      List.drop_zero, Nat.add_sub_cancel] at hfull
    have htake : (bs.map (fun (b : Nat) => to_char (b : Int))).take bs.length =
        bs.map (fun (b : Nat) => to_char (b : Int)) := List.take_of_length_le (by simp)
    rw [htake] at hfull
    have hcont : ∃ v w, utf8_check_cont (bs.map (fun (b : Nat) => to_char (b : Int))) v = some w := by
      split at hfull
      · simp at hfull
      · rename_i v hv
        split at hfull
        · simp at hfull
        · rename_i w hw
          exact ⟨v, w, hw⟩
    obtain ⟨v, w, hvw⟩ := hcont
    have := utf8_check_cont_some _ v w hvw (to_char (b : Int))
      (List.mem_map.mpr ⟨b, hbm, rfl⟩) (to_char_is_char _)
    unfold is_cont to_char at this
    omega

theorem utf8_check_full_congr (b1 b2 : List Int) (n : Nat) (h0 : b1.getD 0 0 = b2.getD 0 0)
    (h1 : (b1.drop 1).take (n - 1) = (b2.drop 1).take (n - 1)) :
    utf8_check_full b1 n = utf8_check_full b2 n := by
  unfold utf8_check_full
  rw [h0, h1]

theorem cursor_step_lead (k : cursor) (b : Nat) (h1 : 194 ≤ b) (h2 : b ≤ 244) :
    k.step b = { position := k.position + 1, line := k.line, column := k.column + 1 } := by
  have hu : to_uchar (b : Int) = b := by unfold to_uchar; omega
  have hf : utf8_check_first (b : Int) ≠ 0 := by
    unfold utf8_check_first
    simp only [hu]
    split_ifs <;> omega
  unfold cursor.step
  have : ¬ b = 10 := by omega
  simp only [this, ite_false, hf, ne_eq, not_false_eq_true, ite_true]

theorem cursor_step_cont (k : cursor) (b : Nat) (h1 : 128 ≤ b) (h2 : b ≤ 191) :
    k.step b = { position := k.position + 1, line := k.line, column := k.column } := by
  have hu : to_uchar (b : Int) = b := by unfold to_uchar; omega
  have hf : utf8_check_first (b : Int) = 0 := by
    unfold utf8_check_first
    simp only [hu]
    split_ifs <;> omega
  unfold cursor.step
  have : ¬ b = 10 := by omega
  simp only [this, ite_false, hf, ne_eq, not_true_eq_false]

theorem utf8_check_first_to_char (b : Nat) (h : b < 256) :
    utf8_check_first (to_char (b : Int)) = utf8_check_first (b : Int) := by
  unfold utf8_check_first
  rw [to_uchar_to_char b h]
  have : to_uchar (b : Int) = b := by unfold to_uchar; omega
  rw [this]

theorem to_char_ne_zero (b : Nat) (h1 : 128 ≤ b) (h2 : b < 256) : to_char (b : Int) ≠ 0 := by
  unfold to_char; omega

theorem to_char_ne_ten (b : Nat) (h1 : 128 ≤ b) (h2 : b < 256) : to_char (b : Int) ≠ 10 := by
  unfold to_char; omega

/-- The source hands out the bytes of `bs`, none of them NUL, one by one. -/
theorem stream_get_rest_bytes (g : get_func) :
    ∀ (bs : List Nat) (i : Nat) (d : List Nat) (r : List Nat) (buffer : List Int),
      (∀ b ∈ bs, 0 < b) → g.bytes d = bs ++ r →
      ∃ d', g.bytes d' = r ∧ (stream_get_rest bs.length i g d buffer).2 = d' ∧
        (stream_get_rest bs.length i g d buffer).1 =
          (List.range bs.length).foldl
            (fun buf j => buf.set (i + j) (to_char ((bs.getD j 0 : Nat) : Int))) buffer := by
  intro bs
  induction bs with
  | nil => intro i d r buffer _ h; exact ⟨d, by simpa using h, rfl, rfl⟩
  | cons b bs ih =>
    intro i d r buffer hpos h
    obtain ⟨d1, hcall, hd1⟩ := get_call_cons g d b (bs ++ r) (by simpa using h)
      (hpos b (List.mem_cons_self _ _))
    obtain ⟨d2, h1, h2, h3⟩ := ih (i + 1) d1 r (buffer.set i (to_char (b : Int)))
      (fun x hx => hpos x (List.mem_cons_of_mem _ hx)) hd1
    refine ⟨d2, h1, ?_, ?_⟩
    · simp only [List.length_cons, stream_get_rest, hcall]
      exact h2
    · simp only [List.length_cons, stream_get_rest, hcall]
      rw [h3, List.range_succ_eq_map, List.foldl_cons, List.foldl_map]
      simp only [Nat.add_zero, List.getD_cons_zero, List.getD_cons_succ]
      congr 1
      funext buf j
      rw [Nat.add_assoc, Nat.add_comm 1 j]

theorem length_le_three (bs : List Nat) (h1 : 1 ≤ bs.length) (h3 : bs.length ≤ 3) :
    (∃ a, bs = [a]) ∨ (∃ a b, bs = [a, b]) ∨ (∃ a b c, bs = [a, b, c]) := by
  match bs, h1, h3 with
  | [a], _, _ => exact Or.inl ⟨a, rfl⟩
  | [a, b], _, _ => exact Or.inr (Or.inl ⟨a, b, rfl⟩)
  | [a, b, c], _, _ => exact Or.inr (Or.inr ⟨a, b, c, rfl⟩)

theorem buffer_pending_conts (c0 : Int) (cs rest : List Int) (hcs : ∀ c ∈ cs, c ≠ 0) :
    buffer_pending (c0 :: (cs ++ 0 :: rest)) 1 = cs := by
  unfold buffer_pending
  simp only [List.drop_succ_cons, List.drop_zero]
  induction cs with
  | nil => simp
  | cons c cs ih =>
    have hc := hcs c (List.mem_cons_self _ _)
    simp only [List.cons_append, List.takeWhile_cons, hc, ne_eq, not_false_eq_true,
      decide_True, ite_true, List.cons.injEq, true_and]
    exact ih (fun x hx => hcs x (List.mem_cons_of_mem _ hx))

/-- The stream hands out the first byte of a multi-byte sequence and keeps the
rest of the sequence in its buffer. -/
theorem stream_get_lead (lex : lex_t) (e : json_error_t) (b0 : Nat) (bs r : List Nat)
    (k : cursor) (hseq : utf8_sequence (b0 :: bs)) (h : Ready lex.stream (b0 :: bs ++ r) k) :
    (stream_get lex e).1 = to_char (b0 : Int) ∧ (stream_get lex e).2.2 = e ∧
      SameToken lex (stream_get lex e).2.1 ∧
      Ready (stream_get lex e).2.1.stream (bs ++ r) (k.step b0) ∧
      stream_pending (stream_get lex e).2.1.stream = bs.map (fun (b : Nat) => to_char (b : Int)) := by
  obtain ⟨b0', bs', hcons, hb0l, hb0h, hl1, hl3, hbs⟩ := utf8_sequence_cases _ hseq
  simp only [List.cons.injEq] at hcons
  obtain ⟨hx, hy⟩ := hcons
  subst hx; subst hy
  obtain ⟨hlen2, hlt, hfirst, hfull⟩ := hseq
  simp only [List.headD_cons, List.length_cons] at hfirst
  obtain ⟨hstate, hlen, hpend, hrest, hcur⟩ := h
  have hok : lex.stream.state = STREAM_STATE_OK := by
    rcases hstate with h1 | ⟨_, h2⟩
    · exact h1
    · cases h2
  -- nothing is pending: the first byte is no ASCII byte and no continuation byte
  have hp : stream_pending lex.stream = [] := by
    cases hq : stream_pending lex.stream with
    | nil => rfl
    | cons c p =>
      rw [hq] at hrest hpend
      simp only [List.map_cons, List.cons_append, List.cons.injEq] at hrest
      rcases hpend with h1 | ⟨c1, h0, h1, h2⟩ | h1
      · cases h1
      · simp only [List.cons.injEq] at h2
        have := hrest.1
        rw [h2.1] at this
        unfold to_uchar at this; omega
      · have h2 := h1 c (List.mem_cons_self _ _)
        have := hrest.1
        unfold to_uchar at this; omega
  rw [hp] at hrest
  simp only [List.map_nil, List.nil_append] at hrest
  obtain ⟨d1, hcall, hd1⟩ := get_call_cons _ _ _ _ hrest (by omega)
  have hz := stream_pending_nil _ hp
  obtain ⟨a0, a1, a2, a3, a4, hbuf⟩ := length_five _ hlen
  have hpos : ∀ b ∈ bs, 0 < b := fun b hb => by have := hbs b hb; omega
  obtain ⟨d2, hd2, hr2, hr1⟩ := stream_get_rest_bytes lex.stream.get bs 1 d1 r
    [to_char (b0 : Int), a1, a2, a3, a4] hpos hd1
  have h1 : ¬ ((b0 : Int) = EOF) := by simp only [EOF]; omega
  have h2 : (128 : Int) ≤ (b0 : Int) ∧ (b0 : Int) ≤ 255 := by omega
  have hcnt : ¬ (bs.length + 1 = 0) := by omega
  have hstep := cursor_step_lead k b0 hb0l hb0h
  have hcf := utf8_check_first_to_char b0 (by omega)
  have hne := to_char_ne_ten b0 (by omega) (by omega)
  have hbsz : ∀ b ∈ bs, to_char (b : Int) ≠ 0 := fun b hb =>
    to_char_ne_zero b (hbs b hb).1 (by have := (hbs b hb).2; omega)
  have hbsu : ∀ b ∈ bs, to_uchar (to_char (b : Int)) = b := fun b hb =>
    to_uchar_to_char b (by have := (hbs b hb).2; omega)
  have hbsc : ∀ b ∈ bs, -128 ≤ to_char (b : Int) ∧ to_char (b : Int) < -64 := fun b hb => by
    have := hbs b hb
    unfold to_char; omega
  have hfull2 : utf8_check_full (stream_get_rest bs.length 1 lex.stream.get d1
      [to_char (b0 : Int), a1, a2, a3, a4]).1 (bs.length + 1) = true := by
    rw [hr1, ← hfull]
    rcases length_le_three bs hl1 hl3 with ⟨x, hx⟩ | ⟨x, y, hx⟩ | ⟨x, y, z, hx⟩ <;>
      subst hx <;> apply utf8_check_full_congr <;>
      simp [List.range_succ]
  have key : stream_get lex e = stream_get_next { lex with stream :=
      { lex.stream with data := d2,
                        buffer := ((stream_get_rest bs.length 1
                          lex.stream.get d1 [to_char (b0 : Int), a1, a2, a3, a4]).1).set
                            (bs.length + 1) 0,
                        buffer_pos := 0 } } e := by
    unfold stream_get
    simp only [hok, hz, hcall, ne_eq, not_true_eq_false, ite_false, ite_true]
    simp only [h1, h2, and_self, ite_true, ite_false, hbuf, List.set_cons_zero, hfirst,
      Nat.add_sub_cancel, hfull2, Bool.true_eq_false, Nat.add_one_ne_zero, hr2]
  have hbufeq : ((List.range bs.length).foldl
      (fun buf j => buf.set (1 + j) (to_char ((bs.getD j 0 : Nat) : Int)))
      [to_char (b0 : Int), a1, a2, a3, a4]).set (bs.length + 1) 0 =
      to_char (b0 : Int) :: (bs.map (fun (b : Nat) => to_char (b : Int)) ++
        0 :: [a1, a2, a3, a4].drop (bs.length + 1)) := by
    rcases length_le_three bs hl1 hl3 with ⟨x, hx⟩ | ⟨x, y, hx⟩ | ⟨x, y, z, hx⟩ <;>
      subst hx <;> simp [List.range_succ]
  have hnz : ∀ c ∈ bs.map (fun (b : Nat) => to_char (b : Int)), c ≠ 0 := fun c hc => by
    obtain ⟨b, hb, rfl⟩ := List.mem_map.mp hc
    exact hbsz b hb
  rw [key, stream_get_next_eq]
  simp only [hr1, hbufeq, List.getD_cons_zero, hne, ite_false, hcf, hfirst,
    Nat.add_one_ne_zero, ne_eq, not_false_eq_true, ite_true]
  have hpd := buffer_pending_conts (to_char (b0 : Int))
    (bs.map (fun (b : Nat) => to_char (b : Int))) ([a1, a2, a3, a4].drop (bs.length + 1)) hnz
  refine ⟨trivial, trivial, ⟨rfl, rfl, rfl⟩, ⟨Or.inl hok, ?_, Or.inr (Or.inr ?_), ?_, ?_⟩, hpd⟩
  · show (to_char (b0 : Int) :: (bs.map (fun (b : Nat) => to_char (b : Int)) ++
        0 :: [a1, a2, a3, a4].drop (bs.length + 1))).length = 5
    rcases length_le_three bs hl1 hl3 with ⟨x, hx⟩ | ⟨x, y, hx⟩ | ⟨x, y, z, hx⟩ <;>
      subst hx <;> rfl
  · intro c hc
    have hc' : c ∈ bs.map (fun (b : Nat) => to_char (b : Int)) := by
      rw [← hpd]; exact hc
    obtain ⟨b, hb, rfl⟩ := List.mem_map.mp hc'
    exact hbsc b hb
  · show (stream_pending _).map to_uchar ++ _ = _
    unfold stream_pending
    erw [hpd]
    rw [List.map_map]
    have : bs.map (to_uchar ∘ fun (b : Nat) => to_char (b : Int)) = bs := by
      conv => rhs; rw [← List.map_id bs]
      apply List.map_congr_left
      intro b hb
      exact hbsu b hb
    rw [this]
    show bs ++ lex.stream.get.bytes d2 = bs ++ r
    rw [hd2]
  · rw [hstep, ← hcur]
    rfl

/-- The stream hands out a continuation byte that is pending in its buffer. -/
theorem stream_get_cont (lex : lex_t) (e : json_error_t) (c : Int) (p : List Int) (b : Nat)
    (r : List Nat) (k : cursor) (h : Ready lex.stream (b :: r) k)
    (hp : stream_pending lex.stream = c :: p) (hc : is_cont c) :
    (stream_get lex e).1 = c ∧ (stream_get lex e).2.2 = e ∧
      SameToken lex (stream_get lex e).2.1 ∧
      Ready (stream_get lex e).2.1.stream r (k.step b) ∧
      stream_pending (stream_get lex e).2.1.stream = p ∧ b = to_uchar c ∧
      (∀ x ∈ p, is_cont x) := by
  obtain ⟨hstate, hlen, hpend, hrest, hcur⟩ := h
  have hok : lex.stream.state = STREAM_STATE_OK := by
    rcases hstate with h1 | ⟨_, h2⟩
    · exact h1
    · cases h2
  unfold is_cont at hc
  rw [hp] at hrest hpend
  simp only [List.map_cons, List.cons_append, List.cons.injEq] at hrest
  obtain ⟨hcb, hrest⟩ := hrest
  have hb : 128 ≤ b ∧ b ≤ 191 := by
    rw [← hcb]; unfold to_uchar; omega
  have hpc : ∀ x ∈ p, is_cont x := by
    rcases hpend with h1 | ⟨c1, h0, h1, h2⟩ | h1
    · cases h1
    · simp only [List.cons.injEq] at h2
      omega
    · exact fun x hx => h1 x (List.mem_cons_of_mem _ hx)
  obtain ⟨hg, hne, hnext⟩ := stream_pending_cons _ _ _ hp
  have hf : utf8_check_first c = 0 := by
    unfold utf8_check_first
    simp only [hcb]
    split_ifs <;> omega
  have h10 : ¬ c = 10 := by omega
  have key : stream_get lex e = stream_get_next lex e := by
    unfold stream_get
    simp only [hok, hg, hne, ne_eq, not_true_eq_false, ite_false]
  rw [key, stream_get_next_eq]
  simp only [hg, hf, h10, ite_false, ne_eq, not_true_eq_false]
  refine ⟨trivial, trivial, ⟨rfl, rfl, rfl⟩, ⟨Or.inl hok, hlen, ?_, ?_, ?_⟩, hnext, hcb.symm, hpc⟩
  · refine Or.inr (Or.inr (fun y hy => ?_))
    have hy' : y ∈ buffer_pending lex.stream.buffer (lex.stream.buffer_pos + 1) := hy
    rw [hnext] at hy'
    exact hpc y hy'
  · show (buffer_pending lex.stream.buffer (lex.stream.buffer_pos + 1)).map to_uchar ++ _ = r
    rw [hnext]; exact hrest
  · rw [cursor_step_cont k b hb.1 hb.2, ← hcur]
    rfl

/-- The stream hands out a NUL byte of the buffer it reads from. -/
theorem stream_get_nul (lex : lex_t) (e : json_error_t) (r : List Nat) (k : cursor)
    (h : Ready lex.stream (0 :: r) k) :
    (stream_get lex e).1 = 0 ∧ (stream_get lex e).2.2 = e ∧
      SameToken lex (stream_get lex e).2.1 ∧
      (stream_get lex e).2.1.stream.cursor = k.step 0 := by
  obtain ⟨hstate, hlen, hpend, hrest, hcur⟩ := h
  have hok : lex.stream.state = STREAM_STATE_OK := by
    rcases hstate with h1 | ⟨_, h2⟩
    · exact h1
    · cases h2
  have hp : stream_pending lex.stream = [] := by
    cases hq : stream_pending lex.stream with
    | nil => rfl
    | cons c p =>
      rw [hq] at hrest hpend
      simp only [List.map_cons, List.cons_append, List.cons.injEq] at hrest
      rcases hpend with h1 | ⟨c1, h0, h1, h2⟩ | h1
      · cases h1
      · simp only [List.cons.injEq] at h2
        have := hrest.1
        rw [h2.1] at this
        unfold to_uchar at this; omega
      · have h2 := h1 c (List.mem_cons_self _ _)
        have := hrest.1
        unfold to_uchar at this; omega
  rw [hp] at hrest
  simp only [List.map_nil, List.nil_append] at hrest
  have hz := stream_pending_nil _ hp
  obtain ⟨a0, a1, a2, a3, a4, hbuf⟩ := length_five _ hlen
  have hcall : ∃ d1, lex.stream.get.call lex.stream.data = (0, d1) := by
    cases hg : lex.stream.get with
    | buffer_get =>
      rw [hg] at hrest
      cases hd : lex.stream.data with
      | nil => rw [hd] at hrest; simp [get_func.bytes] at hrest
      | cons x xs =>
        rw [hd] at hrest
        simp only [get_func.bytes, List.map_cons, List.cons.injEq] at hrest
        exact ⟨xs, by simp [get_func.call, Jansson.buffer_get, hrest.1]⟩
    | string_get =>
      rw [hg] at hrest
      simp only [get_func.bytes] at hrest
      have hm : (0 : Nat) ∈ List.takeWhile (fun b => decide (b ≠ 0))
          (List.map (fun b => b % 256) lex.stream.data) := by rw [hrest]; simp
      have := List.mem_takeWhile_imp hm
      simp at this
  obtain ⟨d1, hcall⟩ := hcall
  have key : stream_get lex e = stream_get_next { lex with stream :=
      { lex.stream with data := d1, buffer := [0, 0, a2, a3, a4], buffer_pos := 0 } } e := by
    unfold stream_get
    simp only [hok, hz, hcall, ne_eq, not_true_eq_false, ite_false, ite_true]
    simp only [show ¬ ((0 : Int) = EOF) by decide,
      show ¬ ((128 : Int) ≤ 0 ∧ (0 : Int) ≤ 255) by decide, ite_false, hbuf,
      show to_char 0 = 0 by decide, List.set_cons_zero, List.set_cons_succ]
  rw [key, stream_get_next_eq]
  simp only [List.getD_cons_zero, show ¬ ((0 : Int) = 10) by decide, ite_false,
    show utf8_check_first 0 ≠ 0 by decide, ne_eq, not_false_eq_true, ite_true]
  refine ⟨trivial, trivial, ⟨rfl, rfl, rfl⟩, ?_⟩
  rw [← hcur]
  simp only [stream_t.cursor, cursor.step, show ¬ ((0 : Nat) = 10) by decide, ite_false,
    show utf8_check_first ((0 : Nat) : Int) ≠ 0 by decide, ne_eq, not_false_eq_true, ite_true]

theorem Held.ascii {lex : lex_t} {c : Int} {t r : List Nat} {b : Nat} {k : cursor}
    (h : Held lex c t (b :: r) k) (hb0 : 0 < b) (hb : b < 128) : Peeked lex c t (b :: r) k := by
  rcases h with h | ⟨b0, bs, r1, h1, h2, _⟩ | ⟨r1, h1, _⟩
  · exact h
  · obtain ⟨b0', bs', hc, hl, _⟩ := utf8_sequence_cases _ h2
    simp only [List.cons_append, List.cons.injEq] at h1 hc
    omega
  · simp only [List.cons.injEq] at h1
    omega

theorem lex_get_save_held (lex : lex_t) (e : json_error_t) (rest : List Nat) (k : cursor)
    (h : Ready lex.stream rest k) (hd : Readable rest) :
    Held (lex_get_save lex e).2.1 (lex_get_save lex e).1 lex.saved_text rest k ∧
      (lex_get_save lex e).2.2 = e ∧
      (lex_get_save lex e).2.1.token = lex.token ∧
      (lex_get_save lex e).2.1.value = lex.value := by
  rcases hd with hd | ⟨b0, bs, r, hr, hseq⟩ | ⟨r, hr⟩
  · obtain ⟨h1, h2, h3, h4⟩ := lex_get_save_peek lex e rest k h hd
    exact ⟨Or.inl h1, h2, h3, h4⟩
  rotate_left
  · subst hr
    have hs := stream_get_nul lex e r k h
    unfold lex_get_save
    generalize stream_get lex e = q at hs ⊢
    obtain ⟨c, lex1, e1⟩ := q
    obtain ⟨hc1, he, ⟨h3, h4, h5⟩, hcur⟩ := hs
    simp only at hc1 he h3 h4 h5 hcur
    subst he; subst hc1
    simp only [show (0 : Int) ≠ STREAM_STATE_EOF ∧ (0 : Int) ≠ STREAM_STATE_ERROR by decide,
      ne_eq, not_false_eq_true, and_self, ite_true, lex_save]
    refine ⟨Or.inr (Or.inr ⟨r, rfl, rfl, hcur, ?_⟩), trivial, h4, h5⟩
    simp only [h3, show to_uchar 0 = 0 by decide]
  · subst hr
    obtain ⟨b0', bs', hc, hl, hh, _⟩ := utf8_sequence_cases _ hseq
    simp only [List.cons.injEq] at hc
    obtain ⟨hx, _⟩ := hc
    subst hx
    have hs := stream_get_lead lex e b0 bs r k hseq h
    unfold lex_get_save
    generalize stream_get lex e = q at hs ⊢
    obtain ⟨c, lex1, e1⟩ := q
    obtain ⟨hc1, he, ⟨h3, h4, h5⟩, hrd, hpd⟩ := hs
    simp only at hc1 he h3 h4 h5 hrd hpd
    subst he
    have hne : c ≠ STREAM_STATE_EOF ∧ c ≠ STREAM_STATE_ERROR := by
      rw [hc1]
      simp only [STREAM_STATE_EOF, STREAM_STATE_ERROR]
      unfold to_char
      omega
    simp only [hne, ne_eq, not_false_eq_true, and_self, ite_true, lex_save]
    refine ⟨Or.inr (Or.inl ⟨b0, bs, r, rfl, hseq, hc1, hrd, hpd, ?_⟩), trivial, h4, h5⟩
    simp only [h3, hc1, to_uchar_to_char b0 (by omega)]

theorem utf8_sequence_unique (s1 s2 r1 r2 : List Nat) (h1 : utf8_sequence s1)
    (h2 : utf8_sequence s2) (h : s1 ++ r1 = s2 ++ r2) : s1 = s2 ∧ r1 = r2 := by
  obtain ⟨a, as, ha, _⟩ := utf8_sequence_cases _ h1
  obtain ⟨b, bs, hb, _⟩ := utf8_sequence_cases _ h2
  subst ha; subst hb
  have hab : a = b := by
    simp only [List.cons_append, List.cons.injEq] at h
    exact h.1
  subst hab
  have hl : (a :: as).length = (a :: bs).length := by
    have e1 := h1.2.2.1
    have e2 := h2.2.2.1
    simp only [List.headD_cons] at e1 e2
    omega
  exact List.append_inj h hl

/-- A `char` that is part of a multi-byte sequence is none of the characters
the first loop of `lex_scan_string` treats specially. -/
theorem lex_scan_string_body_high (lex : lex_t) (c : Int) (e : json_error_t)
    (h1 : -128 ≤ c) (h2 : c < -2) :
    lex_scan_string_body lex c e =
      (some (lex_get_save lex e).1, (lex_get_save lex e).2.1, (lex_get_save lex e).2.2) := by
  unfold lex_scan_string_body
  have a1 : ¬ c = STREAM_STATE_ERROR := by simp only [STREAM_STATE_ERROR]; omega
  have a2 : ¬ c = STREAM_STATE_EOF := by simp only [STREAM_STATE_EOF]; omega
  have a3 : ¬ (0 ≤ c ∧ c ≤ 0x1F) := by omega
  have a4 : ¬ c = 92 := by omega
  simp only [a1, a2, a3, a4, ite_false]

theorem lex_scan_string_loop_step (n : Nat) (lex : lex_t) (c : Int) (e : json_error_t)
    (c1 : Int) (lex1 : lex_t) (e1 : json_error_t) (hq : c ≠ 34)
    (h : lex_scan_string_body lex c e = (some c1, lex1, e1)) :
    lex_scan_string_loop (n + 1) lex c e = lex_scan_string_loop n lex1 c1 e1 := by
  simp only [lex_scan_string_loop, hq, ite_false, h]

theorem lex_scan_string_loop_out (n : Nat) (lex : lex_t) (c : Int) (e : json_error_t)
    (lex1 : lex_t) (e1 : json_error_t) (hq : c ≠ 34)
    (h : lex_scan_string_body lex c e = (none, lex1, e1)) :
    lex_scan_string_loop (n + 1) lex c e = some (false, lex1, e1) := by
  simp only [lex_scan_string_loop, hq, ite_false, h]

/-- The first loop of `lex_scan_string` over the continuation bytes that are
pending in the buffer. -/
theorem lex_scan_string_loop_conts (e : json_error_t) (r : List Nat) (hr : Readable r) :
    ∀ (p : List Int) (fuel : Nat) (lex : lex_t) (c : Int) (k : cursor),
      -128 ≤ c → c < -2 → Ready lex.stream (p.map to_uchar ++ r) k →
      stream_pending lex.stream = p → (∀ x ∈ p, is_cont x) → p.length < fuel →
      ∃ n lex1 c1, fuel = n + p.length + 1 ∧
        lex_scan_string_loop fuel lex c e = lex_scan_string_loop n lex1 c1 e ∧
        Held lex1 c1 (lex.saved_text ++ p.map to_uchar) r (k.steps (p.map to_uchar)) ∧
        lex1.token = lex.token ∧ lex1.value = lex.value := by
  intro p
  induction p with
  | nil =>
    intro fuel lex c k h1 h2 hrd _ _ hf
    obtain ⟨n, rfl⟩ : ∃ n, fuel = n + 1 := ⟨fuel - 1, by simp at hf; omega⟩
    simp only [List.map_nil, List.nil_append] at hrd
    obtain ⟨hh, he, ht, hv⟩ := lex_get_save_held lex e r k hrd hr
    have hb := lex_scan_string_body_high lex c e h1 h2
    rw [he] at hb
    refine ⟨n, _, _, rfl, lex_scan_string_loop_step n lex c e _ _ _ (by omega) hb, ?_, ht, hv⟩
    simpa [cursor.steps] using hh
  | cons x p ih =>
    intro fuel lex c k h1 h2 hrd hp hc hf
    obtain ⟨n, rfl⟩ : ∃ n, fuel = n + 1 := ⟨fuel - 1, by simp at hf; omega⟩
    have hx := hc x (List.mem_cons_self _ _)
    simp only [List.map_cons, List.cons_append] at hrd
    have hs := stream_get_cont lex e x p (to_uchar x) _ k hrd hp hx
    have hb := lex_scan_string_body_high lex c e h1 h2
    have hsv : (lex_get_save lex e).2.1.saved_text = lex.saved_text ++ [to_uchar x] ∧
        (lex_get_save lex e).1 = x ∧ (lex_get_save lex e).2.2 = e ∧
        (lex_get_save lex e).2.1.stream = (stream_get lex e).2.1.stream ∧
        (lex_get_save lex e).2.1.token = lex.token ∧
        (lex_get_save lex e).2.1.value = lex.value := by
      unfold lex_get_save
      generalize stream_get lex e = q at hs ⊢
      obtain ⟨c2, lex2, e2⟩ := q
      obtain ⟨hc1, he, ⟨h3, h4, h5⟩, _⟩ := hs
      simp only at hc1 he h3 h4 h5
      subst hc1; subst he
      have hne : c2 ≠ STREAM_STATE_EOF ∧ c2 ≠ STREAM_STATE_ERROR := by
        unfold is_cont at hx
        simp only [STREAM_STATE_EOF, STREAM_STATE_ERROR]
        omega
      simp only [hne, ne_eq, not_false_eq_true, and_self, ite_true, lex_save, h3, h4, h5]
    obtain ⟨_, _, _, hrd1, hpd1, _, hpc⟩ := hs
    obtain ⟨s1, s2, s3, s4, s5, s6⟩ := hsv
    rw [← s4] at hrd1 hpd1
    unfold is_cont at hx
    obtain ⟨m, lex1, c1, hm, hl, hh, ht, hv⟩ := ih n (lex_get_save lex e).2.1 x
      (k.step (to_uchar x)) hx.1 (by omega) hrd1 hpd1 hpc (by simp at hf; omega)
    rw [s2, s3] at hb
    refine ⟨m, lex1, c1, by simp; omega, ?_, ?_, by rw [ht, s5], by rw [hv, s6]⟩
    · rw [lex_scan_string_loop_step n lex c e _ _ _ (by omega) hb]
      exact hl
    · rw [s1] at hh
      simpa [cursor.steps_cons] using hh

theorem string_item.valid_ok {i : string_item} (h : i.valid) : i.ok := by
  cases i with
  | lit bs =>
    rcases h with ⟨b, hb, h1, h2, h3, h4⟩ | h
    · subst hb
      exact ⟨by simp, fun x hx => by simp at hx; subst hx; exact ⟨h3, h4⟩⟩
    · obtain ⟨b0, bs', hc, h1, h2, _, _, h5⟩ := utf8_sequence_cases _ h
      subst hc
      refine ⟨by simp, fun x hx => ?_⟩
      rcases List.mem_cons.mp hx with hx | hx
      · omega
      · have := h5 x hx; omega
  | shortcut c => exact h
  | unicode h1 h2 h3 h4 => exact h

theorem string_item.readable {i : string_item} (h : i.valid) (rest : List Nat) :
    Readable (i.text ++ rest) := by
  cases i with
  | lit bs =>
    rcases h with ⟨b, hb, h1, h2, h3, h4⟩ | h
    · subst hb
      exact Or.inl (Or.inr ⟨b, rest, rfl, by omega, h2⟩)
    · obtain ⟨b0, bs', hc, _⟩ := utf8_sequence_cases _ h
      subst hc
      exact Or.inr (Or.inl ⟨b0, bs', rest, rfl, h⟩)
  | shortcut c => exact Or.inl (Or.inr ⟨92, c :: rest, rfl, by omega, by omega⟩)
  | unicode h1 h2 h3 h4 =>
    exact Or.inl (Or.inr ⟨92, 117 :: h1 :: h2 :: h3 :: h4 :: rest, rfl, by omega, by omega⟩)

theorem string_text_readable (items : List string_item) (h : ∀ i ∈ items, i.valid)
    (rest : List Nat) (hr : Readable rest) : Readable (string_text items ++ rest) := by
  cases items with
  | nil => exact hr
  | cons i items =>
    simp only [string_text, List.append_assoc]
    exact string_item.readable (h i (List.mem_cons_self _ _)) _

theorem is_hex_xdigit (h : Nat) (hh : is_hex h) : l_isxdigit (h : Int) = true ∧ 0 < h ∧ h < 128 := by
  unfold is_hex at hh
  unfold l_isxdigit l_isdigit
  simp only [Bool.or_eq_true, Bool.and_eq_true, decide_eq_true_eq]
  omega

theorem hex_readable (hs rest : List Nat) (h : ∀ x ∈ hs, is_hex x) (hr : Readable rest) :
    Readable (hs ++ rest) := by
  cases hs with
  | nil => exact hr
  | cons x xs =>
    have := is_hex_xdigit x (h x (List.mem_cons_self _ _))
    exact Or.inl (Or.inr ⟨x, xs ++ rest, rfl, this.2.1, this.2.2⟩)

/-- The loop over the four hexadecimal digits of a `\u` escape. -/
theorem lex_scan_string_hex_run (e : json_error_t) (rest : List Nat) (hr : Readable rest) :
    ∀ (hs : List Nat), (∀ x ∈ hs, is_hex x) → ∀ (lex : lex_t) (c : Int) (t : List Nat)
      (k : cursor), Held lex c t (hs ++ rest) k →
      ∃ lex1 c1, lex_scan_string_hex hs.length lex c e = (some c1, lex1, e) ∧
        Held lex1 c1 (t ++ hs) rest (k.steps hs) ∧
        lex1.token = lex.token ∧ lex1.value = lex.value := by
  intro hs
  induction hs with
  | nil =>
    intro _ lex c t k h
    exact ⟨lex, c, rfl, by simpa [cursor.steps] using h, rfl, rfl⟩
  | cons x xs ih =>
    intro hh lex c t k h
    obtain ⟨hx1, hx2, hx3⟩ := is_hex_xdigit x (hh x (List.mem_cons_self _ _))
    have hxs : ∀ y ∈ xs, is_hex y := fun y hy => hh y (List.mem_cons_of_mem _ hy)
    obtain ⟨hc, _, _, hsv, hrd⟩ := (Held.ascii h hx2 hx3).consume_saved
    subst hc
    obtain ⟨hh1, he, ht, hv⟩ := lex_get_save_held lex e (xs ++ rest) (k.step x) hrd
      (hex_readable xs rest hxs hr)
    rw [hsv] at hh1
    obtain ⟨lex1, c1, h1, h2, h3, h4⟩ := ih hxs _ _ _ _ hh1
    refine ⟨lex1, c1, ?_, by simpa [cursor.steps_cons] using h2, by rw [h3, ht],
      by rw [h4, hv]⟩
    simp only [List.length_cons, lex_scan_string_hex, hx1, Bool.true_eq_false, ite_false]
    rw [he]
    exact h1

theorem lex_scan_string_body_plain (lex : lex_t) (c : Int) (e : json_error_t)
    (h1 : 32 ≤ c) (h2 : c ≠ 92) :
    lex_scan_string_body lex c e =
      (some (lex_get_save lex e).1, (lex_get_save lex e).2.1, (lex_get_save lex e).2.2) := by
  unfold lex_scan_string_body
  have a1 : ¬ c = STREAM_STATE_ERROR := by simp only [STREAM_STATE_ERROR]; omega
  have a2 : ¬ c = STREAM_STATE_EOF := by simp only [STREAM_STATE_EOF]; omega
  have a3 : ¬ (0 ≤ c ∧ c ≤ 0x1F) := by omega
  simp only [a1, a2, a3, h2, ite_false]

theorem lex_scan_string_body_shortcut (lex : lex_t) (c : Int) (e : json_error_t)
    (t rest : List Nat) (k : cursor) (x : Nat) (hx : is_shortcut x) (hr : Readable rest)
    (h : Held lex c t (92 :: x :: rest) k) :
    ∃ lex1 c1, lex_scan_string_body lex c e = (some c1, lex1, e) ∧
      Held lex1 c1 (t ++ [92, x]) rest (k.steps [92, x]) ∧
      lex1.token = lex.token ∧ lex1.value = lex.value := by
  have hx128 : 0 < x ∧ x < 128 ∧ x ≠ 117 := by unfold is_shortcut at hx; omega
  obtain ⟨hc, _, _, hsv, hrd⟩ := (Held.ascii h (by omega) (by omega)).consume_saved
  subst hc
  have hp1 := lex_get_save_peek lex e (x :: rest) (k.step 92) hrd
    (Or.inr ⟨x, rest, rfl, hx128.1, hx128.2.1⟩)
  unfold lex_scan_string_body
  simp only [show ¬ ((92 : Nat) : Int) = STREAM_STATE_ERROR by decide,
    show ¬ ((92 : Nat) : Int) = STREAM_STATE_EOF by decide,
    show ¬ (0 ≤ ((92 : Nat) : Int) ∧ ((92 : Nat) : Int) ≤ 0x1F) by decide,
    show ((92 : Nat) : Int) = 92 by decide, ite_true, ite_false]
  generalize lex_get_save lex e = q at hp1 ⊢
  obtain ⟨c2, lex2, e2⟩ := q
  obtain ⟨hpk, he, ht, hv⟩ := hp1
  simp only at hpk he ht hv
  subst he
  obtain ⟨hc2, _, _, hsv2, hrd2⟩ := hpk.consume_saved
  subst hc2
  have h117 : ¬ ((x : Int) = 117) := by omega
  have hset : (x : Int) = 34 ∨ (x : Int) = 92 ∨ (x : Int) = 47 ∨ (x : Int) = 98 ∨
      (x : Int) = 102 ∨ (x : Int) = 110 ∨ (x : Int) = 114 ∨ (x : Int) = 116 := by
    unfold is_shortcut at hx; omega
  simp only [h117, ite_false, hset, ite_true]
  obtain ⟨hh, he3, ht3, hv3⟩ := lex_get_save_held lex2 e2 rest _ hrd2 hr
  rw [he3]
  refine ⟨_, _, rfl, ?_, by rw [ht3, ht], by rw [hv3, hv]⟩
  rw [hsv2, hsv] at hh
  simpa [cursor.steps] using hh

theorem lex_scan_string_body_unicode (lex : lex_t) (c : Int) (e : json_error_t)
    (t rest : List Nat) (k : cursor) (h1 h2 h3 h4 : Nat)
    (hh : is_hex h1 ∧ is_hex h2 ∧ is_hex h3 ∧ is_hex h4) (hr : Readable rest)
    (h : Held lex c t (92 :: 117 :: h1 :: h2 :: h3 :: h4 :: rest) k) :
    ∃ lex1 c1, lex_scan_string_body lex c e = (some c1, lex1, e) ∧
      Held lex1 c1 (t ++ [92, 117, h1, h2, h3, h4]) rest (k.steps [92, 117, h1, h2, h3, h4]) ∧
      lex1.token = lex.token ∧ lex1.value = lex.value := by
  have hhs : ∀ x ∈ [h1, h2, h3, h4], is_hex x := by
    intro x hx
    simp only [List.mem_cons, List.mem_singleton, List.not_mem_nil, or_false] at hx
    rcases hx with hx | hx | hx | hx <;> rw [hx]
    · exact hh.1
    · exact hh.2.1
    · exact hh.2.2.1
    · exact hh.2.2.2
  obtain ⟨hc, _, _, hsv, hrd⟩ := (Held.ascii h (by omega) (by omega)).consume_saved
  subst hc
  have hp1 := lex_get_save_peek lex e (117 :: h1 :: h2 :: h3 :: h4 :: rest) (k.step 92) hrd
    (Or.inr ⟨117, _, rfl, by omega, by omega⟩)
  unfold lex_scan_string_body
  simp only [show ¬ ((92 : Nat) : Int) = STREAM_STATE_ERROR by decide,
    show ¬ ((92 : Nat) : Int) = STREAM_STATE_EOF by decide,
    show ¬ (0 ≤ ((92 : Nat) : Int) ∧ ((92 : Nat) : Int) ≤ 0x1F) by decide,
    show ((92 : Nat) : Int) = 92 by decide, ite_true, ite_false]
  generalize lex_get_save lex e = q at hp1 ⊢
  obtain ⟨c2, lex2, e2⟩ := q
  obtain ⟨hpk, he, ht, hv⟩ := hp1
  simp only at hpk he ht hv
  subst he
  obtain ⟨hc2, _, _, hsv2, hrd2⟩ := hpk.consume_saved
  subst hc2
  simp only [show ((117 : Nat) : Int) = 117 by decide, ite_true]
  obtain ⟨hh3, he3, ht3, hv3⟩ := lex_get_save_held lex2 e2 ([h1, h2, h3, h4] ++ rest) _ hrd2
    (hex_readable _ rest hhs hr)
  obtain ⟨lex4, c4, hrun, hh4, ht4, hv4⟩ := lex_scan_string_hex_run e2 rest hr [h1, h2, h3, h4]
    hhs _ _ _ _ hh3
  rw [he3]
  simp only [List.length_cons, List.length_nil, Nat.reduceAdd] at hrun
  refine ⟨lex4, c4, hrun, ?_, by rw [ht4, ht3, ht], by rw [hv4, hv3, hv]⟩
  rw [hsv2, hsv] at hh4
  simpa [cursor.steps, List.foldl] using hh4

/-- The first loop of `lex_scan_string` over one element of the text. -/
theorem lex_scan_string_loop_item (e : json_error_t) (i : string_item) (hi : i.valid)
    (rest : List Nat) (hr : Readable rest) (fuel : Nat) (lex : lex_t) (c : Int) (t : List Nat)
    (k : cursor) (h : Held lex c t (i.text ++ rest) k) (hf : i.text.length < fuel) :
    ∃ n lex1 c1, fuel ≤ n + i.text.length ∧
      lex_scan_string_loop fuel lex c e = lex_scan_string_loop n lex1 c1 e ∧
      Held lex1 c1 (t ++ i.text) rest (k.steps i.text) ∧
      lex1.token = lex.token ∧ lex1.value = lex.value := by
  cases i with
  | lit bs =>
    rcases hi with ⟨b, hb, h1, h2, h3, h4⟩ | hseq
    · subst hb
      simp only [string_item.text, List.cons_append, List.nil_append, List.length_cons,
        List.length_nil] at h hf ⊢
      obtain ⟨n, rfl⟩ : ∃ n, fuel = n + 1 := ⟨fuel - 1, by omega⟩
      obtain ⟨hc, _, _, hsv, hrd⟩ := (Held.ascii h (by omega) h2).consume_saved
      subst hc
      obtain ⟨hh, he, ht, hv⟩ := lex_get_save_held lex e rest _ hrd hr
      have hb := lex_scan_string_body_plain lex (b : Int) e (by omega) (by omega)
      rw [he] at hb
      refine ⟨n, _, _, by omega,
        lex_scan_string_loop_step n lex _ e _ _ _ (by omega) hb, ?_, ht, hv⟩
      rw [hsv] at hh
      simpa [cursor.steps] using hh
    · simp only [string_item.text] at h hf ⊢
      obtain ⟨b0, bs', hcons, hl, hu, _, _, hbs⟩ := utf8_sequence_cases _ hseq
      subst hcons
      have hheld : ∃ r', b0 :: bs' ++ rest = b0 :: bs' ++ r' ∧ c = to_char (b0 : Int) ∧
          Ready lex.stream (bs' ++ r') (k.step b0) ∧
          stream_pending lex.stream = bs'.map (fun (b : Nat) => to_char (b : Int)) ∧
          lex.saved_text = t ++ [b0] := by
        rcases h with ⟨hg, _⟩ | ⟨b1, bs1, r1, heq, hseq1, hc, hrd, hpd, hsv⟩ | ⟨r1, h1, _⟩
        · rcases hg with ⟨_, h2, _⟩ | ⟨b, r, h1, _, _, h4, _⟩
          · simp at h2
          · simp only [List.cons_append, List.cons.injEq] at h1
            omega
        rotate_left
        · simp only [List.cons_append, List.cons.injEq] at h1
          omega
        · obtain ⟨h1, h2⟩ := utf8_sequence_unique _ _ _ _ hseq hseq1 heq
          simp only [List.cons.injEq] at h1
          obtain ⟨hx, hy⟩ := h1
          subst hx; subst hy; subst h2
          exact ⟨rest, rfl, hc, hrd, hpd, hsv⟩
      obtain ⟨r', heq, hc, hrd, hpd, hsv⟩ := hheld
      have hr' : r' = rest := by
        have := List.append_cancel_left heq
        exact this.symm
      subst hr'
      have hmap : (bs'.map (fun (b : Nat) => to_char (b : Int))).map to_uchar = bs' := by
        rw [List.map_map]
        conv => rhs; rw [← List.map_id bs']
        apply List.map_congr_left
        intro b hb
        exact to_uchar_to_char b (by have := hbs b hb; omega)
      have hcont : ∀ x ∈ bs'.map (fun (b : Nat) => to_char (b : Int)), is_cont x := by
        intro x hx
        obtain ⟨b, hb, rfl⟩ := List.mem_map.mp hx
        have := hbs b hb
        unfold is_cont to_char; omega
      obtain ⟨n, lex1, c1, hn, hl1, hh, ht, hv⟩ := lex_scan_string_loop_conts e r' hr
        (bs'.map (fun (b : Nat) => to_char (b : Int))) fuel lex c (k.step b0)
        (by rw [hc]; unfold to_char; omega) (by rw [hc]; unfold to_char; omega)
        (by rw [hmap]; exact hrd) hpd hcont (by simp at hf ⊢; omega)
      refine ⟨n, lex1, c1, by simp at hn ⊢; omega, hl1, ?_, ht, hv⟩
      rw [hmap, hsv] at hh
      simpa [cursor.steps_cons] using hh
  | shortcut x =>
    simp only [string_item.text, List.cons_append, List.nil_append, List.length_cons,
      List.length_nil] at h hf ⊢
    obtain ⟨n, rfl⟩ : ∃ n, fuel = n + 1 := ⟨fuel - 1, by omega⟩
    obtain ⟨lex1, c1, hb, hh, ht, hv⟩ := lex_scan_string_body_shortcut lex c e t rest k x hi hr h
    have hc : c ≠ 34 := by
      have := (Held.ascii h (by omega) (by omega)).consume_saved.1
      omega
    exact ⟨n, lex1, c1, by omega, lex_scan_string_loop_step n lex c e _ _ _ hc hb, hh, ht, hv⟩
  | unicode h1 h2 h3 h4 =>
    simp only [string_item.text, List.cons_append, List.nil_append, List.length_cons,
      List.length_nil] at h hf ⊢
    obtain ⟨n, rfl⟩ : ∃ n, fuel = n + 1 := ⟨fuel - 1, by omega⟩
    obtain ⟨lex1, c1, hb, hh, ht, hv⟩ := lex_scan_string_body_unicode lex c e t rest k
      h1 h2 h3 h4 hi hr h
    have hc : c ≠ 34 := by
      have := (Held.ascii h (by omega) (by omega)).consume_saved.1
      omega
    exact ⟨n, lex1, c1, by omega, lex_scan_string_loop_step n lex c e _ _ _ hc hb, hh, ht, hv⟩

/-- The first loop of `lex_scan_string` over the elements of the text. -/
theorem lex_scan_string_loop_items (e : json_error_t) (rest : List Nat) (hr : Readable rest) :
    ∀ (items : List string_item), (∀ i ∈ items, i.valid) →
      ∀ (fuel : Nat) (lex : lex_t) (c : Int) (t : List Nat) (k : cursor),
      Held lex c t (string_text items ++ rest) k → (string_text items).length < fuel →
      ∃ n lex1 c1, fuel ≤ n + (string_text items).length ∧
        lex_scan_string_loop fuel lex c e = lex_scan_string_loop n lex1 c1 e ∧
        Held lex1 c1 (t ++ string_text items) rest (k.steps (string_text items)) ∧
        lex1.token = lex.token ∧ lex1.value = lex.value := by
  intro items
  induction items with
  | nil =>
    intro _ fuel lex c t k h _
    exact ⟨fuel, lex, c, by simp [string_text], rfl, by simpa [string_text, cursor.steps] using h,
      rfl, rfl⟩
  | cons i items ih =>
    intro hv fuel lex c t k h hf
    have hi := hv i (List.mem_cons_self _ _)
    have hv1 : ∀ j ∈ items, j.valid := fun j hj => hv j (List.mem_cons_of_mem _ hj)
    simp only [string_text, List.append_assoc, List.length_append] at h hf ⊢
    obtain ⟨n, lex1, c1, hn, hl, hh, ht, hvv⟩ := lex_scan_string_loop_item e i hi
      (string_text items ++ rest) (string_text_readable items hv1 rest hr) fuel lex c t k h
      (by omega)
    obtain ⟨m, lex2, c2, hm, hl2, hh2, ht2, hv2⟩ := ih hv1 n lex1 c1 _ _ hh (by omega)
    refine ⟨m, lex2, c2, by omega, by rw [hl, hl2], ?_, by rw [ht2, ht], by rw [hv2, hvv]⟩
    rw [cursor.steps_append, ← List.append_assoc]
    exact hh2

theorem hex_digits_length (upper : Bool) :
    ∀ (fuel n : Nat), (hex_digits upper fuel n).length ≤ fuel := by
  intro fuel
  induction fuel with
  | zero => intro n; simp [hex_digits]
  | succ f ih =>
    intro n
    simp only [hex_digits]
    split_ifs
    · simp
    · have := ih (n / 16)
      simp only [List.length_append, List.length_cons, List.length_nil]
      omega

theorem fmt_04X_length (c : Int) : (fmt_04X c).length ≤ 8 := by
  have := hex_digits_length true 8 c.toNat
  simp only [fmt_04X, List.length_append, List.length_replicate]
  omega

/-- The messages of the reference unescaping are short enough for the text of
an error report. -/
theorem unescape_error_length :
    ∀ (m : Nat) (items : List string_item) (msg : List Nat), items.length ≤ m →
      unescape items = .error msg → msg.length ≤ 100 := by
  have h1 : ∀ c : Int, (str "invalid Unicode '\\u" ++ fmt_04X c ++ str "'").length ≤ 100 := by
    intro c
    have := fmt_04X_length c
    have e1 : (str "invalid Unicode '\\u").length = 19 := by decide
    have e2 : (str "'").length = 1 := by decide
    simp only [List.length_append, e1, e2]
    omega
  have h2 : ∀ c d : Int, (str "invalid Unicode '\\u" ++ fmt_04X c ++ str "\\u" ++ fmt_04X d ++
      str "'").length ≤ 100 := by
    intro c d
    have := fmt_04X_length c
    have := fmt_04X_length d
    have e1 : (str "invalid Unicode '\\u").length = 19 := by decide
    have e2 : (str "'").length = 1 := by decide
    have e3 : (str "\\u").length = 2 := by decide
    simp only [List.length_append, e1, e2, e3]
    omega
  have hp : ∀ (bs : List Nat) (r : Except (List Nat) (List Nat)) (msg : List Nat),
      prepend bs r = .error msg → r = .error msg := by
    intro bs r msg h
    cases r with
    | ok u => simp [prepend] at h
    | error m => simpa [prepend] using h
  intro m
  induction m with
  | zero =>
    intro items msg hl h
    have : items = [] := List.length_eq_zero.mp (Nat.le_zero.mp hl)
    subst this
    simp [unescape] at h
  | succ m ih =>
    intro items msg hl h
    cases items with
    | nil => simp [unescape] at h
    | cons i rest =>
      have hl1 : rest.length ≤ m := by simp at hl; omega
      cases i with
      | lit bs =>
        simp only [unescape] at h
        exact ih rest msg hl1 (hp _ _ _ h)
      | shortcut c =>
        simp only [unescape] at h
        exact ih rest msg hl1 (hp _ _ _ h)
      | unicode a b c d =>
        by_cases hs : 0xD800 ≤ code_unit a b c d ∧ code_unit a b c d ≤ 0xDBFF
        · cases rest with
          | nil =>
            simp only [unescape, hs, and_self, ite_true, Except.error.injEq] at h
            rw [← h]; exact h1 _
          | cons j rest1 =>
            cases j with
            | lit bs =>
              simp only [unescape, hs, and_self, ite_true, Except.error.injEq] at h
              rw [← h]; exact h1 _
            | shortcut x =>
              simp only [unescape, hs, and_self, ite_true, Except.error.injEq] at h
              rw [← h]; exact h1 _
            | unicode a' b' c' d' =>
              simp only [unescape, hs, and_self, ite_true] at h
              by_cases hlow : 0xDC00 ≤ code_unit a' b' c' d' ∧ code_unit a' b' c' d' ≤ 0xDFFF
              · simp only [hlow, and_self, ite_true] at h
                exact ih rest1 msg (by simp at hl; omega) (hp _ _ _ h)
              · simp only [hlow, ite_false, Except.error.injEq] at h
                rw [← h]; exact h2 _ _
        · by_cases hl2 : 0xDC00 ≤ code_unit a b c d ∧ code_unit a b c d ≤ 0xDFFF
          · rw [unescape_low a b c d rest hl2] at h
            simp only [Except.error.injEq] at h
            rw [← h]; exact h1 _
          · rw [unescape_unicode a b c d rest hs hl2] at h
            exact ih rest msg hl1 (hp _ _ _ h)

theorem string_text_nonzero (items : List string_item) (h : ∀ i ∈ items, i.valid) :
    ∀ b ∈ string_text items, b ≠ 0 := by
  induction items with
  | nil => intro b hb; cases hb
  | cons i items ih =>
    intro b hb
    simp only [string_text, List.mem_append] at hb
    rcases hb with hb | hb
    · have hi := h i (List.mem_cons_self _ _)
      cases i with
      | lit bs =>
        rcases hi with ⟨x, hx, h1, _⟩ | hseq
        · subst hx
          simp only [string_item.text, List.mem_singleton] at hb
          omega
        · obtain ⟨b0, bs', hc, h1, _, _, _, h5⟩ := utf8_sequence_cases _ hseq
          subst hc
          simp only [string_item.text, List.mem_cons] at hb
          rcases hb with hb | hb
          · omega
          · have := h5 b hb; omega
      | shortcut c =>
        unfold string_item.valid is_shortcut at hi
        simp only [string_item.text, List.mem_cons, List.mem_singleton, List.not_mem_nil,
          or_false] at hb
        omega
      | unicode h1 h2 h3 h4 =>
        unfold string_item.valid is_hex at hi
        simp only [string_item.text, List.mem_cons, List.mem_singleton, List.not_mem_nil,
          or_false] at hb
        omega
    · exact ih (fun j hj => h j (List.mem_cons_of_mem _ hj)) b hb

theorem error_set_cursor (error : json_error_t) (lex : lex_t) (msg t : List Nat) (k : cursor)
    (hmsg : msg.length ≤ 100) (hsv : lex.saved_text = t) (hne : t ≠ [])
    (hnz : ∀ b ∈ t, b ≠ 0) (hcur : lex.stream.cursor = k) :
    error_set error (some lex) msg = report_at error k (with_context msg t) := by
  subst hsv
  rw [error_set_some error lex msg hmsg hne hnz]
  simp only [stream_t.cursor] at hcur
  subst hcur
  rfl

/-- The function `lex_scan_string` on a literal of well-formed elements, the
opening quote read and saved. -/
theorem lex_scan_string_literal (lex : lex_t) (e : json_error_t) (items : List string_item)
    (hv : ∀ i ∈ items, i.valid) (r : List Nat) (k : cursor)
    (h : Peeked lex 34 [] (34 :: (string_text items ++ 34 :: r)) k) :
    ∃ lex1 e1, lex_scan_string lex e = some (lex1, e1) ∧
      lex1.saved_text = 34 :: string_text items ++ [34] ∧
      Ready lex1.stream r (k.steps (34 :: string_text items ++ [34])) ∧
      scanned_string items lex1 e e1 (k.steps (34 :: string_text items ++ [34])) := by
  obtain ⟨_, _, _, hsv, hrd⟩ := h.consume_saved
  simp only [List.nil_append] at hsv
  have hlen := hrd.length_le
  unfold lex_scan_string
  simp only
  generalize hL : ({ lex with value := lex_value.string none, token := TOKEN_INVALID } : lex_t)
    = L
  have hLs : L.saved_text = [34] := by rw [← hL]; exact hsv
  have hLr : Ready L.stream (string_text items ++ 34 :: r) (k.step 34) := by rw [← hL]; exact hrd
  have hLt : L.token = TOKEN_INVALID := by rw [← hL]
  have hLv : L.value = lex_value.string none := by rw [← hL]
  have hLd : L.stream.data.length = lex.stream.data.length := by rw [← hL]
  have hq : Readable (34 :: r) := Or.inl (Or.inr ⟨34, r, rfl, by omega, by omega⟩)
  obtain ⟨hh, he, ht, hvv⟩ := lex_get_save_held L e _ _ hLr
    (string_text_readable items hv _ hq)
  generalize lex_get_save L e = q at hh he ht hvv ⊢
  obtain ⟨c, lexa, ea⟩ := q
  simp only at hh he ht hvv ⊢
  subst he
  rw [hLs] at hh
  obtain ⟨n, lex2, c2, hn, hl, hh2, ht2, hv2⟩ := lex_scan_string_loop_items ea (34 :: r) hq items
    hv (L.stream.data.length + 6) lexa c [34] (k.step 34) hh (by
      simp only [List.length_append, List.length_cons] at hlen
      omega)
  obtain ⟨hc2, _, _, hsv2, hrd2⟩ := (Held.ascii hh2 (by omega) (by omega)).consume_saved
  subst hc2
  obtain ⟨m, rfl⟩ : ∃ m, n = m + 1 := ⟨n - 1, by
    simp only [List.length_append, List.length_cons] at hlen
    omega⟩
  have hloop : lex_scan_string_loop (m + 1) lex2 ((34 : Nat) : Int) ea = some (true, lex2, ea) := by
    simp [lex_scan_string_loop]
  rw [hLd] at hl
  rw [hl, hloop]
  simp only
  have hsaved : lex2.saved_text = 34 :: string_text items ++ [34] := by
    rw [hsv2]; simp
  have hcur : ((k.step 34).steps (string_text items)).step 34 =
      k.steps (34 :: string_text items ++ [34]) := by
    simp [cursor.steps]
  rw [hcur] at hrd2
  have hd := lex_scan_string_decode_items lex2 ea [] items.length items (Nat.le_refl _)
    (fun i hi => string_item.valid_ok (hv i hi)) (lex2.saved_text.length + 1) [] (by rw [hsaved]; simp; omega)
  have hp : lex2.saved_text.drop 1 = string_text items ++ [34] := by rw [hsaved]; rfl
  rw [hp, hd]
  unfold scanned_string
  cases hu : unescape items with
  | error msg =>
    simp only [decode_result]
    refine ⟨_, _, rfl, hsaved, hrd2, ?_, rfl, ?_⟩
    · simp only [lex_free_string]
      rw [ht2, ht, hLt]
    · apply error_set_cursor _ _ _ _ _ (unescape_error_length _ _ _ (Nat.le_refl _) hu) hsaved
        (by simp) _ hrd2.cur
      intro b hb
      simp only [List.cons_append, List.mem_cons, List.mem_append, List.mem_singleton,
        List.not_mem_nil, or_false] at hb
      rcases hb with hb | hb | hb
      · omega
      · exact string_text_nonzero items hv b hb
      · omega
  | ok u =>
    simp only [decode_result, List.nil_append]
    exact ⟨_, _, rfl, hsaved, hrd2, rfl, rfl, rfl⟩

theorem unescape_append :
    ∀ (m : Nat) (pre rest : List string_item) (u : List Nat), pre.length ≤ m →
      unescape pre = .ok u → unescape (pre ++ rest) = prepend u (unescape rest) := by
  have hp : ∀ (bs : List Nat) (r : Except (List Nat) (List Nat)) (u : List Nat),
      prepend bs r = .ok u → ∃ v, r = .ok v ∧ u = bs ++ v := by
    intro bs r u h
    cases r with
    | ok v => exact ⟨v, rfl, by simpa [prepend] using h.symm⟩
    | error m => simp [prepend] at h
  have hpp : ∀ (a b : List Nat) (r : Except (List Nat) (List Nat)),
      prepend a (prepend b r) = prepend (a ++ b) r := by
    intro a b r
    cases r <;> simp [prepend]
  intro m
  induction m with
  | zero =>
    intro pre rest u hl h
    have : pre = [] := List.length_eq_zero.mp (Nat.le_zero.mp hl)
    subst this
    simp only [unescape, Except.ok.injEq] at h
    subst h
    simp only [List.nil_append]
    generalize unescape rest = q
    cases q <;> simp [prepend]
  | succ m ih =>
    intro pre rest u hl h
    cases pre with
    | nil =>
      simp only [unescape, Except.ok.injEq] at h
      subst h
      simp only [List.nil_append]
      generalize unescape rest = q
      cases q <;> simp [prepend]
    | cons i pre1 =>
      have hl1 : pre1.length ≤ m := by simp at hl; omega
      cases i with
      | lit bs =>
        simp only [List.cons_append]
        simp only [unescape] at h ⊢
        obtain ⟨v, hv, rfl⟩ := hp _ _ _ h
        rw [ih pre1 rest v hl1 hv, hpp]
      | shortcut c =>
        simp only [List.cons_append]
        simp only [unescape] at h ⊢
        obtain ⟨v, hv, rfl⟩ := hp _ _ _ h
        rw [ih pre1 rest v hl1 hv, hpp]
      | unicode a b c d =>
        by_cases hs : 0xD800 ≤ code_unit a b c d ∧ code_unit a b c d ≤ 0xDBFF
        · cases pre1 with
          | nil => simp [unescape, hs] at h
          | cons j pre2 =>
            cases j with
            | lit bs => simp [unescape, hs] at h
            | shortcut x => simp [unescape, hs] at h
            | unicode a' b' c' d' =>
              simp only [List.cons_append]
              simp only [unescape, hs, and_self, ite_true] at h ⊢
              by_cases hlow : 0xDC00 ≤ code_unit a' b' c' d' ∧ code_unit a' b' c' d' ≤ 0xDFFF
              · simp only [hlow, and_self, ite_true] at h ⊢
                obtain ⟨v, hv, rfl⟩ := hp _ _ _ h
                rw [ih pre2 rest v (by simp at hl; omega) hv, hpp]
              · simp [hlow] at h
        · by_cases hl2 : 0xDC00 ≤ code_unit a b c d ∧ code_unit a b c d ≤ 0xDFFF
          · rw [unescape_low a b c d pre1 hl2] at h
            cases h
          · rw [unescape_unicode a b c d pre1 hs hl2] at h
            rw [List.cons_append, unescape_unicode a b c d _ hs hl2]
            obtain ⟨v, hv, rfl⟩ := hp _ _ _ h
            rw [ih pre1 rest v hl1 hv, hpp]

/-- The function `lex_scan` on a string literal of well-formed elements after
whitespace. -/
theorem lex_scan_string_token (ctx : json_context_t) (flags : load_flags) (ws : List Nat)
    (items : List string_item) (r : List Nat) (lex : lex_t) (k : cursor) (e : json_error_t)
    (hws : all_space ws) (hv : ∀ i ∈ items, i.valid)
    (h : Ready lex.stream (ws ++ 34 :: (string_text items ++ 34 :: r)) k) :
    ∃ lex1 e1, lex_scan ctx lex flags e = some (lex1, e1) ∧
      lex1.saved_text = 34 :: string_text items ++ [34] ∧
      Ready lex1.stream r (k.steps (ws ++ (34 :: string_text items ++ [34]))) ∧
      scanned_string items lex1 e e1 (k.steps (ws ++ (34 :: string_text items ++ [34]))) := by
  obtain ⟨lex0, hp, _, _, heq⟩ := lex_scan_enter ctx flags ws 34 _ hws (by omega) (by omega)
    (by unfold not_space; omega) lex k e h
  obtain ⟨lex1, e1, h1, h2, h3, h4⟩ := lex_scan_string_literal lex0 e items hv r _ hp
  refine ⟨lex1, e1, ?_, h2, ?_, ?_⟩
  · rw [heq]
    unfold lex_scan_token
    simp only [show ¬ (((34 : Nat) : Int) = 123 ∨ ((34 : Nat) : Int) = 125 ∨
      ((34 : Nat) : Int) = 91 ∨ ((34 : Nat) : Int) = 93 ∨ ((34 : Nat) : Int) = 58 ∨
      ((34 : Nat) : Int) = 44) by decide, ite_false, show ((34 : Nat) : Int) = 34 by decide,
      ite_true]
    exact h1
  · rw [cursor.steps_append]; exact h3
  · rw [cursor.steps_append]; exact h4

theorem unescape_lone_surrogate (rest : List string_item) (msg : List Nat)
    (h : lone_surrogate rest = some msg) : unescape rest = .error msg := by
  cases rest with
  | nil => simp [lone_surrogate] at h
  | cons i rest1 =>
    cases i with
    | lit bs => simp [lone_surrogate] at h
    | shortcut c => simp [lone_surrogate] at h
    | unicode a b c d =>
      by_cases hs : 0xD800 ≤ code_unit a b c d ∧ code_unit a b c d ≤ 0xDBFF
      · cases rest1 with
        | nil =>
          simp only [lone_surrogate, hs, and_self, ite_true, Option.some.injEq] at h
          simp only [unescape, hs, and_self, ite_true, h]
        | cons j rest2 =>
          cases j with
          | lit bs =>
            simp only [lone_surrogate, hs, and_self, ite_true, Option.some.injEq] at h
            simp only [unescape, hs, and_self, ite_true, h]
          | shortcut x =>
            simp only [lone_surrogate, hs, and_self, ite_true, Option.some.injEq] at h
            simp only [unescape, hs, and_self, ite_true, h]
          | unicode a' b' c' d' =>
            by_cases hl : 0xDC00 ≤ code_unit a' b' c' d' ∧ code_unit a' b' c' d' ≤ 0xDFFF
            · simp [lone_surrogate, hs, hl] at h
            · simp only [lone_surrogate, hs, and_self, ite_true, hl, ite_false,
                Option.some.injEq] at h
              simp only [unescape, hs, and_self, ite_true, hl, ite_false, h]
      · by_cases hl : 0xDC00 ≤ code_unit a b c d ∧ code_unit a b c d ≤ 0xDFFF
        · simp only [lone_surrogate, hs, ite_false, hl, and_self, ite_true,
            Option.some.injEq] at h
          rw [unescape_low a b c d rest1 hl, h]
        · simp [lone_surrogate, hs, hl] at h

/-- C8: a string literal whose well-formed elements `pre` unescape and are
followed by a surrogate escape that is not part of a pair (a `\uXXXX` in
0xD800-0xDBFF that no `\uXXXX` in 0xDC00-0xDFFF follows immediately, or a
`\uXXXX` in 0xDC00-0xDFFF) and by any well-formed elements: `lex_scan` gives
the invalid token with no string payload and reports the message that names
the code unit or units, `invalid Unicode '\uXXXX'` for a lone surrogate and
`invalid Unicode '\uXXXX\uYYYY'` for a high surrogate followed by an escape
that is no low surrogate. -/
theorem lex_scan_string_lone_surrogate (ctx : json_context_t) (flags : load_flags)
    (ws : List Nat) (pre rest : List string_item) (r : List Nat) (lex : lex_t) (k : cursor)
    (e : json_error_t) (u msg : List Nat) (hws : all_space ws)
    (hpre : ∀ i ∈ pre, i.valid) (hrest : ∀ i ∈ rest, i.valid)
    (hu : unescape pre = .ok u) (hs : lone_surrogate rest = some msg)
    (h : Ready lex.stream (ws ++ 34 :: (string_text (pre ++ rest) ++ 34 :: r)) k) :
    ∃ lex1 e1, lex_scan ctx lex flags e = some (lex1, e1) ∧
      lex1.token = TOKEN_INVALID ∧ lex1.value = lex_value.string none ∧
      e1 = report_at e (k.steps (ws ++ (34 :: string_text (pre ++ rest) ++ [34])))
        (with_context msg (34 :: string_text (pre ++ rest) ++ [34])) := by
  have hv : ∀ i ∈ pre ++ rest, i.valid := by
    intro i hi
    rcases List.mem_append.mp hi with h1 | h1
    · exact hpre i h1
    · exact hrest i h1
  obtain ⟨lex1, e1, h1, _, _, h4⟩ := lex_scan_string_token ctx flags ws (pre ++ rest) r lex k e
    hws hv h
  have hun : unescape (pre ++ rest) = .error msg := by
    rw [unescape_append pre.length pre rest u (Nat.le_refl _) hu,
      unescape_lone_surrogate rest msg hs]
    rfl
  unfold scanned_string at h4
  rw [hun] at h4
  exact ⟨lex1, e1, h1, h4.1, h4.2.1, h4.2.2⟩

theorem lex_scan_string_lone_surrogate_witness :
    ∃ lex1 e1, lex_scan plain_context (lex_init get_func.buffer_get (str "\"\\ud800\""))
        no_flags jsonp_error_init = some (lex1, e1) ∧
      lex1.token = TOKEN_INVALID ∧ lex1.value = lex_value.string none ∧
      e1 = report_at jsonp_error_init
        (cursor_init.steps ([] ++ (34 :: string_text ([] ++ [.unicode 100 56 48 48]) ++ [34])))
        (with_context (str "invalid Unicode '\\uD800'")
          (34 :: string_text ([] ++ [.unicode 100 56 48 48]) ++ [34])) :=
  lex_scan_string_lone_surrogate plain_context no_flags [] [] [.unicode 100 56 48 48] []
    (lex_init get_func.buffer_get (str "\"\\ud800\"")) cursor_init jsonp_error_init []
    (str "invalid Unicode '\\uD800'") (by intro b hb; cases hb) (by intro i hi; cases hi)
    (by
      intro i hi
      simp only [List.mem_singleton] at hi
      subst hi
      exact ⟨Or.inr (Or.inr (by decide)), Or.inl (by decide), Or.inl (by decide),
        Or.inl (by decide)⟩)
    rfl (by decide) (ready_init_buffer _ (by decide))

/-- The function `lex_scan_string` up to the element of the literal that
follows the well-formed elements `items`. -/
theorem lex_scan_string_items (lex : lex_t) (e : json_error_t) (items : List string_item)
    (hv : ∀ i ∈ items, i.valid) (rest : List Nat) (hr : Readable rest) (k : cursor)
    (h : Peeked lex 34 [] (34 :: (string_text items ++ rest)) k) :
    ∃ n lex2 c2, lex_scan_string lex e =
        lex_scan_string_finish (lex_scan_string_loop (n + 1) lex2 c2 e) ∧
      Held lex2 c2 (34 :: string_text items) rest (k.steps (34 :: string_text items)) ∧
      lex2.token = TOKEN_INVALID ∧ lex2.value = lex_value.string none := by
  obtain ⟨_, _, _, hsv, hrd⟩ := h.consume_saved
  simp only [List.nil_append] at hsv
  have hlen := hrd.length_le
  have hfin : lex_scan_string lex e = lex_scan_string_finish
      (lex_scan_string_loop (lex.stream.data.length + 6)
        (lex_get_save { lex with value := lex_value.string none, token := TOKEN_INVALID } e).2.1
        (lex_get_save { lex with value := lex_value.string none, token := TOKEN_INVALID } e).1
        (lex_get_save { lex with value := lex_value.string none, token := TOKEN_INVALID } e).2.2)
      := rfl
  rw [hfin]
  generalize hL : ({ lex with value := lex_value.string none, token := TOKEN_INVALID } : lex_t)
    = L
  have hLs : L.saved_text = [34] := by rw [← hL]; exact hsv
  have hLr : Ready L.stream (string_text items ++ rest) (k.step 34) := by rw [← hL]; exact hrd
  have hLt : L.token = TOKEN_INVALID := by rw [← hL]
  have hLv : L.value = lex_value.string none := by rw [← hL]
  obtain ⟨hh, he, ht, hvv⟩ := lex_get_save_held L e _ _ hLr
    (string_text_readable items hv _ hr)
  generalize lex_get_save L e = q at hh he ht hvv ⊢
  obtain ⟨c, lexa, ea⟩ := q
  simp only at hh he ht hvv ⊢
  subst he
  rw [hLs] at hh
  obtain ⟨n, lex2, c2, hn, hl, hh2, ht2, hv2⟩ := lex_scan_string_loop_items ea rest hr items
    hv (lex.stream.data.length + 6) lexa c [34] (k.step 34) hh (by
      simp only [List.length_append] at hlen
      omega)
  obtain ⟨m, rfl⟩ : ∃ m, n = m + 1 := ⟨n - 1, by
    simp only [List.length_append] at hlen
    omega⟩
  refine ⟨m, lex2, c2, by rw [hl], ?_, by rw [ht2, ht, hLt], by rw [hv2, hvv, hLv]⟩
  simpa [cursor.steps] using hh2

theorem fmt_x_length (c : Int) : (fmt_x c).length ≤ 8 := hex_digits_length false 8 c.toNat

/-- The body of the first loop of `lex_scan_string` at a control character:
the character is pushed back and unsaved, and the error is reported there. -/
theorem lex_scan_string_body_control (lex : lex_t) (c : Int) (e : json_error_t)
    (t : List Nat) (b : Nat) (r : List Nat) (k : cursor) (hb : b ≤ 31)
    (h : Held lex c t (b :: r) k) :
    ∃ lex1, lex_scan_string_body lex c e = (none, lex1, error_set e (some lex1)
        (if b = 10 then str "unexpected newline"
          else str "control character 0x" ++ fmt_x (b : Int))) ∧
      lex1.saved_text = t ∧ lex1.stream.cursor = k ∧ lex1.token = lex.token ∧
      lex1.value = lex.value ∧ c ≠ 34 := by
  by_cases h0 : b = 0
  · subst h0
    rcases h with ⟨hg, _⟩ | ⟨b0, bs, r1, h1, h2, _⟩ | ⟨r1, _, hc, hcur, hsv⟩
    · rcases hg with ⟨_, h2, _⟩ | ⟨b, r2, h1, _, h3, _⟩
      · cases h2
      · simp only [List.cons.injEq] at h1
        omega
    · obtain ⟨b0', bs', hc, hl, _⟩ := utf8_sequence_cases _ h2
      simp only [List.cons_append, List.cons.injEq] at h1 hc
      omega
    · subst hc
      unfold lex_scan_string_body
      simp only [show ¬ ((0 : Int) = STREAM_STATE_ERROR) by decide,
        show ¬ ((0 : Int) = STREAM_STATE_EOF) by decide,
        show ((0 : Int) ≤ 0 ∧ (0 : Int) ≤ 0x1F) by decide, ite_true, ite_false,
        show ¬ ((0 : Int) = 10) by decide, show ¬ ((0 : Nat) = 10) by decide]
      refine ⟨_, rfl, ?_, ?_, ?_, ?_, by decide⟩
      · simp [lex_unget_unsave, STREAM_STATE_EOF, STREAM_STATE_ERROR, hsv]
      · simp only [lex_unget_unsave, stream_unget, STREAM_STATE_EOF, STREAM_STATE_ERROR,
          show (0 : Int) ≠ -1 ∧ (0 : Int) ≠ -2 by decide, ne_eq, not_false_eq_true, and_self,
          ite_true, show ¬ ((0 : Int) = -1 ∨ (0 : Int) = -2) by decide, ite_false,
          show ¬ ((0 : Int) = 10) by decide, show utf8_check_first 0 ≠ 0 by decide]
        simp only [stream_t.cursor, cursor.step, show ¬ ((0 : Nat) = 10) by decide, ite_false,
          show utf8_check_first ((0 : Nat) : Int) ≠ 0 by decide, ne_eq, not_false_eq_true,
          ite_true, cursor.mk.injEq, or_self] at hcur ⊢
        obtain ⟨kp, kl, kc⟩ := k
        simp only [cursor.mk.injEq] at hcur ⊢
        omega
      · exact lex_unget_unsave_token lex 0
      · unfold lex_unget_unsave
        split_ifs <;> rfl
  · have hp := Held.ascii h (by omega) (by omega)
    obtain ⟨hsv, hrd, htk, hvl⟩ := lex_unget_unsave_peeked lex c t (b :: r) k hp
    obtain ⟨hc, _, _, _, _⟩ := hp.consume_saved
    subst hc
    unfold lex_scan_string_body
    have a1 : ¬ ((b : Int) = STREAM_STATE_ERROR) := by simp only [STREAM_STATE_ERROR]; omega
    have a2 : ¬ ((b : Int) = STREAM_STATE_EOF) := by simp only [STREAM_STATE_EOF]; omega
    have a3 : (0 : Int) ≤ (b : Int) ∧ (b : Int) ≤ 0x1F := by omega
    have a4 : ((b : Int) = 10) ↔ b = 10 := by omega
    simp only [a1, a2, a3, and_self, ite_true, ite_false, a4]
    refine ⟨_, ?_, hsv, hrd.cur, htk, hvl, by omega⟩
    by_cases h10 : b = 10 <;> simp only [h10, ite_true, ite_false]

theorem cursor_steps_position (bs : List Nat) :
    ∀ k : cursor, (k.steps bs).position = k.position + bs.length := by
  induction bs with
  | nil => intro k; rfl
  | cons b bs ih =>
    intro k
    rw [cursor.steps_cons, ih]
    have : (k.step b).position = k.position + 1 := by
      unfold cursor.step
      split_ifs <;> rfl
    rw [this, List.length_cons]
    omega

theorem cursor_steps_line (bs : List Nat) (h : ∀ b ∈ bs, b ≠ 10) :
    ∀ k : cursor, (k.steps bs).line = k.line := by
  induction bs with
  | nil => intro k; rfl
  | cons b bs ih =>
    intro k
    rw [cursor.steps_cons, ih (fun x hx => h x (List.mem_cons_of_mem _ hx))]
    have hb := h b (List.mem_cons_self _ _)
    unfold cursor.step
    simp only [hb, ite_false]
    split_ifs <;> rfl

theorem string_text_no_control (items : List string_item) (h : ∀ i ∈ items, i.valid) :
    ∀ b ∈ string_text items, 32 ≤ b := by
  induction items with
  | nil => intro b hb; cases hb
  | cons i items ih =>
    intro b hb
    simp only [string_text, List.mem_append] at hb
    rcases hb with hb | hb
    · have hi := h i (List.mem_cons_self _ _)
      cases i with
      | lit bs =>
        rcases hi with ⟨x, hx, h1, _⟩ | hseq
        · subst hx
          simp only [string_item.text, List.mem_singleton] at hb
          omega
        · obtain ⟨b0, bs', hc, h1, _, _, _, h5⟩ := utf8_sequence_cases _ hseq
          subst hc
          simp only [string_item.text, List.mem_cons] at hb
          rcases hb with hb | hb
          · omega
          · have := h5 b hb; omega
      | shortcut c =>
        unfold string_item.valid is_shortcut at hi
        simp only [string_item.text, List.mem_cons, List.mem_singleton, List.not_mem_nil,
          or_false] at hb
        omega
      | unicode h1 h2 h3 h4 =>
        unfold string_item.valid is_hex at hi
        simp only [string_item.text, List.mem_cons, List.mem_singleton, List.not_mem_nil,
          or_false] at hb
        omega
    · exact ih (fun j hj => h j (List.mem_cons_of_mem _ hj)) b hb

/-- C9, amended: a string literal whose opening quote is followed by
well-formed elements and then, where the next element would start, by a raw
byte `c` in 0x00-0x1F: `lex_scan` gives the invalid token and reports
"unexpected newline" if `c` is LF and "control character 0x<c>" otherwise, after
pushing the byte back: the saved text ends just before the byte, the reported
position is the offset of the byte, and the reported line is the line of the
opening quote. -/
theorem lex_scan_string_control (ctx : json_context_t) (flags : load_flags) (ws : List Nat)
    (items : List string_item) (c : Nat) (r : List Nat) (lex : lex_t) (k : cursor)
    (e : json_error_t) (hws : all_space ws) (hv : ∀ i ∈ items, i.valid) (hc : c ≤ 0x1F)
    (h : Ready lex.stream (ws ++ 34 :: (string_text items ++ c :: r)) k) :
    ∃ lex1 e1, lex_scan ctx lex flags e = some (lex1, e1) ∧ lex1.token = TOKEN_INVALID ∧
      lex1.saved_text = 34 :: string_text items ∧
      e1 = report_at e (k.steps (ws ++ 34 :: string_text items))
        (with_context (if c = 10 then str "unexpected newline"
          else str "control character 0x" ++ fmt_x (c : Int)) (34 :: string_text items)) ∧
      (k.steps (ws ++ 34 :: string_text items)).position =
        k.position + (ws ++ 34 :: string_text items).length ∧
      (k.steps (ws ++ 34 :: string_text items)).line = (k.steps ws).line := by
  obtain ⟨lex0, hp, _, _, heq⟩ := lex_scan_enter ctx flags ws 34 _ hws (by omega) (by omega)
    (by unfold not_space; omega) lex k e h
  have hr : Readable (c :: r) := by
    by_cases h0 : c = 0
    · subst h0; exact Or.inr (Or.inr ⟨r, rfl⟩)
    · exact Or.inl (Or.inr ⟨c, r, rfl, by omega, by omega⟩)
  obtain ⟨n, lex2, c2, hfin, hh, ht, _⟩ := lex_scan_string_items lex0 e items hv (c :: r) hr _ hp
  obtain ⟨lex3, hb, hsv, hcur, htk, _, hq⟩ := lex_scan_string_body_control lex2 c2 e _ c r _ hc hh
  have hno := string_text_no_control items hv
  have hmsg : (if c = 10 then str "unexpected newline"
      else str "control character 0x" ++ fmt_x (c : Int)).length ≤ 100 := by
    split_ifs
    · decide
    · have := fmt_x_length (c : Int)
      have e1 : (str "control character 0x").length = 20 := by decide
      simp only [List.length_append, e1]
      omega
  have hrep := error_set_cursor e lex3 _ _ _ hmsg hsv (by simp) (by
    intro b hb
    rcases List.mem_cons.mp hb with hb | hb
    · omega
    · have := hno b hb; omega) hcur
  refine ⟨lex_free_string lex3, error_set e (some lex3) (if c = 10 then str "unexpected newline"
    else str "control character 0x" ++ fmt_x (c : Int)), ?_, ?_, hsv, ?_,
    cursor_steps_position _ k, ?_⟩
  · rw [heq]
    unfold lex_scan_token
    simp only [show ¬ (((34 : Nat) : Int) = 123 ∨ ((34 : Nat) : Int) = 125 ∨
      ((34 : Nat) : Int) = 91 ∨ ((34 : Nat) : Int) = 93 ∨ ((34 : Nat) : Int) = 58 ∨
      ((34 : Nat) : Int) = 44) by decide, ite_false, show ((34 : Nat) : Int) = 34 by decide,
      ite_true]
    rw [hfin, lex_scan_string_loop_out n lex2 c2 e _ _ hq hb]
    rfl
  · show lex3.token = TOKEN_INVALID
    rw [htk, ht]
  · rw [hrep, cursor.steps_append]
  · rw [cursor.steps_append]
    apply cursor_steps_line
    intro b hb
    rcases List.mem_cons.mp hb with hb | hb
    · omega
    · have := hno b hb; omega

theorem lex_scan_string_control_witness :
    ∃ lex1 e1, lex_scan plain_context (lex_init get_func.buffer_get (str "\"a\n\"")) no_flags
        jsonp_error_init = some (lex1, e1) ∧ lex1.token = TOKEN_INVALID ∧
      lex1.saved_text = 34 :: string_text [.lit [97]] ∧
      e1 = report_at jsonp_error_init (cursor_init.steps ([] ++ 34 :: string_text [.lit [97]]))
        (with_context (if 10 = 10 then str "unexpected newline"
          else str "control character 0x" ++ fmt_x ((10 : Nat) : Int))
          (34 :: string_text [.lit [97]])) ∧
      (cursor_init.steps ([] ++ 34 :: string_text [.lit [97]])).position =
        cursor_init.position + ([] ++ 34 :: string_text [.lit [97]]).length ∧
      (cursor_init.steps ([] ++ 34 :: string_text [.lit [97]])).line =
        (cursor_init.steps []).line :=
  lex_scan_string_control plain_context no_flags [] [.lit [97]] 10 [34]
    (lex_init get_func.buffer_get (str "\"a\n\"")) cursor_init jsonp_error_init
    (by intro b hb; cases hb)
    (by
      intro i hi
      simp only [List.mem_singleton] at hi
      subst hi
      exact Or.inl ⟨97, rfl, by decide, by decide, by decide, by decide⟩)
    (by decide) (ready_init_buffer _ (by decide))

/-- C9, as stated, fails: in the literal `"\<LF>"` the raw byte LF stands
before the closing quote, and the scan reports "invalid escape" with the LF
consumed (line 2, position 3, the LF in the saved text), not "unexpected
newline" at the LF. -/
theorem lex_scan_string_newline_after_backslash :
    (lex_scan plain_context (lex_init get_func.buffer_get [34, 92, 10, 34]) no_flags
        jsonp_error_init).map (fun r => (r.1.saved_text, r.2)) =
      some ([34, 92, 10],
        { reports := [{ line := 2, column := 0, position := 3,
                        text := str "invalid escape near '\"\\\n'" }],
          position := 0 }) := by
  decide!

theorem lex_scan_punct (ctx : json_context_t) (flags : load_flags) (ws : List Nat) (c : Nat)
    (rest : List Nat) (lex : lex_t) (k : cursor) (e : json_error_t) (hws : all_space ws)
    (hc : is_punct c) (h : Ready lex.stream (ws ++ c :: rest) k) :
    ∃ lex1, lex_scan ctx lex flags e = some (lex1, e) ∧ lex1.token = (c : Int) ∧
      lex1.saved_text = [c] ∧ Ready lex1.stream rest (k.steps (ws ++ [c])) := by
  unfold is_punct at hc
  obtain ⟨lex0, hp, _, _, heq⟩ := lex_scan_enter ctx flags ws c rest hws (by omega) (by omega)
    (by unfold not_space; omega) lex k e h
  obtain ⟨_, _, _, hsv, hrd⟩ := hp.consume_saved
  have hp1 : ((c : Int) = 123 ∨ (c : Int) = 125 ∨ (c : Int) = 91 ∨ (c : Int) = 93 ∨
      (c : Int) = 58 ∨ (c : Int) = 44) := by omega
  refine ⟨{ lex0 with token := (c : Int) }, ?_, rfl, by simpa using hsv, ?_⟩
  · rw [heq]
    unfold lex_scan_token
    simp only [hp1, ite_true]
  · rw [cursor.steps_append]
    simpa [cursor.steps] using hrd

theorem lex_scan_eof (ctx : json_context_t) (flags : load_flags) (ws : List Nat) (lex : lex_t)
    (k : cursor) (e : json_error_t) (hws : all_space ws) (h : Ready lex.stream ws k) :
    ∃ lex1, lex_scan ctx lex flags e = some (lex1, e) ∧ lex1.token = TOKEN_EOF ∧
      lex1.stream.cursor = k.steps ws := by
  obtain ⟨lex1, h1, _, _, _, h5⟩ := lex_scan_front ctx flags ws [] hws (Or.inl rfl)
    (by simp [not_space, next_char, STREAM_STATE_EOF]) lex k e (by simpa using h)
  simp only [next_char, ite_true] at h5 h1
  refine ⟨_, h5, rfl, ?_⟩
  rcases h1 with ⟨_, _, h3⟩ | ⟨b, r, h2, _⟩
  · exact h3.cur
  · cases h2

theorem l_isalpha_nat (a : Nat) :
    l_isalpha (a : Int) = true ↔ ((65 ≤ a ∧ a ≤ 90) ∨ (97 ≤ a ∧ a ≤ 122)) := by
  unfold l_isalpha l_isupper l_islower
  simp only [Bool.or_eq_true, Bool.and_eq_true, decide_eq_true_eq]
  omega

theorem delim_alpha_append (as rest : List Nat) (has : all_alpha as) (hr : Delim rest) :
    Delim (as ++ rest) := by
  cases as with
  | nil => exact hr
  | cons d ds =>
    have := has d (List.mem_cons_self _ _)
    exact Or.inr ⟨d, ds ++ rest, rfl, by omega, by omega⟩

theorem lex_scan_alpha_run (as rest : List Nat) (has : all_alpha as) (hr : Delim rest)
    (hnd : l_isalpha (next_char rest) = false) :
    ∀ (fuel : Nat) (lex : lex_t) (c : Int) (t : List Nat) (k : cursor) (e : json_error_t),
      Peeked lex c t (as ++ rest) k → as.length < fuel →
      ∃ lex1, lex_scan_alpha fuel lex c e = some (next_char rest, lex1, e) ∧
        Peeked lex1 (next_char rest) (t ++ as) rest (k.steps as) ∧
        lex1.token = lex.token ∧ lex1.value = lex.value := by
  induction as with
  | nil =>
    intro fuel lex c t k e hp hf
    obtain ⟨n, rfl⟩ : ∃ n, fuel = n + 1 := ⟨fuel - 1, by simp at hf; omega⟩
    simp only [List.nil_append] at hp
    have hc := hp.1.next
    subst hc
    refine ⟨lex, ?_, by simpa [cursor.steps] using hp, rfl, rfl⟩
    simp [lex_scan_alpha, hnd]
  | cons d ds ih =>
    intro fuel lex c t k e hp hf
    obtain ⟨n, rfl⟩ : ∃ n, fuel = n + 1 := ⟨fuel - 1, by simp at hf; omega⟩
    have hd := has d (List.mem_cons_self _ _)
    have hds1 : all_alpha ds := fun x hx => has x (List.mem_cons_of_mem _ hx)
    simp only [List.cons_append] at hp
    obtain ⟨hc, hb0, hb, hsv, hrd⟩ := hp.consume_saved
    subst hc
    have hpk := lex_get_save_peek lex e (ds ++ rest) (k.step d) hrd
      (delim_alpha_append ds rest hds1 hr)
    have hunf : lex_scan_alpha (n + 1) lex (d : Int) e =
        lex_scan_alpha n (lex_get_save lex e).2.1 (lex_get_save lex e).1
          (lex_get_save lex e).2.2 := by
      simp [lex_scan_alpha, (l_isalpha_nat d).mpr hd]
    rw [hunf]
    generalize lex_get_save lex e = q at hpk ⊢
    obtain ⟨c1, lex1, e1⟩ := q
    obtain ⟨hp1, he1, ht1, hv1⟩ := hpk
    simp only at hp1 he1 ht1 hv1
    subst he1
    rw [hsv] at hp1
    obtain ⟨lex2, h1, h2, h3, h4⟩ := ih hds1 n lex1 c1 (t ++ [d]) (k.step d) e1 hp1
      (by simp at hf; omega)
    refine ⟨lex2, h1, ?_, by rw [h3, ht1], by rw [h4, hv1]⟩
    simpa [cursor.steps_cons] using h2

theorem lex_scan_literal (ctx : json_context_t) (flags : load_flags) (ws word : List Nat)
    (token : Int) (rest : List Nat) (lex : lex_t) (k : cursor) (e : json_error_t)
    (hws : all_space ws) (hw : is_literal word token) (hr : Delim rest)
    (hna : l_isalpha (next_char rest) = false)
    (h : Ready lex.stream (ws ++ (word ++ rest)) k) :
    ∃ lex1, lex_scan ctx lex flags e = some (lex1, e) ∧ lex1.token = token ∧
      lex1.saved_text = word ∧ Ready lex1.stream rest (k.steps (ws ++ word)) := by
  have hword : ∃ b as, word = b :: as ∧ all_alpha (b :: as) ∧ (∀ x ∈ word, x ≠ 0) := by
    rcases hw with ⟨h1, _⟩ | ⟨h1, _⟩ | ⟨h1, _⟩ <;> subst h1
    · exact ⟨116, str "rue", rfl, by unfold all_alpha; decide, by decide⟩
    · exact ⟨102, str "alse", rfl, by unfold all_alpha; decide, by decide⟩
    · exact ⟨110, str "ull", rfl, by unfold all_alpha; decide, by decide⟩
  obtain ⟨b, as, hbas, hal, hnz⟩ := hword
  have hb := hal b (List.mem_cons_self _ _)
  have has : all_alpha as := fun x hx => hal x (List.mem_cons_of_mem _ hx)
  rw [hbas] at h
  have hlen := h.length_le
  obtain ⟨lex0, hp, _, _, heq⟩ := lex_scan_enter ctx flags ws b (as ++ rest) hws (by omega)
    (by omega) (by unfold not_space; omega) lex k e (by simpa using h)
  obtain ⟨_, _, _, hsv, hrd⟩ := hp.consume_saved
  have hpk := lex_get_save_peek lex0 e (as ++ rest) _ hrd (delim_alpha_append as rest has hr)
  rw [heq]
  unfold lex_scan_token
  have hp1 : ¬ ((b : Int) = 123 ∨ (b : Int) = 125 ∨ (b : Int) = 91 ∨ (b : Int) = 93 ∨
      (b : Int) = 58 ∨ (b : Int) = 44) := by omega
  have hp2 : ¬ ((b : Int) = 34) := by omega
  have hp3 : ¬ (l_isdigit (b : Int) = true ∨ (b : Int) = 45) := by
    intro h'
    rcases h' with h' | h'
    · have := (l_isdigit_nat b).mp h'; omega
    · omega
  simp only [hp1, hp2, hp3, ite_false, (l_isalpha_nat b).mpr hb, ite_true]
  generalize lex_get_save lex0 e = q at hpk ⊢
  obtain ⟨c1, lex1, e1⟩ := q
  obtain ⟨hp1', he1, ht1, hv1⟩ := hpk
  simp only at hp1' he1 ht1 hv1 ⊢
  subst he1
  rw [hsv] at hp1'
  obtain ⟨lex2, h1, h2, h3, h4⟩ := lex_scan_alpha_run as rest has hr hna
    (lex.stream.data.length + 6) lex1 c1 _ _ e1 hp1' (by
      simp only [List.length_append, List.length_cons] at hlen
      omega)
  rw [h1]
  simp only
  obtain ⟨hu1, hu2, hu3, hu4⟩ := lex_unget_unsave_peeked _ _ _ _ _ h2
  simp only [List.nil_append, List.singleton_append] at hu1
  have hcs : c_str (lex_unget_unsave lex2 (next_char rest)).saved_text = word := by
    rw [hu1, ← hbas]
    exact c_str_eq_self _ hnz
  have hrd2 : Ready (lex_unget_unsave lex2 (next_char rest)).stream rest (k.steps (ws ++ word)) := by
    rw [hbas, cursor.steps_append, cursor.steps_cons]
    exact hu2
  rw [hcs]
  rcases hw with ⟨h1, h2⟩ | ⟨h1, h2⟩ | ⟨h1, h2⟩
  · subst h1; subst h2
    simp only [ite_true]
    exact ⟨_, rfl, rfl, by rw [hu1, ← hbas], hrd2⟩
  · subst h1; subst h2
    simp only [show ¬ (str "false" = str "true") by decide, ite_false, ite_true]
    exact ⟨_, rfl, rfl, by rw [hu1, ← hbas], hrd2⟩
  · subst h1; subst h2
    simp only [show ¬ (str "null" = str "true") by decide,
      show ¬ (str "null" = str "false") by decide, ite_false, ite_true]
    exact ⟨_, rfl, rfl, by rw [hu1, ← hbas], hrd2⟩

theorem parse_value_token_integer (ctx : json_context_t) (flags : load_flags) (n : Nat)
    (lex : lex_t) (e : json_error_t) (v : Int) (ht : lex.token = TOKEN_INTEGER)
    (hv : lex.value = lex_value.integer v) :
    parse_value ctx flags (n + 1) lex e =
      if flags.JSON_DECODE_INT_AS_REAL = true then
        if (ctx.jsonp_strtod lex.saved_text).rc ≠ 0 then
          some (none, lex, error_set e (some lex) (str "real number overflow"))
        else some (some (json_t.JSON_REAL (ctx.jsonp_strtod lex.saved_text).value), lex, e)
      else some (some (json_t.JSON_INTEGER v), lex, e) := by
  unfold parse_value
  simp only [ht, hv, TOKEN_INTEGER, TOKEN_STRING, show ¬ ((257 : Int) = 256) by decide, ite_false,
    ite_true]

theorem parse_value_token_biginteger (ctx : json_context_t) (flags : load_flags) (n : Nat)
    (lex : lex_t) (e : json_error_t) (v : json_bigz_t) (ht : lex.token = TOKEN_BIGINTEGER)
    (hv : lex.value = lex_value.bigz v) :
    parse_value ctx flags (n + 1) lex e = some (json_biginteger v, lex, e) := by
  unfold parse_value
  simp only [ht, hv, TOKEN_INTEGER, TOKEN_STRING, TOKEN_BIGINTEGER,
    show ¬ ((262 : Int) = 256) by decide, show ¬ ((262 : Int) = 257) by decide, ite_false,
    ite_true]

theorem parse_value_token_bigreal (ctx : json_context_t) (flags : load_flags) (n : Nat)
    (lex : lex_t) (e : json_error_t) (v : json_bigr_t) (ht : lex.token = TOKEN_BIGREAL)
    (hv : lex.value = lex_value.bigr v) :
    parse_value ctx flags (n + 1) lex e = some (json_bigreal v, lex, e) := by
  unfold parse_value
  simp only [ht, hv, TOKEN_INTEGER, TOKEN_STRING, TOKEN_BIGINTEGER, TOKEN_BIGREAL,
    show ¬ ((263 : Int) = 256) by decide, show ¬ ((263 : Int) = 257) by decide,
    show ¬ ((263 : Int) = 262) by decide, ite_false, ite_true]

theorem parse_value_token_real (ctx : json_context_t) (flags : load_flags) (n : Nat)
    (lex : lex_t) (e : json_error_t) (v : double) (ht : lex.token = TOKEN_REAL)
    (hv : lex.value = lex_value.real v) :
    parse_value ctx flags (n + 1) lex e = some (some (json_t.JSON_REAL v), lex, e) := by
  unfold parse_value
  simp only [ht, hv, TOKEN_INTEGER, TOKEN_STRING, TOKEN_BIGINTEGER, TOKEN_BIGREAL, TOKEN_REAL,
    show ¬ ((258 : Int) = 256) by decide, show ¬ ((258 : Int) = 257) by decide,
    show ¬ ((258 : Int) = 262) by decide, show ¬ ((258 : Int) = 263) by decide, ite_false,
    ite_true]

theorem parse_value_token_true (ctx : json_context_t) (flags : load_flags) (n : Nat)
    (lex : lex_t) (e : json_error_t) (ht : lex.token = TOKEN_TRUE) :
    parse_value ctx flags (n + 1) lex e = some (some json_t.JSON_TRUE, lex, e) := by
  unfold parse_value
  simp only [ht, TOKEN_INTEGER, TOKEN_STRING, TOKEN_BIGINTEGER, TOKEN_BIGREAL, TOKEN_REAL,
    TOKEN_TRUE, show ¬ ((259 : Int) = 256) by decide, show ¬ ((259 : Int) = 257) by decide,
    show ¬ ((259 : Int) = 262) by decide, show ¬ ((259 : Int) = 263) by decide,
    show ¬ ((259 : Int) = 258) by decide, ite_false, ite_true]

theorem parse_value_token_false (ctx : json_context_t) (flags : load_flags) (n : Nat)
    (lex : lex_t) (e : json_error_t) (ht : lex.token = TOKEN_FALSE) :
    parse_value ctx flags (n + 1) lex e = some (some json_t.JSON_FALSE, lex, e) := by
  unfold parse_value
  simp only [ht, TOKEN_INTEGER, TOKEN_STRING, TOKEN_BIGINTEGER, TOKEN_BIGREAL, TOKEN_REAL,
    TOKEN_TRUE, TOKEN_FALSE, show ¬ ((260 : Int) = 256) by decide,
    show ¬ ((260 : Int) = 257) by decide, show ¬ ((260 : Int) = 262) by decide,
    show ¬ ((260 : Int) = 263) by decide, show ¬ ((260 : Int) = 258) by decide,
    show ¬ ((260 : Int) = 259) by decide, ite_false, ite_true]

theorem parse_value_token_null (ctx : json_context_t) (flags : load_flags) (n : Nat)
    (lex : lex_t) (e : json_error_t) (ht : lex.token = TOKEN_NULL) :
    parse_value ctx flags (n + 1) lex e = some (some json_t.JSON_NULL, lex, e) := by
  unfold parse_value
  simp only [ht, TOKEN_INTEGER, TOKEN_STRING, TOKEN_BIGINTEGER, TOKEN_BIGREAL, TOKEN_REAL,
    TOKEN_TRUE, TOKEN_FALSE, TOKEN_NULL, show ¬ ((261 : Int) = 256) by decide,
    show ¬ ((261 : Int) = 257) by decide, show ¬ ((261 : Int) = 262) by decide,
    show ¬ ((261 : Int) = 263) by decide, show ¬ ((261 : Int) = 258) by decide,
    show ¬ ((261 : Int) = 259) by decide, show ¬ ((261 : Int) = 260) by decide, ite_false,
    ite_true]

theorem parse_value_token_string (ctx : json_context_t) (flags : load_flags) (n : Nat)
    (lex : lex_t) (e : json_error_t) (u : List Nat) (ht : lex.token = TOKEN_STRING)
    (hv : lex.value = lex_value.string (some u)) :
    parse_value ctx flags (n + 1) lex e =
      if flags.JSON_ALLOW_NUL = false ∧ 0 ∈ u then
        some (none, lex, error_set e (some lex)
          (str "\\u0000 is not allowed without JSON_ALLOW_NUL"))
      else some (some (json_t.JSON_STRING u), { lex with value := lex_value.string none }, e) := by
  unfold parse_value
  simp only [ht, hv, ite_true]

theorem parse_value_token_object (ctx : json_context_t) (flags : load_flags) (n : Nat)
    (lex : lex_t) (e : json_error_t) (ht : lex.token = 123) :
    parse_value ctx flags (n + 1) lex e = parse_object ctx flags n lex e := by
  unfold parse_value
  simp only [ht, TOKEN_INTEGER, TOKEN_STRING, TOKEN_BIGINTEGER, TOKEN_BIGREAL, TOKEN_REAL,
    TOKEN_TRUE, TOKEN_FALSE, TOKEN_NULL, show ¬ ((123 : Int) = 256) by decide,
    show ¬ ((123 : Int) = 257) by decide, show ¬ ((123 : Int) = 262) by decide,
    show ¬ ((123 : Int) = 263) by decide, show ¬ ((123 : Int) = 258) by decide,
    show ¬ ((123 : Int) = 259) by decide, show ¬ ((123 : Int) = 260) by decide,
    show ¬ ((123 : Int) = 261) by decide, ite_false, ite_true]

theorem parse_value_token_array (ctx : json_context_t) (flags : load_flags) (n : Nat)
    (lex : lex_t) (e : json_error_t) (ht : lex.token = 91) :
    parse_value ctx flags (n + 1) lex e = parse_array ctx flags n lex e := by
  unfold parse_value
  simp only [ht, TOKEN_INTEGER, TOKEN_STRING, TOKEN_BIGINTEGER, TOKEN_BIGREAL, TOKEN_REAL,
    TOKEN_TRUE, TOKEN_FALSE, TOKEN_NULL, show ¬ ((91 : Int) = 256) by decide,
    show ¬ ((91 : Int) = 257) by decide, show ¬ ((91 : Int) = 262) by decide,
    show ¬ ((91 : Int) = 263) by decide, show ¬ ((91 : Int) = 258) by decide,
    show ¬ ((91 : Int) = 259) by decide, show ¬ ((91 : Int) = 260) by decide,
    show ¬ ((91 : Int) = 261) by decide, show ¬ ((91 : Int) = 123) by decide, ite_false,
    ite_true]

theorem number_end_alpha (rest : List Nat) (h : number_end rest) :
    Delim rest ∧ l_isalpha (next_char rest) = false := by
  refine ⟨(number_end_follow rest h).1, ?_⟩
  rcases h with h | ⟨b, r, h, hb⟩
  · subst h; rfl
  · subst h
    simp only [next_char]
    cases ha : l_isalpha (b : Int)
    · rfl
    · have := (l_isalpha_nat b).mp ha
      omega

theorem number_end_space (ws rest : List Nat) (hws : all_space ws) (hr : number_end rest) :
    number_end (ws ++ rest) := by
  cases ws with
  | nil => exact hr
  | cons d ds =>
    have := hws d (List.mem_cons_self _ _)
    exact Or.inr ⟨d, ds ++ rest, rfl, by omega⟩

theorem number_end_punct (ws : List Nat) (c : Nat) (rest : List Nat) (hws : all_space ws)
    (hc : c = 44 ∨ c = 93 ∨ c = 125) : number_end (ws ++ c :: rest) :=
  number_end_space ws _ hws (Or.inr ⟨c, rest, rfl, by omega⟩)

theorem number_end_of_space (ws : List Nat) (hws : all_space ws) : number_end ws := by
  have := number_end_space ws [] hws (Or.inl rfl)
  simpa using this

theorem reads_literal (ctx : json_context_t) (flags : load_flags) (word : List Nat)
    (token : Int) (x : json_t) (hw : is_literal word token)
    (hp : ∀ n lex e, lex.token = token → parse_value ctx flags (n + 1) lex e = some (some x, lex, e)) :
    reads_value ctx flags word x := by
  intro ws rest lex k e hws hr h
  obtain ⟨hd, ha⟩ := number_end_alpha rest hr
  obtain ⟨lex1, h1, h2, _, h4⟩ := lex_scan_literal ctx flags ws word token rest lex k e hws hw hd
    ha h
  have htok : token = 259 ∨ token = 260 ∨ token = 261 := by
    rcases hw with ⟨_, h⟩ | ⟨_, h⟩ | ⟨_, h⟩
    · exact Or.inl h
    · exact Or.inr (Or.inl h)
    · exact Or.inr (Or.inr h)
  refine ⟨lex1, h1, by omega, by omega, ?_⟩
  intro n hn
  obtain ⟨m, rfl⟩ : ∃ m, n = m + 1 := ⟨n - 1, by omega⟩
  exact ⟨lex1, hp m lex1 e h2, h4⟩

theorem reads_string (ctx : json_context_t) (flags : load_flags) (items : List string_item)
    (x : json_t) (hv : ∀ i ∈ items, i.valid)
    (hx : (jscalar.string items).value ctx flags = some x) :
    reads_value ctx flags (jscalar.string items).text x := by
  intro ws rest lex k e hws hr h
  simp only [jscalar.text] at h ⊢
  obtain ⟨lex1, e1, h1, _, h3, h4⟩ := lex_scan_string_token ctx flags ws items rest lex k e hws hv
    (by simpa using h)
  simp only [jscalar.value] at hx
  unfold scanned_string at h4
  cases hu : unescape items with
  | error msg => rw [hu] at hx; cases hx
  | ok u =>
    rw [hu] at hx h4
    simp only at hx h4
    obtain ⟨ht, hval, he⟩ := h4
    subst he
    have hnul : ¬ (flags.JSON_ALLOW_NUL = false ∧ 0 ∈ u) := by
      intro hh
      rw [if_pos hh] at hx
      cases hx
    rw [if_neg hnul] at hx
    refine ⟨lex1, h1, by rw [ht]; decide, by rw [ht]; decide, ?_⟩
    intro n hn
    obtain ⟨m, rfl⟩ : ∃ m, n = m + 1 := ⟨n - 1, by omega⟩
    rw [parse_value_token_string ctx flags m lex1 e1 u ht hval, if_neg hnul]
    cases hx
    exact ⟨_, rfl, h3⟩

theorem reads_integer (ctx : json_context_t) (flags : load_flags) (sg ip : List Nat)
    (x : json_t) (hsg : sign_part sg) (hip : int_part ip)
    (hx : (jscalar.number sg ip [] []).value ctx flags = some x) :
    reads_value ctx flags (sg ++ ip) x := by
  intro ws rest lex k e hws hr h
  obtain ⟨hd, hnd, hnf⟩ := number_end_follow rest hr
  obtain ⟨lexU, hsv, hrd, htk, heq⟩ := lex_scan_integer_token ctx flags ws sg ip rest hws hsg hip
    hd hnd hnf lex k e (by simpa using h)
  simp only [jscalar.value, List.append_nil, and_self, ite_true] at hx
  rw [heq]
  unfold lex_scan_number_integer
  simp only [hsv]
  by_cases hA : flags.JSON_USE_BIGINT_ALWAYS = true
  · simp only [hA, ite_true] at hx ⊢
    refine ⟨_, rfl, by simp [TOKEN_BIGINTEGER], by simp [TOKEN_BIGINTEGER], ?_⟩
    intro n hn
    obtain ⟨m, rfl⟩ : ∃ m, n = m + 1 := ⟨n - 1, by omega⟩
    rw [parse_value_token_biginteger ctx flags m _ e _ rfl rfl, hx]
    exact ⟨_, rfl, hrd⟩
  · simp only [hA, Bool.false_eq_true, ite_false] at hx ⊢
    by_cases hO : (json_strtoint (sg ++ ip)).2 = true
    · simp only [hO, ite_true] at hx ⊢
      by_cases hB : flags.JSON_USE_BIGINT = true
      · simp only [hB, ite_true] at hx ⊢
        refine ⟨_, rfl, by simp [TOKEN_BIGINTEGER], by simp [TOKEN_BIGINTEGER], ?_⟩
        intro n hn
        obtain ⟨m, rfl⟩ : ∃ m, n = m + 1 := ⟨n - 1, by omega⟩
        rw [parse_value_token_biginteger ctx flags m _ e _ rfl rfl, hx]
        exact ⟨_, rfl, hrd⟩
      · simp only [hB, Bool.false_eq_true, ite_false] at hx
        cases hx
    · simp only [hO, Bool.false_eq_true, ite_false] at hx ⊢
      refine ⟨_, rfl, by simp [TOKEN_INTEGER], by simp [TOKEN_INTEGER], ?_⟩
      intro n hn
      obtain ⟨m, rfl⟩ : ∃ m, n = m + 1 := ⟨n - 1, by omega⟩
      rw [parse_value_token_integer ctx flags m _ e _ rfl rfl]
      simp only [hsv]
      by_cases hR : flags.JSON_DECODE_INT_AS_REAL = true
      · simp only [hR, ite_true] at hx ⊢
        by_cases hrc : (ctx.jsonp_strtod (sg ++ ip)).rc ≠ 0
        · rw [if_pos hrc] at hx
          cases hx
        · rw [if_neg hrc] at hx ⊢
          cases hx
          exact ⟨_, rfl, hrd⟩
      · simp only [hR, Bool.false_eq_true, ite_false] at hx ⊢
        cases hx
        exact ⟨_, rfl, hrd⟩

theorem reads_real (ctx : json_context_t) (flags : load_flags) (sg ip fr ex : List Nat)
    (x : json_t) (hsg : sign_part sg) (hip : int_part ip) (hfr : frac_part fr)
    (hex : exp_part ex) (hreal : ¬ (fr = [] ∧ ex = []))
    (hx : (jscalar.number sg ip fr ex).value ctx flags = some x) :
    reads_value ctx flags (sg ++ ip ++ fr ++ ex) x := by
  intro ws rest lex k e hws hr h
  have hreal1 : fr ≠ [] ∨ ex ≠ [] := by
    by_cases h1 : fr = []
    · exact Or.inr (fun h2 => hreal ⟨h1, h2⟩)
    · exact Or.inl h1
  obtain ⟨lexU, hsv, hrd, htk, heq⟩ := lex_scan_real_token ctx flags ws sg ip fr ex rest hws hsg
    hip hfr hex hreal1 (number_end_follow rest hr) lex k e h
  simp only [jscalar.value, hreal, ite_false] at hx
  rw [heq]
  unfold lex_scan_number_real
  simp only [hsv]
  by_cases hA : flags.JSON_USE_BIGREAL_ALWAYS = true
  · simp only [hA, true_or, ite_true] at hx ⊢
    refine ⟨_, rfl, by simp [TOKEN_BIGREAL], by simp [TOKEN_BIGREAL], ?_⟩
    intro n hn
    obtain ⟨m, rfl⟩ : ∃ m, n = m + 1 := ⟨n - 1, by omega⟩
    rw [parse_value_token_bigreal ctx flags m _ e _ rfl rfl, hx]
    exact ⟨_, rfl, hrd⟩
  · simp only [hA, Bool.false_eq_true, false_or, not_false_eq_true, and_true] at hx ⊢
    by_cases hB : flags.JSON_USE_BIGREAL = true
    · simp only [hB, true_and, ite_true, and_true] at hx ⊢
      by_cases hD : jsonp_count_significand_digits (sg ++ ip ++ fr) + 1 ≥ DBL_DIG
      · simp only [hD, ite_true] at hx ⊢
        refine ⟨_, rfl, by simp [TOKEN_BIGREAL], by simp [TOKEN_BIGREAL], ?_⟩
        intro n hn
        obtain ⟨m, rfl⟩ : ∃ m, n = m + 1 := ⟨n - 1, by omega⟩
        rw [parse_value_token_bigreal ctx flags m _ e _ rfl rfl, hx]
        exact ⟨_, rfl, hrd⟩
      · simp only [hD, ite_false] at hx ⊢
        by_cases hE : (ctx.jsonp_strtod (sg ++ ip ++ fr ++ ex)).erange = true
        · simp only [hE, ite_true] at hx ⊢
          refine ⟨_, rfl, by simp [TOKEN_BIGREAL], by simp [TOKEN_BIGREAL], ?_⟩
          intro n hn
          obtain ⟨m, rfl⟩ : ∃ m, n = m + 1 := ⟨n - 1, by omega⟩
          rw [parse_value_token_bigreal ctx flags m _ e _ rfl rfl, hx]
          exact ⟨_, rfl, hrd⟩
        · simp only [hE, Bool.false_eq_true, ite_false] at hx ⊢
          by_cases hrc : (ctx.jsonp_strtod (sg ++ ip ++ fr ++ ex)).rc ≠ 0
          · rw [if_pos hrc] at hx
            cases hx
          · rw [if_neg hrc] at hx ⊢
            cases hx
            refine ⟨_, rfl, by simp [TOKEN_REAL], by simp [TOKEN_REAL], ?_⟩
            intro n hn
            obtain ⟨m, rfl⟩ : ∃ m, n = m + 1 := ⟨n - 1, by omega⟩
            rw [parse_value_token_real ctx flags m _ e _ rfl rfl]
            exact ⟨_, rfl, hrd⟩
    · simp only [hB, Bool.false_eq_true, false_and, and_false, ite_false] at hx ⊢
      by_cases hrc : (ctx.jsonp_strtod (sg ++ ip ++ fr ++ ex)).rc ≠ 0
      · rw [if_pos hrc] at hx
        cases hx
      · rw [if_neg hrc] at hx ⊢
        cases hx
        refine ⟨_, rfl, by simp [TOKEN_REAL], by simp [TOKEN_REAL], ?_⟩
        intro n hn
        obtain ⟨m, rfl⟩ : ∃ m, n = m + 1 := ⟨n - 1, by omega⟩
        rw [parse_value_token_real ctx flags m _ e _ rfl rfl]
        exact ⟨_, rfl, hrd⟩

theorem reads_scalar (ctx : json_context_t) (flags : load_flags) (s : jscalar) (x : json_t)
    (hs : s.wf) (hx : s.value ctx flags = some x) : reads_value ctx flags s.text x := by
  cases s with
  | number sg ip fr ex =>
    obtain ⟨hsg, hip, hfr, hex⟩ := hs
    by_cases hi : fr = [] ∧ ex = []
    · obtain ⟨h1, h2⟩ := hi
      subst h1; subst h2
      simp only [jscalar.text, List.append_nil]
      exact reads_integer ctx flags sg ip x hsg hip hx
    · exact reads_real ctx flags sg ip fr ex x hsg hip hfr hex hi hx
  | string items => exact reads_string ctx flags items x hs hx
  | jtrue =>
    simp only [jscalar.value, Option.some.injEq] at hx
    subst hx
    exact reads_literal ctx flags _ TOKEN_TRUE _ (Or.inl ⟨rfl, rfl⟩)
      (fun n lex e h => parse_value_token_true ctx flags n lex e h)
  | jfalse =>
    simp only [jscalar.value, Option.some.injEq] at hx
    subst hx
    exact reads_literal ctx flags _ TOKEN_FALSE _ (Or.inr (Or.inl ⟨rfl, rfl⟩))
      (fun n lex e h => parse_value_token_false ctx flags n lex e h)
  | jnull =>
    simp only [jscalar.value, Option.some.injEq] at hx
    subst hx
    exact reads_literal ctx flags _ TOKEN_NULL _ (Or.inr (Or.inr ⟨rfl, rfl⟩))
      (fun n lex e h => parse_value_token_null ctx flags n lex e h)

theorem parse_array_step (ctx : json_context_t) (flags : load_flags) (n : Nat) (lex lex1 : lex_t)
    (e e1 : json_error_t) (h : lex_scan ctx lex flags e = some (lex1, e1)) :
    parse_array ctx flags (n + 1) lex e =
      if lex1.token = 93 then some (some (json_t.JSON_ARRAY []), lex1, e1)
      else parse_array_loop ctx flags n [] lex1 e1 := by
  unfold parse_array
  simp only [h]

theorem parse_object_step (ctx : json_context_t) (flags : load_flags) (n : Nat) (lex lex1 : lex_t)
    (e e1 : json_error_t) (h : lex_scan ctx lex flags e = some (lex1, e1)) :
    parse_object ctx flags (n + 1) lex e =
      if lex1.token = 125 then some (some (json_t.JSON_OBJECT []), lex1, e1)
      else parse_object_loop ctx flags n [] lex1 e1 := by
  unfold parse_object
  simp only [h]

theorem parse_array_loop_fail (ctx : json_context_t) (flags : load_flags) (n : Nat)
    (array : List json_t) (lex lexd : lex_t) (e ed : json_error_t) (ht : lex.token ≠ 0)
    (hv : parse_value ctx flags n lex e = some (none, lexd, ed)) :
    parse_array_loop ctx flags (n + 1) array lex e = some (none, lexd, ed) := by
  unfold parse_array_loop
  simp only [ht, ite_false, hv]

theorem parse_array_loop_close (ctx : json_context_t) (flags : load_flags) (n : Nat)
    (array : List json_t) (lex lex2 lex3 : lex_t) (e e2 e3 : json_error_t) (x : json_t)
    (ht : lex.token ≠ 0) (hv : parse_value ctx flags n lex e = some (some x, lex2, e2))
    (hs : lex_scan ctx lex2 flags e2 = some (lex3, e3)) (hc : lex3.token = 93) :
    parse_array_loop ctx flags (n + 1) array lex e =
      some (some (json_t.JSON_ARRAY (array ++ [x])), lex3, e3) := by
  unfold parse_array_loop
  simp only [ht, ite_false, hv, hs, hc]
  simp

theorem parse_array_loop_comma (ctx : json_context_t) (flags : load_flags) (n : Nat)
    (array : List json_t) (lex lex2 lex3 lex4 : lex_t) (e e2 e3 e4 : json_error_t) (x : json_t)
    (ht : lex.token ≠ 0) (hv : parse_value ctx flags n lex e = some (some x, lex2, e2))
    (hs : lex_scan ctx lex2 flags e2 = some (lex3, e3)) (hc : lex3.token = 44)
    (hs4 : lex_scan ctx lex3 flags e3 = some (lex4, e4)) :
    parse_array_loop ctx flags (n + 1) array lex e =
      parse_array_loop ctx flags n (array ++ [x]) lex4 e4 := by
  conv => lhs; unfold parse_array_loop
  simp only [ht, ite_false, hv, hs, hc, hs4]
  simp

theorem parse_object_loop_duplicate (ctx : json_context_t) (flags : load_flags) (n : Nat)
    (object : List (List Nat × json_t)) (lex : lex_t) (e : json_error_t) (key : List Nat)
    (ht : lex.token = TOKEN_STRING) (hval : lex.value = lex_value.string (some key))
    (h0 : 0 ∉ key) (hr : flags.JSON_REJECT_DUPLICATES = true)
    (hd : (json_object_get object key).isSome = true) :
    parse_object_loop ctx flags (n + 1) object lex e =
      some (none, lex_stolen lex,
        error_set e (some (lex_stolen lex)) (str "duplicate object key")) := by
  unfold parse_object_loop
  simp only [ht, hval, h0, hr, hd, lex_stolen]
  simp

theorem parse_object_loop_member (ctx : json_context_t) (flags : load_flags) (n : Nat)
    (object : List (List Nat × json_t)) (lex lexc lexv : lex_t) (e ec ev : json_error_t)
    (key : List Nat) (ht : lex.token = TOKEN_STRING)
    (hval : lex.value = lex_value.string (some key)) (h0 : 0 ∉ key)
    (hd : ¬ (flags.JSON_REJECT_DUPLICATES = true ∧ (json_object_get object key).isSome = true))
    (hc : lex_scan ctx (lex_stolen lex) flags e = some (lexc, ec)) (hct : lexc.token = 58)
    (hv : lex_scan ctx lexc flags ec = some (lexv, ev)) :
    parse_object_loop ctx flags (n + 1) object lex e =
      parse_object_loop_value ctx flags n object key lexv ev := by
  conv => lhs; unfold parse_object_loop
  unfold lex_stolen at hc
  rw [ht] at hc
  simp only [ht, hval, h0, hd, hc, hct, hv, parse_object_loop_value]
  all_goals (try simp only [ne_eq, not_true_eq_false, ite_false, not_false_eq_true])
  all_goals (try rfl)

theorem parse_object_loop_fail (ctx : json_context_t) (flags : load_flags) (n : Nat)
    (object : List (List Nat × json_t)) (key : List Nat) (lex lexd : lex_t) (e ed : json_error_t)
    (hv : parse_value ctx flags n lex e = some (none, lexd, ed)) :
    parse_object_loop_value ctx flags n object key lex e = some (none, lexd, ed) := by
  unfold parse_object_loop_value
  simp only [hv]

theorem parse_object_loop_close (ctx : json_context_t) (flags : load_flags) (n : Nat)
    (object : List (List Nat × json_t)) (key : List Nat) (lex lex2 lex3 : lex_t)
    (e e2 e3 : json_error_t) (x : json_t)
    (hv : parse_value ctx flags n lex e = some (some x, lex2, e2))
    (hs : lex_scan ctx lex2 flags e2 = some (lex3, e3)) (hc : lex3.token = 125) :
    parse_object_loop_value ctx flags n object key lex e =
      some (some (json_t.JSON_OBJECT (json_object_set_nocheck object key x)), lex3, e3) := by
  unfold parse_object_loop_value
  simp only [hv, hs, hc]
  simp

theorem parse_object_loop_comma (ctx : json_context_t) (flags : load_flags) (n : Nat)
    (object : List (List Nat × json_t)) (key : List Nat) (lex lex2 lex3 lex4 : lex_t)
    (e e2 e3 e4 : json_error_t) (x : json_t)
    (hv : parse_value ctx flags n lex e = some (some x, lex2, e2))
    (hs : lex_scan ctx lex2 flags e2 = some (lex3, e3)) (hc : lex3.token = 44)
    (hs4 : lex_scan ctx lex3 flags e3 = some (lex4, e4)) :
    parse_object_loop_value ctx flags n object key lex e =
      parse_object_loop ctx flags n (json_object_set_nocheck object key x) lex4 e4 := by
  unfold parse_object_loop_value
  simp only [hv, hs, hc, hs4]
  simp

theorem parse_outcome_congr {reject : Bool} {nodup nodup1 : Prop} {x : json_t} {e : json_error_t}
    {rest : List Nat} {k : cursor} {r : Option (Option json_t × lex_t × json_error_t)}
    (hiff : nodup ↔ nodup1) (h : parse_outcome reject nodup x e rest k r) :
    parse_outcome reject nodup1 x e rest k r := by
  unfold parse_outcome at h ⊢
  rw [← hiff]
  exact h

theorem reads_text_scalar (ctx : json_context_t) (flags : load_flags) (t : List Nat)
    (x : json_t) (h : reads_value ctx flags t x) : reads_text ctx flags t True x := by
  intro ws rest lex k e hws hr hrd
  obtain ⟨lex1, h1, h2, h3, h4⟩ := h ws rest lex k e hws hr hrd
  refine ⟨lex1, h1, h2, h3, fun n hn => ⟨fun _ => h4 n hn, fun hb => ?_⟩⟩
  exact absurd (Or.inr trivial) hb

theorem reads_array_empty (ctx : json_context_t) (flags : load_flags) (w : List Nat)
    (hw : all_space w) :
    reads_text ctx flags (91 :: (w ++ [93])) True (json_t.JSON_ARRAY []) := by
  intro ws rest lex k e hws _ hrd
  have hrd1 : Ready lex.stream (ws ++ 91 :: (w ++ 93 :: rest)) k := by simpa using hrd
  obtain ⟨lexb, hsb, htb, _, hrdb⟩ := lex_scan_punct ctx flags ws 91 _ lex k e hws
    (by unfold is_punct; omega) hrd1
  have htb1 : lexb.token = 91 := by simpa using htb
  refine ⟨lexb, hsb, by omega, by omega, fun n hn => ⟨fun _ => ?_, fun hb => ?_⟩⟩
  · obtain ⟨m, rfl⟩ : ∃ m, n = m + 2 := ⟨n - 2, by simp at hn; omega⟩
    obtain ⟨lexc, hsc, htc, _, hrdc⟩ := lex_scan_punct ctx flags w 93 rest lexb _ e hw
      (by unfold is_punct; omega) hrdb
    have htc1 : lexc.token = 93 := by simpa using htc
    rw [parse_value_token_array ctx flags (m + 1) lexb e htb1,
      parse_array_step ctx flags m lexb lexc e e hsc, if_pos htc1]
    refine ⟨lexc, rfl, ?_⟩
    simpa [cursor.steps] using hrdc
  · exact absurd (Or.inr trivial) hb

theorem reads_array (ctx : json_context_t) (flags : load_flags) (w t : List Nat)
    (nodup : Prop) (elems : List json_t) (hw : all_space w)
    (h : reads_elems ctx flags t nodup [] elems) :
    reads_text ctx flags (91 :: (w ++ t)) nodup (json_t.JSON_ARRAY elems) := by
  intro ws rest lex k e hws _ hrd
  have hrd1 : Ready lex.stream (ws ++ 91 :: (w ++ (t ++ rest))) k := by simpa using hrd
  obtain ⟨lexb, hsb, htb, _, hrdb⟩ := lex_scan_punct ctx flags ws 91 _ lex k e hws
    (by unfold is_punct; omega) hrd1
  have htb1 : lexb.token = 91 := by simpa using htb
  obtain ⟨lex1, hs1, ht1, hout⟩ := h w rest lexb _ e hw hrdb
  refine ⟨lexb, hsb, by omega, by omega, fun n hn => ?_⟩
  obtain ⟨m, rfl⟩ : ∃ m, n = m + 2 := ⟨n - 2, by simp at hn; omega⟩
  rw [parse_value_token_array ctx flags (m + 1) lexb e htb1,
    parse_array_step ctx flags m lexb lex1 e e hs1, if_neg ht1]
  have := hout m (by simp at hn; omega)
  simpa [cursor.steps] using this

theorem reads_elems_last (ctx : json_context_t) (flags : load_flags) (t w1 : List Nat)
    (nodup : Prop) (x : json_t) (array : List json_t) (hw1 : all_space w1)
    (hv : reads_text ctx flags t nodup x) :
    reads_elems ctx flags (t ++ (w1 ++ [93])) nodup array (array ++ [x]) := by
  intro ws rest lex k e hws hrd
  have hrd1 : Ready lex.stream (ws ++ (t ++ (w1 ++ 93 :: rest))) k := by simpa using hrd
  obtain ⟨lex1, hs1, ht93, ht0, hout⟩ := hv ws _ lex k e hws
    (number_end_punct w1 93 rest hw1 (by omega)) hrd1
  refine ⟨lex1, hs1, ht93, fun n hn => ?_⟩
  obtain ⟨m, rfl⟩ : ∃ m, n = m + 1 := ⟨n - 1, by omega⟩
  obtain ⟨hgood, hbad⟩ := hout m (by simp at hn; omega)
  refine ⟨fun hg => ?_, fun hb => ?_⟩
  · obtain ⟨lex2, hr2, hrd2⟩ := hgood hg
    obtain ⟨lex3, hs3, ht3, _, hrd3⟩ := lex_scan_punct ctx flags w1 93 rest lex2 _ e hw1
      (by unfold is_punct; omega) hrd2
    refine ⟨lex3, parse_array_loop_close ctx flags m array lex1 lex2 lex3 e e e x ht0 hr2 hs3
      (by simpa using ht3), ?_⟩
    simpa [cursor.steps] using hrd3
  · obtain ⟨lexd, kd, tok, hr2⟩ := hbad hb
    exact ⟨lexd, kd, tok, parse_array_loop_fail ctx flags m array lex1 lexd e _ ht0 hr2⟩

theorem reads_elems_more (ctx : json_context_t) (flags : load_flags) (t w1 w2 t2 : List Nat)
    (nodup nodup2 : Prop) (x : json_t) (array elems : List json_t) (hw1 : all_space w1)
    (hw2 : all_space w2) (hv : reads_text ctx flags t nodup x)
    (hrest : reads_elems ctx flags t2 nodup2 (array ++ [x]) elems) :
    reads_elems ctx flags (t ++ (w1 ++ 44 :: (w2 ++ t2))) (nodup ∧ nodup2) array elems := by
  intro ws rest lex k e hws hrd
  have hrd1 : Ready lex.stream (ws ++ (t ++ (w1 ++ 44 :: (w2 ++ (t2 ++ rest))))) k := by
    simpa using hrd
  obtain ⟨lex1, hs1, ht93, ht0, hout⟩ := hv ws _ lex k e hws
    (number_end_punct w1 44 _ hw1 (by omega)) hrd1
  refine ⟨lex1, hs1, ht93, fun n hn => ?_⟩
  obtain ⟨m, rfl⟩ : ∃ m, n = m + 1 := ⟨n - 1, by omega⟩
  obtain ⟨hgood, hbad⟩ := hout m (by simp at hn; omega)
  by_cases hgv : flags.JSON_REJECT_DUPLICATES = false ∨ nodup
  · obtain ⟨lex2, hr2, hrd2⟩ := hgood hgv
    obtain ⟨lex3, hs3, ht3, _, hrd3⟩ := lex_scan_punct ctx flags w1 44 _ lex2 _ e hw1
      (by unfold is_punct; omega) hrd2
    obtain ⟨lex4, hs4, _, hout4⟩ := hrest w2 rest lex3 _ e hw2 hrd3
    rw [parse_array_loop_comma ctx flags m array lex1 lex2 lex3 lex4 e e e e x ht0 hr2 hs3
      (by simpa using ht3) hs4]
    obtain ⟨hgood4, hbad4⟩ := hout4 m (by simp at hn; omega)
    refine ⟨fun hg => ?_, fun hb => ?_⟩
    · obtain ⟨lex5, hr5, hrd5⟩ := hgood4 (hg.imp_right And.right)
      refine ⟨lex5, hr5, ?_⟩
      simpa [cursor.steps] using hrd5
    · exact hbad4 (fun h4 => hb (h4.elim Or.inl
        (fun n2 => hgv.elim Or.inl (fun n1 => Or.inr ⟨n1, n2⟩))))
  · obtain ⟨lexd, kd, tok, hr2⟩ := hbad hgv
    refine ⟨fun hg => absurd (hg.imp_right And.left) hgv, fun _ => ?_⟩
    exact ⟨lexd, kd, tok, parse_array_loop_fail ctx flags m array lex1 lexd e _ ht0 hr2⟩

theorem json_object_get_set (object : List (List Nat × json_t)) (key u : List Nat) (x : json_t) :
    json_object_get (json_object_set_nocheck object key x) u =
      if key = u then some x else json_object_get object u := by
  induction object with
  | nil => simp [json_object_set_nocheck, json_object_get]
  | cons p rest ih =>
    obtain ⟨k0, v0⟩ := p
    simp only [json_object_set_nocheck]
    by_cases h0 : k0 = key
    · subst h0
      simp only [ite_true, json_object_get]
      by_cases h1 : k0 = u
      · simp [h1]
      · simp [h1]
    · simp only [h0, ite_false, json_object_get, ih]
      by_cases h1 : k0 = u
      · have h2 : ¬ key = u := fun h => h0 (h1.trans h.symm)
        simp [h1, h2]
      · simp [h1]

theorem decoded_key_some (key : List string_item) (u : List Nat)
    (h : decoded_key key = some u) : unescape key = .ok u ∧ 0 ∉ u := by
  unfold decoded_key at h
  cases hu : unescape key with
  | error msg => rw [hu] at h; cases h
  | ok v =>
    rw [hu] at h
    simp only at h
    by_cases h0 : 0 ∈ v
    · rw [if_pos h0] at h; cases h
    · rw [if_neg h0] at h
      cases h
      exact ⟨rfl, h0⟩

theorem lex_scan_key (ctx : json_context_t) (flags : load_flags) (ws : List Nat)
    (key : List string_item) (u r : List Nat) (lex : lex_t) (k : cursor) (e : json_error_t)
    (hws : all_space ws) (hkey : ∀ i ∈ key, i.valid) (hu : decoded_key key = some u)
    (h : Ready lex.stream (ws ++ (34 :: string_text key ++ [34] ++ r)) k) :
    ∃ lex1, lex_scan ctx lex flags e = some (lex1, e) ∧ lex1.token = TOKEN_STRING ∧
      lex1.value = lex_value.string (some u) ∧ 0 ∉ u ∧
      lex1.saved_text = 34 :: string_text key ++ [34] ∧
      Ready lex1.stream r (k.steps (ws ++ (34 :: string_text key ++ [34]))) := by
  obtain ⟨lex1, e1, h1, h2, h3, h4⟩ := lex_scan_string_token ctx flags ws key r lex k e hws hkey
    (by simpa using h)
  obtain ⟨hok, h0⟩ := decoded_key_some key u hu
  unfold scanned_string at h4
  rw [hok] at h4
  obtain ⟨ht, hval, he⟩ := h4
  subst he
  exact ⟨lex1, h1, ht, hval, h0, h2, h3⟩

theorem duplicate_report (lex : lex_t) (e : json_error_t) (key : List string_item)
    (hkey : ∀ i ∈ key, i.valid) (hsv : lex.saved_text = 34 :: string_text key ++ [34]) :
    error_set e (some (lex_stolen lex)) (str "duplicate object key") =
      report_at e lex.stream.cursor
        (with_context (str "duplicate object key") (34 :: string_text key ++ [34])) := by
  have hnz : ∀ b ∈ 34 :: string_text key ++ [34], b ≠ 0 := by
    intro b hb
    simp only [List.cons_append, List.mem_cons, List.mem_append, List.not_mem_nil,
      or_false] at hb
    rcases hb with hb | hb | hb
    · rw [hb]; decide
    · exact string_text_nonzero key hkey b hb
    · rw [hb]; decide
  exact error_set_cursor e (lex_stolen lex) _ _ _ (by decide) hsv (by simp) hnz rfl

theorem reads_members_last (ctx : json_context_t) (flags : load_flags)
    (key : List string_item) (u w1 w2 t w3 : List Nat) (nodup : Prop) (x : json_t)
    (object : List (List Nat × json_t)) (hkey : ∀ i ∈ key, i.valid)
    (hu : decoded_key key = some u) (hw1 : all_space w1) (hw2 : all_space w2)
    (hw3 : all_space w3) (hv : reads_text ctx flags t nodup x) :
    reads_members ctx flags
      ((34 :: string_text key ++ [34]) ++ (w1 ++ 58 :: (w2 ++ (t ++ (w3 ++ [125])))))
      ((json_object_get object u).isSome = false ∧ nodup) object
      (json_object_set_nocheck object u x) := by
  intro ws rest lex k e hws hrd
  have hrd1 : Ready lex.stream (ws ++ (34 :: string_text key ++ [34] ++
      (w1 ++ 58 :: (w2 ++ (t ++ (w3 ++ 125 :: rest)))))) k := by simpa using hrd
  obtain ⟨lex1, hs1, ht1, hval1, h0, hsv1, hrdk⟩ := lex_scan_key ctx flags ws key u _ lex k e hws
    hkey hu hrd1
  refine ⟨lex1, hs1, by rw [ht1]; decide, fun n hn => ?_⟩
  obtain ⟨m, rfl⟩ : ∃ m, n = m + 1 := ⟨n - 1, by omega⟩
  by_cases hd : flags.JSON_REJECT_DUPLICATES = true ∧ (json_object_get object u).isSome = true
  · rw [parse_object_loop_duplicate ctx flags m object lex1 e u ht1 hval1 h0 hd.1 hd.2,
      duplicate_report lex1 e key hkey hsv1]
    refine ⟨fun hg => ?_, fun _ => ⟨_, _, _, rfl⟩⟩
    rcases hg with hg | hg
    · rw [hd.1] at hg; cases hg
    · rw [hd.2] at hg; cases hg.1
  · obtain ⟨lexc, hsc, htc, _, hrdc⟩ := lex_scan_punct ctx flags w1 58 _ (lex_stolen lex1) _ e
      hw1 (by unfold is_punct; omega) hrdk
    obtain ⟨lexv, hsv, _, _, hout⟩ := hv w2 _ lexc _ e hw2
      (number_end_punct w3 125 rest hw3 (by omega)) hrdc
    rw [parse_object_loop_member ctx flags m object lex1 lexc lexv e e e u ht1 hval1 h0 hd hsc
      (by simpa using htc) hsv]
    obtain ⟨hgood, hbad⟩ := hout m (by simp at hn; omega)
    have hfresh : flags.JSON_REJECT_DUPLICATES = true →
        (json_object_get object u).isSome = false := by
      intro hr
      cases hq : (json_object_get object u).isSome
      · rfl
      · exact absurd ⟨hr, hq⟩ hd
    by_cases hgv : flags.JSON_REJECT_DUPLICATES = false ∨ nodup
    · obtain ⟨lex2, hr2, hrd2⟩ := hgood hgv
      obtain ⟨lex3, hs3, ht3, _, hrd3⟩ := lex_scan_punct ctx flags w3 125 rest lex2 _ e hw3
        (by unfold is_punct; omega) hrd2
      rw [parse_object_loop_close ctx flags m object u lexv lex2 lex3 e e e x hr2 hs3
        (by simpa using ht3)]
      refine ⟨fun _ => ⟨lex3, rfl, ?_⟩, fun hb => ?_⟩
      · simpa [cursor.steps] using hrd3
      · refine absurd ?_ hb
        rcases hgv with hgv | hgv
        · exact Or.inl hgv
        · cases hr : flags.JSON_REJECT_DUPLICATES
          · exact Or.inl rfl
          · exact Or.inr ⟨hfresh hr, hgv⟩
    · obtain ⟨lexd, kd, tok, hr2⟩ := hbad hgv
      rw [parse_object_loop_fail ctx flags m object u lexv lexd e _ hr2]
      exact ⟨fun hg => absurd (hg.imp_right And.right) hgv, fun _ => ⟨_, _, _, rfl⟩⟩

theorem reads_members_more (ctx : json_context_t) (flags : load_flags)
    (key : List string_item) (u w1 w2 t w3 w4 t2 : List Nat) (nodup nodup2 : Prop) (x : json_t)
    (object members : List (List Nat × json_t)) (hkey : ∀ i ∈ key, i.valid)
    (hu : decoded_key key = some u) (hw1 : all_space w1) (hw2 : all_space w2)
    (hw3 : all_space w3) (hw4 : all_space w4) (hv : reads_text ctx flags t nodup x)
    (hrest : reads_members ctx flags t2 nodup2 (json_object_set_nocheck object u x) members) :
    reads_members ctx flags
      ((34 :: string_text key ++ [34]) ++ (w1 ++ 58 :: (w2 ++ (t ++ (w3 ++ 44 :: (w4 ++ t2))))))
      ((json_object_get object u).isSome = false ∧ nodup ∧ nodup2) object members := by
  intro ws rest lex k e hws hrd
  have hrd1 : Ready lex.stream (ws ++ (34 :: string_text key ++ [34] ++
      (w1 ++ 58 :: (w2 ++ (t ++ (w3 ++ 44 :: (w4 ++ (t2 ++ rest)))))))) k := by simpa using hrd
  obtain ⟨lex1, hs1, ht1, hval1, h0, hsv1, hrdk⟩ := lex_scan_key ctx flags ws key u _ lex k e hws
    hkey hu hrd1
  refine ⟨lex1, hs1, by rw [ht1]; decide, fun n hn => ?_⟩
  obtain ⟨m, rfl⟩ : ∃ m, n = m + 1 := ⟨n - 1, by omega⟩
  by_cases hd : flags.JSON_REJECT_DUPLICATES = true ∧ (json_object_get object u).isSome = true
  · rw [parse_object_loop_duplicate ctx flags m object lex1 e u ht1 hval1 h0 hd.1 hd.2,
      duplicate_report lex1 e key hkey hsv1]
    refine ⟨fun hg => ?_, fun _ => ⟨_, _, _, rfl⟩⟩
    rcases hg with hg | hg
    · rw [hd.1] at hg; cases hg
    · rw [hd.2] at hg; cases hg.1
  · obtain ⟨lexc, hsc, htc, _, hrdc⟩ := lex_scan_punct ctx flags w1 58 _ (lex_stolen lex1) _ e
      hw1 (by unfold is_punct; omega) hrdk
    obtain ⟨lexv, hsv, _, _, hout⟩ := hv w2 _ lexc _ e hw2
      (number_end_punct w3 44 _ hw3 (by omega)) hrdc
    rw [parse_object_loop_member ctx flags m object lex1 lexc lexv e e e u ht1 hval1 h0 hd hsc
      (by simpa using htc) hsv]
    obtain ⟨hgood, hbad⟩ := hout m (by simp at hn; omega)
    have hfresh : flags.JSON_REJECT_DUPLICATES = true →
        (json_object_get object u).isSome = false := by
      intro hr
      cases hq : (json_object_get object u).isSome
      · rfl
      · exact absurd ⟨hr, hq⟩ hd
    by_cases hgv : flags.JSON_REJECT_DUPLICATES = false ∨ nodup
    · obtain ⟨lex2, hr2, hrd2⟩ := hgood hgv
      obtain ⟨lex3, hs3, ht3, _, hrd3⟩ := lex_scan_punct ctx flags w3 44 _ lex2 _ e hw3
        (by unfold is_punct; omega) hrd2
      obtain ⟨lex4, hs4, _, hout4⟩ := hrest w4 rest lex3 _ e hw4 hrd3
      rw [parse_object_loop_comma ctx flags m object u lexv lex2 lex3 lex4 e e e e x hr2 hs3
        (by simpa using ht3) hs4]
      obtain ⟨hgood4, hbad4⟩ := hout4 m (by simp at hn; omega)
      refine ⟨fun hg => ?_, fun hb => ?_⟩
      · obtain ⟨lex5, hr5, hrd5⟩ := hgood4 (hg.imp_right (fun h => h.2.2))
        refine ⟨lex5, hr5, ?_⟩
        simpa [cursor.steps] using hrd5
      · refine hbad4 (fun h4 => hb ?_)
        cases hr : flags.JSON_REJECT_DUPLICATES
        · exact Or.inl rfl
        · refine Or.inr ⟨hfresh hr, ?_, ?_⟩
          · rcases hgv with hgv | hgv
            · rw [hr] at hgv; cases hgv
            · exact hgv
          · rcases h4 with h4 | h4
            · rw [hr] at h4; cases h4
            · exact h4
    · obtain ⟨lexd, kd, tok, hr2⟩ := hbad hgv
      rw [parse_object_loop_fail ctx flags m object u lexv lexd e _ hr2]
      exact ⟨fun hg => absurd (hg.imp_right (fun h => h.2.1)) hgv, fun _ => ⟨_, _, _, rfl⟩⟩

theorem reads_object_empty (ctx : json_context_t) (flags : load_flags) (w : List Nat)
    (hw : all_space w) :
    reads_text ctx flags (123 :: (w ++ [125])) True (json_t.JSON_OBJECT []) := by
  intro ws rest lex k e hws _ hrd
  have hrd1 : Ready lex.stream (ws ++ 123 :: (w ++ 125 :: rest)) k := by simpa using hrd
  obtain ⟨lexb, hsb, htb, _, hrdb⟩ := lex_scan_punct ctx flags ws 123 _ lex k e hws
    (by unfold is_punct; omega) hrd1
  have htb1 : lexb.token = 123 := by simpa using htb
  refine ⟨lexb, hsb, by omega, by omega, fun n hn => ⟨fun _ => ?_, fun hb => ?_⟩⟩
  · obtain ⟨m, rfl⟩ : ∃ m, n = m + 2 := ⟨n - 2, by simp at hn; omega⟩
    obtain ⟨lexc, hsc, htc, _, hrdc⟩ := lex_scan_punct ctx flags w 125 rest lexb _ e hw
      (by unfold is_punct; omega) hrdb
    have htc1 : lexc.token = 125 := by simpa using htc
    rw [parse_value_token_object ctx flags (m + 1) lexb e htb1,
      parse_object_step ctx flags m lexb lexc e e hsc, if_pos htc1]
    refine ⟨lexc, rfl, ?_⟩
    simpa [cursor.steps] using hrdc
  · exact absurd (Or.inr trivial) hb

theorem reads_object (ctx : json_context_t) (flags : load_flags) (w t : List Nat)
    (nodup : Prop) (members : List (List Nat × json_t)) (hw : all_space w)
    (h : reads_members ctx flags t nodup [] members) :
    reads_text ctx flags (123 :: (w ++ t)) nodup (json_t.JSON_OBJECT members) := by
  intro ws rest lex k e hws _ hrd
  have hrd1 : Ready lex.stream (ws ++ 123 :: (w ++ (t ++ rest))) k := by simpa using hrd
  obtain ⟨lexb, hsb, htb, _, hrdb⟩ := lex_scan_punct ctx flags ws 123 _ lex k e hws
    (by unfold is_punct; omega) hrd1
  have htb1 : lexb.token = 123 := by simpa using htb
  obtain ⟨lex1, hs1, ht1, hout⟩ := h w rest lexb _ e hw hrdb
  refine ⟨lexb, hsb, by omega, by omega, fun n hn => ?_⟩
  obtain ⟨m, rfl⟩ : ∃ m, n = m + 2 := ⟨n - 2, by simp at hn; omega⟩
  rw [parse_value_token_object ctx flags (m + 1) lexb e htb1,
    parse_object_step ctx flags m lexb lex1 e e hs1, if_neg ht1]
  have := hout m (by simp at hn; omega)
  simpa [cursor.steps] using this

theorem seen_set (seen : List (List Nat)) (object : List (List Nat × json_t)) (u : List Nat)
    (x : json_t) (h : ∀ v, v ∈ seen ↔ (json_object_get object v).isSome = true) :
    ∀ v, v ∈ u :: seen ↔ (json_object_get (json_object_set_nocheck object u x) v).isSome = true := by
  intro v
  rw [json_object_get_set, List.mem_cons]
  by_cases huv : u = v
  · simp [huv]
  · rw [if_neg huv, ← h v]
    constructor
    · rintro (h1 | h1)
      · exact absurd h1.symm huv
      · exact h1
    · exact Or.inr

theorem seen_fresh (seen : List (List Nat)) (object : List (List Nat × json_t)) (u : List Nat)
    (h : ∀ v, v ∈ seen ↔ (json_object_get object v).isSome = true) :
    u ∉ seen ↔ (json_object_get object u).isSome = false := by
  rw [h u]
  cases (json_object_get object u).isSome <;> simp

mutual

theorem parse_value_reads (ctx : json_context_t) (flags : load_flags) :
    ∀ (v : jval) (x : json_t), v.wf → v.value ctx flags = some x →
      reads_text ctx flags v.text v.no_duplicate x
  | .scalar s, x, hwf, hx => by
    simp only [jval.wf] at hwf
    simp only [jval.value] at hx
    simp only [jval.text, jval.no_duplicate]
    exact reads_text_scalar ctx flags _ x (reads_scalar ctx flags s x hwf hx)
  | .array_empty w, x, hwf, hx => by
    simp only [jval.wf] at hwf
    simp only [jval.value, Option.some.injEq] at hx
    subst hx
    simp only [jval.text, jval.no_duplicate]
    exact reads_array_empty ctx flags w hwf
  | .array w a, x, hwf, hx => by
    simp only [jval.wf] at hwf
    simp only [jval.value] at hx
    cases ha : a.value ctx flags [] with
    | none => rw [ha] at hx; cases hx
    | some xs =>
      rw [ha] at hx
      simp only [Option.some.injEq] at hx
      subst hx
      simp only [jval.text, jval.no_duplicate]
      exact reads_array ctx flags w _ _ xs hwf.1 (parse_array_loop_reads ctx flags a [] xs hwf.2 ha)
  | .object_empty w, x, hwf, hx => by
    simp only [jval.wf] at hwf
    simp only [jval.value, Option.some.injEq] at hx
    subst hx
    simp only [jval.text, jval.no_duplicate]
    exact reads_object_empty ctx flags w hwf
  | .object w o, x, hwf, hx => by
    simp only [jval.wf] at hwf
    simp only [jval.value] at hx
    cases ho : o.value ctx flags [] with
    | none => rw [ho] at hx; cases hx
    | some ms =>
      rw [ho] at hx
      simp only [Option.some.injEq] at hx
      subst hx
      simp only [jval.text, jval.no_duplicate]
      exact reads_object ctx flags w _ _ ms hwf.1
        (parse_object_loop_reads ctx flags o [] [] ms (fun v => by simp [json_object_get])
          hwf.2 ho)

theorem parse_array_loop_reads (ctx : json_context_t) (flags : load_flags) :
    ∀ (a : jelems) (array elems : List json_t), a.wf → a.value ctx flags array = some elems →
      reads_elems ctx flags a.text a.no_duplicate array elems
  | .last v w1, array, elems, hwf, hx => by
    simp only [jelems.wf] at hwf
    simp only [jelems.value] at hx
    cases hv : v.value ctx flags with
    | none => rw [hv] at hx; cases hx
    | some x =>
      rw [hv] at hx
      simp only [Option.some.injEq] at hx
      subst hx
      simp only [jelems.text, jelems.no_duplicate]
      exact reads_elems_last ctx flags _ w1 _ x array hwf.2 (parse_value_reads ctx flags v x hwf.1 hv)
  | .more v w1 w2 rest, array, elems, hwf, hx => by
    simp only [jelems.wf] at hwf
    simp only [jelems.value] at hx
    cases hv : v.value ctx flags with
    | none => rw [hv] at hx; cases hx
    | some x =>
      rw [hv] at hx
      simp only at hx
      simp only [jelems.text, jelems.no_duplicate]
      exact reads_elems_more ctx flags _ w1 w2 _ _ _ x array elems hwf.2.1 hwf.2.2.1
        (parse_value_reads ctx flags v x hwf.1 hv)
        (parse_array_loop_reads ctx flags rest (array ++ [x]) elems hwf.2.2.2 hx)

theorem parse_object_loop_reads (ctx : json_context_t) (flags : load_flags) :
    ∀ (o : jmembers) (seen : List (List Nat)) (object members : List (List Nat × json_t)),
      (∀ u, u ∈ seen ↔ (json_object_get object u).isSome = true) → o.wf →
      o.value ctx flags object = some members →
      reads_members ctx flags o.text (o.no_duplicate seen) object members
  | .last key w1 w2 v w3, seen, object, members, hseen, hwf, hx => by
    simp only [jmembers.wf] at hwf
    simp only [jmembers.value] at hx
    cases hk : decoded_key key with
    | none => rw [hk] at hx; cases hx
    | some u =>
      cases hv : v.value ctx flags with
      | none => rw [hk, hv] at hx; cases hx
      | some x =>
        rw [hk, hv] at hx
        simp only [Option.some.injEq] at hx
        subst hx
        simp only [jmembers.text, jmembers.no_duplicate, hk, Option.getD_some]
        rw [seen_fresh seen object u hseen]
        exact reads_members_last ctx flags key u w1 w2 _ w3 _ x object hwf.1 hk hwf.2.1
          hwf.2.2.1 hwf.2.2.2.2 (parse_value_reads ctx flags v x hwf.2.2.2.1 hv)
  | .more key w1 w2 v w3 w4 rest, seen, object, members, hseen, hwf, hx => by
    simp only [jmembers.wf] at hwf
    simp only [jmembers.value] at hx
    cases hk : decoded_key key with
    | none => rw [hk] at hx; cases hx
    | some u =>
      cases hv : v.value ctx flags with
      | none => rw [hk, hv] at hx; cases hx
      | some x =>
        rw [hk, hv] at hx
        simp only at hx
        simp only [jmembers.text, jmembers.no_duplicate, hk, Option.getD_some]
        rw [seen_fresh seen object u hseen]
        exact reads_members_more ctx flags key u w1 w2 _ w3 w4 _ _ _ x object members hwf.1 hk
          hwf.2.1 hwf.2.2.1 hwf.2.2.2.2.1 hwf.2.2.2.2.2.1
          (parse_value_reads ctx flags v x hwf.2.2.2.1 hv)
          (parse_object_loop_reads ctx flags rest (u :: seen) _ members
            (seen_set seen object u x hseen) hwf.2.2.2.2.2.2 hx)

end

theorem parse_flags_fields (flags : load_flags) :
    (parse_flags flags).JSON_REJECT_DUPLICATES = flags.JSON_REJECT_DUPLICATES ∧
    (parse_flags flags).JSON_DISABLE_EOF_CHECK = flags.JSON_DISABLE_EOF_CHECK ∧
    (parse_flags flags).JSON_DECODE_ANY = flags.JSON_DECODE_ANY ∧
    (parse_flags flags).JSON_DECODE_INT_AS_REAL = flags.JSON_DECODE_INT_AS_REAL ∧
    (parse_flags flags).JSON_ALLOW_NUL = flags.JSON_ALLOW_NUL ∧
    (parse_flags flags).JSON_USE_BIGINT_ALWAYS = flags.JSON_USE_BIGINT_ALWAYS ∧
    (parse_flags flags).JSON_USE_BIGREAL_ALWAYS = flags.JSON_USE_BIGREAL_ALWAYS ∧
    (parse_flags flags).JSON_USE_BIGINT =
      (flags.JSON_USE_BIGINT || flags.JSON_USE_BIGINT_ALWAYS) ∧
    (parse_flags flags).JSON_USE_BIGREAL =
      (flags.JSON_USE_BIGREAL || flags.JSON_USE_BIGREAL_ALWAYS) := by
  unfold parse_flags
  cases h1 : flags.JSON_USE_BIGINT_ALWAYS <;> cases h2 : flags.JSON_USE_BIGREAL_ALWAYS <;>
    simp [h1, h2]

theorem jscalar_value_flags (ctx : json_context_t) (flags : load_flags) (s : jscalar) :
    s.value ctx (parse_flags flags) = s.value ctx flags := by
  obtain ⟨_, _, _, h4, h5, h6, h7, h8, h9⟩ := parse_flags_fields flags
  cases s with
  | number sg ip fr ex =>
    simp only [jscalar.value, h4, h6, h7, h8, h9]
    cases h1 : flags.JSON_USE_BIGINT_ALWAYS <;> cases h2 : flags.JSON_USE_BIGREAL_ALWAYS <;>
      simp
  | string items => simp only [jscalar.value, h5]
  | jtrue => rfl
  | jfalse => rfl
  | jnull => rfl

mutual

theorem jval_value_flags (ctx : json_context_t) (flags : load_flags) :
    ∀ v : jval, v.value ctx (parse_flags flags) = v.value ctx flags
  | .scalar s => by simp only [jval.value]; exact jscalar_value_flags ctx flags s
  | .array_empty w => by simp only [jval.value]
  | .array w a => by simp only [jval.value, jelems_value_flags ctx flags a]
  | .object_empty w => by simp only [jval.value]
  | .object w o => by simp only [jval.value, jmembers_value_flags ctx flags o]

theorem jelems_value_flags (ctx : json_context_t) (flags : load_flags) :
    ∀ (a : jelems) (array : List json_t),
      a.value ctx (parse_flags flags) array = a.value ctx flags array
  | .last v w1, array => by simp only [jelems.value, jval_value_flags ctx flags v]
  | .more v w1 w2 rest, array => by
    simp only [jelems.value, jval_value_flags ctx flags v]
    cases v.value ctx flags with
    | none => rfl
    | some x => exact jelems_value_flags ctx flags rest _

theorem jmembers_value_flags (ctx : json_context_t) (flags : load_flags) :
    ∀ (o : jmembers) (object : List (List Nat × json_t)),
      o.value ctx (parse_flags flags) object = o.value ctx flags object
  | .last key w1 w2 v w3, object => by simp only [jmembers.value, jval_value_flags ctx flags v]
  | .more key w1 w2 v w3 w4 rest, object => by
    simp only [jmembers.value, jval_value_flags ctx flags v]
    cases decoded_key key with
    | none => rfl
    | some u =>
      cases v.value ctx flags with
      | none => rfl
      | some x => exact jmembers_value_flags ctx flags rest _

end

theorem jval.container_text (v : jval) (h : v.container) :
    ∃ c r, v.text = c :: r ∧ (c = 91 ∨ c = 123) := by
  cases v with
  | scalar s => cases h
  | array_empty w => exact ⟨91, w ++ [93], by simp only [jval.text], Or.inl rfl⟩
  | array w a => exact ⟨91, w ++ a.text, by simp only [jval.text], Or.inl rfl⟩
  | object_empty w => exact ⟨123, w ++ [125], by simp only [jval.text], Or.inr rfl⟩
  | object w o => exact ⟨123, w ++ o.text, by simp only [jval.text], Or.inr rfl⟩

/-- The function `parse_json` on a text that stands for `x`, between
whitespace, with the decoder prepared for the modes asked for: when duplicate
keys are not rejected or there is none, `x` and the position reached (of the
end of the input, or with the trailing-content check disabled of the end of
the value); else no value and the report of a duplicate object key. -/
theorem parse_json_reads (ctx : json_context_t) (flags : load_flags) (v : jval) (x : json_t)
    (hwf : v.wf) (hx : v.value ctx flags = some x)
    (htop : flags.JSON_DECODE_ANY = true ∨ v.container)
    (hprep : prepared ctx flags) (ws0 ws1 : List Nat) (hws0 : all_space ws0)
    (hws1 : all_space ws1) (lex : lex_t) (k : cursor) (e : json_error_t)
    (hrd : Ready lex.stream (ws0 ++ (v.text ++ ws1)) k)
    (hfuel : v.text.length ≤ lex.stream.data.length) :
    ((flags.JSON_REJECT_DUPLICATES = false ∨ v.no_duplicate) →
      ∃ lex2, parse_json ctx lex flags e = some (some x, lex2,
        { e with position := (k.steps (ws0 ++ v.text ++
          if flags.JSON_DISABLE_EOF_CHECK = true then [] else ws1)).position })) ∧
    (¬ (flags.JSON_REJECT_DUPLICATES = false ∨ v.no_duplicate) →
      ∃ lexd kd tok, parse_json ctx lex flags e = some (none, lexd,
        report_at e kd (with_context (str "duplicate object key") tok))) := by
  obtain ⟨f1, f2, f3, _, _, f6, f7, f8, f9⟩ := parse_flags_fields flags
  have hread := parse_value_reads ctx (parse_flags flags) v x hwf
    (by rw [jval_value_flags]; exact hx)
  obtain ⟨lex1, hs1, _, _, hout⟩ := hread ws0 ws1 lex k e hws0 (number_end_of_space ws1 hws1) hrd
  have hunf : parse_json ctx lex flags e =
      (if (parse_flags flags).JSON_DECODE_ANY = false ∧ lex1.token ≠ 91 ∧ lex1.token ≠ 123 then
        some (none, lex1, error_set e (some lex1) (str "'[' or '\x7b' expected"))
      else
        match parse_value ctx (parse_flags flags) (3 * lex.stream.data.length + 4) lex1 e with
        | none => none
        | some (none, lex2, error) => some (none, lex2, error)
        | some (some result, lex2, error) =>
          if (parse_flags flags).JSON_DISABLE_EOF_CHECK = false then
            match lex_scan ctx lex2 (parse_flags flags) error with
            | none => none
            | some (lex3, error) =>
              if lex3.token ≠ TOKEN_EOF then
                some (none, lex3, error_set error (some lex3) (str "end of file expected"))
              else some (some result, lex3, { error with position := lex3.stream.position })
          else some (some result, lex2, { error with position := lex2.stream.position })) := by
    unfold parse_json
    simp only
    rw [show (if (if flags.JSON_USE_BIGINT_ALWAYS = true then
      { flags with JSON_USE_BIGINT := true } else flags).JSON_USE_BIGREAL_ALWAYS = true then
      { (if flags.JSON_USE_BIGINT_ALWAYS = true then
          { flags with JSON_USE_BIGINT := true } else flags) with JSON_USE_BIGREAL := true }
      else (if flags.JSON_USE_BIGINT_ALWAYS = true then
        { flags with JSON_USE_BIGINT := true } else flags)) = parse_flags flags from rfl]
    have h1 : ¬ ((parse_flags flags).JSON_USE_BIGINT = true ∧ ctx.have_bigint = false) := by
      rintro ⟨ha, hb⟩
      rw [f8] at ha
      have := hprep.1 (by simpa using ha)
      rw [this] at hb
      cases hb
    have h2 : ¬ ((parse_flags flags).JSON_USE_BIGREAL = true ∧ ctx.have_bigreal = false) := by
      rintro ⟨ha, hb⟩
      rw [f9] at ha
      have := hprep.2 (by simpa using ha)
      rw [this] at hb
      cases hb
    simp only [h1, h2, ite_false, hs1]
    all_goals (try rfl)
  have htok : ¬ ((parse_flags flags).JSON_DECODE_ANY = false ∧ lex1.token ≠ 91 ∧
      lex1.token ≠ 123) := by
    rintro ⟨ha, hb, hc⟩
    rcases htop with h | h
    · rw [f3, h] at ha; cases ha
    · obtain ⟨c, r, hcr, hc2⟩ := v.container_text h
      rw [hcr] at hrd
      obtain ⟨lexb, hsb, htb, _, _⟩ := lex_scan_punct ctx (parse_flags flags) ws0 c (r ++ ws1) lex
        k e hws0 (by unfold is_punct; omega) (by simpa using hrd)
      rw [hs1] at hsb
      simp only [Option.some.injEq, Prod.mk.injEq, and_true] at hsb
      subst hsb
      rcases hc2 with h | h <;> subst h
      · exact hb (by simpa using htb)
      · exact hc (by simpa using htb)
  rw [hunf, if_neg htok]
  obtain ⟨hgood, hbad⟩ := hout (3 * lex.stream.data.length + 4) (by omega)
  rw [f1] at hgood hbad
  refine ⟨fun hg => ?_, fun hb => ?_⟩
  · obtain ⟨lex2, hr2, hrd2⟩ := hgood hg
    rw [hr2]
    simp only [f2]
    cases hdis : flags.JSON_DISABLE_EOF_CHECK
    · obtain ⟨lex3, hs3, ht3, hc3⟩ := lex_scan_eof ctx (parse_flags flags) ws1 lex2 _ e hws1 hrd2
      simp only [hs3, ht3, ne_eq, not_true_eq_false, ite_false, ite_true,
        Bool.false_eq_true]
      refine ⟨lex3, ?_⟩
      have hp : lex3.stream.position = (k.steps (ws0 ++ v.text ++ ws1)).position := by
        have := congrArg cursor.position hc3
        simp only [stream_t.cursor] at this
        rw [this]
        simp [cursor.steps]
      rw [hp]
    · simp only [Bool.true_eq_false, ite_false, ite_true, List.append_nil]
      refine ⟨lex2, ?_⟩
      have hp : lex2.stream.position = (k.steps (ws0 ++ v.text)).position := by
        have := congrArg cursor.position hrd2.cur
        simpa [stream_t.cursor] using this
      rw [hp]
  · obtain ⟨lexd, kd, tok, hr2⟩ := hbad hb
    rw [hr2]
    exact ⟨lexd, kd, tok, rfl⟩

theorem space_bytes (ws : List Nat) (h : all_space ws) : ∀ b ∈ ws, b < 256 := by
  intro b hb
  have := h b hb
  omega

theorem string_text_bytes (items : List string_item) (h : ∀ i ∈ items, i.valid) :
    ∀ b ∈ string_text items, b < 256 := by
  induction items with
  | nil => intro b hb; cases hb
  | cons i items ih =>
    intro b hb
    simp only [string_text, List.mem_append] at hb
    rcases hb with hb | hb
    · have hi := h i (List.mem_cons_self _ _)
      cases i with
      | lit bs =>
        simp only [string_item.text] at hb
        rcases hi with ⟨c, hc, _, h2, _, _⟩ | hi
        · subst hc
          simp only [List.mem_singleton] at hb
          omega
        · exact hi.2.1 b hb
      | shortcut c =>
        simp only [string_item.text, List.mem_cons, List.not_mem_nil, or_false] at hb
        have hi1 : is_shortcut c := hi
        unfold is_shortcut at hi1
        omega
      | unicode h1 h2 h3 h4 =>
        simp only [string_item.text, List.mem_cons, List.not_mem_nil, or_false] at hb
        have hi1 : is_hex h1 ∧ is_hex h2 ∧ is_hex h3 ∧ is_hex h4 := hi
        unfold is_hex at hi1
        omega
    · exact ih (fun j hj => h j (List.mem_cons_of_mem _ hj)) b hb

theorem number_text_bytes (sg ip fr ex : List Nat) (hsg : sign_part sg) (hip : int_part ip)
    (hfr : frac_part fr) (hex : exp_part ex) : ∀ b ∈ sg ++ ip ++ fr ++ ex, b < 256 := by
  intro b hb
  simp only [List.mem_append] at hb
  rcases hb with ((hb | hb) | hb) | hb
  · rcases hsg with h | h <;> subst h
    · cases hb
    · simp only [List.mem_singleton] at hb; omega
  · have := (int_part_digits hip).1 b hb
    omega
  · rcases hfr with h | ⟨ds, h, _, hd⟩
    · subst h; cases hb
    · subst h
      rcases List.mem_cons.mp hb with hb | hb
      · omega
      · have := hd b hb; omega
  · rcases hex with h | ⟨m, s, ds, h, hm, hs, _, hd⟩
    · subst h; cases hb
    · subst h
      rcases List.mem_cons.mp hb with hb | hb
      · omega
      · rcases List.mem_append.mp hb with hb | hb
        · rcases hs with h | h | h <;> subst h
          · cases hb
          · simp only [List.mem_singleton] at hb; omega
          · simp only [List.mem_singleton] at hb; omega
        · have := hd b hb; omega

theorem jscalar_text_bytes (s : jscalar) (h : s.wf) : ∀ b ∈ s.text, b < 256 := by
  cases s with
  | number sg ip fr ex => exact number_text_bytes sg ip fr ex h.1 h.2.1 h.2.2.1 h.2.2.2
  | string items =>
    intro b hb
    simp only [jscalar.text, List.cons_append, List.mem_cons, List.mem_append, List.not_mem_nil,
      or_false] at hb
    rcases hb with hb | hb | hb
    · omega
    · exact string_text_bytes items h b hb
    · omega
  | jtrue => simp only [jscalar.text]; decide
  | jfalse => simp only [jscalar.text]; decide
  | jnull => simp only [jscalar.text]; decide

theorem key_text_bytes (key : List string_item) (h : ∀ i ∈ key, i.valid) :
    ∀ b ∈ 34 :: string_text key ++ [34], b < 256 :=
  jscalar_text_bytes (.string key) h

mutual

theorem jval_text_bytes : ∀ v : jval, v.wf → ∀ b ∈ v.text, b < 256
  | .scalar s, h, b, hb => by
    simp only [jval.wf] at h
    simp only [jval.text] at hb
    exact jscalar_text_bytes s h b hb
  | .array_empty w, h, b, hb => by
    simp only [jval.wf] at h
    simp only [jval.text, List.mem_cons, List.mem_append, List.not_mem_nil, or_false] at hb
    rcases hb with hb | hb | hb
    · omega
    · exact space_bytes w h b hb
    · omega
  | .array w a, h, b, hb => by
    simp only [jval.wf] at h
    simp only [jval.text, List.mem_cons, List.mem_append] at hb
    rcases hb with hb | hb | hb
    · omega
    · exact space_bytes w h.1 b hb
    · exact jelems_text_bytes a h.2 b hb
  | .object_empty w, h, b, hb => by
    simp only [jval.wf] at h
    simp only [jval.text, List.mem_cons, List.mem_append, List.not_mem_nil, or_false] at hb
    rcases hb with hb | hb | hb
    · omega
    · exact space_bytes w h b hb
    · omega
  | .object w o, h, b, hb => by
    simp only [jval.wf] at h
    simp only [jval.text, List.mem_cons, List.mem_append] at hb
    rcases hb with hb | hb | hb
    · omega
    · exact space_bytes w h.1 b hb
    · exact jmembers_text_bytes o h.2 b hb

theorem jelems_text_bytes : ∀ a : jelems, a.wf → ∀ b ∈ a.text, b < 256
  | .last v w1, h, b, hb => by
    simp only [jelems.wf] at h
    simp only [jelems.text, List.mem_cons, List.mem_append, List.not_mem_nil, or_false] at hb
    rcases hb with hb | hb | hb
    · exact jval_text_bytes v h.1 b hb
    · exact space_bytes w1 h.2 b hb
    · omega
  | .more v w1 w2 rest, h, b, hb => by
    simp only [jelems.wf] at h
    simp only [jelems.text, List.mem_cons, List.mem_append] at hb
    rcases hb with hb | hb | hb | hb | hb
    · exact jval_text_bytes v h.1 b hb
    · exact space_bytes w1 h.2.1 b hb
    · omega
    · exact space_bytes w2 h.2.2.1 b hb
    · exact jelems_text_bytes rest h.2.2.2 b hb

theorem jmembers_text_bytes : ∀ o : jmembers, o.wf → ∀ b ∈ o.text, b < 256
  | .last key w1 w2 v w3, h, b, hb => by
    simp only [jmembers.wf] at h
    simp only [jmembers.text] at hb
    rcases List.mem_append.mp hb with hb | hb
    · exact key_text_bytes key h.1 b hb
    · simp only [List.mem_cons, List.mem_append, List.not_mem_nil, or_false] at hb
      rcases hb with hb | hb | hb | hb | hb | hb
      · exact space_bytes w1 h.2.1 b hb
      · omega
      · exact space_bytes w2 h.2.2.1 b hb
      · exact jval_text_bytes v h.2.2.2.1 b hb
      · exact space_bytes w3 h.2.2.2.2 b hb
      · omega
  | .more key w1 w2 v w3 w4 rest, h, b, hb => by
    simp only [jmembers.wf] at h
    simp only [jmembers.text] at hb
    rcases List.mem_append.mp hb with hb | hb
    · exact key_text_bytes key h.1 b hb
    · simp only [List.mem_cons, List.mem_append] at hb
      rcases hb with hb | hb | hb | hb | hb | hb | hb | hb
      · exact space_bytes w1 h.2.1 b hb
      · omega
      · exact space_bytes w2 h.2.2.1 b hb
      · exact jval_text_bytes v h.2.2.2.1 b hb
      · exact space_bytes w3 h.2.2.2.2.1 b hb
      · omega
      · exact space_bytes w4 h.2.2.2.2.2.1 b hb
      · exact jmembers_text_bytes rest h.2.2.2.2.2.2 b hb

end

theorem ready_text (ws0 t ws1 : List Nat) (h0 : all_space ws0) (ht : ∀ b ∈ t, b < 256)
    (h1 : all_space ws1) :
    Ready (lex_init get_func.buffer_get (ws0 ++ (t ++ ws1))).stream (ws0 ++ (t ++ ws1))
      cursor_init := by
  apply ready_init_buffer
  intro b hb
  simp only [List.mem_append] at hb
  rcases hb with hb | hb | hb
  · exact space_bytes ws0 h0 b hb
  · exact ht b hb
  · exact space_bytes ws1 h1 b hb

theorem members_value_get (ctx : json_context_t) (flags : load_flags) (u : List Nat) :
    ∀ (o : jmembers) (object members : List (List Nat × json_t)),
      o.value ctx flags object = some members →
      json_object_get members u =
        match o.last_value ctx flags u with
        | some x => some x
        | none => json_object_get object u
  | .last key w1 w2 v w3, object, members, h => by
    simp only [jmembers.value] at h
    simp only [jmembers.last_value]
    cases hk : decoded_key key with
    | none => rw [hk] at h; cases h
    | some k1 =>
      cases hv : v.value ctx flags with
      | none => rw [hk, hv] at h; cases h
      | some x =>
        rw [hk, hv] at h
        simp only [Option.some.injEq] at h
        subst h
        rw [json_object_get_set]
        by_cases hku : k1 = u
        · simp [hku]
        · simp [hku]
  | .more key w1 w2 v w3 w4 rest, object, members, h => by
    simp only [jmembers.value] at h
    simp only [jmembers.last_value]
    cases hk : decoded_key key with
    | none => rw [hk] at h; cases h
    | some k1 =>
      cases hv : v.value ctx flags with
      | none => rw [hk, hv] at h; cases h
      | some x =>
        rw [hk, hv] at h
        simp only at h
        rw [members_value_get ctx flags u rest _ members h]
        cases rest.last_value ctx flags u with
        | some y => rfl
        | none =>
          simp only [json_object_get_set]
          by_cases hku : k1 = u
          · simp [hku]
          · simp [hku]

theorem last_value_some (ctx : json_context_t) (flags : load_flags) (u : List Nat) :
    ∀ (o : jmembers) (object members : List (List Nat × json_t)),
      o.value ctx flags object = some members → u ∈ o.keys →
      ∃ x, o.last_value ctx flags u = some x
  | .last key w1 w2 v w3, object, members, h, hu => by
    simp only [jmembers.value] at h
    simp only [jmembers.last_value]
    cases hk : decoded_key key with
    | none => rw [hk] at h; cases h
    | some k1 =>
      cases hv : v.value ctx flags with
      | none => rw [hk, hv] at h; cases h
      | some x =>
        simp only [jmembers.keys, hk, Option.getD_some, List.mem_singleton] at hu
        subst hu
        exact ⟨x, by simp⟩
  | .more key w1 w2 v w3 w4 rest, object, members, h, hu => by
    simp only [jmembers.value] at h
    simp only [jmembers.last_value]
    cases hk : decoded_key key with
    | none => rw [hk] at h; cases h
    | some k1 =>
      cases hv : v.value ctx flags with
      | none => rw [hk, hv] at h; cases h
      | some x =>
        rw [hk, hv] at h
        simp only at h
        cases hl : rest.last_value ctx flags u with
        | some y => exact ⟨y, rfl⟩
        | none =>
          simp only [jmembers.keys, hk, Option.getD_some, List.mem_cons] at hu
          rcases hu with hu | hu
          · subst hu
            exact ⟨x, by simp⟩
          · obtain ⟨y, hy⟩ := last_value_some ctx flags u rest _ members h hu
            rw [hy] at hl
            cases hl

theorem no_duplicate_keys :
    ∀ (o : jmembers) (seen : List (List Nat)), o.no_duplicate seen →
      o.keys.Nodup ∧ ∀ u ∈ o.keys, u ∉ seen
  | .last key w1 w2 v w3, seen, h => by
    simp only [jmembers.no_duplicate] at h
    simp only [jmembers.keys, List.nodup_cons, List.not_mem_nil, not_false_eq_true,
      List.nodup_nil, and_self, List.mem_singleton, forall_eq, true_and]
    exact h.1
  | .more key w1 w2 v w3 w4 rest, seen, h => by
    simp only [jmembers.no_duplicate] at h
    obtain ⟨ih1, ih2⟩ := no_duplicate_keys rest _ h.2.2
    simp only [jmembers.keys, List.nodup_cons, List.mem_cons, forall_eq_or_imp]
    refine ⟨⟨fun hm => ?_, ih1⟩, h.1, fun a ha hs => ?_⟩
    · exact ih2 _ hm (List.mem_cons_self _ _)
    · exact ih2 a ha (List.mem_cons_of_mem _ hs)

theorem duplicate_of_twice (o : jmembers) (u : List Nat) (h : List.Duplicate u o.keys) :
    ¬ o.no_duplicate [] :=
  fun hn => h.not_nodup (no_duplicate_keys o [] hn).1

/-- C10: for every object text that is well formed (whitespace between its
tokens, numerals of the number grammar, strings of valid elements) and
otherwise decodes (under the flags its scalars and keys have values, the
members set one after the other make `members`, and the decoder is prepared for
the big-number modes asked for), given to `json_loadb` between whitespace, and
every key `u` that is the decoded key of two members or more: with
`JSON_REJECT_DUPLICATES` set the decode gives no value and the one report
"duplicate object key" (with the text of the token it was found at); with the
flag clear the decode gives the object of `members`, in which `u` has the value
of the last member whose decoded key is `u`. -/
theorem json_loadb_duplicate_key (ctx : json_context_t) (flags : load_flags)
    (ws0 w ws1 : List Nat) (o : jmembers) (members : List (List Nat × json_t)) (u : List Nat)
    (hws0 : all_space ws0) (hws1 : all_space ws1) (hwf : (jval.object w o).wf)
    (hval : o.value ctx flags [] = some members) (hprep : prepared ctx flags)
    (hdup : List.Duplicate u o.keys) :
    (flags.JSON_REJECT_DUPLICATES = true →
      ∃ k tok, json_loadb ctx (ws0 ++ ((jval.object w o).text ++ ws1)) flags =
        some (none, report_at jsonp_error_init k
          (with_context (str "duplicate object key") tok))) ∧
    (flags.JSON_REJECT_DUPLICATES = false →
      ∃ e x, json_loadb ctx (ws0 ++ ((jval.object w o).text ++ ws1)) flags =
          some (some (json_t.JSON_OBJECT members), e) ∧
        o.last_value ctx flags u = some x ∧ json_object_get members u = some x) := by
  have hx : (jval.object w o).value ctx flags = some (json_t.JSON_OBJECT members) := by
    simp only [jval.value, hval]
  have hrd := ready_text ws0 (jval.object w o).text ws1 hws0 (jval_text_bytes _ hwf) hws1
  have hfuel : (jval.object w o).text.length ≤
      (lex_init get_func.buffer_get (ws0 ++ ((jval.object w o).text ++ ws1))).stream.data.length := by
    simp only [lex_init, stream_init, List.length_append]
    omega
  obtain ⟨hgood, hbad⟩ := parse_json_reads ctx flags (jval.object w o) _ hwf hx (Or.inr trivial)
    hprep ws0 ws1 hws0 hws1 _ cursor_init jsonp_error_init hrd hfuel
  have hnd : ¬ (jval.object w o).no_duplicate := by
    simp only [jval.no_duplicate]
    exact duplicate_of_twice o u hdup
  refine ⟨fun hr => ?_, fun hr => ?_⟩
  · obtain ⟨lexd, kd, tok, h⟩ := hbad (by
      rintro (h | h)
      · rw [hr] at h; cases h
      · exact hnd h)
    refine ⟨kd, tok, ?_⟩
    unfold json_loadb
    rw [h]
  · obtain ⟨lex2, h⟩ := hgood (Or.inl hr)
    obtain ⟨x, hx1⟩ := last_value_some ctx flags u o [] members hval hdup.mem
    have hj : ∃ e, json_loadb ctx (ws0 ++ ((jval.object w o).text ++ ws1)) flags =
        some (some (json_t.JSON_OBJECT members), e) := by
      unfold json_loadb
      rw [h]
      exact ⟨_, rfl⟩
    obtain ⟨e, he⟩ := hj
    exact ⟨e, x, he, hx1, by rw [members_value_get ctx flags u o [] members hval, hx1]⟩

theorem members_identical_sound (r : Option (List (List Nat × json_t)))
    (members : List (List Nat × json_t))
    (h : (match r with
      | some m => json_identical_members m members
      | none => false) = true) : r = some members := by
  cases r with
  | none => cases h
  | some m => rw [json_identical_members_sound m members h]

theorem duplicate_members_wf : (jval.object [] duplicate_members).wf := by
  have hsp : all_space [] := fun b hb => by cases hb
  have hkey : ∀ i ∈ [string_item.lit [97]], i.valid := by
    intro i hi
    simp only [List.mem_singleton] at hi
    subst hi
    exact Or.inl ⟨97, rfl, by decide, by decide, by decide, by decide⟩
  have hn1 : (jscalar.number [] [49] [] []).wf :=
    ⟨Or.inl rfl, Or.inr ⟨49, [], rfl, by decide, by decide, fun x hx => by cases hx⟩,
      Or.inl rfl, Or.inl rfl⟩
  have hn2 : (jscalar.number [] [50] [] []).wf :=
    ⟨Or.inl rfl, Or.inr ⟨50, [], rfl, by decide, by decide, fun x hx => by cases hx⟩,
      Or.inl rfl, Or.inl rfl⟩
  simp only [jval.wf, jmembers.wf, duplicate_members]
  exact ⟨hsp, hkey, hsp, hsp, hn1, hsp, hsp, hkey, hsp, hsp, hn2, hsp⟩

theorem duplicate_members_value (flags : load_flags)
    (h : flags = no_flags ∨ flags = reject_duplicates) :
    duplicate_members.value plain_context flags [] =
      some [([97], json_t.JSON_INTEGER 2)] := by
  rcases h with h | h <;> subst h <;> exact members_identical_sound _ _ (by decide!)

theorem json_loadb_duplicate_key_witness :
    (jval.object [] duplicate_members).text = str "\x7b\"a\":1,\"a\":2\x7d" ∧
    (∃ e x, json_loadb plain_context ([] ++ ((jval.object [] duplicate_members).text ++ []))
        no_flags = some (some (json_t.JSON_OBJECT [([97], json_t.JSON_INTEGER 2)]), e) ∧
      duplicate_members.last_value plain_context no_flags [97] = some x ∧
      json_object_get [([97], json_t.JSON_INTEGER 2)] [97] = some x) ∧
    (∃ k tok, json_loadb plain_context ([] ++ ((jval.object [] duplicate_members).text ++ []))
        reject_duplicates = some (none, report_at jsonp_error_init k
          (with_context (str "duplicate object key") tok))) :=
  ⟨by decide,
    (json_loadb_duplicate_key plain_context no_flags [] [] [] duplicate_members _ [97]
      (fun b hb => by cases hb) (fun b hb => by cases hb) duplicate_members_wf
      (duplicate_members_value no_flags (Or.inl rfl)) (by unfold prepared; decide)
      (by decide)).2 rfl,
    (json_loadb_duplicate_key plain_context reject_duplicates [] [] [] duplicate_members _ [97]
      (fun b hb => by cases hb) (fun b hb => by cases hb) duplicate_members_wf
      (duplicate_members_value reject_duplicates (Or.inr rfl)) (by unfold prepared; decide)
      (by decide)).1 rfl⟩

theorem parse_array_loop_next (ctx : json_context_t) (flags : load_flags) (n : Nat)
    (array : List json_t) (lex lex2 lex3 : lex_t) (e e2 e3 : json_error_t) (x : json_t)
    (ht : lex.token ≠ 0) (hv : parse_value ctx flags n lex e = some (some x, lex2, e2))
    (hs : lex_scan ctx lex2 flags e2 = some (lex3, e3)) (hc : lex3.token = 44) :
    parse_array_loop ctx flags (n + 1) array lex e =
      scan_array_loop ctx flags n (array ++ [x]) lex3 e3 := by
  conv => lhs; unfold parse_array_loop
  simp only [ht, ite_false, hv, hs, hc, scan_array_loop]
  all_goals (try simp only [ne_eq, not_true_eq_false, ite_false])
  all_goals (try rfl)

theorem parse_object_loop_next (ctx : json_context_t) (flags : load_flags) (n : Nat)
    (object : List (List Nat × json_t)) (key : List Nat) (lex lex2 lex3 : lex_t)
    (e e2 e3 : json_error_t) (x : json_t)
    (hv : parse_value ctx flags n lex e = some (some x, lex2, e2))
    (hs : lex_scan ctx lex2 flags e2 = some (lex3, e3)) (hc : lex3.token = 44) :
    parse_object_loop_value ctx flags n object key lex e =
      scan_object_loop ctx flags n (json_object_set_nocheck object key x) lex3 e3 := by
  unfold parse_object_loop_value
  simp only [hv, hs, hc, scan_object_loop]
  all_goals (try simp only [ne_eq, not_true_eq_false, ite_false])
  all_goals (try rfl)

/-- The loop of `parse_array` on one element that it accepts and the comma
after it. -/
theorem scan_array_loop_elem (ctx : json_context_t) (flags : load_flags) (w0 t w1 : List Nat)
    (nodup : Prop) (x : json_t) (array : List json_t) (hw0 : all_space w0)
    (hw1 : all_space w1) (hv : reads_text ctx flags t nodup x)
    (hacc : flags.JSON_REJECT_DUPLICATES = false ∨ nodup)
    (rest : List Nat) (lex : lex_t) (k : cursor) (e : json_error_t)
    (hrd : Ready lex.stream (w0 ++ (t ++ (w1 ++ 44 :: rest))) k) :
    ∃ lex1, lex_scan ctx lex flags e = some (lex1, e) ∧ lex1.token ≠ 93 ∧
      ∀ n, 2 * t.length < n →
        ∃ lex3, Ready lex3.stream rest (k.steps (w0 ++ (t ++ (w1 ++ [44])))) ∧
          scan_array_loop ctx flags (n + 1) array lex e =
            scan_array_loop ctx flags n (array ++ [x]) lex3 e := by
  obtain ⟨lex1, hs1, ht93, ht0, hout⟩ := hv w0 _ lex k e hw0
    (number_end_punct w1 44 rest hw1 (by omega)) hrd
  refine ⟨lex1, hs1, ht93, fun n hn => ?_⟩
  obtain ⟨lex2, hr2, hrd2⟩ := (hout n hn).1 hacc
  obtain ⟨lex3, hs3, ht3, _, hrd3⟩ := lex_scan_punct ctx flags w1 44 rest lex2 _ e hw1
    (by unfold is_punct; omega) hrd2
  refine ⟨lex3, by simpa [cursor.steps] using hrd3, ?_⟩
  conv => lhs; unfold scan_array_loop
  simp only [hs1]
  exact parse_array_loop_next ctx flags n array lex1 lex2 lex3 e e e x ht0 hr2 hs3
    (by simpa using ht3)

/-- The loop of `parse_object` on one member that it accepts and the comma
after it. -/
theorem scan_object_loop_member (ctx : json_context_t) (flags : load_flags)
    (w0 : List Nat) (key : List string_item) (u w1 w2 t w3 : List Nat) (nodup : Prop)
    (x : json_t) (object : List (List Nat × json_t)) (hw0 : all_space w0)
    (hkey : ∀ i ∈ key, i.valid) (hu : decoded_key key = some u) (hw1 : all_space w1)
    (hw2 : all_space w2) (hw3 : all_space w3) (hv : reads_text ctx flags t nodup x)
    (hacc : flags.JSON_REJECT_DUPLICATES = false ∨
      ((json_object_get object u).isSome = false ∧ nodup))
    (rest : List Nat) (lex : lex_t) (k : cursor) (e : json_error_t)
    (hrd : Ready lex.stream (w0 ++ ((34 :: string_text key ++ [34]) ++
      (w1 ++ 58 :: (w2 ++ (t ++ (w3 ++ 44 :: rest)))))) k) :
    ∃ lex1, lex_scan ctx lex flags e = some (lex1, e) ∧ lex1.token ≠ 125 ∧
      ∀ n, 2 * t.length < n →
        ∃ lex3, Ready lex3.stream rest (k.steps (w0 ++ ((34 :: string_text key ++ [34]) ++
            (w1 ++ 58 :: (w2 ++ (t ++ (w3 ++ [44]))))))) ∧
          scan_object_loop ctx flags (n + 1) object lex e =
            scan_object_loop ctx flags n (json_object_set_nocheck object u x) lex3 e := by
  obtain ⟨lex1, hs1, ht1, hval1, h0, hsv1, hrdk⟩ := lex_scan_key ctx flags w0 key u _ lex k e hw0
    hkey hu hrd
  refine ⟨lex1, hs1, by rw [ht1]; decide, fun n hn => ?_⟩
  have hd : ¬ (flags.JSON_REJECT_DUPLICATES = true ∧
      (json_object_get object u).isSome = true) := by
    rintro ⟨h1, h2⟩
    rcases hacc with h | h
    · rw [h1] at h; cases h
    · rw [h2] at h; cases h.1
  have hgv : flags.JSON_REJECT_DUPLICATES = false ∨ nodup := hacc.imp_right And.right
  obtain ⟨lexc, hsc, htc, _, hrdc⟩ := lex_scan_punct ctx flags w1 58 _ (lex_stolen lex1) _ e
    hw1 (by unfold is_punct; omega) hrdk
  obtain ⟨lexv, hsv, _, _, hout⟩ := hv w2 _ lexc _ e hw2
    (number_end_punct w3 44 rest hw3 (by omega)) hrdc
  obtain ⟨lex2, hr2, hrd2⟩ := (hout n hn).1 hgv
  obtain ⟨lex3, hs3, ht3, _, hrd3⟩ := lex_scan_punct ctx flags w3 44 rest lex2 _ e hw3
    (by unfold is_punct; omega) hrd2
  refine ⟨lex3, by simpa [cursor.steps] using hrd3, ?_⟩
  conv => lhs; unfold scan_object_loop
  simp only [hs1]
  rw [parse_object_loop_member ctx flags n object lex1 lexc lexv e e e u ht1 hval1 h0 hd hsc
    (by simpa using htc) hsv]
  exact parse_object_loop_next ctx flags n object u lexv lex2 lex3 e e e x hr2 hs3
    (by simpa using ht3)

theorem elems_text_length (el : jelem) (els : List jelem) :
    (elems_text (el :: els)).length =
      el.w0.length + el.v.text.length + el.w1.length + 1 + (elems_text els).length := by
  simp only [elems_text, jelem.text, List.length_append, List.length_singleton]
  omega

theorem members_text_length (m : jmember) (ms : List jmember) :
    (members_text (m :: ms)).length =
      m.w0.length + (string_text m.key).length + 2 + m.w1.length + 1 + m.w2.length +
        m.v.text.length + m.w3.length + 1 + (members_text ms).length := by
  simp only [members_text, jmember.text, List.length_append, List.length_singleton,
    List.length_cons, List.length_nil]
  omega

theorem elems_length_le (els : List jelem) : els.length ≤ (elems_text els).length := by
  induction els with
  | nil => simp [elems_text]
  | cons el els ih =>
    rw [elems_text_length]
    simp only [List.length_cons]
    omega

theorem members_length_le (ms : List jmember) : ms.length ≤ (members_text ms).length := by
  induction ms with
  | nil => simp [members_text]
  | cons m ms ih =>
    rw [members_text_length]
    simp only [List.length_cons]
    omega

/-- The loop of `parse_array` on elements that it accepts: it goes on after
them with less fuel. -/
theorem scan_array_loop_elems (ctx : json_context_t) (flags spec : load_flags)
    (hread : ∀ (v : jval) (x : json_t), v.wf → v.value ctx spec = some x →
      reads_text ctx flags v.text v.no_duplicate x)
    (hrej : flags.JSON_REJECT_DUPLICATES = spec.JSON_REJECT_DUPLICATES) :
    ∀ (els : List jelem) (array : List json_t) (rest : List Nat) (lex : lex_t) (k : cursor)
      (e : json_error_t) (n : Nat), elems_accepted ctx spec els →
      Ready lex.stream (elems_text els ++ rest) k → 2 * (elems_text els).length < n →
      ∃ lex3 array3, Ready lex3.stream rest (k.steps (elems_text els)) ∧
        scan_array_loop ctx flags n array lex e =
          scan_array_loop ctx flags (n - els.length) array3 lex3 e := by
  intro els
  induction els with
  | nil =>
    intro array rest lex k e n _ hrd hn
    exact ⟨lex, array, by simpa [elems_text, cursor.steps] using hrd, rfl⟩
  | cons el els ih =>
    intro array rest lex k e n hacc hrd hn
    obtain ⟨hwf, ⟨x, hx⟩, hnd⟩ := hacc el (List.mem_cons_self _ _)
    have hlen := elems_text_length el els
    obtain ⟨m, rfl⟩ : ∃ m, n = m + 1 := ⟨n - 1, by omega⟩
    have hrd1 : Ready lex.stream (el.w0 ++ (el.v.text ++ (el.w1 ++ 44 :: (elems_text els ++ rest))))
        k := by
      simpa [elems_text, jelem.text] using hrd
    obtain ⟨lex1, _, _, hstep⟩ := scan_array_loop_elem ctx flags el.w0 el.v.text el.w1 _ x array
      hwf.1 hwf.2.2 (hread el.v x hwf.2.1 hx) (by rw [hrej]; exact hnd) _ lex k e hrd1
    obtain ⟨lex3, hrd3, heq⟩ := hstep m (by omega)
    obtain ⟨lex4, array4, hrd4, heq4⟩ := ih (array ++ [x]) rest lex3 _ e m
      (fun el' h' => hacc el' (List.mem_cons_of_mem _ h')) hrd3 (by omega)
    refine ⟨lex4, array4, ?_, ?_⟩
    · simpa [elems_text, jelem.text, cursor.steps] using hrd4
    · rw [heq, heq4]
      simp only [List.length_cons]
      congr 1
      omega

/-- The loop of `parse_object` on members that it accepts: it goes on after
them with less fuel. -/
theorem scan_object_loop_members (ctx : json_context_t) (flags spec : load_flags)
    (hread : ∀ (v : jval) (x : json_t), v.wf → v.value ctx spec = some x →
      reads_text ctx flags v.text v.no_duplicate x)
    (hrej : flags.JSON_REJECT_DUPLICATES = spec.JSON_REJECT_DUPLICATES) :
    ∀ (ms : List jmember) (seen : List (List Nat)) (object object1 : List (List Nat × json_t))
      (rest : List Nat) (lex : lex_t) (k : cursor) (e : json_error_t) (n : Nat),
      (∀ u, u ∈ seen ↔ (json_object_get object u).isSome = true) → (∀ m ∈ ms, m.wf) →
      members_set ctx spec ms object = some object1 →
      (spec.JSON_REJECT_DUPLICATES = false ∨ members_no_duplicate ms seen) →
      Ready lex.stream (members_text ms ++ rest) k → 2 * (members_text ms).length < n →
      ∃ lex3, Ready lex3.stream rest (k.steps (members_text ms)) ∧
        scan_object_loop ctx flags n object lex e =
          scan_object_loop ctx flags (n - ms.length) object1 lex3 e := by
  intro ms
  induction ms with
  | nil =>
    intro seen object object1 rest lex k e n _ _ hset _ hrd _
    simp only [members_set, Option.some.injEq] at hset
    subst hset
    exact ⟨lex, by simpa [members_text, cursor.steps] using hrd, rfl⟩
  | cons m ms ih =>
    intro seen object object1 rest lex k e n hseen hwf hset hnd hrd hn
    have hm := hwf m (List.mem_cons_self _ _)
    have hlen := members_text_length m ms
    obtain ⟨n1, rfl⟩ : ∃ n1, n = n1 + 1 := ⟨n - 1, by omega⟩
    simp only [members_set] at hset
    cases hk : decoded_key m.key with
    | none => rw [hk] at hset; cases hset
    | some u =>
      cases hv : m.v.value ctx spec with
      | none => rw [hk, hv] at hset; cases hset
      | some x =>
        rw [hk, hv] at hset
        simp only at hset
        have hrd1 : Ready lex.stream (m.w0 ++ ((34 :: string_text m.key ++ [34]) ++
            (m.w1 ++ 58 :: (m.w2 ++ (m.v.text ++ (m.w3 ++ 44 :: (members_text ms ++ rest)))))))
            k := by
          simpa [members_text, jmember.text] using hrd
        have hacc : flags.JSON_REJECT_DUPLICATES = false ∨
            ((json_object_get object u).isSome = false ∧ m.v.no_duplicate) := by
          rw [hrej]
          rcases hnd with h | h
          · exact Or.inl h
          · simp only [members_no_duplicate, hk, Option.getD_some] at h
            exact Or.inr ⟨(seen_fresh seen object u hseen).mp h.1, h.2.1⟩
        obtain ⟨lex1, _, _, hstep⟩ := scan_object_loop_member ctx flags m.w0 m.key u m.w1 m.w2
          m.v.text m.w3 _ x object hm.1 hm.2.1 hk hm.2.2.1 hm.2.2.2.1 hm.2.2.2.2.2
          (hread m.v x hm.2.2.2.2.1 hv) hacc _ lex k e hrd1
        obtain ⟨lex3, hrd3, heq⟩ := hstep n1 (by omega)
        obtain ⟨lex4, hrd4, heq4⟩ := ih (u :: seen) _ object1 rest lex3 _ e n1
          (seen_set seen object u x hseen) (fun m' h' => hwf m' (List.mem_cons_of_mem _ h'))
          hset (by
            rcases hnd with h | h
            · exact Or.inl h
            · simp only [members_no_duplicate, hk, Option.getD_some] at h
              exact Or.inr h.2.2) hrd3 (by omega)
        refine ⟨lex4, ?_, ?_⟩
        · simpa [members_text, jmember.text, cursor.steps] using hrd4
        · rw [heq, heq4]
          simp only [List.length_cons]
          congr 1
          omega

/-- The function `parse_json` when `parse_value` fails on a text that opens an
array or an object, the decoder being prepared for the modes asked for. -/
theorem parse_json_fails (ctx : json_context_t) (flags : load_flags) (lex lex1 lexd : lex_t)
    (e ed : json_error_t) (hprep : prepared ctx flags)
    (hs : lex_scan ctx lex (parse_flags flags) e = some (lex1, e))
    (htok : lex1.token = 91 ∨ lex1.token = 123)
    (hp : parse_value ctx (parse_flags flags) (3 * lex.stream.data.length + 4) lex1 e =
      some (none, lexd, ed)) :
    parse_json ctx lex flags e = some (none, lexd, ed) := by
  obtain ⟨_, _, _, _, _, _, _, f8, f9⟩ := parse_flags_fields flags
  unfold parse_json
  simp only
  rw [show (if (if flags.JSON_USE_BIGINT_ALWAYS = true then
    { flags with JSON_USE_BIGINT := true } else flags).JSON_USE_BIGREAL_ALWAYS = true then
    { (if flags.JSON_USE_BIGINT_ALWAYS = true then
        { flags with JSON_USE_BIGINT := true } else flags) with JSON_USE_BIGREAL := true }
    else (if flags.JSON_USE_BIGINT_ALWAYS = true then
      { flags with JSON_USE_BIGINT := true } else flags)) = parse_flags flags from rfl]
  have h1 : ¬ ((parse_flags flags).JSON_USE_BIGINT = true ∧ ctx.have_bigint = false) := by
    rintro ⟨ha, hb⟩
    rw [f8] at ha
    have := hprep.1 (by simpa using ha)
    rw [this] at hb
    cases hb
  have h2 : ¬ ((parse_flags flags).JSON_USE_BIGREAL = true ∧ ctx.have_bigreal = false) := by
    rintro ⟨ha, hb⟩
    rw [f9] at ha
    have := hprep.2 (by simpa using ha)
    rw [this] at hb
    cases hb
  have h3 : ¬ ((parse_flags flags).JSON_DECODE_ANY = false ∧ lex1.token ≠ 91 ∧
      lex1.token ≠ 123) := by
    rintro ⟨_, hb, hc⟩
    rcases htok with h | h
    · exact hb h
    · exact hc h
  simp only [h1, h2, ite_false, hs, h3, hp]

theorem reads_flags (ctx : json_context_t) (flags : load_flags) (v : jval) (x : json_t)
    (hwf : v.wf) (hx : v.value ctx flags = some x) :
    reads_text ctx (parse_flags flags) v.text v.no_duplicate x :=
  parse_value_reads ctx (parse_flags flags) v x hwf (by rw [jval_value_flags]; exact hx)

theorem parse_value_token_close (ctx : json_context_t) (flags : load_flags) (n : Nat)
    (lex : lex_t) (e : json_error_t) (ht : lex.token = 93) :
    parse_value ctx flags (n + 1) lex e =
      some (none, lex, error_set e (some lex) (str "unexpected token")) := by
  unfold parse_value
  simp only [ht, TOKEN_INTEGER, TOKEN_STRING, TOKEN_BIGINTEGER, TOKEN_BIGREAL, TOKEN_REAL,
    TOKEN_TRUE, TOKEN_FALSE, TOKEN_NULL, TOKEN_INVALID, show ¬ ((93 : Int) = 256) by decide,
    show ¬ ((93 : Int) = 257) by decide, show ¬ ((93 : Int) = 262) by decide,
    show ¬ ((93 : Int) = 263) by decide, show ¬ ((93 : Int) = 258) by decide,
    show ¬ ((93 : Int) = 259) by decide, show ¬ ((93 : Int) = 260) by decide,
    show ¬ ((93 : Int) = 261) by decide, show ¬ ((93 : Int) = 123) by decide,
    show ¬ ((93 : Int) = 91) by decide, show ¬ ((93 : Int) = -1) by decide, ite_false]

theorem elems_text_bytes (els : List jelem) (h : ∀ el ∈ els, el.wf) :
    ∀ b ∈ elems_text els, b < 256 := by
  induction els with
  | nil => intro b hb; cases hb
  | cons el els ih =>
    intro b hb
    have hel := h el (List.mem_cons_self _ _)
    simp only [elems_text, jelem.text, List.mem_append, List.mem_singleton] at hb
    rcases hb with (hb | hb | hb | hb) | hb
    · exact space_bytes _ hel.1 b hb
    · exact jval_text_bytes _ hel.2.1 b hb
    · exact space_bytes _ hel.2.2 b hb
    · omega
    · exact ih (fun x hx => h x (List.mem_cons_of_mem _ hx)) b hb

/-- The function `parse_array` on elements that it accepts, each with a comma
after it, and `]`: the report "unexpected token" at the bracket. -/
theorem parse_array_trailing_comma (ctx : json_context_t) (flags : load_flags)
    (els : List jelem) (w rest : List Nat) (hels : els ≠ [])
    (hacc : elems_accepted ctx flags els) (hw : all_space w) (lex : lex_t) (k : cursor)
    (e : json_error_t) (n : Nat)
    (hrd : Ready lex.stream (elems_text els ++ (w ++ 93 :: rest)) k)
    (hn : 2 * (elems_text els).length + 2 < n) :
    ∃ lexd, parse_array ctx (parse_flags flags) n lex e = some (none, lexd,
      report_at e (k.steps (elems_text els ++ (w ++ [93])))
        (with_context (str "unexpected token") [93])) := by
  obtain ⟨f1, _⟩ := parse_flags_fields flags
  obtain ⟨el, els1, rfl⟩ : ∃ el els1, els = el :: els1 := by
    cases els with
    | nil => exact absurd rfl hels
    | cons el els1 => exact ⟨el, els1, rfl⟩
  obtain ⟨hwf, ⟨x, hx⟩, hnd⟩ := hacc el (List.mem_cons_self _ _)
  have hrd1 : Ready lex.stream (el.w0 ++ (el.v.text ++ (el.w1 ++ 44 ::
      (elems_text els1 ++ (w ++ 93 :: rest))))) k := by
    simpa [elems_text, jelem.text] using hrd
  obtain ⟨lex1, hs1, ht1, _⟩ := scan_array_loop_elem ctx (parse_flags flags) el.w0 el.v.text
    el.w1 _ x [] hwf.1 hwf.2.2 (reads_flags ctx flags el.v x hwf.2.1 hx)
    (by rw [f1]; exact hnd) _ lex k e hrd1
  obtain ⟨m, rfl⟩ : ∃ m, n = m + 1 := ⟨n - 1, by omega⟩
  rw [parse_array_step ctx (parse_flags flags) m lex lex1 e e hs1, if_neg ht1]
  have hscan : parse_array_loop ctx (parse_flags flags) m [] lex1 e =
      scan_array_loop ctx (parse_flags flags) m [] lex e := by
    unfold scan_array_loop
    simp only [hs1]
  rw [hscan]
  obtain ⟨lex3, array3, hrd3, heq⟩ := scan_array_loop_elems ctx (parse_flags flags) flags
    (reads_flags ctx flags) f1 (el :: els1) [] (w ++ 93 :: rest) lex k e m hacc hrd (by omega)
  rw [heq]
  obtain ⟨lexq, hsq, htq, hsvq, hrdq⟩ := lex_scan_punct ctx (parse_flags flags) w 93 rest lex3 _ e
    hw (by unfold is_punct; omega) hrd3
  have hle := elems_length_le (el :: els1)
  obtain ⟨m2, hm2⟩ : ∃ m2, m - (el :: els1).length = m2 + 2 :=
    ⟨m - (el :: els1).length - 2, by omega⟩
  rw [hm2]
  unfold scan_array_loop
  simp only [hsq]
  have htq1 : lexq.token = 93 := by simpa using htq
  rw [parse_array_loop_fail ctx (parse_flags flags) (m2 + 1) array3 lexq lexq e _
    (by rw [htq1]; decide) (parse_value_token_close ctx (parse_flags flags) m2 lexq e htq1)]
  refine ⟨lexq, ?_⟩
  rw [error_set_at e lexq _ [93] rest _ (by decide) hsvq (by simp) (by decide) hrdq]
  simp [cursor.steps]

/-- C13, amended: for every array text in which elements that the decoder
accepts (well formed, with values under the flags, no rejected duplicate key),
each with a comma after it, are followed after optional whitespace directly by
`]`, given to `json_loadb` after whitespace with the decoder prepared for the
big-number modes asked for, the decode fails and the one report, made at the
`]`, is "unexpected token near ']'". -/
theorem json_loadb_trailing_comma (ctx : json_context_t) (flags : load_flags)
    (ws0 : List Nat) (els : List jelem) (w rest : List Nat) (hws0 : all_space ws0)
    (hels : els ≠ []) (hacc : elems_accepted ctx flags els) (hw : all_space w)
    (hrest : ∀ b ∈ rest, b < 256) (hprep : prepared ctx flags) :
    json_loadb ctx (ws0 ++ 91 :: (elems_text els ++ (w ++ 93 :: rest))) flags =
      some (none, report_at jsonp_error_init
        (cursor_init.steps (ws0 ++ 91 :: (elems_text els ++ (w ++ [93]))))
        (str "unexpected token near ']'")) := by
  have hbytes : ∀ b ∈ ws0 ++ 91 :: (elems_text els ++ (w ++ 93 :: rest)), b < 256 := by
    intro b hb
    simp only [List.mem_append, List.mem_cons] at hb
    rcases hb with hb | hb | hb | hb | hb | hb
    · exact space_bytes _ hws0 b hb
    · omega
    · exact elems_text_bytes els (fun el h => (hacc el h).1) b hb
    · exact space_bytes _ hw b hb
    · omega
    · exact hrest b hb
  have hrd := ready_init_buffer _ hbytes
  obtain ⟨lexb, hsb, htb, _, hrdb⟩ := lex_scan_punct ctx (parse_flags flags) ws0 91 _
    (lex_init get_func.buffer_get (ws0 ++ 91 :: (elems_text els ++ (w ++ 93 :: rest)))) _
    jsonp_error_init hws0 (by unfold is_punct; omega) hrd
  have htb1 : lexb.token = 91 := by simpa using htb
  obtain ⟨lexd, hp⟩ := parse_array_trailing_comma ctx flags els w rest hels hacc hw lexb _
    jsonp_error_init (3 * (ws0 ++ 91 :: (elems_text els ++ (w ++ 93 :: rest))).length + 3) hrdb
    (by simp only [List.length_append, List.length_cons]; omega)
  have hfail := parse_json_fails ctx flags
    (lex_init get_func.buffer_get (ws0 ++ 91 :: (elems_text els ++ (w ++ 93 :: rest)))) lexb lexd
    jsonp_error_init _ hprep hsb (Or.inl htb1) (by
      rw [show (lex_init get_func.buffer_get
          (ws0 ++ 91 :: (elems_text els ++ (w ++ 93 :: rest)))).stream.data =
          ws0 ++ 91 :: (elems_text els ++ (w ++ 93 :: rest)) from rfl,
        parse_value_token_array ctx (parse_flags flags) _ lexb _ htb1]
      exact hp)
  unfold json_loadb
  rw [hfail]
  simp only [Option.some.injEq, Prod.mk.injEq, true_and]
  have hctx : with_context (str "unexpected token") [93] = str "unexpected token near ']'" := by
    decide
  rw [hctx]
  simp [cursor.steps]

theorem digit_scalar_wf (d : Nat) (h1 : 49 ≤ d) (h2 : d ≤ 57) :
    (jval.scalar (.number [] [d] [] [])).wf := by
  simp only [jval.wf, jscalar.wf]
  exact ⟨Or.inl rfl, Or.inr ⟨d, [], rfl, h1, h2, fun x hx => by cases hx⟩, Or.inl rfl,
    Or.inl rfl⟩

theorem one_two_accepted : elems_accepted plain_context no_flags one_two := by
  intro el hel
  simp only [one_two, List.mem_cons, List.not_mem_nil, or_false] at hel
  rcases hel with h | h <;> subst h
  · exact ⟨⟨fun b hb => (by cases hb), digit_scalar_wf 49 (by decide) (by decide),
      fun b hb => (by cases hb)⟩, Option.isSome_iff_exists.mp (by decide!), Or.inl rfl⟩
  · exact ⟨⟨fun b hb => (by simp only [List.mem_singleton] at hb; omega),
      digit_scalar_wf 50 (by decide) (by decide), fun b hb => (by cases hb)⟩,
      Option.isSome_iff_exists.mp (by decide!), Or.inl rfl⟩

theorem json_loadb_trailing_comma_witness :
    elems_text one_two = str "1, 2," ∧
    json_loadb plain_context ([] ++ 91 :: (elems_text one_two ++ ([] ++ 93 :: []))) no_flags =
      some (none, report_at jsonp_error_init
        (cursor_init.steps ([] ++ 91 :: (elems_text one_two ++ ([] ++ [93]))))
        (str "unexpected token near ']'")) :=
  ⟨by decide, json_loadb_trailing_comma plain_context no_flags [] one_two [] []
    (fun b hb => by cases hb) (List.cons_ne_nil _ _) one_two_accepted (fun b hb => by cases hb)
    (fun b hb => by cases hb) (by unfold prepared; decide)⟩

/-- C13, as stated, fails: on the text `[1, 2,]` the decode fails with the
report "unexpected token near ']'" (made at the `]`, line 1, column 7,
position 7), not with "']' expected": after the comma the loop of `parse_array`
calls `parse_value` on the token `]`. -/
theorem json_loadb_trailing_comma_message :
    json_loadb plain_context (str "[1, 2,]") no_flags =
      some (none, { reports := [{ line := 1, column := 7, position := 7,
                                  text := str "unexpected token near ']'" }],
                    position := 0 }) :=
  json_result_identical_sound _ _ (by decide!)

theorem parse_object_loop_nul (ctx : json_context_t) (flags : load_flags) (n : Nat)
    (object : List (List Nat × json_t)) (lex : lex_t) (e : json_error_t) (key : List Nat)
    (ht : lex.token = TOKEN_STRING) (hval : lex.value = lex_value.string (some key))
    (h0 : 0 ∈ key) :
    parse_object_loop ctx flags (n + 1) object lex e =
      some (none, lex_stolen lex,
        error_set e (some (lex_stolen lex)) (str "NUL byte in object key not supported")) := by
  unfold parse_object_loop
  simp only [ht, hval, h0, lex_stolen]
  simp

theorem members_text_bytes (ms : List jmember) (h : ∀ m ∈ ms, m.wf) :
    ∀ b ∈ members_text ms, b < 256 := by
  induction ms with
  | nil => intro b hb; cases hb
  | cons m ms ih =>
    intro b hb
    have hm := h m (List.mem_cons_self _ _)
    simp only [members_text, jmember.text] at hb
    rcases List.mem_append.mp hb with hb | hb
    · rcases List.mem_append.mp hb with hb | hb
      · exact space_bytes _ hm.1 b hb
      · rcases List.mem_append.mp hb with hb | hb
        · exact key_text_bytes m.key hm.2.1 b hb
        · simp only [List.mem_cons, List.mem_append, List.not_mem_nil, or_false] at hb
          rcases hb with hb | hb | hb | hb | hb | hb
          · exact space_bytes _ hm.2.2.1 b hb
          · omega
          · exact space_bytes _ hm.2.2.2.1 b hb
          · exact jval_text_bytes _ hm.2.2.2.2.1 b hb
          · exact space_bytes _ hm.2.2.2.2.2 b hb
          · omega
    · exact ih (fun x hx => h x (List.mem_cons_of_mem _ hx)) b hb

/-- The function `parse_object` on members that it accepts, each with a comma
after it, and a key whose unescaping holds a NUL: the report of the NUL at the
key. -/
theorem parse_object_nul_key (ctx : json_context_t) (flags : load_flags)
    (ms : List jmember) (w0 : List Nat) (key : List string_item) (u rest : List Nat)
    (hacc : members_accepted ctx flags ms) (hw0 : all_space w0) (hkey : ∀ i ∈ key, i.valid)
    (hu : unescape key = .ok u) (h0 : 0 ∈ u) (lex : lex_t) (k : cursor) (e : json_error_t)
    (n : Nat)
    (hrd : Ready lex.stream (members_text ms ++ (w0 ++ (34 :: string_text key ++ [34] ++ rest)))
      k)
    (hn : 2 * (members_text ms).length + 2 < n) :
    ∃ lexd, parse_object ctx (parse_flags flags) n lex e = some (none, lexd,
      report_at e (k.steps (members_text ms ++ (w0 ++ (34 :: string_text key ++ [34]))))
        (with_context (str "NUL byte in object key not supported")
          (34 :: string_text key ++ [34]))) := by
  obtain ⟨f1, _⟩ := parse_flags_fields flags
  obtain ⟨hwf, ⟨object1, hset⟩, hnd⟩ := hacc
  obtain ⟨m, rfl⟩ : ∃ m, n = m + 1 := ⟨n - 1, by omega⟩
  -- the first token is a string
  have hfirst : ∃ lex1 e1, lex_scan ctx lex (parse_flags flags) e = some (lex1, e1) ∧
      lex1.token ≠ 125 := by
    cases ms with
    | nil =>
      obtain ⟨lex1, e1, h1, _, _, h4⟩ := lex_scan_string_token ctx (parse_flags flags) w0 key rest
        lex k e hw0 hkey (by simpa [members_text] using hrd)
      unfold scanned_string at h4
      rw [hu] at h4
      exact ⟨lex1, e1, h1, by rw [h4.1]; decide⟩
    | cons m1 ms1 =>
      have hm := hwf m1 (List.mem_cons_self _ _)
      simp only [members_set] at hset
      cases hk : decoded_key m1.key with
      | none => rw [hk] at hset; cases hset
      | some u1 =>
        obtain ⟨lex1, h1, ht1, _⟩ := lex_scan_key ctx (parse_flags flags) m1.w0 m1.key u1 _ lex k e
          hm.1 hm.2.1 hk (by simpa [members_text, jmember.text] using hrd)
        exact ⟨lex1, e, h1, by rw [ht1]; decide⟩
  obtain ⟨lex1, e1, hs1, ht1⟩ := hfirst
  rw [parse_object_step ctx (parse_flags flags) m lex lex1 e e1 hs1, if_neg ht1]
  have hscan : parse_object_loop ctx (parse_flags flags) m [] lex1 e1 =
      scan_object_loop ctx (parse_flags flags) m [] lex e := by
    unfold scan_object_loop
    simp only [hs1]
  rw [hscan]
  obtain ⟨lex3, hrd3, heq⟩ := scan_object_loop_members ctx (parse_flags flags) flags
    (reads_flags ctx flags) f1 ms [] [] object1 _ lex k e m (fun v => by simp [json_object_get])
    hwf hset hnd hrd (by omega)
  rw [heq]
  obtain ⟨lexk, ek, hsk, hsvk, hrdk, hsck⟩ := lex_scan_string_token ctx (parse_flags flags) w0
    key rest lex3 _ e hw0 hkey (by simpa using hrd3)
  unfold scanned_string at hsck
  rw [hu] at hsck
  obtain ⟨htk, hvalk, hek⟩ := hsck
  subst hek
  have hle := members_length_le ms
  obtain ⟨m2, hm2⟩ : ∃ m2, m - ms.length = m2 + 1 := ⟨m - ms.length - 1, by omega⟩
  rw [hm2]
  unfold scan_object_loop
  simp only [hsk]
  rw [parse_object_loop_nul ctx (parse_flags flags) m2 object1 lexk ek u htk hvalk h0]
  refine ⟨lex_stolen lexk, ?_⟩
  have hnz : ∀ b ∈ 34 :: string_text key ++ [34], b ≠ 0 := by
    intro b hb
    simp only [List.cons_append, List.mem_cons, List.mem_append, List.not_mem_nil,
      or_false] at hb
    rcases hb with hb | hb | hb
    · rw [hb]; decide
    · exact string_text_nonzero key hkey b hb
    · rw [hb]; decide
  rw [error_set_cursor ek (lex_stolen lexk) _ _ _ (by decide) hsvk (by simp) hnz rfl]
  have hc := hrdk.cur
  simp only [lex_stolen]
  rw [hc]
  simp [cursor.steps]

/-- C11, amended: for every combination of flags for which the needed
big-number backends are installed, `JSON_ALLOW_NUL` among them, and every
object text in which members that the decoder accepts (well formed, with values
under the flags, no rejected duplicate key), each with a comma after it, are
followed by a key, a string literal of valid elements, whose unescaping holds a
NUL byte: `json_loadb` gives no value and the one report, made at the key, is
"NUL byte in object key not supported" with the text of the key as context. -/
theorem json_loadb_nul_key (ctx : json_context_t) (flags : load_flags)
    (ws0 : List Nat) (ms : List jmember) (w0 : List Nat) (key : List string_item)
    (u rest : List Nat) (hws0 : all_space ws0) (hacc : members_accepted ctx flags ms)
    (hw0 : all_space w0) (hkey : ∀ i ∈ key, i.valid) (hu : unescape key = .ok u) (h0 : 0 ∈ u)
    (hrest : ∀ b ∈ rest, b < 256) (hprep : prepared ctx flags) :
    json_loadb ctx
        (ws0 ++ 123 :: (members_text ms ++ (w0 ++ (34 :: string_text key ++ [34] ++ rest))))
        flags =
      some (none, report_at jsonp_error_init
        (cursor_init.steps
          (ws0 ++ 123 :: (members_text ms ++ (w0 ++ (34 :: string_text key ++ [34])))))
        (with_context (str "NUL byte in object key not supported")
          (34 :: string_text key ++ [34]))) := by
  have hbytes : ∀ b ∈ ws0 ++ 123 :: (members_text ms ++
      (w0 ++ (34 :: string_text key ++ [34] ++ rest))), b < 256 := by
    intro b hb
    simp only [List.mem_append, List.mem_cons] at hb
    rcases hb with hb | hb | hb | hb | hb | hb
    · exact space_bytes _ hws0 b hb
    · omega
    · exact members_text_bytes ms hacc.1 b hb
    · exact space_bytes _ hw0 b hb
    · rcases hb with (hb | hb) | hb | hb
      · omega
      · exact string_text_bytes key hkey b hb
      · omega
      · cases hb
    · exact hrest b hb
  have hrd := ready_init_buffer _ hbytes
  obtain ⟨lexb, hsb, htb, _, hrdb⟩ := lex_scan_punct ctx (parse_flags flags) ws0 123 _
    (lex_init get_func.buffer_get (ws0 ++ 123 :: (members_text ms ++
      (w0 ++ (34 :: string_text key ++ [34] ++ rest))))) _
    jsonp_error_init hws0 (by unfold is_punct; omega) hrd
  have htb1 : lexb.token = 123 := by simpa using htb
  obtain ⟨lexd, hp⟩ := parse_object_nul_key ctx flags ms w0 key u rest hacc hw0 hkey hu h0 lexb _
    jsonp_error_init (3 * (ws0 ++ 123 :: (members_text ms ++
      (w0 ++ (34 :: string_text key ++ [34] ++ rest)))).length + 3) hrdb
    (by simp only [List.length_append, List.length_cons]; omega)
  have hfail := parse_json_fails ctx flags
    (lex_init get_func.buffer_get (ws0 ++ 123 :: (members_text ms ++
      (w0 ++ (34 :: string_text key ++ [34] ++ rest))))) lexb lexd
    jsonp_error_init _ hprep hsb (Or.inr htb1) (by
      rw [show (lex_init get_func.buffer_get (ws0 ++ 123 :: (members_text ms ++
          (w0 ++ (34 :: string_text key ++ [34] ++ rest))))).stream.data =
          ws0 ++ 123 :: (members_text ms ++ (w0 ++ (34 :: string_text key ++ [34] ++ rest)))
          from rfl,
        parse_value_token_object ctx (parse_flags flags) _ lexb _ htb1]
      exact hp)
  unfold json_loadb
  rw [hfail]
  simp [cursor.steps]

theorem nul_key_valid : ∀ i ∈ nul_key, i.valid := by
  intro i hi
  simp only [nul_key, List.mem_cons, List.not_mem_nil, or_false] at hi
  rcases hi with h | h | h <;> subst h
  · exact Or.inl ⟨97, rfl, by decide, by decide, by decide, by decide⟩
  · exact ⟨Or.inl (by decide), Or.inl (by decide), Or.inl (by decide), Or.inl (by decide)⟩
  · exact Or.inl ⟨98, rfl, by decide, by decide, by decide, by decide⟩

theorem json_loadb_nul_key_witness :
    [] ++ 123 :: (members_text [] ++ ([] ++ (34 :: string_text nul_key ++ [34] ++ str ":1\x7d")))
      = str "\x7b\"a\\u0000b\":1\x7d" ∧
    json_loadb backend_context
        ([] ++ 123 :: (members_text [] ++ ([] ++ (34 :: string_text nul_key ++ [34] ++
          str ":1\x7d")))) all_flags =
      some (none, report_at jsonp_error_init
        (cursor_init.steps
          ([] ++ 123 :: (members_text [] ++ ([] ++ (34 :: string_text nul_key ++ [34])))))
        (with_context (str "NUL byte in object key not supported")
          (34 :: string_text nul_key ++ [34]))) :=
  ⟨by decide, json_loadb_nul_key backend_context all_flags [] [] [] nul_key [97, 0, 98]
    (str ":1\x7d") (fun b hb => (by cases hb))
    ⟨fun m hm => (by cases hm), ⟨[], rfl⟩, Or.inr trivial⟩ (fun b hb => (by cases hb))
    nul_key_valid rfl (by decide) (by decide) (by unfold prepared; decide)⟩

/-- C11, as stated, fails: with the flag `JSON_USE_BIGINT` and no big integer
backend installed the decode of `{"a\u0000b":1}` fails with the report
"Programming error: Not prepared to decode big integers near end of file",
made before anything is read, not with "NUL byte in object key not
supported". -/
theorem json_loadb_nul_key_unprepared :
    json_loadb plain_context (str "\x7b\"a\\u0000b\":1\x7d")
        { no_flags with JSON_USE_BIGINT := true } =
      some (none, { reports := [{ line := 1, column := 0, position := 0,
                                  text := str ("Programming error: Not prepared to decode " ++
                                    "big integers near end of file") }],
                    position := 0 }) :=
  json_result_identical_sound _ _ (by decide!)

/-- C12: for every string literal of valid elements whose unescaping `u` holds
a NUL byte (which only a `\u0000` escape gives), read by `lex_scan` after
whitespace: the token is the string token with the payload `u`, and
`parse_value` rejects it, with the report "\u0000 is not allowed without
JSON_ALLOW_NUL", if and only if `JSON_ALLOW_NUL` is clear; with the flag set it
returns the string value of all the bytes of `u`, the NUL and every byte after
it among them. -/
theorem parse_value_string_nul (ctx : json_context_t) (flags : load_flags)
    (ws : List Nat) (items : List string_item) (u rest : List Nat) (lex : lex_t) (k : cursor)
    (e : json_error_t) (n : Nat) (hws : all_space ws) (hv : ∀ i ∈ items, i.valid)
    (hu : unescape items = .ok u) (h0 : 0 ∈ u)
    (hrd : Ready lex.stream (ws ++ 34 :: (string_text items ++ 34 :: rest)) k) :
    ∃ lex1, lex_scan ctx lex flags e = some (lex1, e) ∧ lex1.token = TOKEN_STRING ∧
      lex1.value = lex_value.string (some u) ∧
      (flags.JSON_ALLOW_NUL = false →
        parse_value ctx flags (n + 1) lex1 e = some (none, lex1,
          report_at e (k.steps (ws ++ (34 :: string_text items ++ [34])))
            (with_context (str "\\u0000 is not allowed without JSON_ALLOW_NUL")
              (34 :: string_text items ++ [34])))) ∧
      (flags.JSON_ALLOW_NUL = true →
        parse_value ctx flags (n + 1) lex1 e =
          some (some (json_t.JSON_STRING u), lex_stolen lex1, e)) := by
  obtain ⟨lex1, e1, h1, h2, h3, h4⟩ := lex_scan_string_token ctx flags ws items rest lex k e hws hv
    hrd
  unfold scanned_string at h4
  rw [hu] at h4
  obtain ⟨ht, hval, he⟩ := h4
  subst he
  refine ⟨lex1, h1, ht, hval, fun hf => ?_, fun hf => ?_⟩
  · rw [parse_value_token_string ctx flags n lex1 e1 u ht hval, if_pos ⟨hf, h0⟩]
    have hnz : ∀ b ∈ 34 :: string_text items ++ [34], b ≠ 0 := by
      intro b hb
      simp only [List.cons_append, List.mem_cons, List.mem_append, List.not_mem_nil,
        or_false] at hb
      rcases hb with hb | hb | hb
      · rw [hb]; decide
      · exact string_text_nonzero items hv b hb
      · rw [hb]; decide
    rw [error_set_at e1 lex1 _ _ rest _ (by decide) h2 (by simp) hnz h3]
  · rw [parse_value_token_string ctx flags n lex1 e1 u ht hval,
      if_neg (by rw [hf]; rintro ⟨h, _⟩; cases h)]
    rfl

theorem parse_value_string_nul_witness :
    ∃ lex1, lex_scan plain_context (lex_init get_func.buffer_get (str "\"a\\u0000b\""))
        { no_flags with JSON_ALLOW_NUL := true } jsonp_error_init =
          some (lex1, jsonp_error_init) ∧ lex1.token = TOKEN_STRING ∧
      lex1.value = lex_value.string (some [0x61, 0x00, 0x62]) ∧
      (({ no_flags with JSON_ALLOW_NUL := true } : load_flags).JSON_ALLOW_NUL = false →
        parse_value plain_context { no_flags with JSON_ALLOW_NUL := true } (0 + 1) lex1
            jsonp_error_init = some (none, lex1,
          report_at jsonp_error_init
            (cursor_init.steps ([] ++ (34 :: string_text nul_key ++ [34])))
            (with_context (str "\\u0000 is not allowed without JSON_ALLOW_NUL")
              (34 :: string_text nul_key ++ [34])))) ∧
      (({ no_flags with JSON_ALLOW_NUL := true } : load_flags).JSON_ALLOW_NUL = true →
        parse_value plain_context { no_flags with JSON_ALLOW_NUL := true } (0 + 1) lex1
            jsonp_error_init =
          some (some (json_t.JSON_STRING [0x61, 0x00, 0x62]), lex_stolen lex1,
            jsonp_error_init)) :=
  parse_value_string_nul plain_context { no_flags with JSON_ALLOW_NUL := true } [] nul_key
    [0x61, 0x00, 0x62] [] (lex_init get_func.buffer_get (str "\"a\\u0000b\"")) cursor_init
    jsonp_error_init 0 (fun b hb => (by cases hb)) nul_key_valid rfl (by decide)
    (ready_init_buffer _ (by decide))

theorem error_set_init (g : get_func) (data msg : List Nat) (hmsg : msg.length ≤ 100) :
    error_set jsonp_error_init (some (lex_init g data)) msg =
      { reports := [{ line := 1, column := 0, position := 0,
                      text := msg ++ str " near end of file" }],
        position := 0 } := by
  have h1 : msg.take (JSON_ERROR_TEXT_LENGTH - 1) = msg :=
    List.take_of_length_le (by unfold JSON_ERROR_TEXT_LENGTH; omega)
  have h2 : (msg ++ str " near end of file").take (JSON_ERROR_TEXT_LENGTH - 1) =
      msg ++ str " near end of file" :=
    List.take_of_length_le (by
      rw [List.length_append, show (str " near end of file").length = 17 from by decide]
      unfold JSON_ERROR_TEXT_LENGTH
      omega)
  simp only [error_set, lex_init, stream_init, c_str, List.takeWhile_nil, ne_eq,
    not_true_eq_false, ite_false, h1, h2, jsonp_error_set, jsonp_error_init,
    STREAM_STATE_OK, STREAM_STATE_ERROR, List.nil_append]
  simp [h2]
  all_goals (rw [show (str " near end of file").length = 17 from by decide]; omega)

/-- C14: if a big integer mode (`JSON_USE_BIGINT` or `JSON_USE_BIGINT_ALWAYS`)
is asked for while no integer backend is installed, or a big real mode while no
real backend is installed, then for every byte source and every input
`parse_json` gives no value and one report, at line 1, column 0, position 0,
whose text starts with "Programming error:", and the lexer it leaves is the one
it was given: nothing was read from the source, and the stream stands at
position 0. -/
theorem parse_json_unprepared (ctx : json_context_t) (flags : load_flags) (g : get_func)
    (data : List Nat)
    (h : ((flags.JSON_USE_BIGINT = true ∨ flags.JSON_USE_BIGINT_ALWAYS = true) ∧
        ctx.have_bigint = false) ∨
      ((flags.JSON_USE_BIGREAL = true ∨ flags.JSON_USE_BIGREAL_ALWAYS = true) ∧
        ctx.have_bigreal = false)) :
    ∃ msg, (msg = str "Programming error: Not prepared to decode big integers" ∨
        msg = str "Programming error: Not prepared to decode big reals") ∧
      parse_json ctx (lex_init g data) flags jsonp_error_init =
        some (none, lex_init g data,
          { reports := [{ line := 1, column := 0, position := 0,
                          text := msg ++ str " near end of file" }],
            position := 0 }) ∧
      (lex_init g data).stream.position = 0 ∧ (lex_init g data).stream.data = data := by
  obtain ⟨_, _, _, _, _, _, _, f8, f9⟩ := parse_flags_fields flags
  have hunf : parse_json ctx (lex_init g data) flags jsonp_error_init =
      (if (parse_flags flags).JSON_USE_BIGINT = true ∧ ctx.have_bigint = false then
        some (none, lex_init g data, error_set jsonp_error_init (some (lex_init g data))
          (str "Programming error: Not prepared to decode big integers"))
      else if (parse_flags flags).JSON_USE_BIGREAL = true ∧ ctx.have_bigreal = false then
        some (none, lex_init g data, error_set jsonp_error_init (some (lex_init g data))
          (str "Programming error: Not prepared to decode big reals"))
      else parse_json ctx (lex_init g data) flags jsonp_error_init) := by
    conv => lhs; unfold parse_json
    simp only
    rw [show (if (if flags.JSON_USE_BIGINT_ALWAYS = true then
      { flags with JSON_USE_BIGINT := true } else flags).JSON_USE_BIGREAL_ALWAYS = true then
      { (if flags.JSON_USE_BIGINT_ALWAYS = true then
          { flags with JSON_USE_BIGINT := true } else flags) with JSON_USE_BIGREAL := true }
      else (if flags.JSON_USE_BIGINT_ALWAYS = true then
        { flags with JSON_USE_BIGINT := true } else flags)) = parse_flags flags from rfl]
    by_cases h1 : (parse_flags flags).JSON_USE_BIGINT = true ∧ ctx.have_bigint = false
    · simp only [h1, and_self, ite_true]
    · by_cases h2 : (parse_flags flags).JSON_USE_BIGREAL = true ∧ ctx.have_bigreal = false
      · simp only [h1, h2, and_self, ite_true, ite_false]
      · simp only [h1, h2, ite_false]
        conv => rhs; unfold parse_json
        simp only
        rw [show (if (if flags.JSON_USE_BIGINT_ALWAYS = true then
          { flags with JSON_USE_BIGINT := true } else flags).JSON_USE_BIGREAL_ALWAYS = true then
          { (if flags.JSON_USE_BIGINT_ALWAYS = true then
              { flags with JSON_USE_BIGINT := true } else flags) with JSON_USE_BIGREAL := true }
          else (if flags.JSON_USE_BIGINT_ALWAYS = true then
            { flags with JSON_USE_BIGINT := true } else flags)) = parse_flags flags from rfl]
        simp only [h1, h2, ite_false]
  by_cases h1 : (parse_flags flags).JSON_USE_BIGINT = true ∧ ctx.have_bigint = false
  · refine ⟨_, Or.inl rfl, ?_, rfl, rfl⟩
    rw [hunf, if_pos h1, error_set_init g data _ (by decide)]
  · have h2 : (parse_flags flags).JSON_USE_BIGREAL = true ∧ ctx.have_bigreal = false := by
      rcases h with ⟨ha, hb⟩ | ⟨ha, hb⟩
      · exact absurd ⟨by rw [f8]; simpa using ha, hb⟩ h1
      · exact ⟨by rw [f9]; simpa using ha, hb⟩
    refine ⟨_, Or.inr rfl, ?_, rfl, rfl⟩
    rw [hunf, if_neg h1, if_pos h2, error_set_init g data _ (by decide)]

theorem parse_json_unprepared_witness :
    ∃ msg, (msg = str "Programming error: Not prepared to decode big integers" ∨
        msg = str "Programming error: Not prepared to decode big reals") ∧
      parse_json plain_context (lex_init get_func.buffer_get (str "[1]"))
          { no_flags with JSON_USE_BIGREAL_ALWAYS := true } jsonp_error_init =
        some (none, lex_init get_func.buffer_get (str "[1]"),
          { reports := [{ line := 1, column := 0, position := 0,
                          text := msg ++ str " near end of file" }],
            position := 0 }) ∧
      (lex_init get_func.buffer_get (str "[1]")).stream.position = 0 ∧
      (lex_init get_func.buffer_get (str "[1]")).stream.data = str "[1]" :=
  parse_json_unprepared plain_context { no_flags with JSON_USE_BIGREAL_ALWAYS := true }
    get_func.buffer_get (str "[1]") (Or.inr ⟨Or.inr rfl, rfl⟩)

/-- C15: with backends whose conversion fails (the null handle),
`lex_scan_number` on the numeral `1` under `JSON_USE_BIGINT_ALWAYS` returns 0
with the big integer token holding the null handle and no report, and `lex_scan`
does the same on `1.5` under `JSON_USE_BIGREAL_ALWAYS` with the big real token:
the handle is stored without a check, the token is not the invalid token and
nothing is reported. -/
theorem lex_scan_number_null_handle :
    (lex_scan_number null_backend_context
        (lex_get_save (lex_init get_func.buffer_get (str "1")) jsonp_error_init).2.1
        (lex_get_save (lex_init get_func.buffer_get (str "1")) jsonp_error_init).1
        { no_flags with JSON_USE_BIGINT_ALWAYS := true } jsonp_error_init).map
        (fun r => (r.1, r.2.1.token, r.2.1.value, r.2.2)) =
      some (0, TOKEN_BIGINTEGER, lex_value.bigz 0, jsonp_error_init) ∧
    (lex_scan null_backend_context (lex_init get_func.buffer_get (str "1"))
        { no_flags with JSON_USE_BIGINT_ALWAYS := true } jsonp_error_init).map
        (fun r => (r.1.token, r.1.value, r.2)) =
      some (TOKEN_BIGINTEGER, lex_value.bigz 0, jsonp_error_init) ∧
    (lex_scan null_backend_context (lex_init get_func.buffer_get (str "1.5"))
        { no_flags with JSON_USE_BIGREAL_ALWAYS := true } jsonp_error_init).map
        (fun r => (r.1.token, r.1.value, r.2)) =
      some (TOKEN_BIGREAL, lex_value.bigr 0, jsonp_error_init) := by
  decide!

/-- C16: on the four bytes `[`, `1`, NUL, `]` given to `json_loadb` with no flag
set (so with the trailing-content check) the decode succeeds, every byte of the
input has been taken from the source, and the position recorded is 3, not the
length 4 of the input. -/
theorem parse_json_position_after_nul :
    (parse_json plain_context (lex_init get_func.buffer_get [91, 49, 0, 93]) no_flags
        jsonp_error_init).map
        (fun r => (r.1.isSome, r.2.1.stream.data, r.2.1.stream.position, r.2.2.position)) =
      some (true, [], 3, 3) ∧
    ([91, 49, 0, 93] : List Nat).length = 4 := by
  decide!

/-- C17: on a source that holds the bytes NUL and `A`, `stream_get` returns the
NUL (a value that is not terminal); after `stream_unget` of it the line, the
column and the position are those before the get, but the next `stream_get`
returns `A`, not the NUL, and has read the source again. -/
theorem stream_unget_nul_lost :
    (stream_get (lex_init get_func.buffer_get [0, 65]) jsonp_error_init).1 = 0 ∧
    (stream_get (lex_init get_func.buffer_get [0, 65]) jsonp_error_init).2.1.stream.data = [65] ∧
    (stream_get
      (lex_unget (stream_get (lex_init get_func.buffer_get [0, 65]) jsonp_error_init).2.1 0)
      jsonp_error_init).1 = 65 ∧
    (stream_get
      (lex_unget (stream_get (lex_init get_func.buffer_get [0, 65]) jsonp_error_init).2.1 0)
      jsonp_error_init).2.1.stream.data = [] ∧
    ((lex_unget (stream_get (lex_init get_func.buffer_get [0, 65]) jsonp_error_init).2.1
        0).stream.line,
      (lex_unget (stream_get (lex_init get_func.buffer_get [0, 65]) jsonp_error_init).2.1
        0).stream.column,
      (lex_unget (stream_get (lex_init get_func.buffer_get [0, 65]) jsonp_error_init).2.1
        0).stream.position) =
      ((lex_init get_func.buffer_get [0, 65]).stream.line,
        (lex_init get_func.buffer_get [0, 65]).stream.column,
        (lex_init get_func.buffer_get [0, 65]).stream.position) := by
  decide!

theorem get_call_range (g : get_func) (d : List Nat) :
    (g.call d).1 = EOF ∨ (0 ≤ (g.call d).1 ∧ (g.call d).1 ≤ 255) := by
  cases g with
  | string_get =>
    cases d with
    | nil => exact Or.inl rfl
    | cons b r =>
      simp only [get_func.call, string_get]
      by_cases h : b % 256 = 0
      · rw [if_pos h]
        exact Or.inl rfl
      · rw [if_neg h]
        exact Or.inr (by simp only; omega)
  | buffer_get =>
    cases d with
    | nil => exact Or.inl rfl
    | cons b r =>
      simp only [get_func.call, buffer_get]
      exact Or.inr (by omega)

theorem getD_set_other (l : List Int) (i j : Nat) (v : Int) (h : j ≠ i) :
    (l.set i v).getD j 0 = l.getD j 0 := by
  simp only [List.getD_eq_getElem?_getD]
  rw [List.getElem?_set_ne (Ne.symm h)]

theorem stream_get_rest_other :
    ∀ (n i : Nat) (g : get_func) (d : List Nat) (buffer : List Int) (j : Nat),
      j < i ∨ i + n ≤ j → (stream_get_rest n i g d buffer).1.getD j 0 = buffer.getD j 0 := by
  intro n
  induction n with
  | zero => intro i g d buffer j _; rfl
  | succ n ih =>
    intro i g d buffer j hj
    simp only [stream_get_rest]
    rw [ih (i + 1) g _ _ j (by omega), getD_set_other _ _ _ _ (by omega)]

theorem stream_get_rest_length :
    ∀ (n i : Nat) (g : get_func) (d : List Nat) (buffer : List Int),
      (stream_get_rest n i g d buffer).1.length = buffer.length := by
  intro n
  induction n with
  | zero => intro i g d buffer; rfl
  | succ n ih =>
    intro i g d buffer
    simp only [stream_get_rest]
    rw [ih, List.length_set]

theorem lead_char (c : Int) (h1 : 0x80 ≤ c) (h2 : c ≤ 0xFF) (hf : utf8_check_first c ≠ 0) :
    to_char c ≠ STREAM_STATE_EOF ∧ to_char c ≠ STREAM_STATE_ERROR ∧ to_char c ≠ 0 := by
  unfold utf8_check_first at hf
  have hu : to_uchar c = c.toNat := by unfold to_uchar; omega
  simp only [hu] at hf
  have : c.toNat ≤ 0xF4 := by
    by_contra hgt
    split_ifs at hf <;> omega
  unfold to_char
  simp only [STREAM_STATE_EOF, STREAM_STATE_ERROR]
  omega

/-- When `stream_get` returns the value of a terminal state from a sane stream,
the stream is in that state. -/
theorem stream_get_terminal (lex : lex_t) (e : json_error_t) (hs : lex.stream.sane)
    (hc : (stream_get lex e).1 = STREAM_STATE_EOF ∨ (stream_get lex e).1 = STREAM_STATE_ERROR) :
    (stream_get lex e).2.1.stream.state = (stream_get lex e).1 := by
  have hnext : ∀ (l : lex_t), l.stream.state = STREAM_STATE_OK →
      (stream_get_next l e).1 ≠ STREAM_STATE_EOF ∧ (stream_get_next l e).1 ≠ STREAM_STATE_ERROR →
      ((stream_get_next l e).1 = STREAM_STATE_EOF ∨
        (stream_get_next l e).1 = STREAM_STATE_ERROR) →
      (stream_get_next l e).2.1.stream.state = (stream_get_next l e).1 := by
    intro l _ h1 h2
    rcases h2 with h2 | h2
    · exact absurd h2 h1.1
    · exact absurd h2 h1.2
  revert hc
  unfold stream_get stream_get_out
  simp only
  split_ifs with h1 h2 h3 h4 h5 h6
  · intro _; rfl
  · intro _; rfl
  · intro _; rfl
  · intro _; rfl
  · -- a sequence of several bytes: the first byte is returned
    intro hc
    apply hnext _ (by simpa using h1) _ hc
    rw [stream_get_next_eq]
    simp only
    rw [getD_set_other _ _ _ _ (by omega), stream_get_rest_other _ _ _ _ _ 0 (Or.inl (by omega))]
    have hb : (lex.stream.buffer.set 0 (to_char (lex.stream.get.call lex.stream.data).1)).getD 0 0
        = to_char (lex.stream.get.call lex.stream.data).1 ∨ lex.stream.buffer = [] := by
      cases hbuf : lex.stream.buffer with
      | nil => exact Or.inr rfl
      | cons a as => exact Or.inl (by simp)
    have hl := lead_char _ h4.1 h4.2 h5
    rcases hb with hb | hb
    · rw [hb]; exact ⟨hl.1, hl.2.1⟩
    · rw [hb]
      simp [STREAM_STATE_EOF, STREAM_STATE_ERROR]
  · -- an ASCII byte
    intro hc
    apply hnext _ (by simpa using h1) _ hc
    rw [stream_get_next_eq]
    simp only
    have hr := get_call_range lex.stream.get lex.stream.data
    have hrange : 0 ≤ (lex.stream.get.call lex.stream.data).1 ∧
        (lex.stream.get.call lex.stream.data).1 < 0x80 := by
      rcases hr with hr | hr
      · exact absurd hr h3
      · constructor
        · exact hr.1
        · by_contra hge
          exact h4 ⟨by omega, hr.2⟩
    by_cases h01 : (0 : Nat) = 1
    · omega
    rw [getD_set_other _ _ _ _ h01]
    cases hbuf : lex.stream.buffer with
    | nil => simp [STREAM_STATE_EOF, STREAM_STATE_ERROR]
    | cons a as =>
      simp only [List.set_cons_zero, List.getD_cons_zero]
      unfold to_char
      simp only [STREAM_STATE_EOF, STREAM_STATE_ERROR]
      omega
  · -- a pending `char` of the buffer
    intro hc
    apply hnext _ (by simpa using h1) _ hc
    rw [stream_get_next_eq]
    simp only
    have hmem : lex.stream.buffer.getD lex.stream.buffer_pos 0 ∈ lex.stream.buffer := by
      rw [List.getD_eq_getElem?_getD]
      cases hg : lex.stream.buffer[lex.stream.buffer_pos]? with
      | none =>
        exfalso
        apply h2
        rw [List.getD_eq_getElem?_getD, hg]
        rfl
      | some x =>
        simp only [Option.getD_some]
        exact List.getElem?_mem hg
    exact hs (by simpa using h1) _ hmem

theorem stream_init_sane (g : get_func) (d : List Nat) : (lex_init g d).stream.sane := by
  intro _ c hc
  simp only [lex_init, stream_init, List.mem_cons, List.mem_singleton, List.not_mem_nil,
    or_false, or_self] at hc
  rw [hc]
  simp [STREAM_STATE_EOF, STREAM_STATE_ERROR]

theorem stream_unget_sane (s : stream_t) (c : Int) (h : s.sane) : (stream_unget s c).sane := by
  unfold stream_unget
  split_ifs <;> exact h

theorem stream_get_next_sane (lex : lex_t) (e : json_error_t) (h : lex.stream.sane) :
    (stream_get_next lex e).2.1.stream.sane := by
  rw [stream_get_next_eq]
  exact h

theorem utf8_check_full_conts (buffer : List Int) (size : Nat)
    (h : utf8_check_full buffer size = true) (hch : ∀ c ∈ buffer, is_char c) :
    ∀ c ∈ (buffer.drop 1).take (size - 1), is_cont c := by
  unfold utf8_check_full at h
  simp only at h
  split at h
  · cases h
  · rename_i v hv
    split at h
    · cases h
    · rename_i value hval
      intro c hc
      exact utf8_check_cont_some _ _ _ hval c hc
        (hch c (List.mem_of_mem_drop (List.mem_of_mem_take hc)))

theorem stream_get_sane (lex : lex_t) (e : json_error_t) (hwf : lex.stream.wf)
    (hs : lex.stream.sane) : (stream_get lex e).2.1.stream.sane := by
  have hterm : ∀ c : Int, (c = 0 ∨ (0 ≤ c ∧ c < 128)) →
      c ≠ STREAM_STATE_EOF ∧ c ≠ STREAM_STATE_ERROR := by
    intro c hc
    simp only [STREAM_STATE_EOF, STREAM_STATE_ERROR]
    omega
  unfold stream_get stream_get_out
  simp only
  split_ifs with h1 h2 h3 h4 h5 h6
  · exact hs
  · intro h; cases h
  · intro h; cases h
  · intro h; cases h
  · -- a sequence of several bytes
    apply stream_get_next_sane
    intro _ x hx
    have hOK : lex.stream.state = STREAM_STATE_OK := by simpa using h1
    have hold := hs hOK
    simp only at hx h6
    have h6' : utf8_check_full (stream_get_rest
        (utf8_check_first (lex.stream.get.call lex.stream.data).1 - 1) 1 lex.stream.get
        (lex.stream.get.call lex.stream.data).2
        (lex.stream.buffer.set 0 (to_char (lex.stream.get.call lex.stream.data).1))).1
        (utf8_check_first (lex.stream.get.call lex.stream.data).1) = true := by
      simpa using h6
    generalize hB : (stream_get_rest
        (utf8_check_first (lex.stream.get.call lex.stream.data).1 - 1) 1 lex.stream.get
        (lex.stream.get.call lex.stream.data).2
        (lex.stream.buffer.set 0 (to_char (lex.stream.get.call lex.stream.data).1))).1 = B
      at hx h6'
    generalize hcount : utf8_check_first (lex.stream.get.call lex.stream.data).1 = count
      at hx h6' hB h5
    have hBch : ∀ c ∈ B, is_char c := by
      rw [← hB]
      exact stream_get_rest_is_char _ _ _ _ _
        (is_char_set _ _ _ hwf.1 (to_char_is_char _))
    rcases List.mem_or_eq_of_mem_set hx with hx | hx
    · obtain ⟨j, hj⟩ := List.mem_iff_getElem?.mp hx
      have hjd : B.getD j 0 = x := by rw [List.getD_eq_getElem?_getD, hj]; rfl
      by_cases hj0 : j = 0
      · subst hj0
        rw [← hB, stream_get_rest_other _ _ _ _ _ 0 (Or.inl (by omega))] at hjd
        have hl := lead_char _ h4.1 h4.2 (by rw [hcount]; exact h5)
        cases hbuf : lex.stream.buffer with
        | nil =>
          rw [hbuf] at hjd
          simp at hjd
          rw [← hjd]
          simp [STREAM_STATE_EOF, STREAM_STATE_ERROR]
        | cons a as =>
          rw [hbuf] at hjd
          simp only [List.set_cons_zero, List.getD_cons_zero] at hjd
          rw [← hjd]
          exact ⟨hl.1, hl.2.1⟩
      · by_cases hjc : j < count
        · have hmem : x ∈ (B.drop 1).take (count - 1) := by
            apply List.getElem?_mem (n := j - 1)
            rw [List.getElem?_take_of_lt (by omega), List.getElem?_drop]
            rw [show 1 + (j - 1) = j from by omega]
            exact hj
          have := utf8_check_full_conts B count h6' hBch x hmem
          unfold is_cont at this
          simp only [STREAM_STATE_EOF, STREAM_STATE_ERROR]
          omega
        · rw [← hB, stream_get_rest_other _ _ _ _ _ j (Or.inr (by omega)),
            getD_set_other _ _ _ _ hj0] at hjd
          have hmem : x ∈ lex.stream.buffer := by
            rw [List.getD_eq_getElem?_getD] at hjd
            cases hg : lex.stream.buffer[j]? with
            | none =>
              exfalso
              have hlen : B.length = lex.stream.buffer.length := by
                rw [← hB, stream_get_rest_length, List.length_set]
              have h1' := List.getElem?_eq_none_iff.mp hg
              have h2' : j < B.length := by
                by_contra hge
                rw [List.getElem?_eq_none_iff.mpr (by omega)] at hj
                cases hj
              omega
            | some y =>
              rw [hg] at hjd
              simp only [Option.getD_some] at hjd
              rw [← hjd]
              exact List.getElem?_mem hg
          exact hold x hmem
    · rw [hx]
      simp [STREAM_STATE_EOF, STREAM_STATE_ERROR]
  · -- an ASCII byte
    apply stream_get_next_sane
    intro _ x hx
    have hOK : lex.stream.state = STREAM_STATE_OK := by simpa using h1
    simp only at hx
    rcases List.mem_or_eq_of_mem_set hx with hx | hx
    · rcases List.mem_or_eq_of_mem_set hx with hx | hx
      · exact hs hOK x hx
      · have hr := get_call_range lex.stream.get lex.stream.data
        apply hterm
        right
        rw [hx]
        have hrange : 0 ≤ (lex.stream.get.call lex.stream.data).1 ∧
            (lex.stream.get.call lex.stream.data).1 < 0x80 := by
          rcases hr with hr | hr
          · exact absurd hr h3
          · exact ⟨hr.1, by
              by_contra hge
              exact h4 ⟨by omega, hr.2⟩⟩
        unfold to_char
        omega
    · rw [hx]
      simp [STREAM_STATE_EOF, STREAM_STATE_ERROR]
  · exact stream_get_next_sane lex e hs

theorem stream_get_stopped (lex : lex_t) (e : json_error_t)
    (h : lex.stream.state ≠ STREAM_STATE_OK) : stream_get lex e = (lex.stream.state, lex, e) := by
  unfold stream_get
  simp only [h, ne_eq, not_false_eq_true, ite_true]

theorem stream_gets_stopped (lex : lex_t) (h : lex.stream.state ≠ STREAM_STATE_OK) :
    ∀ (n : Nat) (e : json_error_t),
      stream_gets n lex e = (List.replicate n lex.stream.state, lex, e) := by
  intro n
  induction n with
  | zero => intro e; rfl
  | succ n ih =>
    intro e
    simp only [stream_gets, stream_get_stopped lex e h, ih, List.replicate_succ]

/-- C18: once `stream_get` has returned the value of the end of file or of the
error state (from a stream in whose buffer no `char` has such a value while the
state is OK, as in every stream that `stream_init`, `stream_get` and
`stream_unget` make), every later `stream_get`, however many there are, returns
that same value and leaves the lexer as it is, the stream with its source, line,
column and position and the error object included; and `stream_unget` of that
value leaves the stream as it is. -/
theorem stream_get_sticky (lex : lex_t) (e : json_error_t) (hs : lex.stream.sane)
    (hc : (stream_get lex e).1 = STREAM_STATE_EOF ∨ (stream_get lex e).1 = STREAM_STATE_ERROR) :
    (∀ (n : Nat) (e2 : json_error_t), stream_gets n (stream_get lex e).2.1 e2 =
      (List.replicate n (stream_get lex e).1, (stream_get lex e).2.1, e2)) ∧
    stream_unget (stream_get lex e).2.1.stream (stream_get lex e).1 =
      (stream_get lex e).2.1.stream := by
  have hstate := stream_get_terminal lex e hs hc
  have hne : (stream_get lex e).2.1.stream.state ≠ STREAM_STATE_OK := by
    rw [hstate]
    rcases hc with h | h <;> rw [h] <;> decide
  refine ⟨fun n e2 => ?_, ?_⟩
  · rw [stream_gets_stopped _ hne n e2, hstate]
  · unfold stream_unget
    rw [if_pos hc]

theorem stream_get_sticky_witness :
    (∀ (n : Nat) (e2 : json_error_t),
      stream_gets n (stream_get (lex_init get_func.buffer_get [0xFF]) jsonp_error_init).2.1 e2 =
        (List.replicate n (stream_get (lex_init get_func.buffer_get [0xFF]) jsonp_error_init).1,
          (stream_get (lex_init get_func.buffer_get [0xFF]) jsonp_error_init).2.1, e2)) ∧
    stream_unget (stream_get (lex_init get_func.buffer_get [0xFF]) jsonp_error_init).2.1.stream
        (stream_get (lex_init get_func.buffer_get [0xFF]) jsonp_error_init).1 =
      (stream_get (lex_init get_func.buffer_get [0xFF]) jsonp_error_init).2.1.stream :=
  stream_get_sticky (lex_init get_func.buffer_get [0xFF]) jsonp_error_init
    (stream_init_sane _ _) (Or.inr (by decide))

theorem c_str_length_le (s : List Nat) : (c_str s).length ≤ s.length := by
  unfold c_str
  exact (List.takeWhile_sublist _).length_le

theorem error_set_text (error : json_error_t) (lex : lex_t) (msg : List Nat)
    (hmsg : msg.length ≤ 100) :
    error_set error (some lex) msg = report_at error lex.stream.cursor
      (if c_str lex.saved_text ≠ [] then
        if lex.saved_text.length ≤ 20 then msg ++ str " near '" ++ c_str lex.saved_text ++ str "'"
        else msg
      else if lex.stream.state = STREAM_STATE_ERROR then msg
      else msg ++ str " near end of file") := by
  have h1 : msg.take (JSON_ERROR_TEXT_LENGTH - 1) = msg :=
    List.take_of_length_le (by simp only [JSON_ERROR_TEXT_LENGTH]; omega)
  have hs1 : (str " near '").length = 7 := by decide
  have hs2 : (str "'").length = 1 := by decide
  have hs3 : (str " near end of file").length = 17 := by decide
  have hc := c_str_length_le lex.saved_text
  unfold error_set jsonp_error_set report_at stream_t.cursor
  simp only [h1]
  by_cases hne : c_str lex.saved_text ≠ []
  · simp only [hne, ne_eq, not_false_eq_true, ite_true]
    by_cases hl : lex.saved_text.length ≤ 20
    · have h2 : (msg ++ str " near '" ++ c_str lex.saved_text ++ str "'").take
          (JSON_ERROR_TEXT_LENGTH - 1) = msg ++ str " near '" ++ c_str lex.saved_text ++ str "'" :=
        List.take_of_length_le (by
          simp only [JSON_ERROR_TEXT_LENGTH, List.length_append, hs1, hs2]; omega)
      simp only [hl, ite_true, h2]
    · simp only [hl, ite_false, h1]
  · simp only [hne, ite_false]
    by_cases hst : lex.stream.state = STREAM_STATE_ERROR
    · simp only [hst, ite_true, h1]
    · have h2 : (msg ++ str " near end of file").take (JSON_ERROR_TEXT_LENGTH - 1) =
          msg ++ str " near end of file" :=
        List.take_of_length_le (by
          simp only [JSON_ERROR_TEXT_LENGTH, List.length_append, hs3]; omega)
      simp only [hst, ite_false, h2]

/-- C20, amended: for every error raised through `error_set` (the messages of
the decoder have at most 100 bytes) while the raw text of the current token is
not empty and does not begin with a NUL byte, the report is made at the place
of the stream and its text is "<message> near '<snippet>'", the snippet being
the raw text up to its first NUL byte, if the raw text has at most 20 bytes, and
the message alone, with no snippet, if the raw text is longer than 20 bytes. -/
theorem error_set_snippet (error : json_error_t) (lex : lex_t) (msg : List Nat)
    (hmsg : msg.length ≤ 100) (hne : c_str lex.saved_text ≠ []) :
    error_set error (some lex) msg = report_at error lex.stream.cursor
      (if lex.saved_text.length ≤ 20 then msg ++ str " near '" ++ c_str lex.saved_text ++ str "'"
        else msg) := by
  rw [error_set_text error lex msg hmsg, if_pos hne]

theorem error_set_snippet_witness :
    error_set jsonp_error_init
        (some { lex_init get_func.buffer_get [] with saved_text := str "tru" })
        (str "invalid token") =
      report_at jsonp_error_init
        ({ lex_init get_func.buffer_get [] with saved_text := str "tru" } : lex_t).stream.cursor
        (if ({ lex_init get_func.buffer_get [] with saved_text := str "tru" } : lex_t).saved_text.length
            ≤ 20 then
          str "invalid token" ++ str " near '" ++
            c_str ({ lex_init get_func.buffer_get [] with saved_text := str "tru" } : lex_t).saved_text
            ++ str "'"
        else str "invalid token") :=
  error_set_snippet jsonp_error_init
    { lex_init get_func.buffer_get [] with saved_text := str "tru" } (str "invalid token")
    (by decide) (by decide)

/-- C20, as stated, fails: the scan of the numeral `1234567890123456789012`,
whose raw text has 22 bytes, reports "too big integer" with no snippet of the
raw text. -/
theorem lex_scan_long_token_no_snippet :
    (lex_scan plain_context (lex_init get_func.buffer_get (str "1234567890123456789012"))
        no_flags jsonp_error_init).map (fun r => (r.1.saved_text.length, r.2)) =
      some (22, { reports := [{ line := 1, column := 22, position := 22,
                                text := str "too big integer" }],
                  position := 0 }) := by
  decide!

theorem stream_get_out_report (lex : lex_t) (c : Int) (e : json_error_t) :
    stream_get_out lex c e =
      (STREAM_STATE_ERROR,
        { lex with stream := { lex.stream with state := STREAM_STATE_ERROR } },
        report_at e lex.stream.cursor
          (if c_str lex.saved_text = [] ∨ 20 < lex.saved_text.length then
            str "unable to decode byte 0x" ++ fmt_x c
          else str "unable to decode byte 0x" ++ fmt_x c ++ str " near '" ++
            c_str lex.saved_text ++ str "'")) := by
  have hlen : (str "unable to decode byte 0x" ++ fmt_x c).length ≤ 100 := by
    have := fmt_x_length c
    rw [List.length_append, show (str "unable to decode byte 0x").length = 24 from by decide]
    omega
  unfold stream_get_out
  simp only
  rw [error_set_text e _ _ hlen]
  simp only [stream_t.cursor, ite_true]
  by_cases hne : c_str lex.saved_text = []
  · simp [hne]
  · by_cases hl : lex.saved_text.length ≤ 20
    · have : ¬ (20 < lex.saved_text.length) := by omega
      simp [hne, hl, this]
    · have : 20 < lex.saved_text.length := by omega
      simp [hne, hl, this]

theorem stream_get_failure (lex : lex_t) (e : json_error_t)
    (hOK : lex.stream.state = STREAM_STATE_OK)
    (herr : (stream_get lex e).2.1.stream.state = STREAM_STATE_ERROR) :
    0x80 ≤ (lex.stream.get.call lex.stream.data).1 ∧
    (lex.stream.get.call lex.stream.data).1 ≤ 0xFF ∧
    ∃ lex1, stream_get lex e = stream_get_out lex1 (lex.stream.get.call lex.stream.data).1 e ∧
      lex1.saved_text = lex.saved_text ∧ lex1.stream.cursor = lex.stream.cursor := by
  revert herr
  unfold stream_get
  simp only
  split_ifs with h1 h2 h3 h4 h5 h6
  · exact absurd hOK h1
  · intro h; cases h
  · intro _
    exact ⟨h4.1, h4.2, _, rfl, rfl, rfl⟩
  · intro _
    exact ⟨h4.1, h4.2, _, rfl, rfl, rfl⟩
  · intro h
    rw [stream_get_next_eq] at h
    simp only at h
    rw [hOK] at h
    cases h
  · intro h
    rw [stream_get_next_eq] at h
    simp only at h
    rw [hOK] at h
    cases h
  · intro h
    rw [stream_get_next_eq] at h
    simp only at h
    rw [hOK] at h
    cases h

/-- C19, amended: whenever `stream_get` reports a UTF-8 decoding failure (the
state of the stream goes from OK to the error state), it returns the error
value, the byte `c` taken from the source as the lead byte is in 0x80..0xFF,
and the one report it makes, at the place where the stream stood, has the text
"unable to decode byte 0x<hex of c>": alone, with no context snippet and no
"near ..." suffix, when the raw text of the current token is empty (or begins
with a NUL byte) or is longer than 20 bytes, and followed by
" near '<raw text>'" when the failure comes in the middle of a token whose raw
text has at most 20 bytes. -/
theorem stream_get_decode_report (lex : lex_t) (e : json_error_t)
    (hOK : lex.stream.state = STREAM_STATE_OK)
    (herr : (stream_get lex e).2.1.stream.state = STREAM_STATE_ERROR) :
    (stream_get lex e).1 = STREAM_STATE_ERROR ∧
    0x80 ≤ (lex.stream.get.call lex.stream.data).1 ∧
    (lex.stream.get.call lex.stream.data).1 ≤ 0xFF ∧
    (stream_get lex e).2.2 = report_at e lex.stream.cursor
      (if c_str lex.saved_text = [] ∨ 20 < lex.saved_text.length then
        str "unable to decode byte 0x" ++ fmt_x (lex.stream.get.call lex.stream.data).1
      else str "unable to decode byte 0x" ++ fmt_x (lex.stream.get.call lex.stream.data).1 ++
        str " near '" ++ c_str lex.saved_text ++ str "'") := by
  obtain ⟨h1, h2, lex1, heq, hsv, hcur⟩ := stream_get_failure lex e hOK herr
  rw [heq, stream_get_out_report, hsv, hcur]
  exact ⟨rfl, h1, h2, rfl⟩

theorem stream_get_decode_report_witness :
    (stream_get (lex_init get_func.buffer_get [0xE5, 34]) jsonp_error_init).1 =
      STREAM_STATE_ERROR ∧
    0x80 ≤ ((lex_init get_func.buffer_get [0xE5, 34]).stream.get.call
      (lex_init get_func.buffer_get [0xE5, 34]).stream.data).1 ∧
    ((lex_init get_func.buffer_get [0xE5, 34]).stream.get.call
      (lex_init get_func.buffer_get [0xE5, 34]).stream.data).1 ≤ 0xFF ∧
    (stream_get (lex_init get_func.buffer_get [0xE5, 34]) jsonp_error_init).2.2 =
      report_at jsonp_error_init (lex_init get_func.buffer_get [0xE5, 34]).stream.cursor
        (if c_str (lex_init get_func.buffer_get [0xE5, 34]).saved_text = [] ∨
            20 < (lex_init get_func.buffer_get [0xE5, 34]).saved_text.length then
          str "unable to decode byte 0x" ++
            fmt_x ((lex_init get_func.buffer_get [0xE5, 34]).stream.get.call
              (lex_init get_func.buffer_get [0xE5, 34]).stream.data).1
        else str "unable to decode byte 0x" ++
          fmt_x ((lex_init get_func.buffer_get [0xE5, 34]).stream.get.call
            (lex_init get_func.buffer_get [0xE5, 34]).stream.data).1 ++
          str " near '" ++ c_str (lex_init get_func.buffer_get [0xE5, 34]).saved_text ++
          str "'") :=
  stream_get_decode_report (lex_init get_func.buffer_get [0xE5, 34]) jsonp_error_init rfl
    (by decide)

/-- C19, as stated, fails: in the text of a quote and the byte 0xFF the
decoding failure comes in the middle of a string token, and the report is
"unable to decode byte 0xff near '"'", with the raw text of the token as
context. -/
theorem lex_scan_decode_failure_in_string :
    (lex_scan plain_context (lex_init get_func.buffer_get [34, 0xFF]) no_flags
        jsonp_error_init).map (fun r => r.2) =
      some { reports := [{ line := 1, column := 1, position := 1,
                           text := str "unable to decode byte 0xff near '\"'" }],
             position := 0 } := by
  decide!

theorem lex_save_cached_loop_sane :
    ∀ (n : Nat) (lex : lex_t), lex.stream.sane → (lex_save_cached_loop n lex).stream.sane := by
  intro n
  induction n with
  | zero => intro lex h; exact h
  | succ n ih =>
    intro lex h
    simp only [lex_save_cached_loop]
    split_ifs
    · exact ih _ h
    · exact h

theorem lex_save_cached_sane (lex : lex_t) (h : lex.stream.sane) :
    (lex_save_cached lex).stream.sane :=
  lex_save_cached_loop_sane 5 lex h

/-- After the tail of `stream_get` has handed out a value `c` other than the
NUL and the values of the terminal states, `stream_unget` of `c` restores line,
column and position, and the next `stream_get` hands out `c` again from the
buffer and leaves the stream as the first one left it, the source unread. -/
theorem stream_get_next_unget (lex : lex_t) (e e2 : json_error_t)
    (hOK : lex.stream.state = STREAM_STATE_OK)
    (h0 : (stream_get_next lex e).1 ≠ 0)
    (hE : (stream_get_next lex e).1 ≠ STREAM_STATE_EOF)
    (hR : (stream_get_next lex e).1 ≠ STREAM_STATE_ERROR) :
    (stream_unget (stream_get_next lex e).2.1.stream (stream_get_next lex e).1).cursor =
      lex.stream.cursor ∧
    stream_get (lex_unget (stream_get_next lex e).2.1 (stream_get_next lex e).1) e2 =
      ((stream_get_next lex e).1, (stream_get_next lex e).2.1, e2) := by
  rw [stream_get_next_eq] at h0 hE hR ⊢
  simp only at h0 hE hR ⊢
  generalize hc : lex.stream.buffer.getD lex.stream.buffer_pos 0 = c at h0 hE hR ⊢
  have hunget : stream_unget
      { lex.stream with
        buffer_pos := lex.stream.buffer_pos + 1
        position := lex.stream.position + 1
        line := if c = 10 then lex.stream.line + 1 else lex.stream.line
        column := if c = 10 then 0
          else if utf8_check_first c ≠ 0 then lex.stream.column + 1 else lex.stream.column
        last_column := if c = 10 then lex.stream.column else lex.stream.last_column } c =
      { lex.stream with
        last_column := if c = 10 then lex.stream.column else lex.stream.last_column } := by
    unfold stream_unget
    rw [if_neg (by rintro (h | h); exact hE h; exact hR h)]
    by_cases h10 : c = 10
    · simp [h10]
    · by_cases hf : utf8_check_first c = 0
      · simp [h10, hf]
      · simp [h10, hf]
  refine ⟨by rw [hunget]; rfl, ?_⟩
  unfold lex_unget
  simp only
  rw [hunget]
  unfold stream_get
  simp only [hOK, ne_eq, not_true_eq_false, ite_false, hc, h0]
  rw [stream_get_next_eq]
  simp only [hc]
  by_cases h10 : c = 10
  · simp [h10]
  · simp [h10]

theorem stream_get_tail (lex : lex_t) (e : json_error_t)
    (hOK : lex.stream.state = STREAM_STATE_OK)
    (hE : (stream_get lex e).1 ≠ STREAM_STATE_EOF)
    (hR : (stream_get lex e).1 ≠ STREAM_STATE_ERROR) :
    ∃ lex1, stream_get lex e = stream_get_next lex1 e ∧
      lex1.stream.state = STREAM_STATE_OK ∧ lex1.stream.cursor = lex.stream.cursor := by
  revert hE hR
  unfold stream_get stream_get_out
  simp only
  split_ifs with h1 h2 h3 h4 h5 h6
  · exact absurd hOK h1
  · intro hE _; exact absurd rfl hE
  · intro _ hR; exact absurd rfl hR
  · intro _ hR; exact absurd rfl hR
  · intro _ _; exact ⟨_, rfl, hOK, rfl⟩
  · intro _ _; exact ⟨_, rfl, hOK, rfl⟩
  · intro _ _; exact ⟨lex, rfl, hOK, rfl⟩

/-- For every stream whose state is OK and every value `c` that `stream_get`
returns other than the NUL and the values of the terminal states:
`stream_unget` of `c` restores line, column and position, and the next
`stream_get` returns `c` again and leaves the lexer as the first one left it,
the source unread. -/
theorem stream_unget_get (lex : lex_t) (e e2 : json_error_t)
    (hOK : lex.stream.state = STREAM_STATE_OK) (h0 : (stream_get lex e).1 ≠ 0)
    (hE : (stream_get lex e).1 ≠ STREAM_STATE_EOF)
    (hR : (stream_get lex e).1 ≠ STREAM_STATE_ERROR) :
    (stream_unget (stream_get lex e).2.1.stream (stream_get lex e).1).cursor =
      lex.stream.cursor ∧
    stream_get (lex_unget (stream_get lex e).2.1 (stream_get lex e).1) e2 =
      ((stream_get lex e).1, (stream_get lex e).2.1, e2) := by
  obtain ⟨lex1, heq, hOK1, hcur⟩ := stream_get_tail lex e hOK hE hR
  rw [heq] at h0 hE hR ⊢
  rw [← hcur]
  exact stream_get_next_unget lex1 e e2 hOK1 h0 hE hR

theorem memcpy_length : ∀ (memory src : List Nat) (n : Nat),
    (memcpy memory src n).length = memory.length := by
  intro memory
  induction memory with
  | nil => intro src n; cases n <;> rfl
  | cons b memory ih =>
    intro src n
    cases n with
    | zero => rfl
    | succ n => simp only [memcpy, List.length_cons, ih]

theorem memcpy_eq : ∀ (memory src : List Nat) (n : Nat), n ≤ memory.length → n ≤ src.length →
    memcpy memory src n = src.take n ++ memory.drop n := by
  intro memory
  induction memory with
  | nil =>
    intro src n hm _
    have : n = 0 := by simpa using hm
    subst this
    cases src <;> rfl
  | cons b memory ih =>
    intro src n hm hs
    cases n with
    | zero => simp [memcpy]
    | succ n =>
      cases src with
      | nil => simp at hs
      | cons a src =>
        simp only [memcpy, List.headD_cons, List.tail_cons, List.take_succ_cons,
          List.drop_succ_cons, List.cons_append, List.cons.injEq, true_and]
        exact ih src n (by simpa using hm) (by simpa using hs)

/-- When the decimal representation has exactly `size` bytes, the terminating
NUL is written to the byte after the buffer of the caller, whose `size` bytes
hold the digits and no NUL. -/
theorem json_bigint_openssl_to_str_fit (i : Int) (memory : List Nat) (size : Nat)
    (h : (BN_bn2dec i).length = size) (hm : size < memory.length) :
    (json_bigint_openssl_to_str i memory size).1 =
      BN_bn2dec i ++ 0 :: memory.drop (size + 1) := by
  unfold json_bigint_openssl_to_str
  simp only [h, le_refl, ite_true]
  rw [memcpy_eq memory (BN_bn2dec i) size (by omega) (by omega)]
  rw [← h, List.take_length]
  rw [List.set_append_right _ _ (le_refl _), Nat.sub_self]
  congr 1
  rw [h]
  cases hd : memory.drop size with
  | nil =>
    have := List.drop_eq_nil_iff.mp hd
    omega
  | cons a rest =>
    simp only [List.set_cons_zero, List.cons.injEq, true_and]
    rw [← List.drop_drop, hd]
    rfl

/-- For every other length of the decimal representation the function keeps
to the buffer of the caller: the bytes after the first `size` are untouched,
the longest prefix that leaves room for the NUL is copied, the NUL follows it
inside the buffer, and the full length is returned. -/
theorem json_bigint_openssl_to_str_within (i : Int) (memory : List Nat) (size : Nat)
    (h1 : 1 ≤ size) (h64 : size < 2 ^ 64) (hne : (BN_bn2dec i).length ≠ size)
    (hm : size ≤ memory.length) :
    ∃ copysize, copysize = min (BN_bn2dec i).length (size - 1) ∧
      (json_bigint_openssl_to_str i memory size).1 =
        (BN_bn2dec i).take copysize ++ 0 :: memory.drop (copysize + 1) ∧
      (json_bigint_openssl_to_str i memory size).2 = ((BN_bn2dec i).length : Int) := by
  refine ⟨min (BN_bn2dec i).length (size - 1), rfl, ?_, rfl⟩
  unfold json_bigint_openssl_to_str
  simp only
  have hcs : (if (BN_bn2dec i).length ≤ size then (BN_bn2dec i).length
      else (size + 2 ^ 64 - 1) % 2 ^ 64) = min (BN_bn2dec i).length (size - 1) := by
    by_cases hle : (BN_bn2dec i).length ≤ size
    · rw [if_pos hle]; omega
    · rw [if_neg hle]
      have : (size + 2 ^ 64 - 1) % 2 ^ 64 = size - 1 := by omega
      rw [this]; omega
  rw [hcs]
  generalize hc : min (BN_bn2dec i).length (size - 1) = c
  have hc1 : c ≤ (BN_bn2dec i).length := by omega
  have hc2 : c < size := by omega
  rw [memcpy_eq memory (BN_bn2dec i) c (by omega) hc1]
  have hl : ((BN_bn2dec i).take c).length = c := by simp [hc1]
  rw [List.set_append_right _ _ (by omega), hl, Nat.sub_self]
  congr 1
  cases hd : memory.drop c with
  | nil =>
    have := List.drop_eq_nil_iff.mp hd
    omega
  | cons a rest =>
    simp only [List.set_cons_zero, List.cons.injEq, true_and]
    rw [← List.drop_drop, hd]
    rfl

/-- C21: with the value 12345, whose decimal representation has five bytes,
and a buffer of `size = 5` bytes (here filled with 0xAA and followed in memory
by a byte 0xBB that is not part of it), `json_bigint_openssl_to_str` returns 5,
fills all five bytes of the buffer with the digits, so the buffer holds no NUL,
and writes the terminating NUL over the byte after the buffer. -/
theorem json_bigint_openssl_to_str_exact_fit :
    BN_bn2dec 12345 = [49, 50, 51, 52, 53] ∧
    json_bigint_openssl_to_str 12345 [170, 170, 170, 170, 170, 187] 5 =
      ([49, 50, 51, 52, 53, 0], 5) :=
  ⟨by decide, by decide⟩

/-- The GMP integer backend returns `NULL` whenever GMP rejects the text. -/
theorem json_bigint_gmp_from_str_checked (mpz_init_set_str : List Nat → Int × Int)
    (value : List Nat) (memfuncs : json_memory_funcs_t) (h : (mpz_init_set_str value).1 ≠ 0) :
    json_bigint_gmp_from_str mpz_init_set_str value memfuncs = none := by
  unfold json_bigint_gmp_from_str
  simp only [h, ne_eq, not_false_eq_true, ite_true]

/-- The GMP real backend returns `NULL` whenever GMP rejects the text. -/
theorem json_bigreal_gmp_from_str_checked (mpf_init_set_str : List Nat → Int × mpf_t)
    (value : List Nat) (memfuncs : json_memory_funcs_t) (h : (mpf_init_set_str value).1 ≠ 0) :
    json_bigreal_gmp_from_str mpf_init_set_str value memfuncs = none := by
  unfold json_bigreal_gmp_from_str
  simp only [h, ne_eq, not_false_eq_true, ite_true]

/-- The OpenSSL backend returns `NULL` whenever `BN_dec2bn` converts nothing. -/
theorem json_bigint_openssl_from_str_checked (BN_dec2bn : List Nat → Int × Int)
    (value : List Nat) (h : (BN_dec2bn value).1 = 0) :
    json_bigint_openssl_from_str BN_dec2bn value = none := by
  unfold json_bigint_openssl_from_str
  simp only [h, ite_true]

/-- C22: the long-double and the quad-precision backend never look at what
the conversion made of the text: whatever `strtold` and `strtoflt128` do with
it (for "abc" or the empty string they convert nothing and give zero), and so
for every text, `json_bigreal_ldbl_from_str` and `json_bigreal_quad_from_str`
return a number, not `NULL`, as soon as the allocation succeeds. -/
theorem json_bigreal_from_str_unchecked (strtold : List Nat → long_double × Nat)
    (strtoflt128 : List Nat → float128 × Nat) (value : List Nat) :
    json_bigreal_ldbl_from_str strtold value { malloc_fn := true } = some (strtold value).1 ∧
      json_bigreal_quad_from_str strtoflt128 value { malloc_fn := true } =
        some (strtoflt128 value).1 ∧
      json_bigreal_ldbl_from_str (fun _ => ({ bits := 0 }, 0)) (str "abc")
        { malloc_fn := true } = some { bits := 0 } :=
  ⟨rfl, rfl, rfl⟩

/-- C23: with `JSON_DECODE_INT_AS_REAL` set and no big-integer mode, the
numeral 9223372036854775808, which the conversion to a double of the context
takes without an error, is not decoded to a real: `lex_scan_number` converts it
with `json_strtoint` first and reports "too big integer", so `json_loads`
returns no value, while 9223372036854775807 is decoded. -/
theorem json_loads_int_as_real_out_of_range :
    (json_loads plain_context (str "9223372036854775808")
        { no_flags with JSON_DECODE_ANY := true, JSON_DECODE_INT_AS_REAL := true }).map
        (fun r => (r.1.isSome, r.2.reports.map (fun x => x.text))) =
      some (false, [str "too big integer near '9223372036854775808'",
        str "invalid token near '9223372036854775808'"]) ∧
    (plain_context.jsonp_strtod (str "9223372036854775808")).rc = 0 ∧
    (json_loads plain_context (str "9223372036854775807")
        { no_flags with JSON_DECODE_ANY := true, JSON_DECODE_INT_AS_REAL := true }).map
        (fun r => (r.1.isSome, r.2.reports)) = some (true, []) := by
  decide!

/-- C24: an integer numeral `sg ++ ip` whose value lies outside
`[-2^63, 2^63 - 1]`, scanned by `lex_scan` with no big-integer mode: the native
conversion gives the clamped value, `-2^63` for a numeral that begins with `-`
and `2^63 - 1` for any other, the token is invalid, and the message reported is
"too big negative integer" if and only if the raw text begins with `-`, and
"too big integer" otherwise. -/
theorem lex_scan_too_big_integer_sign (ctx : json_context_t) (flags : load_flags)
    (ws sg ip rest : List Nat) (lex : lex_t) (k : cursor) (e : json_error_t)
    (hws : all_space ws) (hsg : sign_part sg) (hip : int_part ip) (hfollow : number_follow rest)
    (h : Ready lex.stream (ws ++ (sg ++ ip ++ rest)) k)
    (hflag : flags.JSON_USE_BIGINT_ALWAYS = false) (hbig : flags.JSON_USE_BIGINT = false)
    (hout : int_value sg ip < -(2 : Int) ^ 63 ∨ (2 : Int) ^ 63 - 1 < int_value sg ip) :
    ∃ lex1 msg, lex_scan ctx lex flags e =
        some (lex1, report_at e (k.steps (ws ++ (sg ++ ip))) (with_context msg (sg ++ ip))) ∧
      lex1.token = TOKEN_INVALID ∧ lex1.saved_text = sg ++ ip ∧
      (msg = str "too big negative integer" ↔ (sg ++ ip).head? = some 45) ∧
      (msg = str "too big integer" ↔ (sg ++ ip).head? ≠ some 45) ∧
      json_strtoint (sg ++ ip) =
        (if (sg ++ ip).head? = some 45 then (-(2 : Int) ^ 63, true)
         else ((2 : Int) ^ 63 - 1, true)) := by
  obtain ⟨hr, hnd, hnf⟩ := hfollow
  obtain ⟨lexU, hsv, hrd, htk, heq⟩ := lex_scan_integer_token ctx flags ws sg ip rest hws hsg hip
    hr hnd hnf lex k e h
  obtain ⟨hd, hne⟩ := int_part_digits hip
  have hnz := numeral_nonzero sg ip hsg hd
  have hne2 : sg ++ ip ≠ [] := by simp [hne]
  have hst := json_strtoint_numeral sg ip hsg hip
  have hnn : (0 : Int) ≤ (dec_value ip : Int) := Int.ofNat_nonneg _
  -- the first byte of the raw text
  have hhead : (sg ++ ip).head? = some 45 ↔ sg = [45] := by
    rcases hsg with hs | hs
    · subst hs
      obtain ⟨d, ds, rfl⟩ : ∃ d ds, ip = d :: ds := by
        cases ip with
        | nil => exact absurd rfl hne
        | cons d ds => exact ⟨d, ds, rfl⟩
      have := hd d (List.mem_cons_self _ _)
      simp only [List.nil_append, List.head?_cons, Option.some.injEq]
      constructor
      · intro h45; omega
      · intro hc; cases hc
    · subst hs
      simp
  rw [heq]
  unfold lex_scan_number_integer
  simp only [hflag, hbig, Bool.false_eq_true, ite_false, hsv, hst]
  by_cases hneg : sg = [45]
  · have hlo : int_value sg ip < -(2 : Int) ^ 63 := by
      rcases hout with ho | ho
      · exact ho
      · unfold int_value at ho
        simp only [hneg, ite_true] at ho
        omega
    have hlt : (-(2 : Int) ^ 63 < 0) := by norm_num
    have hh : (sg ++ ip).head? = some 45 := hhead.mpr hneg
    simp only [hlo, ite_true, hlt]
    refine ⟨lexU, str "too big negative integer", ?_, htk, hsv, ⟨fun _ => hh, fun _ => rfl⟩,
      ⟨fun hc => absurd hc (by decide), fun hc => absurd hh hc⟩, by rw [if_pos hh]⟩
    rw [error_set_at e lexU _ _ rest _ (by decide) hsv hne2 hnz hrd]
  · have hhi : (2 : Int) ^ 63 - 1 < int_value sg ip := by
      rcases hout with ho | ho
      · unfold int_value at ho
        simp only [hneg, ite_false] at ho
        omega
      · exact ho
    have hlo : ¬ (int_value sg ip < -(2 : Int) ^ 63) := by omega
    have hgt : int_value sg ip > (2 : Int) ^ 63 - 1 := hhi
    have hlt : ¬ ((2 : Int) ^ 63 - 1 < 0) := by norm_num
    have hh : ¬ ((sg ++ ip).head? = some 45) := fun hc => hneg (hhead.mp hc)
    simp only [hlo, ite_false, hgt, ite_true, hlt]
    refine ⟨lexU, str "too big integer", ?_, htk, hsv,
      ⟨fun hc => absurd hc (by decide), fun hc => absurd hc hh⟩, ⟨fun _ => hh, fun _ => rfl⟩,
      by rw [if_neg hh]⟩
    rw [error_set_at e lexU _ _ rest _ (by decide) hsv hne2 hnz hrd]

theorem lex_scan_too_big_integer_sign_witness :
    ∃ lex1 msg, lex_scan plain_context (lex_init get_func.buffer_get (str "-9223372036854775809"))
        no_flags jsonp_error_init =
        some (lex1, report_at jsonp_error_init
          (cursor_init.steps ([] ++ ([45] ++ str "9223372036854775809")))
          (with_context msg ([45] ++ str "9223372036854775809"))) ∧
      lex1.token = TOKEN_INVALID ∧ lex1.saved_text = [45] ++ str "9223372036854775809" ∧
      (msg = str "too big negative integer" ↔
        ([45] ++ str "9223372036854775809").head? = some 45) ∧
      (msg = str "too big integer" ↔ ([45] ++ str "9223372036854775809").head? ≠ some 45) ∧
      json_strtoint ([45] ++ str "9223372036854775809") =
        (if ([45] ++ str "9223372036854775809").head? = some 45 then (-(2 : Int) ^ 63, true)
         else ((2 : Int) ^ 63 - 1, true)) :=
  lex_scan_too_big_integer_sign plain_context no_flags [] [45] (str "9223372036854775809") []
    (lex_init get_func.buffer_get (str "-9223372036854775809")) cursor_init jsonp_error_init
    (by intro b hb; cases hb) (Or.inr rfl)
    (Or.inr ⟨57, str "223372036854775809", rfl, by decide, by decide, by unfold all_digits; decide⟩)
    ⟨Or.inl rfl, by decide, by decide⟩
    (ready_init_buffer _ (by decide)) rfl rfl (Or.inl (by decide))

/-- C28, amended: an error raised through `error_set` (the messages of the
decoder have at most 100 bytes) carries the suffix " near end of file" exactly
when the raw text of the current token is empty or begins with a NUL byte and
the stream is not in the error state: at the end of the input, and also while
the stream is still in the OK state with such a raw text (the programming
error raised before any input is read, an invalid token whose text starts with
a NUL byte). -/
theorem error_set_end_of_file_suffix (error : json_error_t) (lex : lex_t) (msg : List Nat)
    (hmsg : msg.length ≤ 100) :
    error_set error (some lex) msg =
        report_at error lex.stream.cursor (msg ++ str " near end of file") ↔
      (c_str lex.saved_text = [] ∧ lex.stream.state ≠ STREAM_STATE_ERROR) := by
  rw [error_set_text error lex msg hmsg]
  have hinj : ∀ a b : List Nat, report_at error lex.stream.cursor a =
      report_at error lex.stream.cursor b → a = b := by
    intro a b hab
    unfold report_at at hab
    have := congrArg json_error_t.reports hab
    simp only [List.append_cancel_left_eq, List.cons.injEq, error_report.mk.injEq, and_true,
      true_and] at this
    exact this
  constructor
  · intro heq
    have ht := hinj _ _ heq
    by_cases hne : c_str lex.saved_text ≠ []
    · rw [if_pos hne] at ht
      by_cases hl : lex.saved_text.length ≤ 20
      · rw [if_pos hl, List.append_assoc, List.append_assoc] at ht
        have h7 := congrArg (List.take 7) (List.append_cancel_left ht)
        rw [List.take_left' (by decide)] at h7
        exact absurd h7 (by decide)
      · rw [if_neg hl] at ht
        have := congrArg List.length ht
        simp only [List.length_append] at this
        have h17 : (str " near end of file").length = 17 := by decide
        omega
    · have hnil : c_str lex.saved_text = [] := by simpa using hne
      refine ⟨hnil, ?_⟩
      intro hst
      rw [if_neg hne, if_pos hst] at ht
      have := congrArg List.length ht
      simp only [List.length_append] at this
      have h17 : (str " near end of file").length = 17 := by decide
      omega
  · rintro ⟨hnil, hst⟩
    have hne : ¬ (c_str lex.saved_text ≠ []) := by simpa using hnil
    rw [if_neg hne, if_neg hst]

theorem error_set_end_of_file_suffix_witness :
    error_set jsonp_error_init (some (lex_init get_func.buffer_get (str "[1]")))
        (str "Programming error: Not prepared to decode big integers") =
        report_at jsonp_error_init (lex_init get_func.buffer_get (str "[1]")).stream.cursor
          (str "Programming error: Not prepared to decode big integers" ++
            str " near end of file") ↔
      (c_str (lex_init get_func.buffer_get (str "[1]")).saved_text = [] ∧
        (lex_init get_func.buffer_get (str "[1]")).stream.state ≠ STREAM_STATE_ERROR) :=
  error_set_end_of_file_suffix jsonp_error_init (lex_init get_func.buffer_get (str "[1]"))
    (str "Programming error: Not prepared to decode big integers") (by decide)

/-- C28: counterexample.  On the three bytes `[`, NUL, `]` the report of the
invalid token reads "invalid token near end of file", and on `[1]` with
`JSON_USE_BIGINT` and no backend the programming error carries the same
suffix, although in both cases the stream is in the OK state and has not
reached the end of the input: the `]`, respectively the whole text, is still
unread. -/
theorem parse_json_suffix_before_end :
    (parse_json plain_context (lex_init get_func.buffer_get [91, 0, 93]) no_flags
        jsonp_error_init).map
        (fun r => (r.1.isSome, r.2.1.stream.state, r.2.1.stream.data,
          r.2.2.reports.map (fun x => x.text))) =
      some (false, STREAM_STATE_OK, [93], [str "invalid token near end of file"]) ∧
    (parse_json plain_context (lex_init get_func.string_get (str "[1]"))
        { no_flags with JSON_USE_BIGINT := true } jsonp_error_init).map
        (fun r => (r.1.isSome, r.2.1.stream.state, r.2.1.stream.data,
          r.2.2.reports.map (fun x => x.text))) =
      some (false, STREAM_STATE_OK, str "[1]",
        [str "Programming error: Not prepared to decode big integers near end of file"]) :=
  ⟨by decide!, by decide!⟩

/-- The function `lex_scan_number` counts the digits of the saved text that
`lex_scan_number_counted` leaves. -/
theorem lex_scan_number_tail_counted (ctx : json_context_t) (fuel : Nat) (lex : lex_t) (c : Int)
    (flags : load_flags) (error : json_error_t) (cF : Int) (lexF : lex_t) (eF : json_error_t)
    (hc : c = 46 ∨ c = 69 ∨ c = 101)
    (h : lex_scan_number_counted fuel lex c error = some (some cF, lexF, eF)) :
    lex_scan_number_tail ctx fuel lex c flags error =
      if cF = 69 ∨ cF = 101 then
        match lex_scan_number_exponent fuel lexF eF with
        | none => none
        | some (none, lex, error) => some (-1, lex, error)
        | some (some c, lex, error) =>
          some (lex_scan_number_real ctx (lex_unget_unsave lex c) flags
            (if flags.JSON_USE_BIGREAL ∧ ¬ flags.JSON_USE_BIGREAL_ALWAYS then
              jsonp_count_significand_digits lexF.saved_text else 0) error)
      else
        some (lex_scan_number_real ctx (lex_unget_unsave lexF cF) flags
          (if flags.JSON_USE_BIGREAL ∧ ¬ flags.JSON_USE_BIGREAL_ALWAYS then
            jsonp_count_significand_digits lexF.saved_text else 0) eF) := by
  have hcne : ¬ (c ≠ 46 ∧ c ≠ 69 ∧ c ≠ 101) := by omega
  unfold lex_scan_number_counted at h
  unfold lex_scan_number_tail
  simp only [hcne, ite_false, h] <;> rfl

/-- The saved text of a lexer that holds a lookahead. -/
theorem Held.saved {lex : lex_t} {c : Int} {t rest : List Nat} {k : cursor}
    (h : Held lex c t rest k) : lex.saved_text = t ++ rest.take 1 := by
  rcases h with h | ⟨b0, bs, r, h1, _, _, _, _, h6⟩ | ⟨r, h1, _, _, h4⟩
  · exact h.2
  · subst h1; simpa using h6
  · subst h1; simpa using h4

/-- The lookahead a lexer holds is a digit only if the text goes on with a
digit. -/
theorem Held.not_digit {lex : lex_t} {c : Int} {t rest : List Nat} {k : cursor}
    (h : Held lex c t rest k) (hnd : ∀ b ∈ rest.take 1, ¬ (48 ≤ b ∧ b ≤ 57)) :
    l_isdigit c = false := by
  rcases h with h | ⟨b0, bs, r, h1, h2, h3, _⟩ | ⟨r, _, h2, _⟩
  · have hc := h.1.next
    rcases h.1.delim with hnil | ⟨b, r, hr, _, _⟩
    · subst hnil; rw [hc]; rfl
    · subst hr
      rw [hc]
      simp only [next_char]
      have := (l_isdigit_nat b).not.mpr (hnd b (by simp))
      simpa using this
  · obtain ⟨b0', bs', hc, hl, hh, _⟩ := utf8_sequence_cases _ h2
    simp only [List.cons.injEq] at hc
    obtain ⟨hx, _⟩ := hc
    subst hx
    rw [h3]
    unfold l_isdigit to_char
    simp only [Bool.and_eq_false_iff, decide_eq_false_iff_not]
    omega
  · rw [h2]; rfl

theorem readable_digits_append (ds rest : List Nat) (hds : all_digits ds) (hr : Readable rest) :
    Readable (ds ++ rest) := by
  cases ds with
  | nil => exact hr
  | cons d r =>
    have := hds d (List.mem_cons_self _ _)
    exact Or.inl (Or.inr ⟨d, r ++ rest, rfl, by omega, by omega⟩)

/-- The digit loop on digits followed by anything that can be read: the
lookahead it ends with is held, whatever it is. -/
theorem lex_scan_digits_held (rest : List Nat) (hr : Readable rest)
    (hnd : ∀ b ∈ rest.take 1, ¬ (48 ≤ b ∧ b ≤ 57)) (e : json_error_t) :
    ∀ (ds : List Nat), all_digits ds → ∀ (fuel : Nat) (lex : lex_t) (c : Int) (t : List Nat)
      (k : cursor), Held lex c t (ds ++ rest) k → ds.length < fuel →
      ∃ lex1 c1, lex_scan_digits fuel lex c e = some (c1, lex1, e) ∧
        Held lex1 c1 (t ++ ds) rest (k.steps ds) ∧
        lex1.token = lex.token ∧ lex1.value = lex.value := by
  intro ds
  induction ds with
  | nil =>
    intro _ fuel lex c t k hp hf
    obtain ⟨n, rfl⟩ : ∃ n, fuel = n + 1 := ⟨fuel - 1, by simp at hf; omega⟩
    simp only [List.nil_append] at hp
    have hdig := hp.not_digit hnd
    refine ⟨lex, c, ?_, by simpa [cursor.steps] using hp, rfl, rfl⟩
    simp only [lex_scan_digits, hdig, Bool.false_eq_true, ite_false]
  | cons d ds ih =>
    intro hds fuel lex c t k hp hf
    obtain ⟨n, rfl⟩ : ∃ n, fuel = n + 1 := ⟨fuel - 1, by simp at hf; omega⟩
    have hd := hds d (List.mem_cons_self _ _)
    have hds1 : all_digits ds := fun x hx => hds x (List.mem_cons_of_mem _ hx)
    simp only [List.cons_append] at hp
    obtain ⟨hc, _, _, hsv, hrd⟩ := (hp.ascii (by omega) (by omega)).consume_saved
    subst hc
    have hdig : l_isdigit (d : Int) = true := (l_isdigit_nat d).mpr hd
    have hh := lex_get_save_held lex e (ds ++ rest) (k.step d) hrd
      (readable_digits_append ds rest hds1 hr)
    simp only [lex_scan_digits, hdig, ite_true]
    generalize lex_get_save lex e = q at hh ⊢
    obtain ⟨c1, lex1, e1⟩ := q
    obtain ⟨hh1, he1, ht1, hv1⟩ := hh
    simp only at hh1 he1 ht1 hv1
    subst he1
    rw [hsv] at hh1
    obtain ⟨lex2, c2, h1, h2, h3, h4⟩ := ih hds1 n lex1 c1 (t ++ [d]) (k.step d) hh1
      (by simp only [List.length_cons] at hf; omega)
    refine ⟨lex2, c2, h1, ?_, by rw [h3, ht1], by rw [h4, hv1]⟩
    simpa [cursor.steps] using h2

/-- The fraction of a numeral followed by anything that can be read. -/
theorem lex_scan_number_fraction_held (fd rest : List Nat) (hfd : digits1 fd)
    (hr : Readable rest) (hnd : ∀ b ∈ rest.take 1, ¬ (48 ≤ b ∧ b ≤ 57))
    (fuel : Nat) (lex : lex_t) (c : Int) (t : List Nat) (k : cursor) (e : json_error_t)
    (hp : Peeked lex c t (46 :: fd ++ rest) k) (hf : fd.length ≤ fuel) :
    ∃ lexF cF, lex_scan_number_fraction fuel lex e = some (some cF, lexF, e) ∧
      Held lexF cF (t ++ 46 :: fd) rest (k.steps (46 :: fd)) := by
  simp only [List.cons_append] at hp
  obtain ⟨_, _, _, hsv, hrd⟩ := hp.consume_saved
  obtain ⟨d, r, hdr, hd1, hd2, hr1⟩ := digits1_cons hfd
  subst hdr
  have hrd' : Ready lex.stream (d :: (r ++ rest)) (k.step 46) := hrd
  obtain ⟨hp1, he1, ht1, hv1⟩ := lex_get_then_save_peek lex e d (r ++ rest) (k.step 46) hrd'
    (by omega) (by omega)
  have hc1 := hp1.1.next
  simp only [next_char] at hc1
  unfold lex_scan_number_fraction
  have hdig : l_isdigit (lex_get lex e).1 = true := by
    rw [hc1]; exact (l_isdigit_nat d).mpr ⟨hd1, hd2⟩
  simp only [hdig, Bool.true_eq_false, ite_false, he1]
  rw [hsv] at hp1
  obtain ⟨_, _, _, hsv2, hrd2⟩ := hp1.consume_saved
  have hh := lex_get_save_held (lex_save (lex_get lex e).2.1 (lex_get lex e).1) e (r ++ rest) _
    hrd2 (readable_digits_append r rest hr1 hr)
  generalize lex_get_save (lex_save (lex_get lex e).2.1 (lex_get lex e).1) e = q at hh ⊢
  obtain ⟨c2, lex2, e2⟩ := q
  obtain ⟨hh1, he2, _, _⟩ := hh
  simp only at hh1 he2
  subst he2
  rw [hsv2] at hh1
  obtain ⟨lex3, c3, h1, h2, _, _⟩ := lex_scan_digits_held rest hr hnd e2 r hr1 fuel lex2 c2 _ _ hh1
    (by simp only [List.length_cons] at hf; omega)
  simp only [h1]
  refine ⟨lex3, c3, rfl, ?_⟩
  simpa [cursor.steps, List.append_assoc] using h2

/-- The count of a mantissa is not changed by the one byte, no digit, that
may stand after it in the saved text. -/
theorem count_significand_take (m rest : List Nat) (hm : ∀ b ∈ m, mantissa_byte b)
    (hnd : ∀ b ∈ rest.take 1, ¬ (48 ≤ b ∧ b ≤ 57)) :
    jsonp_count_significand_digits (m ++ rest.take 1) = jsonp_count_significand_digits m := by
  cases rest with
  | nil => simp
  | cons b r =>
    simp only [List.take_succ_cons, List.take_zero] at hnd ⊢
    by_cases hb : b = 0
    · subst hb
      have hnz : ∀ x ∈ m, x ≠ 0 := by
        intro x hx; have := hm x hx; unfold mantissa_byte at this; omega
      have hcs : c_str (m ++ [0]) = c_str m := by
        rw [c_str_eq_self m hnz]
        unfold c_str
        rw [List.takeWhile_append_of_pos (by intro x hx; simpa using hnz x hx)]
        simp
      unfold jsonp_count_significand_digits
      simp only [hcs]
    · apply count_significand_lookahead m [b] hm
      intro x hx
      simp only [List.mem_singleton] at hx
      subst hx
      exact ⟨hb, hnd x (by simp)⟩

/-- The state of `lex_scan_number` at the call of
`jsonp_count_significand_digits`, for a numeral with mantissa
`sg ++ ip ++ fr` followed by `rest`. -/
theorem lex_scan_number_counted_saved (ctx : json_context_t) (flags : load_flags)
    (ws sg ip fr rest : List Nat) (lex : lex_t) (k : cursor) (e : json_error_t)
    (hws : all_space ws) (hsg : sign_part sg) (hip : int_part ip) (hfr : frac_part fr)
    (hr : Readable rest) (hnd : ∀ b ∈ rest.take 1, ¬ (48 ≤ b ∧ b ≤ 57))
    (hreal : fr = [] → ∃ r, rest = 69 :: r ∨ rest = 101 :: r)
    (h : Ready lex.stream (ws ++ (sg ++ ip ++ fr ++ rest)) k) :
    ∃ fuel lex2 c lexF cF,
      lex_scan ctx lex flags e =
        (lex_scan_number_tail ctx fuel lex2 c flags e).map (fun r => (r.2.1, r.2.2)) ∧
      (c = 46 ∨ c = 69 ∨ c = 101) ∧
      lex_scan_number_counted fuel lex2 c e = some (some cF, lexF, e) ∧
      lexF.saved_text = sg ++ ip ++ fr ++ rest.take 1 ∧
      jsonp_count_significand_digits lexF.saved_text =
        jsonp_count_significand_digits (sg ++ ip ++ fr) := by
  have hassoc : sg ++ ip ++ fr ++ rest = sg ++ ip ++ (fr ++ rest) := by
    simp [List.append_assoc]
  rw [hassoc] at h
  obtain ⟨b, r, hbr, hb⟩ := first_char_numeral sg ip (fr ++ rest) hsg hip
  rw [hbr] at h
  have hb0 : 0 < b := by omega
  have hb1 : b < 128 := by omega
  have hns : not_space (b : Int) := by unfold not_space; omega
  obtain ⟨lex1, hp, ht, hv, heq⟩ := lex_scan_enter ctx flags ws b r hws hb0 hb1 hns lex k e h
  rw [← hbr] at hp
  -- what follows the integer part
  have hnext : Delim (fr ++ rest) ∧ l_isdigit (next_char (fr ++ rest)) = false ∧
      (next_char (fr ++ rest) = 46 ∨ next_char (fr ++ rest) = 69 ∨
        next_char (fr ++ rest) = 101) := by
    rcases hfr with hf | ⟨ds, hf, _⟩
    · obtain ⟨r1, hr1 | hr1⟩ := hreal hf
      · subst hf; subst hr1
        exact ⟨Or.inr ⟨69, r1, rfl, by omega, by omega⟩, rfl, Or.inr (Or.inl rfl)⟩
      · subst hf; subst hr1
        exact ⟨Or.inr ⟨101, r1, rfl, by omega, by omega⟩, rfl, Or.inr (Or.inr rfl)⟩
    · subst hf
      exact ⟨Or.inr ⟨46, ds ++ rest, rfl, by omega, by omega⟩, rfl, Or.inl rfl⟩
  obtain ⟨hdl, hndg, hc3⟩ := hnext
  obtain ⟨lex2, h1, h2, h3, h4⟩ := lex_scan_number_head ctx flags sg ip (fr ++ rest)
    hsg hip hdl hndg lex1 b (k.steps ws) e hp
  have hlen := hp.1.input_length_le
  have hm := sign_int_bytes sg ip hsg hip
  -- the state at the counting point
  have hcount : ∃ lexF cF, lex_scan_number_counted (lex1.stream.data.length + 6) lex2
        (next_char (fr ++ rest)) e = some (some cF, lexF, e) ∧
      lexF.saved_text = sg ++ ip ++ fr ++ rest.take 1 := by
    unfold lex_scan_number_counted
    rcases hfr with hf | ⟨ds, hf, hds⟩
    · subst hf
      simp only [List.nil_append, List.append_nil] at h2 hc3 ⊢
      have hne : ¬ (next_char rest = 46) := by
        obtain ⟨r1, hr1 | hr1⟩ := hreal rfl
        · subst hr1; simp [next_char]
        · subst hr1; simp [next_char]
      rw [if_neg hne]
      exact ⟨lex2, _, rfl, h2.2⟩
    · subst hf
      simp only [List.cons_append, next_char, Nat.cast_ofNat, ite_true]
      have hp2 : Peeked lex2 (next_char (46 :: ds ++ rest)) (sg ++ ip) (46 :: ds ++ rest)
          ((k.steps ws).steps (sg ++ ip)) := h2
      obtain ⟨lexF, cF, hF1, hF2⟩ := lex_scan_number_fraction_held ds rest hds hr hnd
        (lex1.stream.data.length + 6) lex2 _ (sg ++ ip) _ e hp2
        (by simp only [List.length_append, List.length_cons] at hlen; omega)
      exact ⟨lexF, cF, hF1, by simpa [List.append_assoc] using hF2.saved⟩
  obtain ⟨lexF, cF, hF1, hF2⟩ := hcount
  refine ⟨lex1.stream.data.length + 6, lex2, next_char (fr ++ rest), lexF, cF, ?_, hc3, hF1, hF2,
    ?_⟩
  · rw [heq]
    unfold lex_scan_token
    have hp1 : ¬ ((b : Int) = 123 ∨ (b : Int) = 125 ∨ (b : Int) = 91 ∨ (b : Int) = 93 ∨
        (b : Int) = 58 ∨ (b : Int) = 44) := by omega
    have hp2 : ¬ ((b : Int) = 34) := by omega
    have hp3 : l_isdigit (b : Int) = true ∨ (b : Int) = 45 := by
      rcases hb with hb | hb
      · exact Or.inr (by omega)
      · exact Or.inl ((l_isdigit_nat b).mpr hb)
    simp only [hp1, hp2, hp3, ite_false, ite_true, h1]
    cases lex_scan_number_tail ctx (lex1.stream.data.length + 6) lex2 (next_char (fr ++ rest))
      flags e <;> rfl
  · rw [hF2]
    apply count_significand_take
    · intro x hx
      rcases List.mem_append.mp hx with hx | hx
      · exact hm x hx
      · exact frac_part_bytes hfr x hx
    · exact hnd

/-- C25, amended: at the point where `lex_scan_number` counts significant
digits, for a numeral with mantissa `sg ++ ip ++ fr` (optional `-`, integer
digits, optional `.` and fraction digits) scanned by `lex_scan` after
whitespace and followed by `rest` (nothing, an exponent, or text that begins
with any other readable character that is no digit), the saved text handed to
the counter is the mantissa followed by the first byte of `rest`, if there is
one: the lookahead that `lex_get_save` has saved.  The count of it is the
count of the mantissa alone, so the count, not the text counted, is the same
whether the numeral ends there, is followed by an exponent or by another
character. -/
theorem lex_scan_number_counted_text (ctx : json_context_t) (flags : load_flags)
    (ws sg ip fr rest : List Nat) (lex : lex_t) (k : cursor) (e : json_error_t)
    (hws : all_space ws) (hsg : sign_part sg) (hip : int_part ip) (hfr : frac_part fr)
    (hr : Readable rest) (hnd : ∀ b ∈ rest.take 1, ¬ (48 ≤ b ∧ b ≤ 57))
    (hreal : fr = [] → ∃ r, rest = 69 :: r ∨ rest = 101 :: r)
    (h : Ready lex.stream (ws ++ (sg ++ ip ++ fr ++ rest)) k) :
    ∃ fuel lex2 c lexF cF,
      lex_scan ctx lex flags e =
        (lex_scan_number_tail ctx fuel lex2 c flags e).map (fun r => (r.2.1, r.2.2)) ∧
      (c = 46 ∨ c = 69 ∨ c = 101) ∧
      lex_scan_number_counted fuel lex2 c e = some (some cF, lexF, e) ∧
      lexF.saved_text = sg ++ ip ++ fr ++ rest.take 1 ∧
      jsonp_count_significand_digits lexF.saved_text =
        jsonp_count_significand_digits (sg ++ ip ++ fr) :=
  lex_scan_number_counted_saved ctx flags ws sg ip fr rest lex k e hws hsg hip hfr hr hnd hreal h

theorem lex_scan_number_counted_text_witness :
    ∃ fuel lex2 c lexF cF,
      lex_scan plain_context (lex_init get_func.buffer_get (str "1.5,2")) no_flags
          jsonp_error_init =
        (lex_scan_number_tail plain_context fuel lex2 c no_flags jsonp_error_init).map
          (fun r => (r.2.1, r.2.2)) ∧
      (c = 46 ∨ c = 69 ∨ c = 101) ∧
      lex_scan_number_counted fuel lex2 c jsonp_error_init =
        some (some cF, lexF, jsonp_error_init) ∧
      lexF.saved_text = [] ++ str "1" ++ str ".5" ++ (str ",2").take 1 ∧
      jsonp_count_significand_digits lexF.saved_text =
        jsonp_count_significand_digits ([] ++ str "1" ++ str ".5") :=
  lex_scan_number_counted_text plain_context no_flags [] [] (str "1") (str ".5") (str ",2")
    (lex_init get_func.buffer_get (str "1.5,2")) cursor_init jsonp_error_init
    (by intro b hb; cases hb) (Or.inl rfl)
    (Or.inr ⟨49, [], rfl, by decide, by decide, by unfold all_digits; decide⟩)
    (Or.inr ⟨str "5", rfl, by decide, by unfold all_digits; decide⟩)
    (Or.inl (Or.inr ⟨44, str "2", rfl, by decide, by decide⟩))
    (by decide) (fun hc => absurd hc (by decide))
    (ready_init_buffer _ (by decide))

/-- C25: counterexample.  For the text `1.5e3` the saved text handed to the
counter is `1.5e`, the mantissa and the `e` read ahead, not the mantissa
`1.5`; for the text `1.5` alone it is `1.5`: the text counted is not the same
with and without an exponent. -/
theorem lex_scan_number_counted_lookahead :
    (∃ fuel lex2 c lexF cF,
      lex_scan plain_context (lex_init get_func.buffer_get (str "1.5e3")) no_flags
          jsonp_error_init =
        (lex_scan_number_tail plain_context fuel lex2 c no_flags jsonp_error_init).map
          (fun r => (r.2.1, r.2.2)) ∧
      lex_scan_number_counted fuel lex2 c jsonp_error_init =
        some (some cF, lexF, jsonp_error_init) ∧
      lexF.saved_text = str "1.5e" ∧ lexF.saved_text ≠ str "1.5") ∧
    (∃ fuel lex2 c lexF cF,
      lex_scan plain_context (lex_init get_func.buffer_get (str "1.5")) no_flags
          jsonp_error_init =
        (lex_scan_number_tail plain_context fuel lex2 c no_flags jsonp_error_init).map
          (fun r => (r.2.1, r.2.2)) ∧
      lex_scan_number_counted fuel lex2 c jsonp_error_init =
        some (some cF, lexF, jsonp_error_init) ∧
      lexF.saved_text = str "1.5") := by
  constructor
  · obtain ⟨fuel, lex2, c, lexF, cF, h1, _, h3, h4, _⟩ :=
      lex_scan_number_counted_saved plain_context no_flags [] [] (str "1") (str ".5") (str "e3")
        (lex_init get_func.buffer_get (str "1.5e3")) cursor_init jsonp_error_init
        (by intro b hb; cases hb) (Or.inl rfl)
        (Or.inr ⟨49, [], rfl, by decide, by decide, by unfold all_digits; decide⟩)
        (Or.inr ⟨str "5", rfl, by decide, by unfold all_digits; decide⟩)
        (Or.inl (Or.inr ⟨101, str "3", rfl, by decide, by decide⟩))
        (by decide) (fun hc => absurd hc (by decide))
        (ready_init_buffer _ (by decide))
    refine ⟨fuel, lex2, c, lexF, cF, h1, h3, ?_, ?_⟩
    · rw [h4]; decide
    · rw [h4]; decide
  · obtain ⟨fuel, lex2, c, lexF, cF, h1, _, h3, h4, _⟩ :=
      lex_scan_number_counted_saved plain_context no_flags [] [] (str "1") (str ".5") []
        (lex_init get_func.buffer_get (str "1.5")) cursor_init jsonp_error_init
        (by intro b hb; cases hb) (Or.inl rfl)
        (Or.inr ⟨49, [], rfl, by decide, by decide, by unfold all_digits; decide⟩)
        (Or.inr ⟨str "5", rfl, by decide, by unfold all_digits; decide⟩)
        (Or.inl (Or.inl rfl))
        (by decide) (fun hc => absurd hc (by decide))
        (ready_init_buffer _ (by decide))
    refine ⟨fuel, lex2, c, lexF, cF, h1, h3, ?_⟩
    rw [h4]; decide

theorem decode_unicode_escape_loop_length :
    ∀ (n : Nat) (s : List Nat) (v : Int), 0 ≤ decode_unicode_escape_loop n s v → n ≤ s.length := by
  intro n
  induction n with
  | zero => intro s v _; exact Nat.zero_le _
  | succ n ih =>
    intro s v h
    cases s with
    | nil =>
      simp only [decode_unicode_escape_loop, List.headD_nil] at h
      revert h
      simp only [show to_char ((0 : Nat) : Int) = 0 by decide,
        show l_isdigit 0 = false by decide, show l_islower 0 = false by decide,
        show l_isupper 0 = false by decide, Bool.false_eq_true, ite_false]
      omega
    | cons a r =>
      simp only [decode_unicode_escape_loop, List.headD_cons, List.tail_cons] at h
      simp only [List.length_cons]
      split_ifs at h
      · have := ih _ _ h; omega
      · have := ih _ _ h; omega
      · have := ih _ _ h; omega
      · omega

theorem decode_unicode_escape_length (s : List Nat) (h : 0 ≤ decode_unicode_escape s) :
    5 ≤ s.length := by
  unfold decode_unicode_escape at h
  have := decode_unicode_escape_loop_length 4 (s.drop 1) 0 h
  simp only [List.length_drop] at this
  omega

theorem utf8_encode_length (v : Int) (bytes : List Nat) (h : utf8_encode v = some bytes) :
    1 ≤ bytes.length ∧ bytes.length ≤ 4 ∧ (v < 0x10000 → bytes.length ≤ 3) ∧
      (0x10000 ≤ v → bytes.length = 4) := by
  unfold utf8_encode at h
  by_cases hneg : v < 0
  · simp [hneg] at h
  · obtain ⟨n, rfl⟩ : ∃ n : Nat, v = (n : Int) :=
      ⟨v.toNat, (Int.toNat_of_nonneg (by omega)).symm⟩
    simp only [hneg, ite_false, Int.toNat_ofNat] at h
    split_ifs at h
    all_goals first
      | (simp only [Option.some.injEq] at h
         subst h
         refine ⟨by simp, by simp, fun _ => ?_, fun _ => ?_⟩
         all_goals first | (exfalso; omega) | simp)

theorem lex_scan_string_shortcut_some (c b : Nat) (h : lex_scan_string_shortcut c = some b) :
    c ≠ 0 := by
  intro hc
  subst hc
  simp [lex_scan_string_shortcut] at h

/-- One iteration of the second loop of `lex_scan_string`, from any state: it
moves `p` on by `n` bytes of the text and appends `bytes` to the output, where
`n` and the length of `bytes` are 1 and 1 (a byte copied), 2 and 1 (a shortcut
escape), 6 and at most 4 (one `\u` escape; at most 3 when the value is below
0x10000, as it is for four hexadecimal digits), or 12 and 4 (a surrogate
pair). -/
theorem lex_scan_string_decode_body_bound (lex : lex_t) (c : Nat) (p1 t : List Nat)
    (e0 : json_error_t) (p2 t2 : List Nat) (e2 : json_error_t)
    (h : lex_scan_string_decode_body lex c p1 t e0 = some (some (p2, t2), e2)) :
    ∃ n bytes, p2 = (c :: p1).drop n ∧ n ≤ (c :: p1).length ∧ t2 = t ++ bytes ∧
      ((n = 1 ∧ bytes.length = 1) ∨ (n = 2 ∧ bytes.length = 1) ∨
        (n = 6 ∧ bytes.length ≤ 4 ∧ (decode_unicode_escape p1 < 0x10000 → bytes.length ≤ 3)) ∨
        (n = 12 ∧ bytes.length = 4)) := by
  unfold lex_scan_string_decode_body at h
  simp only at h
  by_cases hc : c = 92
  · rw [if_pos hc] at h
    by_cases hu : p1.headD 0 = 117
    · rw [if_pos hu] at h
      by_cases hv : decode_unicode_escape p1 < 0
      · rw [if_pos hv] at h
        simp at h
      · rw [if_neg hv] at h
        have hl1 := decode_unicode_escape_length p1 (by omega)
        by_cases hs : 0xD800 ≤ decode_unicode_escape p1 ∧ decode_unicode_escape p1 ≤ 0xDBFF
        · rw [if_pos hs] at h
          by_cases hp : (p1.drop 5).headD 0 = 92 ∧ (p1.drop 5).tail.headD 0 = 117
          · rw [if_pos hp] at h
            by_cases hv2 : decode_unicode_escape (p1.drop 5).tail < 0
            · rw [if_pos hv2] at h
              simp at h
            · rw [if_neg hv2] at h
              have hl2 := decode_unicode_escape_length (p1.drop 5).tail (by omega)
              by_cases hs2 : 0xDC00 ≤ decode_unicode_escape (p1.drop 5).tail ∧
                  decode_unicode_escape (p1.drop 5).tail ≤ 0xDFFF
              · rw [if_pos hs2] at h
                generalize hen : utf8_encode _ = en at h
                cases en with
                | none => simp at h
                | some bytes =>
                  simp only [Option.some.injEq, Prod.mk.injEq] at h
                  obtain ⟨⟨h1, h2⟩, _⟩ := h
                  have hb := (utf8_encode_length _ _ hen).2.2.2 (by omega)
                  simp only [List.length_tail, List.length_drop] at hl2
                  refine ⟨12, bytes, ?_, by simp only [List.length_cons]; omega, h2.symm,
                    Or.inr (Or.inr (Or.inr ⟨rfl, hb⟩))⟩
                  rw [← h1]
                  simp [List.tail_drop, List.drop_drop]
              · rw [if_neg hs2] at h
                simp at h
          · rw [if_neg hp] at h
            simp at h
        · rw [if_neg hs] at h
          by_cases hlo : 0xDC00 ≤ decode_unicode_escape p1 ∧ decode_unicode_escape p1 ≤ 0xDFFF
          · rw [if_pos hlo] at h
            simp at h
          · rw [if_neg hlo] at h
            generalize hen : utf8_encode _ = en at h
            cases en with
            | none => simp at h
            | some bytes =>
              simp only [Option.some.injEq, Prod.mk.injEq] at h
              obtain ⟨⟨h1, h2⟩, _⟩ := h
              obtain ⟨_, hb4, hb3, _⟩ := utf8_encode_length _ _ hen
              refine ⟨6, bytes, ?_, by simp only [List.length_cons]; omega, h2.symm,
                Or.inr (Or.inr (Or.inl ⟨rfl, hb4, hb3⟩))⟩
              rw [← h1]
              rfl
    · rw [if_neg hu] at h
      generalize hsc : lex_scan_string_shortcut (p1.headD 0) = sc at h
      cases sc with
      | none => simp at h
      | some b =>
        simp only [Option.some.injEq, Prod.mk.injEq] at h
        obtain ⟨⟨h1, h2⟩, _⟩ := h
        have hne := lex_scan_string_shortcut_some _ _ hsc
        cases p1 with
        | nil => simp at hne
        | cons a r =>
          refine ⟨2, [b], ?_, by simp, h2.symm, Or.inr (Or.inl ⟨rfl, rfl⟩)⟩
          rw [← h1]
          rfl
  · rw [if_neg hc] at h
    simp only [Option.some.injEq, Prod.mk.injEq] at h
    obtain ⟨⟨h1, h2⟩, _⟩ := h
    exact ⟨1, [c], by rw [← h1]; rfl, by simp, h2.symm, Or.inl ⟨rfl, rfl⟩⟩

/-- The second loop of `lex_scan_string` from any state `p`, `t`: what it
gives starts with `t` and has grown by less than the bytes of `p`, one of
which is the closing quote. -/
theorem lex_scan_string_decode_bound (lex : lex_t) :
    ∀ (fuel : Nat) (p t : List Nat) (e0 : json_error_t) (u : List Nat) (e2 : json_error_t),
      lex_scan_string_decode lex fuel p t e0 = some (some u, e2) →
      u.length + 1 ≤ t.length + p.length ∧ t.length ≤ u.length := by
  intro fuel
  induction fuel with
  | zero => intro p t e0 u e2 h; simp [lex_scan_string_decode] at h
  | succ n ih =>
    intro p t e0 u e2 h
    cases p with
    | nil => simp [lex_scan_string_decode] at h
    | cons c p1 =>
      simp only [lex_scan_string_decode] at h
      by_cases hq : c = 34
      · simp only [hq, ite_true, Option.some.injEq, Prod.mk.injEq] at h
        obtain ⟨h1, _⟩ := h
        subst h1
        simp only [List.length_cons]
        omega
      · simp only [hq, ite_false] at h
        generalize hb : lex_scan_string_decode_body lex c p1 t e0 = r at h
        cases r with
        | none => simp at h
        | some r =>
          obtain ⟨st, e1⟩ := r
          cases st with
          | none => simp at h
          | some st =>
            obtain ⟨p2, t2⟩ := st
            simp only at h
            obtain ⟨m, bytes, h1, h2, h3, h4⟩ :=
              lex_scan_string_decode_body_bound lex c p1 t e0 p2 t2 e1 hb
            obtain ⟨ha, hb2⟩ := ih p2 t2 e1 u e2 h
            subst h1; subst h3
            simp only [List.length_append, List.length_drop] at ha hb2 ⊢
            rcases h4 with h4 | h4 | h4 | h4 <;> omega

/-- C26: every iteration of the decode pass of `lex_scan_string`, from any
state, writes at most as many bytes as it consumes of the raw text (1 for 1
copied byte, 1 for the 2 of a shortcut escape, at most 3 for the 6 of a
`\uXXXX` with hexadecimal digits, 4 for the 12 of a surrogate pair); so the
pass, from any state, gives an output that has grown by less than the bytes
left of the raw text, and for every string that `lex_scan_string` accepts the
payload has at most the length of the raw token minus 2: every byte of it and
the NUL after it have an index below the `saved_text.length + 1` bytes of the
buffer. -/
theorem lex_scan_string_decode_in_buffer (lex : lex_t) (e : json_error_t) (lex1 : lex_t)
    (e1 : json_error_t) (payload : List Nat)
    (h : lex_scan_string lex e = some (lex1, e1))
    (hv : lex1.value = lex_value.string (some payload)) :
    (∀ (c : Nat) (p1 t : List Nat) (e0 : json_error_t) (p2 t2 : List Nat) (e2 : json_error_t),
      lex_scan_string_decode_body lex1 c p1 t e0 = some (some (p2, t2), e2) →
      ∃ n bytes, p2 = (c :: p1).drop n ∧ n ≤ (c :: p1).length ∧ t2 = t ++ bytes ∧
        ((n = 1 ∧ bytes.length = 1) ∨ (n = 2 ∧ bytes.length = 1) ∨
          (n = 6 ∧ bytes.length ≤ 4 ∧
            (decode_unicode_escape p1 < 0x10000 → bytes.length ≤ 3)) ∨
          (n = 12 ∧ bytes.length = 4))) ∧
    (∀ (fuel : Nat) (p t : List Nat) (e0 : json_error_t) (u : List Nat) (e2 : json_error_t),
      lex_scan_string_decode lex1 fuel p t e0 = some (some u, e2) →
      u.length + 1 ≤ t.length + p.length ∧ t.length ≤ u.length) ∧
    payload.length + 2 ≤ lex1.saved_text.length ∧
    (payload ++ [0]).length ≤ lex1.saved_text.length + 1 := by
  refine ⟨lex_scan_string_decode_body_bound lex1, lex_scan_string_decode_bound lex1, ?_⟩
  have key : payload.length + 2 ≤ lex1.saved_text.length := by
    unfold lex_scan_string at h
    simp only at h
    generalize lex_scan_string_loop _ _ _ _ = r at h
    cases r with
    | none => simp at h
    | some r =>
      obtain ⟨b, lex2, e2⟩ := r
      cases b with
      | false =>
        simp only [Option.some.injEq, Prod.mk.injEq] at h
        rw [← h.1] at hv
        simp [lex_free_string] at hv
      | true =>
        simp only at h
        generalize hd : lex_scan_string_decode lex2 _ _ _ _ = d at h
        cases d with
        | none => simp at h
        | some d =>
          obtain ⟨st, e3⟩ := d
          cases st with
          | none =>
            simp only [Option.some.injEq, Prod.mk.injEq] at h
            rw [← h.1] at hv
            simp [lex_free_string] at hv
          | some u =>
            simp only [Option.some.injEq, Prod.mk.injEq] at h
            rw [← h.1] at hv ⊢
            simp only [lex_value.string.injEq, Option.some.injEq] at hv
            subst hv
            have := (lex_scan_string_decode_bound lex2 _ _ _ _ _ _ hd).1
            simp only [List.length_nil, List.length_drop] at this
            show u.length + 2 ≤ lex2.saved_text.length
            omega
  refine ⟨key, ?_⟩
  simp only [List.length_append, List.length_cons, List.length_nil]
  omega

theorem lex_scan_string_decode_in_buffer_witness :
    (∀ (c : Nat) (p1 t : List Nat) (e0 : json_error_t) (p2 t2 : List Nat) (e2 : json_error_t),
      lex_scan_string_decode_body surrogate_pair_scanned c p1 t e0 = some (some (p2, t2), e2) →
      ∃ n bytes, p2 = (c :: p1).drop n ∧ n ≤ (c :: p1).length ∧ t2 = t ++ bytes ∧
        ((n = 1 ∧ bytes.length = 1) ∨ (n = 2 ∧ bytes.length = 1) ∨
          (n = 6 ∧ bytes.length ≤ 4 ∧
            (decode_unicode_escape p1 < 0x10000 → bytes.length ≤ 3)) ∨
          (n = 12 ∧ bytes.length = 4))) ∧
    (∀ (fuel : Nat) (p t : List Nat) (e0 : json_error_t) (u : List Nat) (e2 : json_error_t),
      lex_scan_string_decode surrogate_pair_scanned fuel p t e0 = some (some u, e2) →
      u.length + 1 ≤ t.length + p.length ∧ t.length ≤ u.length) ∧
    [0xF0, 0x90, 0x80, 0x80].length + 2 ≤ surrogate_pair_scanned.saved_text.length ∧
    ([0xF0, 0x90, 0x80, 0x80] ++ [0]).length ≤ surrogate_pair_scanned.saved_text.length + 1 :=
  lex_scan_string_decode_in_buffer surrogate_pair_lexer jsonp_error_init surrogate_pair_scanned
    jsonp_error_init [0xF0, 0x90, 0x80, 0x80] (by decide!) rfl

theorem begins_code_point_iff (c : Int) :
    begins_code_point c = true ↔ utf8_check_first c ≠ 0 := by
  unfold begins_code_point utf8_check_first
  simp only [Bool.or_eq_true, Bool.and_eq_true, decide_eq_true_eq]
  split_ifs <;> omega

theorem stream_get_advance (lex : lex_t) (e : json_error_t)
    (hOK : lex.stream.state = STREAM_STATE_OK)
    (hE : (stream_get lex e).1 ≠ STREAM_STATE_EOF)
    (hR : (stream_get lex e).1 ≠ STREAM_STATE_ERROR) :
    (stream_get lex e).2.1.stream.cursor = lex.stream.cursor.advance (stream_get lex e).1 ∧
      (stream_get lex e).2.1.stream.state = STREAM_STATE_OK := by
  obtain ⟨lex1, heq, hOK1, hcur⟩ := stream_get_tail lex e hOK hE hR
  rw [heq, ← hcur, stream_get_next_eq]
  simp only [stream_t.cursor, cursor.advance]
  refine ⟨?_, hOK1⟩
  by_cases h10 : lex1.stream.buffer.getD lex1.stream.buffer_pos 0 = 10
  · simp [h10]
  · simp [h10]

theorem stream_gets_advance (e : json_error_t) :
    ∀ (n : Nat) (lex : lex_t), lex.stream.state = STREAM_STATE_OK →
      (∀ c ∈ (stream_gets n lex e).1, c ≠ STREAM_STATE_EOF ∧ c ≠ STREAM_STATE_ERROR) →
      (stream_gets n lex e).2.1.stream.cursor =
          (stream_gets n lex e).1.foldl cursor.advance lex.stream.cursor ∧
        (stream_gets n lex e).1.length = n := by
  intro n
  induction n with
  | zero => intro lex _ _; exact ⟨rfl, rfl⟩
  | succ n ih =>
    intro lex hOK hall
    simp only [stream_gets] at hall ⊢
    obtain ⟨hE, hR⟩ := hall _ (List.mem_cons_self _ _)
    obtain ⟨hcur, hOK1⟩ := stream_get_advance lex e hOK hE hR
    have hreq : (stream_get lex e).2.2 = e := by
      obtain ⟨lex1, heq, _, _⟩ := stream_get_tail lex e hOK hE hR
      rw [heq, stream_get_next_eq]
    rw [hreq] at hall ⊢
    obtain ⟨h1, h2⟩ := ih (stream_get lex e).2.1 hOK1
      (fun c hc => hall c (List.mem_cons_of_mem _ hc))
    refine ⟨?_, by simp only [List.length_cons, h2]⟩
    rw [h1, hcur]
    rfl

theorem foldl_advance (cs : List Int) :
    ∀ (k : cursor), (cs.foldl cursor.advance k).position = k.position + cs.length ∧
      (cs.foldl cursor.advance k).line = k.line + (cs.count 10 : Nat) ∧
      (cs.foldl cursor.advance k).column =
        (if 10 ∈ cs then (((since_last_lf cs).countP begins_code_point : Nat) : Int)
         else k.column + ((cs.countP begins_code_point : Nat) : Int)) := by
  induction cs with
  | nil => intro k; simp
  | cons c rest ih =>
    intro k
    obtain ⟨h1, h2, h3⟩ := ih (k.advance c)
    simp only [List.foldl_cons]
    refine ⟨?_, ?_, ?_⟩
    · rw [h1]; simp only [cursor.advance, List.length_cons]; omega
    · rw [h2]
      by_cases h10 : c = 10
      · subst h10
        simp only [cursor.advance, ite_true, List.count_cons_self]
        push_cast; ring
      · have : List.count 10 (c :: rest) = List.count 10 rest := by
          rw [List.count_cons_of_ne (Ne.symm h10)]
        simp only [cursor.advance, h10, ite_false, this]
    · rw [h3]
      by_cases hin : 10 ∈ rest
      · simp only [hin, ite_true, List.mem_cons, or_true, since_last_lf]
      · simp only [hin, ite_false, since_last_lf]
        by_cases h10 : c = 10
        · subst h10
          simp only [List.mem_cons, true_or, ite_true, cursor.advance]
          simp
        · have hnot : ¬ (10 ∈ c :: rest) := by
            simp only [List.mem_cons, not_or]
            exact ⟨Ne.symm h10, hin⟩
          simp only [hnot, ite_false, cursor.advance, h10, List.countP_cons]
          by_cases hb : begins_code_point c = true
          · have := (begins_code_point_iff c).mp hb
            simp only [this, ne_eq, not_false_eq_true, ite_true, hb]
            push_cast; ring
          · have : ¬ (utf8_check_first c ≠ 0) := fun hc => hb ((begins_code_point_iff c).mpr hc)
            simp only [this, ite_false, hb, Bool.false_eq_true]
            push_cast; ring

theorem since_last_lf_cons (c : Int) (rest : List Int) :
    since_last_lf (c :: rest) =
      if 10 ∈ rest then since_last_lf rest else if c = 10 then rest else c :: rest := rfl

theorem since_last_lf_self (cs : List Int) (h : 10 ∉ cs) : since_last_lf cs = cs := by
  cases cs with
  | nil => rfl
  | cons c rest =>
    simp only [List.mem_cons, not_or] at h
    simp only [since_last_lf, h.2, ite_false, Ne.symm h.1]

theorem since_last_lf_append (seq : List Int) (h : 10 ∉ seq) :
    ∀ (pre : List Int), since_last_lf (pre ++ seq) = since_last_lf pre ++ seq := by
  intro pre
  induction pre with
  | nil => simp only [List.nil_append, since_last_lf_self seq h, since_last_lf]
  | cons c pre ih =>
    have hmem : (10 ∈ pre ++ seq) ↔ 10 ∈ pre := by
      simp only [List.mem_append]
      exact ⟨fun hc => hc.resolve_right h, Or.inl⟩
    rw [List.cons_append, since_last_lf_cons, since_last_lf_cons]
    by_cases hin : 10 ∈ pre
    · rw [if_pos (hmem.mpr hin), if_pos hin, ih]
    · rw [if_neg (fun hc => hin (hmem.mp hc)), if_neg hin]
      by_cases h10 : c = 10
      · rw [if_pos h10, if_pos h10]
      · rw [if_neg h10, if_neg h10, List.cons_append]

/-- The `char`s of one code point other than LF: no LF among them, and one of
them, the first, begins a code point. -/
theorem code_point_chars (bytes : List Nat) (h : code_point_bytes bytes) :
    10 ∉ bytes.map (fun (b : Nat) => to_char (b : Int)) ∧
      (bytes.map (fun (b : Nat) => to_char (b : Int))).countP begins_code_point = 1 := by
  rcases h with ⟨b, hb, h128, h10⟩ | hseq
  · subst hb
    have hc : to_char (b : Int) = b := to_char_ascii b h128
    simp only [List.map_cons, List.map_nil, List.mem_singleton, hc]
    refine ⟨by omega, ?_⟩
    have hbeg : begins_code_point (b : Int) = true := by
      unfold begins_code_point
      rw [to_uchar_ascii b h128]
      simp only [Bool.or_eq_true, decide_eq_true_eq]
      exact Or.inl h128
    simp [List.countP_cons, hbeg]
  · obtain ⟨b0, bs, hcons, hl, hh, _, _, hbs⟩ := utf8_sequence_cases _ hseq
    subst hcons
    have hb0 : begins_code_point (to_char (b0 : Int)) = true := by
      unfold begins_code_point
      rw [to_uchar_to_char b0 (by omega)]
      simp only [Bool.or_eq_true, Bool.and_eq_true, decide_eq_true_eq]
      exact Or.inr ⟨hl, hh⟩
    have hconts : ∀ c ∈ bs.map (fun (b : Nat) => to_char (b : Int)),
        begins_code_point c = false ∧ c ≠ 10 := by
      intro c hc
      obtain ⟨b, hb, rfl⟩ := List.mem_map.mp hc
      have := hbs b hb
      refine ⟨?_, to_char_ne_ten b (by omega) (by omega)⟩
      unfold begins_code_point
      rw [to_uchar_to_char b (by omega)]
      simp only [Bool.or_eq_false_iff, Bool.and_eq_false_iff, decide_eq_false_iff_not]
      omega
    refine ⟨?_, ?_⟩
    · simp only [List.map_cons, List.mem_cons, not_or]
      exact ⟨Ne.symm (to_char_ne_ten b0 (by omega) (by omega)), fun hc => (hconts _ hc).2 rfl⟩
    · simp only [List.map_cons, List.countP_cons, hb0, ite_true]
      have : (bs.map (fun (b : Nat) => to_char (b : Int))).countP begins_code_point = 0 := by
        rw [List.countP_eq_zero]
        intro c hc
        simp [(hconts c hc).1]
      omega

/-- C27: after `k` calls of `stream_get` on a fresh stream that all handed out
data (no value of a terminal state) and no `stream_unget`, the position is
`k`, the line is 1 plus the number of LF among the values, and the column is
the number of values after the last LF (or of all, if there is none) that
begin a UTF-8 code point; in particular, when the values end with all the
bytes of one code point other than LF, the column is one more and the position
is the number of its bytes more than before them. -/
theorem stream_gets_position_line_column (g : get_func) (d : List Nat) (k : Nat)
    (e : json_error_t)
    (hdata : ∀ c ∈ (stream_gets k (lex_init g d) e).1,
      c ≠ STREAM_STATE_EOF ∧ c ≠ STREAM_STATE_ERROR) :
    (stream_gets k (lex_init g d) e).2.1.stream.position = k ∧
    (stream_gets k (lex_init g d) e).2.1.stream.line =
      1 + (((stream_gets k (lex_init g d) e).1.count 10 : Nat) : Int) ∧
    (stream_gets k (lex_init g d) e).2.1.stream.column =
      (((since_last_lf (stream_gets k (lex_init g d) e).1).countP begins_code_point : Nat) : Int) ∧
    ∀ (pre : List Int) (bytes : List Nat),
      (stream_gets k (lex_init g d) e).1 = pre ++ bytes.map (fun (b : Nat) => to_char (b : Int)) →
      code_point_bytes bytes →
      (stream_gets k (lex_init g d) e).2.1.stream.column =
          (((since_last_lf pre).countP begins_code_point : Nat) : Int) + 1 ∧
        (stream_gets k (lex_init g d) e).2.1.stream.position = pre.length + bytes.length := by
  obtain ⟨hcur, hlen⟩ := stream_gets_advance e k (lex_init g d) rfl hdata
  obtain ⟨h1, h2, h3⟩ := foldl_advance (stream_gets k (lex_init g d) e).1 (lex_init g d).stream.cursor
  have hp : (stream_gets k (lex_init g d) e).2.1.stream.position = k := by
    show (stream_gets k (lex_init g d) e).2.1.stream.cursor.position = k
    rw [hcur, h1, hlen]
    show 0 + k = k
    omega
  have hl : (stream_gets k (lex_init g d) e).2.1.stream.line =
      1 + (((stream_gets k (lex_init g d) e).1.count 10 : Nat) : Int) := by
    show (stream_gets k (lex_init g d) e).2.1.stream.cursor.line = _
    rw [hcur, h2]
    rfl
  have hc : (stream_gets k (lex_init g d) e).2.1.stream.column =
      (((since_last_lf (stream_gets k (lex_init g d) e).1).countP begins_code_point : Nat) :
        Int) := by
    show (stream_gets k (lex_init g d) e).2.1.stream.cursor.column = _
    rw [hcur, h3]
    by_cases hin : 10 ∈ (stream_gets k (lex_init g d) e).1
    · rw [if_pos hin]
    · rw [if_neg hin, since_last_lf_self _ hin]
      show (0 : Int) + _ = _
      omega
  refine ⟨hp, hl, hc, ?_⟩
  intro pre bytes hsplit hcp
  obtain ⟨hno, hone⟩ := code_point_chars bytes hcp
  constructor
  · rw [hc, hsplit, since_last_lf_append _ hno, List.countP_append, hone]
    push_cast
    rfl
  · rw [hp, ← hlen, hsplit]
    simp

theorem stream_gets_position_line_column_witness :
    (stream_gets 4 (lex_init get_func.buffer_get [97, 10, 195, 169]) jsonp_error_init
      ).2.1.stream.position = 4 ∧
    (stream_gets 4 (lex_init get_func.buffer_get [97, 10, 195, 169]) jsonp_error_init
      ).2.1.stream.line =
      1 + (((stream_gets 4 (lex_init get_func.buffer_get [97, 10, 195, 169])
        jsonp_error_init).1.count 10 : Nat) : Int) ∧
    (stream_gets 4 (lex_init get_func.buffer_get [97, 10, 195, 169]) jsonp_error_init
      ).2.1.stream.column =
      (((since_last_lf (stream_gets 4 (lex_init get_func.buffer_get [97, 10, 195, 169])
        jsonp_error_init).1).countP begins_code_point : Nat) : Int) ∧
    ∀ (pre : List Int) (bytes : List Nat),
      (stream_gets 4 (lex_init get_func.buffer_get [97, 10, 195, 169]) jsonp_error_init).1 =
        pre ++ bytes.map (fun (b : Nat) => to_char (b : Int)) →
      code_point_bytes bytes →
      (stream_gets 4 (lex_init get_func.buffer_get [97, 10, 195, 169]) jsonp_error_init
        ).2.1.stream.column =
          (((since_last_lf pre).countP begins_code_point : Nat) : Int) + 1 ∧
        (stream_gets 4 (lex_init get_func.buffer_get [97, 10, 195, 169]) jsonp_error_init
          ).2.1.stream.position = pre.length + bytes.length :=
  stream_gets_position_line_column get_func.buffer_get [97, 10, 195, 169] 4 jsonp_error_init
    (by decide!)

theorem left_le_left_with (c : Int) (s : stream_t) : s.left ≤ left_with c s := by
  unfold left_with; omega

theorem left_with_le (c : Int) (s : stream_t) : left_with c s ≤ s.left + 1 := by
  unfold left_with; split_ifs <;> omega

theorem left_with_data (c : Int) (s : stream_t) (h1 : c ≠ STREAM_STATE_EOF)
    (h2 : c ≠ STREAM_STATE_ERROR) : left_with c s = s.left + 1 := by
  unfold left_with
  rw [if_neg (by intro h; rcases h with h | h; exact h1 h; exact h2 h)]

theorem buffer_pending_zero (buffer : List Int) (pos : Nat) (h : buffer.getD pos 0 = 0) :
    buffer_pending buffer pos = [] := by
  unfold buffer_pending
  rw [getD_eq_headD_drop] at h
  cases hd : buffer.drop pos with
  | nil => rfl
  | cons x xs =>
    rw [hd] at h
    simp only [List.headD_cons] at h
    simp [h]

theorem buffer_pending_cons (buffer : List Int) (pos : Nat) (h : buffer.getD pos 0 ≠ 0) :
    buffer_pending buffer pos = buffer.getD pos 0 :: buffer_pending buffer (pos + 1) := by
  unfold buffer_pending
  rw [getD_eq_headD_drop] at h ⊢
  rw [drop_succ_eq_tail_drop]
  cases hd : buffer.drop pos with
  | nil => rw [hd] at h; simp at h
  | cons x xs =>
    rw [hd] at h
    simp only [List.headD_cons] at h
    simp [h]

theorem buffer_pending_le (buffer : List Int) :
    ∀ (n pos : Nat), buffer.getD (pos + n) 0 = 0 → (buffer_pending buffer pos).length ≤ n := by
  intro n
  induction n with
  | zero =>
    intro pos h
    rw [buffer_pending_zero buffer pos (by simpa using h)]
    exact Nat.le_refl _
  | succ n ih =>
    intro pos h
    by_cases h0 : buffer.getD pos 0 = 0
    · rw [buffer_pending_zero buffer pos h0]
      exact Nat.zero_le _
    · rw [buffer_pending_cons buffer pos h0]
      have := ih (pos + 1) (by rw [← h]; congr 1; omega)
      simp only [List.length_cons]
      omega

theorem buffer_pending_pred (buffer : List Int) (pos : Nat) :
    (buffer_pending buffer (pos - 1)).length ≤ (buffer_pending buffer pos).length + 1 := by
  cases pos with
  | zero => simp
  | succ p =>
    simp only [Nat.add_sub_cancel]
    by_cases h0 : buffer.getD p 0 = 0
    · rw [buffer_pending_zero buffer p h0]
      simp
    · rw [buffer_pending_cons buffer p h0]
      simp

theorem get_call_length (g : get_func) (d : List Nat) :
    (g.call d).2.length ≤ d.length ∧ ((g.call d).1 ≠ EOF → (g.call d).2.length + 1 = d.length) := by
  cases g with
  | string_get =>
    cases d with
    | nil => exact ⟨Nat.le_refl _, fun h => absurd rfl h⟩
    | cons b r =>
      simp only [get_func.call, string_get]
      by_cases h : b % 256 = 0
      · rw [if_pos h]
        exact ⟨Nat.le_refl _, fun hc => absurd rfl hc⟩
      · rw [if_neg h]
        exact ⟨by simp, fun _ => by simp⟩
  | buffer_get =>
    cases d with
    | nil => exact ⟨Nat.le_refl _, fun h => absurd rfl h⟩
    | cons b r =>
      simp only [get_func.call, buffer_get]
      exact ⟨by simp, fun _ => by simp⟩

theorem getD_set_self (l : List Int) (i : Nat) (v : Int) (h : i < l.length) :
    (l.set i v).getD i 0 = v := by
  simp only [List.getD_eq_getElem?_getD]
  rw [List.getElem?_set_self h]
  rfl

/-- When the bytes that the loop of `stream_get` has put into the buffer are
continuation bytes, every one of them has been taken from the source. -/
theorem stream_get_rest_consumed :
    ∀ (n i : Nat) (g : get_func) (d : List Nat) (buffer : List Int), i + n ≤ buffer.length →
      (∀ j, i ≤ j → j < i + n → is_cont ((stream_get_rest n i g d buffer).1.getD j 0)) →
      (stream_get_rest n i g d buffer).2.length + n = d.length := by
  intro n
  induction n with
  | zero => intro i g d buffer _ _; rfl
  | succ n ih =>
    intro i g d buffer hlen hc
    simp only [stream_get_rest] at hc ⊢
    have hi := hc i (Nat.le_refl _) (by omega)
    rw [stream_get_rest_other n (i + 1) g _ _ i (Or.inl (by omega)),
      getD_set_self _ _ _ (by omega)] at hi
    have hne : (g.call d).1 ≠ EOF := by
      intro he
      rw [he] at hi
      revert hi
      unfold is_cont to_char
      decide
    have h1 := (get_call_length g d).2 hne
    have h2 := ih (i + 1) g (g.call d).2 (buffer.set i (to_char (g.call d).1))
      (by rw [List.length_set]; omega) (fun j hj1 hj2 => hc j (by omega) (by omega))
    omega

theorem getD_mem_drop_take (l : List Int) (a n j : Nat) (h1 : a ≤ j) (h2 : j < a + n)
    (hl : j < l.length) : l.getD j 0 ∈ (l.drop a).take n := by
  rw [List.mem_iff_getElem?]
  refine ⟨j - a, ?_⟩
  rw [List.getElem?_take_of_lt (by omega), List.getElem?_drop]
  have : a + (j - a) = j := by omega
  rw [this, List.getD_eq_getElem?_getD, List.getElem?_eq_getElem hl]
  rfl

theorem utf8_check_first_count (c : Int) (h : utf8_check_first c ≠ 0) :
    utf8_check_first c = 1 ∨ (2 ≤ utf8_check_first c ∧ utf8_check_first c ≤ 4) := by
  unfold utf8_check_first at h ⊢
  simp only at h ⊢
  split_ifs at h ⊢ <;> omega

theorem utf8_check_first_high (c : Int) (h1 : 0x80 ≤ c) (h2 : c ≤ 0xFF)
    (h : utf8_check_first c ≠ 0) : 2 ≤ utf8_check_first c ∧ utf8_check_first c ≤ 4 := by
  have hu : to_uchar c = c.toNat := by unfold to_uchar; omega
  unfold utf8_check_first at h ⊢
  simp only [hu] at h ⊢
  split_ifs at h ⊢ <;> omega

theorem stream_get_next_left (lex : lex_t) (e : json_error_t) :
    left_with (stream_get_next lex e).1 (stream_get_next lex e).2.1.stream ≤
      lex.stream.data.length +
        (buffer_pending lex.stream.buffer (lex.stream.buffer_pos + 1)).length + 1 := by
  refine le_trans (left_with_le _ _) ?_
  rw [stream_get_next_eq]
  unfold stream_t.left stream_pending
  simp only
  split_ifs <;> omega

theorem stream_get_buffer_length (lex : lex_t) (e : json_error_t)
    (h : lex.stream.buffer.length = 5) : (stream_get lex e).2.1.stream.buffer.length = 5 := by
  unfold stream_get stream_get_out
  simp only
  split_ifs
  · exact h
  · exact h
  · simp [h]
  · simp [stream_get_rest_length, h]
  · rw [stream_get_next_eq]; simp [stream_get_rest_length, h]
  · rw [stream_get_next_eq]; simp [h]
  · rw [stream_get_next_eq]; exact h

/-- One call of `stream_get`: the stream stays as the decoder keeps it, and
unless the value handed out is that of a terminal state the stream has one
byte less to hand out. -/
theorem stream_get_left (lex : lex_t) (e : json_error_t) (hg : lex.stream.good) :
    (stream_get lex e).2.1.stream.good ∧
      left_with (stream_get lex e).1 (stream_get lex e).2.1.stream ≤ lex.stream.left := by
  obtain ⟨hwf, hlen⟩ := hg
  refine ⟨⟨(stream_get_wf lex e hwf).1, stream_get_buffer_length lex e hlen⟩, ?_⟩
  have hterm : ∀ (c : Int) (s : stream_t), (c = STREAM_STATE_EOF ∨ c = STREAM_STATE_ERROR) →
      s.state ≠ STREAM_STATE_OK → left_with c s = 0 := by
    intro c s hc hs
    unfold left_with stream_t.left
    rw [if_pos hc, if_neg hs]
  unfold stream_get stream_get_out
  simp only
  split_ifs with h1 h2 h3 h4 h5 h6
  · -- a terminal state
    have hc : lex.stream.state = STREAM_STATE_EOF ∨ lex.stream.state = STREAM_STATE_ERROR := by
      rcases hwf.2 with h | h | h
      · exact absurd h h1
      · exact Or.inl h
      · exact Or.inr h
    rw [hterm _ _ hc h1]
    exact Nat.zero_le _
  · rw [hterm _ _ (Or.inl rfl) (by simp)]
    exact Nat.zero_le _
  · rw [hterm _ _ (Or.inr rfl) (by simp)]
    exact Nat.zero_le _
  · rw [hterm _ _ (Or.inr rfl) (by simp)]
    exact Nat.zero_le _
  · -- a multi-byte sequence
    have hOK : lex.stream.state = STREAM_STATE_OK := by simpa using h1
    obtain ⟨hc2, hc4⟩ := utf8_check_first_high _ h4.1 h4.2 h5
    have hcall := (get_call_length lex.stream.get lex.stream.data).2 h3
    refine le_trans (stream_get_next_left _ e) ?_
    simp only
    generalize hcnt : utf8_check_first (lex.stream.get.call lex.stream.data).1 = count
      at h5 h6 hc2 hc4 ⊢
    have hfull : utf8_check_full (stream_get_rest (count - 1) 1 lex.stream.get
        (lex.stream.get.call lex.stream.data).2
        (lex.stream.buffer.set 0 (to_char (lex.stream.get.call lex.stream.data).1))).1 count =
        true := by simpa using h6
    have hch : ∀ c ∈ (stream_get_rest (count - 1) 1 lex.stream.get
        (lex.stream.get.call lex.stream.data).2
        (lex.stream.buffer.set 0 (to_char (lex.stream.get.call lex.stream.data).1))).1,
        is_char c :=
      stream_get_rest_is_char _ _ _ _ _ (is_char_set _ _ _ hwf.1 (to_char_is_char _))
    have hconts := utf8_check_full_conts _ _ hfull hch
    have hl5 : (stream_get_rest (count - 1) 1 lex.stream.get
        (lex.stream.get.call lex.stream.data).2
        (lex.stream.buffer.set 0 (to_char (lex.stream.get.call lex.stream.data).1))).1.length
        = 5 := by
      rw [stream_get_rest_length, List.length_set, hlen]
    have hcons := stream_get_rest_consumed (count - 1) 1 lex.stream.get
      (lex.stream.get.call lex.stream.data).2
      (lex.stream.buffer.set 0 (to_char (lex.stream.get.call lex.stream.data).1))
      (by rw [List.length_set, hlen]; omega)
      (fun j hj1 hj2 => hconts _ (getD_mem_drop_take _ 1 (count - 1) j hj1 hj2 (by omega)))
    have hpend := buffer_pending_le
      ((stream_get_rest (count - 1) 1 lex.stream.get (lex.stream.get.call lex.stream.data).2
        (lex.stream.buffer.set 0 (to_char (lex.stream.get.call lex.stream.data).1))).1.set
        count 0) (count - 1) (0 + 1)
      (by
        have : 0 + 1 + (count - 1) = count := by omega
        rw [this, getD_set_self _ _ _ (by omega)])
    unfold stream_t.left
    rw [if_pos hOK]
    omega
  · -- an ASCII byte
    have hOK : lex.stream.state = STREAM_STATE_OK := by simpa using h1
    have hcall := (get_call_length lex.stream.get lex.stream.data).2 h3
    refine le_trans (stream_get_next_left _ e) ?_
    simp only
    have hpend := buffer_pending_zero
      ((lex.stream.buffer.set 0 (to_char (lex.stream.get.call lex.stream.data).1)).set 1 0)
      (0 + 1) (getD_set_self _ _ _ (by rw [List.length_set, hlen]; omega))
    rw [hpend]
    unfold stream_t.left
    rw [if_pos hOK]
    simp only [List.length_nil]
    omega
  · -- a byte pending in the buffer
    have hOK : lex.stream.state = STREAM_STATE_OK := by simpa using h1
    refine le_trans (stream_get_next_left _ e) ?_
    unfold stream_t.left stream_pending
    rw [if_pos hOK, buffer_pending_cons _ _ h2]
    simp only [List.length_cons]
    omega

theorem stream_unget_left (s : stream_t) (c : Int) (hg : s.good) :
    (stream_unget s c).good ∧ (stream_unget s c).left ≤ left_with c s := by
  unfold stream_unget
  by_cases hc : c = STREAM_STATE_EOF ∨ c = STREAM_STATE_ERROR
  · rw [if_pos hc]
    exact ⟨hg, left_le_left_with c s⟩
  · rw [if_neg hc]
    have hstate : ∀ (t : stream_t), t.state = s.state → t.buffer = s.buffer →
        t.data = s.data → t.buffer_pos = s.buffer_pos - 1 →
        t.good ∧ t.left ≤ left_with c s := by
      intro t h1 h2 h3 h4
      refine ⟨⟨⟨by rw [h2]; exact hg.1.1, by rw [h1]; exact hg.1.2⟩, by rw [h2]; exact hg.2⟩, ?_⟩
      unfold left_with stream_t.left stream_pending
      rw [if_neg hc, h1, h2, h3, h4]
      have := buffer_pending_pred s.buffer s.buffer_pos
      split_ifs <;> omega
    apply hstate
    · simp only; split_ifs <;> rfl
    · simp only; split_ifs <;> rfl
    · simp only; split_ifs <;> rfl
    · simp only; split_ifs <;> rfl

theorem lex_save_cached_loop_left :
    ∀ (n : Nat) (lex : lex_t), lex.stream.good →
      (lex_save_cached_loop n lex).stream.good ∧
        (lex_save_cached_loop n lex).stream.left ≤ lex.stream.left := by
  intro n
  induction n with
  | zero => intro lex h; exact ⟨h, Nat.le_refl _⟩
  | succ n ih =>
    intro lex h
    simp only [lex_save_cached_loop]
    split_ifs with hc
    · have hg : (⟨{ lex.stream with buffer_pos := lex.stream.buffer_pos + 1,
                                     position := lex.stream.position + 1 },
          (lex_save lex (lex.stream.buffer.getD lex.stream.buffer_pos 0)).saved_text,
          lex.token, lex.value⟩ : lex_t).stream.good := h
      obtain ⟨h1, h2⟩ := ih _ hg
      refine ⟨h1, le_trans h2 ?_⟩
      unfold stream_t.left stream_pending
      simp only [lex_save]
      rw [buffer_pending_cons _ _ hc]
      simp only [List.length_cons]
      split_ifs <;> omega
    · exact ⟨h, Nat.le_refl _⟩

theorem stream_left_le (s : stream_t) (h : s.good) : s.left ≤ s.data.length + 5 := by
  unfold stream_t.left stream_pending
  have := buffer_pending_length_le s.buffer s.buffer_pos
  have := h.2
  split_ifs <;> omega

theorem lex_get_save_stream (lex : lex_t) (e : json_error_t) :
    (lex_get_save lex e).2.1.stream = (stream_get lex e).2.1.stream ∧
      (lex_get_save lex e).1 = (stream_get lex e).1 := by
  unfold lex_get_save
  simp only
  split_ifs
  · exact ⟨rfl, rfl⟩
  · exact ⟨rfl, rfl⟩

theorem lex_get_save_left (lex : lex_t) (e : json_error_t) (hg : lex.stream.good) :
    (lex_get_save lex e).2.1.stream.good ∧
      left_with (lex_get_save lex e).1 (lex_get_save lex e).2.1.stream ≤ lex.stream.left := by
  obtain ⟨h1, h2⟩ := lex_get_save_stream lex e
  rw [h1, h2]
  exact stream_get_left lex e hg

theorem lex_get_left (lex : lex_t) (e : json_error_t) (hg : lex.stream.good) :
    (lex_get lex e).2.1.stream.good ∧
      left_with (lex_get lex e).1 (lex_get lex e).2.1.stream ≤ lex.stream.left :=
  stream_get_left lex e hg

theorem lex_unget_unsave_left (lex : lex_t) (c : Int) (hg : lex.stream.good) :
    (lex_unget_unsave lex c).stream.good ∧
      (lex_unget_unsave lex c).stream.left ≤ left_with c lex.stream := by
  unfold lex_unget_unsave
  split_ifs
  · exact stream_unget_left lex.stream c hg
  · exact ⟨hg, left_le_left_with c _⟩

theorem lex_unget_left (lex : lex_t) (c : Int) (hg : lex.stream.good) :
    (lex_unget lex c).stream.good ∧ (lex_unget lex c).stream.left ≤ left_with c lex.stream :=
  stream_unget_left lex.stream c hg

theorem digit_data (c : Int) (h : l_isdigit c = true) :
    c ≠ STREAM_STATE_EOF ∧ c ≠ STREAM_STATE_ERROR := by
  unfold l_isdigit at h
  simp only [Bool.and_eq_true, decide_eq_true_eq] at h
  simp only [STREAM_STATE_EOF, STREAM_STATE_ERROR]
  omega

theorem alpha_data (c : Int) (h : l_isalpha c = true) :
    c ≠ STREAM_STATE_EOF ∧ c ≠ STREAM_STATE_ERROR := by
  unfold l_isalpha l_isupper l_islower at h
  simp only [Bool.or_eq_true, Bool.and_eq_true, decide_eq_true_eq] at h
  simp only [STREAM_STATE_EOF, STREAM_STATE_ERROR]
  omega

theorem xdigit_data (c : Int) (h : l_isxdigit c = true) :
    c ≠ STREAM_STATE_EOF ∧ c ≠ STREAM_STATE_ERROR := by
  unfold l_isxdigit l_isdigit at h
  simp only [Bool.or_eq_true, Bool.and_eq_true, decide_eq_true_eq] at h
  simp only [STREAM_STATE_EOF, STREAM_STATE_ERROR]
  omega

/-- The digit loop ends within `fuel` iterations when the stream has fewer
than `fuel` values left to hand out, the lookahead counted. -/
theorem lex_scan_digits_total :
    ∀ (fuel : Nat) (lex : lex_t) (c : Int) (e : json_error_t), lex.stream.good →
      left_with c lex.stream < fuel →
      ∃ c1 lex1 e1, lex_scan_digits fuel lex c e = some (c1, lex1, e1) ∧ lex1.stream.good ∧
        left_with c1 lex1.stream ≤ left_with c lex.stream := by
  intro fuel
  induction fuel with
  | zero => intro lex c e _ h; omega
  | succ n ih =>
    intro lex c e hg hf
    simp only [lex_scan_digits]
    by_cases hd : l_isdigit c = true
    · rw [if_pos hd]
      obtain ⟨h1, h2⟩ := lex_get_save_left lex e hg
      have hc := left_with_data c lex.stream (digit_data c hd).1 (digit_data c hd).2
      obtain ⟨c1, lex1, e1, h3, h4, h5⟩ := ih _ (lex_get_save lex e).1 (lex_get_save lex e).2.2
        h1 (by omega)
      exact ⟨c1, lex1, e1, h3, h4, by omega⟩
    · rw [if_neg hd]
      exact ⟨c, lex, e, rfl, hg, Nat.le_refl _⟩

theorem lex_scan_alpha_total :
    ∀ (fuel : Nat) (lex : lex_t) (c : Int) (e : json_error_t), lex.stream.good →
      left_with c lex.stream < fuel →
      ∃ c1 lex1 e1, lex_scan_alpha fuel lex c e = some (c1, lex1, e1) ∧ lex1.stream.good ∧
        left_with c1 lex1.stream ≤ left_with c lex.stream := by
  intro fuel
  induction fuel with
  | zero => intro lex c e _ h; omega
  | succ n ih =>
    intro lex c e hg hf
    simp only [lex_scan_alpha]
    by_cases hd : l_isalpha c = true
    · rw [if_pos hd]
      obtain ⟨h1, h2⟩ := lex_get_save_left lex e hg
      have hc := left_with_data c lex.stream (alpha_data c hd).1 (alpha_data c hd).2
      obtain ⟨c1, lex1, e1, h3, h4, h5⟩ := ih _ (lex_get_save lex e).1 (lex_get_save lex e).2.2
        h1 (by omega)
      exact ⟨c1, lex1, e1, h3, h4, by omega⟩
    · rw [if_neg hd]
      exact ⟨c, lex, e, rfl, hg, Nat.le_refl _⟩

theorem lex_scan_space_total :
    ∀ (fuel : Nat) (lex : lex_t) (c : Int) (e : json_error_t), lex.stream.good →
      left_with c lex.stream < fuel →
      ∃ c1 lex1 e1, lex_scan_space fuel lex c e = some (c1, lex1, e1) ∧ lex1.stream.good ∧
        left_with c1 lex1.stream ≤ left_with c lex.stream ∧
        lex1.saved_text = lex.saved_text := by
  intro fuel
  induction fuel with
  | zero => intro lex c e _ h; omega
  | succ n ih =>
    intro lex c e hg hf
    simp only [lex_scan_space]
    by_cases hd : c = 32 ∨ c = 9 ∨ c = 10 ∨ c = 13
    · rw [if_pos hd]
      obtain ⟨h1, h2⟩ := lex_get_left lex e hg
      have hc := left_with_data c lex.stream
        (by simp only [STREAM_STATE_EOF]; omega) (by simp only [STREAM_STATE_ERROR]; omega)
      obtain ⟨c1, lex1, e1, h3, h4, h5, h6⟩ := ih _ (lex_get lex e).1 (lex_get lex e).2.2
        h1 (by omega)
      refine ⟨c1, lex1, e1, h3, h4, by omega, ?_⟩
      rw [h6]
      exact (stream_get_same lex e).saved
    · rw [if_neg hd]
      exact ⟨c, lex, e, rfl, hg, Nat.le_refl _, rfl⟩

theorem lex_scan_string_hex_left :
    ∀ (n : Nat) (lex : lex_t) (c : Int) (e : json_error_t), lex.stream.good →
      (lex_scan_string_hex n lex c e).2.1.stream.good ∧
        (lex_scan_string_hex n lex c e).2.1.stream.left ≤ left_with c lex.stream ∧
        ∀ c1, (lex_scan_string_hex n lex c e).1 = some c1 →
          left_with c1 (lex_scan_string_hex n lex c e).2.1.stream ≤ left_with c lex.stream := by
  intro n
  induction n with
  | zero =>
    intro lex c e hg
    refine ⟨hg, left_le_left_with c _, ?_⟩
    intro c1 hc1
    simp only [lex_scan_string_hex, Option.some.injEq] at hc1 ⊢
    rw [← hc1]
  | succ n ih =>
    intro lex c e hg
    simp only [lex_scan_string_hex]
    by_cases hx : l_isxdigit c = false
    · rw [if_pos hx]
      exact ⟨hg, left_le_left_with c _, fun c1 hc1 => by simp at hc1⟩
    · rw [if_neg hx]
      have hx1 : l_isxdigit c = true := by simpa using hx
      obtain ⟨h1, h2⟩ := lex_get_save_left lex e hg
      have hc := left_with_data c lex.stream (xdigit_data c hx1).1 (xdigit_data c hx1).2
      obtain ⟨h3, h4, h5⟩ := ih _ (lex_get_save lex e).1 (lex_get_save lex e).2.2 h1
      exact ⟨h3, by omega, fun c1 hc1 => by have := h5 c1 hc1; omega⟩

/-- One iteration of the first loop of `lex_scan_string`: when the loop goes
on, the stream has handed out at least one value more. -/
theorem lex_scan_string_body_left (lex : lex_t) (c : Int) (e : json_error_t)
    (hg : lex.stream.good) :
    (lex_scan_string_body lex c e).2.1.stream.good ∧
      (lex_scan_string_body lex c e).2.1.stream.left ≤ left_with c lex.stream ∧
      ∀ c1, (lex_scan_string_body lex c e).1 = some c1 →
        left_with c1 (lex_scan_string_body lex c e).2.1.stream + 1 ≤ left_with c lex.stream := by
  unfold lex_scan_string_body
  by_cases hR : c = STREAM_STATE_ERROR
  · rw [if_pos hR]
    exact ⟨hg, left_le_left_with c _, fun c1 hc1 => by simp at hc1⟩
  rw [if_neg hR]
  by_cases hE : c = STREAM_STATE_EOF
  · rw [if_pos hE]
    exact ⟨hg, left_le_left_with c _, fun c1 hc1 => by simp at hc1⟩
  rw [if_neg hE]
  have hc := left_with_data c lex.stream hE hR
  by_cases hctl : 0 ≤ c ∧ c ≤ 0x1F
  · rw [if_pos hctl]
    obtain ⟨h1, h2⟩ := lex_unget_unsave_left lex c hg
    simp only
    split_ifs
    · exact ⟨h1, h2, fun c1 hc1 => by simp at hc1⟩
    · exact ⟨h1, h2, fun c1 hc1 => by simp at hc1⟩
  rw [if_neg hctl]
  obtain ⟨h1, h2⟩ := lex_get_save_left lex e hg
  by_cases hb : c = 92
  · rw [if_pos hb]
    simp only
    by_cases hu : (lex_get_save lex e).1 = 117
    · rw [if_pos hu]
      obtain ⟨h3, h4⟩ := lex_get_save_left (lex_get_save lex e).2.1 (lex_get_save lex e).2.2 h1
      obtain ⟨h5, h6, h7⟩ := lex_scan_string_hex_left 4 _
        (lex_get_save (lex_get_save lex e).2.1 (lex_get_save lex e).2.2).1
        (lex_get_save (lex_get_save lex e).2.1 (lex_get_save lex e).2.2).2.2 h3
      have := left_le_left_with (lex_get_save lex e).1 (lex_get_save lex e).2.1.stream
      exact ⟨h5, by omega, fun c1 hc1 => by have := h7 c1 hc1; omega⟩
    · rw [if_neg hu]
      split_ifs
      · obtain ⟨h3, h4⟩ := lex_get_save_left (lex_get_save lex e).2.1 (lex_get_save lex e).2.2 h1
        have := left_le_left_with (lex_get_save lex e).1 (lex_get_save lex e).2.1.stream
        have := left_le_left_with
          (lex_get_save (lex_get_save lex e).2.1 (lex_get_save lex e).2.2).1
          (lex_get_save (lex_get_save lex e).2.1 (lex_get_save lex e).2.2).2.1.stream
        dsimp only
        refine ⟨h3, by omega, fun c1 hc1 => ?_⟩
        simp only [Option.some.injEq] at hc1
        rw [← hc1]
        omega
      · have := left_le_left_with (lex_get_save lex e).1 (lex_get_save lex e).2.1.stream
        dsimp only
        exact ⟨h1, by omega, fun c1 hc1 => by simp at hc1⟩
  · rw [if_neg hb]
    have := left_le_left_with (lex_get_save lex e).1 (lex_get_save lex e).2.1.stream
    dsimp only
    refine ⟨h1, by omega, fun c1 hc1 => ?_⟩
    simp only [Option.some.injEq] at hc1
    rw [← hc1]
    omega

theorem lex_scan_string_loop_total :
    ∀ (fuel : Nat) (lex : lex_t) (c : Int) (e : json_error_t), lex.stream.good →
      left_with c lex.stream < fuel →
      ∃ b lex1 e1, lex_scan_string_loop fuel lex c e = some (b, lex1, e1) ∧ lex1.stream.good ∧
        lex1.stream.left ≤ left_with c lex.stream := by
  intro fuel
  induction fuel with
  | zero => intro lex c e _ h; omega
  | succ n ih =>
    intro lex c e hg hf
    simp only [lex_scan_string_loop]
    by_cases hq : c = 34
    · rw [if_pos hq]
      exact ⟨true, lex, e, rfl, hg, left_le_left_with c _⟩
    · rw [if_neg hq]
      obtain ⟨h1, h2, h3⟩ := lex_scan_string_body_left lex c e hg
      generalize lex_scan_string_body lex c e = q at h1 h2 h3 ⊢
      obtain ⟨oc, lex2, e2⟩ := q
      cases oc with
      | none => exact ⟨false, lex2, e2, rfl, h1, h2⟩
      | some c1 =>
        have h4 := h3 c1 rfl
        simp only at h1 h4 ⊢
        obtain ⟨b, lex3, e3, h5, h6, h7⟩ := ih lex2 c1 e2 h1 (by omega)
        exact ⟨b, lex3, e3, h5, h6, by omega⟩

theorem decode_result_some (lex : lex_t) (t : List Nat) (e : json_error_t)
    (r : Except (List Nat) (List Nat)) : ∃ x, decode_result lex t e r = some x := by
  cases r with
  | ok u => exact ⟨_, rfl⟩
  | error msg => exact ⟨_, rfl⟩

/-- The function `lex_scan_string`, called with the opening quote saved,
returns: its first loop ends within its bound, and its second loop finds the
closing quote of the text that the first has checked. -/
theorem lex_scan_string_total (lex : lex_t) (e : json_error_t) (hg : lex.stream.good)
    (hsv : lex.saved_text = [34]) :
    ∃ lex1 e1, lex_scan_string lex e = some (lex1, e1) ∧ lex1.stream.good ∧
      lex1.stream.left ≤ lex.stream.left := by
  unfold lex_scan_string
  simp only
  generalize hL : ({ lex with value := lex_value.string none, token := TOKEN_INVALID } : lex_t)
    = L
  have hLs : L.saved_text = [34] := by rw [← hL]; exact hsv
  have hLg : L.stream.good := by rw [← hL]; exact hg
  have hLl : L.stream.left = lex.stream.left := by rw [← hL]
  have hLd : lex.stream.data.length = L.stream.data.length := by rw [← hL]
  rw [hLd]
  have hs0 := lex_get_save_saved L e
  obtain ⟨hwf0, hc0⟩ := lex_get_save_wf L e hLg.1
  obtain ⟨hg0, hl0⟩ := lex_get_save_left L e hLg
  have hle := stream_left_le L.stream hLg
  generalize lex_get_save L e = q at hs0 hwf0 hc0 hg0 hl0 ⊢
  obtain ⟨c, lexa, ea⟩ := q
  simp only at hs0 hwf0 hc0 hg0 hl0 ⊢
  rw [hLs] at hs0
  obtain ⟨b, lex2, e2, hloop, hg2, hl2⟩ := lex_scan_string_loop_total
    (L.stream.data.length + 6) lexa c ea hg0 (by omega)
  rw [hloop]
  cases b with
  | false =>
    exact ⟨lex_free_string lex2, e2, rfl, hg2, by
      show lex2.stream.left ≤ lex.stream.left
      omega⟩
  | true =>
    simp only
    obtain ⟨items, hok, hsv2⟩ := lex_scan_string_loop_sound _ lexa c ea [] lex2 e2 hwf0 hc0
      (fun i hi => by cases hi) (by simpa [string_text] using hs0) hloop
    have hdec := lex_scan_string_decode_items lex2 e2 [] items.length items (Nat.le_refl _) hok
      (lex2.saved_text.length + 1) []
      (by rw [hsv2]; simp only [List.length_cons, List.length_append,
            List.length_nil]; omega)
    have hdrop : lex2.saved_text.drop 1 = string_text items ++ [34] := by
      rw [hsv2]; rfl
    rw [hdrop, hdec]
    cases hu : unescape items with
    | ok u =>
      simp only [decode_result, List.nil_append]
      exact ⟨_, _, rfl, hg2, by
        show lex2.stream.left ≤ lex.stream.left
        omega⟩
    | error msg =>
      simp only [decode_result]
      exact ⟨lex_free_string lex2, _, rfl, hg2, by
        show lex2.stream.left ≤ lex.stream.left
        omega⟩

theorem lex_scan_number_real_stream (ctx : json_context_t) (lex : lex_t) (flags : load_flags)
    (sd : Int) (e : json_error_t) :
    (lex_scan_number_real ctx lex flags sd e).2.1.stream = lex.stream := by
  unfold lex_scan_number_real
  simp only
  split_ifs <;> rfl

theorem lex_scan_number_exponent_total (fuel : Nat) (lex : lex_t) (e : json_error_t)
    (hg : lex.stream.good) (hf : lex.stream.left < fuel) :
    ∃ oc lex1 e1, lex_scan_number_exponent fuel lex e = some (oc, lex1, e1) ∧ lex1.stream.good ∧
      lex1.stream.left ≤ lex.stream.left ∧
      ∀ c1, oc = some c1 → left_with c1 lex1.stream ≤ lex.stream.left := by
  unfold lex_scan_number_exponent
  simp only
  obtain ⟨h1, h2⟩ := lex_get_save_left lex e hg
  -- the optional sign
  have hsign : ∃ c2 lex2 e2, (if (lex_get_save lex e).1 = 43 ∨ (lex_get_save lex e).1 = 45 then
        lex_get_save (lex_get_save lex e).2.1 (lex_get_save lex e).2.2
      else lex_get_save lex e) = (c2, lex2, e2) ∧ lex2.stream.good ∧
      left_with c2 lex2.stream ≤ lex.stream.left := by
    split_ifs
    · obtain ⟨h3, h4⟩ := lex_get_save_left (lex_get_save lex e).2.1 (lex_get_save lex e).2.2 h1
      have := left_le_left_with (lex_get_save lex e).1 (lex_get_save lex e).2.1.stream
      exact ⟨(lex_get_save (lex_get_save lex e).2.1 (lex_get_save lex e).2.2).1,
        (lex_get_save (lex_get_save lex e).2.1 (lex_get_save lex e).2.2).2.1,
        (lex_get_save (lex_get_save lex e).2.1 (lex_get_save lex e).2.2).2.2, rfl, h3, by omega⟩
    · exact ⟨(lex_get_save lex e).1, (lex_get_save lex e).2.1, (lex_get_save lex e).2.2, rfl,
        h1, h2⟩
  obtain ⟨c2, lex2, e2, heq, hg2, hl2⟩ := hsign
  rw [heq]
  simp only
  by_cases hd : l_isdigit c2 = false
  · rw [if_pos hd]
    obtain ⟨h3, h4⟩ := lex_unget_unsave_left lex2 c2 hg2
    exact ⟨none, _, _, rfl, h3, by omega, fun c1 hc1 => by simp at hc1⟩
  · rw [if_neg hd]
    obtain ⟨h3, h4⟩ := lex_get_save_left lex2 e2 hg2
    have := left_le_left_with c2 lex2.stream
    obtain ⟨c3, lex3, e3, h5, h6, h7⟩ := lex_scan_digits_total fuel _ (lex_get_save lex2 e2).1
      (lex_get_save lex2 e2).2.2 h3 (by omega)
    rw [h5]
    have := left_le_left_with c3 lex3.stream
    exact ⟨some c3, lex3, e3, rfl, h6, by omega, fun c1 hc1 => by
      simp only [Option.some.injEq] at hc1
      rw [← hc1]
      omega⟩

theorem lex_scan_number_fraction_total (fuel : Nat) (lex : lex_t) (e : json_error_t)
    (hg : lex.stream.good) (hf : lex.stream.left < fuel) :
    ∃ oc lex1 e1, lex_scan_number_fraction fuel lex e = some (oc, lex1, e1) ∧ lex1.stream.good ∧
      lex1.stream.left ≤ lex.stream.left ∧
      ∀ c1, oc = some c1 → left_with c1 lex1.stream ≤ lex.stream.left := by
  unfold lex_scan_number_fraction
  simp only
  obtain ⟨h1, h2⟩ := lex_get_left lex e hg
  by_cases hd : l_isdigit (lex_get lex e).1 = false
  · rw [if_pos hd]
    obtain ⟨h3, h4⟩ := lex_unget_left (lex_get lex e).2.1 (lex_get lex e).1 h1
    exact ⟨none, _, _, rfl, h3, by omega, fun c1 hc1 => by simp at hc1⟩
  · rw [if_neg hd]
    have hg1 : (lex_save (lex_get lex e).2.1 (lex_get lex e).1).stream.good := h1
    obtain ⟨h3, h4⟩ := lex_get_save_left (lex_save (lex_get lex e).2.1 (lex_get lex e).1)
      (lex_get lex e).2.2 hg1
    have hl1 : (lex_save (lex_get lex e).2.1 (lex_get lex e).1).stream.left =
        (lex_get lex e).2.1.stream.left := rfl
    have := left_le_left_with (lex_get lex e).1 (lex_get lex e).2.1.stream
    obtain ⟨c3, lex3, e3, h5, h6, h7⟩ := lex_scan_digits_total fuel _
      (lex_get_save (lex_save (lex_get lex e).2.1 (lex_get lex e).1) (lex_get lex e).2.2).1
      (lex_get_save (lex_save (lex_get lex e).2.1 (lex_get lex e).1) (lex_get lex e).2.2).2.2
      h3 (by omega)
    rw [h5]
    have := left_le_left_with c3 lex3.stream
    exact ⟨some c3, lex3, e3, rfl, h6, by omega, fun c1 hc1 => by
      simp only [Option.some.injEq] at hc1
      rw [← hc1]
      omega⟩

theorem lex_scan_number_tail_total (ctx : json_context_t) (fuel : Nat) (lex : lex_t) (c : Int)
    (flags : load_flags) (e : json_error_t) (hg : lex.stream.good)
    (hf : left_with c lex.stream < fuel) :
    ∃ r, lex_scan_number_tail ctx fuel lex c flags e = some r ∧ r.2.1.stream.good ∧
      r.2.1.stream.left ≤ left_with c lex.stream := by
  have hll := left_le_left_with c lex.stream
  unfold lex_scan_number_tail
  by_cases hc : c ≠ 46 ∧ c ≠ 69 ∧ c ≠ 101
  · rw [if_pos hc]
    obtain ⟨h1, h2⟩ := lex_unget_unsave_left lex c hg
    exact ⟨_, rfl, by rw [lex_scan_number_integer_stream]; exact h1,
      by rw [lex_scan_number_integer_stream]; exact h2⟩
  · rw [if_neg hc]
    simp only
    -- the fraction
    have hfrac : ∃ oc lexF eF, (if c = 46 then lex_scan_number_fraction fuel lex e
          else some (some c, lex, e)) = some (oc, lexF, eF) ∧ lexF.stream.good ∧
        lexF.stream.left ≤ left_with c lex.stream ∧
        ∀ c1, oc = some c1 → left_with c1 lexF.stream ≤ left_with c lex.stream := by
      by_cases h46 : c = 46
      · rw [if_pos h46]
        obtain ⟨oc, lexF, eF, h1, h2, h3, h4⟩ := lex_scan_number_fraction_total fuel lex e hg
          (by omega)
        exact ⟨oc, lexF, eF, h1, h2, by omega, fun c1 hc1 => by have := h4 c1 hc1; omega⟩
      · rw [if_neg h46]
        exact ⟨some c, lex, e, rfl, hg, hll, fun c1 hc1 => by
          simp only [Option.some.injEq] at hc1
          rw [← hc1]⟩
    obtain ⟨oc, lexF, eF, heq, hgF, hlF, hcF⟩ := hfrac
    rw [heq]
    cases oc with
    | none => exact ⟨_, rfl, hgF, hlF⟩
    | some cF =>
      have hcF1 := hcF cF rfl
      simp only
      by_cases hexp : cF = 69 ∨ cF = 101
      · rw [if_pos hexp]
        have := left_le_left_with cF lexF.stream
        obtain ⟨oc2, lexE, eE, h1, h2, h3, h4⟩ := lex_scan_number_exponent_total fuel lexF eF hgF
          (by omega)
        rw [h1]
        cases oc2 with
        | none => exact ⟨_, rfl, h2, by dsimp only; omega⟩
        | some cE =>
          have h5 := h4 cE rfl
          obtain ⟨h6, h7⟩ := lex_unget_unsave_left lexE cE h2
          exact ⟨_, rfl, by rw [lex_scan_number_real_stream]; exact h6,
            by rw [lex_scan_number_real_stream]; omega⟩
      · rw [if_neg hexp]
        obtain ⟨h6, h7⟩ := lex_unget_unsave_left lexF cF hgF
        exact ⟨_, rfl, by rw [lex_scan_number_real_stream]; exact h6,
          by rw [lex_scan_number_real_stream]; omega⟩

/-- The function `lex_scan_number`, called with the digit or the `-` that
begins the token, returns, and does not push that first byte back. -/
theorem lex_scan_number_total (ctx : json_context_t) (lex : lex_t) (c : Int)
    (flags : load_flags) (e : json_error_t) (hg : lex.stream.good)
    (hc : l_isdigit c = true ∨ c = 45) :
    ∃ r, lex_scan_number ctx lex c flags e = some r ∧ r.2.1.stream.good ∧
      r.2.1.stream.left ≤ lex.stream.left := by
  have hle := stream_left_le lex.stream hg
  unfold lex_scan_number
  simp only
  generalize hL : ({ lex with token := TOKEN_INVALID } : lex_t) = L
  have hLg : L.stream.good := by rw [← hL]; exact hg
  have hLl : L.stream.left = lex.stream.left := by rw [← hL]
  -- the optional sign: a digit is held afterwards, or one more value has been read
  have hsign : ∃ c1 lex1 e1, (if c = 45 then lex_get_save L e else (c, L, e)) = (c1, lex1, e1) ∧
      lex1.stream.good ∧ lex1.stream.left ≤ lex.stream.left ∧
      (l_isdigit c1 = true ∨ left_with c1 lex1.stream ≤ lex.stream.left) := by
    by_cases h45 : c = 45
    · rw [if_pos h45]
      obtain ⟨h1, h2⟩ := lex_get_save_left L e hLg
      have := left_le_left_with (lex_get_save L e).1 (lex_get_save L e).2.1.stream
      exact ⟨(lex_get_save L e).1, (lex_get_save L e).2.1, (lex_get_save L e).2.2, rfl, h1,
        by omega, Or.inr (by omega)⟩
    · rw [if_neg h45]
      exact ⟨c, L, e, rfl, hLg, by omega, Or.inl (hc.resolve_right h45)⟩
  obtain ⟨c1, lex1, e1, heq, hg1, hl1, hd1⟩ := hsign
  rw [heq]
  simp only
  by_cases h48 : c1 = 48
  · rw [if_pos h48]
    obtain ⟨h1, h2⟩ := lex_get_save_left lex1 e1 hg1
    by_cases hd : l_isdigit (lex_get_save lex1 e1).1 = true
    · rw [if_pos hd]
      obtain ⟨h3, h4⟩ := lex_unget_unsave_left (lex_get_save lex1 e1).2.1
        (lex_get_save lex1 e1).1 h1
      exact ⟨_, rfl, h3, by dsimp only; omega⟩
    · rw [if_neg hd]
      obtain ⟨r, h3, h4, h5⟩ := lex_scan_number_tail_total ctx (lex.stream.data.length + 6)
        (lex_get_save lex1 e1).2.1 (lex_get_save lex1 e1).1 flags (lex_get_save lex1 e1).2.2 h1
        (by omega)
      exact ⟨r, h3, h4, by omega⟩
  · rw [if_neg h48]
    by_cases hd : l_isdigit c1 = true
    · rw [if_pos hd]
      obtain ⟨h1, h2⟩ := lex_get_save_left lex1 e1 hg1
      obtain ⟨c2, lex2, e2, h3, h4, h5⟩ := lex_scan_digits_total (lex.stream.data.length + 6)
        (lex_get_save lex1 e1).2.1 (lex_get_save lex1 e1).1 (lex_get_save lex1 e1).2.2 h1
        (by omega)
      rw [h3]
      simp only
      obtain ⟨r, h6, h7, h8⟩ := lex_scan_number_tail_total ctx (lex.stream.data.length + 6)
        lex2 c2 flags e2 h4 (by omega)
      exact ⟨r, h6, h7, by omega⟩
    · rw [if_neg hd]
      obtain ⟨h3, h4⟩ := lex_unget_unsave_left lex1 c1 hg1
      have := hd1.resolve_left hd
      exact ⟨_, rfl, h3, by dsimp only; omega⟩

theorem lex_save_cached_left (lex : lex_t) (hg : lex.stream.good) :
    (lex_save_cached lex).stream.good ∧ (lex_save_cached lex).stream.left ≤ lex.stream.left :=
  lex_save_cached_loop_left 5 lex hg

theorem lex_scan_token_total (ctx : json_context_t) (fuel : Nat) (lex : lex_t) (c : Int)
    (flags : load_flags) (e : json_error_t) (hg : lex.stream.good)
    (hsv : lex.saved_text = [to_uchar c]) (hf : lex.stream.left < fuel) :
    ∃ lex1 e1, lex_scan_token ctx fuel lex c flags e = some (lex1, e1) ∧ lex1.stream.good ∧
      lex1.stream.left ≤ lex.stream.left := by
  unfold lex_scan_token
  by_cases hp : c = 123 ∨ c = 125 ∨ c = 91 ∨ c = 93 ∨ c = 58 ∨ c = 44
  · rw [if_pos hp]
    exact ⟨_, _, rfl, hg, Nat.le_refl _⟩
  rw [if_neg hp]
  by_cases hq : c = 34
  · rw [if_pos hq]
    exact lex_scan_string_total lex e hg (by rw [hsv, hq]; rfl)
  rw [if_neg hq]
  by_cases hn : l_isdigit c = true ∨ c = 45
  · rw [if_pos hn]
    obtain ⟨r, h1, h2, h3⟩ := lex_scan_number_total ctx lex c flags e hg hn
    rw [h1]
    exact ⟨_, _, rfl, h2, h3⟩
  rw [if_neg hn]
  by_cases ha : l_isalpha c = true
  · rw [if_pos ha]
    simp only
    obtain ⟨h1, h2⟩ := lex_get_save_left lex e hg
    obtain ⟨c2, lex2, e2, h3, h4, h5⟩ := lex_scan_alpha_total fuel (lex_get_save lex e).2.1
      (lex_get_save lex e).1 (lex_get_save lex e).2.2 h1 (by omega)
    rw [h3]
    simp only
    obtain ⟨h6, h7⟩ := lex_unget_unsave_left lex2 c2 h4
    split_ifs
    all_goals exact ⟨_, _, rfl, h6, by dsimp only; omega⟩
  · rw [if_neg ha]
    obtain ⟨h1, h2⟩ := lex_save_cached_left lex hg
    exact ⟨_, _, rfl, h1, h2⟩

theorem lex_clear_stream (lex : lex_t) : (lex_clear lex).stream = lex.stream := by
  unfold lex_clear lex_free_string
  simp only
  split_ifs <;> rfl

theorem lex_clear_saved (lex : lex_t) : (lex_clear lex).saved_text = [] := rfl

/-- The function `lex_scan` returns, on every lexer, and every token it gives
that is not the end of file and not the failure of the stream has taken at
least one byte from the stream. -/
theorem lex_scan_total (ctx : json_context_t) (lex : lex_t) (flags : load_flags)
    (e : json_error_t) (hg : lex.stream.good) :
    ∃ lex1 e1, lex_scan ctx lex flags e = some (lex1, e1) ∧ lex1.stream.good ∧
      lex1.stream.left ≤ lex.stream.left ∧
      (lex1.token = 91 ∨ lex1.token = 123 ∨ lex1.token = 44 ∨ lex1.token = 58 →
        lex1.stream.left + 1 ≤ lex.stream.left) := by
  unfold lex_scan
  simp only
  have hcs := lex_clear_stream lex
  have hcg : (lex_clear lex).stream.good := by rw [hcs]; exact hg
  have hle := stream_left_le lex.stream hg
  obtain ⟨h1, h2⟩ := lex_get_left (lex_clear lex) e hcg
  have hsv0 : (lex_get (lex_clear lex) e).2.1.saved_text = [] :=
    (stream_get_same (lex_clear lex) e).saved
  rw [hcs] at h2
  obtain ⟨c, lex2, e2, h3, h4, h5, h6⟩ := lex_scan_space_total
    ((lex_clear lex).stream.data.length + 6) (lex_get (lex_clear lex) e).2.1
    (lex_get (lex_clear lex) e).1 (lex_get (lex_clear lex) e).2.2 h1 (by rw [hcs]; omega)
  rw [h3]
  simp only
  by_cases hE : c = STREAM_STATE_EOF
  · rw [if_pos hE]
    have := left_le_left_with c lex2.stream
    refine ⟨_, _, rfl, h4, by dsimp only; omega, ?_⟩
    intro ht
    simp only [TOKEN_EOF] at ht
    omega
  rw [if_neg hE]
  by_cases hR : c = STREAM_STATE_ERROR
  · rw [if_pos hR]
    have := left_le_left_with c lex2.stream
    refine ⟨_, _, rfl, h4, by dsimp only; omega, ?_⟩
    intro ht
    simp only [TOKEN_INVALID] at ht
    omega
  rw [if_neg hR]
  have hc := left_with_data c lex2.stream hE hR
  obtain ⟨lex3, e3, h7, h8, h9⟩ := lex_scan_token_total ctx
    ((lex_clear lex).stream.data.length + 6) (lex_save lex2 c) c flags e2 h4
    (by simp only [lex_save, h6, hsv0, List.nil_append])
    (by rw [hcs]; show lex2.stream.left < _; omega)
  have h10 : lex3.stream.left ≤ lex2.stream.left := h9
  exact ⟨lex3, e3, h7, h8, by omega, fun _ => by omega⟩

/-- On a token that opens no container `parse_value` returns at once and leaves
the stream alone. -/
theorem parse_value_scalar_total (ctx : json_context_t) (flags : load_flags) (n : Nat)
    (lex : lex_t) (e : json_error_t) (h123 : lex.token ≠ 123) (h91 : lex.token ≠ 91) :
    ∃ r lex1 e1, parse_value ctx flags (n + 1) lex e = some (r, lex1, e1) ∧
      lex1.stream = lex.stream := by
  unfold parse_value
  by_cases h1 : lex.token = TOKEN_STRING
  · rw [if_pos h1]
    split
    · split_ifs
      · exact ⟨_, _, _, rfl, rfl⟩
      · exact ⟨_, _, _, rfl, rfl⟩
    · exact ⟨_, _, _, rfl, rfl⟩
  rw [if_neg h1]
  by_cases h2 : lex.token = TOKEN_INTEGER
  · rw [if_pos h2]
    by_cases hr : flags.JSON_DECODE_INT_AS_REAL = true
    · rw [if_pos hr]
      simp only
      split_ifs
      · exact ⟨_, _, _, rfl, rfl⟩
      · exact ⟨_, _, _, rfl, rfl⟩
    · rw [if_neg hr]
      split
      · exact ⟨_, _, _, rfl, rfl⟩
      · exact ⟨_, _, _, rfl, rfl⟩
  rw [if_neg h2]
  by_cases h3 : lex.token = TOKEN_BIGINTEGER
  · rw [if_pos h3]
    split
    · exact ⟨_, _, _, rfl, rfl⟩
    · exact ⟨_, _, _, rfl, rfl⟩
  rw [if_neg h3]
  by_cases h4 : lex.token = TOKEN_BIGREAL
  · rw [if_pos h4]
    split
    · exact ⟨_, _, _, rfl, rfl⟩
    · exact ⟨_, _, _, rfl, rfl⟩
  rw [if_neg h4]
  by_cases h5 : lex.token = TOKEN_REAL
  · rw [if_pos h5]
    split
    · exact ⟨_, _, _, rfl, rfl⟩
    · exact ⟨_, _, _, rfl, rfl⟩
  rw [if_neg h5]
  by_cases h6 : lex.token = TOKEN_TRUE
  · rw [if_pos h6]
    exact ⟨_, _, _, rfl, rfl⟩
  rw [if_neg h6]
  by_cases h7 : lex.token = TOKEN_FALSE
  · rw [if_pos h7]
    exact ⟨_, _, _, rfl, rfl⟩
  rw [if_neg h7]
  by_cases h8 : lex.token = TOKEN_NULL
  · rw [if_pos h8]
    exact ⟨_, _, _, rfl, rfl⟩
  rw [if_neg h8, if_neg h123, if_neg h91]
  split_ifs
  · exact ⟨_, _, _, rfl, rfl⟩
  · exact ⟨_, _, _, rfl, rfl⟩

theorem parser_total_zero (ctx : json_context_t) (flags : load_flags) :
    parser_total ctx flags 0 := by
  refine ⟨?_, ?_, ?_, ?_, ?_⟩
  · intro lex e _ h; omega
  · intro lex e _ h; omega
  · intro array lex e _ h; omega
  · intro lex e _ h; omega
  · intro object lex e _ h; omega

theorem parser_total_succ (ctx : json_context_t) (flags : load_flags) (n : Nat)
    (ih : parser_total ctx flags n) : parser_total ctx flags (n + 1) := by
  obtain ⟨ihV, ihA, ihAL, ihO, ihOL⟩ := ih
  refine ⟨?_, ?_, ?_, ?_, ?_⟩
  · -- parse_value
    intro lex e hg _ hc
    by_cases h91 : lex.token = 91
    · rw [parse_value_token_array ctx flags n lex e h91]
      exact ihA lex e hg (by have := hc (Or.inl h91); omega)
    · by_cases h123 : lex.token = 123
      · rw [parse_value_token_object ctx flags n lex e h123]
        exact ihO lex e hg (by have := hc (Or.inr h123); omega)
      · obtain ⟨r, lex1, e1, h1, h2⟩ := parse_value_scalar_total ctx flags n lex e h123 h91
        exact ⟨r, lex1, e1, h1, by rw [h2]; exact hg, by rw [h2]⟩
  · -- parse_array
    intro lex e hg hn
    obtain ⟨lex1, e1, hs, hg1, hl1, hp1⟩ := lex_scan_total ctx lex flags e hg
    rw [parse_array_step ctx flags n lex lex1 e e1 hs]
    by_cases h93 : lex1.token = 93
    · rw [if_pos h93]
      exact ⟨_, _, _, rfl, hg1, hl1⟩
    · rw [if_neg h93]
      obtain ⟨r, lex2, e2, h1, h2, h3⟩ := ihAL [] lex1 e1 hg1 (by omega)
        (fun hc => by
          have := hp1 (by rcases hc with hc | hc; exact Or.inl hc; exact Or.inr (Or.inl hc))
          omega)
      exact ⟨r, lex2, e2, h1, h2, by omega⟩
  · -- parse_array_loop
    intro array lex e hg hn hc
    unfold parse_array_loop
    by_cases h0 : lex.token = 0
    · rw [if_pos h0]
      exact ⟨_, _, _, rfl, hg, Nat.le_refl _⟩
    · rw [if_neg h0]
      obtain ⟨r, lex2, e2, hv, hg2, hl2⟩ := ihV lex e hg (by omega)
        (fun hc1 => by have := hc hc1; omega)
      rw [hv]
      cases r with
      | none => exact ⟨_, _, _, rfl, hg2, hl2⟩
      | some elem =>
        simp only
        obtain ⟨lex3, e3, hs3, hg3, hl3, hp3⟩ := lex_scan_total ctx lex2 flags e2 hg2
        rw [hs3]
        simp only
        by_cases h44 : lex3.token = 44
        · rw [if_neg (by simpa using h44)]
          obtain ⟨lex4, e4, hs4, hg4, hl4, hp4⟩ := lex_scan_total ctx lex3 flags e3 hg3
          rw [hs4]
          simp only
          have hl3' := hp3 (Or.inr (Or.inr (Or.inl h44)))
          obtain ⟨r5, lex5, e5, h5, hg5, hl5⟩ := ihAL (array ++ [elem]) lex4 e4 hg4 (by omega)
            (fun hc4 => by
              have := hp4 (by
                rcases hc4 with hc4 | hc4
                · exact Or.inl hc4
                · exact Or.inr (Or.inl hc4))
              omega)
          exact ⟨r5, lex5, e5, h5, hg5, by omega⟩
        · rw [if_pos h44]
          split_ifs
          · exact ⟨_, _, _, rfl, hg3, by omega⟩
          · exact ⟨_, _, _, rfl, hg3, by omega⟩
  · -- parse_object
    intro lex e hg hn
    obtain ⟨lex1, e1, hs, hg1, hl1, hp1⟩ := lex_scan_total ctx lex flags e hg
    rw [parse_object_step ctx flags n lex lex1 e e1 hs]
    by_cases h125 : lex1.token = 125
    · rw [if_pos h125]
      exact ⟨_, _, _, rfl, hg1, hl1⟩
    · rw [if_neg h125]
      obtain ⟨r, lex2, e2, h1, h2, h3⟩ := ihOL [] lex1 e1 hg1 (by omega)
      exact ⟨r, lex2, e2, h1, h2, by omega⟩
  · -- parse_object_loop
    intro object lex e hg hn
    unfold parse_object_loop
    by_cases hts : lex.token ≠ TOKEN_STRING
    · rw [if_pos hts]
      exact ⟨_, _, _, rfl, hg, Nat.le_refl _⟩
    · rw [if_neg hts]
      split
      · rename_i key hval
        simp only
        split_ifs with hnul hdup
        · exact ⟨_, _, _, rfl, hg, Nat.le_refl _⟩
        · exact ⟨_, _, _, rfl, hg, Nat.le_refl _⟩
        · have hgk : ({ lex with value := lex_value.string none } : lex_t).stream.good := hg
          obtain ⟨lexc, ec, hsc, hgc, hlc, hpc⟩ := lex_scan_total ctx
            { lex with value := lex_value.string none } flags e hgk
          have hlc' : lexc.stream.left ≤ lex.stream.left := hlc
          rw [hsc]
          simp only
          by_cases h58 : lexc.token = 58
          · rw [if_neg (by simpa using h58)]
            have hlc2 : lexc.stream.left + 1 ≤ lex.stream.left :=
              hpc (Or.inr (Or.inr (Or.inr h58)))
            obtain ⟨lexv, ev, hsv, hgv, hlv, hpv⟩ := lex_scan_total ctx lexc flags ec hgc
            rw [hsv]
            simp only
            obtain ⟨r, lex2, e2, hv, hg2, hl2⟩ := ihV lexv ev hgv (by omega)
              (fun hc1 => by
                have := hpv (by
                  rcases hc1 with hc1 | hc1
                  · exact Or.inl hc1
                  · exact Or.inr (Or.inl hc1))
                omega)
            rw [hv]
            cases r with
            | none => exact ⟨_, _, _, rfl, hg2, by omega⟩
            | some value =>
              simp only
              obtain ⟨lex3, e3, hs3, hg3, hl3, hp3⟩ := lex_scan_total ctx lex2 flags e2 hg2
              rw [hs3]
              simp only
              by_cases h44 : lex3.token = 44
              · rw [if_neg (by simpa using h44)]
                obtain ⟨lex4, e4, hs4, hg4, hl4, hp4⟩ := lex_scan_total ctx lex3 flags e3 hg3
                rw [hs4]
                simp only
                have hl3' := hp3 (Or.inr (Or.inr (Or.inl h44)))
                obtain ⟨r5, lex5, e5, h5, hg5, hl5⟩ := ihOL
                  (json_object_set_nocheck object key value) lex4 e4 hg4 (by omega)
                exact ⟨r5, lex5, e5, h5, hg5, by omega⟩
              · rw [if_pos h44]
                split_ifs
                · exact ⟨_, _, _, rfl, hg3, by omega⟩
                · exact ⟨_, _, _, rfl, hg3, by omega⟩
          · rw [if_pos h58]
            exact ⟨_, _, _, rfl, hgc, hlc'⟩
      · exact ⟨_, _, _, rfl, hg, Nat.le_refl _⟩

theorem parser_total_all (ctx : json_context_t) (flags : load_flags) :
    ∀ n, parser_total ctx flags n := by
  intro n
  induction n with
  | zero => exact parser_total_zero ctx flags
  | succ n ih => exact parser_total_succ ctx flags n ih

theorem stream_init_good (g : get_func) (d : List Nat) : (lex_init g d).stream.good :=
  ⟨stream_init_wf g d, rfl⟩

theorem stream_init_left (g : get_func) (d : List Nat) :
    (lex_init g d).stream.left = d.length := by
  unfold stream_t.left
  have h : (lex_init g d).stream.state = STREAM_STATE_OK := rfl
  rw [if_pos h]
  rfl

/-- The function `parse_json` returns on every lexer whose stream has at most
the bytes of its source to hand out, as a stream has that has not been read
yet. -/
theorem parse_json_total (ctx : json_context_t) (lex : lex_t) (flags : load_flags)
    (e : json_error_t) (hg : lex.stream.good) (hl : lex.stream.left ≤ lex.stream.data.length) :
    ∃ r, parse_json ctx lex flags e = some r := by
  unfold parse_json
  simp only
  generalize (if (if flags.JSON_USE_BIGINT_ALWAYS = true then
      { flags with JSON_USE_BIGINT := true } else flags).JSON_USE_BIGREAL_ALWAYS = true then
      { (if flags.JSON_USE_BIGINT_ALWAYS = true then
          { flags with JSON_USE_BIGINT := true } else flags) with JSON_USE_BIGREAL := true }
    else (if flags.JSON_USE_BIGINT_ALWAYS = true then
      { flags with JSON_USE_BIGINT := true } else flags)) = F
  by_cases h1 : F.JSON_USE_BIGINT = true ∧ ctx.have_bigint = false
  · rw [if_pos h1]
    exact ⟨_, rfl⟩
  rw [if_neg h1]
  by_cases h2 : F.JSON_USE_BIGREAL = true ∧ ctx.have_bigreal = false
  · rw [if_pos h2]
    exact ⟨_, rfl⟩
  rw [if_neg h2]
  obtain ⟨lex1, e1, hs, hg1, hl1, hp1⟩ := lex_scan_total ctx lex F e hg
  rw [hs]
  simp only
  by_cases h3 : F.JSON_DECODE_ANY = false ∧ lex1.token ≠ 91 ∧ lex1.token ≠ 123
  · rw [if_pos h3]
    exact ⟨_, rfl⟩
  rw [if_neg h3]
  obtain ⟨r, lex2, e2, hv, hg2, hl2⟩ := (parser_total_all ctx F
    (3 * lex.stream.data.length + 4)).1 lex1 e1 hg1 (by omega)
    (fun hc => by
      have := hp1 (by
        rcases hc with hc | hc
        · exact Or.inl hc
        · exact Or.inr (Or.inl hc))
      omega)
  rw [hv]
  cases r with
  | none => exact ⟨_, rfl⟩
  | some result =>
    simp only
    by_cases h4 : F.JSON_DISABLE_EOF_CHECK = false
    · rw [if_pos h4]
      obtain ⟨lex3, e3, hs3, _, _, _⟩ := lex_scan_total ctx lex2 F e2 hg2
      rw [hs3]
      simp only
      split_ifs
      · exact ⟨_, rfl⟩
      · exact ⟨_, rfl⟩
    · rw [if_neg h4]
      exact ⟨_, rfl⟩

/-- C29: for every context, every input and every flag set, `json_loads` and
`json_loadb` return a result: no loop of the lexer (whitespace, digits,
letters, string body, the decode pass) runs longer than the bound it is given,
the number of bytes of the source not yet read plus six, since every iteration
takes a value from the stream or ends at a terminal state, and `parse_value`
with its loops over array elements and object members stays within three times
the length of the input plus four levels, since every level and every
iteration has taken one token more from the stream. -/
theorem json_load_terminates (ctx : json_context_t) (flags : load_flags) (input : List Nat) :
    (json_loads ctx input flags).isSome = true ∧ (json_loadb ctx input flags).isSome = true := by
  constructor
  · unfold json_loads
    obtain ⟨r, hr⟩ := parse_json_total ctx (lex_init get_func.string_get input) flags
      jsonp_error_init (stream_init_good _ _) (by rw [stream_init_left]; exact Nat.le_refl _)
    rw [hr]
    rfl
  · unfold json_loadb
    obtain ⟨r, hr⟩ := parse_json_total ctx (lex_init get_func.buffer_get input) flags
      jsonp_error_init (stream_init_good _ _) (by rw [stream_init_left]; exact Nat.le_refl _)
    rw [hr]
    rfl

theorem get_call_byte (g : get_func) (b : Nat) (r : List Nat) (h0 : 0 < b) (h1 : b < 256) :
    g.call (b :: r) = ((b : Int), r) := by
  have hm : b % 256 = b := Nat.mod_eq_of_lt h1
  cases g with
  | string_get =>
    simp only [get_func.call, string_get, hm]
    rw [if_neg (by omega)]
  | buffer_get =>
    simp only [get_func.call, buffer_get, hm]

theorem get_call_empty (g : get_func) : g.call [] = (EOF, []) := by
  cases g <;> rfl

theorem is_cont_ne_zero (c : Int) (h : is_cont c) : c ≠ 0 := by
  unfold is_cont at h; omega

/-- The loop of `stream_get` on a source without NUL: when the bytes it has put
into the buffer are continuation bytes, they are the next bytes of the source,
in order. -/
theorem stream_get_rest_take :
    ∀ (n i : Nat) (g : get_func) (d : List Nat) (buffer : List Int), i + n ≤ buffer.length →
      (∀ b ∈ d, 0 < b ∧ b < 256) →
      (∀ j, i ≤ j → j < i + n → is_cont ((stream_get_rest n i g d buffer).1.getD j 0)) →
      n ≤ d.length ∧ (stream_get_rest n i g d buffer).2 = d.drop n ∧
        ∀ j, j < n → (stream_get_rest n i g d buffer).1.getD (i + j) 0 =
          to_char ((d.getD j 0 : Nat) : Int) := by
  intro n
  induction n with
  | zero => intro i g d buffer _ _ _; exact ⟨Nat.zero_le _, rfl, fun j hj => by omega⟩
  | succ n ih =>
    intro i g d buffer hlen hd hc
    simp only [stream_get_rest] at hc ⊢
    have hi := hc i (Nat.le_refl _) (by omega)
    rw [stream_get_rest_other n (i + 1) g _ _ i (Or.inl (by omega)),
      getD_set_self _ _ _ (by omega)] at hi
    cases d with
    | nil =>
      rw [get_call_empty] at hi
      have hno : ¬ is_cont (to_char EOF) := by
        unfold is_cont to_char
        decide
      exact absurd hi hno
    | cons b r =>
      obtain ⟨hb0, hb1⟩ := hd b (List.mem_cons_self _ _)
      rw [get_call_byte g b r hb0 hb1] at hc ⊢
      simp only at hc ⊢
      obtain ⟨h1, h2, h3⟩ := ih (i + 1) g r (buffer.set i (to_char (b : Int)))
        (by rw [List.length_set]; omega) (fun x hx => hd x (List.mem_cons_of_mem _ hx))
        (fun j hj1 hj2 => hc j (by omega) (by omega))
      refine ⟨by simp only [List.length_cons]; omega, by simpa using h2, ?_⟩
      intro j hj
      cases j with
      | zero =>
        show (stream_get_rest n (i + 1) g r (buffer.set i (to_char (b : Int)))).1.getD i 0 =
          to_char ((b : Nat) : Int)
        rw [stream_get_rest_other n (i + 1) g _ _ i (Or.inl (by omega)),
          getD_set_self _ _ _ (by omega)]
      | succ j =>
        have := h3 j (by omega)
        rw [show i + (j + 1) = i + 1 + j by omega, this]
        rfl

/-- What is pending in a buffer that holds the `char`s `cs`, none of them
NUL, from `pos` on, and a NUL after them. -/
theorem buffer_pending_eq (buffer : List Int) :
    ∀ (cs : List Int) (pos : Nat), (∀ j, j < cs.length → buffer.getD (pos + j) 0 = cs.getD j 0) →
      (∀ c ∈ cs, c ≠ 0) → buffer.getD (pos + cs.length) 0 = 0 → buffer_pending buffer pos = cs := by
  intro cs
  induction cs with
  | nil =>
    intro pos _ _ h0
    exact buffer_pending_zero buffer pos (by simpa using h0)
  | cons c cs ih =>
    intro pos hj hnz h0
    have hc : buffer.getD pos 0 = c := by
      have := hj 0 (by simp)
      simpa using this
    rw [buffer_pending_cons buffer pos (by rw [hc]; exact hnz c (List.mem_cons_self _ _)), hc]
    congr 1
    apply ih (pos + 1)
    · intro j hj1
      have := hj (j + 1) (by simp only [List.length_cons]; omega)
      rw [show pos + 1 + j = pos + (j + 1) by omega, this]
      rfl
    · exact fun x hx => hnz x (List.mem_cons_of_mem _ hx)
    · rw [← h0]
      congr 1
      simp only [List.length_cons]
      omega

theorem getD_map_take (d : List Nat) (n j : Nat) (hj : j < n) (hn : n ≤ d.length) :
    ((d.take n).map (fun (b : Nat) => to_char (b : Int))).getD j 0 =
      to_char ((d.getD j 0 : Nat) : Int) := by
  simp only [List.getD_eq_getElem?_getD, List.getElem?_map]
  rw [List.getElem?_take_of_lt hj, List.getElem?_eq_getElem (by omega)]
  rfl

theorem map_to_uchar_to_char (d : List Nat) (h : ∀ b ∈ d, b < 256) :
    (d.map (fun (b : Nat) => to_char (b : Int))).map to_uchar = d := by
  rw [List.map_map]
  conv => rhs; rw [← List.map_id d]
  apply List.map_congr_left
  intro b hb
  exact to_uchar_to_char b (h b hb)

theorem getElem?_of_drop_cons (inp : List Nat) (p b : Nat) (r : List Nat)
    (h : inp.drop p = b :: r) : inp[p]? = some b ∧ inp.drop (p + 1) = r ∧ p < inp.length := by
  have hlt : p < inp.length := by
    by_contra hc
    rw [List.drop_eq_nil_of_le (by omega)] at h
    cases h
  rw [List.drop_eq_getElem_cons hlt] at h
  simp only [List.cons.injEq] at h
  exact ⟨by rw [List.getElem?_eq_getElem hlt, h.1], h.2, hlt⟩

/-- The tail of `stream_get` on a stream that reads `inp`. -/
theorem stream_get_next_consumed (lex : lex_t) (e : json_error_t) (inp : List Nat)
    (hOK : lex.stream.state = STREAM_STATE_OK)
    (hc : lex.stream.buffer.getD lex.stream.buffer_pos 0 ≠ 0)
    (hrest : to_uchar (lex.stream.buffer.getD lex.stream.buffer_pos 0) ::
      ((buffer_pending lex.stream.buffer (lex.stream.buffer_pos + 1)).map to_uchar ++
        lex.stream.data) = inp.drop lex.stream.position) :
    Consumed (stream_get_next lex e).2.1.stream inp ∧
      JustGot (stream_get_next lex e).2.1.stream (stream_get_next lex e).1 inp ∧
      (stream_get_next lex e).2.1.stream.position = lex.stream.position + 1 := by
  obtain ⟨h1, h2, h3⟩ := getElem?_of_drop_cons inp _ _ _ hrest.symm
  rw [stream_get_next_eq]
  refine ⟨⟨h3, fun _ => ?_, fun hE => ?_⟩, ⟨hOK, by simp, by simp, hc, by simp, ?_⟩, rfl⟩
  · exact h2.symm
  · simp only at hE
    rw [hOK] at hE
    exact absurd hE (by decide)
  · simpa using h1

theorem follows_data_bytes (s : stream_t) (inp : List Nat) (hinp : ∀ b ∈ inp, 0 < b ∧ b < 256)
    (h : (stream_pending s).map to_uchar ++ s.data = inp.drop s.position) :
    ∀ b ∈ s.data, 0 < b ∧ b < 256 := by
  intro b hb
  apply hinp b
  apply List.mem_of_mem_drop (n := s.position)
  rw [← h]
  exact List.mem_append_right _ hb

theorem eof_ne_ok : STREAM_STATE_EOF ≠ STREAM_STATE_OK := by decide

theorem error_ne_ok : STREAM_STATE_ERROR ≠ STREAM_STATE_OK := by decide

theorem error_ne_eof : STREAM_STATE_ERROR ≠ STREAM_STATE_EOF := by decide

/-- One call of `stream_get` on a stream that reads an input without NUL: it
hands out the value of a terminal state and stays where it is, or it hands out
the byte of the input at its position and moves on by one. -/
theorem stream_get_consumed (lex : lex_t) (e : json_error_t) (inp : List Nat)
    (hinp : ∀ b ∈ inp, 0 < b ∧ b < 256) (h : Follows lex.stream inp) :
    Consumed (stream_get lex e).2.1.stream inp ∧
      ((((stream_get lex e).1 = STREAM_STATE_EOF ∨ (stream_get lex e).1 = STREAM_STATE_ERROR) ∧
          (stream_get lex e).2.1.stream.position = lex.stream.position) ∨
        (JustGot (stream_get lex e).2.1.stream (stream_get lex e).1 inp ∧
          (stream_get lex e).2.1.stream.position = lex.stream.position + 1)) := by
  obtain ⟨⟨hwf, hlen⟩, hsane, hpos, hok, heof⟩ := h
  unfold stream_get stream_get_out
  simp only
  by_cases h1 : lex.stream.state ≠ STREAM_STATE_OK
  · rw [if_pos h1]
    refine ⟨⟨hpos, hok, heof⟩, Or.inl ⟨?_, rfl⟩⟩
    rcases hwf.2 with hs | hs | hs
    · exact absurd hs h1
    · exact Or.inl hs
    · exact Or.inr hs
  rw [if_neg h1]
  have hOK : lex.stream.state = STREAM_STATE_OK := by
    by_contra hc; exact h1 hc
  have hok1 := hok hOK
  have hbytes := follows_data_bytes lex.stream inp hinp hok1
  by_cases h2 : lex.stream.buffer.getD lex.stream.buffer_pos 0 = 0
  · rw [if_pos h2]
    have hp : stream_pending lex.stream = [] := buffer_pending_zero _ _ h2
    rw [hp] at hok1
    simp only [List.map_nil, List.nil_append] at hok1
    cases hd : lex.stream.data with
    | nil =>
      -- the end of the input
      rw [get_call_empty]
      simp only
      rw [if_pos trivial]
      rw [hd] at hok1
      have hge : inp.length ≤ lex.stream.position := by
        by_contra hc
        have := congrArg List.length hok1
        simp only [List.length_nil, List.length_drop] at this
        omega
      refine ⟨⟨hpos, fun hc => absurd hc eof_ne_ok, fun _ => ?_⟩, Or.inl ⟨Or.inl rfl, rfl⟩⟩
      show lex.stream.position = inp.length
      omega
    | cons b d1 =>
      rw [hd] at hok1 hbytes
      obtain ⟨hb0, hb1⟩ := hbytes b (List.mem_cons_self _ _)
      have hd1 : ∀ x ∈ d1, 0 < x ∧ x < 256 := fun x hx => hbytes x (List.mem_cons_of_mem _ hx)
      rw [get_call_byte _ b d1 hb0 hb1]
      simp only
      have hne : ¬ ((b : Int) = EOF) := by simp only [EOF]; omega
      rw [if_neg hne]
      by_cases h4 : (0x80 : Int) ≤ (b : Int) ∧ (b : Int) ≤ 0xFF
      · rw [if_pos h4]
        by_cases h5 : utf8_check_first (b : Int) = 0
        · rw [if_pos h5]
          exact ⟨⟨hpos, fun hc => absurd hc error_ne_ok, fun hc => absurd hc error_ne_eof⟩,
            Or.inl ⟨Or.inr rfl, rfl⟩⟩
        rw [if_neg h5]
        obtain ⟨hc2, hc4⟩ := utf8_check_first_high _ h4.1 h4.2 h5
        generalize hcnt : utf8_check_first (b : Int) = count at h5 hc2 hc4 ⊢
        by_cases h6 : utf8_check_full (stream_get_rest (count - 1) 1 lex.stream.get d1
            (lex.stream.buffer.set 0 (to_char (b : Int)))).1 count = false
        · rw [if_pos h6]
          exact ⟨⟨hpos, fun hc => absurd hc error_ne_ok, fun hc => absurd hc error_ne_eof⟩,
            Or.inl ⟨Or.inr rfl, rfl⟩⟩
        rw [if_neg h6]
        -- a multi-byte sequence
        have hfull : utf8_check_full (stream_get_rest (count - 1) 1 lex.stream.get d1
            (lex.stream.buffer.set 0 (to_char (b : Int)))).1 count = true := by simpa using h6
        have hch : ∀ c ∈ (stream_get_rest (count - 1) 1 lex.stream.get d1
            (lex.stream.buffer.set 0 (to_char (b : Int)))).1, is_char c :=
          stream_get_rest_is_char _ _ _ _ _ (is_char_set _ _ _ hwf.1 (to_char_is_char _))
        have hconts := utf8_check_full_conts _ _ hfull hch
        have hl5 : (stream_get_rest (count - 1) 1 lex.stream.get d1
            (lex.stream.buffer.set 0 (to_char (b : Int)))).1.length = 5 := by
          rw [stream_get_rest_length, List.length_set, hlen]
        have hcj : ∀ j, 1 ≤ j → j < 1 + (count - 1) →
            is_cont ((stream_get_rest (count - 1) 1 lex.stream.get d1
              (lex.stream.buffer.set 0 (to_char (b : Int)))).1.getD j 0) :=
          fun j hj1 hj2 => hconts _ (getD_mem_drop_take _ 1 (count - 1) j hj1 hj2 (by omega))
        obtain ⟨hn, hq2, hq1⟩ := stream_get_rest_take (count - 1) 1 lex.stream.get d1
          (lex.stream.buffer.set 0 (to_char (b : Int))) (by rw [List.length_set, hlen]; omega)
          hd1 hcj
        generalize hq : stream_get_rest (count - 1) 1 lex.stream.get d1
          (lex.stream.buffer.set 0 (to_char (b : Int))) = q at hl5 hcj hq2 hq1 ⊢
        have hq0 : q.1.getD 0 0 = to_char (b : Int) := by
          rw [← hq, stream_get_rest_other _ _ _ _ _ 0 (Or.inl (by omega)),
            getD_set_self _ _ _ (by omega)]
        have hpend : buffer_pending (q.1.set count 0) (0 + 1) =
            (d1.take (count - 1)).map (fun (x : Nat) => to_char (x : Int)) := by
          apply buffer_pending_eq
          · intro j hj
            simp only [List.length_map, List.length_take] at hj
            rw [getD_set_other _ _ _ _ (by omega), show 0 + 1 + j = 1 + j by omega,
              hq1 j (by omega), getD_map_take d1 (count - 1) j (by omega) hn]
          · intro c hc
            obtain ⟨x, hx, rfl⟩ := List.mem_map.mp hc
            obtain ⟨j, hj, hxj⟩ := List.getElem_of_mem hx
            simp only [List.length_take] at hj
            have := hcj (1 + j) (by omega) (by omega)
            rw [hq1 j (by omega)] at this
            have hget : d1.getD j 0 = x := by
              rw [List.getD_eq_getElem?_getD, ← hxj, List.getElem_take,
                List.getElem?_eq_getElem (by omega)]
              rfl
            rw [hget] at this
            exact is_cont_ne_zero _ this
          · simp only [List.length_map, List.length_take]
            rw [show 0 + 1 + min (count - 1) d1.length = count by omega,
              getD_set_self _ _ _ (by omega)]
        obtain ⟨k1, k2, k3⟩ := stream_get_next_consumed
          { lex with stream := { lex.stream with data := q.2, buffer := q.1.set count 0,
                                                 buffer_pos := 0 } } e inp hOK
          (by
            show (q.1.set count 0).getD 0 0 ≠ 0
            rw [getD_set_other _ _ _ _ (by omega), hq0]
            exact to_char_ne_zero b (by omega) hb1)
          (by
            show to_uchar ((q.1.set count 0).getD 0 0) ::
              ((buffer_pending (q.1.set count 0) (0 + 1)).map to_uchar ++ q.2) =
              inp.drop lex.stream.position
            rw [getD_set_other _ _ _ _ (by omega), hq0, hpend,
              map_to_uchar_to_char _ (fun x hx => (hd1 x (List.mem_of_mem_take hx)).2), hq2,
              List.take_append_drop, to_uchar_to_char b hb1, ← hok1])
        exact ⟨k1, Or.inr ⟨k2, k3⟩⟩
      · rw [if_neg h4]
        -- an ASCII byte
        have hb128 : b < 128 := by omega
        have hbuf : ((lex.stream.buffer.set 0 (to_char (b : Int))).set 1 0).getD 0 0 =
            to_char (b : Int) := by
          rw [getD_set_other _ _ _ _ (by omega), getD_set_self _ _ _ (by omega)]
        have hpend : buffer_pending ((lex.stream.buffer.set 0 (to_char (b : Int))).set 1 0)
            (0 + 1) = [] :=
          buffer_pending_zero _ _ (getD_set_self _ _ _ (by rw [List.length_set, hlen]; omega))
        obtain ⟨k1, k2, k3⟩ := stream_get_next_consumed
          { lex with stream := { lex.stream with
              data := d1, buffer := (lex.stream.buffer.set 0 (to_char (b : Int))).set 1 0,
              buffer_pos := 0 } } e inp hOK
          (by
            show ((lex.stream.buffer.set 0 (to_char (b : Int))).set 1 0).getD 0 0 ≠ 0
            rw [hbuf, to_char_ascii b hb128]
            omega)
          (by
            show to_uchar (((lex.stream.buffer.set 0 (to_char (b : Int))).set 1 0).getD 0 0) ::
              ((buffer_pending ((lex.stream.buffer.set 0 (to_char (b : Int))).set 1 0)
                (0 + 1)).map to_uchar ++ d1) = inp.drop lex.stream.position
            rw [hbuf, hpend, to_uchar_to_char b hb1, ← hok1]
            rfl)
        exact ⟨k1, Or.inr ⟨k2, k3⟩⟩
  · rw [if_neg h2]
    -- a byte pending in the buffer
    obtain ⟨k1, k2, k3⟩ := stream_get_next_consumed lex e inp hOK h2 (by
      rw [← hok1]
      unfold stream_pending
      rw [buffer_pending_cons _ _ h2]
      rfl)
    exact ⟨k1, Or.inr ⟨k2, k3⟩⟩

theorem JustGot.data {s : stream_t} {c : Int} {inp : List Nat} (h : JustGot s c inp)
    (hs : s.sane) : c ≠ STREAM_STATE_EOF ∧ c ≠ STREAM_STATE_ERROR := by
  have hmem : c ∈ s.buffer := by
    have hb := h.back
    have hnz := h.nz
    rw [List.getD_eq_getElem?_getD] at hb
    cases hg : s.buffer[s.buffer_pos - 1]? with
    | none => rw [hg] at hb; exact absurd hb.symm hnz
    | some x =>
      rw [hg] at hb
      simp only [Option.getD_some] at hb
      rw [← hb]
      exact List.getElem?_mem hg
  exact hs h.ok c hmem

/-- One call of `stream_get` on a stream that reads `inp`, with the
invariants of the stream. -/
theorem stream_get_follows (lex : lex_t) (e : json_error_t) (inp : List Nat)
    (hinp : ∀ b ∈ inp, 0 < b ∧ b < 256) (h : Follows lex.stream inp) :
    Follows (stream_get lex e).2.1.stream inp ∧
      ((((stream_get lex e).1 = STREAM_STATE_EOF ∨ (stream_get lex e).1 = STREAM_STATE_ERROR) ∧
          (stream_get lex e).2.1.stream.position = lex.stream.position) ∨
        (JustGot (stream_get lex e).2.1.stream (stream_get lex e).1 inp ∧
          (stream_get lex e).2.1.stream.position = lex.stream.position + 1)) := by
  obtain ⟨h1, h2⟩ := stream_get_consumed lex e inp hinp h
  exact ⟨⟨(stream_get_left lex e h.good).1, stream_get_sane lex e h.good.1 h.sane, h1⟩, h2⟩

theorem slice_snoc (inp : List Nat) (s p b : Nat) (hs : s ≤ p) (hb : inp[p]? = some b) :
    (inp.drop s).take (p + 1 - s) = (inp.drop s).take (p - s) ++ [b] := by
  rw [show p + 1 - s = (p - s) + 1 by omega, List.take_succ, List.getElem?_drop,
    show s + (p - s) = p by omega, hb]
  rfl

theorem slice_dropLast (inp : List Nat) (s p : Nat) (hs : s < p) (hp : p ≤ inp.length) :
    ((inp.drop s).take (p - s)).dropLast = (inp.drop s).take (p - 1 - s) := by
  rw [List.dropLast_eq_take, List.take_take, List.length_take, List.length_drop]
  congr 1
  omega

theorem drop_of_getElem? (inp : List Nat) (i b : Nat) (h : inp[i]? = some b) :
    inp.drop i = b :: inp.drop (i + 1) := by
  obtain ⟨hi, hb⟩ := List.getElem?_eq_some_iff.mp h
  rw [List.drop_eq_getElem_cons hi, hb]

theorem stream_unget_follows (s : stream_t) (c : Int) (inp : List Nat) (hf : Follows s inp)
    (hj : JustGot s c inp) :
    Follows (stream_unget s c) inp ∧ (stream_unget s c).position = s.position - 1 := by
  obtain ⟨hE, hR⟩ := hj.data hf.sane
  have hc : ¬ (c = STREAM_STATE_EOF ∨ c = STREAM_STATE_ERROR) := by
    intro h; rcases h with h | h
    · exact hE h
    · exact hR h
  have hgood := (stream_unget_left s c hf.good).1
  have hsane := stream_unget_sane s c hf.sane
  have hstate : ∀ (t : stream_t), t.state = s.state → t.buffer = s.buffer →
      t.data = s.data → t.buffer_pos = s.buffer_pos - 1 → t.position = s.position - 1 →
      Consumed t inp ∧ t.position = s.position - 1 := by
    intro t h1 h2 h3 h4 h5
    refine ⟨⟨?_, fun _ => ?_, fun hs => ?_⟩, h5⟩
    · have := hf.consumed.1
      omega
    · have hok := hf.consumed.2.1 hj.ok
      unfold stream_pending at hok ⊢
      have hb := hj.back
      have hnz : s.buffer.getD (s.buffer_pos - 1) 0 ≠ 0 := by rw [hb]; exact hj.nz
      have hbp := hj.bpos
      have hp := hj.pos
      rw [h2, h3, h4, h5, buffer_pending_cons _ _ hnz, hb,
        show s.buffer_pos - 1 + 1 = s.buffer_pos by omega, drop_of_getElem? _ _ _ hj.byte,
        show s.position - 1 + 1 = s.position by omega, ← hok]
      rfl
    · rw [h1, hj.ok] at hs
      exact absurd hs (by decide)
  have key : Consumed (stream_unget s c) inp ∧ (stream_unget s c).position = s.position - 1 := by
    unfold stream_unget
    rw [if_neg hc]
    apply hstate
    · simp only; split_ifs <;> rfl
    · simp only; split_ifs <;> rfl
    · simp only; split_ifs <;> rfl
    · simp only; split_ifs <;> rfl
    · simp only; split_ifs <;> rfl
  exact ⟨⟨hgood, hsane, key.1⟩, key.2⟩

theorem Slice.length {lex : lex_t} {inp : List Nat} {start lo : Nat}
    (h : Slice lex inp start lo) : lex.saved_text.length = lex.stream.position - start := by
  have := h.follows.consumed.1
  rw [h.text, List.length_take, List.length_drop]
  omega

theorem SliceGot.to_slice {lex : lex_t} {c : Int} {inp : List Nat} {start lo : Nat}
    (h : SliceGot lex c inp start lo) : Slice lex inp start lo := h.1

theorem lex_get_peeked (lex : lex_t) (e : json_error_t) (inp : List Nat) (start lo : Nat)
    (hinp : ∀ b ∈ inp, 0 < b ∧ b < 256) (h : Slice lex inp start lo) :
    SlicePeeked (lex_get lex e).2.1 (lex_get lex e).1 inp start lo := by
  unfold lex_get
  obtain ⟨hf, h2⟩ := stream_get_follows lex e inp hinp h.follows
  have hsv := (stream_get_same lex e).saved
  have hle := h.le
  rcases h2 with ⟨ht, hp⟩ | ⟨hj, hp⟩
  · exact Or.inl ⟨ht, ⟨hf, by rw [hp]; exact hle, by rw [hsv, hp]; exact h.text⟩⟩
  · refine Or.inr ⟨hf, hj, by rw [hp]; omega, ?_⟩
    rw [hsv, hp, h.text]
    rfl

theorem lex_unget_peeked (lex : lex_t) (c : Int) (inp : List Nat) (start lo : Nat)
    (h : SlicePeeked lex c inp start lo) : Slice (lex_unget lex c) inp start lo := by
  rcases h with ⟨ht, hs⟩ | ⟨hf, hj, hlt, htx⟩
  · have : lex_unget lex c = lex := by
      unfold lex_unget stream_unget
      rw [if_pos ht]
    rw [this]
    exact hs
  · obtain ⟨h1, h2⟩ := stream_unget_follows lex.stream c inp hf hj
    refine ⟨h1, ?_, ?_⟩
    · show start + lo ≤ (stream_unget lex.stream c).position
      rw [h2]; omega
    · show lex.saved_text = (inp.drop start).take ((stream_unget lex.stream c).position - start)
      rw [h2, htx]

theorem lex_save_peeked (lex : lex_t) (c : Int) (inp : List Nat) (start lo : Nat)
    (h : SlicePeeked lex c inp start lo)
    (hc : ¬ (c = STREAM_STATE_EOF ∨ c = STREAM_STATE_ERROR)) :
    SliceGot (lex_save lex c) c inp start lo := by
  rcases h with ⟨ht, _⟩ | ⟨hf, hj, hlt, htx⟩
  · exact absurd ht hc
  · refine ⟨⟨hf, Nat.le_of_lt hlt, ?_⟩, Or.inr ⟨hj, hlt⟩⟩
    show lex.saved_text ++ [to_uchar c] = (inp.drop start).take (lex.stream.position - start)
    have hp := hj.pos
    have := slice_snoc inp start (lex.stream.position - 1) (to_uchar c) (by omega) hj.byte
    rw [show lex.stream.position - 1 + 1 = lex.stream.position by omega] at this
    rw [this, htx]

theorem lex_get_save_got (lex : lex_t) (e : json_error_t) (inp : List Nat) (start lo : Nat)
    (hinp : ∀ b ∈ inp, 0 < b ∧ b < 256) (h : Slice lex inp start lo) :
    SliceGot (lex_get_save lex e).2.1 (lex_get_save lex e).1 inp start lo := by
  have hp := lex_get_peeked lex e inp start lo hinp h
  unfold lex_get at hp
  unfold lex_get_save
  simp only
  by_cases hc : (stream_get lex e).1 ≠ STREAM_STATE_EOF ∧ (stream_get lex e).1 ≠ STREAM_STATE_ERROR
  · rw [if_pos hc]
    exact lex_save_peeked _ _ inp start lo hp (fun h' => h'.elim hc.1 hc.2)
  · rw [if_neg hc]
    rcases hp with ⟨ht, hs⟩ | ⟨hf, hj, _, _⟩
    · exact ⟨hs, Or.inl ht⟩
    · exact absurd (hj.data hf.sane) hc

theorem lex_unget_unsave_slice (lex : lex_t) (c : Int) (inp : List Nat) (start lo : Nat)
    (h : SliceGot lex c inp start lo) : Slice (lex_unget_unsave lex c) inp start lo := by
  unfold lex_unget_unsave
  obtain ⟨hs, h2⟩ := h
  rcases h2 with ht | ⟨hj, hlt⟩
  · have hc : ¬ (c ≠ STREAM_STATE_EOF ∧ c ≠ STREAM_STATE_ERROR) := by
      intro h'; exact ht.elim h'.1 h'.2
    rw [if_neg hc]
    exact hs
  · rw [if_pos (hj.data hs.follows.sane)]
    obtain ⟨h1, h2⟩ := stream_unget_follows lex.stream c inp hs.follows hj
    have hpl := hs.follows.consumed.1
    refine ⟨h1, ?_, ?_⟩
    · show start + lo ≤ (stream_unget lex.stream c).position
      rw [h2]; omega
    · show lex.saved_text.dropLast =
        (inp.drop start).take ((stream_unget lex.stream c).position - start)
      rw [h2, hs.text, slice_dropLast inp start _ (by omega) hpl]

theorem lex_scan_digits_got (inp : List Nat) (start lo : Nat)
    (hinp : ∀ b ∈ inp, 0 < b ∧ b < 256) :
    ∀ (n : Nat) (lex : lex_t) (c : Int) (e : json_error_t) (c1 : Int) (lex1 : lex_t)
      (e1 : json_error_t), SliceGot lex c inp start lo →
      lex_scan_digits n lex c e = some (c1, lex1, e1) → SliceGot lex1 c1 inp start lo := by
  intro n
  induction n with
  | zero => intro lex c e c1 lex1 e1 _ h; simp [lex_scan_digits] at h
  | succ n ih =>
    intro lex c e c1 lex1 e1 hg h
    simp only [lex_scan_digits] at h
    by_cases hd : l_isdigit c = true
    · rw [if_pos hd] at h
      exact ih _ _ _ c1 lex1 e1 (lex_get_save_got lex e inp start lo hinp hg.1) h
    · rw [if_neg hd] at h
      simp only [Option.some.injEq, Prod.mk.injEq] at h
      obtain ⟨rfl, rfl, rfl⟩ := h
      exact hg

theorem lex_scan_alpha_got (inp : List Nat) (start lo : Nat)
    (hinp : ∀ b ∈ inp, 0 < b ∧ b < 256) :
    ∀ (n : Nat) (lex : lex_t) (c : Int) (e : json_error_t) (c1 : Int) (lex1 : lex_t)
      (e1 : json_error_t), SliceGot lex c inp start lo →
      lex_scan_alpha n lex c e = some (c1, lex1, e1) → SliceGot lex1 c1 inp start lo := by
  intro n
  induction n with
  | zero => intro lex c e c1 lex1 e1 _ h; simp [lex_scan_alpha] at h
  | succ n ih =>
    intro lex c e c1 lex1 e1 hg h
    simp only [lex_scan_alpha] at h
    by_cases hd : l_isalpha c = true
    · rw [if_pos hd] at h
      exact ih _ _ _ c1 lex1 e1 (lex_get_save_got lex e inp start lo hinp hg.1) h
    · rw [if_neg hd] at h
      simp only [Option.some.injEq, Prod.mk.injEq] at h
      obtain ⟨rfl, rfl, rfl⟩ := h
      exact hg

theorem lex_scan_string_hex_slice (inp : List Nat) (start lo : Nat)
    (hinp : ∀ b ∈ inp, 0 < b ∧ b < 256) :
    ∀ (n : Nat) (lex : lex_t) (c : Int) (e : json_error_t), SliceGot lex c inp start lo →
      Slice (lex_scan_string_hex n lex c e).2.1 inp start lo ∧
        ∀ c1, (lex_scan_string_hex n lex c e).1 = some c1 →
          SliceGot (lex_scan_string_hex n lex c e).2.1 c1 inp start lo := by
  intro n
  induction n with
  | zero =>
    intro lex c e hg
    refine ⟨hg.1, fun c1 h => ?_⟩
    simp only [lex_scan_string_hex, Option.some.injEq] at h
    rw [← h]
    exact hg
  | succ n ih =>
    intro lex c e hg
    simp only [lex_scan_string_hex]
    by_cases hx : l_isxdigit c = false
    · rw [if_pos hx]
      exact ⟨hg.1, fun c1 h => by simp at h⟩
    · rw [if_neg hx]
      exact ih _ _ _ (lex_get_save_got lex e inp start lo hinp hg.1)

theorem lex_scan_string_body_slice (inp : List Nat) (start lo : Nat)
    (hinp : ∀ b ∈ inp, 0 < b ∧ b < 256) (lex : lex_t) (c : Int) (e : json_error_t)
    (hg : SliceGot lex c inp start lo) :
    Slice (lex_scan_string_body lex c e).2.1 inp start lo ∧
      ∀ c1, (lex_scan_string_body lex c e).1 = some c1 →
        SliceGot (lex_scan_string_body lex c e).2.1 c1 inp start lo := by
  unfold lex_scan_string_body
  by_cases h1 : c = STREAM_STATE_ERROR
  · rw [if_pos h1]
    exact ⟨hg.1, fun c1 h => by simp at h⟩
  rw [if_neg h1]
  by_cases h2 : c = STREAM_STATE_EOF
  · rw [if_pos h2]
    exact ⟨hg.1, fun c1 h => by simp at h⟩
  rw [if_neg h2]
  by_cases h3 : 0 ≤ c ∧ c ≤ 0x1F
  · rw [if_pos h3]
    have hs := lex_unget_unsave_slice lex c inp start lo hg
    simp only
    by_cases h4 : c = 10
    · rw [if_pos h4]
      exact ⟨hs, fun c1 h => by simp at h⟩
    · rw [if_neg h4]
      exact ⟨hs, fun c1 h => by simp at h⟩
  rw [if_neg h3]
  have hg1 := lex_get_save_got lex e inp start lo hinp hg.1
  by_cases h4 : c = 92
  · rw [if_pos h4]
    simp only
    by_cases h5 : (lex_get_save lex e).1 = 117
    · rw [if_pos h5]
      exact lex_scan_string_hex_slice inp start lo hinp 4 _ _ _
        (lex_get_save_got _ _ inp start lo hinp hg1.1)
    rw [if_neg h5]
    by_cases h6 : (lex_get_save lex e).1 = 34 ∨ (lex_get_save lex e).1 = 92 ∨
        (lex_get_save lex e).1 = 47 ∨ (lex_get_save lex e).1 = 98 ∨
        (lex_get_save lex e).1 = 102 ∨ (lex_get_save lex e).1 = 110 ∨
        (lex_get_save lex e).1 = 114 ∨ (lex_get_save lex e).1 = 116
    · rw [if_pos h6]
      have hg2 := lex_get_save_got _ (lex_get_save lex e).2.2 inp start lo hinp hg1.1
      refine ⟨hg2.1, fun c1 h => ?_⟩
      simp only [Option.some.injEq] at h
      rw [← h]
      exact hg2
    · rw [if_neg h6]
      exact ⟨hg1.1, fun c1 h => by simp at h⟩
  · rw [if_neg h4]
    refine ⟨hg1.1, fun c1 h => ?_⟩
    simp only [Option.some.injEq] at h
    rw [← h]
    exact hg1

theorem lex_scan_string_loop_slice (inp : List Nat) (start lo : Nat)
    (hinp : ∀ b ∈ inp, 0 < b ∧ b < 256) :
    ∀ (n : Nat) (lex : lex_t) (c : Int) (e : json_error_t) (b : Bool) (lex1 : lex_t)
      (e1 : json_error_t), SliceGot lex c inp start lo →
      lex_scan_string_loop n lex c e = some (b, lex1, e1) → Slice lex1 inp start lo := by
  intro n
  induction n with
  | zero => intro lex c e b lex1 e1 _ h; simp [lex_scan_string_loop] at h
  | succ n ih =>
    intro lex c e b lex1 e1 hg h
    simp only [lex_scan_string_loop] at h
    by_cases hq : c = 34
    · rw [if_pos hq] at h
      simp only [Option.some.injEq, Prod.mk.injEq] at h
      obtain ⟨_, rfl, _⟩ := h
      exact hg.1
    · rw [if_neg hq] at h
      obtain ⟨h1, h2⟩ := lex_scan_string_body_slice inp start lo hinp lex c e hg
      generalize lex_scan_string_body lex c e = q at h h1 h2
      obtain ⟨oc, lex2, e2⟩ := q
      cases oc with
      | none =>
        simp only [Option.some.injEq, Prod.mk.injEq] at h
        obtain ⟨_, rfl, _⟩ := h
        exact h1
      | some c2 => exact ih lex2 c2 e2 b lex1 e1 (h2 c2 rfl) h

theorem lex_scan_string_slice (inp : List Nat) (start lo : Nat)
    (hinp : ∀ b ∈ inp, 0 < b ∧ b < 256) (lex : lex_t) (e : json_error_t) (lex1 : lex_t)
    (e1 : json_error_t) (hs : Slice lex inp start lo)
    (h : lex_scan_string lex e = some (lex1, e1)) : Slice lex1 inp start lo := by
  unfold lex_scan_string at h
  simp only at h
  have hs0 : Slice ({ lex with value := lex_value.string none, token := TOKEN_INVALID } : lex_t)
      inp start lo := ⟨hs.follows, hs.le, hs.text⟩
  have hg := lex_get_save_got _ e inp start lo hinp hs0
  cases hloop : lex_scan_string_loop (lex.stream.data.length + 6)
      (lex_get_save { lex with value := lex_value.string none, token := TOKEN_INVALID } e).2.1
      (lex_get_save { lex with value := lex_value.string none, token := TOKEN_INVALID } e).1
      (lex_get_save { lex with value := lex_value.string none, token := TOKEN_INVALID } e).2.2 with
  | none => rw [hloop] at h; simp at h
  | some r =>
    obtain ⟨b, lex2, e2⟩ := r
    have h2 := lex_scan_string_loop_slice inp start lo hinp _ _ _ _ b lex2 e2 hg hloop
    rw [hloop] at h
    cases b with
    | false =>
      simp only [Option.some.injEq, Prod.mk.injEq] at h
      obtain ⟨rfl, _⟩ := h
      exact ⟨h2.follows, h2.le, h2.text⟩
    | true =>
      simp only at h
      cases hdec : lex_scan_string_decode lex2 (lex2.saved_text.length + 1)
          (lex2.saved_text.drop 1) [] e2 with
      | none => rw [hdec] at h; simp at h
      | some d =>
        obtain ⟨ot, e3⟩ := d
        rw [hdec] at h
        cases ot with
        | none =>
          simp only [Option.some.injEq, Prod.mk.injEq] at h
          obtain ⟨rfl, _⟩ := h
          exact ⟨h2.follows, h2.le, h2.text⟩
        | some t =>
          simp only [Option.some.injEq, Prod.mk.injEq] at h
          obtain ⟨rfl, _⟩ := h
          exact ⟨h2.follows, h2.le, h2.text⟩

theorem lex_scan_number_exponent_slice (inp : List Nat) (start lo : Nat)
    (hinp : ∀ b ∈ inp, 0 < b ∧ b < 256) (fuel : Nat) (lex : lex_t) (e : json_error_t)
    (oc : Option Int) (lex1 : lex_t) (e1 : json_error_t) (hs : Slice lex inp start lo)
    (h : lex_scan_number_exponent fuel lex e = some (oc, lex1, e1)) :
    Slice lex1 inp start lo ∧ ∀ c1, oc = some c1 → SliceGot lex1 c1 inp start lo := by
  unfold lex_scan_number_exponent at h
  simp only at h
  have hg1 := lex_get_save_got lex e inp start lo hinp hs
  have hg2 : SliceGot
      (if (lex_get_save lex e).1 = 43 ∨ (lex_get_save lex e).1 = 45 then
        lex_get_save (lex_get_save lex e).2.1 (lex_get_save lex e).2.2
       else lex_get_save lex e).2.1
      (if (lex_get_save lex e).1 = 43 ∨ (lex_get_save lex e).1 = 45 then
        lex_get_save (lex_get_save lex e).2.1 (lex_get_save lex e).2.2
       else lex_get_save lex e).1 inp start lo := by
    split_ifs
    · exact lex_get_save_got _ _ inp start lo hinp hg1.1
    · exact hg1
  generalize (if (lex_get_save lex e).1 = 43 ∨ (lex_get_save lex e).1 = 45 then
        lex_get_save (lex_get_save lex e).2.1 (lex_get_save lex e).2.2
       else lex_get_save lex e) = r at h hg2
  by_cases hd : l_isdigit r.1 = false
  · rw [if_pos hd] at h
    simp only [Option.some.injEq, Prod.mk.injEq] at h
    obtain ⟨rfl, rfl, _⟩ := h
    exact ⟨lex_unget_unsave_slice _ _ inp start lo hg2, fun c1 hc => by simp at hc⟩
  · rw [if_neg hd] at h
    have hg3 := lex_get_save_got r.2.1 r.2.2 inp start lo hinp hg2.1
    cases hdig : lex_scan_digits fuel (lex_get_save r.2.1 r.2.2).2.1 (lex_get_save r.2.1 r.2.2).1
        (lex_get_save r.2.1 r.2.2).2.2 with
    | none => rw [hdig] at h; simp at h
    | some q =>
      obtain ⟨c2, lex2, e2⟩ := q
      rw [hdig] at h
      simp only [Option.some.injEq, Prod.mk.injEq] at h
      obtain ⟨rfl, rfl, _⟩ := h
      have h4 := lex_scan_digits_got inp start lo hinp fuel _ _ _ c2 lex2 e2 hg3 hdig
      refine ⟨h4.1, fun c1 hc => ?_⟩
      simp only [Option.some.injEq] at hc
      rw [← hc]
      exact h4

theorem l_isdigit_data (c : Int) (h : l_isdigit c = true) :
    ¬ (c = STREAM_STATE_EOF ∨ c = STREAM_STATE_ERROR) := by
  intro hc
  rcases hc with hc | hc <;> rw [hc] at h <;> revert h <;> decide

theorem lex_scan_number_fraction_slice (inp : List Nat) (start lo : Nat)
    (hinp : ∀ b ∈ inp, 0 < b ∧ b < 256) (fuel : Nat) (lex : lex_t) (e : json_error_t)
    (oc : Option Int) (lex1 : lex_t) (e1 : json_error_t) (hs : Slice lex inp start lo)
    (h : lex_scan_number_fraction fuel lex e = some (oc, lex1, e1)) :
    Slice lex1 inp start lo ∧ ∀ c1, oc = some c1 → SliceGot lex1 c1 inp start lo := by
  unfold lex_scan_number_fraction at h
  simp only at h
  have hp := lex_get_peeked lex e inp start lo hinp hs
  by_cases hd : l_isdigit (lex_get lex e).1 = false
  · rw [if_pos hd] at h
    simp only [Option.some.injEq, Prod.mk.injEq] at h
    obtain ⟨rfl, rfl, _⟩ := h
    exact ⟨lex_unget_peeked _ _ inp start lo hp, fun c1 hc => by simp at hc⟩
  · rw [if_neg hd] at h
    have hd1 : l_isdigit (lex_get lex e).1 = true := by simpa using hd
    have hg2 := lex_save_peeked _ _ inp start lo hp (l_isdigit_data _ hd1)
    have hg3 := lex_get_save_got _ (lex_get lex e).2.2 inp start lo hinp hg2.1
    cases hdig : lex_scan_digits fuel
        (lex_get_save (lex_save (lex_get lex e).2.1 (lex_get lex e).1) (lex_get lex e).2.2).2.1
        (lex_get_save (lex_save (lex_get lex e).2.1 (lex_get lex e).1) (lex_get lex e).2.2).1
        (lex_get_save (lex_save (lex_get lex e).2.1 (lex_get lex e).1) (lex_get lex e).2.2).2.2 with
    | none => rw [hdig] at h; simp at h
    | some q =>
      obtain ⟨c2, lex2, e2⟩ := q
      rw [hdig] at h
      simp only [Option.some.injEq, Prod.mk.injEq] at h
      obtain ⟨rfl, rfl, _⟩ := h
      have h4 := lex_scan_digits_got inp start lo hinp fuel _ _ _ c2 lex2 e2 hg3 hdig
      refine ⟨h4.1, fun c1 hc => ?_⟩
      simp only [Option.some.injEq] at hc
      rw [← hc]
      exact h4

theorem lex_scan_number_integer_slice (ctx : json_context_t) (lex : lex_t) (flags : load_flags)
    (e : json_error_t) (inp : List Nat) (start lo : Nat) (hs : Slice lex inp start lo) :
    Slice (lex_scan_number_integer ctx lex flags e).2.1 inp start lo := by
  have h1 := lex_scan_number_integer_stream ctx lex flags e
  have h2 := lex_scan_number_integer_saved ctx lex flags e
  exact ⟨by rw [h1]; exact hs.follows, by rw [h1]; exact hs.le, by rw [h1, h2]; exact hs.text⟩

theorem lex_scan_number_real_slice (ctx : json_context_t) (lex : lex_t) (flags : load_flags)
    (sd : Int) (e : json_error_t) (inp : List Nat) (start lo : Nat)
    (hs : Slice lex inp start lo) :
    Slice (lex_scan_number_real ctx lex flags sd e).2.1 inp start lo := by
  have h1 := lex_scan_number_real_stream ctx lex flags sd e
  have h2 := lex_scan_number_real_saved ctx lex flags sd e
  exact ⟨by rw [h1]; exact hs.follows, by rw [h1]; exact hs.le, by rw [h1, h2]; exact hs.text⟩

theorem lex_scan_number_tail_slice (inp : List Nat) (start lo : Nat)
    (hinp : ∀ b ∈ inp, 0 < b ∧ b < 256) (ctx : json_context_t) (fuel : Nat) (lex : lex_t)
    (c : Int) (flags : load_flags) (e : json_error_t) (r : Int × lex_t × json_error_t)
    (hg : SliceGot lex c inp start lo)
    (h : lex_scan_number_tail ctx fuel lex c flags e = some r) : Slice r.2.1 inp start lo := by
  unfold lex_scan_number_tail at h
  by_cases h1 : c ≠ 46 ∧ c ≠ 69 ∧ c ≠ 101
  · rw [if_pos h1] at h
    simp only [Option.some.injEq] at h
    rw [← h]
    exact lex_scan_number_integer_slice ctx _ flags e inp start lo
      (lex_unget_unsave_slice lex c inp start lo hg)
  rw [if_neg h1] at h
  simp only at h
  have hfrac : ∀ oc lex2 e2,
      (if c = 46 then lex_scan_number_fraction fuel lex e else some (some c, lex, e)) =
        some (oc, lex2, e2) →
      Slice lex2 inp start lo ∧ ∀ c1, oc = some c1 → SliceGot lex2 c1 inp start lo := by
    intro oc lex2 e2 hq
    by_cases h2 : c = 46
    · rw [if_pos h2] at hq
      exact lex_scan_number_fraction_slice inp start lo hinp fuel lex e oc lex2 e2 hg.1 hq
    · rw [if_neg h2] at hq
      simp only [Option.some.injEq, Prod.mk.injEq] at hq
      obtain ⟨rfl, rfl, _⟩ := hq
      refine ⟨hg.1, fun c1 hc => ?_⟩
      simp only [Option.some.injEq] at hc
      rw [← hc]
      exact hg
  generalize (if c = 46 then lex_scan_number_fraction fuel lex e else some (some c, lex, e)) = fr
    at h hfrac
  cases fr with
  | none => simp at h
  | some q =>
    obtain ⟨oc, lex2, e2⟩ := q
    obtain ⟨hs2, hg2⟩ := hfrac oc lex2 e2 rfl
    cases oc with
    | none =>
      simp only [Option.some.injEq] at h
      rw [← h]
      exact hs2
    | some c2 =>
      have hg3 := hg2 c2 rfl
      simp only at h
      by_cases h3 : c2 = 69 ∨ c2 = 101
      · rw [if_pos h3] at h
        cases hex : lex_scan_number_exponent fuel lex2 e2 with
        | none => rw [hex] at h; simp at h
        | some q3 =>
          obtain ⟨oc3, lex3, e3⟩ := q3
          rw [hex] at h
          obtain ⟨hs3, hg4⟩ := lex_scan_number_exponent_slice inp start lo hinp fuel lex2 e2
            oc3 lex3 e3 hs2 hex
          cases oc3 with
          | none =>
            simp only [Option.some.injEq] at h
            rw [← h]
            exact hs3
          | some c3 =>
            simp only [Option.some.injEq] at h
            rw [← h]
            exact lex_scan_number_real_slice ctx _ flags _ e3 inp start lo
              (lex_unget_unsave_slice lex3 c3 inp start lo (hg4 c3 rfl))
      · rw [if_neg h3] at h
        simp only [Option.some.injEq] at h
        rw [← h]
        exact lex_scan_number_real_slice ctx _ flags _ e2 inp start lo
          (lex_unget_unsave_slice lex2 c2 inp start lo hg3)

theorem lex_scan_number_slice (inp : List Nat) (start lo : Nat)
    (hinp : ∀ b ∈ inp, 0 < b ∧ b < 256) (ctx : json_context_t) (lex : lex_t)
    (c : Int) (flags : load_flags) (e : json_error_t) (r : Int × lex_t × json_error_t)
    (hs : Slice lex inp start lo) (hc : l_isdigit c = true ∨ c = 45)
    (h : lex_scan_number ctx lex c flags e = some r) : Slice r.2.1 inp start lo := by
  unfold lex_scan_number at h
  simp only at h
  have hs0 : Slice ({ lex with token := TOKEN_INVALID } : lex_t) inp start lo :=
    ⟨hs.follows, hs.le, hs.text⟩
  generalize hL : ({ lex with token := TOKEN_INVALID } : lex_t) = L at h hs0
  have hfirst : Slice (if c = 45 then lex_get_save L e else (c, L, e)).2.1 inp start lo ∧
      (l_isdigit (if c = 45 then lex_get_save L e else (c, L, e)).1 = true ∨
        SliceGot (if c = 45 then lex_get_save L e else (c, L, e)).2.1
          (if c = 45 then lex_get_save L e else (c, L, e)).1 inp start lo) := by
    by_cases h45 : c = 45
    · rw [if_pos h45]
      have := lex_get_save_got L e inp start lo hinp hs0
      exact ⟨this.1, Or.inr this⟩
    · rw [if_neg h45]
      exact ⟨hs0, Or.inl (hc.resolve_right h45)⟩
  generalize (if c = 45 then lex_get_save L e else (c, L, e)) = q at h hfirst
  obtain ⟨c1, lex1, e1⟩ := q
  obtain ⟨hs1, hor⟩ := hfirst
  simp only at h hs1 hor
  by_cases h48 : c1 = 48
  · rw [if_pos h48] at h
    have hg2 := lex_get_save_got lex1 e1 inp start lo hinp hs1
    by_cases hd : l_isdigit (lex_get_save lex1 e1).1 = true
    · rw [if_pos hd] at h
      simp only [Option.some.injEq] at h
      rw [← h]
      exact lex_unget_unsave_slice _ _ inp start lo hg2
    · rw [if_neg hd] at h
      exact lex_scan_number_tail_slice inp start lo hinp ctx _ _ _ flags _ r hg2 h
  rw [if_neg h48] at h
  by_cases hd : l_isdigit c1 = true
  · rw [if_pos hd] at h
    have hg2 := lex_get_save_got lex1 e1 inp start lo hinp hs1
    cases hdig : lex_scan_digits (lex.stream.data.length + 6) (lex_get_save lex1 e1).2.1
        (lex_get_save lex1 e1).1 (lex_get_save lex1 e1).2.2 with
    | none => rw [hdig] at h; simp at h
    | some q2 =>
      obtain ⟨c2, lex2, e2⟩ := q2
      rw [hdig] at h
      simp only at h
      exact lex_scan_number_tail_slice inp start lo hinp ctx _ lex2 c2 flags e2 r
        (lex_scan_digits_got inp start lo hinp _ _ _ _ c2 lex2 e2 hg2 hdig) h
  · rw [if_neg hd] at h
    simp only [Option.some.injEq] at h
    rw [← h]
    exact lex_unget_unsave_slice _ _ inp start lo (hor.resolve_left hd)

theorem lex_save_cached_loop_slice (inp : List Nat) (start lo : Nat) :
    ∀ (n : Nat) (lex : lex_t), Slice lex inp start lo → lex.stream.state = STREAM_STATE_OK →
      Slice (lex_save_cached_loop n lex) inp start lo := by
  intro n
  induction n with
  | zero => intro lex h _; exact h
  | succ n ih =>
    intro lex h hOK
    simp only [lex_save_cached_loop]
    by_cases hc : lex.stream.buffer.getD lex.stream.buffer_pos 0 ≠ 0
    · rw [if_pos hc]
      have hok := h.follows.consumed.2.1 hOK
      unfold stream_pending at hok
      rw [buffer_pending_cons _ _ hc] at hok
      simp only [List.map_cons, List.cons_append] at hok
      obtain ⟨hbyte, hrest, hlt⟩ := getElem?_of_drop_cons _ _ _ _ hok.symm
      apply ih
      · refine ⟨⟨h.follows.good, h.follows.sane, ?_, fun _ => ?_, fun hs => ?_⟩, ?_, ?_⟩
        · show lex.stream.position + 1 ≤ inp.length
          omega
        · show (buffer_pending lex.stream.buffer (lex.stream.buffer_pos + 1)).map to_uchar ++
            lex.stream.data = inp.drop (lex.stream.position + 1)
          exact hrest.symm
        · have hs' : lex.stream.state = STREAM_STATE_EOF := hs
          rw [hOK] at hs'
          exact absurd hs' (by decide)
        · show start + lo ≤ lex.stream.position + 1
          have := h.le
          omega
        · show lex.saved_text ++ [to_uchar (lex.stream.buffer.getD lex.stream.buffer_pos 0)] =
            (inp.drop start).take (lex.stream.position + 1 - start)
          have := h.le
          rw [slice_snoc inp start _ _ (by omega) hbyte, h.text]
      · exact hOK
    · rw [if_neg hc]
      exact h

theorem lex_scan_token_slice (inp : List Nat) (start lo : Nat)
    (hinp : ∀ b ∈ inp, 0 < b ∧ b < 256) (ctx : json_context_t) (fuel : Nat) (lex : lex_t)
    (c : Int) (flags : load_flags) (e : json_error_t) (lex1 : lex_t) (e1 : json_error_t)
    (hs : Slice lex inp start lo) (hOK : lex.stream.state = STREAM_STATE_OK)
    (h : lex_scan_token ctx fuel lex c flags e = some (lex1, e1)) : Slice lex1 inp start lo := by
  unfold lex_scan_token at h
  by_cases h1 : c = 123 ∨ c = 125 ∨ c = 91 ∨ c = 93 ∨ c = 58 ∨ c = 44
  · rw [if_pos h1] at h
    simp only [Option.some.injEq, Prod.mk.injEq] at h
    obtain ⟨rfl, _⟩ := h
    exact ⟨hs.follows, hs.le, hs.text⟩
  rw [if_neg h1] at h
  by_cases h2 : c = 34
  · rw [if_pos h2] at h
    exact lex_scan_string_slice inp start lo hinp lex e lex1 e1 hs h
  rw [if_neg h2] at h
  by_cases h3 : l_isdigit c = true ∨ c = 45
  · rw [if_pos h3] at h
    cases hnum : lex_scan_number ctx lex c flags e with
    | none => rw [hnum] at h; simp at h
    | some r =>
      rw [hnum] at h
      simp only [Option.some.injEq, Prod.mk.injEq] at h
      obtain ⟨rfl, _⟩ := h
      exact lex_scan_number_slice inp start lo hinp ctx lex c flags e r hs h3 hnum
  rw [if_neg h3] at h
  by_cases h4 : l_isalpha c = true
  · rw [if_pos h4] at h
    simp only at h
    have hg := lex_get_save_got lex e inp start lo hinp hs
    cases hal : lex_scan_alpha fuel (lex_get_save lex e).2.1 (lex_get_save lex e).1
        (lex_get_save lex e).2.2 with
    | none => rw [hal] at h; simp at h
    | some q =>
      obtain ⟨c2, lex2, e2⟩ := q
      rw [hal] at h
      have hg2 := lex_scan_alpha_got inp start lo hinp fuel _ _ _ c2 lex2 e2 hg hal
      have hs2 := lex_unget_unsave_slice lex2 c2 inp start lo hg2
      simp only at h
      split_ifs at h <;>
      · simp only [Option.some.injEq, Prod.mk.injEq] at h
        obtain ⟨rfl, _⟩ := h
        exact ⟨hs2.follows, hs2.le, hs2.text⟩
  · rw [if_neg h4] at h
    simp only [Option.some.injEq, Prod.mk.injEq] at h
    obtain ⟨rfl, _⟩ := h
    have := lex_save_cached_loop_slice inp start lo 5 lex hs hOK
    exact ⟨this.follows, this.le, this.text⟩

theorem stream_get_offset (lex : lex_t) (e : json_error_t) (inp : List Nat)
    (hinp : ∀ b ∈ inp, 0 < b ∧ b < 256) (h : Follows lex.stream inp) :
    Follows (stream_get lex e).2.1.stream inp ∧
      (((stream_get lex e).1 = STREAM_STATE_EOF ∨ (stream_get lex e).1 = STREAM_STATE_ERROR) ∨
        JustGot (stream_get lex e).2.1.stream (stream_get lex e).1 inp) ∧
      offset_of (stream_get lex e).1 (stream_get lex e).2.1.stream = lex.stream.position := by
  obtain ⟨hf, h2⟩ := stream_get_follows lex e inp hinp h
  rcases h2 with ⟨ht, hp⟩ | ⟨hj, hp⟩
  · refine ⟨hf, Or.inl ht, ?_⟩
    unfold offset_of
    rw [if_pos ht, hp]
  · refine ⟨hf, Or.inr hj, ?_⟩
    have hd := hj.data hf.sane
    unfold offset_of
    rw [if_neg (fun h' => h'.elim hd.1 hd.2), hp]
    rfl

theorem to_uchar_space (c : Int) (h : c = 32 ∨ c = 9 ∨ c = 10 ∨ c = 13) :
    to_uchar c = 32 ∨ to_uchar c = 9 ∨ to_uchar c = 10 ∨ to_uchar c = 13 := by
  rcases h with h | h | h | h <;> subst h <;> decide

theorem to_uchar_not_space (c : Int) (hc : is_char c)
    (h : ¬ (c = 32 ∨ c = 9 ∨ c = 10 ∨ c = 13)) :
    ¬ (to_uchar c = 32 ∨ to_uchar c = 9 ∨ to_uchar c = 10 ∨ to_uchar c = 13) := by
  unfold is_char at hc
  unfold to_uchar
  omega

theorem JustGot.is_char {s : stream_t} {c : Int} {inp : List Nat} (h : JustGot s c inp)
    (hwf : s.wf) : Jansson.is_char c := by
  have hb := h.back
  have hnz := h.nz
  rw [List.getD_eq_getElem?_getD] at hb
  cases hg : s.buffer[s.buffer_pos - 1]? with
  | none => rw [hg] at hb; exact absurd hb.symm hnz
  | some x =>
    rw [hg] at hb
    simp only [Option.getD_some] at hb
    rw [← hb]
    exact hwf.1 _ (List.getElem?_mem hg)

theorem lex_scan_space_slice (inp : List Nat) (hinp : ∀ b ∈ inp, 0 < b ∧ b < 256) :
    ∀ (n : Nat) (lex : lex_t) (c : Int) (e : json_error_t) (c1 : Int) (lex1 : lex_t)
      (e1 : json_error_t), Follows lex.stream inp → lex.saved_text = [] →
      ((c = STREAM_STATE_EOF ∨ c = STREAM_STATE_ERROR) ∨ JustGot lex.stream c inp) →
      lex_scan_space n lex c e = some (c1, lex1, e1) →
      Follows lex1.stream inp ∧ lex1.saved_text = [] ∧
        ((c1 = STREAM_STATE_EOF ∨ c1 = STREAM_STATE_ERROR) ∨ JustGot lex1.stream c1 inp) ∧
        ¬ (c1 = 32 ∨ c1 = 9 ∨ c1 = 10 ∨ c1 = 13) ∧
        offset_of c lex.stream ≤ offset_of c1 lex1.stream ∧
        ∀ i, offset_of c lex.stream ≤ i → i < offset_of c1 lex1.stream →
          ∃ b, inp[i]? = some b ∧ (b = 32 ∨ b = 9 ∨ b = 10 ∨ b = 13) := by
  intro n
  induction n with
  | zero => intro lex c e c1 lex1 e1 _ _ _ h; simp [lex_scan_space] at h
  | succ n ih =>
    intro lex c e c1 lex1 e1 hf hsv hc h
    simp only [lex_scan_space] at h
    by_cases hws : c = 32 ∨ c = 9 ∨ c = 10 ∨ c = 13
    · rw [if_pos hws] at h
      have hnt : ¬ (c = STREAM_STATE_EOF ∨ c = STREAM_STATE_ERROR) := by
        intro ht
        rcases ht with ht | ht <;> rw [ht] at hws <;> revert hws <;> decide
      have hj := hc.resolve_left hnt
      obtain ⟨hf2, hc2, hoff⟩ := stream_get_offset lex e inp hinp hf
      have hsv2 : (stream_get lex e).2.1.saved_text = [] := by
        rw [(stream_get_same lex e).saved, hsv]
      obtain ⟨k1, k2, k3, k4, k5, k6⟩ := ih _ _ _ c1 lex1 e1 hf2 hsv2 hc2 h
      have hoc : offset_of c lex.stream = lex.stream.position - 1 := by
        unfold offset_of; rw [if_neg hnt]
      have hp := hj.pos
      rw [hoff] at k5 k6
      refine ⟨k1, k2, k3, k4, by omega, fun i hi1 hi2 => ?_⟩
      by_cases hi : i = lex.stream.position - 1
      · rw [hi]
        exact ⟨to_uchar c, hj.byte, to_uchar_space c hws⟩
      · exact k6 i (by omega) hi2
    · rw [if_neg hws] at h
      simp only [Option.some.injEq, Prod.mk.injEq] at h
      obtain ⟨rfl, rfl, _⟩ := h
      exact ⟨hf, hsv, hc, hws, Nat.le_refl _, fun i hi1 hi2 => by omega⟩

theorem lex_scan_slice (inp : List Nat) (hinp : ∀ b ∈ inp, 0 < b ∧ b < 256)
    (ctx : json_context_t) (lex : lex_t) (flags : load_flags) (e : json_error_t) (lex1 : lex_t)
    (e1 : json_error_t) (hf : Follows lex.stream inp)
    (h : lex_scan ctx lex flags e = some (lex1, e1)) :
    ∃ start, lex.stream.position ≤ start ∧
      (∀ i, lex.stream.position ≤ i → i < start →
        ∃ b, inp[i]? = some b ∧ (b = 32 ∨ b = 9 ∨ b = 10 ∨ b = 13)) ∧
      Slice lex1 inp start 0 ∧
      ((start = lex1.stream.position ∧ (lex1.token = TOKEN_EOF ∨ lex1.token = TOKEN_INVALID)) ∨
        (start < lex1.stream.position ∧
          ∃ b, inp[start]? = some b ∧ ¬ (b = 32 ∨ b = 9 ∨ b = 10 ∨ b = 13))) := by
  unfold lex_scan at h
  simp only at h
  have hcs := lex_clear_stream lex
  have hf0 : Follows (lex_clear lex).stream inp := by rw [hcs]; exact hf
  obtain ⟨hf1, hc1, hoff⟩ := stream_get_offset (lex_clear lex) e inp hinp hf0
  have hsv1 : (stream_get (lex_clear lex) e).2.1.saved_text = [] := by
    rw [(stream_get_same (lex_clear lex) e).saved, lex_clear_saved]
  rw [hcs] at hoff
  unfold lex_get at h
  cases hsp : lex_scan_space ((lex_clear lex).stream.data.length + 6)
      (stream_get (lex_clear lex) e).2.1 (stream_get (lex_clear lex) e).1
      (stream_get (lex_clear lex) e).2.2 with
  | none => rw [hsp] at h; simp at h
  | some q =>
    obtain ⟨c2, lex2, e2⟩ := q
    rw [hsp] at h
    simp only at h
    obtain ⟨k1, k2, k3, k4, k5, k6⟩ := lex_scan_space_slice inp hinp _ _ _ _ c2 lex2 e2
      hf1 hsv1 hc1 hsp
    rw [hoff] at k5 k6
    refine ⟨offset_of c2 lex2.stream, k5, k6, ?_⟩
    by_cases hE : c2 = STREAM_STATE_EOF
    · rw [if_pos hE] at h
      simp only [Option.some.injEq, Prod.mk.injEq] at h
      obtain ⟨rfl, _⟩ := h
      have ho : offset_of c2 lex2.stream = lex2.stream.position := by
        unfold offset_of; rw [if_pos (Or.inl hE)]
      rw [ho]
      refine ⟨⟨k1, Nat.le_refl _, ?_⟩, Or.inl ⟨rfl, Or.inl rfl⟩⟩
      show lex2.saved_text = _
      rw [k2, Nat.sub_self, List.take_zero]
    rw [if_neg hE] at h
    by_cases hR : c2 = STREAM_STATE_ERROR
    · rw [if_pos hR] at h
      simp only [Option.some.injEq, Prod.mk.injEq] at h
      obtain ⟨rfl, _⟩ := h
      have ho : offset_of c2 lex2.stream = lex2.stream.position := by
        unfold offset_of; rw [if_pos (Or.inr hR)]
      rw [ho]
      refine ⟨⟨k1, Nat.le_refl _, ?_⟩, Or.inl ⟨rfl, Or.inr rfl⟩⟩
      show lex2.saved_text = _
      rw [k2, Nat.sub_self, List.take_zero]
    rw [if_neg hR] at h
    have hnt : ¬ (c2 = STREAM_STATE_EOF ∨ c2 = STREAM_STATE_ERROR) := fun h' => h'.elim hE hR
    have hj := k3.resolve_left hnt
    have ho : offset_of c2 lex2.stream = lex2.stream.position - 1 := by
      unfold offset_of; rw [if_neg hnt]
    have hp := hj.pos
    rw [ho]
    have hpk : SlicePeeked lex2 c2 inp (lex2.stream.position - 1) 0 :=
      Or.inr ⟨k1, hj, by omega, by rw [k2, Nat.sub_self, List.take_zero]⟩
    have hg := lex_save_peeked lex2 c2 inp _ 0 hpk hnt
    have hs1 : Slice (lex_save lex2 c2) inp (lex2.stream.position - 1) 1 :=
      ⟨hg.1.follows, by show lex2.stream.position - 1 + 1 ≤ lex2.stream.position; omega,
        hg.1.text⟩
    have hs2 := lex_scan_token_slice inp _ 1 hinp ctx _ _ c2 flags e2 lex1 e1 hs1 hj.ok h
    refine ⟨⟨hs2.follows, by have := hs2.le; omega, hs2.text⟩,
      Or.inr ⟨by have := hs2.le; omega, to_uchar c2, hj.byte, ?_⟩⟩
    exact to_uchar_not_space c2 (hj.is_char k1.good.1) k4

theorem lex_init_follows (g : get_func) (inp : List Nat) :
    Follows (lex_init g inp).stream inp :=
  ⟨stream_init_good g inp, stream_init_sane g inp,
    ⟨Nat.zero_le _, fun _ => rfl, fun h => absurd h.symm eof_ne_ok⟩⟩

/-- C30: on an input without NUL byte, every call of `lex_scan` on a lexer
whose stream reads that input returns, and afterwards the saved text is exactly
the slice of the input from the first byte of the token to the position of the
stream: the bytes skipped before the start are whitespace, the length of the
saved text is the position minus the start, the token is empty only at the end
of the input or at a failure of the stream, and otherwise it starts at a byte
that is not whitespace.  `Follows` says that the stream reads the input: it
holds for the stream of `lex_init` (`lex_init_follows`) and again after the
call, so the slice is there after every call of a sequence of calls. -/
theorem lex_scan_saved_text_slice (ctx : json_context_t) (flags : load_flags) (inp : List Nat)
    (lex : lex_t) (e : json_error_t) (hinp : ∀ b ∈ inp, 0 < b ∧ b < 256)
    (hf : Follows lex.stream inp) :
    ∃ lex1 e1 start, lex_scan ctx lex flags e = some (lex1, e1) ∧
      Follows lex1.stream inp ∧
      lex.stream.position ≤ start ∧ start ≤ lex1.stream.position ∧
      all_space ((inp.drop lex.stream.position).take (start - lex.stream.position)) ∧
      lex1.saved_text = (inp.drop start).take (lex1.stream.position - start) ∧
      lex1.saved_text.length = lex1.stream.position - start ∧
      ((start = lex1.stream.position ∧ (lex1.token = TOKEN_EOF ∨ lex1.token = TOKEN_INVALID)) ∨
        (start < lex1.stream.position ∧
          ∃ b, inp[start]? = some b ∧ ¬ (b = 32 ∨ b = 9 ∨ b = 10 ∨ b = 13))) := by
  have hf1 := hf
  obtain ⟨lex1, e1, h, _, _, _⟩ := lex_scan_total ctx lex flags e hf1.good
  obtain ⟨start, h1, h2, h3, h4⟩ := lex_scan_slice inp hinp ctx lex flags e lex1 e1 hf1 h
  refine ⟨lex1, e1, start, h, h3.follows, h1, by have := h3.le; omega, ?_, h3.text, h3.length, h4⟩
  intro b hb
  obtain ⟨j, hj, hbj⟩ := List.getElem_of_mem hb
  simp only [List.length_take, List.length_drop] at hj
  obtain ⟨b1, hb1, hsp⟩ := h2 (lex.stream.position + j) (by omega) (by omega)
  rw [List.getElem_take, List.getElem_drop] at hbj
  have hlt : lex.stream.position + j < inp.length := by omega
  rw [List.getElem?_eq_getElem hlt] at hb1
  simp only [Option.some.injEq] at hb1
  rw [← hbj, hb1]
  exact hsp

theorem lex_scan_saved_text_slice_witness :
    (∀ b ∈ [32, 116, 114, 117, 101, 44], 0 < b ∧ b < 256) ∧
      ∃ lex1 e1 start,
        lex_scan plain_context (lex_init get_func.buffer_get [32, 116, 114, 117, 101, 44])
          no_flags jsonp_error_init = some (lex1, e1) ∧
        Follows lex1.stream [32, 116, 114, 117, 101, 44] ∧
        (lex_init get_func.buffer_get [32, 116, 114, 117, 101, 44]).stream.position ≤ start ∧
        start ≤ lex1.stream.position ∧
        all_space (([32, 116, 114, 117, 101, 44].drop
          (lex_init get_func.buffer_get [32, 116, 114, 117, 101, 44]).stream.position).take
            (start - (lex_init get_func.buffer_get [32, 116, 114, 117, 101, 44]).stream.position)) ∧
        lex1.saved_text = ([32, 116, 114, 117, 101, 44].drop start).take
          (lex1.stream.position - start) ∧
        lex1.saved_text.length = lex1.stream.position - start ∧
        ((start = lex1.stream.position ∧
            (lex1.token = TOKEN_EOF ∨ lex1.token = TOKEN_INVALID)) ∨
          (start < lex1.stream.position ∧
            ∃ b, [32, 116, 114, 117, 101, 44][start]? = some b ∧
              ¬ (b = 32 ∨ b = 9 ∨ b = 10 ∨ b = 13))) :=
  ⟨by decide,
    lex_scan_saved_text_slice plain_context no_flags [32, 116, 114, 117, 101, 44]
      (lex_init get_func.buffer_get [32, 116, 114, 117, 101, 44]) jsonp_error_init (by decide)
      (lex_init_follows get_func.buffer_get [32, 116, 114, 117, 101, 44])⟩

theorem stream_get_next_state (lex : lex_t) (e : json_error_t) :
    (stream_get_next lex e).2.1.stream.state = lex.stream.state := by
  rw [stream_get_next_eq]

/-- The ways `stream_get` returns: from a stream that is not in the OK state
it returns the state and changes nothing; at the end of the source it returns
EOF; after a decoding failure it returns the error value and has reported the
byte; in every other case the stream stays in the OK state. -/
theorem stream_get_cases (lex : lex_t) (e : json_error_t) :
    (lex.stream.state ≠ STREAM_STATE_OK ∧ stream_get lex e = (lex.stream.state, lex, e)) ∨
      (lex.stream.state = STREAM_STATE_OK ∧ stream_pending lex.stream = [] ∧
        (lex.stream.get.call lex.stream.data).1 = EOF ∧
        (stream_get lex e).1 = STREAM_STATE_EOF ∧ (stream_get lex e).2.2 = e) ∨
      (lex.stream.state = STREAM_STATE_OK ∧ stream_pending lex.stream = [] ∧
        (stream_get lex e).1 = STREAM_STATE_ERROR ∧
        ∃ lexE, (stream_get lex e).2.2 = error_set e (some lexE)
          (str "unable to decode byte 0x" ++ fmt_x (lex.stream.get.call lex.stream.data).1)) ∨
      (lex.stream.state = STREAM_STATE_OK ∧
        (stream_get lex e).2.1.stream.state = STREAM_STATE_OK) := by
  unfold stream_get stream_get_out
  simp only
  by_cases h1 : lex.stream.state ≠ STREAM_STATE_OK
  · rw [if_pos h1]
    exact Or.inl ⟨h1, rfl⟩
  rw [if_neg h1]
  have hOK : lex.stream.state = STREAM_STATE_OK := by
    by_contra hc; exact h1 hc
  by_cases h2 : lex.stream.buffer.getD lex.stream.buffer_pos 0 = 0
  · rw [if_pos h2]
    have hp : stream_pending lex.stream = [] := buffer_pending_zero _ _ h2
    by_cases h3 : (lex.stream.get.call lex.stream.data).1 = EOF
    · rw [if_pos h3]
      exact Or.inr (Or.inl ⟨hOK, hp, h3, rfl, rfl⟩)
    rw [if_neg h3]
    by_cases h4 : (0x80 : Int) ≤ (lex.stream.get.call lex.stream.data).1 ∧
        (lex.stream.get.call lex.stream.data).1 ≤ 0xFF
    · rw [if_pos h4]
      by_cases h5 : utf8_check_first (lex.stream.get.call lex.stream.data).1 = 0
      · rw [if_pos h5]
        exact Or.inr (Or.inr (Or.inl ⟨hOK, hp, rfl, _, rfl⟩))
      rw [if_neg h5]
      by_cases h6 : utf8_check_full (stream_get_rest
          (utf8_check_first (lex.stream.get.call lex.stream.data).1 - 1) 1 lex.stream.get
          (lex.stream.get.call lex.stream.data).2
          (lex.stream.buffer.set 0 (to_char (lex.stream.get.call lex.stream.data).1))).1
          (utf8_check_first (lex.stream.get.call lex.stream.data).1) = false
      · rw [if_pos h6]
        exact Or.inr (Or.inr (Or.inl ⟨hOK, hp, rfl, _, rfl⟩))
      · rw [if_neg h6]
        refine Or.inr (Or.inr (Or.inr ⟨hOK, ?_⟩))
        rw [stream_get_next_state]
        exact hOK
    · rw [if_neg h4]
      refine Or.inr (Or.inr (Or.inr ⟨hOK, ?_⟩))
      rw [stream_get_next_state]
      exact hOK
  · rw [if_neg h2]
    refine Or.inr (Or.inr (Or.inr ⟨hOK, ?_⟩))
    rw [stream_get_next_state]
    exact hOK

theorem to_char_terminal (c : Int) (h0 : 0 ≤ c) (h1 : c ≤ 255) :
    (to_char c = STREAM_STATE_EOF ↔ c = 0xFF) ∧ (to_char c = STREAM_STATE_ERROR ↔ c = 0xFE) := by
  unfold to_char
  simp only [STREAM_STATE_EOF, STREAM_STATE_ERROR]
  constructor <;> constructor <;> intro h <;> omega

/-- C32: for every stream in whose buffer no `char` has the value of a
terminal state while the state is OK (so after `stream_init`, and again after
this call), a value that `stream_get` returns while the stream stays in the OK
state is neither `STREAM_STATE_EOF` (-1) nor `STREAM_STATE_ERROR` (-2).  It
returns -1 only with the stream in the EOF state, that is when the state was
EOF before or the buffer was empty and the source gave EOF, and -2 only with
the stream in the error state, that is when the state was the error state
before or this call has reported a byte it was unable to decode.  Of the bytes
0 to 255 only 0xFF and 0xFE read back from a `char` as -1 and -2; they begin no
sequence (`utf8_check_first` gives 0 for them) and `utf8_check_full` accepts no
sequence that has one of them as a continuation byte. -/
theorem stream_get_no_sentinel (lex : lex_t) (e : json_error_t) (hwf : lex.stream.wf)
    (hs : lex.stream.sane) :
    ((stream_get lex e).2.1.stream.state = STREAM_STATE_OK →
        (stream_get lex e).1 ≠ STREAM_STATE_EOF ∧ (stream_get lex e).1 ≠ STREAM_STATE_ERROR) ∧
    ((stream_get lex e).1 = STREAM_STATE_EOF →
        (stream_get lex e).2.1.stream.state = STREAM_STATE_EOF ∧
        (lex.stream.state = STREAM_STATE_EOF ∨
          (lex.stream.state = STREAM_STATE_OK ∧ stream_pending lex.stream = [] ∧
            (lex.stream.get.call lex.stream.data).1 = EOF))) ∧
    ((stream_get lex e).1 = STREAM_STATE_ERROR →
        (stream_get lex e).2.1.stream.state = STREAM_STATE_ERROR ∧
        (lex.stream.state = STREAM_STATE_ERROR ∨
          (lex.stream.state = STREAM_STATE_OK ∧
            ∃ lexE, (stream_get lex e).2.2 = error_set e (some lexE)
              (str "unable to decode byte 0x" ++
                fmt_x (lex.stream.get.call lex.stream.data).1)))) ∧
    (∀ c : Int, 0 ≤ c → c ≤ 255 →
        (to_char c = STREAM_STATE_EOF ↔ c = 0xFF) ∧
        (to_char c = STREAM_STATE_ERROR ↔ c = 0xFE)) ∧
    utf8_check_first 0xFF = 0 ∧ utf8_check_first 0xFE = 0 ∧
    (∀ (buffer : List Int) (size : Nat), (∀ c ∈ buffer, is_char c) →
        utf8_check_full buffer size = true →
        ∀ c ∈ (buffer.drop 1).take (size - 1),
          c ≠ STREAM_STATE_EOF ∧ c ≠ STREAM_STATE_ERROR) ∧
    (stream_get lex e).2.1.stream.wf ∧ (stream_get lex e).2.1.stream.sane := by
  have hterm := stream_get_terminal lex e hs
  have hcases := stream_get_cases lex e
  refine ⟨fun hOK => ?_, fun hE => ?_, fun hR => ?_, to_char_terminal, by decide, by decide,
    fun buffer size hch hfull c hc => ?_, (stream_get_wf lex e hwf).1, stream_get_sane lex e hwf hs⟩
  · constructor
    · intro hc
      have := hterm (Or.inl hc)
      rw [hOK, hc] at this
      exact absurd this (by decide)
    · intro hc
      have := hterm (Or.inr hc)
      rw [hOK, hc] at this
      exact absurd this (by decide)
  · have hst := hterm (Or.inl hE)
    rw [hE] at hst
    refine ⟨hst, ?_⟩
    rcases hcases with ⟨h1, h2⟩ | ⟨h1, h2, h3, _⟩ | ⟨_, _, h3, _⟩ | ⟨_, h2⟩
    · rw [h2] at hE
      exact Or.inl hE
    · exact Or.inr ⟨h1, h2, h3⟩
    · rw [h3] at hE
      exact absurd hE (by decide)
    · rw [hst] at h2
      exact absurd h2 (by decide)
  · have hst := hterm (Or.inr hR)
    rw [hR] at hst
    refine ⟨hst, ?_⟩
    rcases hcases with ⟨h1, h2⟩ | ⟨_, _, _, h3, _⟩ | ⟨h1, _, _, h3⟩ | ⟨_, h2⟩
    · rw [h2] at hR
      exact Or.inl hR
    · rw [h3] at hR
      exact absurd hR (by decide)
    · exact Or.inr ⟨h1, h3⟩
    · rw [hst] at h2
      exact absurd h2 (by decide)
  · have := utf8_check_full_conts buffer size hfull hch c hc
    unfold is_cont at this
    simp only [STREAM_STATE_EOF, STREAM_STATE_ERROR]
    omega

theorem stream_get_no_sentinel_witness :
    ((stream_get (lex_init get_func.buffer_get [255]) jsonp_error_init).2.1.stream.state =
        STREAM_STATE_OK →
        (stream_get (lex_init get_func.buffer_get [255]) jsonp_error_init).1 ≠ STREAM_STATE_EOF ∧
        (stream_get (lex_init get_func.buffer_get [255]) jsonp_error_init).1 ≠
          STREAM_STATE_ERROR) ∧
    ((stream_get (lex_init get_func.buffer_get [255]) jsonp_error_init).1 = STREAM_STATE_EOF →
        (stream_get (lex_init get_func.buffer_get [255]) jsonp_error_init).2.1.stream.state =
          STREAM_STATE_EOF ∧
        ((lex_init get_func.buffer_get [255]).stream.state = STREAM_STATE_EOF ∨
          ((lex_init get_func.buffer_get [255]).stream.state = STREAM_STATE_OK ∧
            stream_pending (lex_init get_func.buffer_get [255]).stream = [] ∧
            ((lex_init get_func.buffer_get [255]).stream.get.call
              (lex_init get_func.buffer_get [255]).stream.data).1 = EOF))) ∧
    ((stream_get (lex_init get_func.buffer_get [255]) jsonp_error_init).1 = STREAM_STATE_ERROR →
        (stream_get (lex_init get_func.buffer_get [255]) jsonp_error_init).2.1.stream.state =
          STREAM_STATE_ERROR ∧
        ((lex_init get_func.buffer_get [255]).stream.state = STREAM_STATE_ERROR ∨
          ((lex_init get_func.buffer_get [255]).stream.state = STREAM_STATE_OK ∧
            ∃ lexE, (stream_get (lex_init get_func.buffer_get [255]) jsonp_error_init).2.2 =
              error_set jsonp_error_init (some lexE)
                (str "unable to decode byte 0x" ++
                  fmt_x ((lex_init get_func.buffer_get [255]).stream.get.call
                    (lex_init get_func.buffer_get [255]).stream.data).1)))) ∧
    (∀ c : Int, 0 ≤ c → c ≤ 255 →
        (to_char c = STREAM_STATE_EOF ↔ c = 0xFF) ∧
        (to_char c = STREAM_STATE_ERROR ↔ c = 0xFE)) ∧
    utf8_check_first 0xFF = 0 ∧ utf8_check_first 0xFE = 0 ∧
    (∀ (buffer : List Int) (size : Nat), (∀ c ∈ buffer, is_char c) →
        utf8_check_full buffer size = true →
        ∀ c ∈ (buffer.drop 1).take (size - 1),
          c ≠ STREAM_STATE_EOF ∧ c ≠ STREAM_STATE_ERROR) ∧
    (stream_get (lex_init get_func.buffer_get [255]) jsonp_error_init).2.1.stream.wf ∧
    (stream_get (lex_init get_func.buffer_get [255]) jsonp_error_init).2.1.stream.sane :=
  stream_get_no_sentinel (lex_init get_func.buffer_get [255]) jsonp_error_init
    (stream_init_wf _ _) (stream_init_sane _ _)

theorem utf8_scan_append (a b : List Nat) :
    ∀ st, utf8_scan st (a ++ b) = (utf8_scan st a).bind (fun s => utf8_scan s b) := by
  induction a with
  | nil => intro st; rfl
  | cons x xs ih =>
    intro st
    simp only [List.cons_append, utf8_scan]
    cases utf8_step st x with
    | none => rfl
    | some st1 => exact ih st1

theorem utf8_lead_cont (b : Nat) (st : List (Nat × Nat)) (h : utf8_lead b = some st) :
    cont_state st := by
  unfold utf8_lead at h
  split_ifs at h <;> simp only [Option.some.injEq] at h <;> subst h <;> unfold cont_state <;>
    decide

theorem utf8_step_cont (st : List (Nat × Nat)) (b : Nat) (st1 : List (Nat × Nat))
    (hc : cont_state st) (h : utf8_step st b = some st1) : cont_state st1 := by
  cases st with
  | nil => exact utf8_lead_cont b st1 h
  | cons r rs =>
    simp only [utf8_step] at h
    split_ifs at h
    simp only [Option.some.injEq] at h
    subst h
    exact fun x hx => hc x (List.mem_cons_of_mem _ hx)

theorem utf8_scan_cont (bs : List Nat) :
    ∀ (st st1 : List (Nat × Nat)), cont_state st → utf8_scan st bs = some st1 →
      cont_state st1 := by
  induction bs with
  | nil =>
    intro st st1 hc h
    simp only [utf8_scan, Option.some.injEq] at h
    subst h
    exact hc
  | cons b rest ih =>
    intro st st1 hc h
    simp only [utf8_scan] at h
    cases hs : utf8_step st b with
    | none => rw [hs] at h; cases h
    | some s =>
      rw [hs] at h
      exact ih s st1 (utf8_step_cont st b s hc hs) h

theorem cont_state_nil : cont_state [] := fun _ h => by cases h

/-- An ASCII byte is read in the empty state only, and leaves it empty. -/
theorem utf8_step_ascii (st : List (Nat × Nat)) (b : Nat) (st1 : List (Nat × Nat))
    (hb : b < 0x80) (hc : cont_state st) (h : utf8_step st b = some st1) :
    st = [] ∧ st1 = [] := by
  cases st with
  | nil =>
    simp only [utf8_step, utf8_lead] at h
    rw [if_pos (by omega)] at h
    simp only [Option.some.injEq] at h
    exact ⟨rfl, h.symm⟩
  | cons r rs =>
    simp only [utf8_step] at h
    have := hc r (List.mem_cons_self _ _)
    split_ifs at h with h1
    omega

theorem utf8_step_ascii_nil (b : Nat) (hb : b < 0x80) : utf8_step [] b = some [] := by
  simp only [utf8_step, utf8_lead]
  rw [if_pos (by omega)]

/-- ASCII bytes read in the empty state leave it empty. -/
theorem utf8_scan_ascii_nil (a : List Nat) (ha : ∀ b ∈ a, b < 0x80) :
    utf8_scan [] a = some [] := by
  induction a with
  | nil => rfl
  | cons x xs ih =>
    simp only [utf8_scan, utf8_step_ascii_nil x (ha x (List.mem_cons_self _ _))]
    exact ih (fun b hb => ha b (List.mem_cons_of_mem _ hb))

/-- ASCII bytes, when there are any, are read in the empty state only. -/
theorem utf8_scan_ascii (a : List Nat) (ha : ∀ b ∈ a, b < 0x80) (hne : a ≠ [])
    (st st1 : List (Nat × Nat)) (hc : cont_state st) (h : utf8_scan st a = some st1) :
    st = [] ∧ st1 = [] := by
  cases a with
  | nil => exact absurd rfl hne
  | cons x xs =>
    simp only [utf8_scan] at h
    cases hs : utf8_step st x with
    | none => rw [hs] at h; cases h
    | some s =>
      rw [hs] at h
      obtain ⟨h1, h2⟩ := utf8_step_ascii st x s (ha x (List.mem_cons_self _ _)) hc hs
      subst h1 h2
      simp only at h
      rw [utf8_scan_ascii_nil xs (fun b hb => ha b (List.mem_cons_of_mem _ hb))] at h
      simp only [Option.some.injEq] at h
      exact ⟨rfl, h.symm⟩

/-- The bytes that `utf8_encode` gives for a code point that is no surrogate
are one well-formed sequence. -/
theorem utf8_encode_well_formed (v : Int) (bytes : List Nat) (hs : ¬ (0xD800 ≤ v ∧ v ≤ 0xDFFF))
    (h : utf8_encode v = some bytes) : utf8_scan [] bytes = some [] := by
  unfold utf8_encode at h
  by_cases h0 : v < 0
  · rw [if_pos h0] at h; cases h
  rw [if_neg h0] at h
  obtain ⟨n, rfl⟩ : ∃ n : Nat, v = n := ⟨v.toNat, by omega⟩
  simp only [Int.toNat_ofNat] at h
  have hsn : ¬ (0xD800 ≤ n ∧ n ≤ 0xDFFF) := by omega
  by_cases h1 : n < 0x80
  · rw [if_pos h1] at h
    simp only [Option.some.injEq] at h
    subst h
    exact utf8_scan_ascii_nil [n] (by simpa using h1)
  rw [if_neg h1] at h
  by_cases h2 : n < 0x800
  · rw [if_pos h2] at h
    simp only [Option.some.injEq] at h
    subst h
    simp only [utf8_scan, utf8_step, utf8_lead]
    rw [if_neg (by omega), if_pos (by omega)]
    simp only
    rw [if_pos (by omega)]
  rw [if_neg h2] at h
  by_cases h3 : n < 0x10000
  · rw [if_pos h3] at h
    simp only [Option.some.injEq] at h
    subst h
    simp only [utf8_scan, utf8_step, utf8_lead]
    rw [if_neg (by omega), if_neg (by omega)]
    by_cases hE0 : 0xE0 + n / 4096 = 0xE0
    · rw [if_pos hE0]
      simp only
      rw [if_pos (by omega)]
      simp only
      rw [if_pos (by omega)]
    rw [if_neg hE0]
    by_cases hE1 : (0xE1 ≤ 0xE0 + n / 4096 ∧ 0xE0 + n / 4096 ≤ 0xEC) ∨
        0xE0 + n / 4096 = 0xEE ∨ 0xE0 + n / 4096 = 0xEF
    · rw [if_pos hE1]
      simp only
      rw [if_pos (by omega)]
      simp only
      rw [if_pos (by omega)]
    rw [if_neg hE1, if_pos (by omega)]
    simp only
    rw [if_pos (by omega)]
    simp only
    rw [if_pos (by omega)]
  rw [if_neg h3] at h
  by_cases h4 : n ≤ 0x10FFFF
  · rw [if_pos h4] at h
    simp only [Option.some.injEq] at h
    subst h
    simp only [utf8_scan, utf8_step, utf8_lead]
    rw [if_neg (by omega), if_neg (by omega), if_neg (by omega), if_neg (by omega),
      if_neg (by omega)]
    by_cases hF0 : 0xF0 + n / 262144 = 0xF0
    · rw [if_pos hF0]
      simp only
      rw [if_pos (by omega)]
      simp only
      rw [if_pos (by omega)]
      simp only
      rw [if_pos (by omega)]
    rw [if_neg hF0]
    by_cases hF1 : 0xF1 ≤ 0xF0 + n / 262144 ∧ 0xF0 + n / 262144 ≤ 0xF3
    · rw [if_pos hF1]
      simp only
      rw [if_pos (by omega)]
      simp only
      rw [if_pos (by omega)]
      simp only
      rw [if_pos (by omega)]
    rw [if_neg hF1, if_pos (by omega)]
    simp only
    rw [if_pos (by omega)]
    simp only
    rw [if_pos (by omega)]
    simp only
    rw [if_pos (by omega)]
  · rw [if_neg h4] at h; cases h

theorem utf8_check_full_two (c0 c1 c2 c3 c4 : Int)
    (h : utf8_check_full [c0, c1, c2, c3, c4] 2 = true) :
    0x80 ≤ to_uchar c1 ∧ to_uchar c1 ≤ 0xBF ∧
      0x80 ≤ to_uchar c0 % 32 * 64 + to_uchar c1 % 64 := by
  simp only [utf8_check_full, List.getD_cons_zero, if_true, List.drop_succ_cons, List.drop_zero,
    show (2 : Nat) - 1 = 1 from rfl, List.take_succ_cons, List.take_zero, utf8_check_cont] at h
  generalize to_uchar c0 = u0 at h ⊢
  generalize to_uchar c1 = u1 at h ⊢
  by_cases hc : u1 < 0x80 ∨ u1 > 0xBF
  · rw [if_pos hc] at h; simp at h
  · rw [if_neg hc] at h
    simp only at h
    split_ifs at h with ha hb hd
    simp only [true_and, show ¬ ((2 : Nat) = 3) by decide, show ¬ ((2 : Nat) = 4) by decide,
      false_and, or_false] at hd
    omega

theorem utf8_check_full_three (c0 c1 c2 c3 c4 : Int)
    (h : utf8_check_full [c0, c1, c2, c3, c4] 3 = true) :
    0x80 ≤ to_uchar c1 ∧ to_uchar c1 ≤ 0xBF ∧ 0x80 ≤ to_uchar c2 ∧ to_uchar c2 ≤ 0xBF ∧
      0x800 ≤ (to_uchar c0 % 16 * 64 + to_uchar c1 % 64) * 64 + to_uchar c2 % 64 ∧
      ¬ (0xD800 ≤ (to_uchar c0 % 16 * 64 + to_uchar c1 % 64) * 64 + to_uchar c2 % 64 ∧
        (to_uchar c0 % 16 * 64 + to_uchar c1 % 64) * 64 + to_uchar c2 % 64 ≤ 0xDFFF) := by
  simp only [utf8_check_full, List.getD_cons_zero, show ¬ ((3 : Nat) = 2) by decide, if_false,
    if_true, List.drop_succ_cons, List.drop_zero,
    show (3 : Nat) - 1 = 2 from rfl, List.take_succ_cons, List.take_zero, utf8_check_cont] at h
  generalize to_uchar c0 = u0 at h ⊢
  generalize to_uchar c1 = u1 at h ⊢
  generalize to_uchar c2 = u2 at h ⊢
  by_cases hc : u1 < 0x80 ∨ u1 > 0xBF
  · rw [if_pos hc] at h; simp at h
  rw [if_neg hc] at h
  by_cases hc2 : u2 < 0x80 ∨ u2 > 0xBF
  · rw [if_pos hc2] at h; simp at h
  rw [if_neg hc2] at h
  simp only at h
  split_ifs at h with ha hb hd
  simp only [true_and, show ¬ ((3 : Nat) = 2) by decide, show ¬ ((3 : Nat) = 4) by decide,
    false_and, or_false, false_or] at hd
  omega

theorem utf8_check_full_four (c0 c1 c2 c3 c4 : Int)
    (h : utf8_check_full [c0, c1, c2, c3, c4] 4 = true) :
    0x80 ≤ to_uchar c1 ∧ to_uchar c1 ≤ 0xBF ∧ 0x80 ≤ to_uchar c2 ∧ to_uchar c2 ≤ 0xBF ∧
      0x80 ≤ to_uchar c3 ∧ to_uchar c3 ≤ 0xBF ∧
      0x10000 ≤ ((to_uchar c0 % 8 * 64 + to_uchar c1 % 64) * 64 + to_uchar c2 % 64) * 64 +
        to_uchar c3 % 64 ∧
      ((to_uchar c0 % 8 * 64 + to_uchar c1 % 64) * 64 + to_uchar c2 % 64) * 64 +
        to_uchar c3 % 64 ≤ 0x10FFFF := by
  simp only [utf8_check_full, List.getD_cons_zero, show ¬ ((4 : Nat) = 2) by decide,
    show ¬ ((4 : Nat) = 3) by decide, if_false,
    if_true, List.drop_succ_cons, List.drop_zero,
    show (4 : Nat) - 1 = 3 from rfl, List.take_succ_cons, List.take_zero, utf8_check_cont] at h
  generalize to_uchar c0 = u0 at h ⊢
  generalize to_uchar c1 = u1 at h ⊢
  generalize to_uchar c2 = u2 at h ⊢
  generalize to_uchar c3 = u3 at h ⊢
  by_cases hc : u1 < 0x80 ∨ u1 > 0xBF
  · rw [if_pos hc] at h; simp at h
  rw [if_neg hc] at h
  by_cases hc2 : u2 < 0x80 ∨ u2 > 0xBF
  · rw [if_pos hc2] at h; simp at h
  rw [if_neg hc2] at h
  by_cases hc3 : u3 < 0x80 ∨ u3 > 0xBF
  · rw [if_pos hc3] at h; simp at h
  rw [if_neg hc3] at h
  simp only at h
  split_ifs at h with ha hb hd
  simp only [true_and, show ¬ ((4 : Nat) = 2) by decide, show ¬ ((4 : Nat) = 3) by decide,
    false_and, or_false, false_or] at hd
  omega

theorem utf8_scan_range (r : Nat × Nat) (st : List (Nat × Nat)) (b : Nat) (rest : List Nat)
    (h1 : r.1 ≤ b) (h2 : b ≤ r.2) : utf8_scan (r :: st) (b :: rest) = utf8_scan st rest := by
  simp only [utf8_scan, utf8_step]
  rw [if_pos ⟨h1, h2⟩]

theorem utf8_scan_lead (b : Nat) (st : List (Nat × Nat)) (rest : List Nat)
    (h : utf8_lead b = some st) : utf8_scan [] (b :: rest) = utf8_scan st rest := by
  simp only [utf8_scan, utf8_step, h]

/-- A sequence that `utf8_check_first` and `utf8_check_full` accept is one
well-formed sequence, and has no NUL. -/
theorem utf8_check_full_well_formed (c0 c1 c2 c3 c4 : Int) (count : Nat)
    (hcount : utf8_check_first c0 = count) (h2 : 2 ≤ count)
    (hfull : utf8_check_full [c0, c1, c2, c3, c4] count = true) :
    utf8_scan [] (([c0, c1, c2, c3, c4].take count).map to_uchar) = some [] ∧
      ∀ c ∈ [c0, c1, c2, c3, c4].take count, to_uchar c ≠ 0 := by
  have hu0 : 0x80 ≤ to_uchar c0 ∧ to_uchar c0 < 256 := by
    unfold utf8_check_first at hcount
    have : to_uchar c0 < 256 := by unfold to_uchar; omega
    simp only at hcount
    split_ifs at hcount <;> omega
  unfold utf8_check_first at hcount
  simp only at hcount
  have hcases : count = 2 ∨ count = 3 ∨ count = 4 := by
    split_ifs at hcount <;> omega
  rcases hcases with rfl | rfl | rfl
  · obtain ⟨k1, k2, k3⟩ := utf8_check_full_two c0 c1 c2 c3 c4 hfull
    have hl : utf8_lead (to_uchar c0) = some [(0x80, 0xBF)] := by
      unfold utf8_lead
      split_ifs at hcount <;> first | omega | (rw [if_neg (by omega), if_pos (by omega)])
    refine ⟨?_, ?_⟩
    · simp only [List.take_succ_cons, List.take_zero, List.map_cons, List.map_nil]
      rw [utf8_scan_lead _ _ _ hl, utf8_scan_range _ _ _ _ k1 k2]
      rfl
    · intro c hc
      simp only [List.take_succ_cons, List.take_zero, List.mem_cons, List.mem_singleton,
        List.not_mem_nil, or_false] at hc
      rcases hc with rfl | rfl <;> omega
  · obtain ⟨k1, k2, k3, k4, k5, k6⟩ := utf8_check_full_three c0 c1 c2 c3 c4 hfull
    have hl : ∃ lo hi, utf8_lead (to_uchar c0) = some [(lo, hi), (0x80, 0xBF)] ∧
        lo ≤ to_uchar c1 ∧ to_uchar c1 ≤ hi := by
      unfold utf8_lead
      have hr : 0xE0 ≤ to_uchar c0 ∧ to_uchar c0 ≤ 0xEF := by
        split_ifs at hcount <;> omega
      rw [if_neg (by omega), if_neg (by omega)]
      by_cases hE0 : to_uchar c0 = 0xE0
      · rw [if_pos hE0]
        exact ⟨_, _, rfl, by show 0xA0 ≤ to_uchar c1; omega, k2⟩
      rw [if_neg hE0]
      by_cases hE1 : (0xE1 ≤ to_uchar c0 ∧ to_uchar c0 ≤ 0xEC) ∨ to_uchar c0 = 0xEE ∨
          to_uchar c0 = 0xEF
      · rw [if_pos hE1]
        exact ⟨_, _, rfl, k1, k2⟩
      rw [if_neg hE1, if_pos (by omega)]
      exact ⟨_, _, rfl, k1, by show to_uchar c1 ≤ 0x9F; omega⟩
    obtain ⟨lo, hi, hl, hlo, hhi⟩ := hl
    refine ⟨?_, ?_⟩
    · simp only [List.take_succ_cons, List.take_zero, List.map_cons, List.map_nil]
      rw [utf8_scan_lead _ _ _ hl, utf8_scan_range _ _ _ _ hlo hhi,
        utf8_scan_range _ _ _ _ k3 k4]
      rfl
    · intro c hc
      simp only [List.take_succ_cons, List.take_zero, List.mem_cons, List.mem_singleton,
        List.not_mem_nil, or_false] at hc
      rcases hc with rfl | rfl | rfl <;> omega
  · obtain ⟨k1, k2, k3, k4, k5, k6, k7, k8⟩ := utf8_check_full_four c0 c1 c2 c3 c4 hfull
    have hl : ∃ lo hi, utf8_lead (to_uchar c0) = some [(lo, hi), (0x80, 0xBF), (0x80, 0xBF)] ∧
        lo ≤ to_uchar c1 ∧ to_uchar c1 ≤ hi := by
      unfold utf8_lead
      have hr : 0xF0 ≤ to_uchar c0 ∧ to_uchar c0 ≤ 0xF4 := by
        split_ifs at hcount <;> omega
      rw [if_neg (by omega), if_neg (by omega), if_neg (by omega), if_neg (by omega),
        if_neg (by omega)]
      by_cases hF0 : to_uchar c0 = 0xF0
      · rw [if_pos hF0]
        exact ⟨_, _, rfl, by show 0x90 ≤ to_uchar c1; omega, k2⟩
      rw [if_neg hF0]
      by_cases hF1 : 0xF1 ≤ to_uchar c0 ∧ to_uchar c0 ≤ 0xF3
      · rw [if_pos hF1]
        exact ⟨_, _, rfl, k1, k2⟩
      rw [if_neg hF1, if_pos (by omega)]
      exact ⟨_, _, rfl, k1, by show to_uchar c1 ≤ 0x8F; omega⟩
    obtain ⟨lo, hi, hl, hlo, hhi⟩ := hl
    refine ⟨?_, ?_⟩
    · simp only [List.take_succ_cons, List.take_zero, List.map_cons, List.map_nil]
      rw [utf8_scan_lead _ _ _ hl, utf8_scan_range _ _ _ _ hlo hhi,
        utf8_scan_range _ _ _ _ k3 k4, utf8_scan_range _ _ _ _ k5 k6]
      rfl
    · intro c hc
      simp only [List.take_succ_cons, List.take_zero, List.mem_cons, List.mem_singleton,
        List.not_mem_nil, or_false] at hc
      rcases hc with rfl | rfl | rfl | rfl <;> omega

/-- The definition at work: the euro sign and a code point beyond the basic
plane are well-formed; an encoded surrogate, an encoding longer than needed, a
code point above U+10FFFF, a continuation byte alone and a sequence cut short
are not. -/
theorem utf8_well_formed_examples :
    utf8_well_formed [0xE2, 0x82, 0xAC] ∧ utf8_well_formed [0x61, 0xF0, 0x9F, 0x98, 0x80] ∧
      ¬ utf8_well_formed [0xED, 0xA0, 0x80] ∧ ¬ utf8_well_formed [0xC0, 0x80] ∧
      ¬ utf8_well_formed [0xE0, 0x80, 0x80] ∧ ¬ utf8_well_formed [0xF4, 0x90, 0x80, 0x80] ∧
      ¬ utf8_well_formed [0x80] ∧ ¬ utf8_well_formed [0xE2, 0x82] ∧
      ¬ utf8_well_formed [0xFF] := by
  decide

theorem buffer_pending_drop (buffer : List Int) :
    ∀ (k pos : Nat), k ≤ (buffer_pending buffer pos).length →
      buffer_pending buffer (pos + k) = (buffer_pending buffer pos).drop k := by
  intro k
  induction k with
  | zero => intro pos _; rfl
  | succ k ih =>
    intro pos h
    by_cases h0 : buffer.getD pos 0 = 0
    · rw [buffer_pending_zero buffer pos h0] at h
      simp at h
    · rw [buffer_pending_cons buffer pos h0] at h ⊢
      simp only [List.length_cons] at h
      rw [List.drop_succ_cons, ← ih (pos + 1) (by omega)]
      congr 1
      omega

theorem buffer_pending_end (buffer : List Int) (pos : Nat) :
    buffer.getD (pos + (buffer_pending buffer pos).length) 0 = 0 := by
  have h := buffer_pending_drop buffer (buffer_pending buffer pos).length pos (Nat.le_refl _)
  rw [List.drop_length] at h
  by_contra hne
  rw [buffer_pending_cons buffer _ hne] at h
  cases h

theorem buffer_pending_getD (buffer : List Int) (pos j : Nat)
    (h : j < (buffer_pending buffer pos).length) :
    (buffer_pending buffer pos).getD j 0 = buffer.getD (pos + j) 0 ∧
      buffer.getD (pos + j) 0 ≠ 0 := by
  have hd := buffer_pending_drop buffer j pos (Nat.le_of_lt h)
  have hne : buffer.getD (pos + j) 0 ≠ 0 := by
    intro h0
    rw [buffer_pending_zero buffer _ h0] at hd
    have := congrArg List.length hd
    simp only [List.length_nil, List.length_drop] at this
    omega
  refine ⟨?_, hne⟩
  rw [buffer_pending_cons buffer _ hne] at hd
  have := congrArg (fun l => l.headD 0) hd
  simp only [List.headD_cons] at this
  rw [this, ← getD_eq_headD_drop]

theorem stream_init_decoded (g : get_func) (d : List Nat) : (lex_init g d).stream.decoded := by
  intro _
  have hw : utf8_well_formed ((buffer_pending [0, 0, 0, 0, 0] 0).map to_uchar) := by decide
  refine ⟨hw, ?_, ?_⟩
  · show 0 ≤ _
    exact Nat.zero_le _
  · intro h
    rfl

theorem stream_unget_decoded (s : stream_t) (c : Int) (h : s.decoded) :
    (stream_unget s c).decoded := by
  unfold stream_unget
  by_cases hc : c = STREAM_STATE_EOF ∨ c = STREAM_STATE_ERROR
  · rw [if_pos hc]
    exact h
  · rw [if_neg hc]
    have hstate : ∀ (t : stream_t), t.state = s.state → t.buffer = s.buffer →
        t.buffer_pos = s.buffer_pos - 1 → t.decoded := by
      intro t h1 h2 h3 hOK
      rw [h1] at hOK
      obtain ⟨k1, k2, k3⟩ := h hOK
      rw [h2, h3]
      exact ⟨k1, by omega, fun hp => by omega⟩
    apply hstate
    · simp only; split_ifs <;> rfl
    · simp only; split_ifs <;> rfl
    · simp only; split_ifs <;> rfl

/-- The step of `stream_get_next` and of the loop of `lex_save_cached`: past a
byte that is pending in the buffer. -/
theorem decoded_advance (s t : stream_t) (h : s.decoded) (hne : s.buffer.getD s.buffer_pos 0 ≠ 0)
    (h1 : t.state = s.state) (h2 : t.buffer = s.buffer) (h3 : t.buffer_pos = s.buffer_pos + 1) :
    t.decoded := by
  intro hOK
  rw [h1] at hOK
  obtain ⟨k1, k2, k3⟩ := h hOK
  rw [h2, h3]
  have hend := buffer_pending_end s.buffer 0
  rw [Nat.zero_add] at hend
  have hlt : s.buffer_pos < (buffer_pending s.buffer 0).length := by
    by_contra hge
    have hcases : s.buffer_pos = (buffer_pending s.buffer 0).length ∨
        s.buffer_pos = (buffer_pending s.buffer 0).length + 1 := by omega
    rcases hcases with hp | hp
    · rw [hp] at hne
      exact hne hend
    · exact hne (k3 hp)
  exact ⟨k1, by omega, fun hp => by omega⟩

theorem stream_get_next_decoded (lex : lex_t) (e : json_error_t) (h : lex.stream.decoded)
    (hne : lex.stream.buffer.getD lex.stream.buffer_pos 0 ≠ 0) :
    (stream_get_next lex e).2.1.stream.decoded := by
  rw [stream_get_next_eq]
  exact decoded_advance lex.stream _ h hne rfl rfl rfl

/-- The stream after a byte has been put at the start of the buffer and
`buffer_pos` set to 0: `stream_get_next` hands out that byte. -/
theorem stream_get_next_fresh (lex : lex_t) (e : json_error_t)
    (hw : utf8_well_formed ((buffer_pending lex.stream.buffer 0).map to_uchar))
    (hp : lex.stream.buffer_pos = 0)
    (h0 : (buffer_pending lex.stream.buffer 0) = [] → lex.stream.buffer.getD 1 0 = 0) :
    (stream_get_next lex e).2.1.stream.decoded := by
  rw [stream_get_next_eq]
  intro _
  refine ⟨hw, ?_, ?_⟩
  · show lex.stream.buffer_pos + 1 ≤ _
    omega
  · intro hpos
    have hpos' : lex.stream.buffer_pos + 1 = (buffer_pending lex.stream.buffer 0).length + 1 :=
      hpos
    have hl : (buffer_pending lex.stream.buffer 0).length = 0 := by omega
    show lex.stream.buffer.getD (lex.stream.buffer_pos + 1) 0 = 0
    rw [hp]
    exact h0 (List.length_eq_zero.mp hl)

theorem stream_get_decoded (lex : lex_t) (e : json_error_t) (hg : lex.stream.good)
    (h : lex.stream.decoded) : (stream_get lex e).2.1.stream.decoded := by
  obtain ⟨hwf, hlen⟩ := hg
  unfold stream_get stream_get_out
  simp only
  by_cases h1 : lex.stream.state ≠ STREAM_STATE_OK
  · rw [if_pos h1]
    exact h
  rw [if_neg h1]
  by_cases h2 : lex.stream.buffer.getD lex.stream.buffer_pos 0 = 0
  · rw [if_pos h2]
    by_cases h3 : (lex.stream.get.call lex.stream.data).1 = EOF
    · rw [if_pos h3]
      intro hc
      exact absurd hc eof_ne_ok
    rw [if_neg h3]
    have hrange := (get_call_range lex.stream.get lex.stream.data).resolve_left h3
    generalize lex.stream.get.call lex.stream.data = r at h3 hrange ⊢
    obtain ⟨c, d1⟩ := r
    simp only at h3 hrange ⊢
    obtain ⟨b, rfl⟩ : ∃ b : Nat, c = b := ⟨c.toNat, by omega⟩
    have hb : b < 256 := by omega
    obtain ⟨a0, a1, a2, a3, a4, hbuf⟩ := length_five lex.stream.buffer hlen
    by_cases h4 : (0x80 : Int) ≤ (b : Int) ∧ (b : Int) ≤ 0xFF
    · rw [if_pos h4]
      by_cases h5 : utf8_check_first (b : Int) = 0
      · rw [if_pos h5]
        intro hc
        exact absurd hc error_ne_ok
      rw [if_neg h5]
      obtain ⟨hc2, hc4⟩ := utf8_check_first_high _ h4.1 h4.2 h5
      by_cases h6 : utf8_check_full (stream_get_rest (utf8_check_first (b : Int) - 1) 1
          lex.stream.get d1 (lex.stream.buffer.set 0 (to_char (b : Int)))).1
          (utf8_check_first (b : Int)) = false
      · rw [if_pos h6]
        intro hc
        exact absurd hc error_ne_ok
      rw [if_neg h6]
      have hfull : utf8_check_full (stream_get_rest (utf8_check_first (b : Int) - 1) 1
          lex.stream.get d1 (lex.stream.buffer.set 0 (to_char (b : Int)))).1
          (utf8_check_first (b : Int)) = true := by simpa using h6
      have hl5 : (stream_get_rest (utf8_check_first (b : Int) - 1) 1 lex.stream.get d1
          (lex.stream.buffer.set 0 (to_char (b : Int)))).1.length = 5 := by
        rw [stream_get_rest_length, List.length_set, hlen]
      have hq0 : (stream_get_rest (utf8_check_first (b : Int) - 1) 1 lex.stream.get d1
          (lex.stream.buffer.set 0 (to_char (b : Int)))).1.getD 0 0 = to_char (b : Int) := by
        rw [stream_get_rest_other _ _ _ _ _ 0 (Or.inl (by omega)),
          getD_set_self _ _ _ (by omega)]
      generalize (stream_get_rest (utf8_check_first (b : Int) - 1) 1 lex.stream.get d1
          (lex.stream.buffer.set 0 (to_char (b : Int)))) = q at hfull hl5 hq0 ⊢
      obtain ⟨c0, c1, c2, c3, c4, hB⟩ := length_five q.1 hl5
      rw [hB] at hfull hq0
      simp only [List.getD_cons_zero] at hq0
      have hcnt : utf8_check_first c0 = utf8_check_first (b : Int) := by
        rw [hq0, utf8_check_first_to_char b hb]
      generalize hcount : utf8_check_first (b : Int) = count at hfull hcnt hc2 hc4 h5 ⊢
      obtain ⟨hw, hnz⟩ := utf8_check_full_well_formed c0 c1 c2 c3 c4 count hcnt hc2 hfull
      have hnz' : ∀ c ∈ [c0, c1, c2, c3, c4].take count, c ≠ 0 := by
        intro c hc h0
        apply hnz c hc
        rw [h0]
        rfl
      have hpend : buffer_pending (q.1.set count 0) 0 = [c0, c1, c2, c3, c4].take count := by
        rw [hB]
        apply buffer_pending_eq
        · intro j hj
          simp only [List.length_take, List.length_cons, List.length_nil] at hj
          rw [Nat.zero_add, getD_set_other _ _ _ _ (by omega)]
          simp only [List.getD_eq_getElem?_getD]
          rw [List.getElem?_take_of_lt (by omega)]
        · exact hnz'
        · simp only [List.length_take, List.length_cons, List.length_nil]
          rw [Nat.zero_add, show min count 5 = count by omega]
          exact getD_set_self _ _ _ (by simp only [List.length_cons, List.length_nil]; omega)
      apply stream_get_next_fresh
      · show utf8_well_formed ((buffer_pending (q.1.set count 0) 0).map to_uchar)
        rw [hpend]
        exact hw
      · rfl
      · intro hnil
        have hnil' : buffer_pending (q.1.set count 0) 0 = [] := hnil
        rw [hpend] at hnil'
        have := congrArg List.length hnil'
        simp only [List.length_take, List.length_cons, List.length_nil] at this
        omega
    · rw [if_neg h4]
      -- an ASCII byte or a NUL
      have hb128 : b < 128 := by omega
      have hbuf0 : ((lex.stream.buffer.set 0 (to_char (b : Int))).set 1 0).getD 0 0 =
          to_char (b : Int) := by
        rw [getD_set_other _ _ _ _ (by omega), getD_set_self _ _ _ (by omega)]
      have hbuf1 : ((lex.stream.buffer.set 0 (to_char (b : Int))).set 1 0).getD 1 0 = 0 :=
        getD_set_self _ _ _ (by rw [List.length_set, hlen]; omega)
      apply stream_get_next_fresh
      · show utf8_well_formed ((buffer_pending
          ((lex.stream.buffer.set 0 (to_char (b : Int))).set 1 0) 0).map to_uchar)
        by_cases hz : b = 0
        · rw [buffer_pending_zero _ _ (by rw [hbuf0, hz]; rfl)]
          rfl
        · rw [buffer_pending_cons _ _ (by rw [hbuf0, to_char_ascii b hb128]; omega),
            buffer_pending_zero _ _ hbuf1, hbuf0]
          simp only [List.map_cons, List.map_nil, to_uchar_to_char b hb]
          exact utf8_scan_ascii_nil [b] (by simpa using hb128)
      · rfl
      · intro _
        exact hbuf1
  · rw [if_neg h2]
    exact stream_get_next_decoded lex e h h2

theorem lex_get_save_inv {P : stream_t → Prop} (hP : StreamInv P) (lex : lex_t)
    (e : json_error_t) (h : P lex.stream) : P (lex_get_save lex e).2.1.stream := by
  rw [(lex_get_save_stream lex e).1]
  exact hP.get lex e h

theorem lex_unget_unsave_inv {P : stream_t → Prop} (hP : StreamInv P) (lex : lex_t) (c : Int)
    (h : P lex.stream) : P (lex_unget_unsave lex c).stream := by
  unfold lex_unget_unsave
  split_ifs
  · exact hP.unget lex.stream c h
  · exact h

theorem lex_scan_digits_inv {P : stream_t → Prop} (hP : StreamInv P) :
    ∀ (n : Nat) (lex : lex_t) (c : Int) (e : json_error_t) (c1 : Int) (lex1 : lex_t)
      (e1 : json_error_t), P lex.stream →
      lex_scan_digits n lex c e = some (c1, lex1, e1) → P lex1.stream := by
  intro n
  induction n with
  | zero => intro lex c e c1 lex1 e1 _ h; simp [lex_scan_digits] at h
  | succ n ih =>
    intro lex c e c1 lex1 e1 hg h
    simp only [lex_scan_digits] at h
    by_cases hd : l_isdigit c = true
    · rw [if_pos hd] at h
      exact ih _ _ _ c1 lex1 e1 (lex_get_save_inv hP lex e hg) h
    · rw [if_neg hd] at h
      simp only [Option.some.injEq, Prod.mk.injEq] at h
      obtain ⟨_, rfl, _⟩ := h
      exact hg

theorem lex_scan_alpha_inv {P : stream_t → Prop} (hP : StreamInv P) :
    ∀ (n : Nat) (lex : lex_t) (c : Int) (e : json_error_t) (c1 : Int) (lex1 : lex_t)
      (e1 : json_error_t), P lex.stream →
      lex_scan_alpha n lex c e = some (c1, lex1, e1) → P lex1.stream := by
  intro n
  induction n with
  | zero => intro lex c e c1 lex1 e1 _ h; simp [lex_scan_alpha] at h
  | succ n ih =>
    intro lex c e c1 lex1 e1 hg h
    simp only [lex_scan_alpha] at h
    by_cases hd : l_isalpha c = true
    · rw [if_pos hd] at h
      exact ih _ _ _ c1 lex1 e1 (lex_get_save_inv hP lex e hg) h
    · rw [if_neg hd] at h
      simp only [Option.some.injEq, Prod.mk.injEq] at h
      obtain ⟨_, rfl, _⟩ := h
      exact hg

theorem lex_scan_string_hex_inv {P : stream_t → Prop} (hP : StreamInv P) :
    ∀ (n : Nat) (lex : lex_t) (c : Int) (e : json_error_t), P lex.stream →
      P (lex_scan_string_hex n lex c e).2.1.stream := by
  intro n
  induction n with
  | zero => intro lex c e hg; exact hg
  | succ n ih =>
    intro lex c e hg
    simp only [lex_scan_string_hex]
    by_cases hx : l_isxdigit c = false
    · rw [if_pos hx]
      exact hg
    · rw [if_neg hx]
      exact ih _ _ _ (lex_get_save_inv hP lex e hg)

theorem lex_scan_string_body_inv {P : stream_t → Prop} (hP : StreamInv P) (lex : lex_t)
    (c : Int) (e : json_error_t) (hg : P lex.stream) :
    P (lex_scan_string_body lex c e).2.1.stream := by
  unfold lex_scan_string_body
  by_cases h1 : c = STREAM_STATE_ERROR
  · rw [if_pos h1]; exact hg
  rw [if_neg h1]
  by_cases h2 : c = STREAM_STATE_EOF
  · rw [if_pos h2]; exact hg
  rw [if_neg h2]
  by_cases h3 : 0 ≤ c ∧ c ≤ 0x1F
  · rw [if_pos h3]
    have hs := lex_unget_unsave_inv hP lex c hg
    simp only
    by_cases h4 : c = 10
    · rw [if_pos h4]; exact hs
    · rw [if_neg h4]; exact hs
  rw [if_neg h3]
  have hg1 := lex_get_save_inv hP lex e hg
  by_cases h4 : c = 92
  · rw [if_pos h4]
    simp only
    by_cases h5 : (lex_get_save lex e).1 = 117
    · rw [if_pos h5]
      exact lex_scan_string_hex_inv hP 4 _ _ _ (lex_get_save_inv hP _ _ hg1)
    rw [if_neg h5]
    by_cases h6 : (lex_get_save lex e).1 = 34 ∨ (lex_get_save lex e).1 = 92 ∨
        (lex_get_save lex e).1 = 47 ∨ (lex_get_save lex e).1 = 98 ∨
        (lex_get_save lex e).1 = 102 ∨ (lex_get_save lex e).1 = 110 ∨
        (lex_get_save lex e).1 = 114 ∨ (lex_get_save lex e).1 = 116
    · rw [if_pos h6]
      exact lex_get_save_inv hP _ _ hg1
    · rw [if_neg h6]
      exact hg1
  · rw [if_neg h4]
    exact hg1

theorem lex_scan_string_loop_inv {P : stream_t → Prop} (hP : StreamInv P) :
    ∀ (n : Nat) (lex : lex_t) (c : Int) (e : json_error_t) (b : Bool) (lex1 : lex_t)
      (e1 : json_error_t), P lex.stream →
      lex_scan_string_loop n lex c e = some (b, lex1, e1) → P lex1.stream := by
  intro n
  induction n with
  | zero => intro lex c e b lex1 e1 _ h; simp [lex_scan_string_loop] at h
  | succ n ih =>
    intro lex c e b lex1 e1 hg h
    simp only [lex_scan_string_loop] at h
    by_cases hq : c = 34
    · rw [if_pos hq] at h
      simp only [Option.some.injEq, Prod.mk.injEq] at h
      obtain ⟨_, rfl, _⟩ := h
      exact hg
    · rw [if_neg hq] at h
      have h1 := lex_scan_string_body_inv hP lex c e hg
      generalize lex_scan_string_body lex c e = q at h h1
      obtain ⟨oc, lex2, e2⟩ := q
      cases oc with
      | none =>
        simp only [Option.some.injEq, Prod.mk.injEq] at h
        obtain ⟨_, rfl, _⟩ := h
        exact h1
      | some c2 => exact ih lex2 c2 e2 b lex1 e1 h1 h

theorem invalid_ne_string : TOKEN_INVALID ≠ TOKEN_STRING := by decide

/-- The stream that `lex_scan_string` leaves is the one its first pass leaves. -/
theorem lex_scan_string_first_pass (lex : lex_t) (e : json_error_t) (lex1 : lex_t)
    (e1 : json_error_t) (h : lex_scan_string lex e = some (lex1, e1)) :
    ∃ b lex2 e2, lex_scan_string_loop (lex.stream.data.length + 6)
        (lex_get_save { lex with value := lex_value.string none, token := TOKEN_INVALID } e).2.1
        (lex_get_save { lex with value := lex_value.string none, token := TOKEN_INVALID } e).1
        (lex_get_save { lex with value := lex_value.string none, token := TOKEN_INVALID } e).2.2 =
          some (b, lex2, e2) ∧
      lex1.stream = lex2.stream ∧ lex1.saved_text = lex2.saved_text ∧
      (lex1.token = TOKEN_STRING → b = true ∧
        ∃ t, lex_scan_string_decode lex2 (lex2.saved_text.length + 1) (lex2.saved_text.drop 1)
          [] e2 = some (some t, e1) ∧ lex1.value = lex_value.string (some t)) := by
  unfold lex_scan_string at h
  simp only at h
  cases hloop : lex_scan_string_loop (lex.stream.data.length + 6)
      (lex_get_save { lex with value := lex_value.string none, token := TOKEN_INVALID } e).2.1
      (lex_get_save { lex with value := lex_value.string none, token := TOKEN_INVALID } e).1
      (lex_get_save { lex with value := lex_value.string none, token := TOKEN_INVALID } e).2.2 with
  | none => rw [hloop] at h; simp at h
  | some r =>
    obtain ⟨b, lex2, e2⟩ := r
    have ht2 := lex_scan_string_loop_token _ _ _ _ _ _ _ hloop
    rw [lex_get_save_token] at ht2
    rw [hloop] at h
    refine ⟨b, lex2, e2, rfl, ?_⟩
    cases b with
    | false =>
      simp only [Option.some.injEq, Prod.mk.injEq] at h
      obtain ⟨rfl, _⟩ := h
      refine ⟨rfl, rfl, fun ht => ?_⟩
      have ht' : lex2.token = TOKEN_STRING := ht
      rw [ht2] at ht'
      exact absurd ht' invalid_ne_string
    | true =>
      simp only at h
      cases hdec : lex_scan_string_decode lex2 (lex2.saved_text.length + 1)
          (lex2.saved_text.drop 1) [] e2 with
      | none => rw [hdec] at h; simp at h
      | some d =>
        obtain ⟨ot, e3⟩ := d
        rw [hdec] at h
        cases ot with
        | none =>
          simp only [Option.some.injEq, Prod.mk.injEq] at h
          obtain ⟨rfl, _⟩ := h
          refine ⟨rfl, rfl, fun ht => ?_⟩
          have ht' : lex2.token = TOKEN_STRING := ht
          rw [ht2] at ht'
          exact absurd ht' invalid_ne_string
        | some t =>
          simp only [Option.some.injEq, Prod.mk.injEq] at h
          obtain ⟨rfl, rfl⟩ := h
          exact ⟨rfl, rfl, fun _ => ⟨rfl, t, rfl, rfl⟩⟩

theorem lex_scan_string_inv {P : stream_t → Prop} (hP : StreamInv P) (lex : lex_t)
    (e : json_error_t) (lex1 : lex_t) (e1 : json_error_t) (hs : P lex.stream)
    (h : lex_scan_string lex e = some (lex1, e1)) : P lex1.stream := by
  obtain ⟨b, lex2, e2, hloop, hst, _, _⟩ := lex_scan_string_first_pass lex e lex1 e1 h
  rw [hst]
  exact lex_scan_string_loop_inv hP _ _ _ _ b lex2 e2
    (lex_get_save_inv hP { lex with value := lex_value.string none, token := TOKEN_INVALID } e hs)
    hloop

theorem lex_scan_number_exponent_inv {P : stream_t → Prop} (hP : StreamInv P) (fuel : Nat)
    (lex : lex_t) (e : json_error_t) (oc : Option Int) (lex1 : lex_t) (e1 : json_error_t)
    (hs : P lex.stream) (h : lex_scan_number_exponent fuel lex e = some (oc, lex1, e1)) :
    P lex1.stream := by
  unfold lex_scan_number_exponent at h
  simp only at h
  have hg1 := lex_get_save_inv hP lex e hs
  have hg2 : P
      (if (lex_get_save lex e).1 = 43 ∨ (lex_get_save lex e).1 = 45 then
        lex_get_save (lex_get_save lex e).2.1 (lex_get_save lex e).2.2
       else lex_get_save lex e).2.1.stream := by
    split_ifs
    · exact lex_get_save_inv hP _ _ hg1
    · exact hg1
  generalize (if (lex_get_save lex e).1 = 43 ∨ (lex_get_save lex e).1 = 45 then
        lex_get_save (lex_get_save lex e).2.1 (lex_get_save lex e).2.2
       else lex_get_save lex e) = r at h hg2
  by_cases hd : l_isdigit r.1 = false
  · rw [if_pos hd] at h
    simp only [Option.some.injEq, Prod.mk.injEq] at h
    obtain ⟨_, rfl, _⟩ := h
    exact lex_unget_unsave_inv hP _ _ hg2
  · rw [if_neg hd] at h
    have hg3 := lex_get_save_inv hP r.2.1 r.2.2 hg2
    cases hdig : lex_scan_digits fuel (lex_get_save r.2.1 r.2.2).2.1 (lex_get_save r.2.1 r.2.2).1
        (lex_get_save r.2.1 r.2.2).2.2 with
    | none => rw [hdig] at h; simp at h
    | some q =>
      obtain ⟨c2, lex2, e2⟩ := q
      rw [hdig] at h
      simp only [Option.some.injEq, Prod.mk.injEq] at h
      obtain ⟨_, rfl, _⟩ := h
      exact lex_scan_digits_inv hP fuel _ _ _ c2 lex2 e2 hg3 hdig

theorem lex_scan_number_fraction_inv {P : stream_t → Prop} (hP : StreamInv P) (fuel : Nat)
    (lex : lex_t) (e : json_error_t) (oc : Option Int) (lex1 : lex_t) (e1 : json_error_t)
    (hs : P lex.stream) (h : lex_scan_number_fraction fuel lex e = some (oc, lex1, e1)) :
    P lex1.stream := by
  unfold lex_scan_number_fraction at h
  simp only at h
  have hp : P (lex_get lex e).2.1.stream := hP.get lex e hs
  by_cases hd : l_isdigit (lex_get lex e).1 = false
  · rw [if_pos hd] at h
    simp only [Option.some.injEq, Prod.mk.injEq] at h
    obtain ⟨_, rfl, _⟩ := h
    exact hP.unget _ _ hp
  · rw [if_neg hd] at h
    have hg2 : P (lex_save (lex_get lex e).2.1 (lex_get lex e).1).stream := hp
    have hg3 := lex_get_save_inv hP _ (lex_get lex e).2.2 hg2
    cases hdig : lex_scan_digits fuel
        (lex_get_save (lex_save (lex_get lex e).2.1 (lex_get lex e).1) (lex_get lex e).2.2).2.1
        (lex_get_save (lex_save (lex_get lex e).2.1 (lex_get lex e).1) (lex_get lex e).2.2).1
        (lex_get_save (lex_save (lex_get lex e).2.1 (lex_get lex e).1) (lex_get lex e).2.2).2.2 with
    | none => rw [hdig] at h; simp at h
    | some q =>
      obtain ⟨c2, lex2, e2⟩ := q
      rw [hdig] at h
      simp only [Option.some.injEq, Prod.mk.injEq] at h
      obtain ⟨_, rfl, _⟩ := h
      exact lex_scan_digits_inv hP fuel _ _ _ c2 lex2 e2 hg3 hdig

theorem lex_scan_number_tail_inv {P : stream_t → Prop} (hP : StreamInv P)
    (ctx : json_context_t) (fuel : Nat) (lex : lex_t) (c : Int) (flags : load_flags)
    (e : json_error_t) (r : Int × lex_t × json_error_t) (hg : P lex.stream)
    (h : lex_scan_number_tail ctx fuel lex c flags e = some r) : P r.2.1.stream := by
  unfold lex_scan_number_tail at h
  by_cases h1 : c ≠ 46 ∧ c ≠ 69 ∧ c ≠ 101
  · rw [if_pos h1] at h
    simp only [Option.some.injEq] at h
    rw [← h, lex_scan_number_integer_stream]
    exact lex_unget_unsave_inv hP lex c hg
  rw [if_neg h1] at h
  simp only at h
  have hfrac : ∀ oc lex2 e2,
      (if c = 46 then lex_scan_number_fraction fuel lex e else some (some c, lex, e)) =
        some (oc, lex2, e2) → P lex2.stream := by
    intro oc lex2 e2 hq
    by_cases h2 : c = 46
    · rw [if_pos h2] at hq
      exact lex_scan_number_fraction_inv hP fuel lex e oc lex2 e2 hg hq
    · rw [if_neg h2] at hq
      simp only [Option.some.injEq, Prod.mk.injEq] at hq
      obtain ⟨_, rfl, _⟩ := hq
      exact hg
  generalize (if c = 46 then lex_scan_number_fraction fuel lex e else some (some c, lex, e)) = fr
    at h hfrac
  cases fr with
  | none => simp at h
  | some q =>
    obtain ⟨oc, lex2, e2⟩ := q
    have hs2 := hfrac oc lex2 e2 rfl
    cases oc with
    | none =>
      simp only [Option.some.injEq] at h
      rw [← h]
      exact hs2
    | some c2 =>
      simp only at h
      by_cases h3 : c2 = 69 ∨ c2 = 101
      · rw [if_pos h3] at h
        cases hex : lex_scan_number_exponent fuel lex2 e2 with
        | none => rw [hex] at h; simp at h
        | some q3 =>
          obtain ⟨oc3, lex3, e3⟩ := q3
          rw [hex] at h
          have hs3 := lex_scan_number_exponent_inv hP fuel lex2 e2 oc3 lex3 e3 hs2 hex
          cases oc3 with
          | none =>
            simp only [Option.some.injEq] at h
            rw [← h]
            exact hs3
          | some c3 =>
            simp only [Option.some.injEq] at h
            rw [← h, lex_scan_number_real_stream]
            exact lex_unget_unsave_inv hP lex3 c3 hs3
      · rw [if_neg h3] at h
        simp only [Option.some.injEq] at h
        rw [← h, lex_scan_number_real_stream]
        exact lex_unget_unsave_inv hP lex2 c2 hs2

theorem lex_scan_number_inv {P : stream_t → Prop} (hP : StreamInv P) (ctx : json_context_t)
    (lex : lex_t) (c : Int) (flags : load_flags) (e : json_error_t)
    (r : Int × lex_t × json_error_t) (hs : P lex.stream)
    (h : lex_scan_number ctx lex c flags e = some r) : P r.2.1.stream := by
  unfold lex_scan_number at h
  simp only at h
  have hs0 : P ({ lex with token := TOKEN_INVALID } : lex_t).stream := hs
  generalize hL : ({ lex with token := TOKEN_INVALID } : lex_t) = L at h hs0
  have hfirst : P (if c = 45 then lex_get_save L e else (c, L, e)).2.1.stream := by
    by_cases h45 : c = 45
    · rw [if_pos h45]
      exact lex_get_save_inv hP L e hs0
    · rw [if_neg h45]
      exact hs0
  generalize (if c = 45 then lex_get_save L e else (c, L, e)) = q at h hfirst
  obtain ⟨c1, lex1, e1⟩ := q
  simp only at h hfirst
  by_cases h48 : c1 = 48
  · rw [if_pos h48] at h
    have hg2 := lex_get_save_inv hP lex1 e1 hfirst
    by_cases hd : l_isdigit (lex_get_save lex1 e1).1 = true
    · rw [if_pos hd] at h
      simp only [Option.some.injEq] at h
      rw [← h]
      exact lex_unget_unsave_inv hP _ _ hg2
    · rw [if_neg hd] at h
      exact lex_scan_number_tail_inv hP ctx _ _ _ flags _ r hg2 h
  rw [if_neg h48] at h
  by_cases hd : l_isdigit c1 = true
  · rw [if_pos hd] at h
    have hg2 := lex_get_save_inv hP lex1 e1 hfirst
    cases hdig : lex_scan_digits (lex.stream.data.length + 6) (lex_get_save lex1 e1).2.1
        (lex_get_save lex1 e1).1 (lex_get_save lex1 e1).2.2 with
    | none => rw [hdig] at h; simp at h
    | some q2 =>
      obtain ⟨c2, lex2, e2⟩ := q2
      rw [hdig] at h
      simp only at h
      exact lex_scan_number_tail_inv hP ctx _ lex2 c2 flags e2 r
        (lex_scan_digits_inv hP _ _ _ _ c2 lex2 e2 hg2 hdig) h
  · rw [if_neg hd] at h
    simp only [Option.some.injEq] at h
    rw [← h]
    exact lex_unget_unsave_inv hP _ _ hfirst

theorem lex_save_cached_loop_inv {P : stream_t → Prop} (hP : StreamInv P) :
    ∀ (n : Nat) (lex : lex_t), P lex.stream → P (lex_save_cached_loop n lex).stream := by
  intro n
  induction n with
  | zero => intro lex h; exact h
  | succ n ih =>
    intro lex h
    simp only [lex_save_cached_loop]
    by_cases hc : lex.stream.buffer.getD lex.stream.buffer_pos 0 ≠ 0
    · rw [if_pos hc]
      apply ih
      exact hP.cached lex.stream h hc
    · rw [if_neg hc]
      exact h

theorem lex_scan_token_inv {P : stream_t → Prop} (hP : StreamInv P) (ctx : json_context_t)
    (fuel : Nat) (lex : lex_t) (c : Int) (flags : load_flags) (e : json_error_t) (lex1 : lex_t)
    (e1 : json_error_t) (hs : P lex.stream)
    (h : lex_scan_token ctx fuel lex c flags e = some (lex1, e1)) : P lex1.stream := by
  unfold lex_scan_token at h
  by_cases h1 : c = 123 ∨ c = 125 ∨ c = 91 ∨ c = 93 ∨ c = 58 ∨ c = 44
  · rw [if_pos h1] at h
    simp only [Option.some.injEq, Prod.mk.injEq] at h
    obtain ⟨rfl, _⟩ := h
    exact hs
  rw [if_neg h1] at h
  by_cases h2 : c = 34
  · rw [if_pos h2] at h
    exact lex_scan_string_inv hP lex e lex1 e1 hs h
  rw [if_neg h2] at h
  by_cases h3 : l_isdigit c = true ∨ c = 45
  · rw [if_pos h3] at h
    cases hnum : lex_scan_number ctx lex c flags e with
    | none => rw [hnum] at h; simp at h
    | some r =>
      rw [hnum] at h
      simp only [Option.some.injEq, Prod.mk.injEq] at h
      obtain ⟨rfl, _⟩ := h
      exact lex_scan_number_inv hP ctx lex c flags e r hs hnum
  rw [if_neg h3] at h
  by_cases h4 : l_isalpha c = true
  · rw [if_pos h4] at h
    simp only at h
    have hg := lex_get_save_inv hP lex e hs
    cases hal : lex_scan_alpha fuel (lex_get_save lex e).2.1 (lex_get_save lex e).1
        (lex_get_save lex e).2.2 with
    | none => rw [hal] at h; simp at h
    | some q =>
      obtain ⟨c2, lex2, e2⟩ := q
      rw [hal] at h
      have hg2 := lex_scan_alpha_inv hP fuel _ _ _ c2 lex2 e2 hg hal
      have hs2 := lex_unget_unsave_inv hP lex2 c2 hg2
      simp only at h
      split_ifs at h <;>
      · simp only [Option.some.injEq, Prod.mk.injEq] at h
        obtain ⟨rfl, _⟩ := h
        exact hs2
  · rw [if_neg h4] at h
    simp only [Option.some.injEq, Prod.mk.injEq] at h
    obtain ⟨rfl, _⟩ := h
    exact lex_save_cached_loop_inv hP 5 lex hs

theorem lex_scan_space_inv {P : stream_t → Prop} (hP : StreamInv P) :
    ∀ (n : Nat) (lex : lex_t) (c : Int) (e : json_error_t) (c1 : Int) (lex1 : lex_t)
      (e1 : json_error_t), P lex.stream →
      lex_scan_space n lex c e = some (c1, lex1, e1) → P lex1.stream := by
  intro n
  induction n with
  | zero => intro lex c e c1 lex1 e1 _ h; simp [lex_scan_space] at h
  | succ n ih =>
    intro lex c e c1 lex1 e1 hg h
    simp only [lex_scan_space] at h
    by_cases hws : c = 32 ∨ c = 9 ∨ c = 10 ∨ c = 13
    · rw [if_pos hws] at h
      exact ih _ _ _ c1 lex1 e1 (hP.get lex e hg) h
    · rw [if_neg hws] at h
      simp only [Option.some.injEq, Prod.mk.injEq] at h
      obtain ⟨_, rfl, _⟩ := h
      exact hg

/-- A property of the stream kept by `stream_get`, `stream_unget` and the step
of `lex_save_cached` is kept by `lex_scan`. -/
theorem lex_scan_inv {P : stream_t → Prop} (hP : StreamInv P) (ctx : json_context_t)
    (lex : lex_t) (flags : load_flags) (e : json_error_t) (lex1 : lex_t) (e1 : json_error_t)
    (hs : P lex.stream) (h : lex_scan ctx lex flags e = some (lex1, e1)) : P lex1.stream := by
  unfold lex_scan at h
  simp only at h
  have hs0 : P (lex_clear lex).stream := by rw [lex_clear_stream]; exact hs
  have hs1 : P (lex_get (lex_clear lex) e).2.1.stream := hP.get _ e hs0
  cases hsp : lex_scan_space ((lex_clear lex).stream.data.length + 6)
      (lex_get (lex_clear lex) e).2.1 (lex_get (lex_clear lex) e).1
      (lex_get (lex_clear lex) e).2.2 with
  | none => rw [hsp] at h; simp at h
  | some q =>
    obtain ⟨c2, lex2, e2⟩ := q
    rw [hsp] at h
    simp only at h
    have hs2 := lex_scan_space_inv hP _ _ _ _ c2 lex2 e2 hs1 hsp
    by_cases hE : c2 = STREAM_STATE_EOF
    · rw [if_pos hE] at h
      simp only [Option.some.injEq, Prod.mk.injEq] at h
      obtain ⟨rfl, _⟩ := h
      exact hs2
    rw [if_neg hE] at h
    by_cases hR : c2 = STREAM_STATE_ERROR
    · rw [if_pos hR] at h
      simp only [Option.some.injEq, Prod.mk.injEq] at h
      obtain ⟨rfl, _⟩ := h
      exact hs2
    rw [if_neg hR] at h
    exact lex_scan_token_inv hP ctx _ (lex_save lex2 c2) c2 flags e2 lex1 e1 hs2 h

theorem stream_valid_inv : StreamInv stream_t.valid where
  get := fun lex e h =>
    ⟨(stream_get_left lex e h.1).1, stream_get_sane lex e h.1.1 h.2.1,
      stream_get_decoded lex e h.1 h.2.2⟩
  unget := fun s c h =>
    ⟨(stream_unget_left s c h.1).1, stream_unget_sane s c h.2.1, stream_unget_decoded s c h.2.2⟩
  cached := fun s h hne =>
    ⟨⟨⟨h.1.1.1, h.1.1.2⟩, h.1.2⟩, h.2.1, decoded_advance s _ h.2.2 hne rfl rfl rfl⟩

theorem lex_init_valid (g : get_func) (d : List Nat) : (lex_init g d).stream.valid :=
  ⟨stream_init_good g d, stream_init_sane g d, stream_init_decoded g d⟩

theorem prepend_ok (bs : List Nat) (r : Except (List Nat) (List Nat)) (payload : List Nat)
    (h : prepend bs r = .ok payload) : ∃ u, r = .ok u ∧ payload = bs ++ u := by
  cases r with
  | error msg => simp [prepend] at h
  | ok u =>
    simp only [prepend, Except.ok.injEq] at h
    exact ⟨u, rfl, h.symm⟩

/-- Bytes read before others: the state in between. -/
theorem utf8_scan_append_some (a b : List Nat) (st st1 : List (Nat × Nat))
    (h : utf8_scan st (a ++ b) = some st1) :
    ∃ s, utf8_scan st a = some s ∧ utf8_scan s b = some st1 := by
  rw [utf8_scan_append] at h
  cases hs : utf8_scan st a with
  | none => rw [hs] at h; cases h
  | some s =>
    rw [hs] at h
    exact ⟨s, rfl, h⟩

/-- ASCII bytes, at least one, before others: they are read in the empty
state and leave it empty. -/
theorem utf8_scan_ascii_append (a b : List Nat) (st st1 : List (Nat × Nat))
    (ha : ∀ x ∈ a, x < 0x80) (hne : a ≠ []) (hc : cont_state st)
    (h : utf8_scan st (a ++ b) = some st1) : st = [] ∧ utf8_scan [] b = some st1 := by
  obtain ⟨s, h1, h2⟩ := utf8_scan_append_some a b st st1 h
  obtain ⟨k1, k2⟩ := utf8_scan_ascii a ha hne st s hc h1
  subst k1 k2
  exact ⟨rfl, h2⟩

theorem utf8_scan_whole_append (a b : List Nat)
    (ha : utf8_scan [] a = some []) : utf8_scan [] (a ++ b) = utf8_scan [] b := by
  rw [utf8_scan_append, ha]
  rfl

theorem shortcut_byte_ascii (c : Nat) (hc : is_shortcut c) : c < 0x80 ∧ shortcut_byte c < 0x80 := by
  unfold is_shortcut at hc
  rcases hc with h | h | h | h | h | h | h | h <;> subst h <;> decide

theorem unicode_text_ascii (h1 h2 h3 h4 : Nat)
    (hh : is_hex h1 ∧ is_hex h2 ∧ is_hex h3 ∧ is_hex h4) :
    ∀ x ∈ [92, 117, h1, h2, h3, h4], x < 0x80 := by
  intro x hx
  have a1 := (is_hex_char h1 hh.1).2
  have a2 := (is_hex_char h2 hh.2.1).2
  have a3 := (is_hex_char h3 hh.2.2.1).2
  have a4 := (is_hex_char h4 hh.2.2.2).2
  simp only [List.mem_cons, List.mem_singleton, List.not_mem_nil, or_false] at hx
  rcases hx with rfl | rfl | rfl | rfl | rfl | rfl <;> omega

/-- The bytes that stand for a code point that is no surrogate are one
well-formed sequence. -/
theorem utf8_bytes_well_formed (v : Int) (h0 : 0 ≤ v) (h1 : v ≤ 0x10FFFF)
    (hs : ¬ (0xD800 ≤ v ∧ v ≤ 0xDFFF)) : utf8_scan [] (utf8_bytes v) = some [] :=
  utf8_encode_well_formed v _ hs (utf8_encode_some v h0 h1)

/-- The reference unescaping reads like the raw text: from the state in which
the raw text of well-formed elements is read, the unescaped bytes are read to
the same state. -/
theorem unescape_scan :
    ∀ (m : Nat) (items : List string_item), items.length ≤ m → (∀ i ∈ items, i.ok) →
      ∀ (st st1 : List (Nat × Nat)) (payload : List Nat), cont_state st →
        utf8_scan st (string_text items) = some st1 → unescape items = .ok payload →
        utf8_scan st payload = some st1 := by
  intro m
  induction m with
  | zero =>
    intro items hlen _ st st1 payload _ hsc hu
    have : items = [] := List.length_eq_zero.mp (Nat.le_zero.mp hlen)
    subst this
    simp only [unescape, Except.ok.injEq] at hu
    subst hu
    exact hsc
  | succ m ih =>
    intro items hlen hok st st1 payload hc hsc hu
    cases items with
    | nil =>
      simp only [unescape, Except.ok.injEq] at hu
      subst hu
      exact hsc
    | cons i rest =>
      obtain ⟨hi, hrest⟩ := string_item.ok_of_mem hok rfl
      have hlen1 : rest.length ≤ m := by simp at hlen; omega
      cases i with
      | lit bs =>
        simp only [string_text, string_item.text] at hsc
        simp only [unescape] at hu
        obtain ⟨u, hu1, rfl⟩ := prepend_ok _ _ _ hu
        obtain ⟨s, k1, k2⟩ := utf8_scan_append_some _ _ _ _ hsc
        rw [utf8_scan_append, k1]
        exact ih rest hlen1 hrest s st1 u (utf8_scan_cont bs st s hc k1) k2 hu1
      | shortcut c =>
        simp only [string_text, string_item.text] at hsc
        simp only [unescape] at hu
        obtain ⟨u, hu1, rfl⟩ := prepend_ok _ _ _ hu
        have hasc := shortcut_byte_ascii c hi
        obtain ⟨k1, k2⟩ := utf8_scan_ascii_append [92, c] _ st st1
          (by
            intro x hx
            simp only [List.mem_cons, List.mem_singleton, List.not_mem_nil, or_false] at hx
            rcases hx with rfl | rfl <;> omega)
          (by simp) hc hsc
        subst k1
        rw [utf8_scan_whole_append _ _
          (utf8_scan_ascii_nil [shortcut_byte c] (by simpa using hasc.2))]
        exact ih rest hlen1 hrest [] st1 u cont_state_nil k2 hu1
      | unicode h1 h2 h3 h4 =>
        simp only [string_text, string_item.text] at hsc
        obtain ⟨k1, k2⟩ := utf8_scan_ascii_append [92, 117, h1, h2, h3, h4] _ st st1
          (unicode_text_ascii h1 h2 h3 h4 hi) (by simp) hc hsc
        subst k1
        have hr := code_unit_range h1 h2 h3 h4 hi
        by_cases hs : 0xD800 ≤ code_unit h1 h2 h3 h4 ∧ code_unit h1 h2 h3 h4 ≤ 0xDBFF
        · -- a high surrogate
          cases rest with
          | nil => simp [unescape, hs] at hu
          | cons j rest1 =>
            obtain ⟨hj, hrest1⟩ := string_item.ok_of_mem hrest rfl
            cases j with
            | lit bs => simp [unescape, hs] at hu
            | shortcut c => simp [unescape, hs] at hu
            | unicode l1 l2 l3 l4 =>
              have hlr := code_unit_range l1 l2 l3 l4 hj
              simp only [string_text, string_item.text] at k2
              obtain ⟨_, k3⟩ := utf8_scan_ascii_append [92, 117, l1, l2, l3, l4] _ [] st1
                (unicode_text_ascii l1 l2 l3 l4 hj) (by simp) cont_state_nil k2
              by_cases hl : 0xDC00 ≤ code_unit l1 l2 l3 l4 ∧ code_unit l1 l2 l3 l4 ≤ 0xDFFF
              · simp only [unescape, hs, hl, and_self, ite_true] at hu
                obtain ⟨u, hu1, rfl⟩ := prepend_ok _ _ _ hu
                rw [utf8_scan_whole_append _ _
                  (utf8_bytes_well_formed _ (by omega) (by omega) (by omega))]
                exact ih rest1 (by simp at hlen; omega) hrest1 [] st1 u cont_state_nil k3 hu1
              · simp [unescape, hs, hl] at hu
        · by_cases hl : 0xDC00 ≤ code_unit h1 h2 h3 h4 ∧ code_unit h1 h2 h3 h4 ≤ 0xDFFF
          · rw [unescape_low h1 h2 h3 h4 rest hl] at hu
            cases hu
          · rw [unescape_unicode h1 h2 h3 h4 rest hs hl] at hu
            obtain ⟨u, hu1, rfl⟩ := prepend_ok _ _ _ hu
            rw [utf8_scan_whole_append _ _
              (utf8_bytes_well_formed _ (by omega) (by omega) (by omega))]
            exact ih rest hlen1 hrest [] st1 u cont_state_nil k2 hu1

/-- What `stream_get` does with the buffer: it returns the value of a terminal
state, or the byte pending in the buffer, or the first byte of a buffer that it
has filled anew. -/
theorem stream_get_shape (lex : lex_t) (e : json_error_t) (hwf : lex.stream.wf) :
    ((stream_get lex e).1 = STREAM_STATE_EOF ∨ (stream_get lex e).1 = STREAM_STATE_ERROR) ∨
      ((stream_get lex e).2.1.stream.state = STREAM_STATE_OK ∧
        lex.stream.buffer.getD lex.stream.buffer_pos 0 ≠ 0 ∧
        (stream_get lex e).2.1.stream.buffer = lex.stream.buffer ∧
        (stream_get lex e).2.1.stream.buffer_pos = lex.stream.buffer_pos + 1 ∧
        (stream_get lex e).1 = lex.stream.buffer.getD lex.stream.buffer_pos 0) ∨
      ((stream_get lex e).2.1.stream.state = STREAM_STATE_OK ∧
        lex.stream.buffer.getD lex.stream.buffer_pos 0 = 0 ∧
        (stream_get lex e).2.1.stream.buffer_pos = 1 ∧
        (stream_get lex e).1 = (stream_get lex e).2.1.stream.buffer.getD 0 0) := by
  unfold stream_get stream_get_out
  simp only
  by_cases h1 : lex.stream.state ≠ STREAM_STATE_OK
  · rw [if_pos h1]
    rcases hwf.2 with hs | hs | hs
    · exact absurd hs h1
    · exact Or.inl (Or.inl hs)
    · exact Or.inl (Or.inr hs)
  rw [if_neg h1]
  have hOK : lex.stream.state = STREAM_STATE_OK := by
    by_contra hc; exact h1 hc
  by_cases h2 : lex.stream.buffer.getD lex.stream.buffer_pos 0 = 0
  · rw [if_pos h2]
    by_cases h3 : (lex.stream.get.call lex.stream.data).1 = EOF
    · rw [if_pos h3]
      exact Or.inl (Or.inl rfl)
    rw [if_neg h3]
    by_cases h4 : (0x80 : Int) ≤ (lex.stream.get.call lex.stream.data).1 ∧
        (lex.stream.get.call lex.stream.data).1 ≤ 0xFF
    · rw [if_pos h4]
      by_cases h5 : utf8_check_first (lex.stream.get.call lex.stream.data).1 = 0
      · rw [if_pos h5]
        exact Or.inl (Or.inr rfl)
      rw [if_neg h5]
      by_cases h6 : utf8_check_full (stream_get_rest
          (utf8_check_first (lex.stream.get.call lex.stream.data).1 - 1) 1 lex.stream.get
          (lex.stream.get.call lex.stream.data).2
          (lex.stream.buffer.set 0 (to_char (lex.stream.get.call lex.stream.data).1))).1
          (utf8_check_first (lex.stream.get.call lex.stream.data).1) = false
      · rw [if_pos h6]
        exact Or.inl (Or.inr rfl)
      · rw [if_neg h6, stream_get_next_eq]
        exact Or.inr (Or.inr ⟨hOK, h2, rfl, rfl⟩)
    · rw [if_neg h4, stream_get_next_eq]
      exact Or.inr (Or.inr ⟨hOK, h2, rfl, rfl⟩)
  · rw [if_neg h2, stream_get_next_eq]
    exact Or.inr (Or.inl ⟨hOK, h2, rfl, rfl, rfl⟩)

theorem stream_get_back (lex : lex_t) (e : json_error_t) (hwf : lex.stream.wf) :
    ((stream_get lex e).1 = STREAM_STATE_EOF ∨ (stream_get lex e).1 = STREAM_STATE_ERROR) ∨
      Back (stream_get lex e).2.1.stream (stream_get lex e).1 := by
  rcases stream_get_shape lex e hwf with h | ⟨h1, _, h3, h4, h5⟩ | ⟨h1, _, h3, h4⟩
  · exact Or.inl h
  · refine Or.inr ⟨h1, by omega, ?_⟩
    rw [h3, h4, h5]
    rfl
  · refine Or.inr ⟨h1, by omega, ?_⟩
    rw [h3, h4]

/-- After `stream_get` has handed out a byte, the byte and the bytes then
pending are the bytes that were pending, or they are well-formed UTF-8 and
nothing was pending. -/
theorem stream_get_pending (lex : lex_t) (e : json_error_t) (hv : lex.stream.valid) :
    ((stream_get lex e).1 = STREAM_STATE_EOF ∨ (stream_get lex e).1 = STREAM_STATE_ERROR) ∨
      stream_pending lex.stream =
        (stream_get lex e).1 :: stream_pending (stream_get lex e).2.1.stream ∨
      (stream_pending lex.stream = [] ∧
        utf8_well_formed (to_uchar (stream_get lex e).1 ::
          (stream_pending (stream_get lex e).2.1.stream).map to_uchar)) := by
  have hd := stream_get_decoded lex e hv.1 hv.2.2
  rcases stream_get_shape lex e hv.1.1 with h | ⟨h1, h2, h3, h4, h5⟩ | ⟨h1, h2, h3, h4⟩
  · exact Or.inl h
  · refine Or.inr (Or.inl ?_)
    unfold stream_pending
    rw [h3, h4, h5]
    exact buffer_pending_cons _ _ h2
  · refine Or.inr (Or.inr ⟨buffer_pending_zero _ _ h2, ?_⟩)
    obtain ⟨k1, k2, k3⟩ := hd h1
    unfold stream_pending
    rw [h3, h4]
    by_cases hz : (stream_get lex e).2.1.stream.buffer.getD 0 0 = 0
    · have hnil := buffer_pending_zero _ _ hz
      rw [hnil] at k3
      have h10 := k3 (by rw [h3]; rfl)
      rw [h3] at h10
      rw [hz, buffer_pending_zero _ _ h10]
      decide
    · have hc := buffer_pending_cons _ _ hz
      rw [hc] at k1
      exact k1

theorem lex_get_save_whole (lex : lex_t) (e : json_error_t) (hv : lex.stream.valid)
    (hw : lex.whole) :
    ((lex_get_save lex e).1 = STREAM_STATE_EOF ∨ (lex_get_save lex e).1 = STREAM_STATE_ERROR) ∨
      (lex_get_save lex e).2.1.whole := by
  have hp := stream_get_pending lex e hv
  have hsv := (stream_get_same lex e).saved
  unfold lex_get_save
  simp only
  by_cases hc : (stream_get lex e).1 ≠ STREAM_STATE_EOF ∧ (stream_get lex e).1 ≠ STREAM_STATE_ERROR
  · rw [if_pos hc]
    refine Or.inr ?_
    have hnt : ¬ ((stream_get lex e).1 = STREAM_STATE_EOF ∨
        (stream_get lex e).1 = STREAM_STATE_ERROR) := fun h' => h'.elim hc.1 hc.2
    show utf8_well_formed ((stream_get lex e).2.1.saved_text ++ [to_uchar (stream_get lex e).1] ++
      (stream_pending (stream_get lex e).2.1.stream).map to_uchar)
    rw [hsv, List.append_assoc]
    rcases hp.resolve_left hnt with h1 | ⟨h1, h2⟩
    · unfold lex_t.whole at hw
      rw [h1] at hw
      exact hw
    · unfold lex_t.whole at hw
      rw [h1] at hw
      simp only [List.map_nil, List.append_nil] at hw
      unfold utf8_well_formed at hw h2 ⊢
      rw [utf8_scan_whole_append _ _ hw]
      exact h2
  · rw [if_neg hc]
    refine Or.inl ?_
    by_contra hnt
    exact hc ⟨fun h => hnt (Or.inl h), fun h => hnt (Or.inr h)⟩

theorem l_isxdigit_data (c : Int) (h : ¬ (l_isxdigit c = false)) :
    ¬ (c = STREAM_STATE_EOF ∨ c = STREAM_STATE_ERROR) := by
  intro hc
  apply h
  rcases hc with hc | hc <;> rw [hc] <;> decide

theorem lex_scan_string_hex_whole :
    ∀ (n : Nat) (lex : lex_t) (c : Int) (e : json_error_t), lex.stream.valid →
      ((c = STREAM_STATE_EOF ∨ c = STREAM_STATE_ERROR) ∨ lex.whole) →
      ∀ c1, (lex_scan_string_hex n lex c e).1 = some c1 →
        (c1 = STREAM_STATE_EOF ∨ c1 = STREAM_STATE_ERROR) ∨
          (lex_scan_string_hex n lex c e).2.1.whole := by
  intro n
  induction n with
  | zero =>
    intro lex c e _ hq c1 h
    simp only [lex_scan_string_hex, Option.some.injEq] at h
    rw [← h]
    exact hq
  | succ n ih =>
    intro lex c e hv hq c1
    simp only [lex_scan_string_hex]
    by_cases hx : l_isxdigit c = false
    · rw [if_pos hx]
      intro h
      simp at h
    · rw [if_neg hx]
      exact ih _ _ _ (lex_get_save_inv stream_valid_inv lex e hv)
        (lex_get_save_whole lex e hv (hq.resolve_left (l_isxdigit_data c hx))) c1

theorem lex_scan_string_body_whole (lex : lex_t) (c : Int) (e : json_error_t)
    (hv : lex.stream.valid)
    (hq : (c = STREAM_STATE_EOF ∨ c = STREAM_STATE_ERROR) ∨ lex.whole) :
    ∀ c1, (lex_scan_string_body lex c e).1 = some c1 →
      (c1 = STREAM_STATE_EOF ∨ c1 = STREAM_STATE_ERROR) ∨
        (lex_scan_string_body lex c e).2.1.whole := by
  intro c1
  unfold lex_scan_string_body
  by_cases h1 : c = STREAM_STATE_ERROR
  · rw [if_pos h1]
    intro h; simp at h
  rw [if_neg h1]
  by_cases h2 : c = STREAM_STATE_EOF
  · rw [if_pos h2]
    intro h; simp at h
  rw [if_neg h2]
  have hw : lex.whole := hq.resolve_left (fun h => h.elim h2 h1)
  by_cases h3 : 0 ≤ c ∧ c ≤ 0x1F
  · rw [if_pos h3]
    simp only
    by_cases h4 : c = 10
    · rw [if_pos h4]
      intro h; simp at h
    · rw [if_neg h4]
      intro h; simp at h
  rw [if_neg h3]
  have hv1 := lex_get_save_inv stream_valid_inv lex e hv
  have hq1 := lex_get_save_whole lex e hv hw
  by_cases h4 : c = 92
  · rw [if_pos h4]
    simp only
    by_cases h5 : (lex_get_save lex e).1 = 117
    · rw [if_pos h5]
      have hw1 : (lex_get_save lex e).2.1.whole :=
        hq1.resolve_left (by rw [h5]; intro h; rcases h with h | h <;> revert h <;> decide)
      exact lex_scan_string_hex_whole 4 _ _ _ (lex_get_save_inv stream_valid_inv _ _ hv1)
        (lex_get_save_whole _ _ hv1 hw1) c1
    rw [if_neg h5]
    by_cases h6 : (lex_get_save lex e).1 = 34 ∨ (lex_get_save lex e).1 = 92 ∨
        (lex_get_save lex e).1 = 47 ∨ (lex_get_save lex e).1 = 98 ∨
        (lex_get_save lex e).1 = 102 ∨ (lex_get_save lex e).1 = 110 ∨
        (lex_get_save lex e).1 = 114 ∨ (lex_get_save lex e).1 = 116
    · rw [if_pos h6]
      have hw1 : (lex_get_save lex e).2.1.whole := by
        apply hq1.resolve_left
        intro h
        rcases h with h | h <;> rw [h] at h6 <;> revert h6 <;> decide
      intro h
      simp only [Option.some.injEq] at h
      rw [← h]
      exact lex_get_save_whole _ _ hv1 hw1
    · rw [if_neg h6]
      intro h; simp at h
  · rw [if_neg h4]
    intro h
    simp only [Option.some.injEq] at h
    rw [← h]
    exact hq1

theorem lex_scan_string_loop_whole :
    ∀ (n : Nat) (lex : lex_t) (c : Int) (e : json_error_t) (lex1 : lex_t) (e1 : json_error_t),
      lex.stream.valid → ((c = STREAM_STATE_EOF ∨ c = STREAM_STATE_ERROR) ∨ lex.whole) →
      lex_scan_string_loop n lex c e = some (true, lex1, e1) → lex1.whole := by
  intro n
  induction n with
  | zero => intro lex c e lex1 e1 _ _ h; simp [lex_scan_string_loop] at h
  | succ n ih =>
    intro lex c e lex1 e1 hv hq h
    simp only [lex_scan_string_loop] at h
    by_cases hc : c = 34
    · rw [if_pos hc] at h
      simp only [Option.some.injEq, Prod.mk.injEq, true_and] at h
      obtain ⟨rfl, _⟩ := h
      exact hq.resolve_left (by rw [hc]; intro h; rcases h with h | h <;> revert h <;> decide)
    · rw [if_neg hc] at h
      have h1 := lex_scan_string_body_inv stream_valid_inv lex c e hv
      have h2 := lex_scan_string_body_whole lex c e hv hq
      generalize lex_scan_string_body lex c e = q at h h1 h2
      obtain ⟨oc, lex2, e2⟩ := q
      cases oc with
      | none => simp at h
      | some c2 => exact ih lex2 c2 e2 lex1 e1 h1 (h2 c2 rfl) h

/-- The payload of a string token that `lex_scan_string` gives, entered with
the opening quote saved and the bytes pending in the buffer well-formed, is
well-formed UTF-8. -/
theorem lex_scan_string_payload (lex : lex_t) (e : json_error_t) (lex1 : lex_t)
    (e1 : json_error_t) (hv : lex.stream.valid) (hw : lex.whole) (hsv : lex.saved_text = [34])
    (h : lex_scan_string lex e = some (lex1, e1)) (htok : lex1.token = TOKEN_STRING) :
    ∃ payload, lex1.value = lex_value.string (some payload) ∧ utf8_well_formed payload := by
  obtain ⟨b, lex2, e2, hloop, _, _, hstr⟩ := lex_scan_string_first_pass lex e lex1 e1 h
  obtain ⟨hb, t, hdec, hval⟩ := hstr htok
  subst hb
  refine ⟨t, hval, ?_⟩
  generalize hL : ({ lex with value := lex_value.string none, token := TOKEN_INVALID } : lex_t)
    = L at hloop
  have hLs : L.saved_text = [34] := by rw [← hL]; exact hsv
  have hLv : L.stream.valid := by rw [← hL]; exact hv
  have hLw : L.whole := by rw [← hL]; exact hw
  have hs0 := lex_get_save_saved L e
  obtain ⟨hwf0, hc0⟩ := lex_get_save_wf L e hLv.1.1
  have hv0 := lex_get_save_inv stream_valid_inv L e hLv
  have hq0 := lex_get_save_whole L e hLv hLw
  rw [hLs] at hs0
  have hw2 := lex_scan_string_loop_whole _ _ _ _ lex2 e2 hv0 hq0 hloop
  obtain ⟨items, hok, hsv2⟩ := lex_scan_string_loop_sound _ _ _ _ [] lex2 e2 hwf0 hc0
    (fun i hi => by cases hi) (by simpa [string_text] using hs0) hloop
  have hd := lex_scan_string_decode_items lex2 e2 [] items.length items (Nat.le_refl _) hok
    (lex2.saved_text.length + 1) [] (by rw [hsv2]; simp; omega)
  have hp : lex2.saved_text.drop 1 = string_text items ++ [34] := by rw [hsv2]; rfl
  rw [hp, hd] at hdec
  cases hu : unescape items with
  | error msg =>
    rw [hu] at hdec
    simp [decode_result] at hdec
  | ok u =>
    rw [hu] at hdec
    simp only [decode_result, List.nil_append, Option.some.injEq, Prod.mk.injEq] at hdec
    obtain ⟨hut, _⟩ := hdec
    subst hut
    unfold lex_t.whole utf8_well_formed at hw2
    rw [hsv2, show 34 :: string_text items ++ [34] ++
        (stream_pending lex2.stream).map to_uchar =
      [34] ++ (string_text items ++ ([34] ++ (stream_pending lex2.stream).map to_uchar)) by
        simp] at hw2
    obtain ⟨_, k1⟩ := utf8_scan_ascii_append [34] _ [] [] (by simp) (by simp) cont_state_nil hw2
    obtain ⟨s, k2, k3⟩ := utf8_scan_append_some _ _ _ _ k1
    obtain ⟨k4, _⟩ := utf8_scan_ascii_append [34] _ s [] (by simp) (by simp)
      (utf8_scan_cont _ [] s cont_state_nil k2) k3
    subst k4
    exact unescape_scan items.length items (Nat.le_refl _) hok [] [] u cont_state_nil k2 hu

theorem lex_scan_digits_token :
    ∀ (n : Nat) (lex : lex_t) (c : Int) (e : json_error_t) (c1 : Int) (lex1 : lex_t)
      (e1 : json_error_t),
      lex_scan_digits n lex c e = some (c1, lex1, e1) → lex1.token = lex.token := by
  intro n
  induction n with
  | zero => intro lex c e c1 lex1 e1 h; simp [lex_scan_digits] at h
  | succ n ih =>
    intro lex c e c1 lex1 e1 h
    simp only [lex_scan_digits] at h
    by_cases hd : l_isdigit c = true
    · rw [if_pos hd] at h
      rw [ih _ _ _ c1 lex1 e1 h, lex_get_save_token]
    · rw [if_neg hd] at h
      simp only [Option.some.injEq, Prod.mk.injEq] at h
      obtain ⟨_, rfl, _⟩ := h
      rfl

theorem lex_scan_number_exponent_token (fuel : Nat) (lex : lex_t) (e : json_error_t)
    (oc : Option Int) (lex1 : lex_t) (e1 : json_error_t)
    (h : lex_scan_number_exponent fuel lex e = some (oc, lex1, e1)) :
    lex1.token = lex.token := by
  unfold lex_scan_number_exponent at h
  simp only at h
  have hg2 : (if (lex_get_save lex e).1 = 43 ∨ (lex_get_save lex e).1 = 45 then
        lex_get_save (lex_get_save lex e).2.1 (lex_get_save lex e).2.2
       else lex_get_save lex e).2.1.token = lex.token := by
    split_ifs
    · rw [lex_get_save_token, lex_get_save_token]
    · rw [lex_get_save_token]
  generalize (if (lex_get_save lex e).1 = 43 ∨ (lex_get_save lex e).1 = 45 then
        lex_get_save (lex_get_save lex e).2.1 (lex_get_save lex e).2.2
       else lex_get_save lex e) = r at h hg2
  by_cases hd : l_isdigit r.1 = false
  · rw [if_pos hd] at h
    simp only [Option.some.injEq, Prod.mk.injEq] at h
    obtain ⟨_, rfl, _⟩ := h
    rw [lex_unget_unsave_token, hg2]
  · rw [if_neg hd] at h
    cases hdig : lex_scan_digits fuel (lex_get_save r.2.1 r.2.2).2.1 (lex_get_save r.2.1 r.2.2).1
        (lex_get_save r.2.1 r.2.2).2.2 with
    | none => rw [hdig] at h; simp at h
    | some q =>
      obtain ⟨c2, lex2, e2⟩ := q
      rw [hdig] at h
      simp only [Option.some.injEq, Prod.mk.injEq] at h
      obtain ⟨_, rfl, _⟩ := h
      rw [lex_scan_digits_token fuel _ _ _ c2 lex2 e2 hdig, lex_get_save_token, hg2]

theorem lex_scan_number_fraction_token (fuel : Nat) (lex : lex_t) (e : json_error_t)
    (oc : Option Int) (lex1 : lex_t) (e1 : json_error_t)
    (h : lex_scan_number_fraction fuel lex e = some (oc, lex1, e1)) :
    lex1.token = lex.token := by
  unfold lex_scan_number_fraction at h
  simp only at h
  have ht : (lex_get lex e).2.1.token = lex.token := (stream_get_same lex e).token
  by_cases hd : l_isdigit (lex_get lex e).1 = false
  · rw [if_pos hd] at h
    simp only [Option.some.injEq, Prod.mk.injEq] at h
    obtain ⟨_, rfl, _⟩ := h
    exact ht
  · rw [if_neg hd] at h
    cases hdig : lex_scan_digits fuel
        (lex_get_save (lex_save (lex_get lex e).2.1 (lex_get lex e).1) (lex_get lex e).2.2).2.1
        (lex_get_save (lex_save (lex_get lex e).2.1 (lex_get lex e).1) (lex_get lex e).2.2).1
        (lex_get_save (lex_save (lex_get lex e).2.1 (lex_get lex e).1) (lex_get lex e).2.2).2.2 with
    | none => rw [hdig] at h; simp at h
    | some q =>
      obtain ⟨c2, lex2, e2⟩ := q
      rw [hdig] at h
      simp only [Option.some.injEq, Prod.mk.injEq] at h
      obtain ⟨_, rfl, _⟩ := h
      rw [lex_scan_digits_token fuel _ _ _ c2 lex2 e2 hdig, lex_get_save_token, lex_save_token, ht]

theorem integer_ne_string : TOKEN_INTEGER ≠ TOKEN_STRING := by decide

theorem biginteger_ne_string : TOKEN_BIGINTEGER ≠ TOKEN_STRING := by decide

theorem real_ne_string : TOKEN_REAL ≠ TOKEN_STRING := by decide

theorem bigreal_ne_string : TOKEN_BIGREAL ≠ TOKEN_STRING := by decide

theorem lex_scan_number_integer_not_string (ctx : json_context_t) (lex : lex_t)
    (flags : load_flags) (e : json_error_t) (h : lex.token ≠ TOKEN_STRING) :
    (lex_scan_number_integer ctx lex flags e).2.1.token ≠ TOKEN_STRING := by
  unfold lex_scan_number_integer
  simp only
  split_ifs
  · exact biginteger_ne_string
  · exact biginteger_ne_string
  · exact h
  · exact h
  · exact integer_ne_string

theorem lex_scan_number_real_not_string (ctx : json_context_t) (lex : lex_t)
    (flags : load_flags) (sd : Int) (e : json_error_t) (h : lex.token ≠ TOKEN_STRING) :
    (lex_scan_number_real ctx lex flags sd e).2.1.token ≠ TOKEN_STRING := by
  unfold lex_scan_number_real
  simp only
  split_ifs
  · exact bigreal_ne_string
  · exact bigreal_ne_string
  · exact h
  · exact real_ne_string

theorem lex_scan_number_tail_not_string (ctx : json_context_t) (fuel : Nat) (lex : lex_t)
    (c : Int) (flags : load_flags) (e : json_error_t) (r : Int × lex_t × json_error_t)
    (hg : lex.token ≠ TOKEN_STRING)
    (h : lex_scan_number_tail ctx fuel lex c flags e = some r) :
    r.2.1.token ≠ TOKEN_STRING := by
  unfold lex_scan_number_tail at h
  by_cases h1 : c ≠ 46 ∧ c ≠ 69 ∧ c ≠ 101
  · rw [if_pos h1] at h
    simp only [Option.some.injEq] at h
    rw [← h]
    exact lex_scan_number_integer_not_string ctx _ flags e
      (by rw [lex_unget_unsave_token]; exact hg)
  rw [if_neg h1] at h
  simp only at h
  have hfrac : ∀ oc lex2 e2,
      (if c = 46 then lex_scan_number_fraction fuel lex e else some (some c, lex, e)) =
        some (oc, lex2, e2) → lex2.token = lex.token := by
    intro oc lex2 e2 hq
    by_cases h2 : c = 46
    · rw [if_pos h2] at hq
      exact lex_scan_number_fraction_token fuel lex e oc lex2 e2 hq
    · rw [if_neg h2] at hq
      simp only [Option.some.injEq, Prod.mk.injEq] at hq
      obtain ⟨_, rfl, _⟩ := hq
      rfl
  generalize (if c = 46 then lex_scan_number_fraction fuel lex e else some (some c, lex, e)) = fr
    at h hfrac
  cases fr with
  | none => simp at h
  | some q =>
    obtain ⟨oc, lex2, e2⟩ := q
    have hs2 := hfrac oc lex2 e2 rfl
    cases oc with
    | none =>
      simp only [Option.some.injEq] at h
      rw [← h]
      show lex2.token ≠ TOKEN_STRING
      rw [hs2]; exact hg
    | some c2 =>
      simp only at h
      by_cases h3 : c2 = 69 ∨ c2 = 101
      · rw [if_pos h3] at h
        cases hex : lex_scan_number_exponent fuel lex2 e2 with
        | none => rw [hex] at h; simp at h
        | some q3 =>
          obtain ⟨oc3, lex3, e3⟩ := q3
          rw [hex] at h
          have hs3 := lex_scan_number_exponent_token fuel lex2 e2 oc3 lex3 e3 hex
          cases oc3 with
          | none =>
            simp only [Option.some.injEq] at h
            rw [← h]
            show lex3.token ≠ TOKEN_STRING
            rw [hs3, hs2]; exact hg
          | some c3 =>
            simp only [Option.some.injEq] at h
            rw [← h]
            exact lex_scan_number_real_not_string ctx _ flags _ e3
              (by rw [lex_unget_unsave_token, hs3, hs2]; exact hg)
      · rw [if_neg h3] at h
        simp only [Option.some.injEq] at h
        rw [← h]
        exact lex_scan_number_real_not_string ctx _ flags _ e2
          (by rw [lex_unget_unsave_token, hs2]; exact hg)

theorem lex_scan_number_not_string (ctx : json_context_t) (lex : lex_t) (c : Int)
    (flags : load_flags) (e : json_error_t) (r : Int × lex_t × json_error_t)
    (h : lex_scan_number ctx lex c flags e = some r) : r.2.1.token ≠ TOKEN_STRING := by
  unfold lex_scan_number at h
  simp only at h
  have hs0 : ({ lex with token := TOKEN_INVALID } : lex_t).token ≠ TOKEN_STRING :=
    invalid_ne_string
  generalize hL : ({ lex with token := TOKEN_INVALID } : lex_t) = L at h hs0
  have hfirst : (if c = 45 then lex_get_save L e else (c, L, e)).2.1.token ≠ TOKEN_STRING := by
    by_cases h45 : c = 45
    · rw [if_pos h45, lex_get_save_token]
      exact hs0
    · rw [if_neg h45]
      exact hs0
  generalize (if c = 45 then lex_get_save L e else (c, L, e)) = q at h hfirst
  obtain ⟨c1, lex1, e1⟩ := q
  simp only at h hfirst
  by_cases h48 : c1 = 48
  · rw [if_pos h48] at h
    by_cases hd : l_isdigit (lex_get_save lex1 e1).1 = true
    · rw [if_pos hd] at h
      simp only [Option.some.injEq] at h
      rw [← h]
      show (lex_unget_unsave _ _).token ≠ TOKEN_STRING
      rw [lex_unget_unsave_token, lex_get_save_token]
      exact hfirst
    · rw [if_neg hd] at h
      exact lex_scan_number_tail_not_string ctx _ _ _ flags _ r
        (by rw [lex_get_save_token]; exact hfirst) h
  rw [if_neg h48] at h
  by_cases hd : l_isdigit c1 = true
  · rw [if_pos hd] at h
    cases hdig : lex_scan_digits (lex.stream.data.length + 6) (lex_get_save lex1 e1).2.1
        (lex_get_save lex1 e1).1 (lex_get_save lex1 e1).2.2 with
    | none => rw [hdig] at h; simp at h
    | some q2 =>
      obtain ⟨c2, lex2, e2⟩ := q2
      rw [hdig] at h
      simp only at h
      exact lex_scan_number_tail_not_string ctx _ lex2 c2 flags e2 r
        (by rw [lex_scan_digits_token _ _ _ _ c2 lex2 e2 hdig, lex_get_save_token]; exact hfirst)
        h
  · rw [if_neg hd] at h
    simp only [Option.some.injEq] at h
    rw [← h]
    show (lex_unget_unsave _ _).token ≠ TOKEN_STRING
    rw [lex_unget_unsave_token]
    exact hfirst

/-- After an ASCII byte other than NUL has been handed out of the buffer, the
bytes still pending are whole code points. -/
theorem back_ascii_whole (s : stream_t) (c : Int) (hd : s.decoded) (hb : Back s c)
    (hc0 : 0 < c) (hc1 : c < 128) : utf8_well_formed ((stream_pending s).map to_uchar) := by
  obtain ⟨hOK, hpos, hback⟩ := hb
  obtain ⟨k1, k2, k3⟩ := hd hOK
  have hend := buffer_pending_end s.buffer 0
  rw [Nat.zero_add] at hend
  have hlt : s.buffer_pos - 1 < (buffer_pending s.buffer 0).length := by
    by_contra hge
    have hp : s.buffer_pos - 1 = (buffer_pending s.buffer 0).length := by omega
    rw [hp, hend] at hback
    omega
  obtain ⟨g1, _⟩ := buffer_pending_getD s.buffer 0 (s.buffer_pos - 1) hlt
  rw [Nat.zero_add, hback] at g1
  have hdrop := buffer_pending_drop s.buffer s.buffer_pos 0 (by omega)
  rw [Nat.zero_add] at hdrop
  unfold stream_pending
  rw [hdrop]
  generalize buffer_pending s.buffer 0 = H at k1 hlt g1
  have hsplit : H = H.take (s.buffer_pos - 1) ++ c :: H.drop s.buffer_pos := by
    have h1 := (List.take_append_drop (s.buffer_pos - 1) H).symm
    rw [List.drop_eq_getElem_cons hlt] at h1
    have h2 : H[s.buffer_pos - 1] = c := by
      rw [← g1, List.getD_eq_getElem?_getD, List.getElem?_eq_getElem hlt]
      rfl
    rw [h2, show s.buffer_pos - 1 + 1 = s.buffer_pos by omega] at h1
    exact h1
  unfold utf8_well_formed at k1 ⊢
  rw [hsplit, List.map_append, List.map_cons] at k1
  obtain ⟨st, k4, k5⟩ := utf8_scan_append_some _ _ _ _ k1
  have hu : to_uchar c < 0x80 := by unfold to_uchar; omega
  obtain ⟨_, k6⟩ := utf8_scan_ascii_append [to_uchar c] _ st []
    (by simpa using hu) (by simp) (utf8_scan_cont _ [] st cont_state_nil k4) k5
  exact k6

theorem lex_scan_space_back :
    ∀ (n : Nat) (lex : lex_t) (c : Int) (e : json_error_t) (c1 : Int) (lex1 : lex_t)
      (e1 : json_error_t), lex.stream.valid →
      ((c = STREAM_STATE_EOF ∨ c = STREAM_STATE_ERROR) ∨ Back lex.stream c) →
      lex_scan_space n lex c e = some (c1, lex1, e1) →
      lex1.stream.valid ∧
        ((c1 = STREAM_STATE_EOF ∨ c1 = STREAM_STATE_ERROR) ∨ Back lex1.stream c1) ∧
        lex1.saved_text = lex.saved_text := by
  intro n
  induction n with
  | zero => intro lex c e c1 lex1 e1 _ _ h; simp [lex_scan_space] at h
  | succ n ih =>
    intro lex c e c1 lex1 e1 hv hb h
    simp only [lex_scan_space] at h
    by_cases hws : c = 32 ∨ c = 9 ∨ c = 10 ∨ c = 13
    · rw [if_pos hws] at h
      obtain ⟨k1, k2, k3⟩ := ih _ _ _ c1 lex1 e1 (stream_valid_inv.get lex e hv)
        (stream_get_back lex e hv.1.1) h
      exact ⟨k1, k2, by rw [k3]; exact (stream_get_same lex e).saved⟩
    · rw [if_neg hws] at h
      simp only [Option.some.injEq, Prod.mk.injEq] at h
      obtain ⟨rfl, rfl, _⟩ := h
      exact ⟨hv, hb, rfl⟩

theorem true_ne_string : TOKEN_TRUE ≠ TOKEN_STRING := by decide

theorem false_ne_string : TOKEN_FALSE ≠ TOKEN_STRING := by decide

theorem null_ne_string : TOKEN_NULL ≠ TOKEN_STRING := by decide

theorem eof_ne_string : TOKEN_EOF ≠ TOKEN_STRING := by decide

/-- The branches of `lex_scan` after the first byte of the token has been
saved: only the branch of the quote gives the string token, and its payload is
well-formed UTF-8. -/
theorem lex_scan_token_string (ctx : json_context_t) (fuel : Nat) (lex : lex_t) (c : Int)
    (flags : load_flags) (e : json_error_t) (lex1 : lex_t) (e1 : json_error_t)
    (hv : lex.stream.valid) (hb : Back lex.stream c) (hsv : lex.saved_text = [to_uchar c])
    (h : lex_scan_token ctx fuel lex c flags e = some (lex1, e1))
    (htok : lex1.token = TOKEN_STRING) :
    ∃ payload, lex1.value = lex_value.string (some payload) ∧ utf8_well_formed payload := by
  unfold lex_scan_token at h
  by_cases h1 : c = 123 ∨ c = 125 ∨ c = 91 ∨ c = 93 ∨ c = 58 ∨ c = 44
  · rw [if_pos h1] at h
    simp only [Option.some.injEq, Prod.mk.injEq] at h
    obtain ⟨rfl, _⟩ := h
    have htok' : c = TOKEN_STRING := htok
    simp only [TOKEN_STRING] at htok'
    omega
  rw [if_neg h1] at h
  by_cases h2 : c = 34
  · rw [if_pos h2] at h
    subst h2
    have hp := back_ascii_whole lex.stream 34 hv.2.2 hb (by decide) (by decide)
    have hw : lex.whole := by
      unfold lex_t.whole utf8_well_formed
      rw [hsv]
      unfold utf8_well_formed at hp
      rw [utf8_scan_whole_append _ _ (by decide)]
      exact hp
    exact lex_scan_string_payload lex e lex1 e1 hv hw hsv h htok
  rw [if_neg h2] at h
  by_cases h3 : l_isdigit c = true ∨ c = 45
  · rw [if_pos h3] at h
    cases hnum : lex_scan_number ctx lex c flags e with
    | none => rw [hnum] at h; simp at h
    | some r =>
      rw [hnum] at h
      simp only [Option.some.injEq, Prod.mk.injEq] at h
      obtain ⟨rfl, _⟩ := h
      exact absurd htok (lex_scan_number_not_string ctx lex c flags e r hnum)
  rw [if_neg h3] at h
  by_cases h4 : l_isalpha c = true
  · rw [if_pos h4] at h
    simp only at h
    cases hal : lex_scan_alpha fuel (lex_get_save lex e).2.1 (lex_get_save lex e).1
        (lex_get_save lex e).2.2 with
    | none => rw [hal] at h; simp at h
    | some q =>
      obtain ⟨c2, lex2, e2⟩ := q
      rw [hal] at h
      simp only at h
      split_ifs at h <;> simp only [Option.some.injEq, Prod.mk.injEq] at h <;>
        obtain ⟨rfl, _⟩ := h
      · exact absurd htok true_ne_string
      · exact absurd htok false_ne_string
      · exact absurd htok null_ne_string
      · exact absurd htok invalid_ne_string
  · rw [if_neg h4] at h
    simp only [Option.some.injEq, Prod.mk.injEq] at h
    obtain ⟨rfl, _⟩ := h
    exact absurd htok invalid_ne_string

theorem lex_scan_string_token_payload (ctx : json_context_t) (lex : lex_t) (flags : load_flags)
    (e : json_error_t) (lex1 : lex_t) (e1 : json_error_t) (hv : lex.stream.valid)
    (h : lex_scan ctx lex flags e = some (lex1, e1)) (htok : lex1.token = TOKEN_STRING) :
    ∃ payload, lex1.value = lex_value.string (some payload) ∧ utf8_well_formed payload := by
  unfold lex_scan at h
  simp only at h
  have hv0 : (lex_clear lex).stream.valid := by rw [lex_clear_stream]; exact hv
  have hv1 : (lex_get (lex_clear lex) e).2.1.stream.valid := stream_valid_inv.get _ e hv0
  have hb1 := stream_get_back (lex_clear lex) e hv0.1.1
  have hsv1 : (stream_get (lex_clear lex) e).2.1.saved_text = [] := by
    rw [(stream_get_same (lex_clear lex) e).saved, lex_clear_saved]
  cases hsp : lex_scan_space ((lex_clear lex).stream.data.length + 6)
      (lex_get (lex_clear lex) e).2.1 (lex_get (lex_clear lex) e).1
      (lex_get (lex_clear lex) e).2.2 with
  | none => rw [hsp] at h; simp at h
  | some q =>
    obtain ⟨c2, lex2, e2⟩ := q
    rw [hsp] at h
    simp only at h
    obtain ⟨k1, k2, k3⟩ := lex_scan_space_back _ _ _ _ c2 lex2 e2 hv1 hb1 hsp
    have k3' : lex2.saved_text = [] := by rw [k3]; exact hsv1
    by_cases hE : c2 = STREAM_STATE_EOF
    · rw [if_pos hE] at h
      simp only [Option.some.injEq, Prod.mk.injEq] at h
      obtain ⟨rfl, _⟩ := h
      exact absurd htok eof_ne_string
    rw [if_neg hE] at h
    by_cases hR : c2 = STREAM_STATE_ERROR
    · rw [if_pos hR] at h
      simp only [Option.some.injEq, Prod.mk.injEq] at h
      obtain ⟨rfl, _⟩ := h
      exact absurd htok invalid_ne_string
    rw [if_neg hR] at h
    have hback := k2.resolve_left (fun h' => h'.elim hE hR)
    exact lex_scan_token_string ctx _ (lex_save lex2 c2) c2 flags e2 lex1 e1 k1 hback
      (by show lex2.saved_text ++ [to_uchar c2] = [to_uchar c2]; rw [k3']; rfl) h htok

/-- C31: every string token is produced by `lex_scan_string`, which `lex_scan`
calls after the opening quote, and its payload is well-formed UTF-8 in the
sense of table 3-7 of the Unicode Standard: a concatenation of minimal
encodings of code points U+0000 to U+10FFFF, none of them a surrogate (U+D800
to U+DFFF).  This holds for every call of `lex_scan` on a lexer whose stream is
valid (its buffer holds what `stream_get` has validated), which is so for the
stream of `lex_init` (`lex_init_valid`) and again after the call: `lex_scan`
returns, leaves the stream valid, and when the token is the string token there
is a payload and it is well-formed. -/
theorem lex_scan_string_payload_well_formed (ctx : json_context_t) (lex : lex_t)
    (flags : load_flags) (e : json_error_t) (hv : lex.stream.valid) :
    ∃ lex1 e1, lex_scan ctx lex flags e = some (lex1, e1) ∧ lex1.stream.valid ∧
      (lex1.token = TOKEN_STRING →
        ∃ payload, lex1.value = lex_value.string (some payload) ∧ utf8_well_formed payload) := by
  obtain ⟨lex1, e1, h, _, _, _⟩ := lex_scan_total ctx lex flags e hv.1
  exact ⟨lex1, e1, h, lex_scan_inv stream_valid_inv ctx lex flags e lex1 e1 hv h,
    lex_scan_string_token_payload ctx lex flags e lex1 e1 hv h⟩

theorem lex_scan_string_payload_well_formed_witness :
    ∃ lex1 e1, lex_scan plain_context
        (lex_init get_func.buffer_get [34, 195, 169, 92, 117, 48, 48, 101, 57, 34])
        no_flags jsonp_error_init = some (lex1, e1) ∧ lex1.stream.valid ∧
      (lex1.token = TOKEN_STRING →
        ∃ payload, lex1.value = lex_value.string (some payload) ∧ utf8_well_formed payload) :=
  lex_scan_string_payload_well_formed plain_context
    (lex_init get_func.buffer_get [34, 195, 169, 92, 117, 48, 48, 101, 57, 34])
    no_flags jsonp_error_init (lex_init_valid _ _)

end Jansson
